import Mathlib

/-!
# Wait-free atomic snapshot and strict 2PL lock manager

A shallow embedding of `project2` (AtomicRegister, Snapshot, shared_snapshot,
WaitfreeAtomicSnapshot) and of `project3` (lock_t, LockManager, TrxManager, RepeatTrx) with
the properties of their specification.

Conventions of the embedding
* a `uint64_t` is a `Nat` below `2 ^ 64`; unsigned arithmetic wraps (`% 2 ^ 64`);
* an `int` is an `Int` in `[-2 ^ 31, 2 ^ 31)`; conversions between the two follow the
  two's complement rule of the C++ casts;
* a failed `assert`, a null dereference, an out-of-range vector index and a signed
  overflow make the operation return `none`.
-/

/-! ## Machine integers -/

/-- Largest `int`. -/
def INT_MAX : Int := 2 ^ 31 - 1

/-- Smallest `int`. -/
def INT_MIN : Int := -(2 ^ 31)

/-- An `Int` that fits the C++ type `int`. -/
def isInt32 (v : Int) : Prop := INT_MIN ≤ v ∧ v ≤ INT_MAX

instance (v : Int) : Decidable (isInt32 v) := by
  unfold isInt32; exact inferInstance

/-- The cast `static_cast<uint64_t>(v)` of an `int`: sign extension to 64 bits. -/
def castIntToU64 (v : Int) : Nat := (v % (2 ^ 64 : Int)).toNat

/-- The cast `static_cast<int>(x)` (and `(int)(x)`) of a `uint64_t`: the low 32 bits read
as a two's complement number. -/
def castU64ToInt (x : Nat) : Int :=
  if x % 2 ^ 32 < 2 ^ 31 then ((x % 2 ^ 32 : Nat) : Int) else ((x % 2 ^ 32 : Nat) : Int) - 2 ^ 32

/-! ## AtomicRegister.hpp -/

namespace AtomicRegister

/-- Source: `#define TIMESTAMP_INC ((uint64_t)(0x0000000100000000))`. -/
def TIMESTAMP_INC : Nat := 0x0000000100000000

/-- Source: `#define TIMESTAMP_MASK(x) ((uint64_t)(0xffffffff00000000) & static_cast<uint64_t>(x))`,
applied to a value that already is a `uint64_t`. -/
def TIMESTAMP_MASK (timestamp_with_value : Nat) : Nat :=
  0xffffffff00000000 &&& timestamp_with_value

/-- Source: `#define VALUE_MASK(x) ((uint64_t)(0x00000000ffffffff) & static_cast<uint64_t>(x))`,
applied to a value that already is a `uint64_t`. -/
def VALUE_MASK (timestamp_with_value : Nat) : Nat :=
  0x00000000ffffffff &&& timestamp_with_value

end AtomicRegister

/-- The class `AtomicRegister`: one packed 64-bit word, timestamp in the high half and value
in the low half. -/
structure AtomicRegister where
  timestamp_with_value : Nat
deriving DecidableEq, Repr

namespace AtomicRegister

/-- Source: the default constructor, `uint64_t timestamp_with_value = 0`. -/
def default : AtomicRegister := ⟨0⟩

/-- The member is a `uint64_t`. -/
def wf (r : AtomicRegister) : Prop := r.timestamp_with_value < 2 ^ 64

instance (r : AtomicRegister) : Decidable r.wf := by
  unfold wf; exact inferInstance

/-- Source: `int read() { return static_cast<int>(VALUE_MASK(timestamp_with_value)); }`. -/
def read (r : AtomicRegister) : Int :=
  castU64ToInt (VALUE_MASK r.timestamp_with_value)

/-- Source: `bool operator!=(const AtomicRegister& r)`. -/
def ne (a b : AtomicRegister) : Bool :=
  a.timestamp_with_value != b.timestamp_with_value

/-- The timestamp field of the packed word: its high 32 bits. -/
def timestamp (r : AtomicRegister) : Nat := r.timestamp_with_value / 2 ^ 32

/-- Source: the first line of `write`,
`uint64_t new_timestamp_mask = TIMESTAMP_MASK(timestamp_with_value) + TIMESTAMP_INC;`
in 64-bit unsigned arithmetic. -/
def new_timestamp_mask (r : AtomicRegister) : Nat :=
  (TIMESTAMP_MASK r.timestamp_with_value + TIMESTAMP_INC) % 2 ^ 64

/-- Source: `void write(int value)`; `none` when `assert(new_timestamp_mask != 0)` fails. -/
def write (r : AtomicRegister) (value : Int) : Option AtomicRegister :=
  if r.new_timestamp_mask = 0 then none
  else
    let new_value_mask := VALUE_MASK (castIntToU64 value)
    some ⟨r.new_timestamp_mask ||| new_value_mask⟩

end AtomicRegister

/-! ## WaitfreeAtomicSnapshot.hpp / WaitfreeAtomicSnapshot.cpp : Snapshot -/

/-- Source: `#define REFERENCE_CNT_INC ((uint64_t)(0x0000000100000000))`. -/
def REFERENCE_CNT_INC : Nat := 0x0000000100000000

/-- Source: `#define REFERENCE_CNT_MASK(x) ((uint64_t)(0xffffffff00000000) & static_cast<uint64_t>(x))`. -/
def REFERENCE_CNT_MASK (ref_cnt_with_index : Nat) : Nat :=
  0xffffffff00000000 &&& ref_cnt_with_index

/-- Source: `#define EXTRACT_REFERENCE_CNT(x) ((int)(REFERENCE_CNT_MASK(x) >> 32))`. -/
def EXTRACT_REFERENCE_CNT (ref_cnt_with_index : Nat) : Int :=
  castU64ToInt (REFERENCE_CNT_MASK ref_cnt_with_index >>> 32)

/-- Source: `#define INDEX_MASK(x) ((uint64_t)(0x00000000ffffffff) & static_cast<uint64_t>(x))`. -/
def INDEX_MASK (ref_cnt_with_index : Nat) : Nat :=
  0x00000000ffffffff &&& ref_cnt_with_index

/-- The class `Snapshot`: the captured registers, the inner reference count (`std::atomic<int>`)
and the recycle flag. -/
structure Snapshot where
  inner_cnt : Int
  atomic_register_vector : List AtomicRegister
  recycle_flag : Bool
deriving DecidableEq, Repr

namespace Snapshot

/-- Source: `Snapshot(int thread_count) { atomic_register_vector.resize(thread_count); }`. -/
def ofCount (thread_count : Nat) : Snapshot :=
  ⟨0, List.replicate thread_count AtomicRegister.default, false⟩

/-- Source: `Snapshot(std::vector<AtomicRegister>& registers)`. -/
def ofRegisters (registers : List AtomicRegister) : Snapshot :=
  ⟨0, registers, false⟩

/-- Source: the copy and move constructors, which take over the registers only; the count and
the flag get their member initialisers. -/
def copy (s : Snapshot) : Snapshot :=
  ⟨0, s.atomic_register_vector, false⟩

/-- Source: `void operator=(Snapshot& s)` and `void operator=(Snapshot&& s)`:
`atomic_register_vector = s.atomic_register_vector; inner_cnt.store(0); recycle_flag = false;`. -/
def assign (_self : Snapshot) (s : Snapshot) : Snapshot :=
  ⟨0, s.atomic_register_vector, false⟩

/-- Source: `bool get_recycle_flag()`. -/
def get_recycle_flag (s : Snapshot) : Bool := s.recycle_flag

/-- Source: `void Snapshot::release()`:
`int remain_cnt = inner_cnt.fetch_add(1) + 1; if (remain_cnt == 0) recycle_flag = true;`.
`none` when the `int` addition overflows. -/
def release (s : Snapshot) : Option Snapshot :=
  let remain_cnt := s.inner_cnt + 1
  if isInt32 remain_cnt then
    some ⟨remain_cnt, s.atomic_register_vector, if remain_cnt = 0 then true else s.recycle_flag⟩
  else none

/-- Source: `void Snapshot::reset(int reset_cnt)`:
`int remain_cnt = inner_cnt.fetch_sub(reset_cnt) - reset_cnt; if (remain_cnt == 0) recycle_flag = true;`.
`none` when the `int` subtraction overflows. -/
def reset (s : Snapshot) (reset_cnt : Int) : Option Snapshot :=
  let remain_cnt := s.inner_cnt - reset_cnt
  if isInt32 remain_cnt then
    some ⟨remain_cnt, s.atomic_register_vector, if remain_cnt = 0 then true else s.recycle_flag⟩
  else none

end Snapshot

/-! ## shared_snapshot -/

/-- The class `shared_snapshot`: the 8-byte control block (outer reference count in the high
half, index of the current version in the low half), the snapshot pointers (`none` is
`nullptr`) and the version count. -/
structure shared_snapshot where
  outer_cnt_with_index : Nat
  snapshot_ptr_vector : List (Option Snapshot)
  version_count : Nat
deriving DecidableEq, Repr

namespace shared_snapshot

/-- Source: `shared_snapshot::shared_snapshot(const int version_count)`: every pointer null and
the control block zero. -/
def create (version_count : Nat) : shared_snapshot :=
  ⟨0, List.replicate version_count none, version_count⟩

/-- The members have their C++ types: the control block is a `uint64_t`, the version count a
non-negative `int`, and the vector holds `version_count` pointers. -/
def wf (h : shared_snapshot) : Prop :=
  h.outer_cnt_with_index < 2 ^ 64 ∧ h.version_count < 2 ^ 31 ∧
    h.snapshot_ptr_vector.length = h.version_count

instance (h : shared_snapshot) : Decidable h.wf := by
  unfold wf; exact inferInstance

/-- The outer reference count held in the control block. -/
def outer_cnt (h : shared_snapshot) : Nat := h.outer_cnt_with_index / 2 ^ 32

/-- The index of the current version held in the control block. -/
def current_index (h : shared_snapshot) : Nat := h.outer_cnt_with_index % 2 ^ 32

/-- The test of the search loop of `exchange`:
`snapshot_ptr_vector[i] == nullptr || snapshot_ptr_vector[i]->get_recycle_flag()`. -/
def isEmptySlot (p : Option Snapshot) : Bool :=
  match p with
  | none => true
  | some b => b.get_recycle_flag

/-- Source: the loop `for (i = 0; i < version_count; i++) { if (...) break; }` of `exchange`:
the first index whose slot is null or recyclable, `version_count` when there is none. -/
def findEmptyIndex (h : shared_snapshot) : Nat :=
  h.snapshot_ptr_vector.findIdx isEmptySlot

/-- Source: `void shared_snapshot::exchange(Snapshot& snapshot)` (the overload taking
`Snapshot&&` is the same but for moving). `none` when one of the two assertions
fails, when the old version is a null pointer or when `reset` overflows. -/
def exchange (h : shared_snapshot) (snapshot : Snapshot) : Option shared_snapshot :=
  let i := h.findEmptyIndex
  if i = h.version_count then none
  else
    match h.snapshot_ptr_vector[i]? with
    | none => none
    | some slot =>
      let installed : Snapshot :=
        match slot with
        | none => Snapshot.copy snapshot
        | some b => b.assign snapshot
      let ptrs := h.snapshot_ptr_vector.set i (some installed)
      let old_ref_cnt_with_index := h.outer_cnt_with_index
      let old_ref_cnt := EXTRACT_REFERENCE_CNT old_ref_cnt_with_index
      if old_ref_cnt < 0 then none
      else
        let old_index := INDEX_MASK old_ref_cnt_with_index
        if old_index ≠ i then
          match ptrs[old_index]? with
          | some (some old) =>
            match old.reset old_ref_cnt with
            | some old1 => some ⟨i % 2 ^ 64, ptrs.set old_index (some old1), h.version_count⟩
            | none => none
          | _ => none
        else some ⟨i % 2 ^ 64, ptrs, h.version_count⟩

/-- Source: `Snapshot& shared_snapshot::acquire()`: `fetch_add(REFERENCE_CNT_INC)` on the control
block, the low half of the fetched word is the index of the returned buffer. The reference is
modelled by that index; `none` when the pointer at the index is null or out of range. -/
def acquire (h : shared_snapshot) : Option (Nat × shared_snapshot) :=
  let ref_cnt_with_index := h.outer_cnt_with_index
  let index := INDEX_MASK ref_cnt_with_index
  match h.snapshot_ptr_vector[index]? with
  | some (some _) =>
    some (index, ⟨(ref_cnt_with_index + REFERENCE_CNT_INC) % 2 ^ 64, h.snapshot_ptr_vector,
      h.version_count⟩)
  | _ => none

/-- The call `snapshot.release()` on the buffer that a reference obtained from `acquire` points
to, the reference being the index `index`. -/
def releaseAt (h : shared_snapshot) (index : Nat) : Option shared_snapshot :=
  match h.snapshot_ptr_vector[index]? with
  | some (some b) =>
    match b.release with
    | some b1 => some ⟨h.outer_cnt_with_index, h.snapshot_ptr_vector.set index (some b1),
        h.version_count⟩
    | none => none
  | _ => none

end shared_snapshot

/-! ## WaitfreeAtomicSnapshot -/

/-- The class `WaitfreeAtomicSnapshot`. Thread ids are natural numbers and the hash table
`tid_to_index` is an association list with at most one entry per key. -/
structure WaitfreeAtomicSnapshot where
  atomic_register_vector : List AtomicRegister
  shared_snapshot_vector : List shared_snapshot
  tid_to_index : List (Nat × Int)
  tid_index : Int
  thread_count : Nat
deriving DecidableEq, Repr

/-- What one pass of the `for` loop of `scan` ends with: either the `return` inside the loop,
taken at the register whose change count reached 2, or the end of the loop with the second
snapshot, the change counts and `same_flag`. -/
inductive Collect where
  | borrowed (i : Nat)
  | finished (second_snapshot : List AtomicRegister) (change_count_vector : List Int)
      (same_flag : Bool)
deriving DecidableEq, Repr

/-- How a call of `scan` ends: it returns a snapshot (leaving the holders in some state, after
`iterations` passes of its `while` loop), it crashes (null or out-of-range access, overflow),
or the fuel given to the model ran out before the loop ended. -/
inductive ScanResult where
  | returned (snapshot : Snapshot) (holders : List shared_snapshot) (iterations : Nat)
  | crashed
  | unfinished
deriving DecidableEq, Repr

namespace WaitfreeAtomicSnapshot

/-- Source: `WaitfreeAtomicSnapshot::WaitfreeAtomicSnapshot(const int thread_count)`:
`thread_count` default registers and `thread_count` holders of `thread_count + 1` versions. -/
def create (thread_count : Nat) : WaitfreeAtomicSnapshot :=
  { atomic_register_vector := List.replicate thread_count AtomicRegister.default
    shared_snapshot_vector := List.replicate thread_count (shared_snapshot.create (thread_count + 1))
    tid_to_index := []
    tid_index := 0
    thread_count := thread_count }

/-- Source: `tid_to_index.insert(std::pair<std::thread::id, int>(tid, index))`: a key that is
present keeps its value. -/
def mapInsert (m : List (Nat × Int)) (tid : Nat) (index : Int) : List (Nat × Int) :=
  match m.lookup tid with
  | some _ => m
  | none => m ++ [(tid, index)]

/-- Source: `int WaitfreeAtomicSnapshot::RegisterTid(std::thread::id tid)`:
`int index = tid_index++; tid_to_index.insert(...); return index;`. `none` when the
increment of the `int` overflows. -/
def RegisterTid (s : WaitfreeAtomicSnapshot) (tid : Nat) : Option (Int × WaitfreeAtomicSnapshot) :=
  let index := s.tid_index
  if isInt32 (s.tid_index + 1) then
    some (index, { s with tid_index := s.tid_index + 1
                          tid_to_index := mapInsert s.tid_to_index tid index })
  else none

/-- Source: the body of `for (int i = 0; i < thread_count; i++)` in `scan`, run for the
`remaining` indices from `i` on. `read i` is what the load of `atomic_register_vector[i]`
yields in this pass. -/
def collect (read : Nat → AtomicRegister) (first_snapshot : List AtomicRegister) :
    (remaining i : Nat) → (second_snapshot : List AtomicRegister) →
    (change_count_vector : List Int) → (same_flag : Bool) → Collect
  | 0, _, second_snapshot, change_count_vector, same_flag =>
    Collect.finished second_snapshot change_count_vector same_flag
  | remaining + 1, i, second_snapshot, change_count_vector, same_flag =>
    let second_snapshot := second_snapshot.set i (read i)
    if (first_snapshot.getD i AtomicRegister.default).ne
        (second_snapshot.getD i AtomicRegister.default) then
      let change_count_vector := change_count_vector.set i (change_count_vector.getD i 0 + 1)
      if change_count_vector.getD i 0 = 2 then Collect.borrowed i
      else collect read first_snapshot remaining (i + 1) second_snapshot change_count_vector false
    else collect read first_snapshot remaining (i + 1) second_snapshot change_count_vector same_flag

/-- Source: the three statements of `scan` under `if (++change_count_vector[i] == 2)`:
`acquire` the snapshot of writer `i`, copy it into `first_snapshot`, `release` it and return
the copy. -/
def borrow (holders : List shared_snapshot) (first_snapshot : Snapshot) (i : Nat) :
    Option (Snapshot × List shared_snapshot) :=
  match holders[i]? with
  | none => none
  | some h =>
    match h.acquire with
    | none => none
    | some (index, h1) =>
      match h1.snapshot_ptr_vector[index]? with
      | some (some writer_snapshot) =>
        let first_snapshot := first_snapshot.assign writer_snapshot
        match h1.releaseAt index with
        | some h2 => some (Snapshot.copy first_snapshot, holders.set i h2)
        | none => none
      | _ => none

/-- Source: the `while (true)` loop of `scan`. `reads k i` is what the load of register `i`
yields in pass `k` of the loop; `iteration` counts the passes made so far and `fuel` bounds
the passes still allowed. -/
def scanLoop (reads : Nat → Nat → AtomicRegister) (thread_count : Nat)
    (holders : List shared_snapshot) :
    (fuel iteration : Nat) → (first_snapshot second_snapshot : Snapshot) →
    (change_count_vector : List Int) → ScanResult
  | 0, _, _, _, _ => ScanResult.unfinished
  | fuel + 1, iteration, first_snapshot, second_snapshot, change_count_vector =>
    match collect (reads iteration) first_snapshot.atomic_register_vector thread_count 0
        second_snapshot.atomic_register_vector change_count_vector true with
    | Collect.borrowed i =>
      match borrow holders first_snapshot i with
      | some (snapshot, holders1) => ScanResult.returned snapshot holders1 (iteration + 1)
      | none => ScanResult.crashed
    | Collect.finished second change_count_vector same_flag =>
      if same_flag then
        ScanResult.returned (Snapshot.copy first_snapshot) holders (iteration + 1)
      else
        let second_snapshot : Snapshot := { second_snapshot with atomic_register_vector := second }
        scanLoop reads thread_count holders fuel (iteration + 1)
          (first_snapshot.assign second_snapshot) second_snapshot change_count_vector

/-- Source: `Snapshot WaitfreeAtomicSnapshot::scan()` while other threads write: `first k` is
what the copy of register `k` into `first_snapshot` yields and `reads k i` what pass `k` of the
loop reads from register `i`. -/
def scanWith (s : WaitfreeAtomicSnapshot) (first : Nat → AtomicRegister)
    (reads : Nat → Nat → AtomicRegister) (fuel : Nat) : ScanResult :=
  let change_count_vector : List Int := List.replicate s.thread_count 0
  let first_snapshot := Snapshot.ofRegisters ((List.range s.thread_count).map first)
  let second_snapshot := Snapshot.ofCount s.thread_count
  scanLoop reads s.thread_count s.shared_snapshot_vector fuel 0 first_snapshot second_snapshot
    change_count_vector

/-- Source: `Snapshot WaitfreeAtomicSnapshot::scan()` with no concurrent writer: every load
yields the content of the register in `s`. The loop gets `thread_count + 1` passes, which
are enough for it to end whatever the loads yield. -/
def scan (s : WaitfreeAtomicSnapshot) : Option (Snapshot × WaitfreeAtomicSnapshot) :=
  let load := fun i => s.atomic_register_vector.getD i AtomicRegister.default
  match scanWith s load (fun _ => load) (s.thread_count + 1) with
  | ScanResult.returned snapshot holders _ =>
    some (snapshot, { s with shared_snapshot_vector := holders })
  | _ => none

/-- Source: `tid_to_index[std::this_thread::get_id()]`: `operator[]` of the hash table, which
inserts the value 0 for a key that is absent. -/
def mapIndex (m : List (Nat × Int)) (tid : Nat) : Int × List (Nat × Int) :=
  match m.lookup tid with
  | some index => (index, m)
  | none => (0, m ++ [(tid, 0)])

/-- Source: the first statement of `update`,
`index = index == -1 ? tid_to_index[std::this_thread::get_id()] : index;`: the index that
`update` works with and the hash table after the lookup. -/
def resolveIndex (s : WaitfreeAtomicSnapshot) (index : Int) (tid : Nat) :
    Int × List (Nat × Int) :=
  if index = -1 then mapIndex s.tid_to_index tid else (index, s.tid_to_index)

/-- Source: the two statements of `update` after the index is known,
`shared_snapshot_vector[index].exchange(std::move(scan()));` and
`atomic_register_vector[index].write(value);`, for the index `k`; each step that crashes
ends the chain with `none`. -/
def updateAt (s : WaitfreeAtomicSnapshot) (value : Int) (k : Nat) :
    Option WaitfreeAtomicSnapshot :=
  s.scan.bind fun scanned =>
    (scanned.2.shared_snapshot_vector[k]?).bind fun h =>
      (h.exchange scanned.1).bind fun h1 =>
        (scanned.2.atomic_register_vector[k]?).bind fun r =>
          (r.write value).bind fun r1 =>
            some { scanned.2 with
              shared_snapshot_vector := scanned.2.shared_snapshot_vector.set k h1
              atomic_register_vector := scanned.2.atomic_register_vector.set k r1 }

/-- Source: `void WaitfreeAtomicSnapshot::update(int value, int index)` called by thread `tid`
with no concurrent writer: resolve the index, `exchange` the result of `scan` into the holder
of the index, then `write` the register of the index. A negative index is out of range. -/
def update (s : WaitfreeAtomicSnapshot) (value index : Int) (tid : Nat) :
    Option WaitfreeAtomicSnapshot :=
  if (s.resolveIndex index tid).1 < 0 then none
  else updateAt { s with tid_to_index := (s.resolveIndex index tid).2 } value
    (s.resolveIndex index tid).1.toNat

/-- The members have their C++ types and the sizes the constructor gives them. -/
def wf (s : WaitfreeAtomicSnapshot) : Prop :=
  s.atomic_register_vector.length = s.thread_count ∧
  s.shared_snapshot_vector.length = s.thread_count ∧
  s.thread_count < 2 ^ 31 - 1 ∧
  (∀ r ∈ s.atomic_register_vector, r.wf) ∧
  (∀ h ∈ s.shared_snapshot_vector, h.wf)

instance (s : WaitfreeAtomicSnapshot) : Decidable s.wf := by
  unfold wf; exact inferInstance

end WaitfreeAtomicSnapshot

/-! ## One holder under atomic steps -/

/-- An atomic step on one holder: a reader's `acquire`, a reader's `release` of the buffer
with the given index, or the writer's `exchange`. -/
inductive HolderStep where
  | acquire
  | release (index : Nat)
  | exchange (snapshot : Snapshot)
deriving DecidableEq, Repr

/-- A holder together with the references that `acquire` handed out and that have not been
released yet: one entry, the index of the buffer, per outstanding acquirer. -/
structure HolderState where
  holder : shared_snapshot
  acquired : List Nat
deriving DecidableEq, Repr

namespace HolderState

/-- A freshly constructed holder of `version_count` versions, nobody holding a reference. -/
def init (version_count : Nat) : HolderState := ⟨shared_snapshot.create version_count, []⟩

/-- The number of outstanding acquirers of the buffer with index `j`. -/
def outstanding (st : HolderState) (j : Nat) : Nat := st.acquired.count j

/-- One atomic step. A `release` is of a buffer acquired earlier and not yet released; a step
whose operation crashes is no step. -/
def step (st : HolderState) : HolderStep → Option HolderState
  | HolderStep.acquire =>
    match st.holder.acquire with
    | some (index, h1) => some ⟨h1, index :: st.acquired⟩
    | none => none
  | HolderStep.release index =>
    if index ∈ st.acquired then
      match st.holder.releaseAt index with
      | some h1 => some ⟨h1, st.acquired.erase index⟩
      | none => none
    else none
  | HolderStep.exchange snapshot =>
    match st.holder.exchange snapshot with
    | some h1 => some ⟨h1, st.acquired⟩
    | none => none

/-- A sequence of atomic steps, one after the other. -/
def run (st : HolderState) : List HolderStep → Option HolderState
  | [] => some st
  | a :: rest =>
    match st.step a with
    | some st1 => run st1 rest
    | none => none

/-- The states a holder of `version_count` versions reaches from its initial state by atomic
steps that satisfy `guard`. -/
inductive Reachable (version_count : Nat) (guard : HolderState → HolderStep → Prop) :
    HolderState → Prop where
  | init : Reachable version_count guard (HolderState.init version_count)
  | step {st st1 : HolderState} {a : HolderStep} :
      Reachable version_count guard st → guard st a → st.step a = some st1 →
      Reachable version_count guard st1

/-- No restriction on the steps. -/
def anyStep : HolderState → HolderStep → Prop := fun _ _ => True

/-- The steps in which `acquire` does not wrap the 32-bit outer reference count: an `acquire`
is taken only while the count is below `2^32 - 1`. -/
def noWrap : HolderState → HolderStep → Prop :=
  fun st a => a = HolderStep.acquire → st.holder.outer_cnt < 2 ^ 32 - 1

end HolderState

/-- The step is not an `exchange`. -/
def HolderStep.isReaderStep : HolderStep → Bool
  | HolderStep.exchange _ => false
  | _ => true

/-- The bookkeeping of the buffer with index `j`. The current buffer is not flagged and its
inner count (the releases since it was installed) and its outstanding acquirers add up to
the outer count; a buffer that is no longer current carries minus the number of its
outstanding acquirers and is flagged exactly when there is none; a null slot has no
acquirer. -/
def HolderState.SlotInv (st : HolderState) (j : Nat) : Prop :=
  match st.holder.snapshot_ptr_vector[j]? with
  | some (some b) =>
    if j = st.holder.current_index then
      b.recycle_flag = false ∧ 0 ≤ b.inner_cnt ∧
        (st.holder.outer_cnt : Int) = b.inner_cnt + (st.outstanding j : Int)
    else
      b.inner_cnt = -(st.outstanding j : Int) ∧ (b.recycle_flag = true ↔ st.outstanding j = 0)
  | _ => st.outstanding j = 0

/-- The invariant of one holder: the members have their types, every slot keeps its books,
and either nothing was published yet (control block 0, every pointer null) or the current
slot holds a snapshot. -/
def HolderState.Inv (st : HolderState) : Prop :=
  st.holder.wf ∧ (∀ j, st.SlotInv j) ∧
    ((st.holder.outer_cnt_with_index = 0 ∧ ∀ p ∈ st.holder.snapshot_ptr_vector, p = none) ∨
      ∃ b, st.holder.snapshot_ptr_vector[st.holder.current_index]? = some (some b))

/-- What `exchange` needs in order to pass its two assertions and to reset the old version:
the search finds a null or recyclable slot, the outer reference count read as an `int` is not
negative, and the old version, when it is another slot, is a snapshot whose inner count can
take the subtraction. -/
def shared_snapshot.exchangeReady (h : shared_snapshot) : Prop :=
  h.findEmptyIndex < h.version_count ∧ h.outer_cnt < 2 ^ 31 ∧
    (h.current_index = h.findEmptyIndex ∨
      ∃ old, h.snapshot_ptr_vector[h.current_index]? = some (some old) ∧
        isInt32 (old.inner_cnt - (h.outer_cnt : Int)))

/-! ## Runs of `update` with no concurrency -/

/-- One call `update(value, index)` made by thread `tid`. -/
structure UpdateCall where
  value : Int
  index : Int
  tid : Nat
deriving DecidableEq, Repr

namespace WaitfreeAtomicSnapshot

/-- A sequence of `update` calls executed one after another; `none` as soon as one of them
crashes. -/
def runUpdates (s : WaitfreeAtomicSnapshot) : List UpdateCall → Option WaitfreeAtomicSnapshot
  | [] => some s
  | u :: rest =>
    match s.update u.value u.index u.tid with
    | some s1 => runUpdates s1 rest
    | none => none

end WaitfreeAtomicSnapshot

/-- The slot a call of `update` writes when no thread has been registered: the index given,
and slot 0 for the default argument `-1`, because `tid_to_index[tid]` yields 0 for a thread
that is not in the table. -/
def UpdateCall.slot (u : UpdateCall) : Int := if u.index = -1 then 0 else u.index

/-- The value of the last call in `us` that writes slot `i`, and `init` when there is none. -/
def lastUpdateFrom (i : Nat) (init : Int) (us : List UpdateCall) : Int :=
  us.foldl (fun acc u => if u.slot = (i : Int) then u.value else acc) init

/-- The value of the last update to slot `i`, 0 if slot `i` was never updated. -/
def lastUpdate (us : List UpdateCall) (i : Nat) : Int := lastUpdateFrom i 0 us

/-- What a run of `update` calls with no concurrency keeps of an engine after at most `n`
calls: the members have their types; every holder keeps its books with no outstanding
acquirer, has outer count 0 and at least two versions; no timestamp exceeds `n`; and the
table `tid_to_index` holds only the index 0 (no thread was registered). -/
def WaitfreeAtomicSnapshot.SeqInv (n : Nat) (s : WaitfreeAtomicSnapshot) : Prop :=
  s.wf ∧
  (∀ h ∈ s.shared_snapshot_vector,
    (HolderState.mk h []).Inv ∧ h.outer_cnt = 0 ∧ 2 ≤ h.version_count) ∧
  (∀ r ∈ s.atomic_register_vector, r.timestamp ≤ n) ∧
  (∀ p ∈ s.tid_to_index, p.2 = 0)

/-- What `scan` needs of a holder in order to borrow its snapshot: the current slot holds a
snapshot and its inner count can take the increment of `release`. -/
def shared_snapshot.borrowReady (h : shared_snapshot) : Prop :=
  ∃ b, h.snapshot_ptr_vector[h.current_index]? = some (some b) ∧ isInt32 (b.inner_cnt + 1)

/-- A sequence of calls of `RegisterTid`, one per thread id of the list, with the indices they
return; `none` as soon as one of them crashes. -/
def WaitfreeAtomicSnapshot.RegisterTids (s : WaitfreeAtomicSnapshot) :
    List Nat → Option (List Int × WaitfreeAtomicSnapshot)
  | [] => some ([], s)
  | tid :: rest =>
    match s.RegisterTid tid with
    | none => none
    | some (index, s1) =>
      match RegisterTids s1 rest with
      | none => none
      | some (indices, s2) => some (index :: indices, s2)

/-! ## Strict 2PL lock manager (project3)

The embedding keeps the memory of the program as explicit state.  A `lock_t*` is the
address (a `Nat`) of a lock in the store `locks`, `nullptr` is `none`; a `TrxNode*` is the
thread id under which `trx_node_table` holds the node.  An `int64_t` is an `Int` in
`[-2 ^ 63, 2 ^ 63)`.  A loop that cannot end in a state no other thread changes, like a
failed `assert` or a null dereference, makes the operation return `none`.  The statistics
counters of `Acquire.cpp` are left out. -/

/-- Largest `int64_t`. -/
def INT64_MAX : Int := 2 ^ 63 - 1

/-- Smallest `int64_t`. -/
def INT64_MIN : Int := -(2 ^ 63)

/-- An `Int` that fits the C++ type `int64_t`. -/
def isInt64 (v : Int) : Prop := INT64_MIN ≤ v ∧ v ≤ INT64_MAX

instance (v : Int) : Decidable (isInt64 v) := by
  unfold isInt64; exact inferInstance

/-! ### Lock.hpp -/

/-- The enumeration `lock_t::Mode`. -/
inductive lock_t.Mode where
  | SHARED
  | EXCLUSIVE
  deriving DecidableEq, Repr

/-- The enumeration `lock_t::State`. -/
inductive lock_t.State where
  | ACTIVE
  | WAIT
  | OBSOLETE
  deriving DecidableEq, Repr

/-- The value `0xffffffffffffffff` a lock id has until the lock is given its place. -/
def LOCK_ID_MAX : Nat := 0xffffffffffffffff

/-- The `struct lock_t`. -/
structure lock_t where
  record_id : Nat
  mode : lock_t.Mode
  lock_id_on_record : Nat
  next : Option Nat
  thread_id : Nat
  diff : Int
  state : lock_t.State
  id_pass_flag : Bool
  head_pass_flag : Bool
  signal_flag : Bool
  deriving DecidableEq

/-- The constructor `lock_t(record_id, thread_id)` with the default member initialisers. -/
def lock_t.create (record_id thread_id : Nat) : lock_t :=
  { record_id := record_id, mode := lock_t.Mode.SHARED, lock_id_on_record := LOCK_ID_MAX,
    next := none, thread_id := thread_id, diff := 0, state := lock_t.State.ACTIVE,
    id_pass_flag := false, head_pass_flag := false, signal_flag := false }

/-- The three conditions under which `AcquireLock` reuses a lock of the pool. -/
def lock_t.recyclable (l : lock_t) : Bool :=
  decide (l.state = lock_t.State.OBSOLETE) && l.id_pass_flag && l.head_pass_flag

/-- The members `AcquireLock` resets on a recycled lock. -/
def lock_t.recycle (l : lock_t) : lock_t :=
  { l with lock_id_on_record := LOCK_ID_MAX, id_pass_flag := false,
           state := lock_t.State.ACTIVE, next := none, diff := 0,
           head_pass_flag := false, signal_flag := false }

/-- The store `lock->state = state`. -/
def lock_t.withState (state : lock_t.State) (l : lock_t) : lock_t := { l with state := state }

/-- The store `lock->mode = mode`. -/
def lock_t.withMode (mode : lock_t.Mode) (l : lock_t) : lock_t := { l with mode := mode }

/-- The store `lock->next = next`. -/
def lock_t.withNext (next : Option Nat) (l : lock_t) : lock_t := { l with next := next }

/-- The store `lock->lock_id_on_record.store(id)`. -/
def lock_t.withId (id : Nat) (l : lock_t) : lock_t := { l with lock_id_on_record := id }

/-- The store `lock->diff = diff`. -/
def lock_t.withDiff (diff : Int) (l : lock_t) : lock_t := { l with diff := diff }

/-- The store `lock->id_pass_flag.store(true)`. -/
def lock_t.passId (l : lock_t) : lock_t := { l with id_pass_flag := true }

/-- The store `lock->head_pass_flag.store(true)`. -/
def lock_t.passHead (l : lock_t) : lock_t := { l with head_pass_flag := true }

/-- The store `lock->signal_flag.store(true)`. -/
def lock_t.signal (l : lock_t) : lock_t := { l with signal_flag := true }

/-! ### LockManager.hpp, TrxNode.hpp, TrxManager.hpp -/

/-- The `struct LockTableNode` without its mutex. -/
structure LockTableNode where
  tail : Option Nat
  head : Option Nat
  record_value : Int
  record_id : Nat
  deriving DecidableEq

/-- The constructor `LockTableNode(record_id)`. -/
def LockTableNode.create (record_id : Nat) : LockTableNode :=
  { tail := none, head := none, record_value := 100, record_id := record_id }

/-- The `struct TrxNode` without its mutex and condition variable; its `thread_id` is the
key of the node in `trx_node_table`. -/
structure TrxNode where
  trx_lock_deque : List Nat
  conflict_lock : Option Nat
  thread_number : Int
  deriving DecidableEq

/-- The two global objects `lock_manager` and `trx_manager` with the memory they point to:
the store of locks (`lock_count` of them are allocated), the lock table, the pool
`thread_local_lock_saved_vector_hash_table` of each thread (by thread id, then record id),
the members of `TrxManager`, the content of the files `thread<N>.txt` by `N`, and which of
these files exist. -/
structure Managers where
  locks : Nat → lock_t
  lock_count : Nat
  lock_table : Nat → Option LockTableNode
  pools : Nat → Nat → List Nat
  trx_node_table : Nat → Option TrxNode
  thread_number : Int
  last_global_execution_order : Int
  global_execution_count : Int
  files : Int → String
  created : Int → Bool

/-- The state after `InitManagers`: `MakeRecords(record_count)` fills the lock table with the
records `1 .. record_count`, `SetLastCommitId` stores the cap; nothing else exists yet. -/
def Managers.init (record_count : Nat) (last_commit_id : Int) : Managers :=
  { locks := fun _ => lock_t.create 0 0
    lock_count := 0
    lock_table := fun i =>
      if 1 ≤ i ∧ i ≤ record_count then some (LockTableNode.create i) else none
    pools := fun _ _ => []
    trx_node_table := fun _ => none
    thread_number := 1
    last_global_execution_order := last_commit_id
    global_execution_count := 0
    files := fun _ => ""
    created := fun _ => false }

/-- A store to a member of the lock at address `lock`. -/
def Managers.setLock (s : Managers) (lock : Nat) (f : lock_t → lock_t) : Managers :=
  { s with locks := Function.update s.locks lock (f (s.locks lock)) }

/-- A store to a member of the node of a record. -/
def Managers.setNode (s : Managers) (record_id : Nat) (node : LockTableNode) : Managers :=
  { s with lock_table := Function.update s.lock_table record_id (some node) }

/-- A store to a member of the node of a transaction. -/
def Managers.setTrx (s : Managers) (trx : Nat) (node : TrxNode) : Managers :=
  { s with trx_node_table := Function.update s.trx_node_table trx (some node) }

/-- The store `trx->conflict_lock.store(lock)`. -/
def Managers.setConflict (s : Managers) (trx : Nat) (lock : Option Nat) : Managers :=
  match s.trx_node_table trx with
  | some node => s.setTrx trx { node with conflict_lock := lock }
  | none => s

/-- The load `trx->conflict_lock.load()`; a thread without a node has none. -/
def Managers.conflict_lock (s : Managers) (trx : Nat) : Option Nat :=
  (s.trx_node_table trx).bind (fun node => node.conflict_lock)

/-! ### LockManager.cpp -/

/-- `LockManager::GetRecord`: the value of the record of a lock that is not OBSOLETE. -/
def LockManager.GetRecord (s : Managers) (lock : Nat) : Option Int :=
  if (s.locks lock).state = lock_t.State.OBSOLETE then none
  else (s.lock_table (s.locks lock).record_id).map (fun node => node.record_value)

/-- `LockManager::ChangeRecord`: add `diff` to the record of an EXCLUSIVE lock that is not
OBSOLETE, and return the new value. -/
def LockManager.ChangeRecord (s : Managers) (lock : Nat) (diff : Int) :
    Option (Int × Managers) :=
  if (s.locks lock).mode = lock_t.Mode.EXCLUSIVE ∧
      (s.locks lock).state ≠ lock_t.State.OBSOLETE then
    (s.lock_table (s.locks lock).record_id).bind (fun node =>
      if isInt64 (node.record_value + diff) then
        some (node.record_value + diff,
          s.setNode (s.locks lock).record_id
            { node with record_value := node.record_value + diff })
      else none)
  else none

/-! ### TrxManager.cpp: GetTrxNode -/

/-- `TrxManager::GetTrxNode`: the node of the thread, made on first use with the next
thread number.  The pointer it returns is the thread id. -/
def TrxManager.GetTrxNode (s : Managers) (thread_id : Nat) : Managers :=
  match s.trx_node_table thread_id with
  | some _ => s
  | none =>
    { s with
      trx_node_table := Function.update s.trx_node_table thread_id
        (some { trx_lock_deque := [], conflict_lock := none,
                thread_number := s.thread_number })
      thread_number := s.thread_number + 1 }

/-! ### Deadlock.cpp -/

/-- What the walk of `IsDeadlock` over one record's list ends with: a lock of the calling
thread was met (`return true`), or the locks collected in `tmp_wait_lock_vector`. -/
inductive DeadlockWalk where
  | cycle
  | ahead (tmp_wait_lock_vector : List Nat)
  deriving DecidableEq

/-- The inner `while (target != local_conflict_lock)` of `IsDeadlock`, for the conflict lock
of the transaction `trx`, on the list of `record_id`.  Each round costs one unit of fuel. -/
def LockManager.deadlockWalk (s : Managers) (this_thread trx local_conflict_lock
    local_conflict_lock_id record_id : Nat) : Nat → Nat → List Nat → Option DeadlockWalk
  | 0, _, _ => none
  | fuel + 1, target, tmp =>
    if target = local_conflict_lock then some (DeadlockWalk.ahead tmp)
    else if s.conflict_lock trx ≠ some local_conflict_lock ∨
        (s.locks local_conflict_lock).lock_id_on_record ≠ local_conflict_lock_id then
      some (DeadlockWalk.ahead [])
    else if (s.locks target).thread_id = this_thread ∧
        (s.locks target).state ≠ lock_t.State.OBSOLETE then
      some DeadlockWalk.cycle
    else
      match (s.locks target).next with
      | some t =>
        if (s.locks t).lock_id_on_record > local_conflict_lock_id then
          ((s.lock_table record_id).bind (fun node => node.head)).bind (fun head =>
            if (s.locks head).lock_id_on_record ≥ local_conflict_lock_id then
              some (DeadlockWalk.ahead [])
            else
              LockManager.deadlockWalk s this_thread trx local_conflict_lock
                local_conflict_lock_id record_id fuel head [])
        else
          LockManager.deadlockWalk s this_thread trx local_conflict_lock
            local_conflict_lock_id record_id fuel t (tmp ++ [target])
      | none =>
        ((s.lock_table record_id).bind (fun node => node.head)).bind (fun head =>
          if (s.locks head).lock_id_on_record ≥ local_conflict_lock_id then
            some (DeadlockWalk.ahead [])
          else
            LockManager.deadlockWalk s this_thread trx local_conflict_lock
              local_conflict_lock_id record_id fuel head [])

/-- The test with which the outer loop of `IsDeadlock` drops a lock it pops: its thread was
checked already, or the lock is OBSOLETE. -/
def LockManager.deadlockSkip (s : Managers) (pass_id_set : List Nat) (target : Nat) : Bool :=
  decide ((s.locks target).thread_id ∈ pass_id_set) ||
    decide ((s.locks target).state = lock_t.State.OBSOLETE)

/-- One round of the outer loop of `IsDeadlock` for a lock `target` it does not drop, with
the rest `queue` of the queue: `none` when the loop returns `true`, else the queue and
`pass_id_set` of the next round.  The thread of the lock goes into `pass_id_set`; the locks
ahead of its conflict lock, if it has one, go to the end of the queue. -/
def LockManager.deadlockVisit (s : Managers) (this_thread target : Nat)
    (queue pass_id_set : List Nat) : Option (Option (List Nat × List Nat) × Managers) :=
  match (TrxManager.GetTrxNode s (s.locks target).thread_id).conflict_lock
      (s.locks target).thread_id with
  | none =>
    some (some (queue, (s.locks target).thread_id :: pass_id_set),
      TrxManager.GetTrxNode s (s.locks target).thread_id)
  | some local_conflict_lock =>
    ((s.lock_table (s.locks local_conflict_lock).record_id).bind (fun node => node.head)).bind
      (fun head =>
        (LockManager.deadlockWalk (TrxManager.GetTrxNode s (s.locks target).thread_id)
          this_thread (s.locks target).thread_id local_conflict_lock
          (s.locks local_conflict_lock).lock_id_on_record
          (s.locks local_conflict_lock).record_id (s.lock_count + 1) head []).map
          (fun w =>
            match w with
            | DeadlockWalk.cycle =>
              (none, TrxManager.GetTrxNode s (s.locks target).thread_id)
            | DeadlockWalk.ahead tmp =>
              (some (queue ++ tmp, (s.locks target).thread_id :: pass_id_set),
                TrxManager.GetTrxNode s (s.locks target).thread_id)))

/-- The outer `while (!wait_lock_queue.empty())` of `IsDeadlock`.  The locks the loop pops
and drops are taken off the queue in one go; each lock it then examines costs one unit of
fuel and puts one more thread into `pass_id_set`. -/
def LockManager.deadlockSearch (this_thread : Nat) :
    Nat → List Nat → List Nat → Managers → Option (Bool × Managers)
  | 0, _, _, _ => none
  | fuel + 1, wait_lock_queue, pass_id_set, s =>
    match wait_lock_queue.dropWhile (LockManager.deadlockSkip s pass_id_set) with
    | [] => some (false, s)
    | target :: queue =>
      (LockManager.deadlockVisit s this_thread target queue pass_id_set).bind (fun r =>
        match r.1 with
        | none => some (true, r.2)
        | some next => LockManager.deadlockSearch this_thread fuel next.1 next.2 r.2)

/-- `LockManager::IsDeadlock`, called by the thread `this_thread`: the queue starts with the
locks of `waiting_lock_vector` that are not OBSOLETE, the newest first. -/
def LockManager.IsDeadlock (s : Managers) (this_thread : Nat)
    (waiting_lock_vector : List Nat) : Option (Bool × Managers) :=
  LockManager.deadlockSearch this_thread (s.lock_count + 1)
    (waiting_lock_vector.reverse.filter
      (fun l => decide ((s.locks l).state ≠ lock_t.State.OBSOLETE)))
    [] s

/-- The inner `while (target != local_conflict_lock)` of `IsDeadlock2` (the version under
the global mutex).  A null `next` fails the `assert`.  Each round costs one unit of fuel. -/
def LockManager.deadlockWalk2 (s : Managers) (this_thread local_conflict_lock : Nat) :
    Nat → Nat → List Nat → Option DeadlockWalk
  | 0, _, _ => none
  | fuel + 1, target, tmp =>
    if target = local_conflict_lock then some (DeadlockWalk.ahead tmp)
    else if (s.locks target).thread_id = this_thread ∧
        (s.locks target).state ≠ lock_t.State.OBSOLETE then
      some DeadlockWalk.cycle
    else
      match (s.locks target).next with
      | some t =>
        LockManager.deadlockWalk2 s this_thread local_conflict_lock fuel t (tmp ++ [target])
      | none => none

/-- One round of the outer loop of `IsDeadlock2` for a lock `target` it does not drop, with
the rest `queue` of the queue: `none` when the loop returns `true`, else the queue and
`pass_id_set` of the next round. -/
def LockManager.deadlockVisit2 (s : Managers) (this_thread target : Nat)
    (queue pass_id_set : List Nat) : Option (Option (List Nat × List Nat) × Managers) :=
  match (TrxManager.GetTrxNode s (s.locks target).thread_id).conflict_lock
      (s.locks target).thread_id with
  | none =>
    some (some (queue, (s.locks target).thread_id :: pass_id_set),
      TrxManager.GetTrxNode s (s.locks target).thread_id)
  | some local_conflict_lock =>
    ((s.lock_table (s.locks local_conflict_lock).record_id).bind (fun node => node.head)).bind
      (fun head =>
        (LockManager.deadlockWalk2 (TrxManager.GetTrxNode s (s.locks target).thread_id)
          this_thread local_conflict_lock (s.lock_count + 1) head []).map
          (fun w =>
            match w with
            | DeadlockWalk.cycle =>
              (none, TrxManager.GetTrxNode s (s.locks target).thread_id)
            | DeadlockWalk.ahead tmp =>
              (some (queue ++ tmp, (s.locks target).thread_id :: pass_id_set),
                TrxManager.GetTrxNode s (s.locks target).thread_id)))

/-- The outer `while (!wait_lock_queue.empty())` of `IsDeadlock2`.  The locks the loop pops
and drops are taken off the queue in one go; each lock it then examines costs one unit of
fuel and puts one more thread into `pass_id_set`. -/
def LockManager.deadlockSearch2 (this_thread : Nat) :
    Nat → List Nat → List Nat → Managers → Option (Bool × Managers)
  | 0, _, _, _ => none
  | fuel + 1, wait_lock_queue, pass_id_set, s =>
    match wait_lock_queue.dropWhile (LockManager.deadlockSkip s pass_id_set) with
    | [] => some (false, s)
    | target :: queue =>
      (LockManager.deadlockVisit2 s this_thread target queue pass_id_set).bind (fun r =>
        match r.1 with
        | none => some (true, r.2)
        | some next => LockManager.deadlockSearch2 this_thread fuel next.1 next.2 r.2)

/-- `LockManager::IsDeadlock2`, called by the thread `this_thread` that holds the global
mutex. -/
def LockManager.IsDeadlock2 (s : Managers) (this_thread : Nat)
    (waiting_lock_vector : List Nat) : Option (Bool × Managers) :=
  LockManager.deadlockSearch2 this_thread (s.lock_count + 1)
    (waiting_lock_vector.reverse.filter
      (fun l => decide ((s.locks l).state ≠ lock_t.State.OBSOLETE)))
    [] s

/-! ### Acquire.cpp -/

/-- What a call of `AcquireLock` comes to: it returned `nullptr`, it returned the new lock,
or the thread sleeps in `trx->cond.wait` for the new lock. -/
inductive AcquireOutcome where
  | null
  | lock (new_lock : Nat)
  | waiting (new_lock : Nat)
  deriving DecidableEq

/-- Lines 45-88 of `AcquireLock`: the first recyclable lock of the pool of the thread for
this record is reset, or a new lock is allocated and added to the pool; then the mode is
stored.  Returns the address of `new_lock`. -/
def LockManager.takeLock (s : Managers) (mode : lock_t.Mode) (record_id trx : Nat) :
    Nat × Managers :=
  match (s.pools trx record_id).find? (fun p => (s.locks p).recyclable) with
  | some p =>
    (p, (s.setLock p lock_t.recycle).setLock p (lock_t.withMode mode))
  | none =>
    (s.lock_count,
      { s with
        locks := Function.update s.locks s.lock_count
          (lock_t.withMode mode (lock_t.create record_id trx))
        lock_count := s.lock_count + 1
        pools := Function.update s.pools trx
          (Function.update (s.pools trx) record_id
            (s.pools trx record_id ++ [s.lock_count])) })

/-- Lines 90-139 of `AcquireLock` for the lock `new_lock`: the lock joins the deque of the
transaction, is exchanged into the tail, linked behind the previous tail and given the next
lock id (or id 0 and the head when the list was empty), and becomes the conflict lock of
the transaction.  The wait for the id of the previous tail and for the head cannot end
when it starts, and so gives `none`. -/
def LockManager.linkLock (s : Managers) (record_id trx new_lock : Nat) : Option Managers :=
  (s.lock_table record_id).bind (fun node =>
  (s.trx_node_table trx).bind (fun trx_node =>
    let s1 := (s.setTrx trx
      { trx_node with trx_lock_deque := trx_node.trx_lock_deque ++ [new_lock] }).setNode
        record_id { node with tail := some new_lock }
    (match node.tail with
      | some prev_tail =>
        let s2 := s1.setLock prev_tail (lock_t.withNext (some new_lock))
        if (s2.locks prev_tail).lock_id_on_record = LOCK_ID_MAX ∨ node.head = none then none
        else
          let s3 := s2.setLock new_lock
            (lock_t.withId ((s2.locks prev_tail).lock_id_on_record + 1))
          if (s3.locks prev_tail).id_pass_flag = true then none
          else some (s3.setLock prev_tail lock_t.passId)
      | none =>
        some ((s1.setLock new_lock (lock_t.withId 0)).setNode
          record_id { node with tail := some new_lock, head := some new_lock })).bind
    (fun s4 =>
      if s4.conflict_lock trx = none then some (s4.setConflict trx (some new_lock))
      else none)))

/-- Lines 144-189 of `AcquireLock`: the walk from the head to `new_lock` that fills
`waiting_lock_vector`.  Each round costs one unit of fuel. -/
def LockManager.collectWaiting (locks : Nat → lock_t) (head new_lock : Nat) :
    Nat → Nat → List Nat → Option (List Nat)
  | 0, _, _ => none
  | fuel + 1, target, waiting_lock_vector =>
    if target = new_lock then some waiting_lock_vector
    else if (locks target).lock_id_on_record > (locks new_lock).lock_id_on_record then
      LockManager.collectWaiting locks head new_lock fuel head []
    else
      match (locks target).next with
      | some t =>
        LockManager.collectWaiting locks head new_lock fuel t (waiting_lock_vector ++ [target])
      | none => LockManager.collectWaiting locks head new_lock fuel head []

/-- The test of line 202 (and 211) of `AcquireLock`: the lock needs no check. -/
def LockManager.noCheck (s : Managers) (new_lock target : Nat) : Prop :=
  (s.locks target).state = lock_t.State.OBSOLETE ∨
    (s.locks target).lock_id_on_record > (s.locks new_lock).lock_id_on_record

instance (s : Managers) (new_lock target : Nat) :
    Decidable (LockManager.noCheck s new_lock target) := by
  unfold LockManager.noCheck; exact inferInstance

/-- Lines 196-230 of `AcquireLock`: the compatibility check over the locks of
`waiting_lock_vector` from the newest to the oldest (the list `todo`).  The result is
`true` when the function returns `nullptr` from inside the loop. -/
def LockManager.checkCompatible (waiting_lock_vector : List Nat) (trx new_lock : Nat) :
    List Nat → Managers → Option (Bool × Managers)
  | [], s => some (false, s)
  | target :: todo, s =>
    if LockManager.noCheck s new_lock target then
      LockManager.checkCompatible waiting_lock_vector trx new_lock todo s
    else if (s.locks new_lock).mode = lock_t.Mode.EXCLUSIVE ∨
        (s.locks target).mode = lock_t.Mode.EXCLUSIVE then
      if LockManager.noCheck (s.setLock new_lock (lock_t.withState lock_t.State.WAIT))
          new_lock target then
        LockManager.checkCompatible waiting_lock_vector trx new_lock todo
          ((s.setLock new_lock (lock_t.withState lock_t.State.WAIT)).setLock new_lock
            (lock_t.withState lock_t.State.ACTIVE))
      else
        (LockManager.IsDeadlock (s.setLock new_lock (lock_t.withState lock_t.State.WAIT)) trx
            waiting_lock_vector).bind (fun r =>
          if r.1 = true then
            some (true, (r.2.setLock new_lock
              (lock_t.withState lock_t.State.OBSOLETE)).setConflict trx none)
          else some (false, r.2))
    else LockManager.checkCompatible waiting_lock_vector trx new_lock todo s

/-- Lines 246-253 of `AcquireLock`: what the thread does once it need not (or no longer)
wait: a lock in state WAIT becomes ACTIVE, the conflict lock is cleared. -/
def LockManager.finishAcquire (s : Managers) (trx new_lock : Nat) : Managers :=
  (if (s.locks new_lock).state = lock_t.State.WAIT then
    s.setLock new_lock (lock_t.withState lock_t.State.ACTIVE)
  else s).setConflict trx none

/-- `LockManager::AcquireLock(mode, record_id, trx)` up to the point where the thread
returns or goes to sleep. -/
def LockManager.AcquireLock (s : Managers) (mode : lock_t.Mode) (record_id trx : Nat) :
    Option (AcquireOutcome × Managers) :=
  (LockManager.linkLock (LockManager.takeLock s mode record_id trx).2 record_id trx
      (LockManager.takeLock s mode record_id trx).1).bind (fun s1 =>
  ((s1.lock_table record_id).bind (fun node => node.head)).bind (fun head =>
  (LockManager.collectWaiting s1.locks head (LockManager.takeLock s mode record_id trx).1
      (s1.lock_count + 1) head []).bind (fun waiting_lock_vector =>
  (LockManager.checkCompatible waiting_lock_vector trx
      (LockManager.takeLock s mode record_id trx).1 waiting_lock_vector.reverse s1).bind
    (fun r =>
      if r.1 = true then some (AcquireOutcome.null, r.2)
      else if (r.2.locks (LockManager.takeLock s mode record_id trx).1).state =
            lock_t.State.WAIT ∧
          (r.2.locks (LockManager.takeLock s mode record_id trx).1).signal_flag = false then
        some (AcquireOutcome.waiting (LockManager.takeLock s mode record_id trx).1, r.2)
      else
        some (AcquireOutcome.lock (LockManager.takeLock s mode record_id trx).1,
          LockManager.finishAcquire r.2 trx
            (LockManager.takeLock s mode record_id trx).1)))))

/-- The rest of `AcquireLock` for a thread that slept in `trx->cond.wait` for `new_lock`,
once the wait has returned, after a `notify_one` or without one: the lock is set ACTIVE and
the call returns `new_lock`. -/
def LockManager.AcquireWake (s : Managers) (trx new_lock : Nat) : Managers :=
  LockManager.finishAcquire s trx new_lock

/-! ### Release.cpp -/

/-- The `do ... while (target->state == OBSOLETE)` of `ReleaseLock`, entered with
`target = prev`: the head moves over OBSOLETE locks and marks them as passed.  Returns the
final `target`.  Each round costs one unit of fuel. -/
def LockManager.moveHead (record_id : Nat) :
    Nat → Nat → Managers → Option (Option Nat × Managers)
  | 0, _, _ => none
  | fuel + 1, prev, s =>
    match (s.locks prev).next with
    | none => some (none, s)
    | some target =>
      (s.lock_table record_id).bind (fun node =>
        let s1 := (s.setNode record_id { node with head := some target }).setLock prev
          lock_t.passHead
        if (s1.locks target).state = lock_t.State.OBSOLETE then
          LockManager.moveHead record_id fuel target s1
        else some (some target, s1))

/-- The `while (target != nullptr)` of `ReleaseLock` behind a SHARED new head: every lock up
to the first EXCLUSIVE one that is not OBSOLETE is signalled.  Each round costs one unit of
fuel. -/
def LockManager.wakeShared : Nat → Option Nat → Managers → Option Managers
  | 0, _, _ => none
  | _ + 1, none, s => some s
  | fuel + 1, some target, s =>
    if (s.locks target).state = lock_t.State.OBSOLETE then
      LockManager.wakeShared fuel (s.locks target).next s
    else if (s.locks target).mode = lock_t.Mode.EXCLUSIVE then some s
    else
      let s1 := (TrxManager.GetTrxNode s (s.locks target).thread_id).setLock target
        lock_t.signal
      LockManager.wakeShared fuel (s1.locks target).next s1

/-- The end of `ReleaseLock` once the head has stopped on `new_head`: the new head is
signalled, and behind a SHARED new head every lock up to the first EXCLUSIVE one. -/
def LockManager.wakeHead (s : Managers) (new_head : Nat) : Option Managers :=
  if (s.locks new_head).mode = lock_t.Mode.SHARED then
    LockManager.wakeShared (s.lock_count + 1) (s.locks new_head).next
      ((TrxManager.GetTrxNode s (s.locks new_head).thread_id).setLock new_head lock_t.signal)
  else
    some ((TrxManager.GetTrxNode s (s.locks new_head).thread_id).setLock new_head
      lock_t.signal)

/-- The part of `ReleaseLock` that follows the store of the state OBSOLETE, on the list of
`record_id`: nothing when the head is not OBSOLETE, else the head moves on and the locks it
stops at are woken. -/
def LockManager.advance (s : Managers) (record_id : Nat) : Option Managers :=
  ((s.lock_table record_id).bind (fun node => node.head)).bind (fun head =>
    if (s.locks head).state ≠ lock_t.State.OBSOLETE then some s
    else
      (LockManager.moveHead record_id (s.lock_count + 1) head s).bind (fun r =>
        match r.1 with
        | none => some r.2
        | some new_head => LockManager.wakeHead r.2 new_head))

/-- `LockManager::ReleaseLock(release_lock)`. -/
def LockManager.ReleaseLock (s : Managers) (release_lock : Nat) : Option Managers :=
  LockManager.advance (s.setLock release_lock (lock_t.withState lock_t.State.OBSOLETE))
    (s.locks release_lock).record_id

/-! ### TrxManager.cpp -/

/-- What a call of `Find` or `Update` comes to: `SUCCESS` with the value stored in `*ret`,
`MUST_ABORTED`, or the thread sleeps inside `AcquireLock` for the lock `lock`. -/
inductive Response where
  | SUCCESS (ret : Int)
  | MUST_ABORTED
  | BLOCKED (lock : Nat)
  deriving DecidableEq

/-- `TrxManager::Begin` called by the thread `thread_id`. -/
def TrxManager.Begin (s : Managers) (thread_id : Nat) : Managers :=
  match (TrxManager.GetTrxNode s thread_id).trx_node_table thread_id with
  | some node =>
    (TrxManager.GetTrxNode s thread_id).setTrx thread_id
      { node with conflict_lock := none, trx_lock_deque := [] }
  | none => TrxManager.GetTrxNode s thread_id

/-- The rest of `Find` once `AcquireLock` has returned `lock`. -/
def TrxManager.FindWith (s : Managers) (lock : Nat) : Option (Response × Managers) :=
  (LockManager.GetRecord s lock).map (fun v => (Response.SUCCESS v, s))

/-- `TrxManager::Find(record_id, ret)` called by the thread `thread_id`. -/
def TrxManager.Find (s : Managers) (thread_id record_id : Nat) :
    Option (Response × Managers) :=
  (LockManager.AcquireLock (TrxManager.GetTrxNode s thread_id) lock_t.Mode.SHARED record_id
      thread_id).bind (fun r =>
    match r.1 with
    | AcquireOutcome.null => some (Response.MUST_ABORTED, r.2)
    | AcquireOutcome.lock lock => TrxManager.FindWith r.2 lock
    | AcquireOutcome.waiting lock => some (Response.BLOCKED lock, r.2))

/-- The rest of `Update` once `AcquireLock` has returned `lock`. -/
def TrxManager.UpdateWith (s : Managers) (lock : Nat) (diff : Int) :
    Option (Response × Managers) :=
  (LockManager.ChangeRecord s lock diff).map (fun r =>
    (Response.SUCCESS r.1, r.2.setLock lock (lock_t.withDiff diff)))

/-- `TrxManager::Update(record_id, diff, ret)` called by the thread `thread_id`. -/
def TrxManager.Update (s : Managers) (thread_id record_id : Nat) (diff : Int) :
    Option (Response × Managers) :=
  (LockManager.AcquireLock (TrxManager.GetTrxNode s thread_id) lock_t.Mode.EXCLUSIVE
      record_id thread_id).bind (fun r =>
    match r.1 with
    | AcquireOutcome.null => some (Response.MUST_ABORTED, r.2)
    | AcquireOutcome.lock lock => TrxManager.UpdateWith r.2 lock diff
    | AcquireOutcome.waiting lock => some (Response.BLOCKED lock, r.2))

/-- The rest of a `Find` that slept for `lock`, after the wake-up. -/
def TrxManager.FindWake (s : Managers) (thread_id lock : Nat) :
    Option (Response × Managers) :=
  TrxManager.FindWith (LockManager.AcquireWake s thread_id lock) lock

/-- The rest of an `Update` that slept for `lock`, after the wake-up. -/
def TrxManager.UpdateWake (s : Managers) (thread_id lock : Nat) (diff : Int) :
    Option (Response × Managers) :=
  TrxManager.UpdateWith (LockManager.AcquireWake s thread_id lock) lock diff

/-- The test of `Abort` and `Commit` for a lock whose change is undone. -/
def TrxManager.needsRollback (s : Managers) (target_lock : Nat) : Prop :=
  (s.locks target_lock).mode = lock_t.Mode.EXCLUSIVE ∧
    (s.locks target_lock).state ≠ lock_t.State.OBSOLETE

instance (s : Managers) (target_lock : Nat) :
    Decidable (TrxManager.needsRollback s target_lock) := by
  unfold TrxManager.needsRollback; exact inferInstance

/-- One round of the loop of `Abort`: the change of an EXCLUSIVE lock that is not OBSOLETE
is undone with `ChangeRecord(target_lock, -target_lock->diff)`, then the lock is released. -/
def TrxManager.rollbackOne (s : Managers) (target_lock : Nat) : Option Managers :=
  (if TrxManager.needsRollback s target_lock then
    (if isInt64 (-(s.locks target_lock).diff) then
      (LockManager.ChangeRecord s target_lock (-(s.locks target_lock).diff)).map
        (fun r => r.2)
    else none)
  else some s).bind (fun s1 => LockManager.ReleaseLock s1 target_lock)

/-- The loop of `Abort` (and of a `Commit` above the cap) over the deque. -/
def TrxManager.rollback : List Nat → Managers → Option Managers
  | [], s => some s
  | target_lock :: rest, s =>
    (TrxManager.rollbackOne s target_lock).bind (TrxManager.rollback rest)

/-- The deque of the transaction of a thread. -/
def Managers.trx_lock_deque (s : Managers) (thread_id : Nat) : List Nat :=
  match s.trx_node_table thread_id with
  | some node => node.trx_lock_deque
  | none => []

/-- `TrxManager::Abort` called by the thread `thread_id`. -/
def TrxManager.Abort (s : Managers) (thread_id : Nat) : Option Managers :=
  TrxManager.rollback ((TrxManager.GetTrxNode s thread_id).trx_lock_deque thread_id)
    (TrxManager.GetTrxNode s thread_id)

/-- The loop of a `Commit` within the cap: the record id and the value of every lock of the
deque are queued, and the lock is released.  Returns the two queues. -/
def TrxManager.releaseAll : List Nat → Managers → Option ((List Nat × List Int) × Managers)
  | [], s => some (([], []), s)
  | target_lock :: rest, s =>
    (LockManager.GetRecord s target_lock).bind (fun v =>
    (LockManager.ReleaseLock s target_lock).bind (fun s1 =>
    (TrxManager.releaseAll rest s1).map (fun r =>
      (((s.locks target_lock).record_id :: r.1.1, v :: r.1.2), r.2))))

/-- The text `Commit` writes: the commit id, then `" "` and a record id for each queued id,
then `" "` and a value for each queued value, then a newline. -/
def TrxManager.commitLog (commit_id : Int) (record_id_queue : List Nat)
    (record_value_queue : List Int) : String :=
  toString commit_id ++
    (record_id_queue.foldl (fun out id => out ++ " " ++ toString id) "") ++
    (record_value_queue.foldl (fun out v => out ++ " " ++ toString v) "") ++ "\n"

/-- The text `out` is written at the end of the file `thread<N>.txt`. -/
def Managers.append (s : Managers) (N : Int) (out : String) : Managers :=
  { s with files := Function.update s.files N (s.files N ++ out) }

/-- The constructor `std::ofstream fout(file_name, std::ios::app)` for the file
`thread<N>.txt`: the file exists from then on, with the text it had. -/
def Managers.create (s : Managers) (N : Int) : Managers :=
  { s with created := Function.update s.created N true }

/-- The thread number of the transaction of a thread (`-1` is the default member value). -/
def Managers.thread_number_of (s : Managers) (thread_id : Nat) : Int :=
  match s.trx_node_table thread_id with
  | some node => node.thread_number
  | none => -1

/-- The store of `global_execution_count.fetch_add(1)`. -/
def Managers.setCount (s : Managers) (count : Int) : Managers :=
  { s with global_execution_count := count }

/-- The first lines of `Commit`: the node of the thread, and the stream `fout` on the file of
the thread, which the constructor creates when it does not exist. -/
def TrxManager.openLog (s : Managers) (thread_id : Nat) : Managers :=
  (TrxManager.GetTrxNode s thread_id).create
    ((TrxManager.GetTrxNode s thread_id).thread_number_of thread_id)

/-- `TrxManager::Commit` called by the thread `thread_id`; returns the commit id or `-1`.
The sum `fetch_add(1) + 1` must fit an `int`. -/
def TrxManager.Commit (s : Managers) (thread_id : Nat) : Option (Int × Managers) :=
  if isInt32 (s.global_execution_count + 1) then
    if s.global_execution_count + 1 > s.last_global_execution_order then
      (TrxManager.rollback ((TrxManager.GetTrxNode s thread_id).trx_lock_deque thread_id)
        ((TrxManager.openLog s thread_id).setCount (s.global_execution_count + 1))).map
        (fun s2 => (-1, s2))
    else
      (TrxManager.releaseAll ((TrxManager.GetTrxNode s thread_id).trx_lock_deque thread_id)
        ((TrxManager.openLog s thread_id).setCount (s.global_execution_count + 1))).map
        (fun r =>
          (s.global_execution_count + 1,
            Managers.append r.2 ((TrxManager.GetTrxNode s thread_id).thread_number_of thread_id)
              (TrxManager.commitLog (s.global_execution_count + 1) r.1.1 r.1.2)))
  else none

/-! ### main.cpp -/

/-- How one round of the loop of `RepeatTrx` ends: the three ids were not distinct
(`continue`), the transaction was aborted (`continue`), it committed with a commit id, the
commit returned `-1` (`break`), or the thread sleeps inside `AcquireLock`. -/
inductive Round where
  | again
  | aborted
  | committed (commit_id : Int)
  | done
  | blocked (lock : Nat)
  deriving DecidableEq

/-- The end of a round of `RepeatTrx`: `Commit`, and the loop ends on `-1`. -/
def RepeatTrx.commit (s : Managers) (thread_id : Nat) : Option (Round × Managers) :=
  (TrxManager.Commit s thread_id).map (fun r =>
    if r.1 = -1 then (Round.done, r.2) else (Round.committed r.1, r.2))

/-- The call after which a round of `RepeatTrx` ends with `Abort`. -/
def RepeatTrx.abort (s : Managers) (thread_id : Nat) : Option (Round × Managers) :=
  (TrxManager.Abort s thread_id).map (fun s1 => (Round.aborted, s1))

/-- One round of the loop of `RepeatTrx` by the thread `thread_id`, for the three record ids
`i`, `j`, `k` the random generator gave: `Find(i)`, `Update(j, record_i + 1)`,
`Update(k, -record_i)`, `Commit`. -/
def RepeatTrx.round (s : Managers) (thread_id i j k : Nat) : Option (Round × Managers) :=
  if i = j ∨ i = k ∨ j = k then some (Round.again, s)
  else
    (TrxManager.Find (TrxManager.Begin s thread_id) thread_id i).bind (fun r1 =>
      match r1.1 with
      | Response.MUST_ABORTED => RepeatTrx.abort r1.2 thread_id
      | Response.BLOCKED lock => some (Round.blocked lock, r1.2)
      | Response.SUCCESS record_i =>
        if isInt64 (record_i + 1) then
          (TrxManager.Update r1.2 thread_id j (record_i + 1)).bind (fun r2 =>
            match r2.1 with
            | Response.MUST_ABORTED => RepeatTrx.abort r2.2 thread_id
            | Response.BLOCKED lock => some (Round.blocked lock, r2.2)
            | Response.SUCCESS _ =>
              if isInt64 (-record_i) then
                (TrxManager.Update r2.2 thread_id k (-record_i)).bind (fun r3 =>
                  match r3.1 with
                  | Response.MUST_ABORTED => RepeatTrx.abort r3.2 thread_id
                  | Response.BLOCKED lock => some (Round.blocked lock, r3.2)
                  | Response.SUCCESS _ => RepeatTrx.commit r3.2 thread_id)
              else none)
        else none)

/-! ### What a release leaves alone -/

/-- What `ReleaseLock` never changes between two states: the members of the locks other
than the state and the two flags it sets, the allocation, the pools, the record values, the
deques and conflict locks of the transactions, the counters, the files and which of them
exist. -/
structure Managers.ReleaseFrame (s s' : Managers) : Prop where
  record_id : ∀ l, (s'.locks l).record_id = (s.locks l).record_id
  thread_id : ∀ l, (s'.locks l).thread_id = (s.locks l).thread_id
  mode : ∀ l, (s'.locks l).mode = (s.locks l).mode
  diff : ∀ l, (s'.locks l).diff = (s.locks l).diff
  lock_id : ∀ l, (s'.locks l).lock_id_on_record = (s.locks l).lock_id_on_record
  next : ∀ l, (s'.locks l).next = (s.locks l).next
  id_pass : ∀ l, (s'.locks l).id_pass_flag = (s.locks l).id_pass_flag
  lock_count : s'.lock_count = s.lock_count
  pools : s'.pools = s.pools
  record_value : ∀ r, (s'.lock_table r).map (fun n => n.record_value) =
    (s.lock_table r).map (fun n => n.record_value)
  tail : ∀ r, (s'.lock_table r).map (fun n => n.tail) = (s.lock_table r).map (fun n => n.tail)
  deque : ∀ t, s'.trx_lock_deque t = s.trx_lock_deque t
  conflict : ∀ t, s'.conflict_lock t = s.conflict_lock t
  trx : ∀ t node, s.trx_node_table t = some node → s'.trx_node_table t = some node
  files : s'.files = s.files
  count : s'.global_execution_count = s.global_execution_count
  last : s'.last_global_execution_order = s.last_global_execution_order
  created : s'.created = s.created

/-! ### States of small runs -/

/-- Three records, cap 5: thread 7 has begun a transaction and called `Find(2)`. -/
def Managers.afterFind : Managers :=
  ((TrxManager.Find (TrxManager.Begin (Managers.init 3 5) 7) 7 2).get (by decide)).2

/-! ### The shape of the lists -/

/-- A lock is granted: it is ACTIVE, or it is in state WAIT with its signal set (its thread
wakes and makes it ACTIVE). -/
def lock_t.granted (l : lock_t) : Prop :=
  l.state = lock_t.State.ACTIVE ∨ (l.state = lock_t.State.WAIT ∧ l.signal_flag = true)

/-- The test of incompatibility of `AcquireLock`: one of the two modes is EXCLUSIVE. -/
def lock_t.conflicts (a b : lock_t) : Prop :=
  a.mode = lock_t.Mode.EXCLUSIVE ∨ b.mode = lock_t.Mode.EXCLUSIVE

instance (a b : lock_t) : Decidable (a.conflicts b) := by
  unfold lock_t.conflicts; exact inferInstance

/-- The lock `b` follows the lock `a` in a list: `a->next == b`, the id of `b` is the next
one, and `a` has passed its id on. -/
def Managers.linked (s : Managers) (a b : Nat) : Prop :=
  (s.locks a).next = some b ∧
  (s.locks b).lock_id_on_record = (s.locks a).lock_id_on_record + 1 ∧
  (s.locks a).id_pass_flag = true

/-- The grants along a list: a lock that is not OBSOLETE is granted exactly when no earlier
lock that is not OBSOLETE conflicts with it. -/
def Managers.Granting (s : Managers) (chain : List Nat) : Prop :=
  ∀ pre l post, chain = pre ++ l :: post →
    (s.locks l).state ≠ lock_t.State.OBSOLETE →
    ((s.locks l).granted ↔
      ∀ p ∈ pre, (s.locks p).state ≠ lock_t.State.OBSOLETE →
        ¬ (s.locks p).conflicts (s.locks l))

/-- The list of the record `record_id` is `chain`, from the head to the tail: the locks are
linked in this order, the last one has no successor and has not passed its id on, none was
passed by the head, all are allocated locks of this record, every other lock of the record
is OBSOLETE, and the list is empty only when the record has no lock. -/
structure Managers.IsQueue (s : Managers) (record_id : Nat) (chain : List Nat) : Prop where
  ends : ∃ node, s.lock_table record_id = some node ∧ node.head = chain.head? ∧
    node.tail = chain.getLast?
  links : chain.Chain' s.linked
  nodup : chain.Nodup
  last : ∀ l, chain.getLast? = some l →
    (s.locks l).next = none ∧ (s.locks l).id_pass_flag = false
  members : ∀ l ∈ chain, l < s.lock_count ∧ (s.locks l).record_id = record_id ∧
    (s.locks l).head_pass_flag = false
  others : ∀ l, l < s.lock_count → (s.locks l).record_id = record_id → l ∉ chain →
    (s.locks l).state = lock_t.State.OBSOLETE
  nonempty : ∀ l, l < s.lock_count → (s.locks l).record_id = record_id → chain ≠ []

/-- The invariant of the lock manager between two atomic steps: every record has its list
with its grants; every allocated lock has its record and the node of its thread; pools and
deques hold allocated locks of their thread; a lock is in state WAIT exactly when it is the
conflict lock of its thread. -/
structure Managers.Inv (s : Managers) : Prop where
  queues : ∀ r, (s.lock_table r).isSome = true → ∃ chain, s.IsQueue r chain ∧ s.Granting chain
  records : ∀ l, l < s.lock_count → (s.lock_table (s.locks l).record_id).isSome = true
  owners : ∀ l, l < s.lock_count → (s.trx_node_table (s.locks l).thread_id).isSome = true
  pools : ∀ t r, ∀ p ∈ s.pools t r,
    p < s.lock_count ∧ (s.locks p).thread_id = t ∧ (s.locks p).record_id = r
  deques : ∀ t, ∀ l ∈ s.trx_lock_deque t, l < s.lock_count ∧ (s.locks l).thread_id = t
  waiting : ∀ l, l < s.lock_count → (s.locks l).state = lock_t.State.WAIT →
    s.conflict_lock (s.locks l).thread_id = some l
  conflicts : ∀ t c, s.conflict_lock t = some c →
    c < s.lock_count ∧ (s.locks c).thread_id = t ∧ (s.locks c).state = lock_t.State.WAIT

/-- The part of the invariant that speaks of no grant: every record has its list, every
allocated lock has its record, and the pools hold allocated locks of their thread and
record.  It holds whatever the states of the locks in the lists are. -/
structure Managers.Shape (s : Managers) : Prop where
  queues : ∀ r, (s.lock_table r).isSome = true → ∃ chain, s.IsQueue r chain
  records : ∀ l, l < s.lock_count → (s.lock_table (s.locks l).record_id).isSome = true
  pools : ∀ t r, ∀ p ∈ s.pools t r,
    p < s.lock_count ∧ (s.locks p).thread_id = t ∧ (s.locks p).record_id = r

/-- Some lock of the list that is not OBSOLETE conflicts with a request of mode `mode`. -/
def Managers.conflictAhead (s : Managers) (mode : lock_t.Mode) (chain : List Nat) : Prop :=
  ∃ p ∈ chain, (s.locks p).state ≠ lock_t.State.OBSOLETE ∧
    (mode = lock_t.Mode.EXCLUSIVE ∨ (s.locks p).mode = lock_t.Mode.EXCLUSIVE)

/-- The lock at `n` is free for `AcquireLock` to take: not allocated yet, or OBSOLETE and
passed by the head. -/
def Managers.Fresh (s : Managers) (n : Nat) : Prop :=
  s.lock_count ≤ n ∨
    ((s.locks n).state = lock_t.State.OBSOLETE ∧ (s.locks n).head_pass_flag = true)

/-- The state `s1` is the state `s` after the lines 45-139 of `AcquireLock(mode, r, t)`
have put the lock `n`, with id `id`, at the end of the list `chain` of the record. -/
structure Managers.Inserted (s s1 : Managers) (mode : lock_t.Mode) (r t n id : Nat)
    (chain : List Nat) : Prop where
  fresh : s.Fresh n
  recycled : n < s.lock_count → (s.locks n).thread_id = t ∧ (s.locks n).record_id = r
  new_lock : s1.locks n = lock_t.withId id (lock_t.withMode mode (lock_t.create r t))
  id_first : chain = [] → id = 0
  id_next : ∀ tl, chain.getLast? = some tl → id = (s.locks tl).lock_id_on_record + 1
  prev_tail : ∀ tl, chain.getLast? = some tl →
    s1.locks tl = lock_t.passId (lock_t.withNext (some n) (s.locks tl))
  other_locks : ∀ l, l ≠ n → chain.getLast? ≠ some l → s1.locks l = s.locks l
  count_lt : n < s1.lock_count
  count_le : s.lock_count ≤ s1.lock_count
  count_new : ∀ l, l < s1.lock_count → l < s.lock_count ∨ l = n
  node : ∃ node, s.lock_table r = some node ∧
    s1.lock_table r = some { node with tail := some n,
                                       head := if chain = [] then some n else node.head }
  other_nodes : ∀ r', r' ≠ r → s1.lock_table r' = s.lock_table r'
  trx : ∃ trx_node, s.trx_node_table t = some trx_node ∧
    s1.trx_node_table t = some { trx_node with
      trx_lock_deque := trx_node.trx_lock_deque ++ [n], conflict_lock := some n }
  other_trx : ∀ t', t' ≠ t → s1.trx_node_table t' = s.trx_node_table t'
  pools : ∀ t' r', ∀ p ∈ s1.pools t' r', p ∈ s.pools t' r' ∨ (p = n ∧ t' = t ∧ r' = r)
  thread_number : s1.thread_number = s.thread_number
  files : s1.files = s.files
  count : s1.global_execution_count = s.global_execution_count
  cap : s1.last_global_execution_order = s.last_global_execution_order

/-- The state after `AcquireLock` has decided on the new lock `n` of the thread `t`: the
lock has the state `st`, the conflict lock of the thread is `c`. -/
def Managers.decided (s : Managers) (t n : Nat) (st : lock_t.State) (c : Option Nat) :
    Managers :=
  (s.setLock n (lock_t.withState st)).setConflict t c

/-! ### The wait-for graph -/

/-- Some lock of the list is a lock of the thread and not OBSOLETE: the test with which the
walk of `IsDeadlock` returns `true`. -/
def Managers.ownsAhead (s : Managers) (this_thread : Nat) (l : List Nat) : Bool :=
  l.any (fun x => decide ((s.locks x).thread_id = this_thread ∧
    (s.locks x).state ≠ lock_t.State.OBSOLETE))

/-- The lock `p` is queued ahead of the lock `c` in the list of the record of `c`. -/
def Managers.queuedAhead (s : Managers) (p c : Nat) : Prop :=
  ∃ pre post, s.IsQueue (s.locks c).record_id (pre ++ c :: post) ∧ p ∈ pre

/-- An edge of the wait-for graph: the transaction of the thread `u` has a conflict lock
that is queued behind a lock of the thread `v` that is not OBSOLETE. -/
def Managers.waitsFor (s : Managers) (u v : Nat) : Prop :=
  ∃ c p, s.conflict_lock u = some c ∧ s.queuedAhead p c ∧
    (s.locks p).state ≠ lock_t.State.OBSOLETE ∧ (s.locks p).thread_id = v

/-- The locks `ReleaseLock` signals behind a SHARED new head, along the rest of the list:
every lock that is not OBSOLETE up to the first one that is EXCLUSIVE. -/
def Managers.sharedRun (s : Managers) : List Nat → List Nat
  | [] => []
  | x :: rest =>
    if (s.locks x).state = lock_t.State.OBSOLETE then Managers.sharedRun s rest
    else if (s.locks x).mode = lock_t.Mode.EXCLUSIVE then []
    else x :: Managers.sharedRun s rest

/-! ### Atomic steps of the lock manager -/

/-- The states of the lock manager that can be reached from the state after `InitManagers`
by atomic steps of three kinds: a thread that is not asleep calls `AcquireLock` and runs
until it returns or goes to sleep; a thread that sleeps in `trx->cond.wait(lock)` returns
from the wait and from `AcquireLock`; a thread that is not asleep calls `ReleaseLock` for
one of its locks.  The wait stands under an `if` on the signal of the lock and in no loop,
and the state is set to ACTIVE after it without a second test: the thread goes on after any
return of the wait, with the signal of its lock set or not. -/
inductive Managers.Reachable : Managers → Prop
  | init (record_count : Nat) (last_commit_id : Int) :
    Managers.Reachable (Managers.init record_count last_commit_id)
  | acquire (s : Managers) (mode : lock_t.Mode) (r t : Nat) (x : AcquireOutcome × Managers) :
    Managers.Reachable s →
    LockManager.AcquireLock (TrxManager.GetTrxNode s t) mode r t = some x →
    Managers.Reachable x.2
  | wake (s : Managers) (t l : Nat) :
    Managers.Reachable s → s.conflict_lock t = some l →
    Managers.Reachable (LockManager.AcquireWake s t l)
  | release (s : Managers) (l : Nat) (s' : Managers) :
    Managers.Reachable s → l < s.lock_count →
    s.conflict_lock (s.locks l).thread_id = none →
    LockManager.ReleaseLock s l = some s' → Managers.Reachable s'

/-- One record: the threads 1 and 2 have acquired a SHARED lock each. -/
def Managers.twoReaders : Managers :=
  ((LockManager.AcquireLock (TrxManager.GetTrxNode
    ((LockManager.AcquireLock (TrxManager.GetTrxNode (Managers.init 1 0) 1)
      lock_t.Mode.SHARED 1 1).get (by decide)).2 2) lock_t.Mode.SHARED 1 2).get
        (by decide)).2

/-- One record with two readers, and the thread 3 has its node. -/
def Managers.twoReadersAndThird : Managers :=
  TrxManager.GetTrxNode Managers.twoReaders 3

/-- Two records: the thread 1 has a SHARED lock on record 1, the thread 2 a SHARED lock on
record 2. -/
def Managers.oneEach : Managers :=
  ((LockManager.AcquireLock (TrxManager.GetTrxNode
    ((LockManager.AcquireLock (TrxManager.GetTrxNode (Managers.init 2 0) 1)
      lock_t.Mode.SHARED 1 1).get (by decide)).2 2) lock_t.Mode.SHARED 2 2).get
        (by decide)).2

/-- Two records: the thread 1 has a SHARED lock on record 1 and sleeps for an EXCLUSIVE
lock on record 2, behind the SHARED lock of the thread 2. -/
def Managers.crossed : Managers :=
  ((LockManager.AcquireLock (TrxManager.GetTrxNode Managers.oneEach 1)
    lock_t.Mode.EXCLUSIVE 2 1).get (by decide)).2

/-- Two records, cap 0: the thread 1 has its node and nothing else has happened. -/
def Managers.oneThread : Managers :=
  TrxManager.GetTrxNode (Managers.init 2 0) 1

/-! ### Transactions -/

/-- A call of a transaction: `Find(record_id)` or `Update(record_id, diff)`. -/
inductive TrxOp where
  | find (record_id : Nat)
  | update (record_id : Nat) (diff : Int)
  deriving DecidableEq

/-- The call `op` made by the thread `thread_id`. -/
def TrxManager.call (s : Managers) (thread_id : Nat) : TrxOp → Option (Response × Managers)
  | TrxOp.find record_id => TrxManager.Find s thread_id record_id
  | TrxOp.update record_id diff => TrxManager.Update s thread_id record_id diff

/-- The calls `ops` of a transaction of the thread `thread_id`, made one after the other
with no step of another thread between them: every call returns SUCCESS, but the last one
may return MUST_ABORTED.  A call on which the thread sleeps ends the run with `none`, as
does a call made after MUST_ABORTED. -/
def TrxManager.run (thread_id : Nat) : List TrxOp → Managers → Option Managers
  | [], s => some s
  | op :: ops, s =>
    (TrxManager.call s thread_id op).bind (fun r =>
      match r.1 with
      | Response.SUCCESS _ => TrxManager.run thread_id ops r.2
      | Response.MUST_ABORTED =>
        (match ops with
          | [] => some r.2
          | _ :: _ => none)
      | Response.BLOCKED _ => none)

/-- What the loop of `Abort` over the locks `deque` takes off the record `record_id`: the
sum of the `diff` of the EXCLUSIVE locks on this record that are not OBSOLETE. -/
def Managers.undo (s : Managers) (record_id : Nat) : List Nat → Int
  | [] => 0
  | lock :: rest =>
    (if TrxManager.needsRollback s lock ∧ (s.locks lock).record_id = record_id then
      (s.locks lock).diff else 0) + Managers.undo s record_id rest

/-- The state of a thread between two calls of its transaction, with respect to the values
`begin_value` of the records at `Begin`: the invariant holds, the thread is awake and has
its node, the locks of its deque are distinct and ACTIVE, every record holds its value at
`Begin` plus what `Abort` would take off, and the `diff` of every lock to roll back can be
negated. -/
structure TrxManager.RunInv (begin_value : Nat → Option Int) (thread_id : Nat)
    (s : Managers) : Prop where
  inv : s.Inv
  awake : s.conflict_lock thread_id = none
  node : (s.trx_node_table thread_id).isSome = true
  nodup : (s.trx_lock_deque thread_id).Nodup
  active : ∀ l ∈ s.trx_lock_deque thread_id, (s.locks l).state = lock_t.State.ACTIVE
  values : ∀ r, (s.lock_table r).map (fun node => node.record_value) =
    (begin_value r).map (fun v => v + s.undo r (s.trx_lock_deque thread_id))
  negs : ∀ l ∈ s.trx_lock_deque thread_id, TrxManager.needsRollback s l →
    isInt64 (-(s.locks l).diff)

/-- What `Abort` needs of the state of a thread, with respect to the values `begin_value` of
the records at `Begin`: as `RunInv`, but a lock of the deque may be OBSOLETE, and the values
at `Begin` fit `int64_t`. -/
structure TrxManager.AbortPre (begin_value : Nat → Option Int) (thread_id : Nat)
    (s : Managers) : Prop where
  inv : s.Inv
  node : (s.trx_node_table thread_id).isSome = true
  nodup : (s.trx_lock_deque thread_id).Nodup
  awake : ∀ l ∈ s.trx_lock_deque thread_id, (s.locks l).state ≠ lock_t.State.WAIT
  values : ∀ r, (s.lock_table r).map (fun node => node.record_value) =
    (begin_value r).map (fun v => v + s.undo r (s.trx_lock_deque thread_id))
  negs : ∀ l ∈ s.trx_lock_deque thread_id, TrxManager.needsRollback s l →
    isInt64 (-(s.locks l).diff)
  fits : ∀ r v, begin_value r = some v → isInt64 v

/-- What the loop of `Abort` keeps: the members of the locks but their state, links and
flags, and all of the state but the locks and the nodes of the records. -/
structure Managers.RollbackFrame (s s' : Managers) : Prop where
  record_id : ∀ l, (s'.locks l).record_id = (s.locks l).record_id
  thread_id : ∀ l, (s'.locks l).thread_id = (s.locks l).thread_id
  mode : ∀ l, (s'.locks l).mode = (s.locks l).mode
  diff : ∀ l, (s'.locks l).diff = (s.locks l).diff
  lock_count : s'.lock_count = s.lock_count
  deque : ∀ t, s'.trx_lock_deque t = s.trx_lock_deque t
  conflict : ∀ t, s'.conflict_lock t = s.conflict_lock t
  files : s'.files = s.files
  count : s'.global_execution_count = s.global_execution_count
  last : s'.last_global_execution_order = s.last_global_execution_order

/-- Two records, cap 0: the thread 1 has begun a transaction, added 5 to record 1, read
record 2, and its second `Update` of record 1 has returned MUST_ABORTED. -/
def Managers.mustAbort : Managers :=
  (TrxManager.run 1 [TrxOp.update 1 5, TrxOp.find 2, TrxOp.update 1 7]
    (TrxManager.Begin (Managers.init 2 0) 1)).get (by decide)

/-- What only `Commit` changes: the log files, the count of the commits, the cap, and which
of the log files exist. -/
def Managers.log (s : Managers) : (Int → String) × Int × Int × (Int → Bool) :=
  (s.files, s.global_execution_count, s.last_global_execution_order, s.created)

/-- The state `s` is reached from `InitManagers(record_count, cap)` by calls of the
transaction manager of any threads, `n` of which are calls of `Commit`: `Begin`, `Find` and
`Update` up to their return or to the sleep of the thread, the rest of a `Find` or `Update`
after the wake-up, `Abort`, and `Commit`. -/
inductive TrxManager.History (record_count : Nat) (cap : Int) : Managers → Nat → Prop
  | init : TrxManager.History record_count cap (Managers.init record_count cap) 0
  | begin (s : Managers) (n t : Nat) :
    TrxManager.History record_count cap s n →
    TrxManager.History record_count cap (TrxManager.Begin s t) n
  | call (s : Managers) (n t : Nat) (op : TrxOp) (x : Response × Managers) :
    TrxManager.History record_count cap s n → TrxManager.call s t op = some x →
    TrxManager.History record_count cap x.2 n
  | find_wake (s : Managers) (n t lock : Nat) (x : Response × Managers) :
    TrxManager.History record_count cap s n → TrxManager.FindWake s t lock = some x →
    TrxManager.History record_count cap x.2 n
  | update_wake (s : Managers) (n t lock : Nat) (diff : Int) (x : Response × Managers) :
    TrxManager.History record_count cap s n →
    TrxManager.UpdateWake s t lock diff = some x →
    TrxManager.History record_count cap x.2 n
  | abort (s : Managers) (n t : Nat) (s1 : Managers) :
    TrxManager.History record_count cap s n → TrxManager.Abort s t = some s1 →
    TrxManager.History record_count cap s1 n
  | commit (s : Managers) (n t : Nat) (x : Int × Managers) :
    TrxManager.History record_count cap s n → TrxManager.Commit s t = some x →
    TrxManager.History record_count cap x.2 (n + 1)

/-- Two records, cap 0: the thread 1 has begun a transaction and added 5 to record 1. -/
def Managers.updated : Managers :=
  ((TrxManager.call (TrxManager.Begin (Managers.init 2 0) 1) 1 (TrxOp.update 1 5)).get
    (by decide)).2

/-- One record: the thread 1 has twice acquired and released a SHARED lock on record 1; the
head has passed its first lock, which has passed its id on. -/
def Managers.recycling : Managers :=
  (LockManager.ReleaseLock
    ((LockManager.AcquireLock
      ((LockManager.ReleaseLock
        ((LockManager.AcquireLock (TrxManager.GetTrxNode (Managers.init 1 0) 1)
          lock_t.Mode.SHARED 1 1).get (by decide)).2 0).get (by decide))
      lock_t.Mode.SHARED 1 1).get (by decide)).2 1).get (by decide)

/-- One record: the thread 1 holds an EXCLUSIVE lock (lock 0), the thread 2 sleeps for a
SHARED lock (lock 1), a second EXCLUSIVE request of the thread 1 was refused (lock 2,
OBSOLETE), and the thread 3 sleeps for a SHARED lock (lock 3). -/
def Managers.skipped : Managers :=
  ((LockManager.AcquireLock (TrxManager.GetTrxNode
    ((LockManager.AcquireLock (TrxManager.GetTrxNode
      ((LockManager.AcquireLock (TrxManager.GetTrxNode
        ((LockManager.AcquireLock (TrxManager.GetTrxNode (Managers.init 1 0) 1)
          lock_t.Mode.EXCLUSIVE 1 1).get (by decide)).2 2)
        lock_t.Mode.SHARED 1 2).get (by decide)).2 1)
      lock_t.Mode.EXCLUSIVE 1 1).get (by decide)).2 3)
    lock_t.Mode.SHARED 1 3).get (by decide)).2

/-- One record: the thread 1 holds a SHARED lock on record 1, and there is no other
thread. -/
def Managers.oneReader : Managers :=
  ((LockManager.AcquireLock (TrxManager.GetTrxNode (Managers.init 1 0) 1)
    lock_t.Mode.SHARED 1 1).get (by decide)).2

/-- The state `s` is reachable, by the atomic steps of `Managers.Reachable`, with `k` calls
of `AcquireLock` on the record `r` that have inserted their lock. -/
inductive Managers.Inserts (r : Nat) : Managers → Nat → Prop
  | init (record_count : Nat) (last_commit_id : Int) :
    Managers.Inserts r (Managers.init record_count last_commit_id) 0
  | acquire_here (s : Managers) (k : Nat) (mode : lock_t.Mode) (t : Nat)
      (x : AcquireOutcome × Managers) :
    Managers.Inserts r s k →
    LockManager.AcquireLock (TrxManager.GetTrxNode s t) mode r t = some x →
    Managers.Inserts r x.2 (k + 1)
  | acquire_other (s : Managers) (k : Nat) (mode : lock_t.Mode) (r' t : Nat)
      (x : AcquireOutcome × Managers) :
    Managers.Inserts r s k → r' ≠ r →
    LockManager.AcquireLock (TrxManager.GetTrxNode s t) mode r' t = some x →
    Managers.Inserts r x.2 k
  | wake (s : Managers) (k t l : Nat) :
    Managers.Inserts r s k → s.conflict_lock t = some l →
    Managers.Inserts r (LockManager.AcquireWake s t l) k
  | release (s : Managers) (k l : Nat) (s' : Managers) :
    Managers.Inserts r s k → l < s.lock_count →
    s.conflict_lock (s.locks l).thread_id = none →
    LockManager.ReleaseLock s l = some s' → Managers.Inserts r s' k

/-- The id the next lock of the record gets: 0 when the record has no tail yet, else the id
of the tail plus 1. -/
def Managers.next_id (s : Managers) (record_id : Nat) : Nat :=
  match (s.lock_table record_id).bind (fun node => node.tail) with
  | none => 0
  | some tail => (s.locks tail).lock_id_on_record + 1

/-! ## The collects of one `scan` (claim C25) -/

namespace WaitfreeAtomicSnapshot

/-- The collects of one call of `scan` over `N` registers, in the words of the specification:
collect 0 is the copy of the registers that initialises `first_snapshot` and collect `k + 1`
is what pass `k` of the loop reads into `second_snapshot`. -/
def collectAt (N : Nat) (first : Nat → AtomicRegister) (reads : Nat → Nat → AtomicRegister) :
    Nat → List AtomicRegister
  | 0 => (List.range N).map first
  | k + 1 => (List.range N).map (reads k)

/-- Register `i` differs between collect `k` and collect `k + 1` (`operator!=` of the
registers). -/
def differsAt (N : Nat) (first : Nat → AtomicRegister) (reads : Nat → Nat → AtomicRegister)
    (k i : Nat) : Bool :=
  ((collectAt N first reads k).getD i AtomicRegister.default).ne (reads k i)

/-- The number of passes before pass `k` in which register `i` differed between the two
consecutive collects. -/
def changesBefore (N : Nat) (first : Nat → AtomicRegister)
    (reads : Nat → Nat → AtomicRegister) : Nat → Nat → Nat
  | 0, _ => 0
  | k + 1, i => changesBefore N first reads k i + if differsAt N first reads k i then 1 else 0

/-- Register `i` differs between two consecutive collects for the second time in pass `k`. -/
def secondChange (N : Nat) (first : Nat → AtomicRegister) (reads : Nat → Nat → AtomicRegister)
    (k i : Nat) : Prop :=
  differsAt N first reads k i = true ∧ changesBefore N first reads k i = 1

instance (N : Nat) (first : Nat → AtomicRegister) (reads : Nat → Nat → AtomicRegister)
    (k i : Nat) : Decidable (secondChange N first reads k i) := by
  unfold secondChange; exact inferInstance

/-- Pass `k` neither ends the scan nor borrows: some register differs between collect `k` and
collect `k + 1`, and none of them for the second time. -/
def passesOn (N : Nat) (first : Nat → AtomicRegister) (reads : Nat → Nat → AtomicRegister)
    (k : Nat) : Prop :=
  (∃ j, j < N ∧ differsAt N first reads k j = true) ∧
    ∀ j, j < N → ¬ secondChange N first reads k j

end WaitfreeAtomicSnapshot

/-! ### Serial runs of the workers -/

/-- The sum of the values of the records `1 .. record_count`. -/
def Managers.total (s : Managers) (record_count : Nat) : Int :=
  ((List.range record_count).map (fun r =>
    ((s.lock_table (r + 1)).map (fun node => node.record_value)).getD 0)).sum

/-- One round of a worker in a serial run: the thread that runs it and the three record ids
its random generator gave. -/
structure RepeatTrx.Pick where
  thread_id : Nat
  i : Nat
  j : Nat
  k : Nat
  deriving DecidableEq

/-- A serial run of rounds of `RepeatTrx`, by any threads: each round runs to its end before
the next one starts.  Returns the number of rounds that committed; `none` when a round
crashes or when its thread goes to sleep (no step of another thread could wake it). -/
def RepeatTrx.serial : List RepeatTrx.Pick → Managers → Option (Nat × Managers)
  | [], s => some (0, s)
  | p :: rest, s =>
    (RepeatTrx.round s p.thread_id p.i p.j p.k).bind (fun x =>
      match x.1 with
      | Round.blocked _ => none
      | Round.committed _ => (RepeatTrx.serial rest x.2).map (fun y => (y.1 + 1, y.2))
      | Round.again => RepeatTrx.serial rest x.2
      | Round.aborted => RepeatTrx.serial rest x.2
      | Round.done => RepeatTrx.serial rest x.2)

/-- The condition under which a serial run has a defined outcome, as plain arithmetic on
the values `value` of the records and the count `count` of the calls of `Commit`.  A round on
ids that are not distinct changes nothing.  Else the four sums of a round are formed,
`Ri + 1`, `Rj + (Ri + 1)`, `-Ri` and `Rk + -Ri`, and there is no result (`none`) when one of
them does not fit `int64_t`; a round within the cap commits and leaves the second sum in `Rj`
and the fourth in `Rk`, a round above the cap leaves the values as they were; both add one to
the count.  Returns the number of the rounds that committed, the count, and the values.  This
is no model of the code: it states when no sum overflows, and `RepeatTrx.serial`, the run of
the code, is compared with it. -/
def RepeatTrx.ledger (cap : Int) :
    List RepeatTrx.Pick → Int → (Nat → Int) → Option (Nat × Int × (Nat → Int))
  | [], count, value => some (0, count, value)
  | p :: rest, count, value =>
    if p.i = p.j ∨ p.i = p.k ∨ p.j = p.k then RepeatTrx.ledger cap rest count value
    else if isInt64 (value p.i + 1) ∧ isInt64 (value p.j + (value p.i + 1)) ∧
        isInt64 (-value p.i) ∧ isInt64 (value p.k + -value p.i) then
      if count + 1 ≤ cap then
        (RepeatTrx.ledger cap rest (count + 1)
          (Function.update (Function.update value p.j (value p.j + (value p.i + 1))) p.k
            (value p.k + -value p.i))).map (fun y => (y.1 + 1, y.2))
      else RepeatTrx.ledger cap rest (count + 1) value
    else none

/-- The rounds of a worker that takes record 1 and record 2 in turn as `Ri` and the other one
as `Rj`, with record 3 as `Rk`: 40 times the picks `(1, 2, 3)` and `(2, 1, 3)`. -/
def RepeatTrx.swing : List RepeatTrx.Pick :=
  (List.replicate 40 [⟨1, 1, 2, 3⟩, ⟨1, 2, 1, 3⟩]).flatten

/-- The state between two transactions of a serial run over the records
`1 .. record_count`: the invariant holds, every allocated lock is OBSOLETE, the lock table
holds exactly these records, their values fit `int64_t`, and the count of the commits is not
negative. -/
structure Managers.Quiet (record_count : Nat) (s : Managers) : Prop where
  inv : s.Inv
  obsolete : ∀ l, l < s.lock_count → (s.locks l).state = lock_t.State.OBSOLETE
  records : ∀ r, (s.lock_table r).isSome = true ↔ 1 ≤ r ∧ r ≤ record_count
  fits : ∀ r node, s.lock_table r = some node → isInt64 node.record_value
  count : 0 ≤ s.global_execution_count

/-- What a round of `RepeatTrx` adds to the sum of the records, in the words of the
specification: 1 when it committed, 0 otherwise. -/
def Round.gain : Round → Int
  | Round.committed _ => 1
  | _ => 0

/-- The state of a thread between two calls of its transaction when no other transaction is
open: as `RunInv`, and every allocated lock outside its deque is OBSOLETE. -/
structure TrxManager.Alone (begin_value : Nat → Option Int) (thread_id : Nat)
    (s : Managers) : Prop where
  run : TrxManager.RunInv begin_value thread_id s
  others : ∀ l, l < s.lock_count → l ∉ s.trx_lock_deque thread_id →
    (s.locks l).state = lock_t.State.OBSOLETE

/-- Three records, cap 1: the serial run of one round of the thread 1 on the records
`(1, 2, 3)`, which commits. -/
def RepeatTrx.oneCommit : Nat × Managers :=
  (RepeatTrx.serial [⟨1, 1, 2, 3⟩] (Managers.init 3 1)).get (by decide)

/-- Three records, cap 0: the serial run of one round of the thread 1 on the records
`(1, 2, 3)`, whose commit is above the cap. -/
def RepeatTrx.oneRejected : Nat × Managers :=
  (RepeatTrx.serial [⟨1, 1, 2, 3⟩] (Managers.init 3 0)).get (by decide)

/-- The `struct Log` of `main.cpp`: the members are `int` but for the three values, which are
`int64_t`; all have the member initialiser `-1`. -/
structure Log where
  commit_id : Int
  i : Int
  j : Int
  k : Int
  vi : Int
  vj : Int
  vk : Int
  deriving DecidableEq

/-- A default-constructed `Log`. -/
def Log.default : Log := ⟨-1, -1, -1, -1, -1, -1, -1⟩

/-- Source: `bool operator<(Log l) { return this->commit_id < l.commit_id; }`, as the order
`std::sort` puts the vector in: no log comes after one with a greater commit id. -/
def Log.le (a b : Log) : Prop := a.commit_id ≤ b.commit_id

instance (a b : Log) : Decidable (Log.le a b) := by
  unfold Log.le; exact inferInstance

/-- An `std::ifstream` on a file that exists: the characters not read yet, `eofbit` and
`failbit`. -/
structure IFStream where
  rest : List Char
  eofbit : Bool
  failbit : Bool
  deriving DecidableEq

namespace IFStream

/-- A stream just opened on a text. -/
def open_ (text : String) : IFStream := ⟨text.data, false, false⟩

/-- The white space `operator>>` skips: `isspace` in the C locale. -/
def isspace (c : Char) : Bool :=
  c = ' ' || c = '\n' || c = '\t' || c = '\r' || c = Char.ofNat 11 || c = Char.ofNat 12

/-- The skip of the leading white space. -/
def skipws : List Char → List Char
  | [] => []
  | c :: cs => if isspace c then skipws cs else c :: cs

/-- The number a run of decimal digits stands for. -/
def digitsValue (ds : List Char) : Nat :=
  ds.foldl (fun acc c => acc * 10 + (c.toNat - 48)) 0

/-- The characters after an optional sign. -/
def unsigned (cs : List Char) : List Char :=
  match cs with
  | [] => []
  | c :: tl => if c = '-' ∨ c = '+' then tl else c :: tl

/-- The number the characters `[+-]digits` stand for. -/
def signedValue (cs : List Char) : Int :=
  if cs.head? = some '-' then -((digitsValue ((unsigned cs).takeWhile Char.isDigit) : Nat) : Int)
  else ((digitsValue ((unsigned cs).takeWhile Char.isDigit) : Nat) : Int)

/-- What is left of the stream after the extraction of a number from `cs`, which starts at a
character that is not white space; the end of the text sets `eofbit`. -/
def after (cs : List Char) (failbit : Bool) : IFStream :=
  ⟨(unsigned cs).dropWhile Char.isDigit,
    decide ((unsigned cs).dropWhile Char.isDigit = []), failbit⟩

/-- Source: `fin >> value` for a signed integer variable of range `[lo, hi]` that holds `old`.
A stream that is not good only gets `failbit` and the variable keeps its value; so it does
when only white space is left, which sets `eofbit` too.  Without a digit the variable
becomes 0 and `failbit` is set; a number out of range sets `failbit` and stores the bound. -/
def extract (lo hi old : Int) (fin : IFStream) : Int × IFStream :=
  if fin.eofbit = true ∨ fin.failbit = true then (old, ⟨fin.rest, fin.eofbit, true⟩)
  else if skipws fin.rest = [] then (old, ⟨[], true, true⟩)
  else if (unsigned (skipws fin.rest)).takeWhile Char.isDigit = [] then
    (0, after (skipws fin.rest) true)
  else if signedValue (skipws fin.rest) < lo then (lo, after (skipws fin.rest) true)
  else if hi < signedValue (skipws fin.rest) then (hi, after (skipws fin.rest) true)
  else (signedValue (skipws fin.rest), after (skipws fin.rest) false)

end IFStream

namespace IsCorrect

/-- Source: the six extractions `fin >> commit_log.i >> ... >> commit_log.vk` after the
commit id `commit_id` was read, and the log they leave in `commit_log`. -/
def readFields (commit_id : Int) (commit_log : Log) (fin : IFStream) : Log × IFStream :=
  let r1 := fin.extract INT_MIN INT_MAX commit_log.i
  let r2 := r1.2.extract INT_MIN INT_MAX commit_log.j
  let r3 := r2.2.extract INT_MIN INT_MAX commit_log.k
  let r4 := r3.2.extract INT64_MIN INT64_MAX commit_log.vi
  let r5 := r4.2.extract INT64_MIN INT64_MAX commit_log.vj
  let r6 := r5.2.extract INT64_MIN INT64_MAX commit_log.vk
  (⟨commit_id, r1.1, r2.1, r3.1, r4.1, r5.1, r6.1⟩, r6.2)

/-- Source: the loop `while (!fin.eof())` over one file.  A round that neither ends the loop
nor takes a character off the stream repeats forever; the fuel, one more than the length of
the text, then runs out and the result is `none`. -/
def readLogs : Nat → IFStream → Log → List Log → Option (List Log)
  | 0, _, _, _ => none
  | fuel + 1, fin, commit_log, log_vector =>
    if fin.eofbit = true then some log_vector
    else if (fin.extract INT_MIN INT_MAX commit_log.commit_id).2.eofbit = true then
      some log_vector
    else
      readLogs fuel
        (readFields (fin.extract INT_MIN INT_MAX commit_log.commit_id).1 commit_log
          (fin.extract INT_MIN INT_MAX commit_log.commit_id).2).2
        (readFields (fin.extract INT_MIN INT_MAX commit_log.commit_id).1 commit_log
          (fin.extract INT_MIN INT_MAX commit_log.commit_id).2).1
        (log_vector ++ [(readFields (fin.extract INT_MIN INT_MAX commit_log.commit_id).1
          commit_log (fin.extract INT_MIN INT_MAX commit_log.commit_id).2).1])

/-- Source: the loop `for (int tid = 1; tid <= thread_count; tid++)` over the files
`thread<tid>.txt`; `files` gives the text of each file that exists.  On a file that does not
exist the stream fails to open, no extraction ever sets `eofbit`, and the loop
`while (!fin.eof())` does not end: `none`. -/
def readFiles (files : Int → Option String) : List Nat → List Log → Option (List Log)
  | [], log_vector => some log_vector
  | tid :: tids, log_vector =>
    (files tid).bind (fun text =>
      (readLogs (text.data.length + 1) (IFStream.open_ text) Log.default
        log_vector).bind (readFiles files tids))

/-- Source: the element `record_table[index]` for an `int` index; `none` out of range. -/
def at_ (record_table : List Int) (index : Int) : Option Int :=
  if 0 ≤ index then record_table[index.toNat]? else none

/-- Source: the store `record_table[index] = value`; `none` out of range. -/
def store (record_table : List Int) (index : Int) (value : Int) : Option (List Int) :=
  if 0 ≤ index ∧ index.toNat < record_table.length then
    some (record_table.set index.toNat value)
  else none

/-- Source: the loop `for (Log& log : log_vector)`: the two updates of the table, then the
comparison with the three logged values.  `none` on an index out of range or an overflow. -/
def replay : List Log → List Int → Option Bool
  | [], _ => some true
  | log :: rest, record_table =>
    if isInt32 (log.i - 1) ∧ isInt32 (log.j - 1) ∧ isInt32 (log.k - 1) then
      (at_ record_table (log.i - 1)).bind (fun ri =>
      (at_ record_table (log.j - 1)).bind (fun rj =>
        if isInt64 (ri + 1) ∧ isInt64 (rj + (ri + 1)) then
          (store record_table (log.j - 1) (rj + (ri + 1))).bind (fun table1 =>
          (at_ table1 (log.i - 1)).bind (fun ri1 =>
          (at_ table1 (log.k - 1)).bind (fun rk =>
            if isInt64 (rk - ri1) then
              (store table1 (log.k - 1) (rk - ri1)).bind (fun table2 =>
              (at_ table2 (log.i - 1)).bind (fun vi =>
              (at_ table2 (log.j - 1)).bind (fun vj =>
              (at_ table2 (log.k - 1)).bind (fun vk =>
                if vi ≠ log.vi ∨ vj ≠ log.vj ∨ vk ≠ log.vk then some false
                else replay rest table2))))
            else none)))
        else none))
    else none

end IsCorrect

/-- Source: `bool IsCorrect(int record_count, int thread_count, int
last_global_execution_order)` of `main.cpp`, on the texts `files` of the files
`thread<N>.txt` that exist: read the logs of the files `1 .. thread_count`, check their
number, sort them by commit id, and replay them on a table of 100s.  `std::sort` is modelled
by an insertion sort; the result of a sort is unique when the commit ids are distinct.
`none` when the assertion fails, an index is out of range, an addition overflows or the
reading loop does not end. -/
def IsCorrect (record_count thread_count : Nat) (last_global_execution_order : Int)
    (files : Int → Option String) : Option Bool :=
  (IsCorrect.readFiles files ((List.range thread_count).map (fun n => n + 1)) []).bind
    (fun log_vector =>
      if (log_vector.length : Int) = last_global_execution_order then
        IsCorrect.replay (log_vector.insertionSort Log.le) (List.replicate record_count 100)
      else none)

/-! ### The logs of a serial run -/

/-- The text `Commit` writes for a log: the seven numbers, a blank between two of them, and
a newline. -/
def Log.line (l : Log) : String :=
  toString l.commit_id ++ " " ++ toString l.i ++ " " ++ toString l.j ++ " " ++ toString l.k ++
    " " ++ toString l.vi ++ " " ++ toString l.vj ++ " " ++ toString l.vk ++ "\n"

/-- The members of the log have values of their C++ types. -/
def Log.wf (l : Log) : Prop :=
  isInt32 l.commit_id ∧ isInt32 l.i ∧ isInt32 l.j ∧ isInt32 l.k ∧
    isInt64 l.vi ∧ isInt64 l.vj ∧ isInt64 l.vk

instance : IsTotal Log Log.le := ⟨fun a b => Int.le_total a.commit_id b.commit_id⟩

instance : IsTrans Log Log.le := ⟨fun _ _ _ h1 h2 => Int.le_trans h1 h2⟩

/-- Every thread that has its node in `s` has it in `s'`, with the same thread number. -/
def Managers.Numbered (s s' : Managers) : Prop :=
  ∀ u node, s.trx_node_table u = some node →
    ∃ node', s'.trx_node_table u = some node' ∧ node'.thread_number = node.thread_number

/-- The two conditions under which `AcquireLock(mode, record_id, trx, global_mutex)` reuses a
lock of the pool (line 286 of `Acquire.cpp`). -/
def lock_t.recyclable_mutex (l : lock_t) : Bool :=
  decide (l.state = lock_t.State.OBSOLETE) && l.head_pass_flag

/-- The members `AcquireLock(mode, record_id, trx, global_mutex)` resets on a recycled lock:
the lock id and `id_pass_flag` are left as they are. -/
def lock_t.recycle_mutex (l : lock_t) : lock_t :=
  { l with state := lock_t.State.ACTIVE, next := none, diff := 0,
           head_pass_flag := false, signal_flag := false }

/-- Lines 281-314 of `Acquire.cpp`: the first recyclable lock of the pool is reset, or a
new lock is allocated and added to the pool; then the mode is stored. -/
def LockManager.takeLock_mutex (s : Managers) (mode : lock_t.Mode) (record_id trx : Nat) :
    Nat × Managers :=
  match (s.pools trx record_id).find? (fun p => (s.locks p).recyclable_mutex) with
  | some p =>
    (p, (s.setLock p lock_t.recycle_mutex).setLock p (lock_t.withMode mode))
  | none =>
    (s.lock_count,
      { s with
        locks := Function.update s.locks s.lock_count
          (lock_t.withMode mode (lock_t.create record_id trx))
        lock_count := s.lock_count + 1
        pools := Function.update s.pools trx
          (Function.update (s.pools trx) record_id
            (s.pools trx record_id ++ [s.lock_count])) })

/-- Lines 316-327 of `Acquire.cpp` for the lock `new_lock`, with the nodes `node` of the
record and `trx_node` of the transaction: the lock joins the deque of the transaction, is
linked behind the tail (or becomes the head of an empty list), and becomes the tail.  No
lock id is stored. -/
def LockManager.appendLock_mutex (s : Managers) (record_id trx new_lock : Nat)
    (node : LockTableNode) (trx_node : TrxNode) : Managers :=
  match node.tail with
  | some prev_tail =>
    ((s.setTrx trx
      { trx_node with trx_lock_deque := trx_node.trx_lock_deque ++ [new_lock] }).setLock
        prev_tail (lock_t.withNext (some new_lock))).setNode record_id
          { node with tail := some new_lock }
  | none =>
    (s.setTrx trx
      { trx_node with trx_lock_deque := trx_node.trx_lock_deque ++ [new_lock] }).setNode
        record_id { node with head := some new_lock, tail := some new_lock }

/-- Lines 316-336 of `Acquire.cpp` for the lock `new_lock`: the lock is put at the end of
the list of the record, then, the conflict lock being null, it becomes the conflict lock of
the transaction. -/
def LockManager.linkLock_mutex (s : Managers) (record_id trx new_lock : Nat) :
    Option Managers :=
  (s.lock_table record_id).bind (fun node =>
  (s.trx_node_table trx).bind (fun trx_node =>
    if (LockManager.appendLock_mutex s record_id trx new_lock node trx_node).conflict_lock
        trx = none then
      some ((LockManager.appendLock_mutex s record_id trx new_lock node
        trx_node).setConflict trx (some new_lock))
    else none))

/-- Lines 340-352 of `Acquire.cpp`: the walk `while (target != new_lock)` from the head
that fills `waiting_lock_vector`.  A null `next` before `new_lock` is dereferenced in the
next round.  Each round costs one unit of fuel. -/
def LockManager.collectWaiting_mutex (locks : Nat → lock_t) (new_lock : Nat) :
    Nat → Nat → List Nat → Option (List Nat)
  | 0, _, _ => none
  | fuel + 1, target, waiting_lock_vector =>
    if target = new_lock then some waiting_lock_vector
    else
      match (locks target).next with
      | some t =>
        LockManager.collectWaiting_mutex locks new_lock fuel t
          (waiting_lock_vector ++ [target])
      | none => none

/-- Lines 359-388 of `Acquire.cpp`: the compatibility check over the locks of
`waiting_lock_vector` from the newest to the oldest (the list `todo`), with `IsDeadlock2`.
The result is `true` when the function returns `nullptr` from inside the loop. -/
def LockManager.checkCompatible_mutex (waiting_lock_vector : List Nat) (trx new_lock : Nat) :
    List Nat → Managers → Option (Bool × Managers)
  | [], s => some (false, s)
  | target :: todo, s =>
    if (s.locks target).state = lock_t.State.OBSOLETE then
      LockManager.checkCompatible_mutex waiting_lock_vector trx new_lock todo s
    else if (s.locks new_lock).mode = lock_t.Mode.EXCLUSIVE ∨
        (s.locks target).mode = lock_t.Mode.EXCLUSIVE then
      (LockManager.IsDeadlock2 (s.setLock new_lock (lock_t.withState lock_t.State.WAIT)) trx
          waiting_lock_vector).bind (fun r =>
        if r.1 = true then
          some (true, (r.2.setLock new_lock
            (lock_t.withState lock_t.State.OBSOLETE)).setConflict trx none)
        else some (false, r.2))
    else LockManager.checkCompatible_mutex waiting_lock_vector trx new_lock todo s

/-- `LockManager::AcquireLock(mode, record_id, trx, global_mutex)` up to the point where the
thread returns or goes to sleep in `trx->cond.wait(global_lock)`. -/
def LockManager.AcquireLock_mutex (s : Managers) (mode : lock_t.Mode) (record_id trx : Nat) :
    Option (AcquireOutcome × Managers) :=
  (LockManager.linkLock_mutex (LockManager.takeLock_mutex s mode record_id trx).2 record_id
      trx (LockManager.takeLock_mutex s mode record_id trx).1).bind (fun s1 =>
  ((s1.lock_table record_id).bind (fun node => node.head)).bind (fun head =>
  (LockManager.collectWaiting_mutex s1.locks
      (LockManager.takeLock_mutex s mode record_id trx).1 (s1.lock_count + 1) head []).bind
    (fun waiting_lock_vector =>
  (LockManager.checkCompatible_mutex waiting_lock_vector trx
      (LockManager.takeLock_mutex s mode record_id trx).1 waiting_lock_vector.reverse s1).bind
    (fun r =>
      if r.1 = true then some (AcquireOutcome.null, r.2)
      else if (r.2.locks (LockManager.takeLock_mutex s mode record_id trx).1).state =
            lock_t.State.WAIT ∧
          (r.2.locks (LockManager.takeLock_mutex s mode record_id trx).1).signal_flag =
            false then
        some (AcquireOutcome.waiting (LockManager.takeLock_mutex s mode record_id trx).1, r.2)
      else
        some (AcquireOutcome.lock (LockManager.takeLock_mutex s mode record_id trx).1,
          LockManager.finishAcquire r.2 trx
            (LockManager.takeLock_mutex s mode record_id trx).1)))))

/-- `LockManager::ReleaseLock(release_lock, global_mutex)`: the statements are those of
`ReleaseLock(release_lock)`, in the same order; only the mutexes differ. -/
def LockManager.ReleaseLock_mutex (s : Managers) (release_lock : Nat) : Option Managers :=
  LockManager.advance (s.setLock release_lock (lock_t.withState lock_t.State.OBSOLETE))
    (s.locks release_lock).record_id

/-- `TrxManager::Find(record_id, ret, global_mutex)` called by the thread `thread_id`. -/
def TrxManager.Find_mutex (s : Managers) (thread_id record_id : Nat) :
    Option (Response × Managers) :=
  (LockManager.AcquireLock_mutex (TrxManager.GetTrxNode s thread_id) lock_t.Mode.SHARED
      record_id thread_id).bind (fun r =>
    match r.1 with
    | AcquireOutcome.null => some (Response.MUST_ABORTED, r.2)
    | AcquireOutcome.lock lock => TrxManager.FindWith r.2 lock
    | AcquireOutcome.waiting lock => some (Response.BLOCKED lock, r.2))

/-- `TrxManager::Update(record_id, diff, ret, global_mutex)` called by the thread
`thread_id`. -/
def TrxManager.Update_mutex (s : Managers) (thread_id record_id : Nat) (diff : Int) :
    Option (Response × Managers) :=
  (LockManager.AcquireLock_mutex (TrxManager.GetTrxNode s thread_id) lock_t.Mode.EXCLUSIVE
      record_id thread_id).bind (fun r =>
    match r.1 with
    | AcquireOutcome.null => some (Response.MUST_ABORTED, r.2)
    | AcquireOutcome.lock lock => TrxManager.UpdateWith r.2 lock diff
    | AcquireOutcome.waiting lock => some (Response.BLOCKED lock, r.2))

/-- One round of the loop of `Abort(global_mutex)`. -/
def TrxManager.rollbackOne_mutex (s : Managers) (target_lock : Nat) : Option Managers :=
  (if TrxManager.needsRollback s target_lock then
    (if isInt64 (-(s.locks target_lock).diff) then
      (LockManager.ChangeRecord s target_lock (-(s.locks target_lock).diff)).map
        (fun r => r.2)
    else none)
  else some s).bind (fun s1 => LockManager.ReleaseLock_mutex s1 target_lock)

/-- The loop of `Abort(global_mutex)` (and of a `Commit(global_mutex)` above the cap) over
the deque. -/
def TrxManager.rollback_mutex : List Nat → Managers → Option Managers
  | [], s => some s
  | target_lock :: rest, s =>
    (TrxManager.rollbackOne_mutex s target_lock).bind (TrxManager.rollback_mutex rest)

/-- `TrxManager::Abort(global_mutex)` called by the thread `thread_id`. -/
def TrxManager.Abort_mutex (s : Managers) (thread_id : Nat) : Option Managers :=
  TrxManager.rollback_mutex ((TrxManager.GetTrxNode s thread_id).trx_lock_deque thread_id)
    (TrxManager.GetTrxNode s thread_id)

/-- The loop of a `Commit(global_mutex)` within the cap. -/
def TrxManager.releaseAll_mutex :
    List Nat → Managers → Option ((List Nat × List Int) × Managers)
  | [], s => some (([], []), s)
  | target_lock :: rest, s =>
    (LockManager.GetRecord s target_lock).bind (fun v =>
    (LockManager.ReleaseLock_mutex s target_lock).bind (fun s1 =>
    (TrxManager.releaseAll_mutex rest s1).map (fun r =>
      (((s.locks target_lock).record_id :: r.1.1, v :: r.1.2), r.2))))

/-- `TrxManager::Commit(global_mutex)` called by the thread `thread_id`; returns the commit
id or `-1`. -/
def TrxManager.Commit_mutex (s : Managers) (thread_id : Nat) : Option (Int × Managers) :=
  if isInt32 (s.global_execution_count + 1) then
    if s.global_execution_count + 1 > s.last_global_execution_order then
      (TrxManager.rollback_mutex
        ((TrxManager.GetTrxNode s thread_id).trx_lock_deque thread_id)
        ((TrxManager.openLog s thread_id).setCount (s.global_execution_count + 1))).map
        (fun s2 => (-1, s2))
    else
      (TrxManager.releaseAll_mutex
        ((TrxManager.GetTrxNode s thread_id).trx_lock_deque thread_id)
        ((TrxManager.openLog s thread_id).setCount (s.global_execution_count + 1))).map
        (fun r =>
          (s.global_execution_count + 1,
            Managers.append r.2 ((TrxManager.GetTrxNode s thread_id).thread_number_of thread_id)
              (TrxManager.commitLog (s.global_execution_count + 1) r.1.1 r.1.2)))
  else none

/-! ### Sequences of calls -/

/-- A call of a thread to the transaction manager. -/
inductive TrxCall where
  | Begin
  | Find (record_id : Nat)
  | Update (record_id : Nat) (diff : Int)
  | Abort
  | Commit
  deriving DecidableEq

/-- What a call gave back to its caller: nothing (`Begin`, `Abort`), the response of `Find`
or `Update` with the value stored in `*ret`, or the `int` of `Commit`. -/
inductive TrxReply where
  | returned
  | response (r : Response)
  | commit_id (id : Int)
  deriving DecidableEq

/-- A call of the thread `thread_id` with the default versions of the functions. -/
def TrxManager.serve (s : Managers) (thread_id : Nat) :
    TrxCall → Option (TrxReply × Managers)
  | TrxCall.Begin => some (TrxReply.returned, TrxManager.Begin s thread_id)
  | TrxCall.Find r => (TrxManager.Find s thread_id r).map (fun x => (TrxReply.response x.1, x.2))
  | TrxCall.Update r d =>
    (TrxManager.Update s thread_id r d).map (fun x => (TrxReply.response x.1, x.2))
  | TrxCall.Abort => (TrxManager.Abort s thread_id).map (fun s1 => (TrxReply.returned, s1))
  | TrxCall.Commit =>
    (TrxManager.Commit s thread_id).map (fun x => (TrxReply.commit_id x.1, x.2))

/-- A call of the thread `thread_id` with the versions that take the global mutex. -/
def TrxManager.serve_mutex (s : Managers) (thread_id : Nat) :
    TrxCall → Option (TrxReply × Managers)
  | TrxCall.Begin => some (TrxReply.returned, TrxManager.Begin s thread_id)
  | TrxCall.Find r =>
    (TrxManager.Find_mutex s thread_id r).map (fun x => (TrxReply.response x.1, x.2))
  | TrxCall.Update r d =>
    (TrxManager.Update_mutex s thread_id r d).map (fun x => (TrxReply.response x.1, x.2))
  | TrxCall.Abort =>
    (TrxManager.Abort_mutex s thread_id).map (fun s1 => (TrxReply.returned, s1))
  | TrxCall.Commit =>
    (TrxManager.Commit_mutex s thread_id).map (fun x => (TrxReply.commit_id x.1, x.2))

/-- The reply says that the thread went to sleep inside `AcquireLock`. -/
def TrxReply.asleep : TrxReply → Bool
  | TrxReply.response (Response.BLOCKED _) => true
  | _ => false

/-- A sequence of calls, each by the thread named with it, one after the other: no call
starts before the one before it has returned.  Returns the replies and the last state.  A
thread that goes to sleep never returns, so the sequence ends there, with that reply.
`none` when a call crashes or does not end. -/
def TrxManager.sequence (serve : Managers → Nat → TrxCall → Option (TrxReply × Managers)) :
    List (Nat × TrxCall) → Managers → Option (List TrxReply × Managers)
  | [], s => some ([], s)
  | call :: rest, s =>
    (serve s call.1 call.2).bind (fun x =>
      if x.1.asleep = true then some ([x.1], x.2)
      else (TrxManager.sequence serve rest x.2).map (fun y => (x.1 :: y.1, y.2)))

/-- The members of a lock that only the default version of `AcquireLock` reads and writes
are set to the values of the constructor. -/
def lock_t.forget (l : lock_t) : lock_t :=
  { l with lock_id_on_record := LOCK_ID_MAX, id_pass_flag := false }

/-- The state without the lock ids and the `id_pass_flag`s: what the versions with the global
mutex leave where the default versions leave `s`. -/
def Managers.forget (s : Managers) : Managers :=
  { s with locks := fun l => (s.locks l).forget }

/-- The state between two calls of a sequence in which no thread sleeps, after fewer than
`N` calls: the invariant of the lock manager holds, no thread has a conflict lock, a lock
the head has passed has passed its id on, and every lock id is below `N`. -/
structure Managers.Serial (N : Nat) (s : Managers) : Prop where
  inv : s.Inv
  awake : ∀ t, s.conflict_lock t = none
  passed : ∀ l, l < s.lock_count → (s.locks l).head_pass_flag = true →
    (s.locks l).id_pass_flag = true
  ids : ∀ l, l < s.lock_count → (s.locks l).lock_id_on_record < N

/-- The call takes a lock: it is a `Find` or an `Update`. -/
def TrxCall.acquires : TrxCall → Bool
  | TrxCall.Find _ => true
  | TrxCall.Update _ _ => true
  | _ => false

/-- What a sequence of calls shows to the outside: the replies, the value of every record,
and the content of the files. -/
def TrxManager.observed (y : List TrxReply × Managers) :
    List TrxReply × (Nat → Option Int) × (Int → String) :=
  (y.1, fun r => (y.2.lock_table r).map (fun node => node.record_value), y.2.files)

/-! ## Facts on the packed word -/

theorem hi_mask_and (w : Nat) (hw : w < 2 ^ 64) :
    0xffffffff00000000 &&& w = 2 ^ 32 * (w / 2 ^ 32) := by
  apply Nat.eq_of_testBit_eq
  intro i
  have hM : (0xffffffff00000000 : Nat) = 2 ^ 32 * (2 ^ 32 - 1) := by norm_num
  rw [Nat.testBit_and, hM, Nat.testBit_mul_pow_two, Nat.testBit_mul_pow_two,
    Nat.testBit_two_pow_sub_one, ← Nat.shiftRight_eq_div_pow, Nat.testBit_shiftRight]
  by_cases h1 : i ≥ 32
  · by_cases h2 : i - 32 < 32
    · have : 32 + (i - 32) = i := by omega
      simp [h1, h2, this]
    · have h3 : w.testBit i = false := by
        apply Nat.testBit_lt_two_pow
        calc w < 2 ^ 64 := hw
          _ ≤ 2 ^ i := Nat.pow_le_pow_right (by norm_num) (by omega)
      have : 32 + (i - 32) = i := by omega
      simp [h1, h2, h3, this]
  · simp [h1]

theorem lo_mask_and (w : Nat) : 0x00000000ffffffff &&& w = w % 2 ^ 32 := by
  have hM : (0x00000000ffffffff : Nat) = 2 ^ 32 - 1 := by norm_num
  rw [hM, Nat.and_comm, Nat.and_pow_two_sub_one_eq_mod]

theorem castIntToU64_mod (v : Int) : castIntToU64 v % 2 ^ 32 = (v % (2 ^ 32 : Int)).toNat := by
  unfold castIntToU64
  have h1 : (0 : Int) ≤ v % (2 ^ 64 : Int) := Int.emod_nonneg _ (by norm_num)
  have h2 : (0 : Int) ≤ v % (2 ^ 32 : Int) := Int.emod_nonneg _ (by norm_num)
  have h3 : v % (2 ^ 64 : Int) % (2 ^ 32 : Int) = v % (2 ^ 32 : Int) :=
    Int.emod_emod_of_dvd v (by norm_num)
  zify
  rw [Int.toNat_of_nonneg h1, Int.toNat_of_nonneg h2]
  exact_mod_cast h3

theorem castU64ToInt_of_int32 (v : Int) (hv : isInt32 v) :
    castU64ToInt ((v % (2 ^ 32 : Int)).toNat) = v := by
  unfold isInt32 INT_MIN INT_MAX at hv
  unfold castU64ToInt
  have h2 : (0 : Int) ≤ v % (2 ^ 32 : Int) := Int.emod_nonneg _ (by norm_num)
  have h3 : v % (2 ^ 32 : Int) < 2 ^ 32 := Int.emod_lt_of_pos _ (by norm_num)
  have h4 : (v % (2 ^ 32 : Int)).toNat % 2 ^ 32 = (v % (2 ^ 32 : Int)).toNat := by
    apply Nat.mod_eq_of_lt
    zify
    rw [Int.toNat_of_nonneg h2]
    exact_mod_cast h3
  rw [h4]
  have h5 : (((v % (2 ^ 32 : Int)).toNat : Nat) : Int) = v % (2 ^ 32 : Int) :=
    Int.toNat_of_nonneg h2
  by_cases hneg : 0 ≤ v
  · have h6 : v % (2 ^ 32 : Int) = v := Int.emod_eq_of_lt hneg (by omega)
    have h7 : (v % (2 ^ 32 : Int)).toNat < 2 ^ 31 := by
      zify
      rw [h5, h6]
      omega
    rw [if_pos h7, h5, h6]
  · have h6 : v % (2 ^ 32 : Int) = v + 2 ^ 32 := by
      have : (v + 2 ^ 32) % (2 ^ 32 : Int) = v + 2 ^ 32 :=
        Int.emod_eq_of_lt (by omega) (by omega)
      rw [← this, Int.add_emod_self]
    have h7 : ¬ (v % (2 ^ 32 : Int)).toNat < 2 ^ 31 := by
      zify
      rw [h5, h6]
      omega
    rw [if_neg h7, h5, h6]
    omega

namespace AtomicRegister

theorem timestamp_lt (r : AtomicRegister) (hr : r.wf) : r.timestamp < 2 ^ 32 := by
  unfold timestamp
  unfold wf at hr
  omega

theorem new_timestamp_mask_eq (r : AtomicRegister) (hr : r.wf) :
    r.new_timestamp_mask = if r.timestamp = 2 ^ 32 - 1 then 0 else 2 ^ 32 * (r.timestamp + 1) := by
  have ht := r.timestamp_lt hr
  unfold new_timestamp_mask TIMESTAMP_MASK TIMESTAMP_INC
  rw [hi_mask_and _ hr]
  unfold timestamp at *
  split_ifs with h <;> omega

theorem write_eq (r : AtomicRegister) (v : Int) (hr : r.wf) (ht : r.timestamp < 2 ^ 32 - 1) :
    r.write v = some ⟨2 ^ 32 * (r.timestamp + 1) + (v % (2 ^ 32 : Int)).toNat⟩ := by
  have hm := r.new_timestamp_mask_eq hr
  rw [if_neg (by omega)] at hm
  have hlt : (v % (2 ^ 32 : Int)).toNat < 2 ^ 32 := by
    have h2 : (0 : Int) ≤ v % (2 ^ 32 : Int) := Int.emod_nonneg _ (by norm_num)
    have h3 : v % (2 ^ 32 : Int) < 2 ^ 32 := Int.emod_lt_of_pos _ (by norm_num)
    omega
  unfold write
  rw [if_neg (by omega)]
  simp only [VALUE_MASK, lo_mask_and, castIntToU64_mod, hm]
  rw [← Nat.mul_add_lt_is_or hlt]

end AtomicRegister

/-! ## The packed register (claims C5, C6, C7) -/

/-- C5: for every 32-bit signed value `v` and every register whose timestamp is below
`2^32 - 1`, `write(v)` succeeds and `read()` right after it returns exactly `v`; a
default-constructed register reads 0. -/
theorem AtomicRegister.read_after_write (r : AtomicRegister) (v : Int) (hr : r.wf)
    (hv : isInt32 v) (ht : r.timestamp < 2 ^ 32 - 1) :
    (∃ r1, r.write v = some r1 ∧ r1.read = v) ∧ AtomicRegister.default.read = 0 := by
  refine ⟨⟨_, r.write_eq v hr ht, ?_⟩, by decide⟩
  have hlt : (v % (2 ^ 32 : Int)).toNat < 2 ^ 32 := by
    have h2 : (0 : Int) ≤ v % (2 ^ 32 : Int) := Int.emod_nonneg _ (by norm_num)
    have h3 : v % (2 ^ 32 : Int) < 2 ^ 32 := Int.emod_lt_of_pos _ (by norm_num)
    omega
  unfold AtomicRegister.read AtomicRegister.VALUE_MASK
  rw [lo_mask_and]
  have : (2 ^ 32 * (r.timestamp + 1) + (v % (2 ^ 32 : Int)).toNat) % 2 ^ 32
      = (v % (2 ^ 32 : Int)).toNat := by omega
  simp only [this]
  exact castU64ToInt_of_int32 v hv

/-- A negative value written to a register with timestamp 41 and read back. -/
theorem AtomicRegister.read_after_write_witness :
    (∃ r1, (AtomicRegister.mk (41 * 2 ^ 32 + 5)).write (-7) = some r1 ∧ r1.read = -7)
      ∧ AtomicRegister.default.read = 0 :=
  AtomicRegister.read_after_write ⟨41 * 2 ^ 32 + 5⟩ (-7) (by decide) (by decide) (by decide)

/-- C6: for every register whose timestamp field `t` is below `2^32 - 1` and every int32 `v`,
`write(v)` stores `((t + 1) << 32) | (v mod 2^32)`: the timestamp of the new word is `t + 1`
and its low half is the 32-bit pattern of `v`, whatever the sign of `v`. -/
theorem AtomicRegister.write_packed_word (r : AtomicRegister) (v : Int) (hr : r.wf)
    (hv : isInt32 v) (ht : r.timestamp < 2 ^ 32 - 1) :
    ∃ r1, r.write v = some r1 ∧
      r1.timestamp_with_value = ((r.timestamp + 1) <<< 32) ||| (v % (2 ^ 32 : Int)).toNat ∧
      r1.timestamp = r.timestamp + 1 ∧
      r1.timestamp_with_value % 2 ^ 32 = (v % (2 ^ 32 : Int)).toNat ∧
      r1.wf := by
  have _ := hv
  have hlt : (v % (2 ^ 32 : Int)).toNat < 2 ^ 32 := by
    have h2 : (0 : Int) ≤ v % (2 ^ 32 : Int) := Int.emod_nonneg _ (by norm_num)
    have h3 : v % (2 ^ 32 : Int) < 2 ^ 32 := Int.emod_lt_of_pos _ (by norm_num)
    omega
  refine ⟨_, r.write_eq v hr ht, ?_, ?_, ?_, ?_⟩
  · show _ = ((r.timestamp + 1) <<< 32) ||| (v % (2 ^ 32 : Int)).toNat
    rw [Nat.shiftLeft_eq, Nat.mul_comm (r.timestamp + 1), ← Nat.mul_add_lt_is_or hlt]
  · show (2 ^ 32 * (r.timestamp + 1) + (v % (2 ^ 32 : Int)).toNat) / 2 ^ 32 = r.timestamp + 1
    omega
  · show (2 ^ 32 * (r.timestamp + 1) + (v % (2 ^ 32 : Int)).toNat) % 2 ^ 32 = _
    omega
  · show 2 ^ 32 * (r.timestamp + 1) + (v % (2 ^ 32 : Int)).toNat < 2 ^ 64
    omega

/-- The value -1, all ones in 32 bits, written to a register with timestamp 41. -/
theorem AtomicRegister.write_packed_word_witness :
    ∃ r1, (AtomicRegister.mk (41 * 2 ^ 32 + 5)).write (-1) = some r1 ∧
      r1.timestamp_with_value
        = (((AtomicRegister.mk (41 * 2 ^ 32 + 5)).timestamp + 1) <<< 32)
            ||| ((-1 : Int) % (2 ^ 32 : Int)).toNat ∧
      r1.timestamp = (AtomicRegister.mk (41 * 2 ^ 32 + 5)).timestamp + 1 ∧
      r1.timestamp_with_value % 2 ^ 32 = ((-1 : Int) % (2 ^ 32 : Int)).toNat ∧
      r1.wf :=
  AtomicRegister.write_packed_word ⟨41 * 2 ^ 32 + 5⟩ (-1) (by decide) (by decide) (by decide)

/-- C7: `write` fails its overflow assertion exactly when the timestamp field is `2^32 - 1`;
in every other state it succeeds, the timestamp after the write is strictly greater than
before, and the old and the new content compare unequal under `operator!=`, whatever value
is written. -/
theorem AtomicRegister.write_overflow_iff (r : AtomicRegister) (v : Int) (hr : r.wf) :
    (r.write v = none ↔ r.timestamp = 2 ^ 32 - 1) ∧
    (r.timestamp ≠ 2 ^ 32 - 1 → ∃ r1, r.write v = some r1 ∧ r.timestamp < r1.timestamp ∧
      r1.ne r = true ∧ r.ne r1 = true) := by
  have hlt := r.timestamp_lt hr
  constructor
  · constructor
    · intro h
      by_contra hne
      rw [r.write_eq v hr (by omega)] at h
      exact Option.noConfusion h
    · intro h
      have hm := r.new_timestamp_mask_eq hr
      rw [if_pos h] at hm
      unfold AtomicRegister.write
      rw [if_pos hm]
  · intro hne
    have ht : r.timestamp < 2 ^ 32 - 1 := by omega
    refine ⟨_, r.write_eq v hr ht, ?_, ?_, ?_⟩
    · show r.timestamp < (2 ^ 32 * (r.timestamp + 1) + (v % (2 ^ 32 : Int)).toNat) / 2 ^ 32
      omega
    · unfold AtomicRegister.ne
      simp only [bne_iff_ne, ne_eq]
      unfold AtomicRegister.timestamp at *
      omega
    · unfold AtomicRegister.ne
      simp only [bne_iff_ne, ne_eq]
      unfold AtomicRegister.timestamp at *
      omega

/-- The same value written to a register that already holds it, and the assertion failing at
the largest timestamp. -/
theorem AtomicRegister.write_overflow_iff_witness :
    ((AtomicRegister.mk (41 * 2 ^ 32 + 5)).write 5 = none
        ↔ (AtomicRegister.mk (41 * 2 ^ 32 + 5)).timestamp = 2 ^ 32 - 1) ∧
    ((AtomicRegister.mk (41 * 2 ^ 32 + 5)).timestamp ≠ 2 ^ 32 - 1 →
      ∃ r1, (AtomicRegister.mk (41 * 2 ^ 32 + 5)).write 5 = some r1 ∧
        (AtomicRegister.mk (41 * 2 ^ 32 + 5)).timestamp < r1.timestamp ∧
        r1.ne (AtomicRegister.mk (41 * 2 ^ 32 + 5)) = true ∧
        (AtomicRegister.mk (41 * 2 ^ 32 + 5)).ne r1 = true) :=
  AtomicRegister.write_overflow_iff ⟨41 * 2 ^ 32 + 5⟩ 5 (by decide)

/-! ## Facts on the control block of a holder -/

theorem INDEX_MASK_eq (w : Nat) : INDEX_MASK w = w % 2 ^ 32 := by
  unfold INDEX_MASK
  exact lo_mask_and w

theorem EXTRACT_REFERENCE_CNT_eq (w : Nat) (hw : w < 2 ^ 64) :
    EXTRACT_REFERENCE_CNT w = castU64ToInt (w / 2 ^ 32) := by
  unfold EXTRACT_REFERENCE_CNT REFERENCE_CNT_MASK
  rw [hi_mask_and w hw, Nat.shiftRight_eq_div_pow, Nat.mul_div_cancel_left _ (by norm_num)]

theorem EXTRACT_REFERENCE_CNT_nonneg (w : Nat) (hw : w < 2 ^ 64) (h : w / 2 ^ 32 < 2 ^ 31) :
    EXTRACT_REFERENCE_CNT w = ((w / 2 ^ 32 : Nat) : Int) := by
  rw [EXTRACT_REFERENCE_CNT_eq w hw]
  unfold castU64ToInt
  have : w / 2 ^ 32 % 2 ^ 32 = w / 2 ^ 32 := Nat.mod_eq_of_lt (by omega)
  rw [this, if_pos h]

theorem EXTRACT_REFERENCE_CNT_neg (w : Nat) (hw : w < 2 ^ 64) (h : ¬ w / 2 ^ 32 < 2 ^ 31) :
    EXTRACT_REFERENCE_CNT w < 0 := by
  rw [EXTRACT_REFERENCE_CNT_eq w hw]
  unfold castU64ToInt
  have : w / 2 ^ 32 % 2 ^ 32 = w / 2 ^ 32 := Nat.mod_eq_of_lt (by omega)
  rw [this, if_neg h]
  have : w / 2 ^ 32 < 2 ^ 32 := by omega
  omega

theorem acquire_eq (h : shared_snapshot) (b : Snapshot)
    (hb : h.snapshot_ptr_vector[h.current_index]? = some (some b)) :
    h.acquire = some (h.current_index,
      ⟨(h.outer_cnt_with_index + 2 ^ 32) % 2 ^ 64, h.snapshot_ptr_vector, h.version_count⟩) := by
  unfold shared_snapshot.acquire
  simp only [INDEX_MASK_eq]
  unfold shared_snapshot.current_index at hb
  rw [hb]
  rfl

theorem acquire_some (h h1 : shared_snapshot) (index : Nat) (ha : h.acquire = some (index, h1)) :
    index = h.current_index ∧ (∃ b, h.snapshot_ptr_vector[index]? = some (some b)) ∧
      h1 = ⟨(h.outer_cnt_with_index + 2 ^ 32) % 2 ^ 64, h.snapshot_ptr_vector, h.version_count⟩ := by
  unfold shared_snapshot.acquire at ha
  simp only [INDEX_MASK_eq] at ha
  unfold shared_snapshot.current_index
  split at ha
  · rename_i b hb
    simp only [Option.some.injEq, Prod.mk.injEq] at ha
    refine ⟨ha.1.symm, ⟨b, ?_⟩, ?_⟩
    · rw [← ha.1]; exact hb
    · rw [← ha.2]; rfl
  · exact Option.noConfusion ha

theorem findEmptyIndex_le (h : shared_snapshot) : h.findEmptyIndex ≤ h.snapshot_ptr_vector.length := by
  unfold shared_snapshot.findEmptyIndex
  exact List.findIdx_le_length _

/-- The snapshot that `exchange` installs: the registers of its argument, count 0, flag off. -/
theorem exchange_unfold (h : shared_snapshot) (s : Snapshot) (hwf : h.wf) :
    h.exchange s =
      if h.findEmptyIndex < h.version_count ∧ h.outer_cnt < 2 ^ 31 then
        if h.current_index = h.findEmptyIndex then
          some ⟨h.findEmptyIndex,
            h.snapshot_ptr_vector.set h.findEmptyIndex (some ⟨0, s.atomic_register_vector, false⟩),
            h.version_count⟩
        else
          match h.snapshot_ptr_vector[h.current_index]? with
          | some (some old) =>
            match old.reset (h.outer_cnt : Int) with
            | some old1 =>
              some ⟨h.findEmptyIndex,
                (h.snapshot_ptr_vector.set h.findEmptyIndex
                  (some ⟨0, s.atomic_register_vector, false⟩)).set h.current_index (some old1),
                h.version_count⟩
            | none => none
          | _ => none
      else none := by
  obtain ⟨hw, hM, hlen⟩ := hwf
  have hle := findEmptyIndex_le h
  unfold shared_snapshot.exchange
  simp only
  by_cases hi : h.findEmptyIndex = h.version_count
  · rw [if_pos hi, if_neg (by omega)]
  · rw [if_neg hi]
    have hlt : h.findEmptyIndex < h.snapshot_ptr_vector.length := by omega
    rw [List.getElem?_eq_getElem hlt]
    simp only
    have hinst : (match h.snapshot_ptr_vector[h.findEmptyIndex] with
        | none => Snapshot.copy s
        | some b => b.assign s) = ⟨0, s.atomic_register_vector, false⟩ := by
      cases h.snapshot_ptr_vector[h.findEmptyIndex] <;> rfl
    rw [hinst]
    have hmod : h.findEmptyIndex % 2 ^ 64 = h.findEmptyIndex := Nat.mod_eq_of_lt (by omega)
    rw [hmod, INDEX_MASK_eq]
    unfold shared_snapshot.outer_cnt shared_snapshot.current_index
    by_cases ho : h.outer_cnt_with_index / 2 ^ 32 < 2 ^ 31
    · have hE := EXTRACT_REFERENCE_CNT_nonneg _ hw ho
      have hcond : ¬ (((h.outer_cnt_with_index / 2 ^ 32 : Nat) : Int) < 0) := by omega
      rw [hE, if_neg hcond]
      rw [if_pos (show h.findEmptyIndex < h.version_count ∧
        h.outer_cnt_with_index / 2 ^ 32 < 2 ^ 31 from ⟨by omega, ho⟩)]
      by_cases hc : h.outer_cnt_with_index % 2 ^ 32 = h.findEmptyIndex
      · rw [if_neg (not_not.mpr hc), if_pos hc]
      · rw [if_pos hc, if_neg hc, List.getElem?_set_ne (Ne.symm hc)]
    · have hE := EXTRACT_REFERENCE_CNT_neg _ hw ho
      rw [if_pos hE]
      rw [if_neg (show ¬ (h.findEmptyIndex < h.version_count ∧
        h.outer_cnt_with_index / 2 ^ 32 < 2 ^ 31) from fun hh => ho hh.2)]
theorem word_add_inc (w : Nat) (hg : w / 2 ^ 32 < 2 ^ 32 - 1) :
    (w + 2 ^ 32) % 2 ^ 64 = w + 2 ^ 32 ∧ (w + 2 ^ 32) % 2 ^ 32 = w % 2 ^ 32 ∧
      (w + 2 ^ 32) / 2 ^ 32 = w / 2 ^ 32 + 1 := by
  omega


theorem HolderState.inv_acquire (st st1 : HolderState) (hinv : st.Inv)
    (hg : st.holder.outer_cnt < 2 ^ 32 - 1)
    (hstep : st.step HolderStep.acquire = some st1) : st1.Inv := by
  obtain ⟨⟨w, slots, M⟩, acq⟩ := st
  obtain ⟨⟨hw, hM, hlen⟩, hslot, _⟩ := hinv
  simp only [HolderState.step] at hstep
  split at hstep
  · rename_i index h1 ha
    obtain ⟨hidx, ⟨b, hb⟩, hh1⟩ := acquire_some _ _ _ ha
    simp only [Option.some.injEq] at hstep
    subst hstep
    subst hh1
    simp only [shared_snapshot.outer_cnt, shared_snapshot.current_index] at hg hidx hw hM hlen hb
    obtain ⟨hword, hcur, hout⟩ := word_add_inc _ hg
    simp only [HolderState.Inv, shared_snapshot.wf, shared_snapshot.current_index, hword, hcur]
    refine ⟨⟨by omega, hM, hlen⟩, ?_, Or.inr ⟨b, hidx ▸ hb⟩⟩
    intro j
    have hj := hslot j
    simp only [HolderState.SlotInv, HolderState.outstanding, shared_snapshot.current_index,
      shared_snapshot.outer_cnt, hword, hcur, hout] at hj ⊢
    subst hidx
    split
    · rename_i b2 hb2
      rw [hb2] at hj
      simp only at hj
      by_cases hjc : j = w % 2 ^ 32
      · rw [if_pos hjc] at hj ⊢
        rw [List.count_cons, if_pos (by simp [hjc])]
        obtain ⟨h1, h2, h3⟩ := hj
        refine ⟨h1, h2, ?_⟩
        push_cast at h3 ⊢
        rw [h3]
        ring
      · rw [if_neg hjc] at hj ⊢
        have hne : ¬ ((w % 2 ^ 32 == j) = true) := by
          simpa using Ne.symm hjc
        rw [List.count_cons, if_neg hne]
        simpa using hj
    · rename_i hnb
      have hjc : j ≠ w % 2 ^ 32 := by
        intro hjc
        exact hnb b (hjc ▸ hb)
      have hne : ¬ ((w % 2 ^ 32 == j) = true) := by
        simpa using Ne.symm hjc
      rw [List.count_cons, if_neg hne]
      split at hj
      · rename_i b3 hb3
        exact absurd hb3 (hnb b3)
      · simpa using hj
  · exact Option.noConfusion hstep
theorem HolderState.inv_init (M : Nat) (hM : M < 2 ^ 31) : (HolderState.init M).Inv := by
  refine ⟨⟨by simp [HolderState.init, shared_snapshot.create], hM,
    by simp [HolderState.init, shared_snapshot.create]⟩, ?_, Or.inl ⟨rfl, ?_⟩⟩
  · intro j
    unfold HolderState.SlotInv
    simp only [HolderState.init, shared_snapshot.create, List.getElem?_replicate]
    split
    · rename_i b hb
      split at hb <;> simp at hb
    · rfl
  · intro p hp
    simp only [HolderState.init, shared_snapshot.create] at hp
    exact (List.mem_replicate.mp hp).2
theorem releaseAt_some (h h1 : shared_snapshot) (index : Nat)
    (hr : h.releaseAt index = some h1) :
    ∃ b, h.snapshot_ptr_vector[index]? = some (some b) ∧ isInt32 (b.inner_cnt + 1) ∧
      h1 = ⟨h.outer_cnt_with_index,
        h.snapshot_ptr_vector.set index
          (some ⟨b.inner_cnt + 1, b.atomic_register_vector,
            if b.inner_cnt + 1 = 0 then true else b.recycle_flag⟩),
        h.version_count⟩ := by
  unfold shared_snapshot.releaseAt at hr
  split at hr
  · rename_i b hb
    refine ⟨b, hb, ?_⟩
    unfold Snapshot.release at hr
    simp only at hr
    by_cases hi : isInt32 (b.inner_cnt + 1)
    · rw [if_pos hi] at hr
      simp only [Option.some.injEq] at hr
      exact ⟨hi, hr.symm⟩
    · rw [if_neg hi] at hr
      exact Option.noConfusion hr
  · exact Option.noConfusion hr


theorem HolderState.inv_release (st st1 : HolderState) (index : Nat) (hinv : st.Inv)
    (hstep : st.step (HolderStep.release index) = some st1) : st1.Inv := by
  obtain ⟨⟨w, slots, M⟩, acq⟩ := st
  obtain ⟨⟨hw, hM, hlen⟩, hslot, hphase⟩ := hinv
  simp only [HolderState.step] at hstep
  split_ifs at hstep with hmem
  split at hstep
  · rename_i h1 hr
    obtain ⟨b, hb, hint, hh1⟩ := releaseAt_some _ _ _ hr
    simp only [Option.some.injEq] at hstep
    subst hstep
    subst hh1
    simp only at hw hM hlen hb hmem
    have hcnt : 0 < List.count index acq := List.count_pos_iff.mpr hmem
    have hidxlt : index < slots.length := by
      by_contra hcon
      rw [List.getElem?_eq_none (by omega)] at hb
      exact Option.noConfusion hb
    have hI := hslot index
    simp only [HolderState.SlotInv, HolderState.outstanding, shared_snapshot.current_index,
      shared_snapshot.outer_cnt, hb] at hI
    simp only [HolderState.Inv, shared_snapshot.wf, shared_snapshot.current_index,
      List.length_set]
    refine ⟨⟨hw, hM, hlen⟩, ?_, ?_⟩
    · intro j
      simp only [HolderState.SlotInv, HolderState.outstanding, shared_snapshot.current_index,
        shared_snapshot.outer_cnt]
      by_cases hji : j = index
      · subst hji
        rw [List.getElem?_set_self hidxlt, List.count_erase_self]
        simp only
        by_cases hjc : j = w % 2 ^ 32
        · rw [if_pos hjc] at hI ⊢
          obtain ⟨h1, h2, h3⟩ := hI
          have hne : ¬ (b.inner_cnt + 1 = 0) := by omega
          rw [if_neg hne]
          refine ⟨h1, by omega, ?_⟩
          push_cast [Nat.cast_sub hcnt] at h3 ⊢
          omega
        · rw [if_neg hjc] at hI ⊢
          obtain ⟨h1, h2⟩ := hI
          refine ⟨by push_cast [Nat.cast_sub hcnt]; omega, ?_⟩
          by_cases hz : b.inner_cnt + 1 = 0
          · rw [if_pos hz]
            simp only [true_iff]
            omega
          · rw [if_neg hz]
            constructor
            · intro hf
              have := h2.mp hf
              omega
            · intro hc
              omega
      · have hj := hslot j
        simp only [HolderState.SlotInv, HolderState.outstanding, shared_snapshot.current_index,
          shared_snapshot.outer_cnt] at hj
        rw [List.getElem?_set_ne (Ne.symm hji), List.count_erase_of_ne hji]
        exact hj
    · rcases hphase with ⟨_, hall⟩ | ⟨b0, hb0⟩
      · exfalso
        simp only at hall
        have := hall _ (List.getElem?_mem hb)
        exact Option.noConfusion this
      · simp only [shared_snapshot.current_index] at hb0
        right
        by_cases hci : index = w % 2 ^ 32
        · rw [← hci, List.getElem?_set_self hidxlt]
          exact ⟨_, rfl⟩
        · rw [List.getElem?_set_ne hci]
          exact ⟨b0, hb0⟩
  · exact Option.noConfusion hstep
theorem findEmptyIndex_spec (h : shared_snapshot)
    (hlt : h.findEmptyIndex < h.snapshot_ptr_vector.length) :
    ∃ p, h.snapshot_ptr_vector[h.findEmptyIndex]? = some p ∧
      shared_snapshot.isEmptySlot p = true := by
  refine ⟨_, List.getElem?_eq_getElem hlt, ?_⟩
  unfold shared_snapshot.findEmptyIndex
  exact List.findIdx_getElem

theorem reset_some (b b1 : Snapshot) (c : Int) (hr : b.reset c = some b1) :
    isInt32 (b.inner_cnt - c) ∧
      b1 = ⟨b.inner_cnt - c, b.atomic_register_vector,
        if b.inner_cnt - c = 0 then true else b.recycle_flag⟩ := by
  unfold Snapshot.reset at hr
  simp only at hr
  by_cases hi : isInt32 (b.inner_cnt - c)
  · rw [if_pos hi] at hr
    simp only [Option.some.injEq] at hr
    exact ⟨hi, hr.symm⟩
  · rw [if_neg hi] at hr
    exact Option.noConfusion hr

theorem small_index (i : Nat) (hi : i < 2 ^ 31) : i % 2 ^ 32 = i ∧ i / 2 ^ 32 = 0 := by
  omega


theorem HolderState.inv_exchange (st st1 : HolderState) (s : Snapshot) (hinv : st.Inv)
    (hstep : st.step (HolderStep.exchange s) = some st1) : st1.Inv := by
  obtain ⟨h, acq⟩ := st
  obtain ⟨hwf, hslot, hphase⟩ := hinv
  simp only [HolderState.step] at hstep
  split at hstep
  swap
  · exact Option.noConfusion hstep
  rename_i h1 hex
  simp only [Option.some.injEq] at hstep
  subst hstep
  simp only at hwf hphase
  rw [exchange_unfold h s hwf] at hex
  have hspec := findEmptyIndex_spec h
  generalize h.findEmptyIndex = i at hex hspec
  obtain ⟨w, slots, M⟩ := h
  obtain ⟨hw, hM, hlen⟩ := hwf
  simp only [shared_snapshot.outer_cnt, shared_snapshot.current_index] at hex hspec hw hM hlen hphase
  split_ifs at hex with hcond hci
  · -- the first publication
    obtain ⟨hiM, ho⟩ := hcond
    obtain ⟨p, hp, hpe⟩ := hspec (by omega)
    simp only [Option.some.injEq] at hex
    subst hex
    obtain ⟨himod, hidiv⟩ := small_index i (by omega)
    rcases hphase with ⟨hw0, hall⟩ | ⟨b0, hb0⟩
    · simp only [HolderState.Inv, shared_snapshot.wf, shared_snapshot.current_index,
        List.length_set, himod]
      refine ⟨⟨by omega, hM, hlen⟩, ?_, Or.inr ⟨_, List.getElem?_set_self (by omega)⟩⟩
      intro j
      have hj := hslot j
      simp only [HolderState.SlotInv, HolderState.outstanding, shared_snapshot.current_index,
        shared_snapshot.outer_cnt, himod, hidiv] at hj ⊢
      have hnone : ∀ (k : Nat) (b : Snapshot), slots[k]? ≠ some (some b) := by
        intro k b hk
        have := hall _ (List.getElem?_mem hk)
        exact Option.noConfusion this
      have hcj : List.count j acq = 0 := by
        split at hj
        · rename_i b hb
          exact absurd hb (hnone j b)
        · exact hj
      by_cases hji : j = i
      · subst hji
        rw [List.getElem?_set_self (by omega)]
        simp only [if_true, hcj]
        simp
      · rw [List.getElem?_set_ne (Ne.symm hji)]
        split
        · rename_i b hb
          exact absurd hb (hnone j b)
        · exact hcj
    · exfalso
      rw [hci, hp] at hb0
      simp only [Option.some.injEq] at hb0
      subst hb0
      have hI := hslot i
      simp only [HolderState.SlotInv, shared_snapshot.current_index, hp, hci, if_true] at hI
      simp only [shared_snapshot.isEmptySlot, Snapshot.get_recycle_flag] at hpe
      rw [hI.1] at hpe
      exact Bool.noConfusion hpe
  · -- a later publication: the old version is reset
    obtain ⟨hiM, ho⟩ := hcond
    obtain ⟨p, hp, hpe⟩ := hspec (by omega)
    split at hex
    swap
    · exact Option.noConfusion hex
    rename_i old hold
    split at hex
    swap
    · exact Option.noConfusion hex
    rename_i old1 hreset
    obtain ⟨hint, hold1⟩ := reset_some _ _ _ hreset
    simp only [Option.some.injEq] at hex
    subst hex
    subst hold1
    obtain ⟨himod, hidiv⟩ := small_index i (by omega)
    have hclt : w % 2 ^ 32 < slots.length := by
      by_contra hcon
      rw [List.getElem?_eq_none (by omega)] at hold
      exact Option.noConfusion hold
    have hIc := hslot (w % 2 ^ 32)
    simp only [HolderState.SlotInv, HolderState.outstanding, shared_snapshot.current_index,
      shared_snapshot.outer_cnt, hold, if_true] at hIc
    obtain ⟨hc1, hc2, hc3⟩ := hIc
    have hIi := hslot i
    simp only [HolderState.SlotInv, HolderState.outstanding, shared_snapshot.current_index,
      shared_snapshot.outer_cnt, hp] at hIi
    have hcnti : List.count i acq = 0 := by
      cases p with
      | none => exact hIi
      | some b =>
        simp only [if_neg (Ne.symm hci)] at hIi
        simp only [shared_snapshot.isEmptySlot, Snapshot.get_recycle_flag] at hpe
        exact hIi.2.mp hpe
    simp only [HolderState.Inv, shared_snapshot.wf, shared_snapshot.current_index,
      List.length_set, himod]
    refine ⟨⟨by omega, hM, hlen⟩, ?_, Or.inr ⟨⟨0, s.atomic_register_vector, false⟩, ?_⟩⟩
    · intro j
      have hj := hslot j
      simp only [HolderState.SlotInv, HolderState.outstanding, shared_snapshot.current_index,
        shared_snapshot.outer_cnt, himod, hidiv] at hj ⊢
      by_cases hjc : j = w % 2 ^ 32
      · subst hjc
        rw [List.getElem?_set_self (by rw [List.length_set]; exact hclt)]
        simp only [if_neg hci]
        refine ⟨by omega, ?_⟩
        by_cases hz : old.inner_cnt - ((w / 2 ^ 32 : Nat) : Int) = 0
        · rw [if_pos hz]
          simp only [true_iff]
          omega
        · rw [if_neg hz, hc1]
          simp only [Bool.false_eq_true, false_iff]
          omega
      · rw [List.getElem?_set_ne (Ne.symm hjc)]
        by_cases hji : j = i
        · subst hji
          rw [List.getElem?_set_self (by omega)]
          simp only [if_true, hcnti]
          simp
        · rw [List.getElem?_set_ne (Ne.symm hji)]
          simp only [if_neg hjc, if_neg hji] at hj ⊢
          exact hj
    · rw [List.getElem?_set_ne hci, List.getElem?_set_self (by omega)]
theorem HolderState.reachable_inv (M : Nat) (hM : M < 2 ^ 31) (st : HolderState)
    (hr : HolderState.Reachable M HolderState.noWrap st) : st.Inv := by
  induction hr with
  | init => exact HolderState.inv_init M hM
  | @step st st1 a _ hg hstep ih =>
    cases a with
    | acquire => exact HolderState.inv_acquire st st1 ih (hg rfl) hstep
    | release index => exact HolderState.inv_release st st1 index ih hstep
    | exchange s => exact HolderState.inv_exchange st st1 s ih hstep

theorem HolderState.reachable_run (M : Nat) (steps : List HolderStep) :
    ∀ (st st1 : HolderState), HolderState.Reachable M HolderState.anyStep st →
      st.run steps = some st1 → HolderState.Reachable M HolderState.anyStep st1 := by
  induction steps with
  | nil =>
    intro st st1 hr hrun
    simp only [HolderState.run, Option.some.injEq] at hrun
    exact hrun ▸ hr
  | cons a rest ih =>
    intro st st1 hr hrun
    simp only [HolderState.run] at hrun
    split at hrun
    · rename_i st2 hstep
      exact ih st2 st1 (HolderState.Reachable.step hr trivial hstep) hrun
    · exact Option.noConfusion hrun

theorem word_add_mul (w n : Nat) :
    ((w + 2 ^ 32) % 2 ^ 64 + n * 2 ^ 32) % 2 ^ 64 = (w + (n + 1) * 2 ^ 32) % 2 ^ 64 ∧
      (w + 2 ^ 32) % 2 ^ 64 % 2 ^ 32 = w % 2 ^ 32 := by
  omega

theorem HolderState.run_cons_of_step (st st1 : HolderState) (a : HolderStep)
    (rest : List HolderStep) (h : st.step a = some st1) : st.run (a :: rest) = st1.run rest := by
  simp only [HolderState.run, h]

theorem HolderState.step_acquire_of (st : HolderState) (index : Nat) (h1 : shared_snapshot)
    (ha : st.holder.acquire = some (index, h1)) :
    st.step HolderStep.acquire = some ⟨h1, index :: st.acquired⟩ := by
  simp only [HolderState.step, ha]

theorem HolderState.run_acquires (n : Nat) :
    ∀ (w : Nat) (slots : List (Option Snapshot)) (M : Nat) (acq : List Nat) (b : Snapshot),
      w < 2 ^ 64 → slots[w % 2 ^ 32]? = some (some b) →
      HolderState.run ⟨⟨w, slots, M⟩, acq⟩ (List.replicate n HolderStep.acquire)
        = some ⟨⟨(w + n * 2 ^ 32) % 2 ^ 64, slots, M⟩, List.replicate n (w % 2 ^ 32) ++ acq⟩ := by
  induction n with
  | zero =>
    intro w slots M acq b hw _
    have h0 : (w + 0 * 2 ^ 32) % 2 ^ 64 = w := by omega
    rw [h0]
    rfl
  | succ n ih =>
    intro w slots M acq b hw hb
    have ha := acquire_eq ⟨w, slots, M⟩ b hb
    simp only [shared_snapshot.current_index] at ha
    obtain ⟨h1, h2⟩ := word_add_mul w n
    have hb' : slots[(w + 2 ^ 32) % 2 ^ 64 % 2 ^ 32]? = some (some b) := by rw [h2]; exact hb
    have hrec := ih ((w + 2 ^ 32) % 2 ^ 64) slots M (w % 2 ^ 32 :: acq) b
      (Nat.mod_lt _ (by norm_num)) hb'
    rw [h1, h2] at hrec
    have hlist : List.replicate n (w % 2 ^ 32) ++ w % 2 ^ 32 :: acq
        = List.replicate (n + 1) (w % 2 ^ 32) ++ acq := by
      rw [List.replicate_succ']
      simp
    rw [hlist] at hrec
    rw [List.replicate_succ HolderStep.acquire,
      HolderState.run_cons_of_step _ _ _ _ (HolderState.step_acquire_of _ _ _ ha)]
    exact hrec
/-! ## The recycle flag (claim C10) -/

/-- C10 (as amended): in every state of one snapshot holder reachable from its initial state
by atomic steps acquire, release (of a buffer acquired earlier and not yet released) and
exchange, in which no acquire wraps the 32-bit outer reference count, a buffer whose
recyclable flag is set has no outstanding acquirer, its inner count is zero (the releases and
the outer count subtracted at the swap cancel) and it is not the current buffer. -/
theorem HolderState.recyclable_has_no_acquirer (M : Nat) (hM : M < 2 ^ 31) (st : HolderState)
    (hr : HolderState.Reachable M HolderState.noWrap st) (j : Nat) (b : Snapshot)
    (hb : st.holder.snapshot_ptr_vector[j]? = some (some b)) (hf : b.recycle_flag = true) :
    st.outstanding j = 0 ∧ b.inner_cnt = 0 ∧ j ≠ st.holder.current_index := by
  have hinv := HolderState.reachable_inv M hM st hr
  have hj := hinv.2.1 j
  simp only [HolderState.SlotInv, hb] at hj
  by_cases hjc : j = st.holder.current_index
  · rw [if_pos hjc] at hj
    rw [hj.1] at hf
    exact Bool.noConfusion hf
  · rw [if_neg hjc] at hj
    have h0 := hj.2.mp hf
    refine ⟨h0, ?_, hjc⟩
    rw [hj.1, h0]
    rfl

/-- The state of a holder of two versions after `exchange`, `acquire`, `exchange`,
`release 0` is reachable without wrapping the outer count. -/
theorem HolderState.reachable_after_swap_and_release :
    HolderState.Reachable 2 HolderState.noWrap
      ⟨⟨1, [some ⟨0, [⟨0⟩], true⟩, some ⟨0, [⟨0⟩], false⟩], 2⟩, []⟩ :=
  @HolderState.Reachable.step 2 HolderState.noWrap
    ⟨⟨1, [some ⟨-1, [⟨0⟩], false⟩, some ⟨0, [⟨0⟩], false⟩], 2⟩, [0]⟩
    ⟨⟨1, [some ⟨0, [⟨0⟩], true⟩, some ⟨0, [⟨0⟩], false⟩], 2⟩, []⟩
    (HolderStep.release 0)
    (@HolderState.Reachable.step 2 HolderState.noWrap
      ⟨⟨2 ^ 32, [some ⟨0, [⟨0⟩], false⟩, none], 2⟩, [0]⟩
      ⟨⟨1, [some ⟨-1, [⟨0⟩], false⟩, some ⟨0, [⟨0⟩], false⟩], 2⟩, [0]⟩
      (HolderStep.exchange (Snapshot.ofCount 1))
      (@HolderState.Reachable.step 2 HolderState.noWrap
        ⟨⟨0, [some ⟨0, [⟨0⟩], false⟩, none], 2⟩, []⟩
        ⟨⟨2 ^ 32, [some ⟨0, [⟨0⟩], false⟩, none], 2⟩, [0]⟩
        HolderStep.acquire
        (@HolderState.Reachable.step 2 HolderState.noWrap
          (HolderState.init 2)
          ⟨⟨0, [some ⟨0, [⟨0⟩], false⟩, none], 2⟩, []⟩
          (HolderStep.exchange (Snapshot.ofCount 1))
          HolderState.Reachable.init (fun h => HolderStep.noConfusion h) (by decide))
        (fun _ => by decide) (by decide))
      (fun h => HolderStep.noConfusion h) (by decide))
    (fun h => HolderStep.noConfusion h) (by decide)

/-- A holder of two versions after `exchange`, `acquire`, `exchange`, `release 0`: the swap
subtracted 1 from the inner count of buffer 0 and the release added it back. -/
theorem HolderState.recyclable_has_no_acquirer_witness :
    (HolderState.mk ⟨1, [some ⟨0, [⟨0⟩], true⟩, some ⟨0, [⟨0⟩], false⟩], 2⟩ []).outstanding 0 = 0 ∧
      (Snapshot.mk 0 [⟨0⟩] true).inner_cnt = 0 ∧
      0 ≠ (HolderState.mk ⟨1, [some ⟨0, [⟨0⟩], true⟩, some ⟨0, [⟨0⟩], false⟩], 2⟩
        []).holder.current_index :=
  HolderState.recyclable_has_no_acquirer 2 (by decide)
    ⟨⟨1, [some ⟨0, [⟨0⟩], true⟩, some ⟨0, [⟨0⟩], false⟩], 2⟩, []⟩
    HolderState.reachable_after_swap_and_release
    0 ⟨0, [⟨0⟩], true⟩ (by decide) rfl

/-- C10, as stated, fails: a holder of two versions after `exchange`, `2^32` calls of `acquire`
with no release, and `exchange`. The 32-bit outer count has wrapped to 0, so the swap
subtracts 0 from the inner count 0 of buffer 0 and flags it recyclable while all `2^32`
acquirers of buffer 0 are outstanding. -/
theorem HolderState.recyclable_with_acquirers :
    ∃ st : HolderState, HolderState.Reachable 2 HolderState.anyStep st ∧
      ∃ b, st.holder.snapshot_ptr_vector[0]? = some (some b) ∧ b.recycle_flag = true ∧
        st.outstanding 0 = 2 ^ 32 := by
  have h1 : (HolderState.init 2).step (HolderStep.exchange (Snapshot.ofCount 1))
      = some ⟨⟨0, [some ⟨0, [⟨0⟩], false⟩, none], 2⟩, []⟩ := by decide
  have h2 := HolderState.run_acquires (2 ^ 32) 0 [some ⟨0, [⟨0⟩], false⟩, none] 2 []
    ⟨0, [⟨0⟩], false⟩ (by norm_num) rfl
  have hw : (0 + 2 ^ 32 * 2 ^ 32) % 2 ^ 64 = 0 := by norm_num
  have hc : List.count 0 (List.replicate (2 ^ 32) (0 % 2 ^ 32) ++ []) = 2 ^ 32 := by
    rw [List.append_nil, Nat.zero_mod, List.count_replicate_self]
  rw [hw] at h2
  generalize List.replicate (2 ^ 32) (0 % 2 ^ 32) ++ [] = L at h2 hc
  have hex : (shared_snapshot.mk 0 [some ⟨0, [⟨0⟩], false⟩, none] 2).exchange (Snapshot.ofCount 1)
      = some ⟨1, [some ⟨0, [⟨0⟩], true⟩, some ⟨0, [⟨0⟩], false⟩], 2⟩ := by decide
  have h3 : (HolderState.mk ⟨0, [some ⟨0, [⟨0⟩], false⟩, none], 2⟩ L).step
      (HolderStep.exchange (Snapshot.ofCount 1))
      = some ⟨⟨1, [some ⟨0, [⟨0⟩], true⟩, some ⟨0, [⟨0⟩], false⟩], 2⟩, L⟩ := by
    simp only [HolderState.step, hex]
  refine ⟨⟨⟨1, [some ⟨0, [⟨0⟩], true⟩, some ⟨0, [⟨0⟩], false⟩], 2⟩, L⟩, ?_,
    ⟨0, [⟨0⟩], true⟩, rfl, rfl, hc⟩
  exact HolderState.Reachable.step
    (HolderState.reachable_run 2 _ _ _
      (HolderState.Reachable.step HolderState.Reachable.init trivial h1) h2)
    trivial h3
/-! ## Publication and acquisition (claim C9) -/

/-- What reader steps keep of a holder: its type invariants, the current index and the
registers of the current buffer. -/
theorem HolderState.reader_step_keeps (i : Nat) (R : List AtomicRegister) (st st1 : HolderState)
    (a : HolderStep) (ha : a.isReaderStep = true) (hstep : st.step a = some st1)
    (hP : st.holder.wf ∧ st.holder.current_index = i ∧
      ∃ b, st.holder.snapshot_ptr_vector[i]? = some (some b) ∧ b.atomic_register_vector = R) :
    st1.holder.wf ∧ st1.holder.current_index = i ∧
      ∃ b, st1.holder.snapshot_ptr_vector[i]? = some (some b) ∧ b.atomic_register_vector = R := by
  obtain ⟨⟨w, slots, M⟩, acq⟩ := st
  obtain ⟨⟨hw, hM, hlen⟩, hcur, b, hb, hR⟩ := hP
  simp only [shared_snapshot.current_index] at hw hM hlen hcur hb
  cases a with
  | exchange s => exact Bool.noConfusion ha
  | acquire =>
    simp only [HolderState.step] at hstep
    split at hstep
    swap
    · exact Option.noConfusion hstep
    rename_i index h1 hacq
    obtain ⟨_, _, hh1⟩ := acquire_some _ _ _ hacq
    simp only [Option.some.injEq] at hstep
    subst hstep
    subst hh1
    have hmod : (w + 2 ^ 32) % 2 ^ 64 % 2 ^ 32 = w % 2 ^ 32 := by omega
    simp only [shared_snapshot.wf, shared_snapshot.current_index, hmod]
    exact ⟨⟨Nat.mod_lt _ (by norm_num), hM, hlen⟩, hcur, b, hb, hR⟩
  | release index =>
    simp only [HolderState.step] at hstep
    split_ifs at hstep with hmem
    split at hstep
    swap
    · exact Option.noConfusion hstep
    rename_i h1 hrel
    obtain ⟨b2, hb2, _, hh1⟩ := releaseAt_some _ _ _ hrel
    simp only [Option.some.injEq] at hstep
    subst hstep
    subst hh1
    simp only at hb2
    simp only [shared_snapshot.wf, shared_snapshot.current_index, List.length_set]
    refine ⟨⟨hw, hM, hlen⟩, hcur, ?_⟩
    by_cases hji : index = i
    · subst hji
      rw [hb] at hb2
      simp only [Option.some.injEq] at hb2
      subst hb2
      have hlt : index < slots.length := by
        by_contra hcon
        rw [List.getElem?_eq_none (by omega)] at hb
        exact Option.noConfusion hb
      rw [List.getElem?_set_self hlt]
      exact ⟨_, rfl, hR⟩
    · rw [List.getElem?_set_ne hji]
      exact ⟨b, hb, hR⟩

theorem HolderState.reader_run_keeps (i : Nat) (R : List AtomicRegister)
    (steps : List HolderStep) :
    ∀ (st st1 : HolderState), (∀ a ∈ steps, a.isReaderStep = true) → st.run steps = some st1 →
      (st.holder.wf ∧ st.holder.current_index = i ∧
        ∃ b, st.holder.snapshot_ptr_vector[i]? = some (some b) ∧ b.atomic_register_vector = R) →
      st1.holder.wf ∧ st1.holder.current_index = i ∧
        ∃ b, st1.holder.snapshot_ptr_vector[i]? = some (some b) ∧ b.atomic_register_vector = R := by
  induction steps with
  | nil =>
    intro st st1 _ hrun hP
    simp only [HolderState.run, Option.some.injEq] at hrun
    exact hrun ▸ hP
  | cons a rest ih =>
    intro st st1 hall hrun hP
    simp only [HolderState.run] at hrun
    split at hrun
    · rename_i st2 hstep
      exact ih st2 st1 (fun x hx => hall x (List.mem_cons_of_mem _ hx)) hrun
        (HolderState.reader_step_keeps i R st st2 a (hall a (List.mem_cons_self _ _)) hstep hP)
    · exact Option.noConfusion hrun

theorem exchange_publishes (h h1 : shared_snapshot) (s : Snapshot) (hwf : h.wf)
    (hex : h.exchange s = some h1) :
    h1.outer_cnt_with_index = h.findEmptyIndex ∧ h.findEmptyIndex < h.version_count ∧
      h1.wf ∧
      ∃ b, h1.snapshot_ptr_vector[h.findEmptyIndex]? = some (some b) ∧
        b.atomic_register_vector = s.atomic_register_vector := by
  rw [exchange_unfold h s hwf] at hex
  generalize h.findEmptyIndex = i at hex
  obtain ⟨w, slots, M⟩ := h
  obtain ⟨hw, hM, hlen⟩ := hwf
  simp only [shared_snapshot.outer_cnt, shared_snapshot.current_index] at hex hw hM hlen
  split_ifs at hex with hcond hci
  · simp only [Option.some.injEq] at hex
    subst hex
    simp only [shared_snapshot.wf, List.length_set]
    refine ⟨trivial, hcond.1, ⟨by omega, hM, hlen⟩, _, List.getElem?_set_self (by omega), rfl⟩
  · split at hex
    swap
    · exact Option.noConfusion hex
    split at hex
    swap
    · exact Option.noConfusion hex
    simp only [Option.some.injEq] at hex
    subst hex
    simp only [shared_snapshot.wf, List.length_set]
    refine ⟨trivial, hcond.1, ⟨by omega, hM, hlen⟩, ⟨0, s.atomic_register_vector, false⟩, ?_, rfl⟩
    rw [List.getElem?_set_ne hci, List.getElem?_set_self (by omega)]
theorem word_outer_succ (w : Nat) :
    (w + 2 ^ 32) % 2 ^ 64 % 2 ^ 32 = w % 2 ^ 32 ∧
      (w + 2 ^ 32) % 2 ^ 64 / 2 ^ 32 = (w / 2 ^ 32 + 1) % 2 ^ 32 := by
  omega

/-- C9 (as amended): for every snapshot holder and every snapshot `s`, after `exchange(s)` the
control word is (outer refcount 0, index of the buffer `s` was installed in), and every
`acquire` until the next `exchange` returns that buffer, whose registers equal those of `s`,
leaves the index unchanged and raises the outer refcount by 1 modulo `2^32`: by exactly 1
while the count is below `2^32 - 1`, and back to 0 from `2^32 - 1`. -/
theorem shared_snapshot.acquire_after_exchange (h h1 : shared_snapshot) (s : Snapshot)
    (acq : List Nat) (steps : List HolderStep) (st2 : HolderState) (hwf : h.wf)
    (hex : h.exchange s = some h1) (hsteps : ∀ a ∈ steps, a.isReaderStep = true)
    (hrun : HolderState.run ⟨h1, acq⟩ steps = some st2) :
    h1.outer_cnt = 0 ∧ h1.current_index = h.findEmptyIndex ∧
    (∃ b, h1.snapshot_ptr_vector[h.findEmptyIndex]? = some (some b) ∧
      b.atomic_register_vector = s.atomic_register_vector) ∧
    ∃ h3 b, st2.holder.acquire = some (h.findEmptyIndex, h3) ∧
      h3.snapshot_ptr_vector[h.findEmptyIndex]? = some (some b) ∧
      b.atomic_register_vector = s.atomic_register_vector ∧
      h3.current_index = h.findEmptyIndex ∧
      h3.outer_cnt = (st2.holder.outer_cnt + 1) % 2 ^ 32 ∧
      (st2.holder.outer_cnt < 2 ^ 32 - 1 → h3.outer_cnt = st2.holder.outer_cnt + 1) := by
  obtain ⟨hword, hiM, hwf1, hpub⟩ := exchange_publishes h h1 s hwf hex
  have hi31 : h.findEmptyIndex < 2 ^ 31 := lt_trans hiM hwf.2.1
  obtain ⟨himod, hidiv⟩ := small_index _ hi31
  have hcur1 : h1.current_index = h.findEmptyIndex := by
    unfold shared_snapshot.current_index
    rw [hword, himod]
  have hout1 : h1.outer_cnt = 0 := by
    unfold shared_snapshot.outer_cnt
    rw [hword, hidiv]
  refine ⟨hout1, hcur1, hpub, ?_⟩
  obtain ⟨hwf2, hcur2, b2, hb2, hR2⟩ :=
    HolderState.reader_run_keeps h.findEmptyIndex s.atomic_register_vector steps
      ⟨h1, acq⟩ st2 hsteps hrun ⟨hwf1, hcur1, hpub⟩
  generalize h.findEmptyIndex = i at hcur2 hb2 ⊢
  obtain ⟨⟨w, slots, M⟩, acq2⟩ := st2
  simp only [shared_snapshot.current_index] at hcur2 hb2
  have hacq := acquire_eq ⟨w, slots, M⟩ b2 (by
    simp only [shared_snapshot.current_index]
    rw [hcur2]
    exact hb2)
  simp only [shared_snapshot.current_index] at hacq
  rw [hcur2] at hacq
  obtain ⟨hm1, hm2⟩ := word_outer_succ w
  refine ⟨_, b2, hacq, hb2, hR2, ?_, ?_, ?_⟩
  · simp only [shared_snapshot.current_index]
    rw [hm1]
    exact hcur2
  · simp only [shared_snapshot.outer_cnt]
    exact hm2
  · simp only [shared_snapshot.outer_cnt]
    intro hlt
    rw [hm2]
    exact Nat.mod_eq_of_lt (by omega)

/-- A fresh holder of two versions: `exchange`, then a reader that acquires and releases, and
a second reader that acquires. -/
theorem shared_snapshot.acquire_after_exchange_witness :
    (shared_snapshot.mk 0 [some ⟨0, [⟨7⟩], false⟩, none] 2).outer_cnt = 0 ∧
    (shared_snapshot.mk 0 [some ⟨0, [⟨7⟩], false⟩, none] 2).current_index
      = (shared_snapshot.create 2).findEmptyIndex ∧
    (∃ b, (shared_snapshot.mk 0 [some ⟨0, [⟨7⟩], false⟩, none] 2).snapshot_ptr_vector[
        (shared_snapshot.create 2).findEmptyIndex]? = some (some b) ∧
      b.atomic_register_vector = (Snapshot.ofRegisters [⟨7⟩]).atomic_register_vector) ∧
    ∃ h3 b, (HolderState.mk ⟨2 ^ 32, [some ⟨1, [⟨7⟩], false⟩, none], 2⟩ []).holder.acquire
        = some ((shared_snapshot.create 2).findEmptyIndex, h3) ∧
      h3.snapshot_ptr_vector[(shared_snapshot.create 2).findEmptyIndex]? = some (some b) ∧
      b.atomic_register_vector = (Snapshot.ofRegisters [⟨7⟩]).atomic_register_vector ∧
      h3.current_index = (shared_snapshot.create 2).findEmptyIndex ∧
      h3.outer_cnt
        = ((HolderState.mk ⟨2 ^ 32, [some ⟨1, [⟨7⟩], false⟩, none], 2⟩ []).holder.outer_cnt + 1)
          % 2 ^ 32 ∧
      ((HolderState.mk ⟨2 ^ 32, [some ⟨1, [⟨7⟩], false⟩, none], 2⟩ []).holder.outer_cnt
          < 2 ^ 32 - 1 →
        h3.outer_cnt
          = (HolderState.mk ⟨2 ^ 32, [some ⟨1, [⟨7⟩], false⟩, none], 2⟩ []).holder.outer_cnt + 1) :=
  shared_snapshot.acquire_after_exchange (shared_snapshot.create 2)
    ⟨0, [some ⟨0, [⟨7⟩], false⟩, none], 2⟩ (Snapshot.ofRegisters [⟨7⟩]) []
    [HolderStep.acquire, HolderStep.release 0]
    ⟨⟨2 ^ 32, [some ⟨1, [⟨7⟩], false⟩, none], 2⟩, []⟩ (by decide) (by decide) (by decide)
    (by decide)

/-- C9, as stated, fails: a holder of two versions after `exchange` and `2^32 - 1` calls of
`acquire`. The outer refcount is `2^32 - 1`, and the next `acquire` returns buffer 0 but
takes the outer refcount to 0 instead of raising it by 1. -/
theorem shared_snapshot.acquire_wraps_outer_cnt :
    ∃ (h1 : shared_snapshot) (st2 : HolderState) (h3 : shared_snapshot),
      (shared_snapshot.create 2).exchange (Snapshot.ofCount 1) = some h1 ∧
      HolderState.run ⟨h1, []⟩ (List.replicate (2 ^ 32 - 1) HolderStep.acquire) = some st2 ∧
      st2.holder.acquire = some (0, h3) ∧
      st2.holder.outer_cnt = 2 ^ 32 - 1 ∧ h3.outer_cnt = 0 ∧
      h3.outer_cnt ≠ st2.holder.outer_cnt + 1 := by
  have h2 := HolderState.run_acquires (2 ^ 32 - 1) 0 [some ⟨0, [⟨0⟩], false⟩, none] 2 []
    ⟨0, [⟨0⟩], false⟩ (by norm_num) rfl
  have hw : (0 + (2 ^ 32 - 1) * 2 ^ 32) % 2 ^ 64 = 18446744069414584320 := by norm_num
  rw [hw] at h2
  generalize List.replicate (2 ^ 32 - 1) (0 % 2 ^ 32) ++ [] = L at h2
  have ha : (shared_snapshot.mk 18446744069414584320 [some ⟨0, [⟨0⟩], false⟩, none] 2).acquire
      = some (0, ⟨0, [some ⟨0, [⟨0⟩], false⟩, none], 2⟩) := by decide
  have ho : (shared_snapshot.mk 18446744069414584320 [some ⟨0, [⟨0⟩], false⟩, none] 2).outer_cnt
      = 2 ^ 32 - 1 := by decide
  have hn : (shared_snapshot.mk 0 [some ⟨0, [⟨0⟩], false⟩, none] 2).outer_cnt
      ≠ (shared_snapshot.mk 18446744069414584320 [some ⟨0, [⟨0⟩], false⟩, none] 2).outer_cnt
        + 1 := by decide
  exact ⟨⟨0, [some ⟨0, [⟨0⟩], false⟩, none], 2⟩,
    ⟨⟨18446744069414584320, [some ⟨0, [⟨0⟩], false⟩, none], 2⟩, L⟩,
    ⟨0, [some ⟨0, [⟨0⟩], false⟩, none], 2⟩, by decide, h2, ha, ho, by decide, hn⟩
/-! ## The scan with no concurrent writer -/

theorem map_getD_range (l : List AtomicRegister) (d : AtomicRegister) :
    (List.range l.length).map (fun i => l.getD i d) = l := by
  apply List.ext_getElem
  · simp
  · intro n h1 h2
    simp [List.getD_eq_getElem?_getD, List.getElem?_eq_getElem h2]

theorem collect_clean (regs : List AtomicRegister) :
    ∀ (remaining i : Nat) (second : List AtomicRegister) (counts : List Int),
      second.length = i + remaining →
      ∃ second1, WaitfreeAtomicSnapshot.collect (fun k => regs.getD k AtomicRegister.default) regs
        remaining i second counts true = Collect.finished second1 counts true := by
  intro remaining
  induction remaining with
  | zero =>
    intro i second counts _
    exact ⟨second, rfl⟩
  | succ n ih =>
    intro i second counts hlen
    have hget : (second.set i (regs.getD i AtomicRegister.default)).getD i AtomicRegister.default
        = regs.getD i AtomicRegister.default := by
      rw [List.getD_eq_getElem?_getD, List.getElem?_set_self (by omega)]
      rfl
    have hne : (regs.getD i AtomicRegister.default).ne
        ((second.set i (regs.getD i AtomicRegister.default)).getD i AtomicRegister.default)
        = false := by
      rw [hget]
      simp [AtomicRegister.ne]
    obtain ⟨s1, hs1⟩ := ih (i + 1) (second.set i (regs.getD i AtomicRegister.default)) counts
      (by rw [List.length_set]; omega)
    refine ⟨s1, ?_⟩
    rw [← hs1]
    simp only [WaitfreeAtomicSnapshot.collect, hne, Bool.false_eq_true, if_false]

theorem scan_eq (s : WaitfreeAtomicSnapshot)
    (hlen : s.atomic_register_vector.length = s.thread_count) :
    s.scan = some (⟨0, s.atomic_register_vector, false⟩, s) := by
  obtain ⟨regs, holders, m, ti, N⟩ := s
  simp only at hlen
  subst hlen
  obtain ⟨s1, hs1⟩ := collect_clean regs regs.length 0
    (List.replicate regs.length AtomicRegister.default) (List.replicate regs.length 0)
    (by simp)
  simp only [WaitfreeAtomicSnapshot.scan, WaitfreeAtomicSnapshot.scanWith,
    WaitfreeAtomicSnapshot.scanLoop, Snapshot.ofRegisters, Snapshot.ofCount, map_getD_range, hs1,
    if_true, Snapshot.copy]
theorem exchange_isSome_iff (h : shared_snapshot) (s : Snapshot) (hwf : h.wf) :
    (h.exchange s).isSome = true ↔ h.exchangeReady := by
  rw [exchange_unfold h s hwf]
  unfold shared_snapshot.exchangeReady
  by_cases hcond : h.findEmptyIndex < h.version_count ∧ h.outer_cnt < 2 ^ 31
  · rw [if_pos hcond]
    by_cases hci : h.current_index = h.findEmptyIndex
    · rw [if_pos hci]
      simp only [Option.isSome_some, true_iff]
      exact ⟨hcond.1, hcond.2, Or.inl hci⟩
    · rw [if_neg hci]
      constructor
      · intro hsome
        refine ⟨hcond.1, hcond.2, Or.inr ?_⟩
        split at hsome
        · rename_i old hold
          split at hsome
          · rename_i old1 hreset
            exact ⟨old, hold, (reset_some _ _ _ hreset).1⟩
          · exact Bool.noConfusion hsome
        · exact Bool.noConfusion hsome
      · rintro ⟨_, _, hc | ⟨old, hold, hint⟩⟩
        · exact absurd hc hci
        · rw [hold]
          simp only [Snapshot.reset, if_pos hint, Option.isSome_some]
  · rw [if_neg hcond]
    constructor
    · intro hsome
      exact Bool.noConfusion hsome
    · rintro ⟨h1, h2, _⟩
      exact absurd ⟨h1, h2⟩ hcond


theorem updateAt_of (s : WaitfreeAtomicSnapshot) (v : Int) (k : Nat) (h h1 : shared_snapshot)
    (r r1 : AtomicRegister) (hlen : s.atomic_register_vector.length = s.thread_count)
    (hh : s.shared_snapshot_vector[k]? = some h)
    (hex : h.exchange ⟨0, s.atomic_register_vector, false⟩ = some h1)
    (hr : s.atomic_register_vector[k]? = some r) (hw : r.write v = some r1) :
    s.updateAt v k = some ⟨s.atomic_register_vector.set k r1, s.shared_snapshot_vector.set k h1,
      s.tid_to_index, s.tid_index, s.thread_count⟩ := by
  unfold WaitfreeAtomicSnapshot.updateAt
  rw [scan_eq s hlen]
  rw [Option.some_bind, hh, Option.some_bind, hex, Option.some_bind, hr, Option.some_bind, hw,
    Option.some_bind]


theorem updateAt_some (s s1 : WaitfreeAtomicSnapshot) (v : Int) (k : Nat)
    (hlen : s.atomic_register_vector.length = s.thread_count)
    (hup : s.updateAt v k = some s1) :
    ∃ h h1 r r1, s.shared_snapshot_vector[k]? = some h ∧
      h.exchange ⟨0, s.atomic_register_vector, false⟩ = some h1 ∧
      s.atomic_register_vector[k]? = some r ∧ r.write v = some r1 ∧
      s1 = ⟨s.atomic_register_vector.set k r1, s.shared_snapshot_vector.set k h1,
        s.tid_to_index, s.tid_index, s.thread_count⟩ := by
  unfold WaitfreeAtomicSnapshot.updateAt at hup
  rw [scan_eq s hlen] at hup
  rw [Option.some_bind] at hup
  obtain ⟨h, hh, hup⟩ := Option.bind_eq_some.mp hup
  obtain ⟨h1, hex, hup⟩ := Option.bind_eq_some.mp hup
  obtain ⟨r, hr, hup⟩ := Option.bind_eq_some.mp hup
  obtain ⟨r1, hw, hup⟩ := Option.bind_eq_some.mp hup
  exact ⟨h, h1, r, r1, hh, hex, hr, hw, (Option.some.inj hup).symm⟩
theorem write_spec (r : AtomicRegister) (v : Int) (hr : r.wf) (hv : isInt32 v)
    (ht : r.timestamp < 2 ^ 32 - 1) :
    ∃ r1, r.write v = some r1 ∧ r1.read = v ∧ r1.timestamp = r.timestamp + 1 ∧ r1.wf := by
  have hlt : (v % (2 ^ 32 : Int)).toNat < 2 ^ 32 := by
    have h2 : (0 : Int) ≤ v % (2 ^ 32 : Int) := Int.emod_nonneg _ (by norm_num)
    have h3 : v % (2 ^ 32 : Int) < 2 ^ 32 := Int.emod_lt_of_pos _ (by norm_num)
    omega
  refine ⟨_, r.write_eq v hr ht, ?_, ?_, ?_⟩
  · unfold AtomicRegister.read AtomicRegister.VALUE_MASK
    rw [lo_mask_and]
    have : (2 ^ 32 * (r.timestamp + 1) + (v % (2 ^ 32 : Int)).toNat) % 2 ^ 32
        = (v % (2 ^ 32 : Int)).toNat := by omega
    simp only [this]
    exact castU64ToInt_of_int32 v hv
  · show (2 ^ 32 * (r.timestamp + 1) + (v % (2 ^ 32 : Int)).toNat) / 2 ^ 32 = r.timestamp + 1
    omega
  · show 2 ^ 32 * (r.timestamp + 1) + (v % (2 ^ 32 : Int)).toNat < 2 ^ 64
    omega

theorem write_some_timestamp (r r1 : AtomicRegister) (v : Int) (hr : r.wf)
    (hw : r.write v = some r1) : r.timestamp < 2 ^ 32 - 1 := by
  have hlt := r.timestamp_lt hr
  by_contra hcon
  have ht : r.timestamp = 2 ^ 32 - 1 := by omega
  have hm := r.new_timestamp_mask_eq hr
  rw [if_pos ht] at hm
  unfold AtomicRegister.write at hw
  rw [if_pos hm] at hw
  exact Option.noConfusion hw

theorem update_valid_index (s : WaitfreeAtomicSnapshot) (v : Int) (i tid : Nat) :
    s.update v (i : Int) tid = s.updateAt v i := by
  have hne : ¬ ((i : Int) = -1) := by omega
  have hres : s.resolveIndex (i : Int) tid = ((i : Int), s.tid_to_index) := by
    unfold WaitfreeAtomicSnapshot.resolveIndex
    rw [if_neg hne]
  unfold WaitfreeAtomicSnapshot.update
  rw [hres]
  have hnn : ¬ ((i : Int) < 0) := by omega
  rw [if_neg hnn]
  show WaitfreeAtomicSnapshot.updateAt _ v (Int.toNat (i : Int)) = _
  rw [Int.toNat_natCast]
/-- What a successful `updateAt` does to a well-formed engine. -/
theorem updateAt_effect (s s1 : WaitfreeAtomicSnapshot) (v : Int) (i : Nat) (hwf : s.wf)
    (hv : isInt32 v) (hup : s.updateAt v i = some s1) :
    (∀ j, j ≠ i → s1.atomic_register_vector[j]? = s.atomic_register_vector[j]?) ∧
    (∃ r r1, s.atomic_register_vector[i]? = some r ∧ s1.atomic_register_vector[i]? = some r1 ∧
      r1.read = v ∧ r1.timestamp = r.timestamp + 1) ∧
    (∃ h1 b, s1.shared_snapshot_vector[i]? = some h1 ∧ h1.outer_cnt = 0 ∧
      h1.snapshot_ptr_vector[h1.current_index]? = some (some b) ∧
      b.atomic_register_vector = s.atomic_register_vector) ∧
    (∀ j, j ≠ i → s1.shared_snapshot_vector[j]? = s.shared_snapshot_vector[j]?) ∧
    s1.tid_to_index = s.tid_to_index ∧ s1.tid_index = s.tid_index ∧ s1.wf := by
  obtain ⟨hlen, hlenh, hN, hregs, hholders⟩ := hwf
  obtain ⟨h, h1, r, r1, hh, hex, hr, hw, hs1⟩ := updateAt_some s s1 v i hlen hup
  subst hs1
  have hrwf : r.wf := hregs r (List.getElem?_mem hr)
  have hhwf : h.wf := hholders h (List.getElem?_mem hh)
  have hts := write_some_timestamp r r1 v hrwf hw
  obtain ⟨r2, hw2, hread, htime, hr2wf⟩ := write_spec r v hrwf hv hts
  rw [hw] at hw2
  have hr12 : r1 = r2 := Option.some.inj hw2
  subst hr12
  obtain ⟨hword, hiM, hh1wf, b, hb, hbR⟩ := exchange_publishes h h1 _ hhwf hex
  have hi31 : h.findEmptyIndex < 2 ^ 31 := lt_trans hiM hhwf.2.1
  obtain ⟨himod, hidiv⟩ := small_index _ hi31
  have hilt : i < s.atomic_register_vector.length := by
    by_contra hcon
    rw [List.getElem?_eq_none (by omega)] at hr
    exact Option.noConfusion hr
  have hilth : i < s.shared_snapshot_vector.length := by
    by_contra hcon
    rw [List.getElem?_eq_none (by omega)] at hh
    exact Option.noConfusion hh
  refine ⟨?_, ⟨r, r1, hr, List.getElem?_set_self hilt, hread, htime⟩,
    ⟨h1, b, List.getElem?_set_self hilth, ?_, ?_, hbR⟩, ?_, rfl, rfl, ?_⟩
  · intro j hj
    exact List.getElem?_set_ne (Ne.symm hj)
  · unfold shared_snapshot.outer_cnt
    rw [hword, hidiv]
  · unfold shared_snapshot.current_index
    rw [hword, himod]
    exact hb
  · intro j hj
    exact List.getElem?_set_ne (Ne.symm hj)
  · refine ⟨?_, ?_, hN, ?_, ?_⟩
    · show (s.atomic_register_vector.set i r1).length = s.thread_count
      rw [List.length_set]
      exact hlen
    · show (s.shared_snapshot_vector.set i h1).length = s.thread_count
      rw [List.length_set]
      exact hlenh
    · intro x hx
      rcases List.mem_or_eq_of_mem_set hx with hx | hx
      · exact hregs x hx
      · exact hx ▸ hr2wf
    · intro x hx
      rcases List.mem_or_eq_of_mem_set hx with hx | hx
      · exact hholders x hx
      · exact hx ▸ hh1wf

/-- When `updateAt` succeeds on a well-formed engine. -/
theorem updateAt_isSome_iff (s : WaitfreeAtomicSnapshot) (v : Int) (i : Nat)
    (r : AtomicRegister) (h : shared_snapshot) (hwf : s.wf) (hv : isInt32 v)
    (hr : s.atomic_register_vector[i]? = some r) (hh : s.shared_snapshot_vector[i]? = some h) :
    (s.updateAt v i).isSome = true ↔ (r.timestamp < 2 ^ 32 - 1 ∧ h.exchangeReady) := by
  obtain ⟨hlen, hlenh, hN, hregs, hholders⟩ := hwf
  have hrwf : r.wf := hregs r (List.getElem?_mem hr)
  have hhwf : h.wf := hholders h (List.getElem?_mem hh)
  constructor
  · intro hsome
    obtain ⟨s1, hs1⟩ := Option.isSome_iff_exists.mp hsome
    obtain ⟨h', h1, r', r1, hh', hex, hr', hw, _⟩ := updateAt_some s s1 v i hlen hs1
    rw [hh] at hh'
    rw [hr] at hr'
    have e1 : h = h' := Option.some.inj hh'
    have e2 : r = r' := Option.some.inj hr'
    subst e1
    subst e2
    refine ⟨write_some_timestamp r r1 v hrwf hw, ?_⟩
    rw [← exchange_isSome_iff h _ hhwf, hex]
    rfl
  · rintro ⟨hts, hready⟩
    obtain ⟨r1, hw, _⟩ := write_spec r v hrwf hv hts
    have hex := (exchange_isSome_iff h ⟨0, s.atomic_register_vector, false⟩ hhwf).mpr hready
    obtain ⟨h1, hex⟩ := Option.isSome_iff_exists.mp hex
    rw [updateAt_of s v i h h1 r r1 hlen hh hex hr hw]
    rfl
/-! ## `update` (claim C4) -/

/-- C4: for every engine state, value `v` and valid slot index `i`, with no concurrent
writer, `update(v, i)` returns exactly when the timestamp of register `i` is below `2^32 - 1`
and holder `i` can take an `exchange`; when it returns it leaves every register other than `i`
unchanged, makes register `i` read `v` with its timestamp one higher, and leaves in holder `i`
a published snapshot equal to the register contents as they were before the write. -/
theorem WaitfreeAtomicSnapshot.update_publishes_then_writes (s : WaitfreeAtomicSnapshot)
    (v : Int) (i tid : Nat) (hwf : s.wf) (hv : isInt32 v) (hi : i < s.thread_count) :
    ∃ r h, s.atomic_register_vector[i]? = some r ∧ s.shared_snapshot_vector[i]? = some h ∧
      ((s.update v (i : Int) tid).isSome = true ↔ (r.timestamp < 2 ^ 32 - 1 ∧ h.exchangeReady)) ∧
      ∀ s1, s.update v (i : Int) tid = some s1 →
        (∀ j, j ≠ i → s1.atomic_register_vector[j]? = s.atomic_register_vector[j]?) ∧
        (∃ r1, s1.atomic_register_vector[i]? = some r1 ∧ r1.read = v ∧
          r1.timestamp = r.timestamp + 1) ∧
        (∃ h1 b, s1.shared_snapshot_vector[i]? = some h1 ∧
          h1.snapshot_ptr_vector[h1.current_index]? = some (some b) ∧
          b.atomic_register_vector = s.atomic_register_vector) := by
  have hlr : i < s.atomic_register_vector.length := by rw [hwf.1]; exact hi
  have hlh : i < s.shared_snapshot_vector.length := by rw [hwf.2.1]; exact hi
  refine ⟨s.atomic_register_vector[i], s.shared_snapshot_vector[i],
    List.getElem?_eq_getElem hlr, List.getElem?_eq_getElem hlh, ?_, ?_⟩
  · rw [update_valid_index]
    exact updateAt_isSome_iff s v i _ _ hwf hv (List.getElem?_eq_getElem hlr)
      (List.getElem?_eq_getElem hlh)
  · intro s1 hup
    rw [update_valid_index] at hup
    obtain ⟨h1, ⟨r, r1, hr, hr1, hread, htime⟩, ⟨h1', b, hh1, _, hb, hbR⟩, _⟩ :=
      updateAt_effect s s1 v i hwf hv hup
    refine ⟨h1, ⟨r1, hr1, hread, ?_⟩, ⟨h1', b, hh1, hb, hbR⟩⟩
    rw [List.getElem?_eq_getElem hlr] at hr
    rw [Option.some.inj hr]
    exact htime

/-- The first `update(7, 0)` on a fresh engine of one thread. -/
theorem WaitfreeAtomicSnapshot.update_publishes_then_writes_witness :
    ∃ r h, (WaitfreeAtomicSnapshot.create 1).atomic_register_vector[0]? = some r ∧
      (WaitfreeAtomicSnapshot.create 1).shared_snapshot_vector[0]? = some h ∧
      (((WaitfreeAtomicSnapshot.create 1).update 7 ((0 : Nat) : Int) 0).isSome = true ↔
        (r.timestamp < 2 ^ 32 - 1 ∧ h.exchangeReady)) ∧
      ∀ s1, (WaitfreeAtomicSnapshot.create 1).update 7 ((0 : Nat) : Int) 0 = some s1 →
        (∀ j, j ≠ 0 → s1.atomic_register_vector[j]?
          = (WaitfreeAtomicSnapshot.create 1).atomic_register_vector[j]?) ∧
        (∃ r1, s1.atomic_register_vector[0]? = some r1 ∧ r1.read = 7 ∧
          r1.timestamp = r.timestamp + 1) ∧
        (∃ h1 b, s1.shared_snapshot_vector[0]? = some h1 ∧
          h1.snapshot_ptr_vector[h1.current_index]? = some (some b) ∧
          b.atomic_register_vector = (WaitfreeAtomicSnapshot.create 1).atomic_register_vector) :=
  WaitfreeAtomicSnapshot.update_publishes_then_writes (WaitfreeAtomicSnapshot.create 1) 7 0 0
    (by decide) (by decide) (by decide)
/-! ## Runs of `update` with no concurrency -/

theorem exchange_version_count (h h1 : shared_snapshot) (s : Snapshot) (hwf : h.wf)
    (hex : h.exchange s = some h1) : h1.version_count = h.version_count := by
  rw [exchange_unfold h s hwf] at hex
  split_ifs at hex with hcond hci
  · rw [← Option.some.inj hex]
  · split at hex
    swap
    · exact Option.noConfusion hex
    split at hex
    swap
    · exact Option.noConfusion hex
    rw [← Option.some.inj hex]

/-- A holder that keeps its books, has no outstanding acquirer, outer count 0 and at least
two versions can take an `exchange`. -/
theorem quiescent_exchangeReady (h : shared_snapshot) (hinv : (HolderState.mk h []).Inv)
    (ho : h.outer_cnt = 0) (hM : 2 ≤ h.version_count) : h.exchangeReady := by
  obtain ⟨w, slots, M⟩ := h
  obtain ⟨⟨hw, hM31, hlen⟩, hslot, hphase⟩ := hinv
  simp only [shared_snapshot.outer_cnt, shared_snapshot.current_index] at hw hM31 hlen hphase ho hM
  have hfree : ∀ j, j < slots.length → j ≠ w % 2 ^ 32 → ∃ x ∈ slots,
      shared_snapshot.isEmptySlot x = true := by
    intro j hj hjc
    have hI := hslot j
    simp only [HolderState.SlotInv, HolderState.outstanding, shared_snapshot.current_index,
      shared_snapshot.outer_cnt, List.getElem?_eq_getElem hj, List.count_nil] at hI
    refine ⟨slots[j], List.getElem_mem hj, ?_⟩
    cases hx : slots[j] with
    | none => rfl
    | some b =>
      rw [hx] at hI
      simp only [if_neg hjc] at hI
      simp only [shared_snapshot.isEmptySlot, Snapshot.get_recycle_flag]
      exact hI.2.mpr trivial
  have hex : ∃ x ∈ slots, shared_snapshot.isEmptySlot x = true := by
    by_cases hc0 : w % 2 ^ 32 = 0
    · exact hfree 1 (by omega) (by omega)
    · exact hfree 0 (by omega) (fun h0 => hc0 h0.symm)
  have hlt : List.findIdx shared_snapshot.isEmptySlot slots < slots.length :=
    List.findIdx_lt_length.mpr hex
  simp only [shared_snapshot.exchangeReady, shared_snapshot.findEmptyIndex,
    shared_snapshot.outer_cnt, shared_snapshot.current_index]
  refine ⟨by omega, by omega, ?_⟩
  rcases hphase with ⟨hw0, hall⟩ | ⟨b, hb⟩
  · left
    subst hw0
    cases slots with
    | nil => simp at hlen; omega
    | cons x xs =>
      have hx : x = none := hall x (List.mem_cons_self _ _)
      subst hx
      simp [List.findIdx_cons, shared_snapshot.isEmptySlot]
  · right
    refine ⟨b, hb, ?_⟩
    have hI := hslot (w % 2 ^ 32)
    simp only [HolderState.SlotInv, HolderState.outstanding, shared_snapshot.current_index,
      shared_snapshot.outer_cnt, hb, if_true, List.count_nil, ho] at hI
    obtain ⟨_, h2, h3⟩ := hI
    rw [ho]
    have : b.inner_cnt = 0 := by omega
    rw [this]
    decide

/-- What `exchange` keeps of such a holder. -/
theorem quiescent_exchange (h h1 : shared_snapshot) (s : Snapshot)
    (hinv : (HolderState.mk h []).Inv) (hM : 2 ≤ h.version_count)
    (hex : h.exchange s = some h1) :
    (HolderState.mk h1 []).Inv ∧ h1.outer_cnt = 0 ∧ 2 ≤ h1.version_count := by
  have hstep : (HolderState.mk h []).step (HolderStep.exchange s) = some ⟨h1, []⟩ := by
    simp only [HolderState.step, hex]
  have hwf : h.wf := hinv.1
  obtain ⟨hword, hiM, _, _⟩ := exchange_publishes h h1 s hwf hex
  have hi31 : h.findEmptyIndex < 2 ^ 31 := lt_trans hiM hwf.2.1
  obtain ⟨_, hidiv⟩ := small_index _ hi31
  refine ⟨HolderState.inv_exchange _ _ s hinv hstep, ?_, ?_⟩
  · unfold shared_snapshot.outer_cnt
    rw [hword, hidiv]
  · rw [exchange_version_count h h1 s hwf hex]
    exact hM
theorem seqInv_create (N : Nat) (hN : N < 2 ^ 31 - 1) :
    (WaitfreeAtomicSnapshot.create N).SeqInv 0 := by
  have hM : N + 1 < 2 ^ 31 := by omega
  have hinit := HolderState.inv_init (N + 1) hM
  refine ⟨⟨by simp [WaitfreeAtomicSnapshot.create], by simp [WaitfreeAtomicSnapshot.create],
    hN, ?_, ?_⟩, ?_, ?_, ?_⟩
  · intro r hr
    simp only [WaitfreeAtomicSnapshot.create] at hr
    rw [(List.mem_replicate.mp hr).2]
    decide
  · intro h hh
    simp only [WaitfreeAtomicSnapshot.create] at hh
    rw [(List.mem_replicate.mp hh).2]
    exact hinit.1
  · intro h hh
    simp only [WaitfreeAtomicSnapshot.create] at hh
    obtain ⟨hN0, hh⟩ := List.mem_replicate.mp hh
    rw [hh]
    refine ⟨hinit, ?_, ?_⟩
    · simp [shared_snapshot.outer_cnt, shared_snapshot.create]
    · show 2 ≤ N + 1
      omega
  · intro r hr
    simp only [WaitfreeAtomicSnapshot.create] at hr
    rw [(List.mem_replicate.mp hr).2]
    decide
  · intro p hp
    simp only [WaitfreeAtomicSnapshot.create] at hp
    exact absurd hp (List.not_mem_nil p)

theorem mapIndex_zero (m : List (Nat × Int)) (tid : Nat) (hz : ∀ p ∈ m, p.2 = 0) :
    (WaitfreeAtomicSnapshot.mapIndex m tid).1 = 0 ∧
      ∀ p ∈ (WaitfreeAtomicSnapshot.mapIndex m tid).2, p.2 = 0 := by
  unfold WaitfreeAtomicSnapshot.mapIndex
  cases hl : m.lookup tid with
  | none =>
    refine ⟨rfl, ?_⟩
    intro p hp
    rcases List.mem_append.mp hp with hp | hp
    · exact hz p hp
    · rw [List.mem_singleton.mp hp]
  | some idx =>
    refine ⟨?_, hz⟩
    show idx = 0
    have hmem : (tid, idx) ∈ m := by
      clear hz
      induction m with
      | nil => simp at hl
      | cons x xs ih =>
        obtain ⟨a, b⟩ := x
        by_cases hta : tid = a
        · subst hta
          simp [List.lookup] at hl
          subst hl
          exact List.mem_cons_self _ _
        · have hbeq : (tid == a) = false := by simpa using hta
          simp only [List.lookup, hbeq] at hl
          exact List.mem_cons_of_mem _ (ih hl)
    exact hz _ hmem

theorem resolveIndex_slot (s : WaitfreeAtomicSnapshot) (u : UpdateCall)
    (hz : ∀ p ∈ s.tid_to_index, p.2 = 0) :
    (s.resolveIndex u.index u.tid).1 = u.slot ∧
      ∀ p ∈ (s.resolveIndex u.index u.tid).2, p.2 = 0 := by
  unfold WaitfreeAtomicSnapshot.resolveIndex UpdateCall.slot
  by_cases h : u.index = -1
  · rw [if_pos h, if_pos h]
    exact mapIndex_zero _ _ hz
  · rw [if_neg h, if_neg h]
    exact ⟨rfl, hz⟩

theorem update_eq_updateAt (s : WaitfreeAtomicSnapshot) (u : UpdateCall)
    (hz : ∀ p ∈ s.tid_to_index, p.2 = 0) :
    s.update u.value u.index u.tid =
      if u.slot < 0 then none
      else WaitfreeAtomicSnapshot.updateAt
        { s with tid_to_index := (s.resolveIndex u.index u.tid).2 } u.value u.slot.toNat := by
  unfold WaitfreeAtomicSnapshot.update
  rw [(resolveIndex_slot s u hz).1]
theorem seqInv_update (n : Nat) (s s1 : WaitfreeAtomicSnapshot) (u : UpdateCall)
    (hinv : s.SeqInv n) (hv : isInt32 u.value)
    (hup : s.update u.value u.index u.tid = some s1) :
    s1.SeqInv (n + 1) ∧ s1.thread_count = s.thread_count ∧
      ∀ i : Nat, (s1.atomic_register_vector.getD i AtomicRegister.default).read
        = if u.slot = (i : Int) then u.value
          else (s.atomic_register_vector.getD i AtomicRegister.default).read := by
  obtain ⟨hwf, hhold, hts, hz⟩ := hinv
  rw [update_eq_updateAt s u hz] at hup
  by_cases hneg : u.slot < 0
  · rw [if_pos hneg] at hup
    exact Option.noConfusion hup
  rw [if_neg hneg] at hup
  obtain ⟨_, hz1⟩ := resolveIndex_slot s u hz
  generalize (s.resolveIndex u.index u.tid).2 = m1 at hup hz1
  generalize hk : u.slot.toNat = k at hup
  have hslot : ∀ i : Nat, u.slot = (i : Int) ↔ k = i := by
    intro i
    omega
  obtain ⟨regs, holders, m, ti, N⟩ := s
  have hwf1 : (WaitfreeAtomicSnapshot.mk regs holders m1 ti N).wf := hwf
  obtain ⟨hothers, ⟨r, r1, hr, hr1, hread, htime⟩, _, _, hmap, _, hwf2⟩ :=
    updateAt_effect _ s1 u.value k hwf1 hv hup
  obtain ⟨h, h1, r', r1', hh, hex, hr', hw, hs1⟩ := updateAt_some _ s1 u.value k hwf1.1 hup
  simp only at hhold hts hr hh hex hothers hmap hr'
  refine ⟨⟨hwf2, ?_, ?_, ?_⟩, ?_, ?_⟩
  · intro x hx
    rw [hs1] at hx
    rcases List.mem_or_eq_of_mem_set hx with hx | hx
    · exact hhold x hx
    · rw [hx]
      have hq := hhold h (List.getElem?_mem hh)
      exact quiescent_exchange h h1 _ hq.1 hq.2.2 hex
  · intro x hx
    obtain ⟨j, hj⟩ := List.mem_iff_getElem?.mp hx
    by_cases hjk : j = k
    · subst hjk
      rw [hr1] at hj
      rw [← Option.some.inj hj, htime]
      have := hts r (List.getElem?_mem hr)
      omega
    · rw [hothers j hjk] at hj
      have := hts x (List.getElem?_mem hj)
      omega
  · rw [hmap]
    exact hz1
  · rw [hs1]
  · intro i
    rw [List.getD_eq_getElem?_getD, List.getD_eq_getElem?_getD]
    by_cases hik : k = i
    · subst hik
      rw [if_pos ((hslot k).mpr rfl), hr1]
      exact hread
    · rw [if_neg (fun hc => hik ((hslot i).mp hc)), hothers i (Ne.symm hik)]

theorem seqInv_update_isSome (n : Nat) (s : WaitfreeAtomicSnapshot) (u : UpdateCall)
    (hinv : s.SeqInv n) (hv : isInt32 u.value) (hn : n < 2 ^ 32 - 1)
    (h0 : 0 ≤ u.slot) (hN : u.slot < (s.thread_count : Int)) :
    (s.update u.value u.index u.tid).isSome = true := by
  obtain ⟨hwf, hhold, hts, hz⟩ := hinv
  rw [update_eq_updateAt s u hz, if_neg (by omega)]
  generalize (s.resolveIndex u.index u.tid).2 = m1
  generalize hk : u.slot.toNat = k
  have hkN : k < s.thread_count := by omega
  obtain ⟨regs, holders, m, ti, N⟩ := s
  have hwf1 : (WaitfreeAtomicSnapshot.mk regs holders m1 ti N).wf := hwf
  simp only at hhold hts hkN
  have hlr : k < regs.length := by rw [hwf.1]; exact hkN
  have hlh : k < holders.length := by rw [hwf.2.1]; exact hkN
  rw [updateAt_isSome_iff _ u.value k regs[k] holders[k] hwf1 hv
    (List.getElem?_eq_getElem hlr) (List.getElem?_eq_getElem hlh)]
  have hq := hhold holders[k] (List.getElem_mem hlh)
  have := hts regs[k] (List.getElem_mem hlr)
  exact ⟨by omega, quiescent_exchangeReady _ hq.1 hq.2.1 hq.2.2⟩
theorem runUpdates_spec (us : List UpdateCall) :
    ∀ (n : Nat) (s : WaitfreeAtomicSnapshot), s.SeqInv n → (∀ u ∈ us, isInt32 u.value) →
      (∀ s1, s.runUpdates us = some s1 →
        s1.SeqInv (n + us.length) ∧ s1.thread_count = s.thread_count ∧
        ∀ i : Nat, (s1.atomic_register_vector.getD i AtomicRegister.default).read
          = lastUpdateFrom i (s.atomic_register_vector.getD i AtomicRegister.default).read us) ∧
      ((∀ u ∈ us, 0 ≤ u.slot ∧ u.slot < (s.thread_count : Int)) → n + us.length < 2 ^ 32 →
        (s.runUpdates us).isSome = true) := by
  induction us with
  | nil =>
    intro n s hinv _
    refine ⟨?_, fun _ _ => rfl⟩
    intro s1 hrun
    simp only [WaitfreeAtomicSnapshot.runUpdates, Option.some.injEq] at hrun
    subst hrun
    exact ⟨hinv, rfl, fun i => rfl⟩
  | cons u rest ih =>
    intro n s hinv hv
    have hvu : isInt32 u.value := hv u (List.mem_cons_self _ _)
    have hvrest : ∀ x ∈ rest, isInt32 x.value := fun x hx => hv x (List.mem_cons_of_mem _ hx)
    constructor
    · intro s1 hrun
      simp only [WaitfreeAtomicSnapshot.runUpdates] at hrun
      split at hrun
      swap
      · exact Option.noConfusion hrun
      rename_i s2 hup
      obtain ⟨hinv2, hN2, hread2⟩ := seqInv_update n s s2 u hinv hvu hup
      obtain ⟨hinv1, hN1, hread1⟩ := (ih (n + 1) s2 hinv2 hvrest).1 s1 hrun
      refine ⟨?_, hN1.trans hN2, ?_⟩
      · have : n + (u :: rest).length = n + 1 + rest.length := by
          simp only [List.length_cons]; omega
        rw [this]
        exact hinv1
      · intro i
        rw [hread1 i, hread2 i]
        rfl
    · intro hslots hlen
      simp only [List.length_cons] at hlen
      have hsome := seqInv_update_isSome n s u hinv hvu (by omega)
        (hslots u (List.mem_cons_self _ _)).1 (hslots u (List.mem_cons_self _ _)).2
      obtain ⟨s2, hup⟩ := Option.isSome_iff_exists.mp hsome
      obtain ⟨hinv2, hN2, _⟩ := seqInv_update n s s2 u hinv hvu hup
      have := (ih (n + 1) s2 hinv2 hvrest).2
        (fun x hx => by rw [hN2]; exact hslots x (List.mem_cons_of_mem _ hx)) (by omega)
      simp only [WaitfreeAtomicSnapshot.runUpdates, hup]
      exact this

/-! ## Updates, then a scan (claim C2) -/

/-- C2: for every `N` and every sequence of `update` calls executed one after another with no
concurrent writer on a fresh engine of `N` threads, a `scan` issued afterwards returns, for
each slot `i`, the value of the last update to slot `i`, and 0 if slot `i` was never updated.
The calls all return when each names a slot of the engine and there are fewer than `2^32`
of them. -/
theorem WaitfreeAtomicSnapshot.scan_after_updates (N : Nat) (us : List UpdateCall)
    (hN : N < 2 ^ 31 - 1) (hv : ∀ u ∈ us, isInt32 u.value) :
    (∀ s, (WaitfreeAtomicSnapshot.create N).runUpdates us = some s →
      ∃ snapshot, s.scan = some (snapshot, s) ∧ snapshot.atomic_register_vector.length = N ∧
        ∀ i, i < N →
          (snapshot.atomic_register_vector.getD i AtomicRegister.default).read
            = lastUpdate us i) ∧
    ((∀ u ∈ us, 0 ≤ u.slot ∧ u.slot < (N : Int)) → us.length < 2 ^ 32 →
      ((WaitfreeAtomicSnapshot.create N).runUpdates us).isSome = true) := by
  obtain ⟨hA, hB⟩ := runUpdates_spec us 0 (WaitfreeAtomicSnapshot.create N)
    (seqInv_create N hN) hv
  constructor
  · intro s hrun
    obtain ⟨hinv, hNs, hread⟩ := hA s hrun
    have hlen : s.atomic_register_vector.length = N := by
      rw [hinv.1.1, hNs]
      rfl
    refine ⟨⟨0, s.atomic_register_vector, false⟩, scan_eq s hinv.1.1, hlen, ?_⟩
    intro i hi
    rw [hread i]
    have h0 : ((WaitfreeAtomicSnapshot.create N).atomic_register_vector.getD i
        AtomicRegister.default).read = 0 := by
      simp only [WaitfreeAtomicSnapshot.create, List.getD_eq_getElem?_getD,
        List.getElem?_replicate, if_pos hi, Option.getD_some]
      decide
    rw [h0]
    rfl
  · intro hslots hlen
    exact hB hslots (by omega)

/-- One thread: `update(7)` on slot 0, then `scan` returns `[7]`. -/
theorem WaitfreeAtomicSnapshot.scan_after_updates_witness :
    ((∀ s, (WaitfreeAtomicSnapshot.create 1).runUpdates [⟨7, 0, 0⟩] = some s →
      ∃ snapshot, s.scan = some (snapshot, s) ∧ snapshot.atomic_register_vector.length = 1 ∧
        ∀ i, i < 1 →
          (snapshot.atomic_register_vector.getD i AtomicRegister.default).read
            = lastUpdate [⟨7, 0, 0⟩] i) ∧
    ((∀ u ∈ [(⟨7, 0, 0⟩ : UpdateCall)], 0 ≤ u.slot ∧ u.slot < ((1 : Nat) : Int)) →
      [(⟨7, 0, 0⟩ : UpdateCall)].length < 2 ^ 32 →
      ((WaitfreeAtomicSnapshot.create 1).runUpdates [⟨7, 0, 0⟩]).isSome = true)) ∧
    ((WaitfreeAtomicSnapshot.create 1).runUpdates [⟨7, 0, 0⟩]).bind
        (fun s => s.scan.map (fun r => r.1.atomic_register_vector.map AtomicRegister.read))
      = some [7] :=
  ⟨WaitfreeAtomicSnapshot.scan_after_updates 1 [⟨7, 0, 0⟩] (by decide) (by decide), by decide⟩
/-! ## The collect loop of `scan` -/

theorem sum_set_int (l : List Int) (v : Int) :
    ∀ i, i < l.length → (l.set i v).sum = l.sum + v - l.getD i 0 := by
  induction l with
  | nil => intro i hi; simp at hi
  | cons x xs ih =>
    intro i hi
    cases i with
    | zero => simp only [List.set_cons_zero, List.sum_cons, List.getD_cons_zero]; omega
    | succ j =>
      have := ih j (by simpa using hi)
      simp only [List.set_cons_succ, List.sum_cons, List.getD_cons_succ, this]
      omega

theorem sum_le_length_of_bits (l : List Int) (h : ∀ c ∈ l, c = 0 ∨ c = 1) :
    0 ≤ l.sum ∧ l.sum ≤ (l.length : Int) := by
  induction l with
  | nil => simp
  | cons x xs ih =>
    have hx := h x (List.mem_cons_self _ _)
    have := ih (fun c hc => h c (List.mem_cons_of_mem _ hc))
    simp only [List.sum_cons, List.length_cons]
    push_cast
    omega

/-- One pass of the collect loop: it either stops at a register whose count reached 2, or it
ends with counts that are still 0 or 1; the sum of the counts does not drop, and the pass is
dirty only if the sum grew (or the flag was already off). -/
theorem collect_spec (read : Nat → AtomicRegister) (first : List AtomicRegister) :
    ∀ (remaining i : Nat) (second : List AtomicRegister) (counts : List Int) (same : Bool),
      i + remaining ≤ counts.length → (∀ c ∈ counts, c = 0 ∨ c = 1) →
      (∃ j, WaitfreeAtomicSnapshot.collect read first remaining i second counts same
          = Collect.borrowed j ∧ i ≤ j ∧ j < i + remaining) ∨
      (∃ second1 counts1 same1,
        WaitfreeAtomicSnapshot.collect read first remaining i second counts same
          = Collect.finished second1 counts1 same1 ∧
        counts1.length = counts.length ∧ (∀ c ∈ counts1, c = 0 ∨ c = 1) ∧
        counts.sum ≤ counts1.sum ∧
        (same1 = true → same = true ∧ counts1 = counts) ∧
        (same1 = false → same = false ∨ counts.sum < counts1.sum)) := by
  intro remaining
  induction remaining with
  | zero =>
    intro i second counts same _ hbits
    right
    refine ⟨second, counts, same, rfl, rfl, hbits, le_refl _, fun h => ⟨h, rfl⟩, fun h => Or.inl h⟩
  | succ n ih =>
    intro i second counts same hlen hbits
    have hi : i < counts.length := by omega
    rw [WaitfreeAtomicSnapshot.collect]
    simp only
    split_ifs with hne h2
    · left
      exact ⟨i, rfl, le_refl _, by omega⟩
    · -- the register changed for the first time
      have hget : (counts.set i (counts.getD i 0 + 1)).getD i 0 = counts.getD i 0 + 1 := by
        rw [List.getD_eq_getElem?_getD, List.getElem?_set_self hi]
        rfl
      rw [hget] at h2
      have hold : counts.getD i 0 = 0 := by
        have hmem : counts.getD i 0 ∈ counts := by
          rw [List.getD_eq_getElem?_getD, List.getElem?_eq_getElem hi]
          exact List.getElem_mem hi
        rcases hbits _ hmem with h | h
        · exact h
        · exact absurd (by rw [h]; rfl) h2
      have hbits1 : ∀ c ∈ counts.set i (counts.getD i 0 + 1), c = 0 ∨ c = 1 := by
        intro c hc
        rcases List.mem_or_eq_of_mem_set hc with hc | hc
        · exact hbits c hc
        · right; rw [hc, hold]; rfl
      have hsum : (counts.set i (counts.getD i 0 + 1)).sum = counts.sum + 1 := by
        rw [sum_set_int counts _ i hi, hold]
        omega
      rcases ih (i + 1) (second.set i (read i)) (counts.set i (counts.getD i 0 + 1)) false
        (by rw [List.length_set]; omega) hbits1 with ⟨j, hj, h1, h3⟩ | ⟨s1, c1, f1, hc, hl, hb, hs, ht, hf⟩
      · left
        exact ⟨j, hj, by omega, by omega⟩
      · right
        refine ⟨s1, c1, f1, hc, by rw [hl, List.length_set], hb, by omega, ?_, ?_⟩
        · intro hf1
          exact absurd (ht hf1).1 (by simp)
        · intro _
          right
          omega
    · rcases ih (i + 1) (second.set i (read i)) counts same (by omega) hbits with
        ⟨j, hj, h1, h3⟩ | ⟨s1, c1, f1, hc, hl, hb, hs, ht, hf⟩
      · left
        exact ⟨j, hj, by omega, by omega⟩
      · right
        exact ⟨s1, c1, f1, hc, hl, hb, hs, ht, hf⟩
theorem releaseAt_of (h : shared_snapshot) (index : Nat) (b : Snapshot)
    (hb : h.snapshot_ptr_vector[index]? = some (some b)) (hint : isInt32 (b.inner_cnt + 1)) :
    ∃ h2, h.releaseAt index = some h2 := by
  unfold shared_snapshot.releaseAt
  rw [hb]
  unfold Snapshot.release
  simp only
  rw [if_pos hint]
  exact ⟨_, rfl⟩


theorem borrow_of (holders : List shared_snapshot) (first : Snapshot) (i : Nat)
    (h : shared_snapshot) (hh : holders[i]? = some h) (hready : h.borrowReady) :
    ∃ snapshot holders1, WaitfreeAtomicSnapshot.borrow holders first i
      = some (snapshot, holders1) := by
  obtain ⟨b, hb, hint⟩ := hready
  have hacq := acquire_eq h b hb
  obtain ⟨h2, hrel⟩ := releaseAt_of
    ⟨(h.outer_cnt_with_index + 2 ^ 32) % 2 ^ 64, h.snapshot_ptr_vector, h.version_count⟩
    h.current_index b hb hint
  unfold WaitfreeAtomicSnapshot.borrow
  rw [hh]
  simp only
  rw [hacq]
  simp only
  rw [hb]
  simp only
  rw [hrel]
  exact ⟨_, _, rfl⟩

theorem scanLoop_bound (reads : Nat → Nat → AtomicRegister) (N : Nat)
    (holders : List shared_snapshot) :
    ∀ (fuel k : Nat) (first second : Snapshot) (counts : List Int),
      counts.length = N → (∀ c ∈ counts, c = 0 ∨ c = 1) → (k : Int) ≤ counts.sum →
      N + 1 ≤ fuel + k →
      WaitfreeAtomicSnapshot.scanLoop reads N holders fuel k first second counts
        ≠ ScanResult.unfinished ∧
      (∀ snapshot holders1 k1,
        WaitfreeAtomicSnapshot.scanLoop reads N holders fuel k first second counts
          = ScanResult.returned snapshot holders1 k1 → k < k1 ∧ k1 ≤ N + 1) ∧
      ((∀ j, j < N → ∃ h, holders[j]? = some h ∧ h.borrowReady) →
        ∃ snapshot holders1 k1,
          WaitfreeAtomicSnapshot.scanLoop reads N holders fuel k first second counts
            = ScanResult.returned snapshot holders1 k1) := by
  intro fuel
  induction fuel with
  | zero =>
    intro k first second counts hlen hbits hk hfuel
    have := (sum_le_length_of_bits counts hbits).2
    omega
  | succ fuel ih =>
    intro k first second counts hlen hbits hk hfuel
    have hsum := (sum_le_length_of_bits counts hbits).2
    have hkN : k ≤ N := by omega
    rw [WaitfreeAtomicSnapshot.scanLoop]
    rcases collect_spec (reads k) first.atomic_register_vector N 0
        second.atomic_register_vector counts true (by omega) hbits with
      ⟨j, hj, _, hjN⟩ | ⟨s1, c1, f1, hc, hl, hb, hs, ht, hf⟩
    · rw [hj]
      simp only
      cases hbor : WaitfreeAtomicSnapshot.borrow holders first j with
      | none =>
        simp only
        refine ⟨fun h => ScanResult.noConfusion h, fun _ _ _ h => ScanResult.noConfusion h, ?_⟩
        intro hready
        obtain ⟨h, hh, hr⟩ := hready j (by omega)
        obtain ⟨sn, hs1, hb1⟩ := borrow_of holders first j h hh hr
        rw [hb1] at hbor
        exact Option.noConfusion hbor
      | some p =>
        obtain ⟨sn, hs1⟩ := p
        simp only
        refine ⟨fun h => ScanResult.noConfusion h, ?_, fun _ => ⟨_, _, _, rfl⟩⟩
        intro snapshot holders1 k1 heq
        simp only [ScanResult.returned.injEq] at heq
        omega
    · rw [hc]
      simp only
      cases f1 with
      | true =>
        simp only [if_true]
        refine ⟨fun h => ScanResult.noConfusion h, ?_, fun _ => ⟨_, _, _, rfl⟩⟩
        intro snapshot holders1 k1 heq
        simp only [ScanResult.returned.injEq] at heq
        omega
      | false =>
        simp only [Bool.false_eq_true, if_false]
        have hgrow : counts.sum < c1.sum := by
          rcases hf rfl with h | h
          · exact absurd h (by simp)
          · exact h
        obtain ⟨h1, h2, h3⟩ := ih (k + 1)
          (first.assign { second with atomic_register_vector := s1 })
          { second with atomic_register_vector := s1 } c1 (by rw [hl, hlen]) hb
          (by push_cast; omega) (by omega)
        refine ⟨h1, ?_, h3⟩
        intro snapshot holders1 k1 heq
        have := h2 snapshot holders1 k1 heq
        omega
/-! ## Wait-freedom of `scan` (claim C3) -/

/-- C3: for every engine of `N` threads and every sequence of register contents seen by the
loads of `scan` (the registers may change arbitrarily between any two loads), the collect
loop of `scan` ends within `N + 1` passes: given at least `N + 1` passes it never runs out
of them, a returned snapshot comes with a pass count between 1 and `N + 1`, and `scan` does
return when every holder has a published snapshot to borrow. Each pass either stops at a
register whose change count reached 2, or is clean, or raises the sum of the change
counts. -/
theorem WaitfreeAtomicSnapshot.scan_iterations_bound (s : WaitfreeAtomicSnapshot)
    (first : Nat → AtomicRegister) (reads : Nat → Nat → AtomicRegister) (fuel : Nat)
    (hfuel : s.thread_count + 1 ≤ fuel) :
    s.scanWith first reads fuel ≠ ScanResult.unfinished ∧
    (∀ snapshot holders k, s.scanWith first reads fuel = ScanResult.returned snapshot holders k →
      1 ≤ k ∧ k ≤ s.thread_count + 1) ∧
    ((∀ j, j < s.thread_count → ∃ h, s.shared_snapshot_vector[j]? = some h ∧ h.borrowReady) →
      ∃ snapshot holders k, s.scanWith first reads fuel = ScanResult.returned snapshot holders k ∧
        k ≤ s.thread_count + 1) ∧
    (∀ (read : Nat → AtomicRegister) (first_snapshot second_snapshot : List AtomicRegister)
      (counts : List Int), counts.length = s.thread_count → (∀ c ∈ counts, c = 0 ∨ c = 1) →
      (∃ j, j < s.thread_count ∧
        WaitfreeAtomicSnapshot.collect read first_snapshot s.thread_count 0 second_snapshot
          counts true = Collect.borrowed j) ∨
      (∃ second1, WaitfreeAtomicSnapshot.collect read first_snapshot s.thread_count 0
          second_snapshot counts true = Collect.finished second1 counts true) ∨
      (∃ second1 counts1, WaitfreeAtomicSnapshot.collect read first_snapshot s.thread_count 0
          second_snapshot counts true = Collect.finished second1 counts1 false ∧
        counts.sum < counts1.sum ∧ (∀ c ∈ counts1, c = 0 ∨ c = 1))) := by
  have hbits0 : ∀ c ∈ List.replicate s.thread_count (0 : Int), c = 0 ∨ c = 1 :=
    fun c hc => Or.inl (List.mem_replicate.mp hc).2
  have hsum0 : ((0 : Nat) : Int) ≤ (List.replicate s.thread_count (0 : Int)).sum :=
    (sum_le_length_of_bits _ hbits0).1
  obtain ⟨h1, h2, h3⟩ := scanLoop_bound reads s.thread_count s.shared_snapshot_vector fuel 0
    (Snapshot.ofRegisters ((List.range s.thread_count).map first))
    (Snapshot.ofCount s.thread_count) (List.replicate s.thread_count 0)
    (List.length_replicate _ _) hbits0 hsum0 (by omega)
  refine ⟨h1, ?_, ?_, ?_⟩
  · intro snapshot holders k heq
    have := h2 snapshot holders k heq
    omega
  · intro hready
    obtain ⟨sn, hs, k, heq⟩ := h3 hready
    exact ⟨sn, hs, k, heq, (h2 sn hs k heq).2⟩
  · intro read fs ss counts hlen hbits
    rcases collect_spec read fs s.thread_count 0 ss counts true (by omega) hbits with
      ⟨j, hj, _, hjN⟩ | ⟨s1, c1, f1, hc, _, hb, _, ht, hf⟩
    · left
      exact ⟨j, by omega, hj⟩
    · right
      cases f1 with
      | true =>
        left
        refine ⟨s1, ?_⟩
        rw [hc, (ht rfl).2]
      | false =>
        right
        refine ⟨s1, c1, hc, ?_, hb⟩
        rcases hf rfl with h | h
        · exact absurd h (by simp)
        · exact h

/-- One thread whose register differs at every load: the second pass sees the second change
and borrows the snapshot published in holder 0. -/
theorem WaitfreeAtomicSnapshot.scan_iterations_bound_witness :
    (WaitfreeAtomicSnapshot.mk [⟨2 ^ 32 + 7⟩] [⟨0, [some ⟨0, [⟨0⟩], false⟩, none], 2⟩] [] 0
        1).scanWith (fun _ => ⟨0⟩) (fun k _ => ⟨(k + 1) * 2 ^ 32⟩) 2
      = ScanResult.returned ⟨0, [⟨0⟩], false⟩
          [⟨2 ^ 32, [some ⟨1, [⟨0⟩], false⟩, none], 2⟩] 2 ∧
    (WaitfreeAtomicSnapshot.mk [⟨2 ^ 32 + 7⟩] [⟨0, [some ⟨0, [⟨0⟩], false⟩, none], 2⟩] [] 0
        1).scanWith (fun _ => ⟨0⟩) (fun k _ => ⟨(k + 1) * 2 ^ 32⟩) 2 ≠ ScanResult.unfinished :=
  ⟨by decide,
    (WaitfreeAtomicSnapshot.scan_iterations_bound
      (WaitfreeAtomicSnapshot.mk [⟨2 ^ 32 + 7⟩] [⟨0, [some ⟨0, [⟨0⟩], false⟩, none], 2⟩] [] 0 1)
      (fun _ => ⟨0⟩) (fun k _ => ⟨(k + 1) * 2 ^ 32⟩) 2 (by decide)).1⟩
/-! ## Registration of threads (claim C8) -/

theorem RegisterTid_eq (s : WaitfreeAtomicSnapshot) (tid : Nat)
    (h : isInt32 (s.tid_index + 1)) :
    s.RegisterTid tid = some (s.tid_index,
      { s with tid_index := s.tid_index + 1
               tid_to_index := WaitfreeAtomicSnapshot.mapInsert s.tid_to_index tid s.tid_index }) := by
  unfold WaitfreeAtomicSnapshot.RegisterTid
  simp only
  rw [if_pos h]

theorem lookup_mapInsert (m : List (Nat × Int)) (tid : Nat) (index : Int) :
    (WaitfreeAtomicSnapshot.mapInsert m tid index).lookup tid
      = some ((m.lookup tid).getD index) := by
  unfold WaitfreeAtomicSnapshot.mapInsert
  cases hl : m.lookup tid with
  | some x => simp only [hl, Option.getD_some]
  | none =>
    simp only [List.lookup_append, hl, Option.getD_none]
    simp [List.lookup]

theorem mapInsert_idem (m : List (Nat × Int)) (tid : Nat) (i j : Int) :
    WaitfreeAtomicSnapshot.mapInsert (WaitfreeAtomicSnapshot.mapInsert m tid i) tid j
      = WaitfreeAtomicSnapshot.mapInsert m tid i := by
  have h := lookup_mapInsert m tid i
  generalize WaitfreeAtomicSnapshot.mapInsert m tid i = m1 at h
  unfold WaitfreeAtomicSnapshot.mapInsert
  rw [h]

theorem RegisterTids_spec (tids : List Nat) :
    ∀ s : WaitfreeAtomicSnapshot, INT_MIN ≤ s.tid_index →
      s.tid_index + (tids.length : Int) ≤ INT_MAX →
      ∃ s1, s.RegisterTids tids
          = some ((List.range tids.length).map (fun (k : Nat) => s.tid_index + (k : Int)), s1) ∧
        s1.tid_index = s.tid_index + (tids.length : Int) ∧ s1.thread_count = s.thread_count := by
  induction tids with
  | nil =>
    intro s _ _
    exact ⟨s, rfl, by simp, rfl⟩
  | cons t rest ih =>
    intro s hlo hhi
    simp only [List.length_cons] at hhi
    push_cast at hhi
    have h1 : isInt32 (s.tid_index + 1) := by
      unfold isInt32 INT_MIN INT_MAX at *
      omega
    obtain ⟨s2, hrun, hidx, hN⟩ := ih
      { s with tid_index := s.tid_index + 1
               tid_to_index := WaitfreeAtomicSnapshot.mapInsert s.tid_to_index t s.tid_index }
      (by show INT_MIN ≤ s.tid_index + 1; omega)
      (by show s.tid_index + 1 + (rest.length : Int) ≤ INT_MAX; omega)
    refine ⟨s2, ?_, ?_, hN⟩
    · simp only [WaitfreeAtomicSnapshot.RegisterTids, RegisterTid_eq s t h1, hrun]
      simp only [List.length_cons, List.range_succ_eq_map, List.map_cons, List.map_map,
        Option.some.injEq, Prod.mk.injEq, and_true]
      congr 1
      · simp
      · apply List.map_congr_left
        intro k _
        simp only [Function.comp]
        push_cast
        omega
    · rw [hidx]
      simp only [List.length_cons]
      push_cast
      omega
/-- C8 (as amended): `RegisterTid` is not idempotent. Every call returns the current value
of the counter `tid_index` and increments it, whatever the thread id, so a second call with
the same thread id returns the next index; the table `tid_to_index` keeps for the thread the
index of its first call. On a fresh engine the calls return 0, 1, 2, ... in order, so the
index lies in `[0, N)` for the first `N` calls only. -/
theorem WaitfreeAtomicSnapshot.RegisterTid_returns_counter (s : WaitfreeAtomicSnapshot)
    (tid : Nat) (hlo : INT_MIN ≤ s.tid_index) (hhi : s.tid_index + 2 ≤ INT_MAX) :
    (∃ s1 s2, s.RegisterTid tid = some (s.tid_index, s1) ∧
      s1.RegisterTid tid = some (s.tid_index + 1, s2) ∧
      s1.tid_to_index.lookup tid = some ((s.tid_to_index.lookup tid).getD s.tid_index) ∧
      s2.tid_to_index = s1.tid_to_index) ∧
    (∀ (N : Nat) (tids : List Nat), (tids.length : Int) ≤ INT_MAX →
      ∃ s1, (WaitfreeAtomicSnapshot.create N).RegisterTids tids
        = some ((List.range tids.length).map (fun (k : Nat) => (k : Int)), s1)) := by
  constructor
  · have h1 : isInt32 (s.tid_index + 1) := by
      unfold isInt32 INT_MIN INT_MAX at *
      omega
    have h2 : isInt32 (s.tid_index + 1 + 1) := by
      unfold isInt32 INT_MIN INT_MAX at *
      omega
    refine ⟨_, _, RegisterTid_eq s tid h1, RegisterTid_eq _ tid h2, ?_, ?_⟩
    · exact lookup_mapInsert _ _ _
    · exact mapInsert_idem _ _ _ _
  · intro N tids hlen
    obtain ⟨s1, hrun, _, _⟩ := RegisterTids_spec tids (WaitfreeAtomicSnapshot.create N)
      (by show INT_MIN ≤ (0 : Int); decide) (by
        show (0 : Int) + (tids.length : Int) ≤ INT_MAX
        omega)
    refine ⟨s1, ?_⟩
    rw [hrun]
    congr 2
    apply List.map_congr_left
    intro k _
    show (0 : Int) + (k : Int) = (k : Int)
    omega

/-- Thread 5 registering twice on a fresh engine of one thread. -/
theorem WaitfreeAtomicSnapshot.RegisterTid_returns_counter_witness :
    (∃ s1 s2, (WaitfreeAtomicSnapshot.create 1).RegisterTid 5
        = some ((WaitfreeAtomicSnapshot.create 1).tid_index, s1) ∧
      s1.RegisterTid 5 = some ((WaitfreeAtomicSnapshot.create 1).tid_index + 1, s2) ∧
      s1.tid_to_index.lookup 5
        = some (((WaitfreeAtomicSnapshot.create 1).tid_to_index.lookup 5).getD
            (WaitfreeAtomicSnapshot.create 1).tid_index) ∧
      s2.tid_to_index = s1.tid_to_index) ∧
    (∀ (N : Nat) (tids : List Nat), (tids.length : Int) ≤ INT_MAX →
      ∃ s1, (WaitfreeAtomicSnapshot.create N).RegisterTids tids
        = some ((List.range tids.length).map (fun (k : Nat) => (k : Int)), s1)) :=
  WaitfreeAtomicSnapshot.RegisterTid_returns_counter (WaitfreeAtomicSnapshot.create 1) 5
    (by decide) (by decide)

/-- C8, as stated, fails: on a fresh engine of one thread, thread 5 calling `RegisterTid`
twice gets index 0 and then index 1, which differ, and 1 is not below `N = 1`. -/
theorem WaitfreeAtomicSnapshot.RegisterTid_twice_differs :
    ∃ s1 s2, (WaitfreeAtomicSnapshot.create 1).RegisterTid 5 = some (0, s1) ∧
      s1.RegisterTid 5 = some (1, s2) ∧ (0 : Int) ≠ 1 ∧
      ¬ ((1 : Int) < ((WaitfreeAtomicSnapshot.create 1).thread_count : Int)) :=
  ⟨⟨[⟨0⟩], [⟨0, [none, none], 2⟩], [(5, 0)], 1, 1⟩,
    ⟨[⟨0⟩], [⟨0, [none, none], 2⟩], [(5, 0)], 2, 1⟩, by decide, by decide, by decide, by decide⟩
/-! ## The lock manager: one round of a worker -/

/-- C20 (as stated, refuted).  With 3 records at 100 and cap 1, the round of a worker on
`(1, 2, 3)` does not write the line `1 1 2 3 100 101 0`: the update of R2 by `R1 + 1 = 101`
leaves 201 in R2, and that is the value the commit reads. -/
theorem RepeatTrx.round_log_not_101 :
    (RepeatTrx.round (Managers.init 3 1) 1 1 2 3).map (fun r => r.2.files 1) ≠
      some "1 1 2 3 100 101 0\n" := by
  decide

set_option maxHeartbeats 1000000 in
/-- The round of the scenario of C20, whatever the id of the thread: result, files and
record values. -/
theorem RepeatTrx.round_scenario (thread_id : Nat) (N : Int) :
    (RepeatTrx.round (Managers.init 3 1) thread_id 1 2 3).map (fun r =>
      (r.1, r.2.files N, (r.2.lock_table 1).map (fun node => node.record_value),
        (r.2.lock_table 2).map (fun node => node.record_value),
        (r.2.lock_table 3).map (fun node => node.record_value))) =
      some (Round.committed 1, (if N = 1 then "1 1 2 3 100 201 0\n" else ""),
        some 100, some 201, some 0) := by
  simp [RepeatTrx.round, TrxManager.Begin, TrxManager.GetTrxNode, Managers.init, TrxManager.Find,
    LockManager.AcquireLock, LockManager.takeLock, LockManager.linkLock, Managers.setTrx,
    Managers.setNode, Managers.setLock, Managers.setConflict, Managers.conflict_lock,
    LockManager.collectWaiting, LockManager.checkCompatible, LockManager.finishAcquire,
    TrxManager.FindWith, LockManager.GetRecord, TrxManager.Update, TrxManager.UpdateWith,
    LockManager.ChangeRecord, RepeatTrx.commit, TrxManager.Commit, TrxManager.releaseAll,
    LockManager.ReleaseLock, LockManager.advance, LockManager.wakeHead, LockManager.moveHead,
    TrxManager.commitLog, Managers.append, Managers.setCount, TrxManager.openLog,
    Managers.create, lock_t.withState, lock_t.withMode, lock_t.withNext, lock_t.withId, lock_t.withDiff, lock_t.passId, lock_t.passHead, lock_t.signal,
    Managers.thread_number_of, Managers.trx_lock_deque, Function.update, LockTableNode.create,
    lock_t.create, lock_t.recyclable, isInt64, isInt32, INT64_MIN, INT64_MAX, INT_MIN, INT_MAX]
  split
  · decide
  · rfl

/-- C20 (amended).  With 3 records at their initial value 100 and cap 1, the round of a
single worker on `(i, j, k) = (1, 2, 3)` commits with id 1 and leaves in the file of the
thread (thread number 1) exactly the line `1 1 2 3 100 201 0`; no other file is written and
the records hold 100, 201 and 0. -/
theorem RepeatTrx.round_log (thread_id : Nat) :
    ∃ s, RepeatTrx.round (Managers.init 3 1) thread_id 1 2 3 = some (Round.committed 1, s) ∧
      s.files 1 = "1 1 2 3 100 201 0\n" ∧ (∀ N, N ≠ 1 → s.files N = "") ∧
      (s.lock_table 1).map (fun node => node.record_value) = some 100 ∧
      (s.lock_table 2).map (fun node => node.record_value) = some 201 ∧
      (s.lock_table 3).map (fun node => node.record_value) = some 0 := by
  have h1 := RepeatTrx.round_scenario thread_id 1
  obtain ⟨⟨o, s⟩, hr, hs⟩ := Option.map_eq_some'.1 h1
  simp only [Prod.mk.injEq] at hs
  obtain ⟨ho, hf, hv1, hv2, hv3⟩ := hs
  refine ⟨s, ?_, ?_, ?_, hv1, hv2, hv3⟩
  · rw [hr, ho]
  · simpa using hf
  · intro N hN
    have h2 := RepeatTrx.round_scenario thread_id N
    rw [hr] at h2
    simp only [Option.map_some', Option.some.injEq, Prod.mk.injEq, if_neg hN] at h2
    exact h2.2.1
/-! ## The lock manager: stores -/

@[simp] theorem Managers.setLock_locks (s : Managers) (l : Nat) (f : lock_t → lock_t) :
    (s.setLock l f).locks = Function.update s.locks l (f (s.locks l)) := rfl

@[simp] theorem Managers.setLock_lock_count (s : Managers) (l : Nat) (f : lock_t → lock_t) :
    (s.setLock l f).lock_count = s.lock_count := rfl

@[simp] theorem Managers.setLock_lock_table (s : Managers) (l : Nat) (f : lock_t → lock_t) :
    (s.setLock l f).lock_table = s.lock_table := rfl

@[simp] theorem Managers.setLock_pools (s : Managers) (l : Nat) (f : lock_t → lock_t) :
    (s.setLock l f).pools = s.pools := rfl

@[simp] theorem Managers.setLock_trx_node_table (s : Managers) (l : Nat) (f : lock_t → lock_t) :
    (s.setLock l f).trx_node_table = s.trx_node_table := rfl

@[simp] theorem Managers.setLock_thread_number (s : Managers) (l : Nat) (f : lock_t → lock_t) :
    (s.setLock l f).thread_number = s.thread_number := rfl

@[simp] theorem Managers.setLock_last (s : Managers) (l : Nat) (f : lock_t → lock_t) :
    (s.setLock l f).last_global_execution_order = s.last_global_execution_order := rfl

@[simp] theorem Managers.setLock_count (s : Managers) (l : Nat) (f : lock_t → lock_t) :
    (s.setLock l f).global_execution_count = s.global_execution_count := rfl

@[simp] theorem Managers.setLock_files (s : Managers) (l : Nat) (f : lock_t → lock_t) :
    (s.setLock l f).files = s.files := rfl

@[simp] theorem Managers.setLock_created (s : Managers) (l : Nat) (f : lock_t → lock_t) :
    (s.setLock l f).created = s.created := rfl

@[simp] theorem Managers.setLock_conflict_lock (s : Managers) (l : Nat) (f : lock_t → lock_t)
    (t : Nat) : (s.setLock l f).conflict_lock t = s.conflict_lock t := rfl

@[simp] theorem Managers.setLock_trx_lock_deque (s : Managers) (l : Nat) (f : lock_t → lock_t)
    (t : Nat) : (s.setLock l f).trx_lock_deque t = s.trx_lock_deque t := rfl

@[simp] theorem Managers.setNode_locks (s : Managers) (r : Nat) (n : LockTableNode) :
    (s.setNode r n).locks = s.locks := rfl

@[simp] theorem Managers.setNode_lock_count (s : Managers) (r : Nat) (n : LockTableNode) :
    (s.setNode r n).lock_count = s.lock_count := rfl

@[simp] theorem Managers.setNode_lock_table (s : Managers) (r : Nat) (n : LockTableNode) :
    (s.setNode r n).lock_table = Function.update s.lock_table r (some n) := rfl

@[simp] theorem Managers.setNode_pools (s : Managers) (r : Nat) (n : LockTableNode) :
    (s.setNode r n).pools = s.pools := rfl

@[simp] theorem Managers.setNode_trx_node_table (s : Managers) (r : Nat) (n : LockTableNode) :
    (s.setNode r n).trx_node_table = s.trx_node_table := rfl

@[simp] theorem Managers.setNode_thread_number (s : Managers) (r : Nat) (n : LockTableNode) :
    (s.setNode r n).thread_number = s.thread_number := rfl

@[simp] theorem Managers.setNode_last (s : Managers) (r : Nat) (n : LockTableNode) :
    (s.setNode r n).last_global_execution_order = s.last_global_execution_order := rfl

@[simp] theorem Managers.setNode_count (s : Managers) (r : Nat) (n : LockTableNode) :
    (s.setNode r n).global_execution_count = s.global_execution_count := rfl

@[simp] theorem Managers.setNode_files (s : Managers) (r : Nat) (n : LockTableNode) :
    (s.setNode r n).files = s.files := rfl

@[simp] theorem Managers.setNode_created (s : Managers) (r : Nat) (n : LockTableNode) :
    (s.setNode r n).created = s.created := rfl

@[simp] theorem Managers.setNode_conflict_lock (s : Managers) (r : Nat) (n : LockTableNode)
    (t : Nat) : (s.setNode r n).conflict_lock t = s.conflict_lock t := rfl

@[simp] theorem Managers.setNode_trx_lock_deque (s : Managers) (r : Nat) (n : LockTableNode)
    (t : Nat) : (s.setNode r n).trx_lock_deque t = s.trx_lock_deque t := rfl

@[simp] theorem Managers.setTrx_locks (s : Managers) (t : Nat) (n : TrxNode) :
    (s.setTrx t n).locks = s.locks := rfl

@[simp] theorem Managers.setTrx_lock_count (s : Managers) (t : Nat) (n : TrxNode) :
    (s.setTrx t n).lock_count = s.lock_count := rfl

@[simp] theorem Managers.setTrx_lock_table (s : Managers) (t : Nat) (n : TrxNode) :
    (s.setTrx t n).lock_table = s.lock_table := rfl

@[simp] theorem Managers.setTrx_pools (s : Managers) (t : Nat) (n : TrxNode) :
    (s.setTrx t n).pools = s.pools := rfl

@[simp] theorem Managers.setTrx_trx_node_table (s : Managers) (t : Nat) (n : TrxNode) :
    (s.setTrx t n).trx_node_table = Function.update s.trx_node_table t (some n) := rfl

@[simp] theorem Managers.setTrx_thread_number (s : Managers) (t : Nat) (n : TrxNode) :
    (s.setTrx t n).thread_number = s.thread_number := rfl

@[simp] theorem Managers.setTrx_last (s : Managers) (t : Nat) (n : TrxNode) :
    (s.setTrx t n).last_global_execution_order = s.last_global_execution_order := rfl

@[simp] theorem Managers.setTrx_count (s : Managers) (t : Nat) (n : TrxNode) :
    (s.setTrx t n).global_execution_count = s.global_execution_count := rfl

@[simp] theorem Managers.setTrx_files (s : Managers) (t : Nat) (n : TrxNode) :
    (s.setTrx t n).files = s.files := rfl

@[simp] theorem Managers.setTrx_created (s : Managers) (t : Nat) (n : TrxNode) :
    (s.setTrx t n).created = s.created := rfl

@[simp] theorem Managers.setConflict_locks (s : Managers) (t : Nat) (c : Option Nat) :
    (s.setConflict t c).locks = s.locks := by
  unfold Managers.setConflict; split <;> rfl

@[simp] theorem Managers.setConflict_lock_count (s : Managers) (t : Nat) (c : Option Nat) :
    (s.setConflict t c).lock_count = s.lock_count := by
  unfold Managers.setConflict; split <;> rfl

@[simp] theorem Managers.setConflict_lock_table (s : Managers) (t : Nat) (c : Option Nat) :
    (s.setConflict t c).lock_table = s.lock_table := by
  unfold Managers.setConflict; split <;> rfl

@[simp] theorem Managers.setConflict_pools (s : Managers) (t : Nat) (c : Option Nat) :
    (s.setConflict t c).pools = s.pools := by
  unfold Managers.setConflict; split <;> rfl

@[simp] theorem Managers.setConflict_thread_number (s : Managers) (t : Nat) (c : Option Nat) :
    (s.setConflict t c).thread_number = s.thread_number := by
  unfold Managers.setConflict; split <;> rfl

@[simp] theorem Managers.setConflict_last (s : Managers) (t : Nat) (c : Option Nat) :
    (s.setConflict t c).last_global_execution_order = s.last_global_execution_order := by
  unfold Managers.setConflict; split <;> rfl

@[simp] theorem Managers.setConflict_count (s : Managers) (t : Nat) (c : Option Nat) :
    (s.setConflict t c).global_execution_count = s.global_execution_count := by
  unfold Managers.setConflict; split <;> rfl

@[simp] theorem Managers.setConflict_files (s : Managers) (t : Nat) (c : Option Nat) :
    (s.setConflict t c).files = s.files := by
  unfold Managers.setConflict; split <;> rfl

@[simp] theorem Managers.setConflict_created (s : Managers) (t : Nat) (c : Option Nat) :
    (s.setConflict t c).created = s.created := by
  unfold Managers.setConflict; split <;> rfl

theorem Managers.setConflict_conflict_lock (s : Managers) (t : Nat) (c : Option Nat) (u : Nat) :
    (s.setConflict t c).conflict_lock u =
      if u = t then (if s.trx_node_table t = none then none else c) else s.conflict_lock u := by
  unfold Managers.setConflict Managers.conflict_lock
  cases h : s.trx_node_table t with
  | none =>
    by_cases hu : u = t
    · subst hu; simp [h]
    · simp [hu]
  | some node =>
    by_cases hu : u = t
    · subst hu; simp [Managers.setTrx]
    · simp [Managers.setTrx, Function.update_noteq hu, hu]

theorem Managers.setConflict_trx_lock_deque (s : Managers) (t : Nat) (c : Option Nat) (u : Nat) :
    (s.setConflict t c).trx_lock_deque u = s.trx_lock_deque u := by
  unfold Managers.setConflict Managers.trx_lock_deque
  cases h : s.trx_node_table t with
  | none => simp
  | some node =>
    by_cases hu : u = t
    · subst hu; simp [Managers.setTrx, h]
    · simp [Managers.setTrx, Function.update_noteq hu]

theorem Managers.setConflict_isSome (s : Managers) (t : Nat) (c : Option Nat) (u : Nat) :
    ((s.setConflict t c).trx_node_table u).isSome = (s.trx_node_table u).isSome := by
  unfold Managers.setConflict
  cases h : s.trx_node_table t with
  | none => simp
  | some node =>
    by_cases hu : u = t
    · subst hu; simp [Managers.setTrx, h]
    · simp [Managers.setTrx, Function.update_noteq hu]

theorem Managers.setConflict_thread_number_of (s : Managers) (t : Nat) (c : Option Nat) (u : Nat) :
    (s.setConflict t c).thread_number_of u = s.thread_number_of u := by
  unfold Managers.setConflict Managers.thread_number_of
  cases h : s.trx_node_table t with
  | none => simp
  | some node =>
    by_cases hu : u = t
    · subst hu; simp [Managers.setTrx, h]
    · simp [Managers.setTrx, Function.update_noteq hu]

/-- `GetTrxNode` does nothing for a thread that has its node. -/
theorem TrxManager.GetTrxNode_of_some (s : Managers) (t : Nat) (node : TrxNode)
    (h : s.trx_node_table t = some node) : TrxManager.GetTrxNode s t = s := by
  unfold TrxManager.GetTrxNode; rw [h]

@[simp] theorem Managers.create_locks (s : Managers) (N : Int) :
    (s.create N).locks = s.locks := rfl

@[simp] theorem Managers.create_lock_count (s : Managers) (N : Int) :
    (s.create N).lock_count = s.lock_count := rfl

@[simp] theorem Managers.create_lock_table (s : Managers) (N : Int) :
    (s.create N).lock_table = s.lock_table := rfl

@[simp] theorem Managers.create_pools (s : Managers) (N : Int) :
    (s.create N).pools = s.pools := rfl

@[simp] theorem Managers.create_trx_node_table (s : Managers) (N : Int) :
    (s.create N).trx_node_table = s.trx_node_table := rfl

@[simp] theorem Managers.create_thread_number (s : Managers) (N : Int) :
    (s.create N).thread_number = s.thread_number := rfl

@[simp] theorem Managers.create_last (s : Managers) (N : Int) :
    (s.create N).last_global_execution_order = s.last_global_execution_order := rfl

@[simp] theorem Managers.create_count (s : Managers) (N : Int) :
    (s.create N).global_execution_count = s.global_execution_count := rfl

@[simp] theorem Managers.create_files (s : Managers) (N : Int) :
    (s.create N).files = s.files := rfl

@[simp] theorem Managers.create_conflict_lock (s : Managers) (N : Int) (t : Nat) :
    (s.create N).conflict_lock t = s.conflict_lock t := rfl

@[simp] theorem Managers.create_trx_lock_deque (s : Managers) (N : Int) (t : Nat) :
    (s.create N).trx_lock_deque t = s.trx_lock_deque t := rfl

@[simp] theorem Managers.create_thread_number_of (s : Managers) (N : Int) (t : Nat) :
    (s.create N).thread_number_of t = s.thread_number_of t := rfl

@[simp] theorem Managers.create_created (s : Managers) (N : Int) :
    (s.create N).created N = true := by
  simp [Managers.create]

@[simp] theorem TrxManager.GetTrxNode_locks (s : Managers) (t : Nat) :
    (TrxManager.GetTrxNode s t).locks = s.locks := by
  unfold TrxManager.GetTrxNode; split <;> rfl

@[simp] theorem TrxManager.GetTrxNode_lock_count (s : Managers) (t : Nat) :
    (TrxManager.GetTrxNode s t).lock_count = s.lock_count := by
  unfold TrxManager.GetTrxNode; split <;> rfl

@[simp] theorem TrxManager.GetTrxNode_lock_table (s : Managers) (t : Nat) :
    (TrxManager.GetTrxNode s t).lock_table = s.lock_table := by
  unfold TrxManager.GetTrxNode; split <;> rfl

@[simp] theorem TrxManager.GetTrxNode_pools (s : Managers) (t : Nat) :
    (TrxManager.GetTrxNode s t).pools = s.pools := by
  unfold TrxManager.GetTrxNode; split <;> rfl

@[simp] theorem TrxManager.GetTrxNode_last (s : Managers) (t : Nat) :
    (TrxManager.GetTrxNode s t).last_global_execution_order = s.last_global_execution_order := by
  unfold TrxManager.GetTrxNode; split <;> rfl

@[simp] theorem TrxManager.GetTrxNode_count (s : Managers) (t : Nat) :
    (TrxManager.GetTrxNode s t).global_execution_count = s.global_execution_count := by
  unfold TrxManager.GetTrxNode; split <;> rfl

@[simp] theorem TrxManager.GetTrxNode_files (s : Managers) (t : Nat) :
    (TrxManager.GetTrxNode s t).files = s.files := by
  unfold TrxManager.GetTrxNode; split <;> rfl

@[simp] theorem TrxManager.GetTrxNode_created (s : Managers) (t : Nat) :
    (TrxManager.GetTrxNode s t).created = s.created := by
  unfold TrxManager.GetTrxNode; split <;> rfl

theorem TrxManager.GetTrxNode_isSome (s : Managers) (t : Nat) :
    ((TrxManager.GetTrxNode s t).trx_node_table t).isSome = true := by
  unfold TrxManager.GetTrxNode
  cases h : s.trx_node_table t with
  | none => simp
  | some node => simp [h]

theorem TrxManager.GetTrxNode_conflict_lock (s : Managers) (t u : Nat) :
    (TrxManager.GetTrxNode s t).conflict_lock u = s.conflict_lock u := by
  unfold TrxManager.GetTrxNode Managers.conflict_lock
  cases h : s.trx_node_table t with
  | none =>
    by_cases hu : u = t
    · subst hu; simp [h]
    · simp [Function.update_noteq hu]
  | some node => simp

theorem TrxManager.GetTrxNode_trx_lock_deque (s : Managers) (t u : Nat) :
    (TrxManager.GetTrxNode s t).trx_lock_deque u = s.trx_lock_deque u := by
  unfold TrxManager.GetTrxNode Managers.trx_lock_deque
  cases h : s.trx_node_table t with
  | none =>
    by_cases hu : u = t
    · subst hu; simp [h]
    · simp [Function.update_noteq hu]
  | some node => simp

theorem TrxManager.GetTrxNode_keeps (s : Managers) (t u : Nat) (node : TrxNode)
    (h : s.trx_node_table u = some node) :
    (TrxManager.GetTrxNode s t).trx_node_table u = some node := by
  unfold TrxManager.GetTrxNode
  cases ht : s.trx_node_table t with
  | none =>
    have hu : u ≠ t := by rintro rfl; rw [ht] at h; cases h
    simp [Function.update_noteq hu, h]
  | some n => simpa using h
/-! ## The lock manager: what a release leaves alone -/

theorem Managers.ReleaseFrame.refl (s : Managers) : s.ReleaseFrame s :=
  ⟨fun _ => rfl, fun _ => rfl, fun _ => rfl, fun _ => rfl, fun _ => rfl, fun _ => rfl,
    fun _ => rfl, rfl, rfl, fun _ => rfl, fun _ => rfl, fun _ => rfl, fun _ => rfl,
    fun _ _ h => h, rfl, rfl, rfl, rfl⟩

theorem Managers.ReleaseFrame.trans {s1 s2 s3 : Managers} (h1 : s1.ReleaseFrame s2)
    (h2 : s2.ReleaseFrame s3) : s1.ReleaseFrame s3 where
  record_id l := (h2.record_id l).trans (h1.record_id l)
  thread_id l := (h2.thread_id l).trans (h1.thread_id l)
  mode l := (h2.mode l).trans (h1.mode l)
  diff l := (h2.diff l).trans (h1.diff l)
  lock_id l := (h2.lock_id l).trans (h1.lock_id l)
  next l := (h2.next l).trans (h1.next l)
  id_pass l := (h2.id_pass l).trans (h1.id_pass l)
  lock_count := h2.lock_count.trans h1.lock_count
  pools := h2.pools.trans h1.pools
  record_value r := (h2.record_value r).trans (h1.record_value r)
  tail r := (h2.tail r).trans (h1.tail r)
  deque t := (h2.deque t).trans (h1.deque t)
  conflict t := (h2.conflict t).trans (h1.conflict t)
  trx t node h := h2.trx t node (h1.trx t node h)
  files := h2.files.trans h1.files
  count := h2.count.trans h1.count
  last := h2.last.trans h1.last
  created := h2.created.trans h1.created

/-- A store to the state or to a flag of a lock is within the frame of a release. -/
theorem Managers.ReleaseFrame.setLock (s : Managers) (l : Nat) (f : lock_t → lock_t)
    (hf : ∀ x, (f x).record_id = x.record_id ∧ (f x).thread_id = x.thread_id ∧
      (f x).mode = x.mode ∧ (f x).diff = x.diff ∧
      (f x).lock_id_on_record = x.lock_id_on_record ∧ (f x).next = x.next ∧
      (f x).id_pass_flag = x.id_pass_flag) :
    s.ReleaseFrame (s.setLock l f) := by
  have key : ∀ k, (s.setLock l f).locks k = s.locks k ∨ (s.setLock l f).locks k = f (s.locks k) := by
    intro k
    by_cases hk : k = l
    · subst hk; right; simp
    · left; simp [Function.update_noteq hk]
  refine ⟨?_, ?_, ?_, ?_, ?_, ?_, ?_, rfl, rfl, fun _ => rfl, fun _ => rfl, fun _ => rfl,
    fun _ => rfl, fun _ _ h => h, rfl, rfl, rfl, rfl⟩ <;> intro k <;>
    rcases key k with h | h <;> rw [h]
  · exact (hf _).1
  · exact (hf _).2.1
  · exact (hf _).2.2.1
  · exact (hf _).2.2.2.1
  · exact (hf _).2.2.2.2.1
  · exact (hf _).2.2.2.2.2.1
  · exact (hf _).2.2.2.2.2.2

/-- A store to the head of a record is within the frame of a release. -/
theorem Managers.ReleaseFrame.setHead (s : Managers) (r : Nat) (node : LockTableNode)
    (h : s.lock_table r = some node) (head : Option Nat) :
    s.ReleaseFrame (s.setNode r { node with head := head }) := by
  refine ⟨fun _ => rfl, fun _ => rfl, fun _ => rfl, fun _ => rfl, fun _ => rfl, fun _ => rfl,
    fun _ => rfl, rfl, rfl, ?_, ?_, fun _ => rfl, fun _ => rfl, fun _ _ h => h, rfl, rfl, rfl,
    rfl⟩
  · intro k
    by_cases hk : k = r
    · subst hk; simp [h]
    · simp [Function.update_noteq hk]
  · intro k
    by_cases hk : k = r
    · subst hk; simp [h]
    · simp [Function.update_noteq hk]

/-- `GetTrxNode` is within the frame of a release. -/
theorem Managers.ReleaseFrame.at_getTrxNode (s : Managers) (t : Nat) :
    s.ReleaseFrame (TrxManager.GetTrxNode s t) := by
  refine ⟨fun _ => by simp, fun _ => by simp, fun _ => by simp, fun _ => by simp,
    fun _ => by simp, fun _ => by simp, fun _ => by simp, by simp, by simp, fun _ => by simp,
    fun _ => by simp, fun u => TrxManager.GetTrxNode_trx_lock_deque s t u,
    fun u => TrxManager.GetTrxNode_conflict_lock s t u,
    fun u node h => TrxManager.GetTrxNode_keeps s t u node h, by simp, by simp, by simp,
    by simp⟩

theorem LockManager.moveHead_frame (record_id : Nat) :
    ∀ (fuel prev : Nat) (s : Managers) (r : Option Nat × Managers),
      LockManager.moveHead record_id fuel prev s = some r → s.ReleaseFrame r.2 := by
  intro fuel
  induction fuel with
  | zero => intro prev s r h; simp [LockManager.moveHead] at h
  | succ fuel ih =>
    intro prev s r h
    unfold LockManager.moveHead at h
    cases hn : (s.locks prev).next with
    | none =>
      rw [hn] at h
      simp only [Option.some.injEq] at h
      subst h
      exact Managers.ReleaseFrame.refl s
    | some target =>
      rw [hn] at h
      simp only at h
      cases hnode : s.lock_table record_id with
      | none => rw [hnode] at h; simp at h
      | some node =>
        rw [hnode] at h
        simp only [Option.some_bind] at h
        have hfr : s.ReleaseFrame ((s.setNode record_id { node with head := some target }).setLock
            prev lock_t.passHead) :=
          (Managers.ReleaseFrame.setHead s record_id node hnode (some target)).trans
            (Managers.ReleaseFrame.setLock _ prev lock_t.passHead
              (fun _ => ⟨rfl, rfl, rfl, rfl, rfl, rfl, rfl⟩))
        split at h
        · exact hfr.trans (ih _ _ _ h)
        · simp only [Option.some.injEq] at h
          subst h
          exact hfr

theorem LockManager.wakeShared_frame :
    ∀ (fuel : Nat) (target : Option Nat) (s s' : Managers),
      LockManager.wakeShared fuel target s = some s' → s.ReleaseFrame s' := by
  intro fuel
  induction fuel with
  | zero => intro target s s' h; simp [LockManager.wakeShared] at h
  | succ fuel ih =>
    intro target s s' h
    cases target with
    | none =>
      simp only [LockManager.wakeShared, Option.some.injEq] at h
      subst h
      exact Managers.ReleaseFrame.refl s
    | some target =>
      simp only [LockManager.wakeShared] at h
      split at h
      · exact ih _ _ _ h
      · split at h
        · simp only [Option.some.injEq] at h
          subst h
          exact Managers.ReleaseFrame.refl s
        · exact ((Managers.ReleaseFrame.at_getTrxNode s _).trans
            (Managers.ReleaseFrame.setLock _ target lock_t.signal
              (fun _ => ⟨rfl, rfl, rfl, rfl, rfl, rfl, rfl⟩))).trans (ih _ _ _ h)

theorem LockManager.wakeHead_frame (s s' : Managers) (new_head : Nat)
    (h : LockManager.wakeHead s new_head = some s') : s.ReleaseFrame s' := by
  unfold LockManager.wakeHead at h
  have h3 : s.ReleaseFrame ((TrxManager.GetTrxNode s (s.locks new_head).thread_id).setLock
      new_head lock_t.signal) :=
    (Managers.ReleaseFrame.at_getTrxNode s _).trans
      (Managers.ReleaseFrame.setLock _ _ lock_t.signal
        (fun _ => ⟨rfl, rfl, rfl, rfl, rfl, rfl, rfl⟩))
  split at h
  · exact h3.trans (LockManager.wakeShared_frame _ _ _ _ h)
  · simp only [Option.some.injEq] at h
    subst h
    exact h3

theorem LockManager.advance_frame (s s' : Managers) (record_id : Nat)
    (h : LockManager.advance s record_id = some s') : s.ReleaseFrame s' := by
  unfold LockManager.advance at h
  obtain ⟨head, -, h⟩ := Option.bind_eq_some.1 h
  split at h
  · simp only [Option.some.injEq] at h
    subst h
    exact Managers.ReleaseFrame.refl s
  · obtain ⟨r, hm, h⟩ := Option.bind_eq_some.1 h
    have h2 := LockManager.moveHead_frame _ _ _ _ _ hm
    cases hr : r.1 with
    | none =>
      rw [hr] at h
      simp only [Option.some.injEq] at h
      subst h
      exact h2
    | some new_head =>
      rw [hr] at h
      exact h2.trans (LockManager.wakeHead_frame _ _ _ h)

/-- `ReleaseLock` changes only states, flags and heads. -/
theorem LockManager.ReleaseLock_frame (s s' : Managers) (release_lock : Nat)
    (h : LockManager.ReleaseLock s release_lock = some s') : s.ReleaseFrame s' :=
  (Managers.ReleaseFrame.setLock s release_lock (lock_t.withState lock_t.State.OBSOLETE)
    (fun _ => ⟨rfl, rfl, rfl, rfl, rfl, rfl, rfl⟩)).trans (LockManager.advance_frame _ _ _ h)
/-! ## The lock manager: the commit log -/

theorem TrxManager.fold_words {α : Type} (g : α → String) :
    ∀ (l : List α) (acc : String),
      l.foldl (fun out x => out ++ " " ++ g x) acc =
        acc ++ l.foldl (fun out x => out ++ " " ++ g x) "" := by
  intro l
  induction l with
  | nil => intro acc; simp
  | cons a l ih =>
    intro acc
    simp only [List.foldl_cons]
    rw [ih (acc ++ " " ++ g a), ih ("" ++ " " ++ g a)]
    simp [String.append_assoc]

theorem TrxManager.intercalate_go (l : List String) :
    ∀ acc : String, String.intercalate.go acc " " l =
      acc ++ l.foldl (fun out x => out ++ " " ++ x) "" := by
  induction l with
  | nil => intro acc; simp [String.intercalate.go]
  | cons a l ih =>
    intro acc
    simp only [String.intercalate.go, List.foldl_cons]
    rw [ih, TrxManager.fold_words (fun x => x) l ("" ++ " " ++ a)]
    simp [String.append_assoc]

/-- The text of a commit log is its numbers in decimal, separated by single spaces, and a
newline. -/
theorem TrxManager.commitLog_eq (commit_id : Int) (ids : List Nat) (values : List Int) :
    TrxManager.commitLog commit_id ids values =
      " ".intercalate (toString commit_id :: (ids.map toString ++ values.map toString)) ++
        "\n" := by
  unfold TrxManager.commitLog
  simp only [String.intercalate, TrxManager.intercalate_go, List.foldl_append, List.foldl_map]
  rw [TrxManager.fold_words (fun x => toString x) values
    (ids.foldl (fun out x => out ++ " " ++ toString x) "")]
  simp [String.append_assoc]

/-- The loop of a commit within the cap queues the record id of every lock of the deque and
the value its record had when the loop began, and stays within the frame of a release. -/
theorem TrxManager.releaseAll_spec :
    ∀ (deque : List Nat) (s : Managers) (r : (List Nat × List Int) × Managers),
      TrxManager.releaseAll deque s = some r →
      r.1.1 = deque.map (fun lock => (s.locks lock).record_id) ∧
      List.Forall₂ (fun lock v => (s.lock_table (s.locks lock).record_id).map
        (fun node => node.record_value) = some v) deque r.1.2 ∧
      s.ReleaseFrame r.2 := by
  intro deque
  induction deque with
  | nil =>
    intro s r h
    simp only [TrxManager.releaseAll, Option.some.injEq] at h
    subst h
    exact ⟨rfl, List.Forall₂.nil, Managers.ReleaseFrame.refl s⟩
  | cons lock rest ih =>
    intro s r h
    simp only [TrxManager.releaseAll] at h
    obtain ⟨v, hv, h⟩ := Option.bind_eq_some.1 h
    obtain ⟨s1, hs1, h⟩ := Option.bind_eq_some.1 h
    obtain ⟨r1, hr1, h⟩ := Option.map_eq_some'.1 h
    subst h
    have hfr := LockManager.ReleaseLock_frame _ _ _ hs1
    obtain ⟨hids, hvals, hfr1⟩ := ih s1 r1 hr1
    refine ⟨?_, ?_, hfr.trans hfr1⟩
    · simp only [List.map_cons, hids]
      congr 1
      exact List.map_congr_left (fun l _ => hfr.record_id l)
    · refine List.Forall₂.cons ?_ ?_
      · unfold LockManager.GetRecord at hv
        split at hv
        · cases hv
        · exact hv
      · refine List.Forall₂.imp ?_ hvals
        intro l w hw
        rw [← hw, hfr.record_id l, hfr.record_value]

/-- A commit within the cap (`global_execution_count + 1 <= last_global_execution_order`)
of a transaction whose deque holds `k` locks appends to the file of the thread one line: the
commit id, the `k` record ids of the deque in the order of acquisition, and `k` values, the
values the records of these locks have when `Commit` is called, in the same order; the
numbers are separated by single spaces and the line ends with one newline.  No other file
changes. -/
theorem TrxManager.Commit_line_spec (s : Managers) (thread_id : Nat) (r : Int × Managers)
    (hcap : s.global_execution_count + 1 ≤ s.last_global_execution_order)
    (h : TrxManager.Commit s thread_id = some r) :
    r.1 = s.global_execution_count + 1 ∧
    ∃ values : List Int,
      List.Forall₂ (fun lock v => (s.lock_table (s.locks lock).record_id).map
        (fun node => node.record_value) = some v) (s.trx_lock_deque thread_id) values ∧
      r.2.files ((TrxManager.GetTrxNode s thread_id).thread_number_of thread_id) =
        s.files ((TrxManager.GetTrxNode s thread_id).thread_number_of thread_id) ++
          (" ".intercalate (toString r.1 ::
            ((s.trx_lock_deque thread_id).map (fun lock => toString (s.locks lock).record_id) ++
              values.map toString)) ++ "\n") ∧
      ∀ N, N ≠ (TrxManager.GetTrxNode s thread_id).thread_number_of thread_id →
        r.2.files N = s.files N := by
  unfold TrxManager.Commit at h
  split at h
  · rw [if_neg (not_lt.2 hcap)] at h
    obtain ⟨q, hq, h⟩ := Option.map_eq_some'.1 h
    obtain ⟨hids, hvals, hfr⟩ := TrxManager.releaseAll_spec _ _ _ hq
    rw [TrxManager.GetTrxNode_trx_lock_deque] at hids hvals
    have hf : q.2.files = s.files := by
      rw [hfr.files]; simp [Managers.setCount, TrxManager.openLog]
    have h1 : r.1 = s.global_execution_count + 1 := by rw [← h]
    have h2 : r.2.files = Function.update s.files
        ((TrxManager.GetTrxNode s thread_id).thread_number_of thread_id)
        (s.files ((TrxManager.GetTrxNode s thread_id).thread_number_of thread_id) ++
          TrxManager.commitLog (s.global_execution_count + 1) q.1.1 q.1.2) := by
      rw [← h]; simp only [Managers.append]; rw [hf]
    refine ⟨h1, q.1.2, ?_, ?_, ?_⟩
    · simpa [Managers.setCount, TrxManager.openLog, Managers.create] using hvals
    · rw [h2, h1, TrxManager.commitLog_eq, hids]
      simp [List.map_map, Function.comp_def, Managers.setCount, TrxManager.openLog,
        Managers.create]
    · intro N hN
      rw [h2]
      exact Function.update_noteq hN _ _
  · cases h

/-- The line written by the commit of thread 7 after its find, evaluated. -/
theorem TrxManager.Commit_line_example :
    (TrxManager.Commit Managers.afterFind 7).map (fun r => (r.1, r.2.files 1)) =
      some (1, "1 2 100\n") := by
  decide
/-! ## The lock manager: insertion of a new lock -/

theorem Managers.setConflict_of_some (s : Managers) (t : Nat) (c : Option Nat) (node : TrxNode)
    (h : s.trx_node_table t = some node) :
    s.setConflict t c = s.setTrx t { node with conflict_lock := c } := by
  unfold Managers.setConflict; rw [h]

theorem Managers.conflict_lock_of_some (s : Managers) (t : Nat) (node : TrxNode)
    (h : s.trx_node_table t = some node) : s.conflict_lock t = node.conflict_lock := by
  unfold Managers.conflict_lock; rw [h]; rfl

set_option maxHeartbeats 400000 in
/-- Lines 90-139 of `AcquireLock` on a well-formed list: the new lock is linked behind the
tail, or becomes the head of an empty list. -/
theorem LockManager.linkLock_spec (s sa : Managers) (r t n : Nat) (L0 : lock_t)
    (chain : List Nat) (tn : TrxNode)
    (hlocks : sa.locks = Function.update s.locks n L0)
    (htable : sa.lock_table = s.lock_table)
    (htrxt : sa.trx_node_table = s.trx_node_table)
    (hq : s.IsQueue r chain) (hn : n ∉ chain)
    (htrx : s.trx_node_table t = some tn) (hconf : tn.conflict_lock = none)
    (hid : ∀ tl, chain.getLast? = some tl → (s.locks tl).lock_id_on_record ≠ LOCK_ID_MAX) :
    ∃ s1 id, LockManager.linkLock sa r t n = some s1 ∧
      s1.locks n = lock_t.withId id L0 ∧
      (chain = [] → id = 0) ∧
      (∀ tl, chain.getLast? = some tl → id = (s.locks tl).lock_id_on_record + 1) ∧
      (∀ tl, chain.getLast? = some tl →
        s1.locks tl = lock_t.passId (lock_t.withNext (some n) (s.locks tl))) ∧
      (∀ l, l ≠ n → chain.getLast? ≠ some l → s1.locks l = s.locks l) ∧
      s1.lock_count = sa.lock_count ∧
      (∃ node, s.lock_table r = some node ∧
        s1.lock_table r = some { node with tail := some n,
                                           head := if chain = [] then some n else node.head }) ∧
      (∀ r', r' ≠ r → s1.lock_table r' = s.lock_table r') ∧
      s1.trx_node_table t = some { tn with
        trx_lock_deque := tn.trx_lock_deque ++ [n], conflict_lock := some n } ∧
      (∀ t', t' ≠ t → s1.trx_node_table t' = s.trx_node_table t') ∧
      s1.pools = sa.pools ∧ s1.thread_number = sa.thread_number ∧ s1.files = sa.files ∧
      s1.global_execution_count = sa.global_execution_count ∧
      s1.last_global_execution_order = sa.last_global_execution_order := by
  obtain ⟨node, hnode, hhead, htail⟩ := hq.ends
  unfold LockManager.linkLock
  rw [htable, hnode, htrxt, htrx]
  simp only [Option.some_bind]
  rcases List.eq_nil_or_concat chain with hc | ⟨L, tl, hc⟩
  · subst hc
    simp only [List.getLast?_nil] at htail
    rw [htail]
    simp only [Option.some_bind]
    have hcl : Managers.conflict_lock
        ((((sa.setTrx t { tn with trx_lock_deque := tn.trx_lock_deque ++ [n] }).setNode r
          { node with tail := some n }).setLock n (lock_t.withId 0)).setNode r
            { node with tail := some n, head := some n }) t = none := by
      rw [Managers.conflict_lock_of_some _ t
        { tn with trx_lock_deque := tn.trx_lock_deque ++ [n] } (by simp)]
      exact hconf
    rw [if_pos hcl]
    rw [Managers.setConflict_of_some _ t _
        { tn with trx_lock_deque := tn.trx_lock_deque ++ [n] } (by simp)]
    refine ⟨_, 0, rfl, ?_, fun _ => rfl, ?_, ?_, ?_, rfl, ⟨node, rfl, ?_⟩, ?_, ?_, ?_, rfl, rfl,
      rfl, rfl, rfl⟩
    · simp [hlocks]
    · intro tl h; simp at h
    · intro tl h; simp at h
    · intro l hl _
      simp [hlocks, Function.update_noteq hl]
    · simp
    · intro r' hr'
      simp [Function.update_noteq hr', htable]
    · simp
    · intro t' ht'
      simp [Function.update_noteq ht', htrxt]
  · have hc' : chain = L ++ [tl] := by simpa using hc
    subst hc'
    have hlast : (L ++ [tl]).getLast? = some tl := by simp
    have htlmem : tl ∈ L ++ [tl] := by simp
    have htln : tl ≠ n := fun h => hn (h ▸ htlmem)
    have hne : L ++ [tl] ≠ [] := by simp
    rw [hlast] at htail
    rw [htail]
    simp only
    have hidtl := hid tl hlast
    have hheadne : node.head ≠ none := by
      rw [hhead]; cases L <;> simp
    have hpass := (hq.last tl hlast).2
    have e1 : (((sa.setTrx t { tn with trx_lock_deque := tn.trx_lock_deque ++ [n] }).setNode r
        { node with tail := some n }).setLock tl (lock_t.withNext (some n))).locks tl =
        lock_t.withNext (some n) (s.locks tl) := by
      simp [hlocks, Function.update_noteq htln]
    rw [e1]
    have e2 : ¬ ((lock_t.withNext (some n) (s.locks tl)).lock_id_on_record = LOCK_ID_MAX ∨
        node.head = none) := by
      rintro (h | h)
      · exact hidtl h
      · exact hheadne h
    rw [if_neg e2]
    have e3 : ((((sa.setTrx t { tn with trx_lock_deque := tn.trx_lock_deque ++ [n] }).setNode r
        { node with tail := some n }).setLock tl (lock_t.withNext (some n))).setLock n
          (lock_t.withId ((lock_t.withNext (some n) (s.locks tl)).lock_id_on_record + 1))).locks
            tl = lock_t.withNext (some n) (s.locks tl) := by
      simp [hlocks, Function.update_noteq htln]
    rw [e3]
    have e4 : ¬ ((lock_t.withNext (some n) (s.locks tl)).id_pass_flag = true) := by
      show ¬ ((s.locks tl).id_pass_flag = true)
      rw [hpass]; simp
    rw [if_neg e4]
    simp only [Option.some_bind]
    have hcl : Managers.conflict_lock
        (((((sa.setTrx t { tn with trx_lock_deque := tn.trx_lock_deque ++ [n] }).setNode r
          { node with tail := some n }).setLock tl (lock_t.withNext (some n))).setLock n
            (lock_t.withId ((lock_t.withNext (some n) (s.locks tl)).lock_id_on_record + 1))).setLock
              tl lock_t.passId) t = none := by
      rw [Managers.conflict_lock_of_some _ t
        { tn with trx_lock_deque := tn.trx_lock_deque ++ [n] } (by simp)]
      exact hconf
    rw [if_pos hcl]
    rw [Managers.setConflict_of_some _ t _
        { tn with trx_lock_deque := tn.trx_lock_deque ++ [n] } (by simp)]
    refine ⟨_, (s.locks tl).lock_id_on_record + 1, rfl, ?_, fun h => absurd h hne, ?_, ?_, ?_,
      rfl, ⟨node, rfl, ?_⟩, ?_, ?_, ?_, rfl, rfl, rfl, rfl, rfl⟩
    · simp [hlocks, Function.update_noteq htln, Function.update_noteq htln.symm]
      rfl
    · intro tl' h
      rw [hlast] at h
      cases h; rfl
    · intro tl' h
      rw [hlast] at h
      cases h
      simp [hlocks, Function.update_noteq htln, Function.update_noteq htln.symm]
    · intro l hl hl'
      have hltl : l ≠ tl := fun h => hl' (h ▸ hlast)
      simp [hlocks, Function.update_noteq hl, Function.update_noteq hltl]
    · simp [hne]
    · intro r' hr'
      simp [Function.update_noteq hr', htable]
    · simp
    · intro t' ht'
      simp [Function.update_noteq ht', htrxt]

theorem lock_t.recycle_eq_create (l : lock_t) (mode : lock_t.Mode) (r t : Nat)
    (hr : l.record_id = r) (ht : l.thread_id = t) :
    lock_t.withMode mode (lock_t.recycle l) = lock_t.withMode mode (lock_t.create r t) := by
  cases l
  simp only [lock_t.withMode, lock_t.recycle, lock_t.create] at *
  subst hr; subst ht; rfl

/-- A lock free to be taken is in no list. -/
theorem Managers.Fresh.not_mem {s : Managers} {n r : Nat} {chain : List Nat}
    (hf : s.Fresh n) (hq : s.IsQueue r chain) : n ∉ chain := by
  intro hmem
  obtain ⟨hlt, -, hpass⟩ := hq.members n hmem
  rcases hf with h | ⟨-, h⟩
  · omega
  · rw [hpass] at h; cases h

set_option maxHeartbeats 400000 in
/-- Lines 45-139 of `AcquireLock` on a well-formed list: a free lock is taken (recycled or
allocated) and put at the end of the list. -/
theorem LockManager.insert_spec (s : Managers) (mode : lock_t.Mode) (r t : Nat)
    (chain : List Nat) (tn : TrxNode)
    (hpools : ∀ t r, ∀ p ∈ s.pools t r,
      p < s.lock_count ∧ (s.locks p).thread_id = t ∧ (s.locks p).record_id = r)
    (hq : s.IsQueue r chain)
    (htrx : s.trx_node_table t = some tn) (hconf : tn.conflict_lock = none)
    (hid : ∀ tl, chain.getLast? = some tl → (s.locks tl).lock_id_on_record ≠ LOCK_ID_MAX) :
    ∃ s1 id, LockManager.linkLock (LockManager.takeLock s mode r t).2 r t
        (LockManager.takeLock s mode r t).1 = some s1 ∧
      s.Inserted s1 mode r t (LockManager.takeLock s mode r t).1 id chain := by
  cases hfind : (s.pools t r).find? (fun p => (s.locks p).recyclable) with
  | some p =>
    have htake : LockManager.takeLock s mode r t =
        (p, (s.setLock p lock_t.recycle).setLock p (lock_t.withMode mode)) := by
      unfold LockManager.takeLock; rw [hfind]
    have hmem : p ∈ s.pools t r := List.mem_of_find?_eq_some hfind
    have hrec : (s.locks p).recyclable = true := by
      have := List.find?_some hfind
      simpa using this
    obtain ⟨hplt, hpt, hpr⟩ := hpools t r p hmem
    have hfresh : s.Fresh p := by
      right
      unfold lock_t.recyclable at hrec
      simp only [Bool.and_eq_true, decide_eq_true_eq] at hrec
      exact ⟨hrec.1.1, hrec.2⟩
    rw [htake]
    obtain ⟨s1, id, hlink, h1, h2, h3, h4, h5, h6, h7, h8, h9, h10, h11, h12, h13, h14, h15⟩ :=
      LockManager.linkLock_spec s ((s.setLock p lock_t.recycle).setLock p (lock_t.withMode mode))
        r t p (lock_t.withMode mode (lock_t.create r t)) chain tn
        (by
          simp only [Managers.setLock_locks, Function.update_same, Function.update_idem]
          rw [lock_t.recycle_eq_create _ mode r t hpr hpt])
        rfl rfl hq (hfresh.not_mem hq) htrx hconf hid
    refine ⟨s1, id, hlink, ?_⟩
    exact
      { fresh := hfresh, recycled := fun _ => ⟨hpt, hpr⟩,
        new_lock := h1, id_first := h2, id_next := h3, prev_tail := h4,
        other_locks := h5, count_lt := by rw [h6]; exact hplt,
        count_le := by rw [h6]; exact le_refl _,
        count_new := fun l hl => Or.inl (by rw [h6] at hl; exact hl),
        node := h7, other_nodes := h8, trx := ⟨tn, htrx, h9⟩, other_trx := h10,
        pools := fun t' r' q hq' => Or.inl (by rw [h11] at hq'; exact hq'),
        thread_number := h12, files := h13, count := h14, cap := h15 }
  | none =>
    have htake : LockManager.takeLock s mode r t =
        (s.lock_count,
          { s with
            locks := Function.update s.locks s.lock_count
              (lock_t.withMode mode (lock_t.create r t))
            lock_count := s.lock_count + 1
            pools := Function.update s.pools t
              (Function.update (s.pools t) r (s.pools t r ++ [s.lock_count])) }) := by
      unfold LockManager.takeLock; rw [hfind]
    have hfresh : s.Fresh s.lock_count := Or.inl (le_refl _)
    rw [htake]
    obtain ⟨s1, id, hlink, h1, h2, h3, h4, h5, h6, h7, h8, h9, h10, h11, h12, h13, h14, h15⟩ :=
      LockManager.linkLock_spec s
        { s with
            locks := Function.update s.locks s.lock_count
              (lock_t.withMode mode (lock_t.create r t))
            lock_count := s.lock_count + 1
            pools := Function.update s.pools t
              (Function.update (s.pools t) r (s.pools t r ++ [s.lock_count])) }
        r t s.lock_count (lock_t.withMode mode (lock_t.create r t)) chain tn
        rfl rfl rfl hq (hfresh.not_mem hq) htrx hconf hid
    refine ⟨s1, id, hlink, ?_⟩
    exact
      { fresh := hfresh, recycled := fun hlt => absurd hlt (Nat.lt_irrefl _),
        new_lock := h1, id_first := h2, id_next := h3, prev_tail := h4,
        other_locks := h5, count_lt := by rw [h6]; exact Nat.lt_succ_self _,
        count_le := by rw [h6]; exact Nat.le_succ _,
        count_new := fun l hl => by
          rw [h6] at hl
          have hl' : l < s.lock_count + 1 := hl
          omega,
        node := h7, other_nodes := h8, trx := ⟨tn, htrx, h9⟩, other_trx := h10,
        pools := fun t' r' q hq' => by
          rw [h11] at hq'
          by_cases ht : t' = t
          · subst ht
            by_cases hr : r' = r
            · subst hr
              simp only [Function.update_same, List.mem_append, List.mem_singleton] at hq'
              rcases hq' with h | h
              · exact Or.inl h
              · exact Or.inr ⟨h, rfl, rfl⟩
            · simp only [Function.update_same, Function.update_noteq hr] at hq'
              exact Or.inl hq'
          · simp only [Function.update_noteq ht] at hq'
            exact Or.inl hq',
        thread_number := h12, files := h13, count := h14, cap := h15 }

/-- The insertion of a lock leaves every other lock as it was, but for the `next` pointer and
the id flag of the previous tail. -/
theorem Managers.Inserted.old {s s1 : Managers} {mode : lock_t.Mode} {r t n id : Nat}
    {chain : List Nat} (h : s.Inserted s1 mode r t n id chain) (l : Nat) (hl : l ≠ n) :
    (s1.locks l).state = (s.locks l).state ∧ (s1.locks l).mode = (s.locks l).mode ∧
    (s1.locks l).signal_flag = (s.locks l).signal_flag ∧
    (s1.locks l).thread_id = (s.locks l).thread_id ∧
    (s1.locks l).record_id = (s.locks l).record_id ∧
    (s1.locks l).head_pass_flag = (s.locks l).head_pass_flag ∧
    (s1.locks l).lock_id_on_record = (s.locks l).lock_id_on_record ∧
    (s1.locks l).diff = (s.locks l).diff := by
  by_cases hlast : chain.getLast? = some l
  · rw [h.prev_tail l hlast]
    exact ⟨rfl, rfl, rfl, rfl, rfl, rfl, rfl, rfl⟩
  · rw [h.other_locks l hl hlast]
    exact ⟨rfl, rfl, rfl, rfl, rfl, rfl, rfl, rfl⟩

/-- The members of the new lock after its insertion. -/
theorem Managers.Inserted.new {s s1 : Managers} {mode : lock_t.Mode} {r t n id : Nat}
    {chain : List Nat} (h : s.Inserted s1 mode r t n id chain) :
    (s1.locks n).state = lock_t.State.ACTIVE ∧ (s1.locks n).mode = mode ∧
    (s1.locks n).signal_flag = false ∧ (s1.locks n).thread_id = t ∧
    (s1.locks n).record_id = r ∧ (s1.locks n).head_pass_flag = false ∧
    (s1.locks n).lock_id_on_record = id ∧ (s1.locks n).next = none ∧
    (s1.locks n).id_pass_flag = false ∧ (s1.locks n).diff = 0 := by
  rw [h.new_lock]
  exact ⟨rfl, rfl, rfl, rfl, rfl, rfl, rfl, rfl, rfl, rfl⟩

/-- A lock of a list with a successor is not the last lock of the list. -/
theorem Managers.IsQueue.not_last {s : Managers} {r : Nat} {chain : List Nat}
    (hq : s.IsQueue r chain) {a b : Nat} (hab : s.linked a b) : chain.getLast? ≠ some a := by
  intro h
  have := (hq.last a h).1
  rw [hab.1] at this
  cases this

/-- After the insertion the list of the record is the old list followed by the new lock. -/
theorem Managers.Inserted.queue {s s1 : Managers} {mode : lock_t.Mode} {r t n id : Nat}
    {chain : List Nat} (h : s.Inserted s1 mode r t n id chain) (hq : s.IsQueue r chain) :
    s1.IsQueue r (chain ++ [n]) := by
  have hn : n ∉ chain := h.fresh.not_mem hq
  obtain ⟨node, hnode, hhead, htail⟩ := hq.ends
  obtain ⟨node', hnode', hnode1⟩ := h.node
  rw [hnode] at hnode'
  cases hnode'
  have hnew := h.new
  refine ⟨⟨_, hnode1, ?_, by simp⟩, ?_, ?_, ?_, ?_, ?_, ?_⟩
  · cases chain with
    | nil => simp
    | cons a rest => simpa using hhead
  · rw [List.chain'_append]
    refine ⟨?_, List.chain'_singleton n, ?_⟩
    · refine List.Chain'.imp ?_ (List.Chain'.iff_mem.1 hq.links)
      rintro a b ⟨ha, hb, hab⟩
      have ha1 : a ≠ n := fun e => hn (e ▸ ha)
      have hb1 : b ≠ n := fun e => hn (e ▸ hb)
      have hsame : s1.locks a = s.locks a := h.other_locks a ha1 (hq.not_last hab)
      refine ⟨?_, ?_, ?_⟩
      · rw [hsame]; exact hab.1
      · rw [hsame, (h.old b hb1).2.2.2.2.2.2.1]; exact hab.2.1
      · rw [hsame]; exact hab.2.2
    · intro tl htl y hy
      simp only [List.head?_cons, Option.mem_def, Option.some.injEq] at hy
      subst hy
      have htl' : chain.getLast? = some tl := htl
      refine ⟨?_, ?_, ?_⟩
      · rw [h.prev_tail tl htl']; rfl
      · rw [hnew.2.2.2.2.2.2.1, h.id_next tl htl', h.prev_tail tl htl']; rfl
      · rw [h.prev_tail tl htl']; rfl
  · rw [List.nodup_append]
    refine ⟨hq.nodup, List.nodup_singleton n, ?_⟩
    intro x hx hx'
    simp only [List.mem_singleton] at hx'
    exact hn (hx' ▸ hx)
  · intro l hl
    have hlast : (chain ++ [n]).getLast? = some n := by simp
    rw [hlast] at hl
    cases hl
    exact ⟨hnew.2.2.2.2.2.2.2.1, hnew.2.2.2.2.2.2.2.2.1⟩
  · intro l hl
    rw [List.mem_append, List.mem_singleton] at hl
    rcases hl with hl | hl
    · have hl1 : l ≠ n := fun e => hn (e ▸ hl)
      obtain ⟨h1, h2, h3⟩ := hq.members l hl
      have ho := h.old l hl1
      exact ⟨lt_of_lt_of_le h1 h.count_le, by rw [ho.2.2.2.2.1]; exact h2,
        by rw [ho.2.2.2.2.2.1]; exact h3⟩
    · subst hl
      exact ⟨h.count_lt, hnew.2.2.2.2.1, hnew.2.2.2.2.2.1⟩
  · intro l hlt hrec hnot
    rw [List.mem_append, List.mem_singleton, not_or] at hnot
    have ho := h.old l hnot.2
    rw [ho.1]
    rw [ho.2.2.2.2.1] at hrec
    rcases h.count_new l hlt with h1 | h1
    · exact hq.others l h1 hrec hnot.1
    · exact absurd h1 hnot.2
  · intro l _ _
    simp

/-- The insertion of a lock leaves the lists of the other records as they were. -/
theorem Managers.Inserted.other_queue {s s1 : Managers} {mode : lock_t.Mode} {r t n id : Nat}
    {chain : List Nat} (h : s.Inserted s1 mode r t n id chain) (hq : s.IsQueue r chain)
    {r' : Nat} (hr : r' ≠ r) {chain' : List Nat} (hq' : s.IsQueue r' chain') :
    s1.IsQueue r' chain' ∧ ∀ l ∈ chain', s1.locks l = s.locks l := by
  have hn : n ∉ chain' := h.fresh.not_mem hq'
  have hsame : ∀ l ∈ chain', s1.locks l = s.locks l := by
    intro l hl
    refine h.other_locks l (fun e => hn (e ▸ hl)) ?_
    intro hlast
    have hmem : l ∈ chain := by
      obtain ⟨ys, hys⟩ := List.getLast?_eq_some_iff.1 hlast
      rw [hys]; simp
    have h1 := (hq.members l hmem).2.1
    have h2 := (hq'.members l hl).2.1
    exact hr (h2.symm.trans h1)
  obtain ⟨node, hnode, hhead, htail⟩ := hq'.ends
  refine ⟨⟨⟨node, by rw [h.other_nodes r' hr]; exact hnode, hhead, htail⟩, ?_, hq'.nodup, ?_, ?_,
    ?_, ?_⟩, hsame⟩
  · refine List.Chain'.imp ?_ (List.Chain'.iff_mem.1 hq'.links)
    rintro a b ⟨ha, hb, hab⟩
    unfold Managers.linked
    rw [hsame a ha, hsame b hb]
    exact hab
  · intro l hl
    have hmem : l ∈ chain' := by
      obtain ⟨ys, hys⟩ := List.getLast?_eq_some_iff.1 hl
      rw [hys]; simp
    rw [hsame l hmem]
    exact hq'.last l hl
  · intro l hl
    rw [hsame l hl]
    obtain ⟨h1, h2, h3⟩ := hq'.members l hl
    exact ⟨lt_of_lt_of_le h1 h.count_le, h2, h3⟩
  · intro l hlt hrec hnot
    have hln : l ≠ n := by
      rintro rfl
      rw [h.new.2.2.2.2.1] at hrec
      exact hr hrec.symm
    have ho := h.old l hln
    rw [ho.1]
    rw [ho.2.2.2.2.1] at hrec
    rcases h.count_new l hlt with h1 | h1
    · exact hq'.others l h1 hrec hnot
    · exact absurd h1 hln
  · intro l hlt hrec
    have hln : l ≠ n := by
      rintro rfl
      rw [h.new.2.2.2.2.1] at hrec
      exact hr hrec.symm
    have ho := h.old l hln
    rw [ho.2.2.2.2.1] at hrec
    rcases h.count_new l hlt with h1 | h1
    · exact hq'.nonempty l h1 hrec
    · exact absurd h1 hln

/-- The grants along a list depend only on the state, the mode and the signal of its
locks. -/
theorem Managers.Granting.congr {s s' : Managers} {chain : List Nat}
    (h : ∀ l ∈ chain, (s'.locks l).state = (s.locks l).state ∧
      (s'.locks l).mode = (s.locks l).mode ∧
      (s'.locks l).signal_flag = (s.locks l).signal_flag)
    (hg : s.Granting chain) : s'.Granting chain := by
  intro pre l post hc hst
  have hl : l ∈ chain := by rw [hc]; simp
  obtain ⟨h1, h2, h3⟩ := h l hl
  rw [h1] at hst
  have key := hg pre l post hc hst
  have hgr : (s'.locks l).granted ↔ (s.locks l).granted := by
    unfold lock_t.granted; rw [h1, h3]
  rw [hgr, key]
  constructor
  · intro hk p hp hps
    have hpm : p ∈ chain := by rw [hc]; simp [hp]
    obtain ⟨g1, g2, -⟩ := h p hpm
    rw [g1] at hps
    have := hk p hp hps
    unfold lock_t.conflicts at this ⊢
    rw [g2, h2]; exact this
  · intro hk p hp hps
    have hpm : p ∈ chain := by rw [hc]; simp [hp]
    obtain ⟨g1, g2, -⟩ := h p hpm
    rw [← g1] at hps
    have := hk p hp hps
    unfold lock_t.conflicts at this ⊢
    rw [g2, h2] at this; exact this

/-- A list stays the list of its record when only states and signals change, and no lock
outside the list leaves the state OBSOLETE. -/
theorem Managers.IsQueue.congr_locks {s s' : Managers} {r : Nat} {chain : List Nat}
    (hq : s.IsQueue r chain)
    (htable : s'.lock_table r = s.lock_table r) (hcount : s'.lock_count = s.lock_count)
    (hlocks : ∀ l, (s'.locks l).next = (s.locks l).next ∧
      (s'.locks l).lock_id_on_record = (s.locks l).lock_id_on_record ∧
      (s'.locks l).id_pass_flag = (s.locks l).id_pass_flag ∧
      (s'.locks l).head_pass_flag = (s.locks l).head_pass_flag ∧
      (s'.locks l).record_id = (s.locks l).record_id)
    (hstate : ∀ l, l ∉ chain → (s.locks l).state = lock_t.State.OBSOLETE →
      (s'.locks l).state = lock_t.State.OBSOLETE) : s'.IsQueue r chain := by
  refine ⟨by rw [htable]; exact hq.ends, ?_, hq.nodup, ?_, ?_, ?_, ?_⟩
  · refine List.Chain'.imp ?_ hq.links
    intro a b hab
    unfold Managers.linked
    rw [(hlocks a).1, (hlocks b).2.1, (hlocks a).2.1, (hlocks a).2.2.1]
    exact hab
  · intro l hl
    rw [(hlocks l).1, (hlocks l).2.2.1]
    exact hq.last l hl
  · intro l hl
    rw [hcount, (hlocks l).2.2.2.2, (hlocks l).2.2.2.1]
    exact hq.members l hl
  · intro l hlt hrec hnot
    rw [hcount] at hlt
    rw [(hlocks l).2.2.2.2] at hrec
    exact hstate l hnot (hq.others l hlt hrec hnot)
  · intro l hlt hrec
    rw [hcount] at hlt
    rw [(hlocks l).2.2.2.2] at hrec
    exact hq.nonempty l hlt hrec

/-- The two ways to split a list that ends with `n` around one of its members. -/
theorem List.concat_split {α : Type} {chain pre post : List α} {n l : α}
    (h : chain ++ [n] = pre ++ l :: post) :
    (post = [] ∧ l = n ∧ pre = chain) ∨ ∃ post', post = post' ++ [n] ∧ chain = pre ++ l :: post' := by
  rcases List.eq_nil_or_concat post with hp | ⟨post', b, hp⟩
  · subst hp
    left
    have h' : chain ++ [n] = pre ++ [l] := h
    have := List.append_inj' h' rfl
    exact ⟨rfl, (List.singleton_inj.1 this.2).symm, this.1.symm⟩
  · right
    have hp' : post = post' ++ [b] := by simpa using hp
    subst hp'
    have h' : chain ++ [n] = (pre ++ l :: post') ++ [b] := by simpa using h
    have := List.append_inj' h' rfl
    have hb : n = b := List.singleton_inj.1 this.2
    subst hb
    exact ⟨post', rfl, this.1⟩

/-! ## The lock manager: the invariant across `AcquireLock` -/

theorem Managers.decided_locks (s : Managers) (t n : Nat) (st : lock_t.State) (c : Option Nat)
    (l : Nat) : (s.decided t n st c).locks l =
      if l = n then lock_t.withState st (s.locks n) else s.locks l := by
  simp only [Managers.decided, Managers.setConflict_locks, Managers.setLock_locks,
    Function.update_apply]

theorem Managers.decided_locks_ne (s : Managers) (t n : Nat) (st : lock_t.State)
    (c : Option Nat) (l : Nat) (hl : l ≠ n) : (s.decided t n st c).locks l = s.locks l := by
  rw [Managers.decided_locks, if_neg hl]

theorem Managers.decided_locks_same (s : Managers) (t n : Nat) (st : lock_t.State)
    (c : Option Nat) : (s.decided t n st c).locks n = lock_t.withState st (s.locks n) := by
  rw [Managers.decided_locks, if_pos rfl]

/-- The decision on the new lock changes the state of this lock only. -/
theorem Managers.decided_fields (s : Managers) (t n : Nat) (st : lock_t.State) (c : Option Nat)
    (l : Nat) :
    ((s.decided t n st c).locks l).next = (s.locks l).next ∧
    ((s.decided t n st c).locks l).lock_id_on_record = (s.locks l).lock_id_on_record ∧
    ((s.decided t n st c).locks l).id_pass_flag = (s.locks l).id_pass_flag ∧
    ((s.decided t n st c).locks l).head_pass_flag = (s.locks l).head_pass_flag ∧
    ((s.decided t n st c).locks l).record_id = (s.locks l).record_id ∧
    ((s.decided t n st c).locks l).thread_id = (s.locks l).thread_id ∧
    ((s.decided t n st c).locks l).mode = (s.locks l).mode ∧
    ((s.decided t n st c).locks l).signal_flag = (s.locks l).signal_flag ∧
    ((s.decided t n st c).locks l).diff = (s.locks l).diff := by
  rw [Managers.decided_locks]
  split
  · rename_i e; subst e; exact ⟨rfl, rfl, rfl, rfl, rfl, rfl, rfl, rfl, rfl⟩
  · exact ⟨rfl, rfl, rfl, rfl, rfl, rfl, rfl, rfl, rfl⟩

@[simp] theorem Managers.decided_lock_count (s : Managers) (t n : Nat) (st : lock_t.State)
    (c : Option Nat) : (s.decided t n st c).lock_count = s.lock_count := by
  simp [Managers.decided]

@[simp] theorem Managers.decided_lock_table (s : Managers) (t n : Nat) (st : lock_t.State)
    (c : Option Nat) : (s.decided t n st c).lock_table = s.lock_table := by
  simp [Managers.decided]

@[simp] theorem Managers.decided_pools (s : Managers) (t n : Nat) (st : lock_t.State)
    (c : Option Nat) : (s.decided t n st c).pools = s.pools := by
  simp [Managers.decided]

@[simp] theorem Managers.decided_files (s : Managers) (t n : Nat) (st : lock_t.State)
    (c : Option Nat) : (s.decided t n st c).files = s.files := by
  simp [Managers.decided]

@[simp] theorem Managers.decided_count (s : Managers) (t n : Nat) (st : lock_t.State)
    (c : Option Nat) :
    (s.decided t n st c).global_execution_count = s.global_execution_count := by
  simp [Managers.decided]

@[simp] theorem Managers.decided_last (s : Managers) (t n : Nat) (st : lock_t.State)
    (c : Option Nat) :
    (s.decided t n st c).last_global_execution_order = s.last_global_execution_order := by
  simp [Managers.decided]

theorem Managers.decided_trx_lock_deque (s : Managers) (t n : Nat) (st : lock_t.State)
    (c : Option Nat) (u : Nat) :
    (s.decided t n st c).trx_lock_deque u = s.trx_lock_deque u := by
  unfold Managers.decided
  rw [Managers.setConflict_trx_lock_deque, Managers.setLock_trx_lock_deque]

theorem Managers.decided_isSome (s : Managers) (t n : Nat) (st : lock_t.State)
    (c : Option Nat) (u : Nat) :
    ((s.decided t n st c).trx_node_table u).isSome = (s.trx_node_table u).isSome := by
  unfold Managers.decided
  rw [Managers.setConflict_isSome, Managers.setLock_trx_node_table]

theorem Managers.decided_conflict_lock (s : Managers) (t n : Nat) (st : lock_t.State)
    (c : Option Nat) (u : Nat) (ht : (s.trx_node_table t).isSome = true) :
    (s.decided t n st c).conflict_lock u = if u = t then c else s.conflict_lock u := by
  unfold Managers.decided
  rw [Managers.setConflict_conflict_lock]
  by_cases hu : u = t
  · subst hu
    simp only [if_true, Managers.setLock_trx_node_table]
    have hne : s.trx_node_table u ≠ none := by
      intro h; rw [h] at ht; cases ht
    rw [if_neg hne]
  · simp only [if_neg hu, Managers.setLock_conflict_lock]

/-- The insertion keeps the thread and the record of every allocated lock. -/
theorem Managers.Inserted.ids {s s1 : Managers} {mode : lock_t.Mode} {r t n id : Nat}
    {chain : List Nat} (h : s.Inserted s1 mode r t n id chain) (l : Nat)
    (hl : l < s.lock_count) :
    (s1.locks l).thread_id = (s.locks l).thread_id ∧
    (s1.locks l).record_id = (s.locks l).record_id := by
  by_cases hln : l = n
  · subst hln
    obtain ⟨h1, h2⟩ := h.recycled hl
    exact ⟨by rw [h.new.2.2.2.1, h1], by rw [h.new.2.2.2.2.1, h2]⟩
  · have ho := h.old l hln
    exact ⟨ho.2.2.2.1, ho.2.2.2.2.1⟩

/-- After the insertion the thread has its node, with the new lock as conflict lock. -/
theorem Managers.Inserted.conflict_lock {s s1 : Managers} {mode : lock_t.Mode} {r t n id : Nat}
    {chain : List Nat} (h : s.Inserted s1 mode r t n id chain) (u : Nat) :
    s1.conflict_lock u = if u = t then some n else s.conflict_lock u := by
  obtain ⟨tn, htn, htn1⟩ := h.trx
  unfold Managers.conflict_lock
  by_cases hu : u = t
  · subst hu; rw [htn1]; simp
  · rw [h.other_trx u hu, if_neg hu]

theorem Managers.Inserted.isSome {s s1 : Managers} {mode : lock_t.Mode} {r t n id : Nat}
    {chain : List Nat} (h : s.Inserted s1 mode r t n id chain) (u : Nat)
    (hu : (s.trx_node_table u).isSome = true) : (s1.trx_node_table u).isSome = true := by
  obtain ⟨tn, htn, htn1⟩ := h.trx
  by_cases hut : u = t
  · subst hut; rw [htn1]; rfl
  · rw [h.other_trx u hut]; exact hu

theorem Managers.Inserted.isSome_self {s s1 : Managers} {mode : lock_t.Mode} {r t n id : Nat}
    {chain : List Nat} (h : s.Inserted s1 mode r t n id chain) :
    (s1.trx_node_table t).isSome = true := by
  obtain ⟨tn, htn, htn1⟩ := h.trx
  rw [htn1]; rfl

theorem Managers.Inserted.deque {s s1 : Managers} {mode : lock_t.Mode} {r t n id : Nat}
    {chain : List Nat} (h : s.Inserted s1 mode r t n id chain) (u : Nat) :
    s1.trx_lock_deque u = if u = t then s.trx_lock_deque u ++ [n] else s.trx_lock_deque u := by
  obtain ⟨tn, htn, htn1⟩ := h.trx
  unfold Managers.trx_lock_deque
  by_cases hu : u = t
  · subst hu; rw [htn1, htn]; simp
  · rw [h.other_trx u hu, if_neg hu]

theorem Managers.Inserted.table_isSome {s s1 : Managers} {mode : lock_t.Mode} {r t n id : Nat}
    {chain : List Nat} (h : s.Inserted s1 mode r t n id chain) (r' : Nat) :
    (s1.lock_table r').isSome = (s.lock_table r').isSome := by
  obtain ⟨node, hnode, hnode1⟩ := h.node
  by_cases hr : r' = r
  · subst hr; rw [hnode1, hnode]; rfl
  · rw [h.other_nodes r' hr]

/-- A lock free to be taken is not the conflict lock of a thread. -/
theorem Managers.Fresh.not_waiting {s : Managers} {n : Nat} (hf : s.Fresh n) (hinv : s.Inv)
    {u c : Nat} (hc : s.conflict_lock u = some c) : c ≠ n := by
  rintro rfl
  obtain ⟨h1, -, h3⟩ := hinv.conflicts u c hc
  rcases hf with h | ⟨h, -⟩
  · omega
  · rw [h3] at h; cases h

/-- The state, mode and signal of an old lock after insertion and decision. -/
theorem Managers.Inserted.decided_old {s s1 : Managers} {mode : lock_t.Mode} {r t n id : Nat}
    {chain : List Nat} (h : s.Inserted s1 mode r t n id chain) (st : lock_t.State)
    (c : Option Nat) (l : Nat) (hl : l ≠ n) :
    ((s1.decided t n st c).locks l).state = (s.locks l).state ∧
    ((s1.decided t n st c).locks l).mode = (s.locks l).mode ∧
    ((s1.decided t n st c).locks l).signal_flag = (s.locks l).signal_flag := by
  rw [Managers.decided_locks_ne _ _ _ _ _ _ hl]
  have ho := h.old l hl
  exact ⟨ho.1, ho.2.1, ho.2.2.1⟩

/-- The state, mode and signal of the new lock after insertion and decision. -/
theorem Managers.Inserted.decided_new {s s1 : Managers} {mode : lock_t.Mode} {r t n id : Nat}
    {chain : List Nat} (h : s.Inserted s1 mode r t n id chain) (st : lock_t.State)
    (c : Option Nat) :
    ((s1.decided t n st c).locks n).state = st ∧
    ((s1.decided t n st c).locks n).mode = mode ∧
    ((s1.decided t n st c).locks n).signal_flag = false := by
  rw [Managers.decided_locks_same]
  exact ⟨rfl, h.new.2.1, h.new.2.2.1⟩

/-- The grants along the list of the record after insertion and decision. -/
theorem Managers.Inserted.granting {s s1 : Managers} {mode : lock_t.Mode} {r t n id : Nat}
    {chain : List Nat} (h : s.Inserted s1 mode r t n id chain)
    (hq : s.IsQueue r chain) (hg : s.Granting chain)
    (st : lock_t.State) (c : Option Nat)
    (hcase : (st = lock_t.State.ACTIVE ∧ ¬ s.conflictAhead mode chain) ∨
      (st = lock_t.State.WAIT ∧ s.conflictAhead mode chain) ∨ st = lock_t.State.OBSOLETE) :
    (s1.decided t n st c).Granting (chain ++ [n]) := by
  have hn : n ∉ chain := h.fresh.not_mem hq
  obtain ⟨hn1, hn2, hn3⟩ := h.decided_new st c
  intro pre l post hc hst
  rcases List.concat_split hc with ⟨-, hl, hpre⟩ | ⟨post', -, hch⟩
  · subst hl; subst hpre
    have hpre : ∀ p ∈ pre, p ≠ l := fun p hp e => hn (e ▸ hp)
    have hrhs : (∀ p ∈ pre, ((s1.decided t l st c).locks p).state ≠ lock_t.State.OBSOLETE →
          ¬ ((s1.decided t l st c).locks p).conflicts ((s1.decided t l st c).locks l)) ↔
        ¬ s.conflictAhead mode pre := by
      unfold Managers.conflictAhead lock_t.conflicts
      rw [hn2]
      constructor
      · rintro hk ⟨p, hp, hps, hpc⟩
        obtain ⟨o1, o2, -⟩ := h.decided_old st c p (hpre p hp)
        refine hk p hp ?_ ?_
        · rw [o1]; exact hps
        · rw [o2]; exact hpc.symm
      · intro hk p hp hps hpc
        obtain ⟨o1, o2, -⟩ := h.decided_old st c p (hpre p hp)
        rw [o1] at hps
        rw [o2] at hpc
        exact hk ⟨p, hp, hps, hpc.symm⟩
    rw [hrhs]
    unfold lock_t.granted
    rw [hn1, hn3]
    rw [hn1] at hst
    rcases hcase with ⟨h1, h3⟩ | ⟨h1, h3⟩ | h1
    · subst h1
      exact ⟨fun _ => h3, fun _ => Or.inl rfl⟩
    · subst h1
      constructor
      · rintro (hgr | ⟨-, hgr⟩)
        · cases hgr
        · cases hgr
      · intro hk; exact absurd h3 hk
    · subst h1
      exact absurd rfl hst
  · have hsub : ∀ p ∈ pre ++ l :: post', p ≠ n := by
      intro p hp e
      rw [← hch] at hp
      exact hn (e ▸ hp)
    have hg2 : (s1.decided t n st c).Granting (pre ++ l :: post') := by
      refine Managers.Granting.congr ?_ (hch ▸ hg)
      intro p hp
      exact h.decided_old st c p (hsub p hp)
    exact hg2 pre l post' rfl hst

/-- The lists and grants of the other records after insertion and decision. -/
theorem Managers.Inserted.other_granting {s s1 : Managers} {mode : lock_t.Mode}
    {r t n id : Nat} {chain : List Nat} (h : s.Inserted s1 mode r t n id chain)
    (hq : s.IsQueue r chain) (st : lock_t.State) (c : Option Nat)
    {r' : Nat} (hr : r' ≠ r) {chain' : List Nat} (hq' : s.IsQueue r' chain')
    (hg' : s.Granting chain') :
    (s1.decided t n st c).IsQueue r' chain' ∧ (s1.decided t n st c).Granting chain' := by
  obtain ⟨hq1, -⟩ := h.other_queue hq hr hq'
  have hn' : n ∉ chain' := h.fresh.not_mem hq'
  constructor
  · refine hq1.congr_locks (by simp) (by simp) ?_ ?_
    · intro l
      have hf := Managers.decided_fields s1 t n st c l
      exact ⟨hf.1, hf.2.1, hf.2.2.1, hf.2.2.2.1, hf.2.2.2.2.1⟩
    · intro l hl hst
      by_cases hln : l = n
      · subst hln
        rw [h.new.1] at hst; cases hst
      · rw [Managers.decided_locks_ne _ _ _ _ _ _ hln]; exact hst
  · refine Managers.Granting.congr ?_ hg'
    intro p hp
    exact h.decided_old st c p (fun e => hn' (e ▸ hp))

/-- The list of the record after insertion and decision. -/
theorem Managers.Inserted.decided_queue {s s1 : Managers} {mode : lock_t.Mode}
    {r t n id : Nat} {chain : List Nat} (h : s.Inserted s1 mode r t n id chain)
    (hq : s.IsQueue r chain) (st : lock_t.State) (c : Option Nat) :
    (s1.decided t n st c).IsQueue r (chain ++ [n]) := by
  refine (h.queue hq).congr_locks (by simp) (by simp) ?_ ?_
  · intro l
    have hf := Managers.decided_fields s1 t n st c l
    exact ⟨hf.1, hf.2.1, hf.2.2.1, hf.2.2.2.1, hf.2.2.2.2.1⟩
  · intro l hl hst
    have hln : l ≠ n := by
      rintro rfl; exact hl (by simp)
    rw [Managers.decided_locks_ne _ _ _ _ _ _ hln]; exact hst

set_option maxHeartbeats 400000 in
/-- The invariant holds after `AcquireLock` has inserted the new lock and decided on it: the
lock stays ACTIVE when nothing ahead conflicts, it waits as the conflict lock of its thread
when something ahead conflicts, or it is given up as OBSOLETE. -/
theorem Managers.Inserted.inv {s s1 : Managers} {mode : lock_t.Mode} {r t n id : Nat}
    {chain : List Nat} (h : s.Inserted s1 mode r t n id chain) (hinv : s.Inv)
    (hq : s.IsQueue r chain) (hg : s.Granting chain) (hconf : s.conflict_lock t = none)
    (st : lock_t.State) (c : Option Nat)
    (hcase : (st = lock_t.State.ACTIVE ∧ c = none ∧ ¬ s.conflictAhead mode chain) ∨
      (st = lock_t.State.WAIT ∧ c = some n ∧ s.conflictAhead mode chain) ∨
      (st = lock_t.State.OBSOLETE ∧ c = none)) :
    (s1.decided t n st c).Inv := by
  have hnew := h.new
  have hcl : ∀ u, (s1.decided t n st c).conflict_lock u =
      if u = t then c else s.conflict_lock u := by
    intro u
    rw [Managers.decided_conflict_lock _ _ _ _ _ _ h.isSome_self, h.conflict_lock]
    split <;> rfl
  have hids : ∀ l, l < s.lock_count →
      ((s1.decided t n st c).locks l).thread_id = (s.locks l).thread_id ∧
      ((s1.decided t n st c).locks l).record_id = (s.locks l).record_id := by
    intro l hl
    have hf := Managers.decided_fields s1 t n st c l
    rw [hf.2.2.2.2.1, hf.2.2.2.2.2.1]
    exact ⟨(h.ids l hl).1, (h.ids l hl).2⟩
  have hidn : ((s1.decided t n st c).locks n).thread_id = t ∧
      ((s1.decided t n st c).locks n).record_id = r := by
    have hf := Managers.decided_fields s1 t n st c n
    rw [hf.2.2.2.2.1, hf.2.2.2.2.2.1]
    exact ⟨hnew.2.2.2.1, hnew.2.2.2.2.1⟩
  refine ⟨?_, ?_, ?_, ?_, ?_, ?_, ?_⟩
  · intro r' hr'
    rw [Managers.decided_lock_table, h.table_isSome] at hr'
    by_cases hrr : r' = r
    · subst hrr
      refine ⟨chain ++ [n], h.decided_queue hq st c, h.granting hq hg st c ?_⟩
      rcases hcase with ⟨h1, -, h3⟩ | ⟨h1, -, h3⟩ | ⟨h1, -⟩
      · exact Or.inl ⟨h1, h3⟩
      · exact Or.inr (Or.inl ⟨h1, h3⟩)
      · exact Or.inr (Or.inr h1)
    · obtain ⟨chain', hq', hg'⟩ := hinv.queues r' hr'
      exact ⟨chain', h.other_granting hq st c hrr hq' hg'⟩
  · intro l hl
    rw [Managers.decided_lock_count] at hl
    rw [Managers.decided_lock_table, h.table_isSome]
    rcases h.count_new l hl with h1 | h1
    · rw [(hids l h1).2]; exact hinv.records l h1
    · subst h1
      rw [hidn.2]
      obtain ⟨node, hnode, -⟩ := h.node
      rw [hnode]; rfl
  · intro l hl
    rw [Managers.decided_lock_count] at hl
    rw [Managers.decided_isSome]
    rcases h.count_new l hl with h1 | h1
    · rw [(hids l h1).1]; exact h.isSome _ (hinv.owners l h1)
    · subst h1
      rw [hidn.1]; exact h.isSome_self
  · intro t' r' p hp
    rw [Managers.decided_pools] at hp
    rw [Managers.decided_lock_count]
    rcases h.pools t' r' p hp with h1 | ⟨h1, h2, h3⟩
    · obtain ⟨g1, g2, g3⟩ := hinv.pools t' r' p h1
      exact ⟨lt_of_lt_of_le g1 h.count_le, by rw [(hids p g1).1]; exact g2,
        by rw [(hids p g1).2]; exact g3⟩
    · subst h1; subst h2; subst h3
      exact ⟨h.count_lt, hidn.1, hidn.2⟩
  · intro u l hl
    rw [Managers.decided_trx_lock_deque, h.deque] at hl
    rw [Managers.decided_lock_count]
    by_cases hu : u = t
    · subst hu
      rw [if_pos rfl, List.mem_append, List.mem_singleton] at hl
      rcases hl with hl | hl
      · obtain ⟨g1, g2⟩ := hinv.deques u l hl
        exact ⟨lt_of_lt_of_le g1 h.count_le, by rw [(hids l g1).1]; exact g2⟩
      · subst hl
        exact ⟨h.count_lt, hidn.1⟩
    · rw [if_neg hu] at hl
      obtain ⟨g1, g2⟩ := hinv.deques u l hl
      exact ⟨lt_of_lt_of_le g1 h.count_le, by rw [(hids l g1).1]; exact g2⟩
  · intro l hl hst
    rw [Managers.decided_lock_count] at hl
    rw [hcl]
    by_cases hln : l = n
    · subst hln
      rw [hidn.1, if_pos rfl]
      rw [(h.decided_new st c).1] at hst
      rcases hcase with ⟨h1, -, -⟩ | ⟨-, h2, -⟩ | ⟨h1, -⟩
      · rw [h1] at hst; cases hst
      · exact h2
      · rw [h1] at hst; cases hst
    · rw [(h.decided_old st c l hln).1] at hst
      rcases h.count_new l hl with h1 | h1
      · rw [(hids l h1).1]
        have hw := hinv.waiting l h1 hst
        have hne : (s.locks l).thread_id ≠ t := by
          intro e; rw [e, hconf] at hw; cases hw
        rw [if_neg hne]; exact hw
      · exact absurd h1 hln
  · intro u c' hc'
    rw [hcl] at hc'
    rw [Managers.decided_lock_count]
    by_cases hu : u = t
    · subst hu
      rw [if_pos rfl] at hc'
      rcases hcase with ⟨-, h2, -⟩ | ⟨h1, h2, -⟩ | ⟨-, h2⟩
      · rw [h2] at hc'; cases hc'
      · rw [h2] at hc'
        cases hc'
        exact ⟨h.count_lt, hidn.1, by rw [(h.decided_new st c).1]; exact h1⟩
      · rw [h2] at hc'; cases hc'
    · rw [if_neg hu] at hc'
      obtain ⟨g1, g2, g3⟩ := hinv.conflicts u c' hc'
      have hne : c' ≠ n := Managers.Fresh.not_waiting h.fresh hinv hc'
      exact ⟨lt_of_lt_of_le g1 h.count_le, by rw [(hids c' g1).1]; exact g2,
        by rw [(h.decided_old st c c' hne).1]; exact g3⟩

/-- A list of distinct numbers below `N` has at most `N` members. -/
theorem List.Nodup.length_le_of_lt {l : List Nat} {N : Nat} (hd : l.Nodup)
    (h : ∀ x ∈ l, x < N) : l.length ≤ N := by
  have hsub : l ⊆ List.range N := fun x hx => List.mem_range.2 (h x hx)
  have := (List.subperm_of_subset hd hsub).length_le
  simpa using this

/-- The list of a record has at most as many locks as are allocated. -/
theorem Managers.IsQueue.length_le {s : Managers} {r : Nat} {chain : List Nat}
    (hq : s.IsQueue r chain) : chain.length ≤ s.lock_count :=
  hq.nodup.length_le_of_lt (fun x hx => (hq.members x hx).1)

/-- The ids grow along linked locks. -/
theorem Managers.linked_id_lt (s : Managers) :
    ∀ (l : List Nat) (a : Nat), List.Chain' s.linked (a :: l) →
      ∀ y ∈ l, (s.locks a).lock_id_on_record < (s.locks y).lock_id_on_record := by
  intro l
  induction l with
  | nil => intro a _ y hy; cases hy
  | cons b l ih =>
    intro a hc y hy
    rw [List.chain'_cons] at hc
    have hb : (s.locks a).lock_id_on_record < (s.locks b).lock_id_on_record := by
      rw [hc.1.2.1]; exact Nat.lt_succ_self _
    rcases List.mem_cons.1 hy with h | h
    · subst h; exact hb
    · exact lt_trans hb (ih b hc.2 y h)

/-- In a list, a lock has a smaller id than every lock behind it. -/
theorem Managers.IsQueue.id_lt {s : Managers} {r : Nat} {pre post : List Nat} {x : Nat}
    (hq : s.IsQueue r (pre ++ x :: post)) :
    ∀ y ∈ post, (s.locks x).lock_id_on_record < (s.locks y).lock_id_on_record :=
  Managers.linked_id_lt s post x (hq.links.suffix (List.suffix_append pre (x :: post)))

/-- The walk of `AcquireLock` from a lock of the list to the new lock at its end collects
the locks between them. -/
theorem LockManager.collectWaiting_spec (locks : Nat → lock_t) (head n : Nat) :
    ∀ (todo : List Nat) (target fuel : Nat) (acc : List Nat),
      (todo ++ [n]).head? = some target → todo.length < fuel →
      (∀ x ∈ todo, x ≠ n ∧ (locks x).lock_id_on_record ≤ (locks n).lock_id_on_record) →
      List.Chain' (fun a b => (locks a).next = some b) (todo ++ [n]) →
      LockManager.collectWaiting locks head n fuel target acc = some (acc ++ todo) := by
  intro todo
  induction todo with
  | nil =>
    intro target fuel acc ht hf _ _
    simp only [List.nil_append, List.head?_cons, Option.some.injEq] at ht
    subst ht
    cases fuel with
    | zero => simp at hf
    | succ fuel => simp [LockManager.collectWaiting]
  | cons x rest ih =>
    intro target fuel acc ht hf hx hc
    simp only [List.cons_append, List.head?_cons, Option.some.injEq] at ht
    subst ht
    cases fuel with
    | zero => simp at hf
    | succ fuel =>
      obtain ⟨hxn, hxid⟩ := hx x (List.mem_cons_self _ _)
      have hc' : List.Chain' (fun a b => (locks a).next = some b) (x :: (rest ++ [n])) := hc
      rw [List.chain'_cons'] at hc'
      obtain ⟨y, hy⟩ : ∃ y, (rest ++ [n]).head? = some y := by
        cases rest <;> simp
      have hnext : (locks x).next = some y := hc'.1 y hy
      unfold LockManager.collectWaiting
      rw [if_neg hxn, if_neg (not_lt.2 hxid), hnext]
      simp only
      rw [ih y fuel (acc ++ [x]) hy (by simpa using hf)
        (fun z hz => hx z (List.mem_cons_of_mem _ hz)) hc'.2]
      simp

/-- The compatibility check of `AcquireLock` passes when no lock to check conflicts. -/
theorem LockManager.checkCompatible_pass (W : List Nat) (t n : Nat) :
    ∀ (todo : List Nat) (s : Managers),
      (∀ p ∈ todo, (s.locks p).state ≠ lock_t.State.OBSOLETE →
        ¬ (s.locks n).conflicts (s.locks p)) →
      LockManager.checkCompatible W t n todo s = some (false, s) := by
  intro todo
  induction todo with
  | nil => intro s _; rfl
  | cons p rest ih =>
    intro s h
    have hrest := ih s (fun q hq => h q (List.mem_cons_of_mem _ hq))
    unfold LockManager.checkCompatible
    by_cases hno : LockManager.noCheck s n p
    · rw [if_pos hno]; exact hrest
    · rw [if_neg hno]
      have hst : (s.locks p).state ≠ lock_t.State.OBSOLETE := fun e => hno (Or.inl e)
      have hc : ¬ ((s.locks n).mode = lock_t.Mode.EXCLUSIVE ∨
          (s.locks p).mode = lock_t.Mode.EXCLUSIVE) := h p (List.mem_cons_self _ _) hst
      rw [if_neg hc]; exact hrest

/-- The compatibility check of `AcquireLock` runs the deadlock check, with the new lock in
state WAIT, when some lock to check conflicts. -/
theorem LockManager.checkCompatible_conflict (W : List Nat) (t n : Nat) :
    ∀ (todo : List Nat) (s : Managers),
      (∀ p ∈ todo, p ≠ n ∧
        (s.locks p).lock_id_on_record ≤ (s.locks n).lock_id_on_record) →
      (∃ p ∈ todo, (s.locks p).state ≠ lock_t.State.OBSOLETE ∧
        (s.locks n).conflicts (s.locks p)) →
      LockManager.checkCompatible W t n todo s =
        (LockManager.IsDeadlock (s.setLock n (lock_t.withState lock_t.State.WAIT)) t W).bind
          (fun q =>
            if q.1 = true then
              some (true, (q.2.setLock n
                (lock_t.withState lock_t.State.OBSOLETE)).setConflict t none)
            else some (false, q.2)) := by
  intro todo
  induction todo with
  | nil => intro s _ h; obtain ⟨p, hp, -⟩ := h; cases hp
  | cons p rest ih =>
    intro s hlt h
    obtain ⟨hpn, hpid⟩ := hlt p (List.mem_cons_self _ _)
    unfold LockManager.checkCompatible
    by_cases hst : (s.locks p).state = lock_t.State.OBSOLETE
    · have hno : LockManager.noCheck s n p := Or.inl hst
      rw [if_pos hno]
      refine ih s (fun q hq => hlt q (List.mem_cons_of_mem _ hq)) ?_
      obtain ⟨q, hq, hq1, hq2⟩ := h
      rcases List.mem_cons.1 hq with e | e
      · subst e; exact absurd hst hq1
      · exact ⟨q, e, hq1, hq2⟩
    · have hno : ¬ LockManager.noCheck s n p := by
        rintro (e | e)
        · exact hst e
        · exact absurd hpid (not_le.2 e)
      rw [if_neg hno]
      by_cases hc : (s.locks n).mode = lock_t.Mode.EXCLUSIVE ∨
          (s.locks p).mode = lock_t.Mode.EXCLUSIVE
      · rw [if_pos hc]
        have hno1 : ¬ LockManager.noCheck (s.setLock n (lock_t.withState lock_t.State.WAIT))
            n p := by
          unfold LockManager.noCheck
          simp only [Managers.setLock_locks, Function.update_same, Function.update_noteq hpn]
          rintro (e | e)
          · exact hst e
          · exact absurd hpid (not_le.2 e)
        rw [if_neg hno1]
      · rw [if_neg hc]
        refine ih s (fun q hq => hlt q (List.mem_cons_of_mem _ hq)) ?_
        obtain ⟨q, hq, hq1, hq2⟩ := h
        rcases List.mem_cons.1 hq with e | e
        · subst e; exact absurd hq2 hc
        · exact ⟨q, e, hq1, hq2⟩

/-! ## The lock manager: the deadlock check -/

/-- The walk of `IsDeadlock` along the list towards the conflict lock `c` of a transaction:
it ends with `cycle` when a lock on the way belongs to the calling thread and is not
OBSOLETE, and with the locks on the way otherwise. -/
theorem LockManager.deadlockWalk_spec (s : Managers) (this_thread trx c cid record_id : Nat)
    (hconf : s.conflict_lock trx = some c) (hcid : (s.locks c).lock_id_on_record = cid) :
    ∀ (todo : List Nat) (target fuel : Nat) (tmp : List Nat),
      (todo ++ [c]).head? = some target → todo.length < fuel →
      (∀ x ∈ todo, x ≠ c) →
      (∀ x ∈ todo ++ [c], (s.locks x).lock_id_on_record ≤ cid) →
      List.Chain' (fun a b => (s.locks a).next = some b) (todo ++ [c]) →
      LockManager.deadlockWalk s this_thread trx c cid record_id fuel target tmp =
        some (if s.ownsAhead this_thread todo = true then DeadlockWalk.cycle
          else DeadlockWalk.ahead (tmp ++ todo)) := by
  intro todo
  induction todo with
  | nil =>
    intro target fuel tmp ht hf _ _ _
    simp only [List.nil_append, List.head?_cons, Option.some.injEq] at ht
    subst ht
    cases fuel with
    | zero => simp at hf
    | succ fuel => simp [LockManager.deadlockWalk, Managers.ownsAhead]
  | cons x rest ih =>
    intro target fuel tmp ht hf hne hid hc
    simp only [List.cons_append, List.head?_cons, Option.some.injEq] at ht
    subst ht
    cases fuel with
    | zero => simp at hf
    | succ fuel =>
      have hxc : x ≠ c := hne x (List.mem_cons_self _ _)
      have hc' : List.Chain' (fun a b => (s.locks a).next = some b) (x :: (rest ++ [c])) := hc
      rw [List.chain'_cons'] at hc'
      obtain ⟨y, hy⟩ : ∃ y, (rest ++ [c]).head? = some y := by
        cases rest <;> simp
      have hnext : (s.locks x).next = some y := hc'.1 y hy
      have hymem : y ∈ rest ++ [c] := List.mem_of_mem_head? hy
      have hyid : ¬ (s.locks y).lock_id_on_record > cid :=
        not_lt.2 (hid y (List.mem_cons_of_mem _ hymem))
      have hchg : ¬ (s.conflict_lock trx ≠ some c ∨ (s.locks c).lock_id_on_record ≠ cid) := by
        rintro (h | h)
        · exact h hconf
        · exact h hcid
      unfold LockManager.deadlockWalk
      rw [if_neg hxc, if_neg hchg]
      by_cases hown : (s.locks x).thread_id = this_thread ∧
          (s.locks x).state ≠ lock_t.State.OBSOLETE
      · rw [if_pos hown]
        have : s.ownsAhead this_thread (x :: rest) = true := by
          simp [Managers.ownsAhead, hown]
        rw [if_pos this]
      · rw [if_neg hown, hnext]
        simp only
        rw [if_neg hyid]
        rw [ih y fuel (tmp ++ [x]) hy (by simpa using hf)
          (fun z hz => hne z (List.mem_cons_of_mem _ hz))
          (fun z hz => hid z (List.mem_cons_of_mem _ hz)) hc'.2]
        have heq : s.ownsAhead this_thread (x :: rest) = s.ownsAhead this_thread rest := by
          simp [Managers.ownsAhead, hown]
        rw [heq]
        simp

/-- The walk of `IsDeadlock` for a conflict lock `c` of a well-formed list
`pre ++ c :: post`. -/
theorem LockManager.deadlockWalk_queue (s : Managers) (this_thread trx c : Nat)
    (pre post : List Nat) (head : Nat)
    (hconf : s.conflict_lock trx = some c)
    (hq : s.IsQueue (s.locks c).record_id (pre ++ c :: post))
    (hhead : (pre ++ c :: post).head? = some head) :
    LockManager.deadlockWalk s this_thread trx c (s.locks c).lock_id_on_record
        (s.locks c).record_id (s.lock_count + 1) head [] =
      some (if s.ownsAhead this_thread pre = true then DeadlockWalk.cycle
        else DeadlockWalk.ahead pre) := by
  have hnd := hq.nodup
  have hlen := hq.length_le
  have hpre : ∀ x ∈ pre, x ≠ c := by
    intro x hx e
    subst e
    rw [List.nodup_append] at hnd
    exact hnd.2.2 hx (List.mem_cons_self _ _)
  have := LockManager.deadlockWalk_spec s this_thread trx c (s.locks c).lock_id_on_record
    (s.locks c).record_id hconf rfl pre head (s.lock_count + 1) []
    (by
      cases pre with
      | nil => simpa using hhead
      | cons a l => simpa using hhead)
    (by simp at hlen; omega) hpre
    (by
      intro x hx
      rw [List.mem_append, List.mem_singleton] at hx
      rcases hx with hx | hx
      · obtain ⟨p1, p2, hp⟩ := List.append_of_mem hx
        subst hp
        have hq' : s.IsQueue (s.locks c).record_id (p1 ++ x :: (p2 ++ c :: post)) := by
          simpa using hq
        exact le_of_lt (hq'.id_lt c (by simp))
      · subst hx; exact le_refl _)
    (by
      have h1 : List.Chain' s.linked (pre ++ [c]) := by
        have : pre ++ c :: post = (pre ++ [c]) ++ post := by simp
        rw [this] at hq
        exact (List.chain'_append.1 hq.links).1
      exact h1.imp (fun a b hab => hab.1))
  simpa using this

/-- Two paths along `next` pointers from the same lock to a lock without successor are the
same path. -/
theorem List.path_unique (next : Nat → Option Nat) :
    ∀ (l1 l2 : List Nat), l1.head? = l2.head? →
      List.Chain' (fun a b => next a = some b) l1 →
      List.Chain' (fun a b => next a = some b) l2 →
      (∀ x, l1.getLast? = some x → next x = none) →
      (∀ x, l2.getLast? = some x → next x = none) → l1 = l2 := by
  intro l1
  induction l1 with
  | nil =>
    intro l2 hh _ _ _ _
    cases l2 with
    | nil => rfl
    | cons b t => simp at hh
  | cons a t1 ih =>
    intro l2 hh hc1 hc2 hl1 hl2
    cases l2 with
    | nil => simp at hh
    | cons a' t2 =>
      simp only [List.head?_cons, Option.some.injEq] at hh
      subst hh
      rw [List.chain'_cons'] at hc1 hc2
      congr 1
      cases t1 with
      | nil =>
        have hn : next a = none := hl1 a (by simp)
        cases t2 with
        | nil => rfl
        | cons b t =>
          have := hc2.1 b (by simp)
          rw [hn] at this; cases this
      | cons b1 t1' =>
        have hb1 : next a = some b1 := hc1.1 b1 (by simp)
        cases t2 with
        | nil =>
          have hn : next a = none := hl2 a (by simp)
          rw [hn] at hb1; cases hb1
        | cons b2 t2' =>
          have hb2 : next a = some b2 := hc2.1 b2 (by simp)
          rw [hb1] at hb2
          cases hb2
          refine ih (b1 :: t2') rfl hc1.2 hc2.2 ?_ ?_
          · intro x hx
            exact hl1 x (by simpa [List.getLast?_cons_cons] using hx)
          · intro x hx
            exact hl2 x (by simpa [List.getLast?_cons_cons] using hx)

/-- A record has one list. -/
theorem Managers.IsQueue.unique {s : Managers} {r : Nat} {c1 c2 : List Nat}
    (h1 : s.IsQueue r c1) (h2 : s.IsQueue r c2) : c1 = c2 := by
  obtain ⟨n1, hn1, hh1, -⟩ := h1.ends
  obtain ⟨n2, hn2, hh2, -⟩ := h2.ends
  rw [hn1] at hn2
  cases hn2
  exact List.path_unique (fun a => (s.locks a).next) c1 c2 (hh1.symm.trans hh2)
    (h1.links.imp (fun a b hab => hab.1)) (h2.links.imp (fun a b hab => hab.1))
    (fun x hx => (h1.last x hx).1) (fun x hx => (h2.last x hx).1)

/-- A list without repetition splits around a member in one way. -/
theorem List.Nodup.split_unique {c : Nat} :
    ∀ {pre post pre' post' : List Nat}, (pre ++ c :: post).Nodup →
      pre ++ c :: post = pre' ++ c :: post' → pre = pre' ∧ post = post' := by
  intro pre
  induction pre with
  | nil =>
    intro post pre' post' hd h
    cases pre' with
    | nil => simpa using h
    | cons a t =>
      simp only [List.nil_append, List.cons_append, List.cons.injEq] at h
      obtain ⟨h1, h2⟩ := h
      subst h1
      rw [h2] at hd
      simp at hd
  | cons a t ih =>
    intro post pre' post' hd h
    cases pre' with
    | nil =>
      simp only [List.nil_append, List.cons_append, List.cons.injEq] at h
      obtain ⟨h1, h2⟩ := h
      subst h1
      simp at hd
    | cons a' t' =>
      simp only [List.cons_append, List.cons.injEq] at h
      obtain ⟨h1, h2⟩ := h
      subst h1
      have hd' : (t ++ c :: post).Nodup := (List.nodup_cons.1 hd).2
      obtain ⟨e1, e2⟩ := ih hd' h2
      exact ⟨by rw [e1], e2⟩

/-- The locks queued ahead of a lock are the locks before it in the list of its record. -/
theorem Managers.queuedAhead_iff {s : Managers} {c : Nat} {pre post : List Nat}
    (hq : s.IsQueue (s.locks c).record_id (pre ++ c :: post)) (p : Nat) :
    s.queuedAhead p c ↔ p ∈ pre := by
  constructor
  · rintro ⟨pre', post', hq', hp⟩
    have := hq'.unique hq
    rw [(List.Nodup.split_unique hq'.nodup this).1] at hp
    exact hp
  · intro hp
    exact ⟨pre, post, hq, hp⟩

/-- A lock that is not OBSOLETE is in the list of its record. -/
theorem Managers.Inv.mem_queue {s : Managers} (hinv : s.Inv) {c : Nat} (hc : c < s.lock_count)
    (hst : (s.locks c).state ≠ lock_t.State.OBSOLETE) :
    ∃ pre post, s.IsQueue (s.locks c).record_id (pre ++ c :: post) ∧
      s.Granting (pre ++ c :: post) := by
  obtain ⟨chain, hq, hg⟩ := hinv.queues _ (hinv.records c hc)
  have hmem : c ∈ chain := by
    by_contra hn
    exact hst (hq.others c hc rfl hn)
  obtain ⟨pre, post, hsplit⟩ := List.append_of_mem hmem
  subst hsplit
  exact ⟨pre, post, hq, hg⟩

/-- The conflict lock of a transaction is in the list of its record. -/
theorem Managers.Inv.conflict_queue {s : Managers} (hinv : s.Inv) {u c : Nat}
    (hc : s.conflict_lock u = some c) :
    ∃ pre post, s.IsQueue (s.locks c).record_id (pre ++ c :: post) := by
  obtain ⟨h1, -, h3⟩ := hinv.conflicts u c hc
  obtain ⟨pre, post, hq, -⟩ := hinv.mem_queue h1 (by rw [h3]; decide)
  exact ⟨pre, post, hq⟩

/-- The thread of an allocated lock has its node: `GetTrxNode` changes nothing. -/
theorem Managers.Inv.getTrxNode {s : Managers} (hinv : s.Inv) {l : Nat}
    (hl : l < s.lock_count) : TrxManager.GetTrxNode s (s.locks l).thread_id = s := by
  have := hinv.owners l hl
  cases h : s.trx_node_table (s.locks l).thread_id with
  | none => rw [h] at this; cases this
  | some node => exact TrxManager.GetTrxNode_of_some s _ node h

/-- One round of the outer loop of `IsDeadlock` under the invariant: the state is not
changed; a thread without conflict lock adds nothing to the queue, a thread with the
conflict lock `c` ends the search when a lock ahead of `c` belongs to the calling thread
and is not OBSOLETE, and else adds the locks ahead of `c` to the queue. -/
theorem LockManager.deadlockVisit_spec (s : Managers) (hinv : s.Inv)
    (this_thread target : Nat) (queue pass : List Nat) (ht : target < s.lock_count) :
    (s.conflict_lock (s.locks target).thread_id = none ∧
      LockManager.deadlockVisit s this_thread target queue pass =
        some (some (queue, (s.locks target).thread_id :: pass), s)) ∨
    (∃ c pre post, s.conflict_lock (s.locks target).thread_id = some c ∧
      s.IsQueue (s.locks c).record_id (pre ++ c :: post) ∧
      LockManager.deadlockVisit s this_thread target queue pass =
        some (if s.ownsAhead this_thread pre = true then none
          else some (queue ++ pre, (s.locks target).thread_id :: pass), s)) := by
  unfold LockManager.deadlockVisit
  rw [hinv.getTrxNode ht]
  cases hc : s.conflict_lock (s.locks target).thread_id with
  | none => left; exact ⟨rfl, rfl⟩
  | some c =>
    right
    obtain ⟨pre, post, hq⟩ := hinv.conflict_queue hc
    refine ⟨c, pre, post, rfl, hq, ?_⟩
    obtain ⟨node, hnode, hhead, -⟩ := hq.ends
    obtain ⟨head, hh⟩ : ∃ head, (pre ++ c :: post).head? = some head := by
      cases pre <;> simp
    simp only
    rw [hnode]
    simp only [Option.some_bind]
    rw [hhead, hh]
    simp only [Option.some_bind]
    rw [LockManager.deadlockWalk_queue s this_thread _ c pre post head hc hq hh]
    by_cases ho : s.ownsAhead this_thread pre = true
    · simp [ho]
    · simp [ho]

/-- Distinct threads of allocated locks are at most as many as the locks. -/
theorem Managers.owners_length_le (s : Managers) (pass : List Nat) (hd : pass.Nodup)
    (h : ∀ u ∈ pass, ∃ l, l < s.lock_count ∧ (s.locks l).thread_id = u) :
    pass.length ≤ s.lock_count := by
  have hsub : pass ⊆ (List.range s.lock_count).map (fun l => (s.locks l).thread_id) := by
    intro u hu
    obtain ⟨l, hl, hlu⟩ := h u hu
    exact List.mem_map.2 ⟨l, List.mem_range.2 hl, hlu⟩
  have := (List.subperm_of_subset hd hsub).length_le
  simpa using this

/-- A lock of the thread that is not OBSOLETE lies in `pre` exactly when the test of the
walk of `IsDeadlock` succeeds. -/
theorem Managers.ownsAhead_iff (s : Managers) (this_thread : Nat) (pre : List Nat) :
    s.ownsAhead this_thread pre = true ↔
      ∃ p ∈ pre, (s.locks p).state ≠ lock_t.State.OBSOLETE ∧
        (s.locks p).thread_id = this_thread := by
  unfold Managers.ownsAhead
  rw [List.any_eq_true]
  constructor
  · rintro ⟨p, hp, h⟩
    simp only [decide_eq_true_eq] at h
    exact ⟨p, hp, h.2, h.1⟩
  · rintro ⟨p, hp, h1, h2⟩
    exact ⟨p, hp, by simp only [decide_eq_true_eq]; exact ⟨h2, h1⟩⟩

/-- The edges of the wait-for graph out of a thread whose conflict lock is `c`. -/
theorem Managers.waitsFor_iff {s : Managers} {u c : Nat} {pre post : List Nat}
    (hc : s.conflict_lock u = some c)
    (hq : s.IsQueue (s.locks c).record_id (pre ++ c :: post)) (v : Nat) :
    s.waitsFor u v ↔ ∃ p ∈ pre, (s.locks p).state ≠ lock_t.State.OBSOLETE ∧
      (s.locks p).thread_id = v := by
  constructor
  · rintro ⟨c', p, hc', hp, h1, h2⟩
    rw [hc] at hc'
    cases hc'
    exact ⟨p, (Managers.queuedAhead_iff hq p).1 hp, h1, h2⟩
  · rintro ⟨p, hp, h1, h2⟩
    exact ⟨c, p, hc, (Managers.queuedAhead_iff hq p).2 hp, h1, h2⟩

/-- A thread without conflict lock has no edge in the wait-for graph. -/
theorem Managers.waitsFor_none {s : Managers} {u : Nat} (hc : s.conflict_lock u = none)
    (v : Nat) : ¬ s.waitsFor u v := by
  rintro ⟨c', p, hc', -⟩
  rw [hc] at hc'
  cases hc'

set_option maxHeartbeats 800000 in
/-- The outer loop of `IsDeadlock` under the invariant: with fuel for the threads not yet in
`pass_id_set` it returns, unchanged state; a result `true` comes with a path of the wait-for
graph from the thread of a queued lock to a thread that waits for the calling thread; a
result `false` comes with a set of threads closed under the edges of the graph, none of
which waits for the calling thread. -/
theorem LockManager.deadlockSearch_spec (s : Managers) (hinv : s.Inv) (this_thread : Nat) :
    ∀ (fuel : Nat) (queue pass : List Nat),
      (∀ x ∈ queue, x < s.lock_count) → pass.Nodup →
      (∀ u ∈ pass, ∃ l, l < s.lock_count ∧ (s.locks l).thread_id = u) →
      s.lock_count + 1 ≤ fuel + pass.length →
      ∃ b, LockManager.deadlockSearch this_thread fuel queue pass s = some (b, s) ∧
        (b = true → ∃ x ∈ queue, (s.locks x).state ≠ lock_t.State.OBSOLETE ∧
          ∃ u, Relation.ReflTransGen s.waitsFor (s.locks x).thread_id u ∧
            s.waitsFor u this_thread) ∧
        (b = false →
          (∀ u ∈ pass, ¬ s.waitsFor u this_thread ∧
            ∀ v, s.waitsFor u v → v ∈ pass ∨
              ∃ x ∈ queue, (s.locks x).state ≠ lock_t.State.OBSOLETE ∧
                (s.locks x).thread_id = v) →
          ∃ C : Nat → Prop, (∀ u ∈ pass, C u) ∧
            (∀ x ∈ queue, (s.locks x).state ≠ lock_t.State.OBSOLETE →
              C (s.locks x).thread_id) ∧
            ∀ u, C u → ¬ s.waitsFor u this_thread ∧ ∀ v, s.waitsFor u v → C v) := by
  intro fuel
  induction fuel with
  | zero =>
    intro queue pass _ hd hown hfuel
    have := s.owners_length_le pass hd hown
    omega
  | succ fuel ih =>
    intro queue pass hvalid hd hown hfuel
    have hsplit := List.takeWhile_append_dropWhile (LockManager.deadlockSkip s pass) queue
    have hskipped : ∀ x ∈ queue.takeWhile (LockManager.deadlockSkip s pass),
        (s.locks x).state ≠ lock_t.State.OBSOLETE → (s.locks x).thread_id ∈ pass := by
      intro x hx hst
      have := List.mem_takeWhile_imp hx
      unfold LockManager.deadlockSkip at this
      simp only [Bool.or_eq_true, decide_eq_true_eq] at this
      rcases this with h | h
      · exact h
      · exact absurd h hst
    cases hdq : queue.dropWhile (LockManager.deadlockSkip s pass) with
    | nil =>
      refine ⟨false, ?_, (fun h => by cases h), ?_⟩
      · unfold LockManager.deadlockSearch; rw [hdq]
      · intro _ hP
        rw [hdq, List.append_nil] at hsplit
        refine ⟨fun u => u ∈ pass, fun u hu => hu, ?_, ?_⟩
        · intro x hx hst
          rw [← hsplit] at hx
          exact hskipped x hx hst
        · intro u hu
          refine ⟨(hP u hu).1, ?_⟩
          intro v hv
          rcases (hP u hu).2 v hv with h | ⟨x, hx, hst, hxv⟩
          · exact h
          · rw [← hsplit] at hx
            rw [← hxv]
            exact hskipped x hx hst
    | cons target rest =>
      rw [hdq] at hsplit
      have htmem : target ∈ queue := by rw [← hsplit]; simp
      have hrestsub : ∀ x ∈ rest, x ∈ queue := by
        intro x hx; rw [← hsplit]; simp [hx]
      have htv : target < s.lock_count := hvalid target htmem
      have hnskip : ¬ LockManager.deadlockSkip s pass target = true := by
        have := List.head_dropWhile_not (LockManager.deadlockSkip s pass) queue
          (by rw [hdq]; simp)
        simpa [hdq] using this
      unfold LockManager.deadlockSkip at hnskip
      simp only [Bool.or_eq_true, decide_eq_true_eq, not_or] at hnskip
      obtain ⟨hnpass, hnobs⟩ := hnskip
      have hd' : ((s.locks target).thread_id :: pass).Nodup := List.nodup_cons.2 ⟨hnpass, hd⟩
      have hown' : ∀ u ∈ (s.locks target).thread_id :: pass,
          ∃ l, l < s.lock_count ∧ (s.locks l).thread_id = u := by
        intro u hu
        rcases List.mem_cons.1 hu with h | h
        · exact ⟨target, htv, h.symm⟩
        · exact hown u h
      have hfuel' : s.lock_count + 1 ≤ fuel + ((s.locks target).thread_id :: pass).length := by
        simp only [List.length_cons]; omega
      have hqueue : ∀ x ∈ queue, (s.locks x).state ≠ lock_t.State.OBSOLETE →
          (s.locks x).thread_id ∈ (s.locks target).thread_id :: pass ∨ x ∈ rest := by
        intro x hx hst
        rw [← hsplit, List.mem_append, List.mem_cons] at hx
        rcases hx with h | h | h
        · exact Or.inl (List.mem_cons_of_mem _ (hskipped x h hst))
        · subst h; exact Or.inl (List.mem_cons_self _ _)
        · exact Or.inr h
      rcases LockManager.deadlockVisit_spec s hinv this_thread target rest pass htv with
        ⟨hcn, hvis⟩ | ⟨c, pre, post, hcs, hq, hvis⟩
      · -- the thread has no conflict lock
        obtain ⟨b, hb, hsound, hcompl⟩ := ih rest ((s.locks target).thread_id :: pass)
          (fun x hx => hvalid x (hrestsub x hx)) hd' hown' hfuel'
        refine ⟨b, ?_, ?_, ?_⟩
        · unfold LockManager.deadlockSearch
          rw [hdq]
          simp only [hvis, Option.some_bind]
          exact hb
        · intro hbt
          obtain ⟨x, hx, hst, u, hpath, hu⟩ := hsound hbt
          exact ⟨x, hrestsub x hx, hst, u, hpath, hu⟩
        · intro hbf hP
          obtain ⟨C, hC1, hC2, hC3⟩ := hcompl hbf (by
            intro u hu
            rcases List.mem_cons.1 hu with h | h
            · subst h
              exact ⟨Managers.waitsFor_none hcn _, fun v hv =>
                absurd hv (Managers.waitsFor_none hcn v)⟩
            · refine ⟨(hP u h).1, ?_⟩
              intro v hv
              rcases (hP u h).2 v hv with h1 | ⟨x, hx, hst, hxv⟩
              · exact Or.inl (List.mem_cons_of_mem _ h1)
              · rcases hqueue x hx hst with h2 | h2
                · exact Or.inl (hxv ▸ h2)
                · exact Or.inr ⟨x, h2, hst, hxv⟩)
          refine ⟨C, fun u hu => hC1 u (List.mem_cons_of_mem _ hu), ?_, hC3⟩
          intro x hx hst
          rcases hqueue x hx hst with h2 | h2
          · exact hC1 _ h2
          · exact hC2 x h2 hst
      · -- the thread has the conflict lock `c`
        by_cases ho : s.ownsAhead this_thread pre = true
        · rw [if_pos ho] at hvis
          refine ⟨true, ?_, ?_, (fun h => by cases h)⟩
          · unfold LockManager.deadlockSearch
            rw [hdq]
            simp only [hvis, Option.some_bind]
          · intro _
            refine ⟨target, htmem, hnobs, (s.locks target).thread_id,
              Relation.ReflTransGen.refl, ?_⟩
            exact (Managers.waitsFor_iff hcs hq this_thread).2
              ((Managers.ownsAhead_iff s this_thread pre).1 ho)
        · rw [if_neg ho] at hvis
          have hprevalid : ∀ x ∈ pre, x < s.lock_count := fun x hx =>
            (hq.members x (by simp [hx])).1
          obtain ⟨b, hb, hsound, hcompl⟩ := ih (rest ++ pre) ((s.locks target).thread_id :: pass)
            (by
              intro x hx
              rcases List.mem_append.1 hx with h | h
              · exact hvalid x (hrestsub x h)
              · exact hprevalid x h) hd' hown' hfuel'
          refine ⟨b, ?_, ?_, ?_⟩
          · unfold LockManager.deadlockSearch
            rw [hdq]
            simp only [hvis, Option.some_bind]
            exact hb
          · intro hbt
            obtain ⟨x, hx, hst, u, hpath, hu⟩ := hsound hbt
            rcases List.mem_append.1 hx with h | h
            · exact ⟨x, hrestsub x h, hst, u, hpath, hu⟩
            · refine ⟨target, htmem, hnobs, u, ?_, hu⟩
              exact Relation.ReflTransGen.head
                ((Managers.waitsFor_iff hcs hq _).2 ⟨x, h, hst, rfl⟩) hpath
          · intro hbf hP
            obtain ⟨C, hC1, hC2, hC3⟩ := hcompl hbf (by
              intro u hu
              rcases List.mem_cons.1 hu with h | h
              · subst h
                refine ⟨?_, ?_⟩
                · intro hw
                  exact ho ((Managers.ownsAhead_iff s this_thread pre).2
                    ((Managers.waitsFor_iff hcs hq this_thread).1 hw))
                · intro v hv
                  obtain ⟨p, hp, hst, hpv⟩ := (Managers.waitsFor_iff hcs hq v).1 hv
                  exact Or.inr ⟨p, List.mem_append_right _ hp, hst, hpv⟩
              · refine ⟨(hP u h).1, ?_⟩
                intro v hv
                rcases (hP u h).2 v hv with h1 | ⟨x, hx, hst, hxv⟩
                · exact Or.inl (List.mem_cons_of_mem _ h1)
                · rcases hqueue x hx hst with h2 | h2
                  · exact Or.inl (hxv ▸ h2)
                  · exact Or.inr ⟨x, List.mem_append_left _ h2, hst, hxv⟩)
            refine ⟨C, fun u hu => hC1 u (List.mem_cons_of_mem _ hu), ?_, hC3⟩
            intro x hx hst
            rcases hqueue x hx hst with h2 | h2
            · exact hC1 _ h2
            · exact hC2 x (List.mem_append_left _ h2) hst

/-- `IsDeadlock` under the invariant, called by `this_thread` with allocated locks: it
returns and leaves the state unchanged; it returns `true` exactly when the wait-for graph
leads from the thread of one of the locks that is not OBSOLETE to a thread that waits for
the calling thread. -/
theorem LockManager.IsDeadlock_spec (s : Managers) (hinv : s.Inv) (this_thread : Nat)
    (W : List Nat) (hW : ∀ x ∈ W, x < s.lock_count) :
    ∃ b, LockManager.IsDeadlock s this_thread W = some (b, s) ∧
      (b = true ↔ ∃ w ∈ W, (s.locks w).state ≠ lock_t.State.OBSOLETE ∧
        ∃ u, Relation.ReflTransGen s.waitsFor (s.locks w).thread_id u ∧
          s.waitsFor u this_thread) := by
  have hmem : ∀ x, x ∈ W.reverse.filter
      (fun l => decide ((s.locks l).state ≠ lock_t.State.OBSOLETE)) ↔
      x ∈ W ∧ (s.locks x).state ≠ lock_t.State.OBSOLETE := by
    intro x
    simp [List.mem_filter]
  obtain ⟨b, hb, hsound, hcompl⟩ := LockManager.deadlockSearch_spec s hinv this_thread
    (s.lock_count + 1) (W.reverse.filter
      (fun l => decide ((s.locks l).state ≠ lock_t.State.OBSOLETE))) []
    (fun x hx => hW x ((hmem x).1 hx).1) List.nodup_nil (fun u hu => by cases hu)
    (by simp)
  refine ⟨b, hb, ?_, ?_⟩
  · intro hbt
    obtain ⟨x, hx, hst, u, hpath, hu⟩ := hsound hbt
    exact ⟨x, ((hmem x).1 hx).1, hst, u, hpath, hu⟩
  · rintro ⟨w, hw, hst, u, hpath, hu⟩
    by_contra hbf
    have hbf' : b = false := by cases b <;> simp_all
    obtain ⟨C, -, hC2, hC3⟩ := hcompl hbf' (fun u hu => by cases hu)
    have hCw : C (s.locks w).thread_id := hC2 w ((hmem w).2 ⟨hw, hst⟩) hst
    have hCall : ∀ v, Relation.ReflTransGen s.waitsFor (s.locks w).thread_id v → C v := by
      intro v hp
      induction hp with
      | refl => exact hCw
      | tail _ hstep ih => exact (hC3 _ ih).2 _ hstep
    exact (hC3 u (hCall u hpath)).1 hu

theorem Managers.setLock_eq_self (s : Managers) (l : Nat) (f : lock_t → lock_t)
    (h : f (s.locks l) = s.locks l) : s.setLock l f = s := by
  cases s
  simp only [Managers.setLock] at h ⊢
  rw [h, Function.update_eq_self]

theorem Managers.setLock_withState_twice (s : Managers) (l : Nat) (a b : lock_t.State) :
    (s.setLock l (lock_t.withState a)).setLock l (lock_t.withState b) =
      s.setLock l (lock_t.withState b) := by
  cases s
  simp only [Managers.setLock, Function.update_same, Function.update_idem]
  rfl

theorem Managers.setConflict_eq_self (s : Managers) (t : Nat) (c : Option Nat) (node : TrxNode)
    (h : s.trx_node_table t = some node) (hc : node.conflict_lock = c) :
    s.setConflict t c = s := by
  rw [Managers.setConflict_of_some s t c node h]
  cases s
  simp only [Managers.setTrx] at h ⊢
  congr
  rw [← hc]
  exact Function.update_eq_iff.2 ⟨h.symm, fun _ _ => rfl⟩

/-! ## The lock manager: `AcquireLock` -/

set_option maxHeartbeats 800000 in
/-- `AcquireLock(mode, r, t)` under the invariant, for a thread that has its node and no
conflict lock, on a list `chain` whose tail (if any) has an id below the maximum.  The new
lock `n` is inserted at the end of the list.  When no lock of the list that is not OBSOLETE
conflicts with the mode, the call returns `n`, ACTIVE.  Otherwise the deadlock check runs
with `n` in state WAIT: on `true` the call returns `nullptr` and `n` is OBSOLETE, on `false`
the thread sleeps with `n` in state WAIT. -/
theorem LockManager.AcquireLock_spec (s : Managers) (hinv : s.Inv) (mode : lock_t.Mode)
    (r t : Nat) (chain : List Nat) (tn : TrxNode)
    (hq : s.IsQueue r chain) (hg : s.Granting chain)
    (htrx : s.trx_node_table t = some tn) (hconf : tn.conflict_lock = none)
    (hid : ∀ tl, chain.getLast? = some tl → (s.locks tl).lock_id_on_record ≠ LOCK_ID_MAX) :
    ∃ s1 id, LockManager.linkLock (LockManager.takeLock s mode r t).2 r t
        (LockManager.takeLock s mode r t).1 = some s1 ∧
      s.Inserted s1 mode r t (LockManager.takeLock s mode r t).1 id chain ∧
      ((¬ s.conflictAhead mode chain ∧
        LockManager.AcquireLock s mode r t =
          some (AcquireOutcome.lock (LockManager.takeLock s mode r t).1,
            s1.decided t (LockManager.takeLock s mode r t).1 lock_t.State.ACTIVE none)) ∨
      (s.conflictAhead mode chain ∧
        ∃ b, LockManager.IsDeadlock
            (s1.decided t (LockManager.takeLock s mode r t).1 lock_t.State.WAIT
              (some (LockManager.takeLock s mode r t).1)) t chain =
          some (b, s1.decided t (LockManager.takeLock s mode r t).1 lock_t.State.WAIT
              (some (LockManager.takeLock s mode r t).1)) ∧
          LockManager.AcquireLock s mode r t =
            some (if b = true then
                (AcquireOutcome.null,
                  s1.decided t (LockManager.takeLock s mode r t).1 lock_t.State.OBSOLETE none)
              else
                (AcquireOutcome.waiting (LockManager.takeLock s mode r t).1,
                  s1.decided t (LockManager.takeLock s mode r t).1 lock_t.State.WAIT
                    (some (LockManager.takeLock s mode r t).1))))) := by
  have hconf' : s.conflict_lock t = none := by
    rw [Managers.conflict_lock_of_some s t tn htrx]; exact hconf
  obtain ⟨s1, id, hlink, hins⟩ := LockManager.insert_spec s mode r t chain tn hinv.pools hq
    htrx hconf hid
  generalize hn : (LockManager.takeLock s mode r t).1 = n at hlink hins ⊢
  refine ⟨s1, id, hlink, hins, ?_⟩
  have hq1 := hins.queue hq
  have hnew := hins.new
  have hnmem : n ∉ chain := hins.fresh.not_mem hq
  obtain ⟨tn', htn', htn1⟩ := hins.trx
  obtain ⟨node1, hnode1, hhead1, -⟩ := hq1.ends
  obtain ⟨head, hh⟩ : ∃ head, (chain ++ [n]).head? = some head := by
    cases chain <;> simp
  have hchain : ∀ x ∈ chain, x ≠ n ∧
      (s1.locks x).lock_id_on_record ≤ (s1.locks n).lock_id_on_record := by
    intro x hx
    refine ⟨fun e => hnmem (e ▸ hx), ?_⟩
    obtain ⟨p1, p2, hp⟩ := List.append_of_mem hx
    subst hp
    have hq' : s1.IsQueue r (p1 ++ x :: (p2 ++ [n])) := by simpa using hq1
    exact le_of_lt (hq'.id_lt n (by simp))
  have hcollect : LockManager.collectWaiting s1.locks head n (s1.lock_count + 1) head [] =
      some chain := by
    have := LockManager.collectWaiting_spec s1.locks head n chain head (s1.lock_count + 1) []
      hh (by have := hq1.length_le; simp at this; omega) hchain
      (hq1.links.imp (fun a b hab => hab.1))
    simpa using this
  have hstart : LockManager.AcquireLock s mode r t =
      (LockManager.checkCompatible chain t n chain.reverse s1).bind (fun q =>
        if q.1 = true then some (AcquireOutcome.null, q.2)
        else if (q.2.locks n).state = lock_t.State.WAIT ∧
            (q.2.locks n).signal_flag = false then
          some (AcquireOutcome.waiting n, q.2)
        else some (AcquireOutcome.lock n, LockManager.finishAcquire q.2 t n)) := by
    unfold LockManager.AcquireLock
    rw [hn, hlink]
    simp only [Option.some_bind]
    rw [hnode1]
    simp only [Option.some_bind]
    rw [hhead1, hh]
    simp only [Option.some_bind]
    rw [hcollect]
    simp only [Option.some_bind]
  have hcf : ∀ p ∈ chain, ((s1.locks p).state ≠ lock_t.State.OBSOLETE ∧
      (s1.locks n).conflicts (s1.locks p)) ↔
      ((s.locks p).state ≠ lock_t.State.OBSOLETE ∧
        (mode = lock_t.Mode.EXCLUSIVE ∨ (s.locks p).mode = lock_t.Mode.EXCLUSIVE)) := by
    intro p hp
    have ho := hins.old p (hchain p hp).1
    unfold lock_t.conflicts
    rw [ho.1, ho.2.1, hnew.2.1]
  by_cases hca : s.conflictAhead mode chain
  · right
    refine ⟨hca, ?_⟩
    have hsW : s1.setLock n (lock_t.withState lock_t.State.WAIT) =
        s1.decided t n lock_t.State.WAIT (some n) := by
      unfold Managers.decided
      rw [Managers.setConflict_eq_self _ t (some n) _ (by simpa using htn1) rfl]
    have hinvW : (s1.decided t n lock_t.State.WAIT (some n)).Inv :=
      hins.inv hinv hq hg hconf' _ _ (Or.inr (Or.inl ⟨rfl, rfl, hca⟩))
    obtain ⟨b, hb, -⟩ := LockManager.IsDeadlock_spec _ hinvW t chain (by
      intro x hx
      rw [Managers.decided_lock_count]
      exact lt_of_lt_of_le (hq.members x hx).1 hins.count_le)
    refine ⟨b, hb, ?_⟩
    rw [hstart, LockManager.checkCompatible_conflict chain t n chain.reverse s1
      (fun p hp => hchain p (List.mem_reverse.1 hp))
      (by
        obtain ⟨p, hp, h1, h2⟩ := hca
        exact ⟨p, List.mem_reverse.2 hp, (hcf p hp).2 ⟨h1, h2⟩⟩)]
    rw [hsW, hb]
    simp only [Option.some_bind]
    cases b with
    | true =>
      simp only [if_true, Option.some_bind]
      congr 2
      rw [← hsW, Managers.setLock_withState_twice]
      rfl
    | false =>
      have h1 : ((s1.decided t n lock_t.State.WAIT (some n)).locks n).state =
          lock_t.State.WAIT := (hins.decided_new _ _).1
      have h2 : ((s1.decided t n lock_t.State.WAIT (some n)).locks n).signal_flag = false :=
        (hins.decided_new _ _).2.2
      simp [h1, h2]
  · left
    refine ⟨hca, ?_⟩
    rw [hstart, LockManager.checkCompatible_pass chain t n chain.reverse s1 (by
      intro p hp hst hc
      have hp' := List.mem_reverse.1 hp
      exact hca ⟨p, hp', ((hcf p hp').1 ⟨hst, hc⟩).1, ((hcf p hp').1 ⟨hst, hc⟩).2⟩)]
    simp only [Option.some_bind]
    have hst : (s1.locks n).state = lock_t.State.ACTIVE := hnew.1
    have hfin : LockManager.finishAcquire s1 t n =
        s1.decided t n lock_t.State.ACTIVE none := by
      unfold LockManager.finishAcquire Managers.decided
      rw [if_neg (by rw [hst]; decide)]
      rw [Managers.setLock_eq_self s1 n _ (by
        unfold lock_t.withState; rw [← hst])]
    simp [hst, hfin]

/-! ## The lock manager: `ReleaseLock` -/

set_option maxHeartbeats 400000 in
/-- The head moves from an OBSOLETE lock `x` over the OBSOLETE locks `d` of the list
`x :: rest` and stops at the first lock that is not OBSOLETE, or at the last lock; the locks
it leaves are marked as passed. -/
theorem LockManager.moveHead_spec (r : Nat) :
    ∀ (rest : List Nat) (x fuel : Nat) (s : Managers) (node : LockTableNode),
      List.Chain' (fun a b => (s.locks a).next = some b) (x :: rest) →
      (∀ l, (x :: rest).getLast? = some l → (s.locks l).next = none) →
      (x :: rest).Nodup → rest.length < fuel →
      s.lock_table r = some node → node.head = some x →
      (s.locks x).state = lock_t.State.OBSOLETE →
      ∃ d chain' target s', LockManager.moveHead r fuel x s = some (target, s') ∧
        x :: rest = d ++ chain' ∧ chain' ≠ [] ∧
        (∀ y ∈ d, (s.locks y).state = lock_t.State.OBSOLETE) ∧
        (∀ l, (s'.locks l).state = (s.locks l).state ∧
          (s'.locks l).signal_flag = (s.locks l).signal_flag ∧
          (s'.locks l).head_pass_flag =
            (if l ∈ d then true else (s.locks l).head_pass_flag)) ∧
        (∃ node', s'.lock_table r = some node' ∧ node'.head = chain'.head? ∧
          node'.tail = node.tail) ∧
        (target = none → ∃ l, chain' = [l] ∧ (s.locks l).state = lock_t.State.OBSOLETE) ∧
        (∀ g, target = some g → chain'.head? = some g ∧
          (s.locks g).state ≠ lock_t.State.OBSOLETE) := by
  intro rest
  induction rest with
  | nil =>
    intro x fuel s node hc hlast hnd hf hnode hhead hst
    cases fuel with
    | zero => simp at hf
    | succ fuel =>
      have hn : (s.locks x).next = none := hlast x (by simp)
      refine ⟨[], [x], none, s, ?_, (by simp), (by simp), (fun y hy => by cases hy), ?_,
        ⟨node, hnode, (by simpa using hhead), rfl⟩, (fun _ => ⟨x, rfl, hst⟩),
        (fun g hg => by cases hg)⟩
      · unfold LockManager.moveHead; rw [hn]
      · intro l; simp
  | cons b rest ih =>
    intro x fuel s node hc hlast hnd hf hnode hhead hst
    cases fuel with
    | zero => simp at hf
    | succ fuel =>
      rw [List.chain'_cons] at hc
      have hnext : (s.locks x).next = some b := hc.1
      have hbx : b ≠ x := by
        intro e
        rw [List.nodup_cons] at hnd
        exact hnd.1 (e ▸ List.mem_cons_self _ _)
      have hs1locks : ∀ l, ((s.setNode r { node with head := some b }).setLock x
          lock_t.passHead).locks l = if l = x then lock_t.passHead (s.locks x) else s.locks l := by
        intro l
        simp only [Managers.setLock_locks, Managers.setNode_locks, Function.update_apply]
      have hs1b : ((s.setNode r { node with head := some b }).setLock x
          lock_t.passHead).locks b = s.locks b := by rw [hs1locks, if_neg hbx]
      unfold LockManager.moveHead
      rw [hnext]
      simp only
      rw [hnode]
      simp only [Option.some_bind]
      rw [hs1b]
      by_cases hbst : (s.locks b).state = lock_t.State.OBSOLETE
      · rw [if_pos hbst]
        obtain ⟨d, chain', target, s', hmove, hsplit, hne, hd, hl, hnode', htn, hts⟩ :=
          ih b fuel ((s.setNode r { node with head := some b }).setLock x lock_t.passHead)
            { node with head := some b }
            (by
              refine hc.2.imp ?_
              intro a c hac
              rw [hs1locks]
              split
              · rename_i e; subst e; exact hac
              · exact hac)
            (by
              intro l hl
              have hl' : (x :: b :: rest).getLast? = some l := by
                simpa [List.getLast?_cons_cons] using hl
              rw [hs1locks]
              split
              · rename_i e; subst e; exact hlast _ hl'
              · exact hlast _ hl')
            (List.nodup_cons.1 hnd).2 (by simpa using hf) (by simp) rfl
            (by rw [hs1b]; exact hbst)
        have hxd : x ∉ d := by
          intro hx
          have : x ∈ b :: rest := by rw [hsplit]; exact List.mem_append_left _ hx
          exact (List.nodup_cons.1 hnd).1 this
        refine ⟨x :: d, chain', target, s', hmove, (by rw [hsplit]; rfl), hne, ?_, ?_, ?_, ?_,
          ?_⟩
        · intro y hy
          rcases List.mem_cons.1 hy with e | e
          · subst e; exact hst
          · have := hd y e
            rw [hs1locks] at this
            split at this
            · rename_i e'; subst e'; exact hst
            · exact this
        · intro l
          obtain ⟨h1, h2, h3⟩ := hl l
          rw [h1, h2, h3, hs1locks]
          by_cases hlx : l = x
          · subst hlx
            simp [hxd, lock_t.passHead]
          · simp [hlx]
        · obtain ⟨node', h1, h2, h3⟩ := hnode'
          exact ⟨node', h1, h2, h3⟩
        · intro ht
          obtain ⟨l, h1, h2⟩ := htn ht
          refine ⟨l, h1, ?_⟩
          rw [hs1locks] at h2
          split at h2
          · rename_i e; subst e; exact hst
          · exact h2
        · intro g hg
          obtain ⟨h1, h2⟩ := hts g hg
          refine ⟨h1, ?_⟩
          rw [hs1locks] at h2
          split at h2
          · rename_i e; subst e; exact h2
          · exact h2
      · rw [if_neg hbst]
        refine ⟨[x], b :: rest, some b, _, rfl, rfl, (by simp), ?_, ?_, ?_,
          (fun h => by cases h), ?_⟩
        · intro y hy
          simp only [List.mem_singleton] at hy
          subst hy; exact hst
        · intro l
          rw [hs1locks]
          by_cases hlx : l = x
          · subst hlx; simp [lock_t.passHead]
          · simp [hlx]
        · exact ⟨{ node with head := some b }, (by simp), rfl, rfl⟩
        · intro g hg
          cases hg
          exact ⟨rfl, hbst⟩

theorem Managers.sharedRun_congr {s s' : Managers}
    (h : ∀ l, (s'.locks l).state = (s.locks l).state ∧ (s'.locks l).mode = (s.locks l).mode) :
    ∀ rest, s'.sharedRun rest = s.sharedRun rest := by
  intro rest
  induction rest with
  | nil => rfl
  | cons x rest ih =>
    simp only [Managers.sharedRun, (h x).1, (h x).2, ih]

/-- The successor of the first lock of a path. -/
theorem List.next_of_path {next : Nat → Option Nat} {x : Nat} {rest : List Nat}
    (hc : List.Chain' (fun a b => next a = some b) (x :: rest))
    (hlast : ∀ l, (x :: rest).getLast? = some l → next l = none) : next x = rest.head? := by
  cases rest with
  | nil => exact hlast x (by simp)
  | cons b t =>
    rw [List.chain'_cons] at hc
    exact hc.1

/-- The loop of `ReleaseLock` behind a SHARED new head sets the signal of the locks of
`sharedRun` and changes nothing else. -/
theorem LockManager.wakeShared_spec :
    ∀ (rest : List Nat) (target : Option Nat) (fuel : Nat) (s : Managers),
      rest.head? = target →
      List.Chain' (fun a b => (s.locks a).next = some b) rest →
      (∀ l, rest.getLast? = some l → (s.locks l).next = none) →
      rest.length < fuel →
      ∃ s', LockManager.wakeShared fuel target s = some s' ∧
        ∀ l, (s'.locks l).state = (s.locks l).state ∧
          (s'.locks l).head_pass_flag = (s.locks l).head_pass_flag ∧
          (s'.locks l).signal_flag =
            (if l ∈ s.sharedRun rest then true else (s.locks l).signal_flag) := by
  intro rest
  induction rest with
  | nil =>
    intro target fuel s ht _ _ hf
    simp only [List.head?_nil] at ht
    subst ht
    cases fuel with
    | zero => simp at hf
    | succ fuel =>
      exact ⟨s, rfl, fun l => ⟨rfl, rfl, by simp [Managers.sharedRun]⟩⟩
  | cons x rest ih =>
    intro target fuel s ht hc hlast hf
    simp only [List.head?_cons] at ht
    subst ht
    cases fuel with
    | zero => simp at hf
    | succ fuel =>
      have hnext : (s.locks x).next = rest.head? := List.next_of_path hc hlast
      have hc' : List.Chain' (fun a b => (s.locks a).next = some b) rest := hc.tail
      have hlast' : ∀ l, rest.getLast? = some l → (s.locks l).next = none := by
        intro l hl
        cases rest with
        | nil => simp at hl
        | cons b t => exact hlast l (by simpa [List.getLast?_cons_cons] using hl)
      have hf' : rest.length < fuel := by simpa using hf
      unfold LockManager.wakeShared
      by_cases hst : (s.locks x).state = lock_t.State.OBSOLETE
      · rw [if_pos hst]
        obtain ⟨s', h1, h2⟩ := ih (s.locks x).next fuel s hnext.symm hc' hlast' hf'
        refine ⟨s', h1, ?_⟩
        intro l
        obtain ⟨g1, g2, g3⟩ := h2 l
        refine ⟨g1, g2, ?_⟩
        rw [g3]
        simp only [Managers.sharedRun, if_pos hst]
      · rw [if_neg hst]
        by_cases hm : (s.locks x).mode = lock_t.Mode.EXCLUSIVE
        · rw [if_pos hm]
          refine ⟨s, rfl, fun l => ⟨rfl, rfl, ?_⟩⟩
          simp [Managers.sharedRun, hst, hm]
        · rw [if_neg hm]
          have hlocks : ∀ l, ((TrxManager.GetTrxNode s (s.locks x).thread_id).setLock x
              lock_t.signal).locks l = if l = x then lock_t.signal (s.locks x) else s.locks l := by
            intro l
            simp only [Managers.setLock_locks, TrxManager.GetTrxNode_locks,
              Function.update_apply]
          have hnx : ∀ l, (((TrxManager.GetTrxNode s (s.locks x).thread_id).setLock x
              lock_t.signal).locks l).next = (s.locks l).next := by
            intro l; rw [hlocks]; split
            · rename_i e; subst e; rfl
            · rfl
          obtain ⟨s', h1, h2⟩ := ih
            (((TrxManager.GetTrxNode s (s.locks x).thread_id).setLock x lock_t.signal).locks
              x).next fuel
            ((TrxManager.GetTrxNode s (s.locks x).thread_id).setLock x lock_t.signal)
            (by rw [hnx, hnext])
            (hc'.imp (fun a b hab => by rw [hnx]; exact hab))
            (fun l hl => by rw [hnx]; exact hlast' l hl) hf'
          refine ⟨s', h1, ?_⟩
          intro l
          obtain ⟨g1, g2, g3⟩ := h2 l
          have hrun : Managers.sharedRun ((TrxManager.GetTrxNode s (s.locks x).thread_id).setLock
              x lock_t.signal) rest = s.sharedRun rest := by
            refine Managers.sharedRun_congr ?_ rest
            intro k; rw [hlocks]; split
            · rename_i e; subst e; exact ⟨rfl, rfl⟩
            · exact ⟨rfl, rfl⟩
          rw [g1, g2, g3, hrun, hlocks]
          simp only [Managers.sharedRun, if_neg hst, if_neg hm, List.mem_cons]
          by_cases hlx : l = x
          · subst hlx
            simp [lock_t.signal]
          · simp [hlx]

theorem LockManager.wakeShared_lock_table :
    ∀ (fuel : Nat) (target : Option Nat) (s s' : Managers),
      LockManager.wakeShared fuel target s = some s' → s'.lock_table = s.lock_table := by
  intro fuel
  induction fuel with
  | zero => intro target s s' h; simp [LockManager.wakeShared] at h
  | succ fuel ih =>
    intro target s s' h
    cases target with
    | none =>
      simp only [LockManager.wakeShared, Option.some.injEq] at h
      subst h; rfl
    | some target =>
      simp only [LockManager.wakeShared] at h
      split at h
      · exact ih _ _ _ h
      · split at h
        · simp only [Option.some.injEq] at h
          subst h; rfl
        · rw [ih _ _ _ h]; simp

set_option maxHeartbeats 800000 in
/-- The part of `ReleaseLock` after the store of the state, on a well-formed list that is
not empty.  Either the head is not OBSOLETE and nothing happens; or all locks are OBSOLETE
and the head moves to the last one; or the head moves over the OBSOLETE locks `d` to the
first lock `g` that is not OBSOLETE, and `g` is signalled, with the locks of `sharedRun`
behind it when `g` is SHARED. -/
theorem LockManager.advance_spec (s : Managers) (r : Nat) (chain : List Nat)
    (hq : s.IsQueue r chain) (hne : chain ≠ []) :
    ∃ s' d chain' woken, LockManager.advance s r = some s' ∧ chain = d ++ chain' ∧
      chain' ≠ [] ∧ (∀ y ∈ d, (s.locks y).state = lock_t.State.OBSOLETE) ∧
      (∃ node', s'.lock_table r = some node' ∧ node'.head = chain'.head? ∧
        node'.tail = chain.getLast?) ∧
      (∀ l, (s'.locks l).state = (s.locks l).state ∧
        (s'.locks l).head_pass_flag = (if l ∈ d then true else (s.locks l).head_pass_flag) ∧
        (s'.locks l).signal_flag = (if l ∈ woken then true else (s.locks l).signal_flag)) ∧
      ((d = [] ∧ woken = [] ∧ ∃ h, chain.head? = some h ∧
          (s.locks h).state ≠ lock_t.State.OBSOLETE) ∨
        (woken = [] ∧ ∃ l, chain' = [l] ∧ (s.locks l).state = lock_t.State.OBSOLETE) ∨
        (∃ g rest', chain' = g :: rest' ∧ (s.locks g).state ≠ lock_t.State.OBSOLETE ∧
          woken = g :: (if (s.locks g).mode = lock_t.Mode.SHARED then s.sharedRun rest'
            else []) ∧ d ≠ [])) := by
  obtain ⟨node, hnode, hhead, htail⟩ := hq.ends
  cases chain with
  | nil => exact absurd rfl hne
  | cons x rest =>
    simp only [List.head?_cons] at hhead
    unfold LockManager.advance
    rw [hnode]
    simp only [Option.some_bind]
    rw [hhead]
    simp only [Option.some_bind]
    by_cases hst : (s.locks x).state = lock_t.State.OBSOLETE
    · rw [if_neg (by simpa using hst)]
      obtain ⟨d, chain', target, s1, hmove, hsplit, hne', hd, hl1, ⟨node', hn1, hn2, hn3⟩,
          htn, hts⟩ :=
        LockManager.moveHead_spec r rest x (s.lock_count + 1) s node
          (hq.links.imp (fun a b hab => hab.1)) (fun l hl => (hq.last l hl).1) hq.nodup
          (by have := hq.length_le; simp at this; omega) hnode hhead hst
      have hfr1 := LockManager.moveHead_frame _ _ _ _ _ hmove
      rw [hmove]
      simp only [Option.some_bind]
      cases target with
      | none =>
        obtain ⟨l, hl, hlst⟩ := htn rfl
        refine ⟨s1, d, chain', [], rfl, hsplit, hne', hd,
          ⟨node', hn1, hn2, (by rw [hn3, htail])⟩, ?_, Or.inr (Or.inl ⟨rfl, l, hl, hlst⟩)⟩
        intro k
        obtain ⟨g1, g2, g3⟩ := hl1 k
        exact ⟨g1, g3, by simpa using g2⟩
      | some g =>
        obtain ⟨hg1, hg2⟩ := hts g rfl
        obtain ⟨rest', hch'⟩ : ∃ rest', chain' = g :: rest' := by
          cases chain' with
          | nil => exact absurd rfl hne'
          | cons a t =>
            simp only [List.head?_cons, Option.some.injEq] at hg1
            subst hg1
            exact ⟨t, rfl⟩
        subst hch'
        have hdne : d ≠ [] := by
          intro e
          subst e
          simp only [List.nil_append, List.cons.injEq] at hsplit
          exact hg2 (hsplit.1 ▸ hst)
        have hq' : List.Chain' (fun a b => (s.locks a).next = some b) (g :: rest') := by
          have h1 : List.Chain' (fun a b => (s.locks a).next = some b) (x :: rest) :=
            hq.links.imp (fun a b hab => hab.1)
          rw [hsplit] at h1
          exact (List.chain'_append.1 h1).2.1
        have hlast' : ∀ l, (g :: rest').getLast? = some l → (s.locks l).next = none := by
          intro l hl
          refine (hq.last l ?_).1
          rw [hsplit, List.getLast?_append_of_ne_nil _ (by simp)]
          exact hl
        have hlen : rest'.length < s.lock_count + 1 := by
          have := hq.length_le
          rw [hsplit] at this
          simp at this
          omega
        have hs2locks : ∀ l, ((TrxManager.GetTrxNode s1 (s1.locks g).thread_id).setLock g
            lock_t.signal).locks l = if l = g then lock_t.signal (s1.locks g) else s1.locks l := by
          intro l
          simp only [Managers.setLock_locks, TrxManager.GetTrxNode_locks, Function.update_apply]
        have hs2next : ∀ l, (((TrxManager.GetTrxNode s1 (s1.locks g).thread_id).setLock g
            lock_t.signal).locks l).next = (s.locks l).next := by
          intro l; rw [hs2locks, ← hfr1.next l]; split
          · rename_i e; subst e; rfl
          · rfl
        have hs2tab : ((TrxManager.GetTrxNode s1 (s1.locks g).thread_id).setLock g
            lock_t.signal).lock_table r = some node' := by simpa using hn1
        simp only
        unfold LockManager.wakeHead
        have hmode : (s1.locks g).mode = (s.locks g).mode := hfr1.mode g
        by_cases hm : (s.locks g).mode = lock_t.Mode.SHARED
        · rw [if_pos (by rw [hmode]; exact hm)]
          obtain ⟨s', hw, hwl⟩ := LockManager.wakeShared_spec rest' (s1.locks g).next
            (s1.lock_count + 1)
            ((TrxManager.GetTrxNode s1 (s1.locks g).thread_id).setLock g lock_t.signal)
            (by rw [hfr1.next g]; exact (List.next_of_path hq' hlast').symm)
            (hq'.tail.imp (fun a b hab => by rw [hs2next]; exact hab))
            (fun l hl => by
              rw [hs2next]
              cases rest' with
              | nil => simp at hl
              | cons b t => exact hlast' l (by simpa [List.getLast?_cons_cons] using hl))
            (by rw [hfr1.lock_count]; exact hlen)
          have hfr2 := LockManager.wakeShared_frame _ _ _ _ hw
          have hrun : Managers.sharedRun ((TrxManager.GetTrxNode s1
              (s1.locks g).thread_id).setLock g lock_t.signal) rest' = s.sharedRun rest' := by
            refine Managers.sharedRun_congr ?_ rest'
            intro k
            rw [hs2locks]
            split
            · rename_i e; subst e
              exact ⟨(hl1 k).1, hfr1.mode k⟩
            · exact ⟨(hl1 k).1, hfr1.mode k⟩
          refine ⟨s', d, g :: rest', g :: s.sharedRun rest', hw, hsplit, hne', hd, ?_, ?_,
            Or.inr (Or.inr ⟨g, rest', rfl, hg2, (by rw [if_pos hm]), hdne⟩)⟩
          · refine ⟨node', ?_, hn2, (by rw [hn3, htail])⟩
            rw [LockManager.wakeShared_lock_table _ _ _ _ hw]
            exact hs2tab
          · intro k
            obtain ⟨g1, g2, g3⟩ := hwl k
            obtain ⟨f1, f2, f3⟩ := hl1 k
            rw [g1, g2, g3, hrun, hs2locks]
            by_cases hkg : k = g
            · subst hkg
              simp [lock_t.signal, f1, f3]
            · simp [hkg, f1, f2, f3]
        · rw [if_neg (by rw [hmode]; exact hm)]
          refine ⟨_, d, g :: rest', [g], rfl, hsplit, hne', hd,
            ⟨node', hs2tab, hn2, (by rw [hn3, htail])⟩, ?_,
            Or.inr (Or.inr ⟨g, rest', rfl, hg2, (by rw [if_neg hm]), hdne⟩)⟩
          intro k
          obtain ⟨f1, f2, f3⟩ := hl1 k
          rw [hs2locks]
          by_cases hkg : k = g
          · subst hkg
            simp [lock_t.signal, f1, f3]
          · simp [hkg, f1, f2, f3]
    · rw [if_pos (by simpa using hst)]
      refine ⟨s, [], x :: rest, [], rfl, rfl, hne, (fun y hy => by cases hy),
        ⟨node, hnode, (by simpa using hhead), htail⟩,
        (fun l => ⟨rfl, (by simp), (by simp)⟩), Or.inl ⟨rfl, rfl, x, rfl, hst⟩⟩

theorem LockManager.moveHead_other_nodes (r : Nat) :
    ∀ (fuel prev : Nat) (s : Managers) (q : Option Nat × Managers),
      LockManager.moveHead r fuel prev s = some q →
      ∀ r', r' ≠ r → q.2.lock_table r' = s.lock_table r' := by
  intro fuel
  induction fuel with
  | zero => intro prev s q h; simp [LockManager.moveHead] at h
  | succ fuel ih =>
    intro prev s q h r' hr'
    unfold LockManager.moveHead at h
    cases hn : (s.locks prev).next with
    | none =>
      rw [hn] at h
      simp only [Option.some.injEq] at h
      subst h; rfl
    | some target =>
      rw [hn] at h
      simp only at h
      obtain ⟨node, hnode, h⟩ := Option.bind_eq_some.1 h
      split at h
      · rw [ih _ _ _ h r' hr']
        simp [Function.update_noteq hr']
      · simp only [Option.some.injEq] at h
        subst h
        simp [Function.update_noteq hr']

theorem LockManager.wakeHead_lock_table (s s' : Managers) (new_head : Nat)
    (h : LockManager.wakeHead s new_head = some s') : s'.lock_table = s.lock_table := by
  unfold LockManager.wakeHead at h
  split at h
  · rw [LockManager.wakeShared_lock_table _ _ _ _ h]; simp
  · simp only [Option.some.injEq] at h
    subst h; simp

/-- `ReleaseLock` changes the node of one record only. -/
theorem LockManager.advance_other_nodes (s s' : Managers) (r : Nat)
    (h : LockManager.advance s r = some s') :
    ∀ r', r' ≠ r → s'.lock_table r' = s.lock_table r' := by
  intro r' hr'
  unfold LockManager.advance at h
  obtain ⟨head, -, h⟩ := Option.bind_eq_some.1 h
  split at h
  · simp only [Option.some.injEq] at h
    subst h; rfl
  · obtain ⟨q, hm, h⟩ := Option.bind_eq_some.1 h
    have h2 := LockManager.moveHead_other_nodes _ _ _ _ _ hm r' hr'
    cases hq : q.1 with
    | none =>
      rw [hq] at h
      simp only [Option.some.injEq] at h
      subst h
      exact h2
    | some new_head =>
      rw [hq] at h
      rw [LockManager.wakeHead_lock_table _ _ _ h]
      exact h2

theorem Managers.sharedRun_cons (s : Managers) (x : Nat) (rest : List Nat) :
    s.sharedRun (x :: rest) =
      if (s.locks x).state = lock_t.State.OBSOLETE then s.sharedRun rest
      else if (s.locks x).mode = lock_t.Mode.EXCLUSIVE then []
      else x :: s.sharedRun rest := rfl

theorem Managers.sharedRun_subset (s : Managers) :
    ∀ rest x, x ∈ s.sharedRun rest → x ∈ rest := by
  intro rest
  induction rest with
  | nil => intro x hx; simp [Managers.sharedRun] at hx
  | cons a rest ih =>
    intro x hx
    simp only [Managers.sharedRun] at hx
    split at hx
    · exact List.mem_cons_of_mem _ (ih x hx)
    · split at hx
      · cases hx
      · rcases List.mem_cons.1 hx with e | e
        · subst e; exact List.mem_cons_self _ _
        · exact List.mem_cons_of_mem _ (ih x e)

/-- A lock behind a SHARED new head is signalled exactly when it is not OBSOLETE and neither
it nor a lock before it that is not OBSOLETE is EXCLUSIVE. -/
theorem Managers.mem_sharedRun (s : Managers) (l : Nat) (post : List Nat) (hl : l ∉ post) :
    ∀ pre, l ∉ pre →
      (l ∈ s.sharedRun (pre ++ l :: post) ↔
        (s.locks l).state ≠ lock_t.State.OBSOLETE ∧
        (s.locks l).mode ≠ lock_t.Mode.EXCLUSIVE ∧
        ∀ p ∈ pre, (s.locks p).state ≠ lock_t.State.OBSOLETE →
          (s.locks p).mode ≠ lock_t.Mode.EXCLUSIVE) := by
  intro pre
  induction pre with
  | nil =>
    intro _
    rw [List.nil_append, Managers.sharedRun_cons]
    by_cases hst : (s.locks l).state = lock_t.State.OBSOLETE
    · rw [if_pos hst]
      constructor
      · intro h; exact absurd (s.sharedRun_subset post l h) hl
      · intro h; exact absurd hst h.1
    · rw [if_neg hst]
      by_cases hm : (s.locks l).mode = lock_t.Mode.EXCLUSIVE
      · rw [if_pos hm]
        constructor
        · intro h; cases h
        · intro h; exact absurd hm h.2.1
      · rw [if_neg hm]
        simp [hst, hm]
  | cons p pre ih =>
    intro hlp
    have hlp1 : l ≠ p := fun e => hlp (e ▸ List.mem_cons_self _ _)
    have hlp2 : l ∉ pre := fun e => hlp (List.mem_cons_of_mem _ e)
    rw [List.cons_append, Managers.sharedRun_cons]
    by_cases hst : (s.locks p).state = lock_t.State.OBSOLETE
    · rw [if_pos hst, ih hlp2]
      constructor
      · rintro ⟨h1, h2, h3⟩
        refine ⟨h1, h2, ?_⟩
        intro q hq hqs
        rcases List.mem_cons.1 hq with e | e
        · subst e; exact absurd hst hqs
        · exact h3 q e hqs
      · rintro ⟨h1, h2, h3⟩
        exact ⟨h1, h2, fun q hq hqs => h3 q (List.mem_cons_of_mem _ hq) hqs⟩
    · rw [if_neg hst]
      by_cases hm : (s.locks p).mode = lock_t.Mode.EXCLUSIVE
      · rw [if_pos hm]
        constructor
        · intro h; cases h
        · rintro ⟨-, -, h3⟩
          exact absurd hm (h3 p (List.mem_cons_self _ _) hst)
      · rw [if_neg hm, List.mem_cons, ih hlp2]
        constructor
        · rintro (e | ⟨h1, h2, h3⟩)
          · exact absurd e hlp1
          · refine ⟨h1, h2, ?_⟩
            intro q hq hqs
            rcases List.mem_cons.1 hq with e | e
            · subst e; exact hm
            · exact h3 q e hqs
        · rintro ⟨h1, h2, h3⟩
          exact Or.inr ⟨h1, h2, fun q hq hqs => h3 q (List.mem_cons_of_mem _ hq) hqs⟩

/-- The state of a lock after the store `release_lock->state = OBSOLETE`. -/
theorem Managers.obsolete_state (s : Managers) (rl l : Nat) :
    ((s.setLock rl (lock_t.withState lock_t.State.OBSOLETE)).locks l).state =
      if l = rl then lock_t.State.OBSOLETE else (s.locks l).state := by
  simp only [Managers.setLock_locks, Function.update_apply]
  split
  · rfl
  · rfl

set_option maxHeartbeats 800000 in
/-- `ReleaseLock(rl)` on a well-formed list `chain` of the record of `rl`: the lock becomes
OBSOLETE; the head moves over a run `d` of OBSOLETE locks at the front of the list (none
when the head is not OBSOLETE), the locks of `d` are marked as passed, and the list is
`chain'` afterwards; the locks `woken` get their signal; nothing else changes. -/
theorem LockManager.ReleaseLock_spec (s : Managers) (rl : Nat) (chain : List Nat)
    (hq : s.IsQueue (s.locks rl).record_id chain) (hne : chain ≠ []) :
    ∃ s' d chain' woken, LockManager.ReleaseLock s rl = some s' ∧ chain = d ++ chain' ∧
      chain' ≠ [] ∧ s.ReleaseFrame s' ∧ s'.IsQueue (s.locks rl).record_id chain' ∧
      (∀ r', r' ≠ (s.locks rl).record_id → s'.lock_table r' = s.lock_table r') ∧
      (∀ y ∈ d, y = rl ∨ (s.locks y).state = lock_t.State.OBSOLETE) ∧
      (∀ l, (s'.locks l).state =
          (if l = rl then lock_t.State.OBSOLETE else (s.locks l).state) ∧
        (s'.locks l).head_pass_flag = (if l ∈ d then true else (s.locks l).head_pass_flag) ∧
        (s'.locks l).signal_flag = (if l ∈ woken then true else (s.locks l).signal_flag)) ∧
      ((d = [] ∧ woken = [] ∧ ∃ h, chain.head? = some h ∧ h ≠ rl ∧
          (s.locks h).state ≠ lock_t.State.OBSOLETE) ∨
        (woken = [] ∧ ∃ l, chain' = [l] ∧ (s'.locks l).state = lock_t.State.OBSOLETE) ∨
        (∃ g rest', chain' = g :: rest' ∧ (s'.locks g).state ≠ lock_t.State.OBSOLETE ∧
          woken = g :: (if (s.locks g).mode = lock_t.Mode.SHARED then s'.sharedRun rest'
            else []) ∧ d ≠ [])) := by
  have hfrO : s.ReleaseFrame (s.setLock rl (lock_t.withState lock_t.State.OBSOLETE)) :=
    Managers.ReleaseFrame.setLock s rl _ (fun _ => ⟨rfl, rfl, rfl, rfl, rfl, rfl, rfl⟩)
  have hflags : ∀ l, ((s.setLock rl (lock_t.withState lock_t.State.OBSOLETE)).locks
        l).head_pass_flag = (s.locks l).head_pass_flag ∧
      ((s.setLock rl (lock_t.withState lock_t.State.OBSOLETE)).locks l).signal_flag =
        (s.locks l).signal_flag := by
    intro l
    simp only [Managers.setLock_locks, Function.update_apply]
    split
    · rename_i e; subst e; exact ⟨rfl, rfl⟩
    · exact ⟨rfl, rfl⟩
  have hqO : (s.setLock rl (lock_t.withState lock_t.State.OBSOLETE)).IsQueue
      (s.locks rl).record_id chain := by
    refine hq.congr_locks rfl rfl ?_ ?_
    · intro l
      exact ⟨hfrO.next l, hfrO.lock_id l, hfrO.id_pass l, (hflags l).1, hfrO.record_id l⟩
    · intro l _ hst
      rw [Managers.obsolete_state]
      split
      · rfl
      · exact hst
  obtain ⟨s', d, chain', woken, hadv, hsplit, hne', hd, ⟨node', hn1, hn2, hn3⟩, hl, hcases⟩ :=
    LockManager.advance_spec _ _ chain hqO hne
  have hfr : (s.setLock rl (lock_t.withState lock_t.State.OBSOLETE)).ReleaseFrame s' :=
    LockManager.advance_frame _ _ _ hadv
  have hfrT : s.ReleaseFrame s' := hfrO.trans hfr
  have hstate : ∀ l, (s'.locks l).state =
      (if l = rl then lock_t.State.OBSOLETE else (s.locks l).state) := by
    intro l
    rw [(hl l).1, Managers.obsolete_state]
  have hnd : (d ++ chain').Nodup := hsplit ▸ hq.nodup
  have hdisj := (List.nodup_append.1 hnd).2.2
  have hrun : ∀ rest', Managers.sharedRun
      (s.setLock rl (lock_t.withState lock_t.State.OBSOLETE)) rest' = s'.sharedRun rest' := by
    intro rest'
    refine (Managers.sharedRun_congr ?_ rest')
    intro k
    exact ⟨((hl k).1).symm, (hfr.mode k).symm⟩
  refine ⟨s', d, chain', woken, hadv, hsplit, hne', hfrT, ?_,
    LockManager.advance_other_nodes
      (s.setLock rl (lock_t.withState lock_t.State.OBSOLETE)) s' _ hadv, ?_, ?_, ?_⟩
  · refine ⟨⟨node', hn1, hn2, ?_⟩, ?_, (List.nodup_append.1 hnd).2.1, ?_, ?_, ?_, ?_⟩
    · rw [hn3, hsplit, List.getLast?_append_of_ne_nil _ hne']
    · have h1 : List.Chain' s.linked (d ++ chain') := hsplit ▸ hq.links
      refine (List.chain'_append.1 h1).2.1.imp ?_
      intro a b hab
      unfold Managers.linked
      rw [hfrT.next a, hfrT.lock_id b, hfrT.lock_id a, hfrT.id_pass a]
      exact hab
    · intro l hlast
      rw [hfrT.next l, hfrT.id_pass l]
      refine hq.last l ?_
      rw [hsplit, List.getLast?_append_of_ne_nil _ hne']
      exact hlast
    · intro l hlm
      have hlc : l ∈ chain := by rw [hsplit]; exact List.mem_append_right _ hlm
      obtain ⟨g1, g2, g3⟩ := hq.members l hlc
      refine ⟨by rw [hfrT.lock_count]; exact g1, by rw [hfrT.record_id]; exact g2, ?_⟩
      rw [(hl l).2.1, if_neg (fun hld => hdisj hld hlm), (hflags l).1]
      exact g3
    · intro l hlt hrec hnot
      rw [hfrT.lock_count] at hlt
      rw [hfrT.record_id] at hrec
      rw [(hl l).1]
      by_cases hld : l ∈ d
      · exact hd l hld
      · have hlc : l ∉ chain := by
          rw [hsplit, List.mem_append, not_or]; exact ⟨hld, hnot⟩
        rw [Managers.obsolete_state]
        split
        · rfl
        · exact hq.others l hlt hrec hlc
    · intro _ _ _; exact hne'
  · intro y hy
    have := hd y hy
    rw [Managers.obsolete_state] at this
    by_cases e : y = rl
    · exact Or.inl e
    · rw [if_neg e] at this; exact Or.inr this
  · intro l
    refine ⟨hstate l, ?_, ?_⟩
    · rw [(hl l).2.1, (hflags l).1]
    · rw [(hl l).2.2, (hflags l).2]
  · rcases hcases with ⟨h1, h2, h, hh, hhs⟩ | ⟨h1, l, h2, h3⟩ | ⟨g, rest', h1, h2, h3, h4⟩
    · left
      rw [Managers.obsolete_state] at hhs
      by_cases e : h = rl
      · rw [if_pos e] at hhs; exact absurd rfl hhs
      · rw [if_neg e] at hhs
        exact ⟨h1, h2, h, hh, e, hhs⟩
    · right; left
      exact ⟨h1, l, h2, by rw [(hl l).1]; exact h3⟩
    · right; right
      refine ⟨g, rest', h1, by rw [(hl g).1]; exact h2, ?_, h4⟩
      rw [h3, hrun]
      have : ((s.setLock rl (lock_t.withState lock_t.State.OBSOLETE)).locks g).mode =
          (s.locks g).mode := hfrO.mode g
      rw [this]

/-- A mode that is not EXCLUSIVE is SHARED. -/
theorem lock_t.Mode.shared_of_ne {m : lock_t.Mode} (h : m ≠ lock_t.Mode.EXCLUSIVE) :
    m = lock_t.Mode.SHARED := by
  cases m
  · rfl
  · exact absurd rfl h

set_option maxHeartbeats 1600000 in
/-- The grants along the list of a record after `ReleaseLock` has been called for a lock of
the record that did not wait. -/
theorem Managers.granting_release {s s' : Managers} {rl : Nat}
    {chain d chain' woken : List Nat}
    (hq : s.IsQueue (s.locks rl).record_id chain) (hg : s.Granting chain)
    (hnw : (s.locks rl).state ≠ lock_t.State.WAIT)
    (hsplit : chain = d ++ chain')
    (hmode : ∀ l, (s'.locks l).mode = (s.locks l).mode)
    (hl : ∀ l, (s'.locks l).state =
        (if l = rl then lock_t.State.OBSOLETE else (s.locks l).state) ∧
      (s'.locks l).head_pass_flag = (if l ∈ d then true else (s.locks l).head_pass_flag) ∧
      (s'.locks l).signal_flag = (if l ∈ woken then true else (s.locks l).signal_flag))
    (hcases : (d = [] ∧ woken = [] ∧ ∃ h, chain.head? = some h ∧ h ≠ rl ∧
          (s.locks h).state ≠ lock_t.State.OBSOLETE) ∨
        (woken = [] ∧ ∃ l, chain' = [l] ∧ (s'.locks l).state = lock_t.State.OBSOLETE) ∨
        (∃ g rest', chain' = g :: rest' ∧ (s'.locks g).state ≠ lock_t.State.OBSOLETE ∧
          woken = g :: (if (s.locks g).mode = lock_t.Mode.SHARED then s'.sharedRun rest'
            else []))) :
    s'.Granting chain' := by
  have hst : ∀ l, (s'.locks l).state ≠ lock_t.State.OBSOLETE →
      l ≠ rl ∧ (s'.locks l).state = (s.locks l).state ∧
        (s.locks l).state ≠ lock_t.State.OBSOLETE := by
    intro l h
    rw [(hl l).1] at h
    by_cases e : l = rl
    · rw [if_pos e] at h; exact absurd rfl h
    · rw [if_neg e] at h
      exact ⟨e, by rw [(hl l).1, if_neg e], h⟩
  have hconf : ∀ p l, (s'.locks p).conflicts (s'.locks l) ↔
      (s.locks p).conflicts (s.locks l) := by
    intro p l
    unfold lock_t.conflicts
    rw [hmode p, hmode l]
  have hnd : (d ++ chain').Nodup := hsplit ▸ hq.nodup
  intro pre l post hc hls
  obtain ⟨hlrl, hlst, hlso⟩ := hst l hls
  have hgs := hg (d ++ pre) l post (by rw [hsplit, hc]; simp) hlso
  rcases hcases with ⟨h1, h2, h, hh, hhrl, hhs⟩ | ⟨-, l0, h2, h3⟩ | ⟨g, rest', h1, h2, h3⟩
  · -- the head did not move
    subst h1; subst h2
    simp only [List.nil_append] at hsplit hgs
    have hgr : (s'.locks l).granted ↔ (s.locks l).granted := by
      unfold lock_t.granted
      rw [hlst, (hl l).2.2]
      simp
    rw [hgr, hgs]
    constructor
    · intro hk p hp hps hpc
      exact hk p hp (hst p hps).2.2 ((hconf p l).1 hpc)
    · intro hk p hp hps hpc
      by_cases hprl : p = rl
      · -- the released lock was granted behind the head, so both are SHARED
        subst hprl
        have hpact : (s.locks p).granted := by
          left
          cases hps' : (s.locks p).state with
          | ACTIVE => rfl
          | WAIT => exact absurd hps' hnw
          | OBSOLETE => exact absurd hps' hps
        obtain ⟨p1, p2, hpsplit⟩ := List.append_of_mem hp
        have hhmem : h ∈ p1 := by
          rw [hsplit, hc, hpsplit] at hh
          cases p1 with
          | nil =>
            simp only [List.nil_append, List.cons_append, List.head?_cons,
              Option.some.injEq] at hh
            exact absurd hh.symm hhrl
          | cons a t =>
            simp only [List.cons_append, List.head?_cons, Option.some.injEq] at hh
            subst hh; exact List.mem_cons_self _ _
        have hgp := hg p1 p (p2 ++ l :: post) (by rw [hsplit, hc, hpsplit]; simp) hps
        have hnc := (hgp.1 hpact) h hhmem hhs
        unfold lock_t.conflicts at hnc hpc
        rw [not_or] at hnc
        have hlx : (s.locks l).mode = lock_t.Mode.EXCLUSIVE := by
          rcases hpc with e | e
          · exact absurd e hnc.2
          · exact e
        have hhs' : (s'.locks h).state ≠ lock_t.State.OBSOLETE := by
          rw [(hl h).1, if_neg hhrl]; exact hhs
        refine hk h (by rw [hpsplit]; exact List.mem_append_left _ hhmem) hhs' ?_
        rw [hconf]
        exact Or.inr hlx
      · have hps' : (s'.locks p).state ≠ lock_t.State.OBSOLETE := by
          rw [(hl p).1, if_neg hprl]; exact hps
        exact hk p hp hps' ((hconf p l).2 hpc)
  · -- every lock of the list is OBSOLETE
    subst h2
    have : l = l0 := by
      have hm : l ∈ [l0] := by rw [hc]; simp
      simpa using hm
    subst this
    exact absurd h3 hls
  · -- the head moved to `g`
    subst h1
    have hndc : (g :: rest').Nodup := (List.nodup_append.1 hnd).2.1
    cases pre with
    | nil =>
      simp only [List.nil_append, List.cons.injEq] at hc
      obtain ⟨e, -⟩ := hc
      subst e
      have hsig : (s'.locks g).signal_flag = true := by
        rw [(hl g).2.2, h3]; simp
      constructor
      · intro _ p hp; cases hp
      · intro _
        unfold lock_t.granted
        cases hgst : (s'.locks g).state with
        | ACTIVE => exact Or.inl rfl
        | WAIT => exact Or.inr ⟨rfl, hsig⟩
        | OBSOLETE => exact absurd hgst hls
    | cons a pre2 =>
      simp only [List.cons_append, List.cons.injEq] at hc
      obtain ⟨e, hrest⟩ := hc
      subst e
      have hlg : l ≠ g := by
        intro e
        rw [hrest] at hndc
        have := (List.nodup_cons.1 hndc).1
        exact this (e ▸ (by simp))
      have hndr : (pre2 ++ l :: post).Nodup := hrest ▸ (List.nodup_cons.1 hndc).2
      have hlpre : l ∉ pre2 := by
        intro hm
        exact (List.nodup_append.1 hndr).2.2 hm (List.mem_cons_self _ _)
      have hlpost : l ∉ post := by
        have := (List.nodup_append.1 hndr).2.1
        exact (List.nodup_cons.1 this).1
      have hrunmem := Managers.mem_sharedRun s' l post hlpost pre2 hlpre
      rw [← hrest] at hrunmem
      by_cases hw : l ∈ woken
      · -- the lock is signalled: it and the locks before it are SHARED
        have hgS : (s.locks g).mode = lock_t.Mode.SHARED := by
          by_contra hne
          rw [h3, if_neg hne] at hw
          simp only [List.mem_singleton] at hw
          exact hlg hw
        rw [h3, if_pos hgS, List.mem_cons] at hw
        have hw' : l ∈ s'.sharedRun rest' := by
          rcases hw with e | e
          · exact absurd e hlg
          · exact e
        obtain ⟨-, r2, r3⟩ := hrunmem.1 hw'
        have hsig : (s'.locks l).signal_flag = true := by
          rw [(hl l).2.2, h3, if_pos hgS]
          simp [hw']
        constructor
        · intro _ p hp hps hpc
          unfold lock_t.conflicts at hpc
          rcases hpc with e | e
          · rcases List.mem_cons.1 hp with e1 | e1
            · subst e1
              rw [hmode, hgS] at e; cases e
            · exact r3 p e1 hps e
          · exact r2 e
        · intro _
          unfold lock_t.granted
          cases hgst : (s'.locks l).state with
          | ACTIVE => exact Or.inl rfl
          | WAIT => exact Or.inr ⟨rfl, hsig⟩
          | OBSOLETE => exact absurd hgst hls
      · -- the lock is not signalled: a lock before it conflicts with it
        have hgr : (s'.locks l).granted ↔ (s.locks l).granted := by
          unfold lock_t.granted
          rw [hlst, (hl l).2.2, if_neg hw]
        have hex : ∃ p ∈ g :: pre2, (s'.locks p).state ≠ lock_t.State.OBSOLETE ∧
            (s'.locks p).conflicts (s'.locks l) := by
          by_cases hgX : (s'.locks g).mode = lock_t.Mode.EXCLUSIVE
          · exact ⟨g, List.mem_cons_self _ _, h2, Or.inl hgX⟩
          · have hgS : (s.locks g).mode = lock_t.Mode.SHARED := by
              rw [← hmode]; exact lock_t.Mode.shared_of_ne hgX
            have hnrun : l ∉ s'.sharedRun rest' := by
              intro hm
              apply hw
              rw [h3, if_pos hgS]
              exact List.mem_cons_of_mem _ hm
            rw [hrunmem] at hnrun
            by_cases hlX : (s'.locks l).mode = lock_t.Mode.EXCLUSIVE
            · exact ⟨g, List.mem_cons_self _ _, h2, Or.inr hlX⟩
            · have : ¬ ∀ p ∈ pre2, (s'.locks p).state ≠ lock_t.State.OBSOLETE →
                  (s'.locks p).mode ≠ lock_t.Mode.EXCLUSIVE := by
                intro hall
                exact hnrun ⟨hls, hlX, hall⟩
              push_neg at this
              obtain ⟨p, hp, hps, hpx⟩ := this
              exact ⟨p, List.mem_cons_of_mem _ hp, hps, Or.inl hpx⟩
        obtain ⟨p, hp, hps, hpc⟩ := hex
        constructor
        · intro hgl
          have hk := hgs.1 (hgr.1 hgl)
          exact absurd ((hconf p l).1 hpc)
            (hk p (List.mem_append_right _ hp) (hst p hps).2.2)
        · intro hk
          exact absurd hpc (hk p hp hps)

/-- A list stays the list of its record across a release on another record. -/
theorem Managers.IsQueue.of_frame {s s' : Managers} {r : Nat} {chain : List Nat}
    (hq : s.IsQueue r chain) (hfr : s.ReleaseFrame s')
    (htab : s'.lock_table r = s.lock_table r)
    (hpass : ∀ l ∈ chain, (s'.locks l).head_pass_flag = (s.locks l).head_pass_flag)
    (hstate : ∀ l, l ∉ chain → (s.locks l).state = lock_t.State.OBSOLETE →
      (s'.locks l).state = lock_t.State.OBSOLETE) : s'.IsQueue r chain := by
  refine ⟨by rw [htab]; exact hq.ends, ?_, hq.nodup, ?_, ?_, ?_, ?_⟩
  · refine List.Chain'.imp ?_ hq.links
    intro a b hab
    unfold Managers.linked
    rw [hfr.next a, hfr.lock_id b, hfr.lock_id a, hfr.id_pass a]
    exact hab
  · intro l hl
    rw [hfr.next l, hfr.id_pass l]
    exact hq.last l hl
  · intro l hl
    rw [hfr.lock_count, hfr.record_id l, hpass l hl]
    exact hq.members l hl
  · intro l hlt hrec hnot
    rw [hfr.lock_count] at hlt
    rw [hfr.record_id l] at hrec
    exact hstate l hnot (hq.others l hlt hrec hnot)
  · intro l hlt hrec
    rw [hfr.lock_count] at hlt
    rw [hfr.record_id l] at hrec
    exact hq.nonempty l hlt hrec

set_option maxHeartbeats 800000 in
/-- `ReleaseLock` keeps the invariant: under the invariant, a call for an allocated lock that
is not in state WAIT returns and the invariant holds afterwards. -/
theorem LockManager.ReleaseLock_inv (s : Managers) (hinv : s.Inv) (rl : Nat)
    (hrl : rl < s.lock_count) (hnw : (s.locks rl).state ≠ lock_t.State.WAIT) :
    ∃ s', LockManager.ReleaseLock s rl = some s' ∧ s'.Inv ∧ s.ReleaseFrame s' ∧
      ∀ l, (s'.locks l).state =
        (if l = rl then lock_t.State.OBSOLETE else (s.locks l).state) := by
  obtain ⟨chain, hq, hg⟩ := hinv.queues _ (hinv.records rl hrl)
  have hne : chain ≠ [] := hq.nonempty rl hrl rfl
  obtain ⟨s', d, chain', woken, hrel, hsplit, hne', hfr, hq', hother, hd, hl, hcases⟩ :=
    LockManager.ReleaseLock_spec s rl chain hq hne
  have hg' : s'.Granting chain' :=
    Managers.granting_release hq hg hnw hsplit hfr.mode hl
      (hcases.imp id (Or.imp id (fun h => h.imp (fun g hg => hg.imp
        (fun rest' hr => ⟨hr.1, hr.2.1, hr.2.2.1⟩)))))
  have hwoken : ∀ x ∈ woken, x ∈ chain := by
    intro x hx
    rw [hsplit]
    refine List.mem_append_right _ ?_
    rcases hcases with ⟨-, h2, -⟩ | ⟨h2, -⟩ | ⟨g, rest', h1, -, h3, -⟩
    · rw [h2] at hx; cases hx
    · rw [h2] at hx; cases hx
    · rw [h3] at hx
      rw [h1]
      rcases List.mem_cons.1 hx with e | e
      · subst e; exact List.mem_cons_self _ _
      · split at e
        · exact List.mem_cons_of_mem _ (s'.sharedRun_subset rest' x e)
        · cases e
  have hdsub : ∀ x ∈ d, x ∈ chain := by
    intro x hx; rw [hsplit]; exact List.mem_append_left _ hx
  have hsome : ∀ r', (s'.lock_table r').isSome = (s.lock_table r').isSome := by
    intro r'
    have := congrArg Option.isSome (hfr.tail r')
    simpa using this
  refine ⟨s', hrel, ⟨?_, ?_, ?_, ?_, ?_, ?_, ?_⟩, hfr, fun l => (hl l).1⟩
  · intro r' hr'
    rw [hsome] at hr'
    by_cases hrr : r' = (s.locks rl).record_id
    · subst hrr
      exact ⟨chain', hq', hg'⟩
    · obtain ⟨c', hqc, hgc⟩ := hinv.queues r' hr'
      have hmem : ∀ l ∈ c', l ≠ rl ∧ l ∉ d ∧ l ∉ woken := by
        intro l hlm
        have hrec := (hqc.members l hlm).2.1
        refine ⟨?_, ?_, ?_⟩
        · rintro rfl; exact hrr hrec.symm
        · intro hx
          exact hrr (hrec.symm.trans (hq.members l (hdsub l hx)).2.1)
        · intro hx
          exact hrr (hrec.symm.trans (hq.members l (hwoken l hx)).2.1)
      refine ⟨c', hqc.of_frame hfr (hother r' hrr) ?_ ?_, ?_⟩
      · intro l hlm
        rw [(hl l).2.1, if_neg (hmem l hlm).2.1]
      · intro l _ hst
        rw [(hl l).1]
        split
        · rfl
        · exact hst
      · refine Managers.Granting.congr ?_ hgc
        intro l hlm
        obtain ⟨h1, h2, h3⟩ := hmem l hlm
        exact ⟨by rw [(hl l).1, if_neg h1], hfr.mode l, by rw [(hl l).2.2, if_neg h3]⟩
  · intro l hlt
    rw [hfr.lock_count] at hlt
    rw [hsome, hfr.record_id]
    exact hinv.records l hlt
  · intro l hlt
    rw [hfr.lock_count] at hlt
    rw [hfr.thread_id]
    have := hinv.owners l hlt
    cases h : s.trx_node_table (s.locks l).thread_id with
    | none => rw [h] at this; cases this
    | some node => rw [hfr.trx _ node h]; rfl
  · intro t r' p hp
    rw [hfr.pools] at hp
    rw [hfr.lock_count, hfr.thread_id, hfr.record_id]
    exact hinv.pools t r' p hp
  · intro t l hlm
    rw [hfr.deque] at hlm
    rw [hfr.lock_count, hfr.thread_id]
    exact hinv.deques t l hlm
  · intro l hlt hst
    rw [hfr.lock_count] at hlt
    rw [hfr.thread_id, hfr.conflict]
    rw [(hl l).1] at hst
    split at hst
    · cases hst
    · exact hinv.waiting l hlt hst
  · intro t c hc
    rw [hfr.conflict] at hc
    obtain ⟨g1, g2, g3⟩ := hinv.conflicts t c hc
    have hcrl : c ≠ rl := by
      rintro rfl; exact hnw g3
    exact ⟨by rw [hfr.lock_count]; exact g1, by rw [hfr.thread_id]; exact g2,
      by rw [(hl c).1, if_neg hcrl]; exact g3⟩

/-! ## The lock manager: the invariant across the atomic steps -/

/-- A list stays the list of its record when nothing of the locks, the nodes and the
allocation changes. -/
theorem Managers.IsQueue.of_eq {s s' : Managers} {r : Nat} {chain : List Nat}
    (hq : s.IsQueue r chain) (hlocks : s'.locks = s.locks)
    (htable : s'.lock_table = s.lock_table) (hcount : s'.lock_count = s.lock_count) :
    s'.IsQueue r chain :=
  hq.congr_locks (by rw [htable]) hcount (fun l => by rw [hlocks]; exact ⟨rfl, rfl, rfl, rfl, rfl⟩)
    (fun l _ h => by rw [hlocks]; exact h)

/-- The invariant holds after `InitManagers`. -/
theorem Managers.init_inv (record_count : Nat) (last_commit_id : Int) :
    (Managers.init record_count last_commit_id).Inv := by
  refine ⟨?_, ?_, ?_, ?_, ?_, ?_, ?_⟩
  · intro r hr
    refine ⟨[], ⟨?_, List.chain'_nil, List.nodup_nil, ?_, ?_, ?_, ?_⟩, ?_⟩
    · simp only [Managers.init] at hr ⊢
      split at hr
      · rename_i h
        exact ⟨LockTableNode.create r, by rw [if_pos h], rfl, rfl⟩
      · cases hr
    · intro l hl; cases hl
    · intro l hl; cases hl
    · intro l hl; exact absurd hl (Nat.not_lt_zero _)
    · intro l hl; exact absurd hl (Nat.not_lt_zero _)
    · intro pre l post hc; cases pre <;> cases hc
  · intro l hl; exact absurd hl (Nat.not_lt_zero _)
  · intro l hl; exact absurd hl (Nat.not_lt_zero _)
  · intro t r p hp; cases hp
  · intro t l hl; cases hl
  · intro l hl; exact absurd hl (Nat.not_lt_zero _)
  · intro t c hc; cases hc

/-- `GetTrxNode` keeps the invariant. -/
theorem Managers.Inv.getTrxNode_inv {s : Managers} (hinv : s.Inv) (t : Nat) :
    (TrxManager.GetTrxNode s t).Inv := by
  refine ⟨?_, ?_, ?_, ?_, ?_, ?_, ?_⟩
  · intro r hr
    rw [TrxManager.GetTrxNode_lock_table] at hr
    obtain ⟨chain, hq, hg⟩ := hinv.queues r hr
    exact ⟨chain, hq.of_eq (by simp) (by simp) (by simp),
      Managers.Granting.congr (fun l _ => by simp) hg⟩
  · intro l hl
    simp only [TrxManager.GetTrxNode_lock_count, TrxManager.GetTrxNode_lock_table,
      TrxManager.GetTrxNode_locks] at hl ⊢
    exact hinv.records l hl
  · intro l hl
    simp only [TrxManager.GetTrxNode_lock_count, TrxManager.GetTrxNode_locks] at hl ⊢
    have := hinv.owners l hl
    cases h : s.trx_node_table (s.locks l).thread_id with
    | none => rw [h] at this; cases this
    | some node => rw [TrxManager.GetTrxNode_keeps s t _ node h]; rfl
  · intro u r p hp
    simp only [TrxManager.GetTrxNode_pools, TrxManager.GetTrxNode_lock_count,
      TrxManager.GetTrxNode_locks] at hp ⊢
    exact hinv.pools u r p hp
  · intro u l hl
    rw [TrxManager.GetTrxNode_trx_lock_deque] at hl
    simp only [TrxManager.GetTrxNode_lock_count, TrxManager.GetTrxNode_locks]
    exact hinv.deques u l hl
  · intro l hl hst
    simp only [TrxManager.GetTrxNode_lock_count, TrxManager.GetTrxNode_locks] at hl hst ⊢
    rw [TrxManager.GetTrxNode_conflict_lock]
    exact hinv.waiting l hl hst
  · intro u c hc
    rw [TrxManager.GetTrxNode_conflict_lock] at hc
    simp only [TrxManager.GetTrxNode_lock_count, TrxManager.GetTrxNode_locks]
    exact hinv.conflicts u c hc

/-- The grants along a list depend only on which locks are OBSOLETE, on the modes and on
which locks are granted. -/
theorem Managers.Granting.congr_granted {s s' : Managers} {chain : List Nat}
    (h : ∀ l ∈ chain, ((s'.locks l).state = lock_t.State.OBSOLETE ↔
        (s.locks l).state = lock_t.State.OBSOLETE) ∧
      (s'.locks l).mode = (s.locks l).mode ∧
      ((s'.locks l).granted ↔ (s.locks l).granted))
    (hg : s.Granting chain) : s'.Granting chain := by
  intro pre l post hc hst
  have hl : l ∈ chain := by rw [hc]; simp
  obtain ⟨h1, h2, h3⟩ := h l hl
  have key := hg pre l post hc (fun e => hst (h1.2 e))
  rw [h3, key]
  constructor
  · intro hk p hp hps
    have hpm : p ∈ chain := by rw [hc]; simp [hp]
    obtain ⟨g1, g2, -⟩ := h p hpm
    have := hk p hp (fun e => hps (g1.2 e))
    unfold lock_t.conflicts at this ⊢
    rw [g2, h2]; exact this
  · intro hk p hp hps
    have hpm : p ∈ chain := by rw [hc]; simp [hp]
    obtain ⟨g1, g2, -⟩ := h p hpm
    have := hk p hp (fun e => hps (g1.1 e))
    unfold lock_t.conflicts at this ⊢
    rw [g2, h2] at this; exact this

set_option maxHeartbeats 400000 in
/-- The wake-up of a thread whose conflict lock is signalled keeps the invariant. -/
theorem Managers.Inv.wake {s : Managers} (hinv : s.Inv) (t l : Nat)
    (hc : s.conflict_lock t = some l) (hsig : (s.locks l).signal_flag = true) :
    (LockManager.AcquireWake s t l).Inv ∧
      LockManager.AcquireWake s t l = s.decided t l lock_t.State.ACTIVE none := by
  obtain ⟨hlt, hth, hst⟩ := hinv.conflicts t l hc
  have heq : LockManager.AcquireWake s t l = s.decided t l lock_t.State.ACTIVE none := by
    unfold LockManager.AcquireWake LockManager.finishAcquire Managers.decided
    rw [if_pos hst]
  have htsome : (s.trx_node_table t).isSome = true := by
    rw [← hth]; exact hinv.owners l hlt
  have hcl : ∀ u, (s.decided t l lock_t.State.ACTIVE none).conflict_lock u =
      if u = t then none else s.conflict_lock u :=
    fun u => Managers.decided_conflict_lock s t l _ none u htsome
  refine ⟨?_, heq⟩
  rw [heq]
  have hstate : ∀ k, ((s.decided t l lock_t.State.ACTIVE none).locks k).state =
      if k = l then lock_t.State.ACTIVE else (s.locks k).state := by
    intro k
    rw [Managers.decided_locks]
    split
    · rfl
    · rfl
  refine ⟨?_, ?_, ?_, ?_, ?_, ?_, ?_⟩
  · intro r hr
    rw [Managers.decided_lock_table] at hr
    obtain ⟨chain, hq, hg⟩ := hinv.queues r hr
    refine ⟨chain, ?_, ?_⟩
    · refine hq.congr_locks (by simp) (by simp) ?_ ?_
      · intro k
        have hf := Managers.decided_fields s t l lock_t.State.ACTIVE none k
        exact ⟨hf.1, hf.2.1, hf.2.2.1, hf.2.2.2.1, hf.2.2.2.2.1⟩
      · intro k _ hk
        rw [hstate]
        split
        · rename_i e; subst e; rw [hst] at hk; cases hk
        · exact hk
    · refine Managers.Granting.congr_granted ?_ hg
      intro k _
      have hf := Managers.decided_fields s t l lock_t.State.ACTIVE none k
      refine ⟨?_, hf.2.2.2.2.2.2.1, ?_⟩
      · rw [hstate]
        split
        · rename_i e; subst e; rw [hst]
          constructor <;> intro h <;> cases h
        · rfl
      · unfold lock_t.granted
        rw [hstate, hf.2.2.2.2.2.2.2.1]
        split
        · rename_i e; subst e
          rw [hst, hsig]
          simp
        · rfl
  · intro k hk
    rw [Managers.decided_lock_count] at hk
    rw [Managers.decided_lock_table, (Managers.decided_fields s t l _ none k).2.2.2.2.1]
    exact hinv.records k hk
  · intro k hk
    rw [Managers.decided_lock_count] at hk
    rw [Managers.decided_isSome, (Managers.decided_fields s t l _ none k).2.2.2.2.2.1]
    exact hinv.owners k hk
  · intro u r p hp
    rw [Managers.decided_pools] at hp
    rw [Managers.decided_lock_count, (Managers.decided_fields s t l _ none p).2.2.2.2.1,
      (Managers.decided_fields s t l _ none p).2.2.2.2.2.1]
    exact hinv.pools u r p hp
  · intro u k hk
    rw [Managers.decided_trx_lock_deque] at hk
    rw [Managers.decided_lock_count, (Managers.decided_fields s t l _ none k).2.2.2.2.2.1]
    exact hinv.deques u k hk
  · intro k hk hks
    rw [Managers.decided_lock_count] at hk
    rw [hstate] at hks
    split at hks
    · cases hks
    · rename_i hkl
      rw [(Managers.decided_fields s t l _ none k).2.2.2.2.2.1, hcl]
      have hw := hinv.waiting k hk hks
      have hne : (s.locks k).thread_id ≠ t := by
        intro e
        rw [e, hc] at hw
        exact hkl (Option.some.inj hw).symm
      rw [if_neg hne]; exact hw
  · intro u c hcu
    rw [hcl] at hcu
    rw [Managers.decided_lock_count]
    split at hcu
    · cases hcu
    · rename_i hut
      obtain ⟨g1, g2, g3⟩ := hinv.conflicts u c hcu
      have hcl' : c ≠ l := by
        rintro rfl; exact hut (g2.symm.trans hth)
      exact ⟨g1, by rw [(Managers.decided_fields s t l _ none c).2.2.2.2.2.1]; exact g2,
        by rw [hstate, if_neg hcl']; exact g3⟩

/-- The lock `takeLock` takes is free, and nothing else is touched by it. -/
theorem LockManager.takeLock_props (s : Managers) (mode : lock_t.Mode) (r t : Nat) :
    s.Fresh (LockManager.takeLock s mode r t).1 ∧
    (LockManager.takeLock s mode r t).2.lock_table = s.lock_table ∧
    (LockManager.takeLock s mode r t).2.trx_node_table = s.trx_node_table ∧
    ∀ l, l ≠ (LockManager.takeLock s mode r t).1 →
      (LockManager.takeLock s mode r t).2.locks l = s.locks l := by
  unfold LockManager.takeLock
  cases hfind : (s.pools t r).find? (fun p => (s.locks p).recyclable) with
  | some p =>
    have hrec : (s.locks p).recyclable = true := by
      have := List.find?_some hfind
      simpa using this
    unfold lock_t.recyclable at hrec
    simp only [Bool.and_eq_true, decide_eq_true_eq] at hrec
    refine ⟨Or.inr ⟨hrec.1.1, hrec.2⟩, rfl, rfl, ?_⟩
    intro l hl
    simp [Function.update_noteq hl]
  | none =>
    refine ⟨Or.inl (le_refl _), rfl, rfl, ?_⟩
    intro l hl
    simp [Function.update_noteq hl]

set_option maxHeartbeats 400000 in
/-- A call of `AcquireLock` that comes to an outcome was made for an existing record by a
thread that has its node and no conflict lock, and the tail of the list of the record has
an id below the maximum. -/
theorem LockManager.AcquireLock_pre (s : Managers) (hinv : s.Inv) (mode : lock_t.Mode)
    (r t : Nat) (x : AcquireOutcome × Managers)
    (h : LockManager.AcquireLock s mode r t = some x) :
    ∃ chain tn, s.IsQueue r chain ∧ s.Granting chain ∧ s.trx_node_table t = some tn ∧
      tn.conflict_lock = none ∧
      ∀ tl, chain.getLast? = some tl → (s.locks tl).lock_id_on_record ≠ LOCK_ID_MAX := by
  unfold LockManager.AcquireLock at h
  obtain ⟨s1, hlink, -⟩ := Option.bind_eq_some.1 h
  obtain ⟨hfresh, htab, htrx, hlocks⟩ := LockManager.takeLock_props s mode r t
  generalize (LockManager.takeLock s mode r t).1 = n at hlink hfresh hlocks
  generalize (LockManager.takeLock s mode r t).2 = sa at hlink htab htrx hlocks
  unfold LockManager.linkLock at hlink
  rw [htab, htrx] at hlink
  obtain ⟨node, hnode, hlink⟩ := Option.bind_eq_some.1 hlink
  obtain ⟨tn, htn, hlink⟩ := Option.bind_eq_some.1 hlink
  obtain ⟨s4, hs4, hlink⟩ := Option.bind_eq_some.1 hlink
  obtain ⟨chain, hq, hg⟩ := hinv.queues r (by rw [hnode]; rfl)
  obtain ⟨node', hnode', hhead, htail⟩ := hq.ends
  rw [hnode] at hnode'
  cases hnode'
  refine ⟨chain, tn, hq, hg, htn, ?_, ?_⟩
  · -- the assert on the conflict lock
    split at hlink
    · rename_i hc
      have htab4 : s4.trx_node_table t =
          some { tn with trx_lock_deque := tn.trx_lock_deque ++ [n] } := by
        cases htl : node.tail with
        | none =>
          rw [htl] at hs4
          simp only [Option.some.injEq] at hs4
          subst hs4
          simp
        | some tl =>
          rw [htl] at hs4
          simp only at hs4
          split at hs4
          · cases hs4
          · split at hs4
            · cases hs4
            · simp only [Option.some.injEq] at hs4
              subst hs4
              simp
      rw [Managers.conflict_lock_of_some s4 t _ htab4] at hc
      exact hc
    · cases hlink
  · intro tl htl
    rw [← htail] at htl
    rw [htl] at hs4
    simp only at hs4
    split at hs4
    · cases hs4
    · rename_i hno
      rw [not_or] at hno
      intro hmax
      apply hno.1
      have htlmem : tl ∈ chain := by
        rw [htail] at htl
        obtain ⟨ys, hys⟩ := List.getLast?_eq_some_iff.1 htl
        rw [hys]; simp
      have htln : tl ≠ n := fun e => hfresh.not_mem hq (e ▸ htlmem)
      simp only [Managers.setLock_locks, Managers.setNode_locks, Managers.setTrx_locks,
        Function.update_same]
      rw [hlocks tl htln]
      exact hmax

/-- `AcquireLock` keeps the invariant, whatever its outcome. -/
theorem LockManager.AcquireLock_inv (s : Managers) (hinv : s.Inv) (mode : lock_t.Mode)
    (r t : Nat) (x : AcquireOutcome × Managers)
    (h : LockManager.AcquireLock s mode r t = some x) : x.2.Inv := by
  obtain ⟨chain, tn, hq, hg, htn, hconf, hid⟩ := LockManager.AcquireLock_pre s hinv mode r t x h
  have hconf' : s.conflict_lock t = none := by
    rw [Managers.conflict_lock_of_some s t tn htn]; exact hconf
  obtain ⟨s1, id, -, hins, hres⟩ := LockManager.AcquireLock_spec s hinv mode r t chain tn hq hg
    htn hconf hid
  rcases hres with ⟨hca, hacq⟩ | ⟨hca, b, -, hacq⟩
  · rw [hacq] at h
    cases h
    exact hins.inv hinv hq hg hconf' _ _ (Or.inl ⟨rfl, rfl, hca⟩)
  · rw [hacq] at h
    cases h
    cases b with
    | true => exact hins.inv hinv hq hg hconf' _ _ (Or.inr (Or.inr ⟨rfl, rfl⟩))
    | false => exact hins.inv hinv hq hg hconf' _ _ (Or.inr (Or.inl ⟨rfl, rfl, hca⟩))

/-- Under the invariant two ACTIVE locks of one record are both SHARED. -/
theorem Managers.Inv.exclusive {s : Managers} (hinv : s.Inv) {a b : Nat}
    (ha : a < s.lock_count) (hb : b < s.lock_count) (hab : a ≠ b)
    (hrec : (s.locks a).record_id = (s.locks b).record_id)
    (hsa : (s.locks a).state = lock_t.State.ACTIVE)
    (hsb : (s.locks b).state = lock_t.State.ACTIVE) :
    (s.locks a).mode = lock_t.Mode.SHARED ∧ (s.locks b).mode = lock_t.Mode.SHARED := by
  obtain ⟨pre, post, hq, hg⟩ := hinv.mem_queue hb (by rw [hsb]; decide)
  have hamem : a ∈ pre ++ b :: post := by
    by_contra hn
    have := hq.others a ha hrec hn
    rw [hsa] at this; cases this
  have key : ∀ (x y : Nat) (p1 p2 : List Nat), pre ++ b :: post = p1 ++ y :: p2 → x ∈ p1 →
      (s.locks x).state = lock_t.State.ACTIVE → (s.locks y).state = lock_t.State.ACTIVE →
      (s.locks x).mode = lock_t.Mode.SHARED ∧ (s.locks y).mode = lock_t.Mode.SHARED := by
    intro x y p1 p2 hsplit hx hsx hsy
    have := (hg p1 y p2 hsplit (by rw [hsy]; decide)).1 (Or.inl hsy) x hx (by rw [hsx]; decide)
    unfold lock_t.conflicts at this
    rw [not_or] at this
    exact ⟨lock_t.Mode.shared_of_ne this.1, lock_t.Mode.shared_of_ne this.2⟩
  rcases List.mem_append.1 hamem with h | h
  · exact key a b pre post rfl h hsa hsb
  · rcases List.mem_cons.1 h with e | e
    · exact absurd e hab
    · obtain ⟨p1, p2, hp⟩ := List.append_of_mem e
      have := key b a (pre ++ b :: p1) p2 (by rw [hp]; simp) (by simp) hsb hsa
      exact ⟨this.2, this.1⟩

/-- The invariant holds in the state with two readers of one record. -/
theorem Managers.twoReaders_inv : Managers.twoReaders.Inv :=
  LockManager.AcquireLock_inv _
    ((LockManager.AcquireLock_inv _ ((Managers.init_inv 1 0).getTrxNode_inv 1)
      lock_t.Mode.SHARED 1 1 _ (Option.some_get (by decide)).symm).getTrxNode_inv 2)
    lock_t.Mode.SHARED 1 2 _ (Option.some_get (by decide)).symm

/-- The list of the record with two readers. -/
theorem Managers.twoReaders_queue : Managers.twoReaders.IsQueue 1 [0, 1] := by
  refine ⟨⟨(Managers.twoReaders.lock_table 1).get (by decide), by simp, by decide, by decide⟩,
    ?_, by decide, ?_, ?_, ?_, ?_⟩
  · simp only [List.chain'_cons, List.chain'_singleton, and_true]
    unfold Managers.linked
    decide
  · intro l hl
    simp only [List.getLast?_cons_cons, List.getLast?_singleton, Option.some.injEq] at hl
    subst hl
    decide
  · intro l hl
    simp only [List.mem_cons, List.mem_singleton, List.not_mem_nil, or_false] at hl
    rcases hl with rfl | rfl <;> decide
  · intro l hlt _ hnot
    have h2 : l < 2 := hlt
    simp only [List.mem_cons, List.mem_singleton, List.not_mem_nil, or_false, not_or] at hnot
    omega
  · intro l _ _
    simp

theorem Managers.twoReadersAndThird_inv : Managers.twoReadersAndThird.Inv :=
  Managers.twoReaders_inv.getTrxNode_inv 3

theorem Managers.twoReadersAndThird_queue : Managers.twoReadersAndThird.IsQueue 1 [0, 1] :=
  Managers.twoReaders_queue.of_eq (by simp [Managers.twoReadersAndThird])
    (by simp [Managers.twoReadersAndThird]) (by simp [Managers.twoReadersAndThird])

theorem Managers.twoReadersAndThird_tail (tl : Nat) (h : [0, 1].getLast? = some tl) :
    (Managers.twoReadersAndThird.locks tl).lock_id_on_record ≠ LOCK_ID_MAX := by
  simp only [List.getLast?_cons_cons, List.getLast?_singleton, Option.some.injEq] at h
  subst h
  decide

/-- The grants of the list of a record under the invariant. -/
theorem Managers.Inv.granting_of {s : Managers} (hinv : s.Inv) {r : Nat} {chain : List Nat}
    (hq : s.IsQueue r chain) : s.Granting chain := by
  obtain ⟨node, hnode, -⟩ := hq.ends
  obtain ⟨c, hqc, hgc⟩ := hinv.queues r (by rw [hnode]; rfl)
  rw [hq.unique hqc]
  exact hgc

/-- C12.  Under the invariant, let a thread that has its node and is not asleep call
`AcquireLock(mode, r, trx)` on a record whose list is `chain` (the tail, if any, with an id
below the maximum), and let `n` be the new lock.  The call comes to an outcome, and `n` is
the last lock of the list behind `chain`.  Unless a deadlock is reported (`nullptr`), the
thread sleeps with `n` in state WAIT exactly when some lock of `chain` is not OBSOLETE and
its mode or `mode` is EXCLUSIVE; otherwise `n` is returned ACTIVE without waiting.  In
particular a SHARED request behind only SHARED or OBSOLETE locks is returned ACTIVE. -/
theorem LockManager.AcquireLock_waits_iff (s : Managers) (hinv : s.Inv) (mode : lock_t.Mode)
    (r t : Nat) (chain : List Nat) (tn : TrxNode)
    (hq : s.IsQueue r chain)
    (htrx : s.trx_node_table t = some tn) (hconf : tn.conflict_lock = none)
    (hid : ∀ tl, chain.getLast? = some tl → (s.locks tl).lock_id_on_record ≠ LOCK_ID_MAX) :
    ∃ x, LockManager.AcquireLock s mode r t = some x ∧
      x.2.IsQueue r (chain ++ [(LockManager.takeLock s mode r t).1]) ∧
      (x.1 = AcquireOutcome.null ∨
        (x.1 = AcquireOutcome.waiting (LockManager.takeLock s mode r t).1 ∧
          (x.2.locks (LockManager.takeLock s mode r t).1).state = lock_t.State.WAIT ∧
          s.conflictAhead mode chain) ∨
        (x.1 = AcquireOutcome.lock (LockManager.takeLock s mode r t).1 ∧
          (x.2.locks (LockManager.takeLock s mode r t).1).state = lock_t.State.ACTIVE ∧
          ¬ s.conflictAhead mode chain)) ∧
      (mode = lock_t.Mode.SHARED →
        (∀ p ∈ chain, (s.locks p).state = lock_t.State.OBSOLETE ∨
          (s.locks p).mode = lock_t.Mode.SHARED) →
        x.1 = AcquireOutcome.lock (LockManager.takeLock s mode r t).1 ∧
          (x.2.locks (LockManager.takeLock s mode r t).1).state = lock_t.State.ACTIVE) := by
  obtain ⟨s1, id, -, hins, hres⟩ := LockManager.AcquireLock_spec s hinv mode r t chain tn hq
    (hinv.granting_of hq) htrx hconf hid
  rcases hres with ⟨hca, hacq⟩ | ⟨hca, b, -, hacq⟩
  · refine ⟨_, hacq, hins.decided_queue hq _ _,
      Or.inr (Or.inr ⟨rfl, (hins.decided_new _ _).1, hca⟩),
      fun _ _ => ⟨rfl, (hins.decided_new _ _).1⟩⟩
  · have hno : ¬ (mode = lock_t.Mode.SHARED ∧
        ∀ p ∈ chain, (s.locks p).state = lock_t.State.OBSOLETE ∨
          (s.locks p).mode = lock_t.Mode.SHARED) := by
      rintro ⟨hm, hall⟩
      obtain ⟨p, hp, hps, hpc⟩ := hca
      rcases hall p hp with e | e
      · exact hps e
      · rcases hpc with e' | e'
        · rw [hm] at e'; cases e'
        · rw [e] at e'; cases e'
    cases b with
    | true =>
      refine ⟨_, hacq, ?_, Or.inl rfl, fun hm hall => absurd ⟨hm, hall⟩ hno⟩
      exact hins.decided_queue hq _ _
    | false =>
      refine ⟨_, hacq, ?_, Or.inr (Or.inl ⟨rfl, (hins.decided_new _ _).1, hca⟩),
        fun hm hall => absurd ⟨hm, hall⟩ hno⟩
      exact hins.decided_queue hq _ _

/-- A third thread asks for an EXCLUSIVE lock behind two readers. -/
theorem LockManager.AcquireLock_waits_iff_witness :
    (Managers.twoReadersAndThird.Inv ∧ Managers.twoReadersAndThird.IsQueue 1 [0, 1] ∧
      Managers.twoReadersAndThird.trx_node_table 3 = some ⟨[], none, 3⟩ ∧
      (⟨[], none, 3⟩ : TrxNode).conflict_lock = none ∧
      ∀ tl, [0, 1].getLast? = some tl →
        (Managers.twoReadersAndThird.locks tl).lock_id_on_record ≠ LOCK_ID_MAX) ∧
    ∃ x, LockManager.AcquireLock Managers.twoReadersAndThird lock_t.Mode.EXCLUSIVE 1 3 =
        some x ∧
      x.2.IsQueue 1 ([0, 1] ++
        [(LockManager.takeLock Managers.twoReadersAndThird lock_t.Mode.EXCLUSIVE 1 3).1]) ∧
      (x.1 = AcquireOutcome.null ∨
        (x.1 = AcquireOutcome.waiting
            (LockManager.takeLock Managers.twoReadersAndThird lock_t.Mode.EXCLUSIVE 1 3).1 ∧
          (x.2.locks (LockManager.takeLock Managers.twoReadersAndThird
            lock_t.Mode.EXCLUSIVE 1 3).1).state = lock_t.State.WAIT ∧
          Managers.twoReadersAndThird.conflictAhead lock_t.Mode.EXCLUSIVE [0, 1]) ∨
        (x.1 = AcquireOutcome.lock
            (LockManager.takeLock Managers.twoReadersAndThird lock_t.Mode.EXCLUSIVE 1 3).1 ∧
          (x.2.locks (LockManager.takeLock Managers.twoReadersAndThird
            lock_t.Mode.EXCLUSIVE 1 3).1).state = lock_t.State.ACTIVE ∧
          ¬ Managers.twoReadersAndThird.conflictAhead lock_t.Mode.EXCLUSIVE [0, 1])) ∧
      (lock_t.Mode.EXCLUSIVE = lock_t.Mode.SHARED →
        (∀ p ∈ [0, 1],
          (Managers.twoReadersAndThird.locks p).state = lock_t.State.OBSOLETE ∨
          (Managers.twoReadersAndThird.locks p).mode = lock_t.Mode.SHARED) →
        x.1 = AcquireOutcome.lock
            (LockManager.takeLock Managers.twoReadersAndThird lock_t.Mode.EXCLUSIVE 1 3).1 ∧
          (x.2.locks (LockManager.takeLock Managers.twoReadersAndThird
            lock_t.Mode.EXCLUSIVE 1 3).1).state = lock_t.State.ACTIVE) :=
  ⟨⟨Managers.twoReadersAndThird_inv, Managers.twoReadersAndThird_queue, by decide, rfl,
      Managers.twoReadersAndThird_tail⟩,
    LockManager.AcquireLock_waits_iff Managers.twoReadersAndThird
      Managers.twoReadersAndThird_inv lock_t.Mode.EXCLUSIVE 1 3 [0, 1] ⟨[], none, 3⟩
      Managers.twoReadersAndThird_queue (by decide) rfl Managers.twoReadersAndThird_tail⟩

/-- The outcome of the EXCLUSIVE request of a third thread behind two readers, evaluated:
the thread sleeps for its lock 2. -/
theorem LockManager.AcquireLock_writer_waits :
    (LockManager.AcquireLock Managers.twoReadersAndThird lock_t.Mode.EXCLUSIVE 1 3).map
      (fun x => (x.1, (x.2.locks 2).state)) =
      some (AcquireOutcome.waiting 2, lock_t.State.WAIT) := by
  decide

/-! ## The outcomes of `AcquireLock` -/

/-- The state in which thread 1 sleeps behind thread 2 is reachable. -/
theorem Managers.crossed_reachable : Managers.crossed.Reachable :=
  Managers.Reachable.acquire _ lock_t.Mode.EXCLUSIVE 2 1 _
    (Managers.Reachable.acquire _ lock_t.Mode.SHARED 2 2 _
      (Managers.Reachable.acquire _ lock_t.Mode.SHARED 1 1 _ (Managers.Reachable.init 2 0)
        (Option.some_get (by decide)).symm)
      (Option.some_get (by decide)).symm)
    (Option.some_get (by decide)).symm

/-- The invariant holds in the state with the sleeping writer. -/
theorem Managers.crossed_inv : Managers.crossed.Inv :=
  LockManager.AcquireLock_inv _
    ((LockManager.AcquireLock_inv _
      ((LockManager.AcquireLock_inv _ ((Managers.init_inv 2 0).getTrxNode_inv 1)
        lock_t.Mode.SHARED 1 1 _ (Option.some_get (by decide)).symm).getTrxNode_inv 2)
      lock_t.Mode.SHARED 2 2 _ (Option.some_get (by decide)).symm).getTrxNode_inv 1)
    lock_t.Mode.EXCLUSIVE 2 1 _ (Option.some_get (by decide)).symm

/-- C11 (the code breaks it).  With acquire-until-block, wake-up and release taken as atomic
steps, the state `Managers.crossed` is reachable: the thread 2 holds the SHARED lock 1 of
record 2, ACTIVE, and the thread 1 sleeps in `cond.wait` for its EXCLUSIVE lock 2 of the same
record, which has no signal.  The thread 1 returns from the wait without a signal; the code
tests the signal once before the wait and not after it, and sets the lock ACTIVE.  In the
state reached the EXCLUSIVE lock 2 and the SHARED lock 1 of record 2 are both granted: the
granted locks of a record are not pairwise compatible in every reachable state. -/
theorem Managers.Reachable.granted_conflict :
    Managers.crossed.Reachable ∧ Managers.crossed.conflict_lock 1 = some 2 ∧
    (Managers.crossed.locks 2).state = lock_t.State.WAIT ∧
    (Managers.crossed.locks 2).signal_flag = false ∧
    (LockManager.AcquireWake Managers.crossed 1 2).Reachable ∧
    (LockManager.AcquireWake Managers.crossed 1 2).lock_count = 3 ∧
    ((LockManager.AcquireWake Managers.crossed 1 2).locks 1).record_id = 2 ∧
    ((LockManager.AcquireWake Managers.crossed 1 2).locks 2).record_id = 2 ∧
    ((LockManager.AcquireWake Managers.crossed 1 2).locks 1).thread_id = 2 ∧
    ((LockManager.AcquireWake Managers.crossed 1 2).locks 2).thread_id = 1 ∧
    ((LockManager.AcquireWake Managers.crossed 1 2).locks 1).state = lock_t.State.ACTIVE ∧
    ((LockManager.AcquireWake Managers.crossed 1 2).locks 2).state = lock_t.State.ACTIVE ∧
    ((LockManager.AcquireWake Managers.crossed 1 2).locks 1).mode = lock_t.Mode.SHARED ∧
    ((LockManager.AcquireWake Managers.crossed 1 2).locks 2).mode = lock_t.Mode.EXCLUSIVE ∧
    ¬ ∀ s : Managers, s.Reachable → ∀ a b, a < s.lock_count → b < s.lock_count → a ≠ b →
      (s.locks a).record_id = (s.locks b).record_id →
      (s.locks a).state = lock_t.State.ACTIVE → (s.locks b).state = lock_t.State.ACTIVE →
      (s.locks a).mode = lock_t.Mode.SHARED ∧ (s.locks b).mode = lock_t.Mode.SHARED :=
  ⟨Managers.crossed_reachable, by decide, by decide, by decide,
    Managers.Reachable.wake _ 1 2 Managers.crossed_reachable (by decide),
    by decide, by decide, by decide, by decide, by decide, by decide, by decide, by decide,
    by decide,
    fun hall => absurd (hall _ (Managers.Reachable.wake _ 1 2 Managers.crossed_reachable
      (by decide)) 1 2 (by decide) (by decide) (by decide) (by decide) (by decide)
      (by decide)).2 (by decide)⟩

/-- The list of record 1 in the state in which thread 1 sleeps behind thread 2. -/
theorem Managers.crossed_queue : Managers.crossed.IsQueue 1 [0] := by
  refine ⟨⟨(Managers.crossed.lock_table 1).get (by decide), by simp, by decide, by decide⟩,
    ?_, by decide, ?_, ?_, ?_, ?_⟩
  · simp
  · intro l hl
    simp only [List.getLast?_singleton, Option.some.injEq] at hl
    subst hl
    decide
  · intro l hl
    simp only [List.mem_singleton] at hl
    subst hl
    decide
  · intro l hlt hr hnot
    have h3 : l < 3 := hlt
    simp only [List.mem_singleton] at hnot
    interval_cases l
    · exact absurd rfl hnot
    · exact absurd hr (by decide)
    · exact absurd hr (by decide)
  · intro l _ _
    simp

theorem Managers.crossed_tail (tl : Nat) (h : [0].getLast? = some tl) :
    (Managers.crossed.locks tl).lock_id_on_record ≠ LOCK_ID_MAX := by
  simp only [List.getLast?_singleton, Option.some.injEq] at h
  subst h
  decide

/-- A thread with a conflict lock has its node. -/
theorem Managers.isSome_of_conflict_lock {s : Managers} {t l : Nat}
    (h : s.conflict_lock t = some l) : (s.trx_node_table t).isSome = true := by
  unfold Managers.conflict_lock at h
  cases hn : s.trx_node_table t with
  | none => rw [hn] at h; cases h
  | some node => rfl

/-- The record values after the insertion and decision of `AcquireLock` are the old ones. -/
theorem Managers.Inserted.record_value {s s1 : Managers} {mode : lock_t.Mode}
    {r t n id : Nat} {chain : List Nat} (h : s.Inserted s1 mode r t n id chain)
    (st : lock_t.State) (c : Option Nat) (rec : Nat) :
    ((s1.decided t n st c).lock_table rec).map (fun node => node.record_value) =
      (s.lock_table rec).map (fun node => node.record_value) := by
  rw [Managers.decided_lock_table]
  by_cases hr : rec = r
  · subst hr
    obtain ⟨node, hnode, hnode1⟩ := h.node
    rw [hnode1, hnode]
    rfl
  · rw [h.other_nodes rec hr]

/-- C13.  Under the invariant, let a thread that has its node and is not asleep call
`AcquireLock(mode, r, trx)` on a record whose list is `chain` (the tail, if any, with an id
below the maximum); let `n` be the new lock and `s1` the state once `n` is linked.  The
call comes to an outcome.  It returns `nullptr` exactly when the deadlock check is run
(some lock of `chain` that is not OBSOLETE conflicts) and `IsDeadlock`, called with `n` in
state WAIT, returns `true`.  On `nullptr` the lock `n` is OBSOLETE and the conflict lock of
the transaction is null; no outcome changes a record value.  A lock returned at once is
ACTIVE with the conflict lock null; a thread that sleeps has `n` as conflict lock, and when
it is woken (the signal of `n` set) in a later state of the invariant, the lock it returns
is ACTIVE and the conflict lock null. -/
theorem LockManager.AcquireLock_null_iff (s : Managers) (hinv : s.Inv) (mode : lock_t.Mode)
    (r t : Nat) (chain : List Nat) (tn : TrxNode)
    (hq : s.IsQueue r chain)
    (htrx : s.trx_node_table t = some tn) (hconf : tn.conflict_lock = none)
    (hid : ∀ tl, chain.getLast? = some tl → (s.locks tl).lock_id_on_record ≠ LOCK_ID_MAX) :
    ∃ s1 x, LockManager.linkLock (LockManager.takeLock s mode r t).2 r t
        (LockManager.takeLock s mode r t).1 = some s1 ∧
      LockManager.AcquireLock s mode r t = some x ∧
      (x.1 = AcquireOutcome.null ↔
        (s.conflictAhead mode chain ∧
          ∃ s2, LockManager.IsDeadlock
            (s1.setLock (LockManager.takeLock s mode r t).1
              (lock_t.withState lock_t.State.WAIT)) t chain = some (true, s2))) ∧
      (x.1 = AcquireOutcome.null →
        (x.2.locks (LockManager.takeLock s mode r t).1).state = lock_t.State.OBSOLETE ∧
        x.2.conflict_lock t = none) ∧
      (∀ rec, (x.2.lock_table rec).map (fun node => node.record_value) =
        (s.lock_table rec).map (fun node => node.record_value)) ∧
      (x.1 ≠ AcquireOutcome.null →
        (x.1 = AcquireOutcome.lock (LockManager.takeLock s mode r t).1 ∧
          (x.2.locks (LockManager.takeLock s mode r t).1).state = lock_t.State.ACTIVE ∧
          x.2.conflict_lock t = none) ∨
        (x.1 = AcquireOutcome.waiting (LockManager.takeLock s mode r t).1 ∧
          x.2.conflict_lock t = some (LockManager.takeLock s mode r t).1 ∧
          ∀ s' : Managers, s'.Inv →
            s'.conflict_lock t = some (LockManager.takeLock s mode r t).1 →
            (s'.locks (LockManager.takeLock s mode r t).1).signal_flag = true →
            ((LockManager.AcquireWake s' t (LockManager.takeLock s mode r t).1).locks
              (LockManager.takeLock s mode r t).1).state = lock_t.State.ACTIVE ∧
            (LockManager.AcquireWake s' t
              (LockManager.takeLock s mode r t).1).conflict_lock t = none)) := by
  obtain ⟨s1, id, hlink, hins, hres⟩ := LockManager.AcquireLock_spec s hinv mode r t chain tn
    hq (hinv.granting_of hq) htrx hconf hid
  generalize (LockManager.takeLock s mode r t).1 = n at hlink hins hres ⊢
  have hsome := hins.isSome_self
  have hsW : s1.setLock n (lock_t.withState lock_t.State.WAIT) =
      s1.decided t n lock_t.State.WAIT (some n) := by
    obtain ⟨tn', -, htn1⟩ := hins.trx
    unfold Managers.decided
    rw [Managers.setConflict_eq_self _ t (some n) _ (by simpa using htn1) rfl]
  have hcl : ∀ st c, (s1.decided t n st c).conflict_lock t = c := by
    intro st c
    rw [Managers.decided_conflict_lock _ _ _ _ _ _ hsome, if_pos rfl]
  have hwake : ∀ s' : Managers, s'.Inv → s'.conflict_lock t = some n →
      (s'.locks n).signal_flag = true →
      ((LockManager.AcquireWake s' t n).locks n).state = lock_t.State.ACTIVE ∧
      (LockManager.AcquireWake s' t n).conflict_lock t = none := by
    intro s' hinv' hc hsig
    rw [(hinv'.wake t n hc hsig).2]
    refine ⟨?_, ?_⟩
    · rw [Managers.decided_locks_same]; rfl
    · rw [Managers.decided_conflict_lock _ _ _ _ _ _ (Managers.isSome_of_conflict_lock hc),
        if_pos rfl]
  rcases hres with ⟨hca, hacq⟩ | ⟨hca, b, hb, hacq⟩
  · refine ⟨s1, _, hlink, hacq, ?_, ?_, hins.record_value _ _, ?_⟩
    · exact ⟨fun h => (by cases h), fun h => absurd h.1 hca⟩
    · intro h; cases h
    · intro _
      exact Or.inl ⟨rfl, (hins.decided_new _ _).1, hcl _ _⟩
  · cases b with
    | true =>
      refine ⟨s1, _, hlink, hacq, ?_, ?_, hins.record_value _ _, ?_⟩
      · exact ⟨fun _ => ⟨hca, _, by rw [hsW]; exact hb⟩, fun _ => rfl⟩
      · intro _
        exact ⟨(hins.decided_new _ _).1, hcl _ _⟩
      · intro h
        exact absurd rfl h
    | false =>
      refine ⟨s1, _, hlink, hacq, ?_, ?_, hins.record_value _ _, ?_⟩
      · refine ⟨fun h => (by cases h), ?_⟩
        rintro ⟨-, s2, h2⟩
        rw [hsW, hb] at h2
        cases h2
      · intro h; cases h
      · intro _
        exact Or.inr ⟨rfl, hcl _ _, hwake⟩

/-- In the state in which thread 1 sleeps behind thread 2, thread 2 asks for an EXCLUSIVE
lock on the record that thread 1 reads. -/
theorem LockManager.AcquireLock_null_iff_witness :
    (Managers.crossed.Inv ∧ Managers.crossed.IsQueue 1 [0] ∧
      Managers.crossed.trx_node_table 2 = some ⟨[1], none, 2⟩ ∧
      (⟨[1], none, 2⟩ : TrxNode).conflict_lock = none ∧
      ∀ tl, [0].getLast? = some tl →
        (Managers.crossed.locks tl).lock_id_on_record ≠ LOCK_ID_MAX) ∧
    ∃ s1 x, LockManager.linkLock
        (LockManager.takeLock Managers.crossed lock_t.Mode.EXCLUSIVE 1 2).2 1 2
        (LockManager.takeLock Managers.crossed lock_t.Mode.EXCLUSIVE 1 2).1 = some s1 ∧
      LockManager.AcquireLock Managers.crossed lock_t.Mode.EXCLUSIVE 1 2 = some x ∧
      (x.1 = AcquireOutcome.null ↔
        (Managers.crossed.conflictAhead lock_t.Mode.EXCLUSIVE [0] ∧
          ∃ s2, LockManager.IsDeadlock
            (s1.setLock (LockManager.takeLock Managers.crossed lock_t.Mode.EXCLUSIVE 1 2).1
              (lock_t.withState lock_t.State.WAIT)) 2 [0] = some (true, s2))) ∧
      (x.1 = AcquireOutcome.null →
        (x.2.locks (LockManager.takeLock Managers.crossed
          lock_t.Mode.EXCLUSIVE 1 2).1).state = lock_t.State.OBSOLETE ∧
        x.2.conflict_lock 2 = none) ∧
      (∀ rec, (x.2.lock_table rec).map (fun node => node.record_value) =
        (Managers.crossed.lock_table rec).map (fun node => node.record_value)) ∧
      (x.1 ≠ AcquireOutcome.null →
        (x.1 = AcquireOutcome.lock
            (LockManager.takeLock Managers.crossed lock_t.Mode.EXCLUSIVE 1 2).1 ∧
          (x.2.locks (LockManager.takeLock Managers.crossed
            lock_t.Mode.EXCLUSIVE 1 2).1).state = lock_t.State.ACTIVE ∧
          x.2.conflict_lock 2 = none) ∨
        (x.1 = AcquireOutcome.waiting
            (LockManager.takeLock Managers.crossed lock_t.Mode.EXCLUSIVE 1 2).1 ∧
          x.2.conflict_lock 2 =
            some (LockManager.takeLock Managers.crossed lock_t.Mode.EXCLUSIVE 1 2).1 ∧
          ∀ s' : Managers, s'.Inv →
            s'.conflict_lock 2 =
              some (LockManager.takeLock Managers.crossed lock_t.Mode.EXCLUSIVE 1 2).1 →
            (s'.locks (LockManager.takeLock Managers.crossed
              lock_t.Mode.EXCLUSIVE 1 2).1).signal_flag = true →
            ((LockManager.AcquireWake s' 2 (LockManager.takeLock Managers.crossed
                lock_t.Mode.EXCLUSIVE 1 2).1).locks
              (LockManager.takeLock Managers.crossed
                lock_t.Mode.EXCLUSIVE 1 2).1).state = lock_t.State.ACTIVE ∧
            (LockManager.AcquireWake s' 2 (LockManager.takeLock Managers.crossed
              lock_t.Mode.EXCLUSIVE 1 2).1).conflict_lock 2 = none)) :=
  ⟨⟨Managers.crossed_inv, Managers.crossed_queue, by decide, rfl,
      Managers.crossed_tail⟩,
    LockManager.AcquireLock_null_iff Managers.crossed Managers.crossed_inv
      lock_t.Mode.EXCLUSIVE 1 2 [0] ⟨[1], none, 2⟩ Managers.crossed_queue (by decide) rfl
      Managers.crossed_tail⟩

/-- The EXCLUSIVE request of thread 2 on the record that the sleeping thread 1 reads,
evaluated: `nullptr`, and the new lock 3 is OBSOLETE. -/
theorem LockManager.AcquireLock_crossed_null :
    (LockManager.AcquireLock Managers.crossed lock_t.Mode.EXCLUSIVE 1 2).map
      (fun x => (x.1, (x.2.locks 3).state)) =
      some (AcquireOutcome.null, lock_t.State.OBSOLETE) := by
  decide

/-! ## The deadlock check under the global mutex -/

/-- The walk of `IsDeadlock2` along a list that ends with the conflict lock. -/
theorem LockManager.deadlockWalk2_spec (s : Managers) (this_thread c : Nat) :
    ∀ (todo : List Nat) (target fuel : Nat) (tmp : List Nat),
      (todo ++ [c]).head? = some target → todo.length < fuel →
      (∀ x ∈ todo, x ≠ c) →
      List.Chain' (fun a b => (s.locks a).next = some b) (todo ++ [c]) →
      LockManager.deadlockWalk2 s this_thread c fuel target tmp =
        some (if s.ownsAhead this_thread todo = true then DeadlockWalk.cycle
          else DeadlockWalk.ahead (tmp ++ todo)) := by
  intro todo
  induction todo with
  | nil =>
    intro target fuel tmp hh hf _ _
    simp only [List.nil_append, List.head?_cons, Option.some.injEq] at hh
    subst hh
    cases fuel with
    | zero => simp at hf
    | succ fuel =>
      unfold LockManager.deadlockWalk2
      simp [Managers.ownsAhead]
  | cons a rest ih =>
    intro target fuel tmp hh hf hne hch
    simp only [List.cons_append, List.head?_cons, Option.some.injEq] at hh
    subst hh
    cases fuel with
    | zero => simp at hf
    | succ fuel =>
      unfold LockManager.deadlockWalk2
      rw [if_neg (hne a (List.mem_cons_self _ _))]
      by_cases hown : (s.locks a).thread_id = this_thread ∧
          (s.locks a).state ≠ lock_t.State.OBSOLETE
      · rw [if_pos hown]
        have : s.ownsAhead this_thread (a :: rest) = true := by
          unfold Managers.ownsAhead
          simp only [List.any_cons, Bool.or_eq_true, decide_eq_true_eq]
          exact Or.inl hown
        rw [if_pos this]
      · rw [if_neg hown]
        obtain ⟨b, hb⟩ : ∃ b, (rest ++ [c]).head? = some b := by
          cases rest <;> simp
        have hnext : (s.locks a).next = some b := by
          have hch' : List.Chain' (fun a b => (s.locks a).next = some b)
              (a :: (rest ++ [c])) := by simpa using hch
          exact List.Chain'.rel_head? hch' hb
        rw [hnext]
        simp only
        rw [ih b fuel (tmp ++ [a]) hb (by simp at hf; omega)
          (fun x hx => hne x (List.mem_cons_of_mem _ hx))
          (by
            have hch' : List.Chain' (fun a b => (s.locks a).next = some b)
                (a :: (rest ++ [c])) := by simpa using hch
            exact hch'.tail)]
        have hiff : s.ownsAhead this_thread (a :: rest) = s.ownsAhead this_thread rest := by
          unfold Managers.ownsAhead
          simp only [List.any_cons]
          rw [decide_eq_false hown, Bool.false_or]
        rw [hiff]
        simp

/-- Under the invariant one round of `IsDeadlock2` is one round of `IsDeadlock`. -/
theorem LockManager.deadlockVisit2_eq (s : Managers) (hinv : s.Inv)
    (this_thread target : Nat) (queue pass : List Nat) (ht : target < s.lock_count) :
    LockManager.deadlockVisit2 s this_thread target queue pass =
      LockManager.deadlockVisit s this_thread target queue pass := by
  unfold LockManager.deadlockVisit2 LockManager.deadlockVisit
  rw [hinv.getTrxNode ht]
  cases hc : s.conflict_lock (s.locks target).thread_id with
  | none => rfl
  | some c =>
    obtain ⟨pre, post, hq⟩ := hinv.conflict_queue hc
    obtain ⟨node, hnode, hhead, -⟩ := hq.ends
    obtain ⟨head, hh⟩ : ∃ head, (pre ++ c :: post).head? = some head := by
      cases pre <;> simp
    simp only
    rw [hnode]
    simp only [Option.some_bind]
    rw [hhead, hh]
    simp only [Option.some_bind]
    rw [LockManager.deadlockWalk_queue s this_thread _ c pre post head hc hq hh]
    have hnd := hq.nodup
    have hlen := hq.length_le
    have hpre : ∀ x ∈ pre, x ≠ c := by
      intro x hx e
      subst e
      rw [List.nodup_append] at hnd
      exact hnd.2.2 hx (List.mem_cons_self _ _)
    have h2 := LockManager.deadlockWalk2_spec s this_thread c pre head (s.lock_count + 1) []
      (by
        cases pre with
        | nil => simpa using hh
        | cons a l => simpa using hh)
      (by simp at hlen; omega) hpre
      (by
        have h1 : List.Chain' s.linked (pre ++ [c]) := by
          have : pre ++ c :: post = (pre ++ [c]) ++ post := by simp
          rw [this] at hq
          exact (List.chain'_append.1 hq.links).1
        exact h1.imp (fun a b hab => hab.1))
    rw [h2]
    simp

/-- Under the invariant the outer loop of `IsDeadlock2` is the one of `IsDeadlock`. -/
theorem LockManager.deadlockSearch2_eq (s : Managers) (hinv : s.Inv) (this_thread : Nat) :
    ∀ (fuel : Nat) (queue pass : List Nat), (∀ x ∈ queue, x < s.lock_count) →
      LockManager.deadlockSearch2 this_thread fuel queue pass s =
        LockManager.deadlockSearch this_thread fuel queue pass s := by
  intro fuel
  induction fuel with
  | zero => intro queue pass _; rfl
  | succ fuel ih =>
    intro queue pass hqa
    unfold LockManager.deadlockSearch2 LockManager.deadlockSearch
    cases hd : queue.dropWhile (LockManager.deadlockSkip s pass) with
    | nil => rfl
    | cons target rest =>
      simp only
      have hsub : ∀ x ∈ target :: rest, x < s.lock_count := by
        intro x hx
        apply hqa
        have : x ∈ queue.dropWhile (LockManager.deadlockSkip s pass) := by rw [hd]; exact hx
        exact (List.dropWhile_sublist _).subset this
      have ht := hsub target (List.mem_cons_self _ _)
      rw [LockManager.deadlockVisit2_eq s hinv this_thread target rest pass ht]
      rcases LockManager.deadlockVisit_spec s hinv this_thread target rest pass ht with
        ⟨-, hv⟩ | ⟨c, pre, post, -, hq, hv⟩
      · rw [hv]
        simp only [Option.some_bind]
        exact ih _ _ (fun x hx => hsub x (List.mem_cons_of_mem _ hx))
      · rw [hv]
        simp only [Option.some_bind]
        by_cases ho : s.ownsAhead this_thread pre = true
        · simp [ho]
        · simp only [ho]
          apply ih
          intro x hx
          rw [List.mem_append] at hx
          rcases hx with hx | hx
          · exact hsub x (List.mem_cons_of_mem _ hx)
          · exact (hq.members x (by simp [hx])).1

/-- Under the invariant `IsDeadlock2` gives what `IsDeadlock` gives. -/
theorem LockManager.IsDeadlock2_eq (s : Managers) (hinv : s.Inv) (this_thread : Nat)
    (W : List Nat) (hW : ∀ x ∈ W, x < s.lock_count) :
    LockManager.IsDeadlock2 s this_thread W = LockManager.IsDeadlock s this_thread W := by
  unfold LockManager.IsDeadlock2 LockManager.IsDeadlock
  apply LockManager.deadlockSearch2_eq s hinv
  intro x hx
  simp only [List.mem_filter, List.mem_reverse] at hx
  exact hW x hx.1

/-- C14.  Under the invariant of the lock manager, on a state that only the call changes,
`IsDeadlock` and `IsDeadlock2`, called by `this_thread` with allocated locks
`waiting_lock_vector`, return, both the same, and leave the state as it was.  They return
`true` exactly when from the thread of some lock of `waiting_lock_vector` that is not
OBSOLETE the wait-for graph leads to a thread `u` that waits for the calling thread: the
conflict lock of `u` is queued behind a lock of the calling thread that is not OBSOLETE. -/
theorem LockManager.IsDeadlock_iff_reachable (s : Managers) (hinv : s.Inv)
    (this_thread : Nat) (waiting_lock_vector : List Nat)
    (hW : ∀ x ∈ waiting_lock_vector, x < s.lock_count) :
    ∃ b, LockManager.IsDeadlock s this_thread waiting_lock_vector = some (b, s) ∧
      LockManager.IsDeadlock2 s this_thread waiting_lock_vector = some (b, s) ∧
      (b = true ↔ ∃ w ∈ waiting_lock_vector, (s.locks w).state ≠ lock_t.State.OBSOLETE ∧
        ∃ u, Relation.ReflTransGen s.waitsFor (s.locks w).thread_id u ∧
          ∃ c p, s.conflict_lock u = some c ∧ s.queuedAhead p c ∧
            (s.locks p).state ≠ lock_t.State.OBSOLETE ∧
            (s.locks p).thread_id = this_thread) := by
  obtain ⟨b, hb, hiff⟩ := LockManager.IsDeadlock_spec s hinv this_thread waiting_lock_vector hW
  refine ⟨b, hb, ?_, hiff⟩
  rw [LockManager.IsDeadlock2_eq s hinv this_thread waiting_lock_vector hW]
  exact hb

/-- The scenario of two crossed transactions: T1 holds SHARED on record 1 and sleeps for
EXCLUSIVE on record 2 behind the SHARED lock of T2.  The deadlock check of T2 over the lock
of T1 on record 1 is the check of the graph, and the `Update` of T2 on record 1 returns
MUST_ABORTED. -/
theorem LockManager.IsDeadlock_iff_reachable_witness :
    (Managers.crossed.Inv ∧ ∀ x ∈ [0], x < Managers.crossed.lock_count) ∧
    (∃ b, LockManager.IsDeadlock Managers.crossed 2 [0] = some (b, Managers.crossed) ∧
      LockManager.IsDeadlock2 Managers.crossed 2 [0] = some (b, Managers.crossed) ∧
      (b = true ↔ ∃ w ∈ [0], (Managers.crossed.locks w).state ≠ lock_t.State.OBSOLETE ∧
        ∃ u, Relation.ReflTransGen Managers.crossed.waitsFor
            (Managers.crossed.locks w).thread_id u ∧
          ∃ c p, Managers.crossed.conflict_lock u = some c ∧
            Managers.crossed.queuedAhead p c ∧
            (Managers.crossed.locks p).state ≠ lock_t.State.OBSOLETE ∧
            (Managers.crossed.locks p).thread_id = 2)) ∧
    (LockManager.IsDeadlock Managers.crossed 2 [0]).map (fun r => r.1) = some true ∧
    (TrxManager.Update Managers.crossed 2 1 5).map (fun r => r.1) =
      some Response.MUST_ABORTED :=
  ⟨⟨Managers.crossed_inv, by decide⟩,
    LockManager.IsDeadlock_iff_reachable Managers.crossed Managers.crossed_inv 2 [0]
      (by decide),
    by decide, by decide⟩

/-! ## A second release of the same lock -/

/-- A store into a lock that keeps its state keeps all states. -/
theorem Managers.setLock_state (s : Managers) (l : Nat) (f : lock_t → lock_t)
    (hf : ∀ x, (f x).state = x.state) (k : Nat) :
    ((s.setLock l f).locks k).state = (s.locks k).state := by
  rw [Managers.setLock_locks]
  by_cases hk : k = l
  · subst hk; rw [Function.update_same]; exact hf _
  · rw [Function.update_noteq hk]

/-- The move of the head changes no state; it ends on the last lock of the list, OBSOLETE,
or on a new head that is not OBSOLETE. -/
theorem LockManager.moveHead_out (record_id : Nat) :
    ∀ (fuel prev : Nat) (s : Managers) (r : Option Nat × Managers),
      (s.lock_table record_id).bind (fun node => node.head) = some prev →
      (s.locks prev).state = lock_t.State.OBSOLETE →
      LockManager.moveHead record_id fuel prev s = some r →
      (∀ l, (r.2.locks l).state = (s.locks l).state) ∧
      ((r.1 = none ∧ ∃ last, (r.2.lock_table record_id).bind (fun node => node.head) =
            some last ∧
          (r.2.locks last).state = lock_t.State.OBSOLETE ∧ (r.2.locks last).next = none) ∨
        (∃ new_head, r.1 = some new_head ∧
          (r.2.lock_table record_id).bind (fun node => node.head) = some new_head ∧
          (r.2.locks new_head).state ≠ lock_t.State.OBSOLETE)) := by
  intro fuel
  induction fuel with
  | zero => intro prev s r _ _ h; simp [LockManager.moveHead] at h
  | succ fuel ih =>
    intro prev s r hhead hobs h
    unfold LockManager.moveHead at h
    cases hn : (s.locks prev).next with
    | none =>
      rw [hn] at h
      simp only [Option.some.injEq] at h
      subst h
      exact ⟨fun _ => rfl, Or.inl ⟨rfl, prev, hhead, hobs, hn⟩⟩
    | some target =>
      rw [hn] at h
      simp only at h
      cases hnode : s.lock_table record_id with
      | none => rw [hnode] at h; simp at h
      | some node =>
        rw [hnode] at h
        simp only [Option.some_bind] at h
        have hst : ∀ l, (((s.setNode record_id { node with head := some target }).setLock
            prev lock_t.passHead).locks l).state = (s.locks l).state := by
          intro l
          rw [Managers.setLock_state _ _ lock_t.passHead (fun _ => rfl)]
          rfl
        have hh : (((s.setNode record_id { node with head := some target }).setLock
            prev lock_t.passHead).lock_table record_id).bind (fun node => node.head) =
            some target := by
          simp
        split at h
        next hto =>
          obtain ⟨h1, h2⟩ := ih _ _ _ hh hto h
          exact ⟨fun l => (h1 l).trans (hst l), h2⟩
        next hto =>
          simp only [Option.some.injEq] at h
          subst h
          exact ⟨hst, Or.inr ⟨target, rfl, hh, hto⟩⟩

/-- The signals of `ReleaseLock` change no state. -/
theorem LockManager.wakeShared_state :
    ∀ (fuel : Nat) (target : Option Nat) (s s' : Managers),
      LockManager.wakeShared fuel target s = some s' →
      ∀ l, (s'.locks l).state = (s.locks l).state := by
  intro fuel
  induction fuel with
  | zero => intro target s s' h; simp [LockManager.wakeShared] at h
  | succ fuel ih =>
    intro target s s' h
    cases target with
    | none =>
      simp only [LockManager.wakeShared, Option.some.injEq] at h
      subst h
      exact fun _ => rfl
    | some target =>
      simp only [LockManager.wakeShared] at h
      split at h
      · exact ih _ _ _ h
      · split at h
        · simp only [Option.some.injEq] at h
          subst h
          exact fun _ => rfl
        · intro l
          rw [ih _ _ _ h l, Managers.setLock_state _ _ lock_t.signal (fun _ => rfl),
            TrxManager.GetTrxNode_locks]

theorem LockManager.wakeHead_state (s s' : Managers) (new_head : Nat)
    (h : LockManager.wakeHead s new_head = some s') :
    ∀ l, (s'.locks l).state = (s.locks l).state := by
  unfold LockManager.wakeHead at h
  split at h
  · intro l
    rw [LockManager.wakeShared_state _ _ _ _ h l, Managers.setLock_state _ _ lock_t.signal (fun _ => rfl),
      TrxManager.GetTrxNode_locks]
  · simp only [Option.some.injEq] at h
    subst h
    intro l
    rw [Managers.setLock_state _ _ lock_t.signal (fun _ => rfl), TrxManager.GetTrxNode_locks]

/-- The part of `ReleaseLock` behind the store of the state, run a second time, changes
nothing. -/
theorem LockManager.advance_twice (s s1 : Managers) (record_id : Nat)
    (h : LockManager.advance s record_id = some s1) :
    (∀ l, (s1.locks l).state = (s.locks l).state) ∧
      LockManager.advance s1 record_id = some s1 := by
  unfold LockManager.advance at h
  cases hhead : (s.lock_table record_id).bind (fun node => node.head) with
  | none => rw [hhead] at h; simp at h
  | some head =>
    rw [hhead] at h
    simp only [Option.some_bind] at h
    by_cases hobs : (s.locks head).state = lock_t.State.OBSOLETE
    · rw [if_neg (not_not.2 hobs)] at h
      cases hm : LockManager.moveHead record_id (s.lock_count + 1) head s with
      | none => rw [hm] at h; simp at h
      | some r =>
        rw [hm] at h
        simp only [Option.some_bind] at h
        obtain ⟨hst, hend⟩ := LockManager.moveHead_out record_id _ _ _ _ hhead hobs hm
        rcases hend with ⟨hr1, last, hlast, hlobs, hlnext⟩ | ⟨new_head, hr1, hnh, hnobs⟩
        · rw [hr1] at h
          simp only [Option.some.injEq] at h
          subst h
          refine ⟨hst, ?_⟩
          unfold LockManager.advance
          rw [hlast]
          simp only [Option.some_bind]
          rw [if_neg (not_not.2 hlobs)]
          unfold LockManager.moveHead
          rw [hlnext]
          rfl
        · rw [hr1] at h
          simp only at h
          have hws := LockManager.wakeHead_state _ _ _ h
          have hwt := LockManager.wakeHead_lock_table _ _ _ h
          refine ⟨fun l => (hws l).trans (hst l), ?_⟩
          unfold LockManager.advance
          rw [hwt, hnh]
          simp only [Option.some_bind]
          rw [if_pos (by rw [hws]; exact hnobs)]
    · rw [if_pos hobs] at h
      simp only [Option.some.injEq] at h
      subst h
      refine ⟨fun _ => rfl, ?_⟩
      unfold LockManager.advance
      rw [hhead]
      simp only [Option.some_bind]
      rw [if_pos hobs]

/-- A second `ReleaseLock` of a lock changes nothing. -/
theorem LockManager.ReleaseLock_again (s s1 : Managers) (release_lock : Nat)
    (h : LockManager.ReleaseLock s release_lock = some s1) :
    LockManager.ReleaseLock s1 release_lock = some s1 := by
  have hfr := LockManager.ReleaseLock_frame s s1 release_lock h
  unfold LockManager.ReleaseLock at h ⊢
  obtain ⟨hst, hadv⟩ := LockManager.advance_twice _ _ _ h
  have hobs : (s1.locks release_lock).state = lock_t.State.OBSOLETE := by
    rw [hst, Managers.setLock_locks, Function.update_same]
    rfl
  rw [Managers.setLock_eq_self s1 release_lock _ (by
    cases hl : s1.locks release_lock
    rw [hl] at hobs
    simp only at hobs
    subst hobs
    rfl)]
  rw [hfr.record_id]
  exact hadv

/-- C15.  For every state of the lock manager and every lock: when `ReleaseLock` of the
lock returns, a second `ReleaseLock` of the same lock right after it returns too and leaves
the state exactly as the first call left it, the lock OBSOLETE: the head of every record,
the state of every lock and all `head_pass_flag` and `signal_flag` are the same after two
calls as after one.  Under the invariant the call returns for every allocated lock whose thread does not
sleep for it. -/
theorem LockManager.ReleaseLock_idempotent (s : Managers) (release_lock : Nat) :
    (∀ s1, LockManager.ReleaseLock s release_lock = some s1 →
      (s1.locks release_lock).state = lock_t.State.OBSOLETE ∧
      LockManager.ReleaseLock s1 release_lock = some s1) ∧
    (s.Inv → release_lock < s.lock_count →
      (s.locks release_lock).state ≠ lock_t.State.WAIT →
      ∃ s1, LockManager.ReleaseLock s release_lock = some s1) := by
  refine ⟨fun s1 h => ⟨?_, LockManager.ReleaseLock_again s s1 release_lock h⟩,
    fun hinv hrl hnw => ?_⟩
  · unfold LockManager.ReleaseLock at h
    rw [(LockManager.advance_twice _ _ _ h).1, Managers.setLock_locks, Function.update_same]
    rfl
  · obtain ⟨s', hs', -⟩ := LockManager.ReleaseLock_inv s hinv release_lock hrl hnw
    exact ⟨s', hs'⟩

/-- The first reader of a record with two readers releases its lock twice. -/
theorem LockManager.ReleaseLock_idempotent_witness :
    (Managers.twoReaders.Inv ∧ 0 < Managers.twoReaders.lock_count ∧
      (Managers.twoReaders.locks 0).state ≠ lock_t.State.WAIT) ∧
    ∃ s1, LockManager.ReleaseLock Managers.twoReaders 0 = some s1 ∧
      (s1.locks 0).state = lock_t.State.OBSOLETE ∧
      LockManager.ReleaseLock s1 0 = some s1 :=
  ⟨⟨Managers.twoReaders_inv, by decide, by decide⟩,
    ((LockManager.ReleaseLock_idempotent Managers.twoReaders 0).2
      Managers.twoReaders_inv (by decide) (by decide)).elim
      (fun s1 h => ⟨s1, h, (LockManager.ReleaseLock_idempotent Managers.twoReaders 0).1 s1 h⟩)⟩

/-- The heads after one and after two releases of the first reader, evaluated: the head of
the record has moved to the lock of the second reader, whose signal is set. -/
theorem LockManager.ReleaseLock_twice_example :
    ((LockManager.ReleaseLock Managers.twoReaders 0).bind (fun s1 =>
      (LockManager.ReleaseLock s1 0).map (fun s2 =>
        ((s1.lock_table 1).bind (fun node => node.head),
          (s2.lock_table 1).bind (fun node => node.head),
          (s2.locks 0).head_pass_flag, (s2.locks 1).signal_flag)))) =
      some (some 1, some 1, true, true) := by
  decide

/-! ## `Update` -/

/-- The rest of `Update` behind the acquisition of an EXCLUSIVE lock that is not OBSOLETE:
the value of the record of the lock grows by `diff`, the lock keeps `diff`, no other record
and no other member of a lock changes. -/
theorem TrxManager.UpdateWith_spec (s : Managers) (lock r : Nat) (diff : Int)
    (node : LockTableNode)
    (hmode : (s.locks lock).mode = lock_t.Mode.EXCLUSIVE)
    (hstate : (s.locks lock).state ≠ lock_t.State.OBSOLETE)
    (hrec : (s.locks lock).record_id = r) (hnode : s.lock_table r = some node)
    (hfit : isInt64 (node.record_value + diff)) :
    TrxManager.UpdateWith s lock diff =
      some (Response.SUCCESS (node.record_value + diff),
        (s.setNode r { node with record_value := node.record_value + diff }).setLock lock
          (lock_t.withDiff diff)) := by
  unfold TrxManager.UpdateWith LockManager.ChangeRecord
  rw [if_pos ⟨hmode, hstate⟩, hrec, hnode]
  simp only [Option.some_bind]
  rw [if_pos hfit]
  rfl

/-- The values of the records after the stores of `UpdateWith`. -/
theorem Managers.record_value_update (s : Managers) (lock r : Nat) (node : LockTableNode)
    (v : Int) (f : lock_t → lock_t) (hnode : s.lock_table r = some node) (rec : Nat) :
    (((s.setNode r { node with record_value := v }).setLock lock f).lock_table rec).map
        (fun node => node.record_value) =
      if rec = r then some v else (s.lock_table rec).map (fun node => node.record_value) := by
  rw [Managers.setLock_lock_table, Managers.setNode_lock_table]
  by_cases h : rec = r
  · subst h
    rw [Function.update_same, if_pos rfl]
    rfl
  · rw [Function.update_noteq h, if_neg h]

/-- C16.  Under the invariant, let a thread that has its node and is not asleep call
`Update(r, diff)` on a record `r` with value `x` whose list is `chain` (the tail, if any,
with an id below the maximum); let `n` be the new lock.  The call comes to an outcome.
When `AcquireLock` returns `nullptr`, `Update` returns MUST_ABORTED and no record value has
changed.  When `AcquireLock` returns the lock at once and `x + diff` fits `int64_t`,
`Update` returns SUCCESS with `x + diff`, the record holds `x + diff`, the lock holds
`diff`, and no other record value has changed.  When the thread sleeps, no record value
has changed; when it is woken (the signal of `n` set) in a later state of the invariant
in which the record holds `x'` and `x' + diff` fits `int64_t`, the rest of `Update` returns
SUCCESS with `x' + diff`, the record holds `x' + diff`, the lock holds `diff`, and no other
record value changes. -/
theorem TrxManager.Update_adds_diff (s : Managers) (hinv : s.Inv) (r t : Nat) (diff : Int)
    (chain : List Nat) (tn : TrxNode) (node : LockTableNode)
    (hq : s.IsQueue r chain)
    (htrx : s.trx_node_table t = some tn) (hconf : tn.conflict_lock = none)
    (hid : ∀ tl, chain.getLast? = some tl → (s.locks tl).lock_id_on_record ≠ LOCK_ID_MAX)
    (hnode : s.lock_table r = some node) :
    ∃ a, LockManager.AcquireLock s lock_t.Mode.EXCLUSIVE r t = some a ∧
      (a.1 = AcquireOutcome.null ∨
        a.1 = AcquireOutcome.lock (LockManager.takeLock s lock_t.Mode.EXCLUSIVE r t).1 ∨
        a.1 = AcquireOutcome.waiting (LockManager.takeLock s lock_t.Mode.EXCLUSIVE r t).1) ∧
      (a.1 = AcquireOutcome.null →
        TrxManager.Update s t r diff = some (Response.MUST_ABORTED, a.2) ∧
        ∀ rec, (a.2.lock_table rec).map (fun node => node.record_value) =
          (s.lock_table rec).map (fun node => node.record_value)) ∧
      (a.1 = AcquireOutcome.lock (LockManager.takeLock s lock_t.Mode.EXCLUSIVE r t).1 →
        isInt64 (node.record_value + diff) →
        ∃ s2, TrxManager.Update s t r diff =
            some (Response.SUCCESS (node.record_value + diff), s2) ∧
          (s2.lock_table r).map (fun node => node.record_value) =
            some (node.record_value + diff) ∧
          (s2.locks (LockManager.takeLock s lock_t.Mode.EXCLUSIVE r t).1).diff = diff ∧
          ∀ rec, rec ≠ r → (s2.lock_table rec).map (fun node => node.record_value) =
            (s.lock_table rec).map (fun node => node.record_value)) ∧
      (a.1 = AcquireOutcome.waiting (LockManager.takeLock s lock_t.Mode.EXCLUSIVE r t).1 →
        TrxManager.Update s t r diff =
          some (Response.BLOCKED (LockManager.takeLock s lock_t.Mode.EXCLUSIVE r t).1, a.2) ∧
        (∀ rec, (a.2.lock_table rec).map (fun node => node.record_value) =
          (s.lock_table rec).map (fun node => node.record_value)) ∧
        (a.2.locks (LockManager.takeLock s lock_t.Mode.EXCLUSIVE r t).1).mode =
          lock_t.Mode.EXCLUSIVE ∧
        (a.2.locks (LockManager.takeLock s lock_t.Mode.EXCLUSIVE r t).1).record_id = r ∧
        ∀ (s' : Managers) (node' : LockTableNode), s'.Inv →
          s'.conflict_lock t = some (LockManager.takeLock s lock_t.Mode.EXCLUSIVE r t).1 →
          (s'.locks (LockManager.takeLock s lock_t.Mode.EXCLUSIVE r t).1).signal_flag = true →
          (s'.locks (LockManager.takeLock s lock_t.Mode.EXCLUSIVE r t).1).mode =
            lock_t.Mode.EXCLUSIVE →
          (s'.locks (LockManager.takeLock s lock_t.Mode.EXCLUSIVE r t).1).record_id = r →
          s'.lock_table r = some node' → isInt64 (node'.record_value + diff) →
          ∃ s2, TrxManager.UpdateWake s' t
              (LockManager.takeLock s lock_t.Mode.EXCLUSIVE r t).1 diff =
              some (Response.SUCCESS (node'.record_value + diff), s2) ∧
            (s2.lock_table r).map (fun node => node.record_value) =
              some (node'.record_value + diff) ∧
            (s2.locks (LockManager.takeLock s lock_t.Mode.EXCLUSIVE r t).1).diff = diff ∧
            ∀ rec, rec ≠ r → (s2.lock_table rec).map (fun node => node.record_value) =
              (s'.lock_table rec).map (fun node => node.record_value)) := by
  obtain ⟨s1, id, -, hins, hres⟩ := LockManager.AcquireLock_spec s hinv lock_t.Mode.EXCLUSIVE
    r t chain tn hq (hinv.granting_of hq) htrx hconf hid
  have hget : TrxManager.GetTrxNode s t = s := TrxManager.GetTrxNode_of_some s t tn htrx
  generalize (LockManager.takeLock s lock_t.Mode.EXCLUSIVE r t).1 = n at hins hres ⊢
  have hupd : ∀ a, LockManager.AcquireLock s lock_t.Mode.EXCLUSIVE r t = some a →
      TrxManager.Update s t r diff =
        (match a.1 with
          | AcquireOutcome.null => some (Response.MUST_ABORTED, a.2)
          | AcquireOutcome.lock lock => TrxManager.UpdateWith a.2 lock diff
          | AcquireOutcome.waiting lock => some (Response.BLOCKED lock, a.2)) := by
    intro a ha
    unfold TrxManager.Update
    rw [hget, ha]
    rfl
  have hafter : ∀ (s' : Managers) (node' : LockTableNode),
      (s'.locks n).mode = lock_t.Mode.EXCLUSIVE →
      (s'.locks n).state ≠ lock_t.State.OBSOLETE →
      (s'.locks n).record_id = r → s'.lock_table r = some node' →
      isInt64 (node'.record_value + diff) →
      ∃ s2, TrxManager.UpdateWith s' n diff =
          some (Response.SUCCESS (node'.record_value + diff), s2) ∧
        (s2.lock_table r).map (fun node => node.record_value) =
          some (node'.record_value + diff) ∧
        (s2.locks n).diff = diff ∧
        ∀ rec, rec ≠ r → (s2.lock_table rec).map (fun node => node.record_value) =
          (s'.lock_table rec).map (fun node => node.record_value) := by
    intro s' node' hm hs hr hn hf
    refine ⟨_, TrxManager.UpdateWith_spec s' n r diff node' hm hs hr hn hf, ?_, ?_, ?_⟩
    · rw [Managers.record_value_update _ _ _ _ _ _ hn, if_pos rfl]
    · rw [Managers.setLock_locks, Function.update_same]
      rfl
    · intro rec hrec
      rw [Managers.record_value_update _ _ _ _ _ _ hn, if_neg hrec]
  have hwake : ∀ (s' : Managers) (node' : LockTableNode), s'.Inv →
      s'.conflict_lock t = some n → (s'.locks n).signal_flag = true →
      (s'.locks n).mode = lock_t.Mode.EXCLUSIVE → (s'.locks n).record_id = r →
      s'.lock_table r = some node' → isInt64 (node'.record_value + diff) →
      ∃ s2, TrxManager.UpdateWake s' t n diff =
          some (Response.SUCCESS (node'.record_value + diff), s2) ∧
        (s2.lock_table r).map (fun node => node.record_value) =
          some (node'.record_value + diff) ∧
        (s2.locks n).diff = diff ∧
        ∀ rec, rec ≠ r → (s2.lock_table rec).map (fun node => node.record_value) =
          (s'.lock_table rec).map (fun node => node.record_value) := by
    intro s' node' hinv' hc hsig hm hr hn hf
    unfold TrxManager.UpdateWake
    rw [(hinv'.wake t n hc hsig).2]
    have hf1 := Managers.decided_fields s' t n lock_t.State.ACTIVE none n
    obtain ⟨s2, h1, h2, h3, h4⟩ := hafter (s'.decided t n lock_t.State.ACTIVE none) node'
      (by rw [hf1.2.2.2.2.2.2.1]; exact hm)
      (by rw [Managers.decided_locks_same]; exact fun h => (by cases h))
      (by rw [hf1.2.2.2.2.1]; exact hr)
      (by rw [Managers.decided_lock_table]; exact hn) hf
    refine ⟨s2, h1, h2, h3, ?_⟩
    intro rec hrec
    rw [h4 rec hrec, Managers.decided_lock_table]
  have hnode1 : ∀ st c, (s1.decided t n st c).lock_table r =
      some { node with tail := some n,
                       head := if chain = [] then some n else node.head } := by
    intro st c
    obtain ⟨node0, hnode0, hnode1⟩ := hins.node
    rw [hnode] at hnode0
    cases hnode0
    rw [Managers.decided_lock_table]
    exact hnode1
  rcases hres with ⟨-, hacq⟩ | ⟨-, b, -, hacq⟩
  · refine ⟨_, hacq, Or.inr (Or.inl rfl), fun h => (by cases h), ?_, fun h => (by cases h)⟩
    intro _ hfit
    rw [hupd _ hacq]
    obtain ⟨s2, h1, h2, h3, h4⟩ := hafter (s1.decided t n lock_t.State.ACTIVE none) _
      (hins.decided_new _ _).2.1
      (by rw [(hins.decided_new _ _).1]; exact fun h => (by cases h))
      (by rw [(Managers.decided_fields s1 t n _ _ n).2.2.2.2.1]; exact hins.new.2.2.2.2.1)
      (hnode1 _ _) hfit
    refine ⟨s2, h1, h2, h3, ?_⟩
    intro rec hrec
    rw [h4 rec hrec]
    exact hins.record_value _ _ rec
  · cases b with
    | true =>
      refine ⟨_, hacq, Or.inl rfl, ?_, fun h => (by cases h), fun h => (by cases h)⟩
      intro _
      exact ⟨hupd _ hacq, hins.record_value _ _⟩
    | false =>
      refine ⟨_, hacq, Or.inr (Or.inr rfl), fun h => (by cases h), fun h => (by cases h), ?_⟩
      intro _
      refine ⟨hupd _ hacq, hins.record_value _ _, (hins.decided_new _ _).2.1, ?_, hwake⟩
      exact ((Managers.decided_fields s1 t n _ _ n).2.2.2.2.1).trans hins.new.2.2.2.2.1

theorem Managers.oneThread_inv : Managers.oneThread.Inv :=
  (Managers.init_inv 2 0).getTrxNode_inv 1

/-- The list of record 1 is empty when nothing has happened. -/
theorem Managers.oneThread_queue : Managers.oneThread.IsQueue 1 [] := by
  refine ⟨⟨LockTableNode.create 1, by decide, rfl, rfl⟩, List.chain'_nil, List.nodup_nil,
    ?_, ?_, ?_, ?_⟩
  · intro l hl; cases hl
  · intro l hl; cases hl
  · intro l hl; exact absurd hl (Nat.not_lt_zero _)
  · intro l hl; exact absurd hl (Nat.not_lt_zero _)

/-- The first `Update` of a run: record 1 holds 100, the thread 1 adds 5. -/
theorem TrxManager.Update_adds_diff_witness :
    (Managers.oneThread.Inv ∧ Managers.oneThread.IsQueue 1 [] ∧
      Managers.oneThread.trx_node_table 1 = some ⟨[], none, 1⟩ ∧
      (⟨[], none, 1⟩ : TrxNode).conflict_lock = none ∧
      (∀ tl, ([] : List Nat).getLast? = some tl →
        (Managers.oneThread.locks tl).lock_id_on_record ≠ LOCK_ID_MAX) ∧
      Managers.oneThread.lock_table 1 = some (LockTableNode.create 1)) ∧
    ∃ a, LockManager.AcquireLock Managers.oneThread lock_t.Mode.EXCLUSIVE 1 1 = some a ∧
      (a.1 = AcquireOutcome.lock
          (LockManager.takeLock Managers.oneThread lock_t.Mode.EXCLUSIVE 1 1).1 →
        isInt64 ((LockTableNode.create 1).record_value + 5) →
        ∃ s2, TrxManager.Update Managers.oneThread 1 1 5 =
            some (Response.SUCCESS ((LockTableNode.create 1).record_value + 5), s2) ∧
          (s2.lock_table 1).map (fun node => node.record_value) =
            some ((LockTableNode.create 1).record_value + 5) ∧
          (s2.locks (LockManager.takeLock Managers.oneThread
            lock_t.Mode.EXCLUSIVE 1 1).1).diff = 5 ∧
          ∀ rec, rec ≠ 1 → (s2.lock_table rec).map (fun node => node.record_value) =
            (Managers.oneThread.lock_table rec).map (fun node => node.record_value)) :=
  ⟨⟨Managers.oneThread_inv, Managers.oneThread_queue, by decide, rfl,
      fun tl h => (by cases h), by decide⟩,
    (TrxManager.Update_adds_diff Managers.oneThread Managers.oneThread_inv 1 1 5 []
      ⟨[], none, 1⟩ (LockTableNode.create 1) Managers.oneThread_queue (by decide) rfl
      (fun tl h => (by cases h)) (by decide)).imp (fun a h => ⟨h.1, h.2.2.2.1⟩)⟩

/-- The first `Update` of a run, evaluated: SUCCESS with 105, record 1 holds 105, record 2
still 100, the lock 0 holds the diff 5. -/
theorem TrxManager.Update_example :
    (TrxManager.Update Managers.oneThread 1 1 5).map (fun x =>
      (x.1, (x.2.lock_table 1).map (fun node => node.record_value),
        (x.2.lock_table 2).map (fun node => node.record_value), (x.2.locks 0).diff)) =
      some (Response.SUCCESS 105, some 105, some 100, 5) := by
  decide

/-- The `Update` of thread 2 on the record that the sleeping thread 1 reads, evaluated:
MUST_ABORTED, and both records still hold 100. -/
theorem TrxManager.Update_crossed_example :
    (TrxManager.Update Managers.crossed 2 1 5).map (fun x =>
      (x.1, (x.2.lock_table 1).map (fun node => node.record_value),
        (x.2.lock_table 2).map (fun node => node.record_value))) =
      some (Response.MUST_ABORTED, some 100, some 100) := by
  decide

/-! ## Transactions: the invariant across the stores of `Update` and `Abort` -/

/-- The shape of a list depends on the head and the tail of the node of the record, not on
its value. -/
theorem Managers.IsQueue.congr_ends {s s' : Managers} {r : Nat} {chain : List Nat}
    (hq : s.IsQueue r chain)
    (hends : ∃ node, s'.lock_table r = some node ∧ node.head = chain.head? ∧
      node.tail = chain.getLast?)
    (hcount : s'.lock_count = s.lock_count)
    (hlocks : ∀ l, (s'.locks l).next = (s.locks l).next ∧
      (s'.locks l).lock_id_on_record = (s.locks l).lock_id_on_record ∧
      (s'.locks l).id_pass_flag = (s.locks l).id_pass_flag ∧
      (s'.locks l).head_pass_flag = (s.locks l).head_pass_flag ∧
      (s'.locks l).record_id = (s.locks l).record_id)
    (hstate : ∀ l, l ∉ chain → (s.locks l).state = lock_t.State.OBSOLETE →
      (s'.locks l).state = lock_t.State.OBSOLETE) : s'.IsQueue r chain := by
  refine ⟨hends, ?_, hq.nodup, ?_, ?_, ?_, ?_⟩
  · refine List.Chain'.imp ?_ hq.links
    intro a b hab
    unfold Managers.linked
    rw [(hlocks a).1, (hlocks b).2.1, (hlocks a).2.1, (hlocks a).2.2.1]
    exact hab
  · intro l hl
    rw [(hlocks l).1, (hlocks l).2.2.1]
    exact hq.last l hl
  · intro l hl
    rw [hcount, (hlocks l).2.2.2.2, (hlocks l).2.2.2.1]
    exact hq.members l hl
  · intro l hlt hrec hnot
    rw [hcount] at hlt
    rw [(hlocks l).2.2.2.2] at hrec
    exact hstate l hnot (hq.others l hlt hrec hnot)
  · intro l hlt hrec
    rw [hcount] at hlt
    rw [(hlocks l).2.2.2.2] at hrec
    exact hq.nonempty l hlt hrec

/-- The invariant does not depend on the values of the records nor on the `diff` of the
locks. -/
theorem Managers.Inv.of_same {s s' : Managers} (hinv : s.Inv)
    (hlocks : ∀ l, (s'.locks l).next = (s.locks l).next ∧
      (s'.locks l).lock_id_on_record = (s.locks l).lock_id_on_record ∧
      (s'.locks l).id_pass_flag = (s.locks l).id_pass_flag ∧
      (s'.locks l).head_pass_flag = (s.locks l).head_pass_flag ∧
      (s'.locks l).record_id = (s.locks l).record_id ∧
      (s'.locks l).thread_id = (s.locks l).thread_id ∧
      (s'.locks l).state = (s.locks l).state ∧
      (s'.locks l).mode = (s.locks l).mode ∧
      (s'.locks l).signal_flag = (s.locks l).signal_flag)
    (hcount : s'.lock_count = s.lock_count)
    (htable : ∀ r, (s'.lock_table r).map (fun node => (node.head, node.tail)) =
      (s.lock_table r).map (fun node => (node.head, node.tail)))
    (hpools : s'.pools = s.pools)
    (htrx : s'.trx_node_table = s.trx_node_table) : s'.Inv := by
  have hsome : ∀ r, (s'.lock_table r).isSome = (s.lock_table r).isSome := by
    intro r
    have := congrArg Option.isSome (htable r)
    simpa using this
  have hconf : ∀ t, s'.conflict_lock t = s.conflict_lock t := by
    intro t; unfold Managers.conflict_lock; rw [htrx]
  have hdeq : ∀ t, s'.trx_lock_deque t = s.trx_lock_deque t := by
    intro t; unfold Managers.trx_lock_deque; rw [htrx]
  refine ⟨?_, ?_, ?_, ?_, ?_, ?_, ?_⟩
  · intro r hr
    rw [hsome] at hr
    obtain ⟨chain, hq, hg⟩ := hinv.queues r hr
    refine ⟨chain, ?_, ?_⟩
    · refine hq.congr_ends ?_ hcount
        (fun l => ⟨(hlocks l).1, (hlocks l).2.1, (hlocks l).2.2.1, (hlocks l).2.2.2.1,
          (hlocks l).2.2.2.2.1⟩)
        (fun l _ h => by rw [(hlocks l).2.2.2.2.2.2.1]; exact h)
      obtain ⟨node, hnode, hh, ht⟩ := hq.ends
      have h1 := htable r
      rw [hnode] at h1
      cases hn' : s'.lock_table r with
      | none => rw [hn'] at h1; cases h1
      | some node' =>
        rw [hn'] at h1
        simp only [Option.map_some', Option.some.injEq, Prod.mk.injEq] at h1
        exact ⟨node', rfl, h1.1.trans hh, h1.2.trans ht⟩
    · exact Managers.Granting.congr (fun l _ => ⟨(hlocks l).2.2.2.2.2.2.1,
        (hlocks l).2.2.2.2.2.2.2.1, (hlocks l).2.2.2.2.2.2.2.2⟩) hg
  · intro l hl
    rw [hcount] at hl
    rw [(hlocks l).2.2.2.2.1, hsome]
    exact hinv.records l hl
  · intro l hl
    rw [hcount] at hl
    rw [(hlocks l).2.2.2.2.2.1, htrx]
    exact hinv.owners l hl
  · intro t r p hp
    rw [hpools] at hp
    rw [hcount, (hlocks p).2.2.2.2.2.1, (hlocks p).2.2.2.2.1]
    exact hinv.pools t r p hp
  · intro t l hl
    rw [hdeq] at hl
    rw [hcount, (hlocks l).2.2.2.2.2.1]
    exact hinv.deques t l hl
  · intro l hl hst
    rw [hcount] at hl
    rw [(hlocks l).2.2.2.2.2.2.1] at hst
    rw [(hlocks l).2.2.2.2.2.1, hconf]
    exact hinv.waiting l hl hst
  · intro t c hc
    rw [hconf] at hc
    rw [hcount, (hlocks c).2.2.2.2.2.1, (hlocks c).2.2.2.2.2.2.1]
    exact hinv.conflicts t c hc

/-- The store of a record value keeps the invariant. -/
theorem Managers.Inv.setValue {s : Managers} (hinv : s.Inv) (r : Nat) (node : LockTableNode)
    (hnode : s.lock_table r = some node) (v : Int) :
    (s.setNode r { node with record_value := v }).Inv := by
  refine hinv.of_same (fun l => ⟨rfl, rfl, rfl, rfl, rfl, rfl, rfl, rfl, rfl⟩) rfl ?_ rfl rfl
  intro r'
  rw [Managers.setNode_lock_table]
  by_cases h : r' = r
  · subst h; rw [Function.update_same, hnode]; rfl
  · rw [Function.update_noteq h]

/-- The store of the `diff` of a lock keeps the invariant. -/
theorem Managers.Inv.setDiff {s : Managers} (hinv : s.Inv) (n : Nat) (d : Int) :
    (s.setLock n (lock_t.withDiff d)).Inv := by
  refine hinv.of_same ?_ rfl (fun _ => rfl) rfl rfl
  intro l
  rw [Managers.setLock_locks]
  by_cases h : l = n
  · subst h; rw [Function.update_same]; exact ⟨rfl, rfl, rfl, rfl, rfl, rfl, rfl, rfl, rfl⟩
  · rw [Function.update_noteq h]; exact ⟨rfl, rfl, rfl, rfl, rfl, rfl, rfl, rfl, rfl⟩

/-! ### What `Abort` takes off a record -/

theorem Managers.undo_congr {s s' : Managers} (r : Nat) (deque : List Nat)
    (h : ∀ l ∈ deque, (s'.locks l).state = (s.locks l).state ∧
      (s'.locks l).mode = (s.locks l).mode ∧
      (s'.locks l).record_id = (s.locks l).record_id ∧
      (s'.locks l).diff = (s.locks l).diff) :
    s'.undo r deque = s.undo r deque := by
  induction deque with
  | nil => rfl
  | cons l rest ih =>
    unfold Managers.undo TrxManager.needsRollback
    obtain ⟨h1, h2, h3, h4⟩ := h l (List.mem_cons_self _ _)
    rw [ih (fun x hx => h x (List.mem_cons_of_mem _ hx))]
    simp only [h1, h2, h3, h4]

theorem Managers.undo_zero (s : Managers) (r : Nat) (deque : List Nat)
    (h : ∀ l ∈ deque, ¬ (TrxManager.needsRollback s l ∧ (s.locks l).record_id = r)) :
    s.undo r deque = 0 := by
  induction deque with
  | nil => rfl
  | cons l rest ih =>
    unfold Managers.undo
    rw [if_neg (h l (List.mem_cons_self _ _)),
      ih (fun x hx => h x (List.mem_cons_of_mem _ hx))]
    rfl

theorem Managers.undo_append (s : Managers) (r : Nat) (deque : List Nat) (n : Nat) :
    s.undo r (deque ++ [n]) = s.undo r deque +
      (if TrxManager.needsRollback s n ∧ (s.locks n).record_id = r then
        (s.locks n).diff else 0) := by
  induction deque with
  | nil => simp [Managers.undo]
  | cons l rest ih =>
    rw [List.cons_append]
    unfold Managers.undo
    rw [ih]
    ring

/-! ### The loop of `Abort` -/

/-- A lock that is neither OBSOLETE nor in state WAIT is ACTIVE. -/
theorem lock_t.State.active_of_ne {st : lock_t.State} (h1 : st ≠ lock_t.State.OBSOLETE)
    (h2 : st ≠ lock_t.State.WAIT) : st = lock_t.State.ACTIVE := by
  cases st
  · rfl
  · exact absurd rfl h2
  · exact absurd rfl h1

theorem Managers.RollbackFrame.same (s : Managers) : s.RollbackFrame s :=
  ⟨fun _ => rfl, fun _ => rfl, fun _ => rfl, fun _ => rfl, rfl, fun _ => rfl, fun _ => rfl,
    rfl, rfl, rfl⟩

theorem Managers.RollbackFrame.comp {s s1 s2 : Managers} (h1 : s.RollbackFrame s1)
    (h2 : s1.RollbackFrame s2) : s.RollbackFrame s2 :=
  ⟨fun l => (h2.record_id l).trans (h1.record_id l),
    fun l => (h2.thread_id l).trans (h1.thread_id l),
    fun l => (h2.mode l).trans (h1.mode l),
    fun l => (h2.diff l).trans (h1.diff l),
    h2.lock_count.trans h1.lock_count,
    fun t => (h2.deque t).trans (h1.deque t),
    fun t => (h2.conflict t).trans (h1.conflict t),
    h2.files.trans h1.files, h2.count.trans h1.count, h2.last.trans h1.last⟩

theorem Managers.ReleaseFrame.rollback {s s' : Managers} (h : s.ReleaseFrame s') :
    s.RollbackFrame s' :=
  ⟨h.record_id, h.thread_id, h.mode, h.diff, h.lock_count, h.deque, h.conflict, h.files,
    h.count, h.last⟩

theorem Managers.undo_cons (s : Managers) (r l : Nat) (rest : List Nat) :
    s.undo r (l :: rest) =
      (if TrxManager.needsRollback s l ∧ (s.locks l).record_id = r then
        (s.locks l).diff else 0) + s.undo r rest := rfl

/-- One round of the loop of `Abort` under the invariant, for an allocated lock whose thread
does not sleep for it: the round returns and keeps the invariant; the lock is OBSOLETE
afterwards; the `diff` of an EXCLUSIVE lock that was not OBSOLETE is taken off its record,
and no other record value changes. -/
theorem TrxManager.rollbackOne_spec (s : Managers) (hinv : s.Inv) (l : Nat)
    (hl : l < s.lock_count) (hnw : (s.locks l).state ≠ lock_t.State.WAIT)
    (hneg : TrxManager.needsRollback s l → isInt64 (-(s.locks l).diff))
    (hfit : TrxManager.needsRollback s l → ∀ node,
      s.lock_table (s.locks l).record_id = some node →
      isInt64 (node.record_value - (s.locks l).diff)) :
    ∃ s', TrxManager.rollbackOne s l = some s' ∧ s'.Inv ∧ s.RollbackFrame s' ∧
      (∀ r, (s'.lock_table r).map (fun node => node.record_value) =
        (s.lock_table r).map (fun node =>
          if TrxManager.needsRollback s l ∧ (s.locks l).record_id = r then
            node.record_value - (s.locks l).diff else node.record_value)) ∧
      ∀ x, (s'.locks x).state =
        (if x = l then lock_t.State.OBSOLETE else (s.locks x).state) := by
  unfold TrxManager.rollbackOne
  by_cases hnr : TrxManager.needsRollback s l
  · rw [if_pos hnr, if_pos (hneg hnr)]
    obtain ⟨node, hnode⟩ := Option.isSome_iff_exists.1 (hinv.records l hl)
    have hfit' : isInt64 (node.record_value + -(s.locks l).diff) := by
      have := hfit hnr node hnode
      rw [sub_eq_add_neg] at this
      exact this
    have hcr : LockManager.ChangeRecord s l (-(s.locks l).diff) =
        some (node.record_value + -(s.locks l).diff,
          s.setNode (s.locks l).record_id
            { node with record_value := node.record_value + -(s.locks l).diff }) := by
      have hnr' : (s.locks l).mode = lock_t.Mode.EXCLUSIVE ∧
          (s.locks l).state ≠ lock_t.State.OBSOLETE := hnr
      unfold LockManager.ChangeRecord
      rw [if_pos hnr', hnode]
      simp only [Option.some_bind]
      rw [if_pos hfit']
    rw [hcr]
    simp only [Option.map_some', Option.some_bind]
    have hinv1 := hinv.setValue (s.locks l).record_id node hnode
      (node.record_value + -(s.locks l).diff)
    obtain ⟨s', hs', hinv', hfr, hst⟩ := LockManager.ReleaseLock_inv _ hinv1 l hl hnw
    refine ⟨s', hs', hinv', ?_, ?_, hst⟩
    · have h0 : s.RollbackFrame (s.setNode (s.locks l).record_id
          { node with record_value := node.record_value + -(s.locks l).diff }) :=
        ⟨fun _ => rfl, fun _ => rfl, fun _ => rfl, fun _ => rfl, rfl, fun _ => rfl,
          fun _ => rfl, rfl, rfl, rfl⟩
      exact h0.comp hfr.rollback
    · intro r
      rw [hfr.record_value, Managers.setNode_lock_table]
      by_cases hr : r = (s.locks l).record_id
      · rw [hr, Function.update_same, hnode, Option.map_some', Option.map_some',
          if_pos ⟨hnr, rfl⟩, sub_eq_add_neg]
      · rw [Function.update_noteq hr]
        cases s.lock_table r with
        | none => rfl
        | some node' =>
          rw [Option.map_some', Option.map_some', if_neg (fun h => hr h.2.symm)]
  · rw [if_neg hnr]
    simp only [Option.some_bind]
    obtain ⟨s', hs', hinv', hfr, hst⟩ := LockManager.ReleaseLock_inv _ hinv l hl hnw
    refine ⟨s', hs', hinv', hfr.rollback, ?_, hst⟩
    intro r
    rw [hfr.record_value]
    cases s.lock_table r with
    | none => rfl
    | some node' =>
      rw [Option.map_some', Option.map_some', if_neg (fun h => hnr h.1)]

/-- Under the invariant two locks of a deque that `Abort` rolls back are on two records. -/
theorem Managers.Inv.rollback_exclusive {s : Managers} (hinv : s.Inv) {a b : Nat}
    (ha : a < s.lock_count) (hb : b < s.lock_count) (hab : a ≠ b)
    (hwa : (s.locks a).state ≠ lock_t.State.WAIT)
    (hwb : (s.locks b).state ≠ lock_t.State.WAIT)
    (hna : TrxManager.needsRollback s a) (hnb : TrxManager.needsRollback s b) :
    (s.locks b).record_id ≠ (s.locks a).record_id := by
  intro hrec
  have h := hinv.exclusive ha hb hab hrec.symm (lock_t.State.active_of_ne hna.2 hwa)
    (lock_t.State.active_of_ne hnb.2 hwb)
  rw [hna.1] at h
  cases h.1

set_option maxHeartbeats 800000 in
/-- The loop of `Abort` under the invariant, over distinct allocated locks for none of which
its thread sleeps: when every `diff` to undo can be negated and every record value less
what is to be undone fits `int64_t`, the loop returns and keeps the invariant; every lock
of the deque is OBSOLETE afterwards, the other locks keep their state, and every record
holds its value less what was to be undone. -/
theorem TrxManager.rollback_spec : ∀ (deque : List Nat) (s : Managers), s.Inv →
    deque.Nodup →
    (∀ l ∈ deque, l < s.lock_count ∧ (s.locks l).state ≠ lock_t.State.WAIT) →
    (∀ l ∈ deque, TrxManager.needsRollback s l → isInt64 (-(s.locks l).diff)) →
    (∀ r node, s.lock_table r = some node → isInt64 (node.record_value - s.undo r deque)) →
    ∃ s', TrxManager.rollback deque s = some s' ∧ s'.Inv ∧ s.RollbackFrame s' ∧
      (∀ r, (s'.lock_table r).map (fun node => node.record_value) =
        (s.lock_table r).map (fun node => node.record_value - s.undo r deque)) ∧
      ∀ x, (s'.locks x).state =
        (if x ∈ deque then lock_t.State.OBSOLETE else (s.locks x).state) := by
  intro deque
  induction deque with
  | nil =>
    intro s hinv _ _ _ _
    refine ⟨s, rfl, hinv, Managers.RollbackFrame.same s, ?_, fun x => by simp⟩
    intro r
    cases s.lock_table r with
    | none => rfl
    | some node => simp [Managers.undo]
  | cons l rest ih =>
    intro s hinv hnd hmem hneg hfit
    have hlr : l ∉ rest := (List.nodup_cons.1 hnd).1
    have hndr : rest.Nodup := (List.nodup_cons.1 hnd).2
    obtain ⟨hl, hnw⟩ := hmem l (List.mem_cons_self _ _)
    have hzero : TrxManager.needsRollback s l →
        s.undo (s.locks l).record_id rest = 0 := by
      intro hnr
      apply Managers.undo_zero
      rintro x hx ⟨hnx, hrx⟩
      obtain ⟨hxl, hxw⟩ := hmem x (List.mem_cons_of_mem _ hx)
      have hne : l ≠ x := fun e => hlr (e ▸ hx)
      exact hinv.rollback_exclusive hl hxl hne hnw hxw hnr hnx hrx
    obtain ⟨s1, hs1, hinv1, hfr1, hval1, hst1⟩ := TrxManager.rollbackOne_spec s hinv l hl hnw
      (hneg l (List.mem_cons_self _ _))
      (by
        intro hnr node hnode
        have := hfit _ node hnode
        rw [Managers.undo_cons, if_pos ⟨hnr, rfl⟩, hzero hnr, add_zero] at this
        exact this)
    have hsame : ∀ x ∈ rest, (s1.locks x).state = (s.locks x).state ∧
        (s1.locks x).mode = (s.locks x).mode ∧
        (s1.locks x).record_id = (s.locks x).record_id ∧
        (s1.locks x).diff = (s.locks x).diff := by
      intro x hx
      refine ⟨?_, hfr1.mode x, hfr1.record_id x, hfr1.diff x⟩
      rw [hst1 x, if_neg (fun e : x = l => hlr (e ▸ hx))]
    have hundo : ∀ r, s1.undo r rest = s.undo r rest :=
      fun r => Managers.undo_congr r rest hsame
    have hnr1 : ∀ x ∈ rest, TrxManager.needsRollback s1 x → TrxManager.needsRollback s x := by
      intro x hx h
      unfold TrxManager.needsRollback at h ⊢
      rw [(hsame x hx).1, (hsame x hx).2.1] at h
      exact h
    have hnewval : ∀ r node1, s1.lock_table r = some node1 →
        ∃ node, s.lock_table r = some node ∧
          node1.record_value - s1.undo r rest = node.record_value - s.undo r (l :: rest) := by
      intro r node1 hnode1
      have h := hval1 r
      rw [hnode1] at h
      cases hn : s.lock_table r with
      | none => rw [hn] at h; cases h
      | some node =>
        rw [hn] at h
        simp only [Option.map_some', Option.some.injEq] at h
        refine ⟨node, rfl, ?_⟩
        rw [h, hundo, Managers.undo_cons]
        by_cases hc : TrxManager.needsRollback s l ∧ (s.locks l).record_id = r
        · have hz : s.undo r rest = 0 := hc.2 ▸ hzero hc.1
          rw [if_pos hc, if_pos hc, hz]
          ring
        · rw [if_neg hc, if_neg hc]
          ring
    obtain ⟨s', hs', hinv', hfr', hval', hst'⟩ := ih s1 hinv1 hndr
      (by
        intro x hx
        obtain ⟨hxl, hxw⟩ := hmem x (List.mem_cons_of_mem _ hx)
        refine ⟨by rw [hfr1.lock_count]; exact hxl, ?_⟩
        rw [(hsame x hx).1]
        exact hxw)
      (by
        intro x hx hnx
        rw [(hsame x hx).2.2.2]
        exact hneg x (List.mem_cons_of_mem _ hx) (hnr1 x hx hnx))
      (by
        intro r node1 hnode1
        obtain ⟨node, hnode, heq⟩ := hnewval r node1 hnode1
        rw [heq]
        exact hfit r node hnode)
    refine ⟨s', ?_, hinv', hfr1.comp hfr', ?_, ?_⟩
    · unfold TrxManager.rollback
      rw [hs1]
      exact hs'
    · intro r
      rw [hval' r]
      cases hn1 : s1.lock_table r with
      | none =>
        have h := hval1 r
        rw [hn1] at h
        cases hn : s.lock_table r with
        | none => rfl
        | some node => rw [hn] at h; cases h
      | some node1 =>
        obtain ⟨node, hnode, heq⟩ := hnewval r node1 hn1
        rw [hnode]
        simp only [Option.map_some', Option.some.injEq]
        exact heq
    · intro x
      rw [hst' x, hst1 x]
      by_cases hxl : x = l
      · subst hxl
        simp
      · simp [hxl]

/-! ### The calls of a transaction -/

/-- An acquisition between two calls of a transaction that does not end asleep: the new
lock joins the deque of the thread, ACTIVE when it is returned and OBSOLETE on `nullptr`;
the other locks of the deque and the values of the records are as before. -/
theorem LockManager.AcquireLock_run {begin_value : Nat → Option Int} {t : Nat} {s : Managers}
    (hrun : TrxManager.RunInv begin_value t s) (mode : lock_t.Mode) (r : Nat)
    (a : AcquireOutcome × Managers) (h : LockManager.AcquireLock s mode r t = some a)
    (hnw : ∀ n, a.1 ≠ AcquireOutcome.waiting n) :
    ∃ n st, ((a.1 = AcquireOutcome.lock n ∧ st = lock_t.State.ACTIVE) ∨
        (a.1 = AcquireOutcome.null ∧ st = lock_t.State.OBSOLETE)) ∧
      a.2.Inv ∧ a.2.conflict_lock t = none ∧ (a.2.trx_node_table t).isSome = true ∧
      a.2.trx_lock_deque t = s.trx_lock_deque t ++ [n] ∧ n ∉ s.trx_lock_deque t ∧
      (a.2.locks n).state = st ∧ (a.2.locks n).mode = mode ∧
      (a.2.locks n).record_id = r ∧ (a.2.locks n).diff = 0 ∧
      (∀ x ∈ s.trx_lock_deque t, (a.2.locks x).state = (s.locks x).state ∧
        (a.2.locks x).mode = (s.locks x).mode ∧
        (a.2.locks x).record_id = (s.locks x).record_id ∧
        (a.2.locks x).diff = (s.locks x).diff) ∧
      (∀ rec, (a.2.lock_table rec).map (fun node => node.record_value) =
        (s.lock_table rec).map (fun node => node.record_value)) ∧
      (a.2.lock_table r).isSome = true := by
  have hinv := hrun.inv
  have hinv2 := LockManager.AcquireLock_inv s hinv mode r t a h
  obtain ⟨chain, tn, hq, hg, htrx, hconf, hid⟩ := LockManager.AcquireLock_pre s hinv mode r t a h
  obtain ⟨s1, id, -, hins, hres⟩ := LockManager.AcquireLock_spec s hinv mode r t chain tn hq hg
    htrx hconf hid
  generalize (LockManager.takeLock s mode r t).1 = n at hins hres
  have hnot : n ∉ s.trx_lock_deque t := by
    intro hn
    have hact := hrun.active n hn
    have hlt := (hinv.deques t n hn).1
    rcases hins.fresh with hf | hf
    · omega
    · rw [hf.1] at hact
      cases hact
  have hcommon : ∀ st c, (s1.decided t n st c).trx_lock_deque t = s.trx_lock_deque t ++ [n] ∧
      ((s1.decided t n st c).locks n).state = st ∧
      ((s1.decided t n st c).locks n).mode = mode ∧
      ((s1.decided t n st c).locks n).record_id = r ∧
      ((s1.decided t n st c).locks n).diff = 0 ∧
      (∀ x ∈ s.trx_lock_deque t, ((s1.decided t n st c).locks x).state = (s.locks x).state ∧
        ((s1.decided t n st c).locks x).mode = (s.locks x).mode ∧
        ((s1.decided t n st c).locks x).record_id = (s.locks x).record_id ∧
        ((s1.decided t n st c).locks x).diff = (s.locks x).diff) ∧
      (∀ rec, ((s1.decided t n st c).lock_table rec).map (fun node => node.record_value) =
        (s.lock_table rec).map (fun node => node.record_value)) ∧
      ((s1.decided t n st c).lock_table r).isSome = true ∧
      ((s1.decided t n st c).trx_node_table t).isSome = true ∧
      (s1.decided t n st c).conflict_lock t = c := by
    intro st c
    have hf := Managers.decided_fields s1 t n st c n
    refine ⟨?_, (hins.decided_new st c).1, (hins.decided_new st c).2.1, ?_, ?_, ?_,
      hins.record_value st c, ?_, ?_, ?_⟩
    · rw [Managers.decided_trx_lock_deque, hins.deque, if_pos rfl]
    · exact hf.2.2.2.2.1.trans hins.new.2.2.2.2.1
    · exact hf.2.2.2.2.2.2.2.2.trans hins.new.2.2.2.2.2.2.2.2.2
    · intro x hx
      have hxn : x ≠ n := fun e => hnot (e ▸ hx)
      rw [Managers.decided_locks_ne _ _ _ _ _ _ hxn]
      have ho := hins.old x hxn
      exact ⟨ho.1, ho.2.1, ho.2.2.2.2.1, ho.2.2.2.2.2.2.2⟩
    · rw [Managers.decided_lock_table, hins.table_isSome]
      obtain ⟨node, hnode, -⟩ := hq.ends
      rw [hnode]; rfl
    · rw [Managers.decided_isSome]; exact hins.isSome_self
    · rw [Managers.decided_conflict_lock _ _ _ _ _ _ hins.isSome_self, if_pos rfl]
  rcases hres with ⟨-, hacq⟩ | ⟨-, b, -, hacq⟩
  · rw [h] at hacq
    simp only [Option.some.injEq] at hacq
    subst hacq
    obtain ⟨h1, h2, h3, h4, h5, h6, h7, h8, h9, h10⟩ := hcommon lock_t.State.ACTIVE none
    exact ⟨n, lock_t.State.ACTIVE, Or.inl ⟨rfl, rfl⟩, hinv2, h10, h9, h1, hnot, h2, h3, h4,
      h5, h6, h7, h8⟩
  · cases b with
    | true =>
      rw [h] at hacq
      simp only [if_true, Option.some.injEq] at hacq
      subst hacq
      obtain ⟨h1, h2, h3, h4, h5, h6, h7, h8, h9, h10⟩ := hcommon lock_t.State.OBSOLETE none
      exact ⟨n, lock_t.State.OBSOLETE, Or.inr ⟨rfl, rfl⟩, hinv2, h10, h9, h1, hnot, h2, h3,
        h4, h5, h6, h7, h8⟩
    | false =>
      rw [h] at hacq
      simp only [Bool.false_eq_true, if_false, Option.some.injEq] at hacq
      subst hacq
      exact absurd rfl (hnw n)

/-- A `Find` that returns SUCCESS keeps the state of the transaction in order. -/
theorem TrxManager.RunInv.find {begin_value : Nat → Option Int} {t : Nat} {s : Managers}
    (hrun : TrxManager.RunInv begin_value t s) (r : Nat) (v : Int) (s1 : Managers)
    (h : TrxManager.Find s t r = some (Response.SUCCESS v, s1)) :
    TrxManager.RunInv begin_value t s1 := by
  obtain ⟨tn, htn⟩ := Option.isSome_iff_exists.1 hrun.node
  unfold TrxManager.Find at h
  rw [TrxManager.GetTrxNode_of_some s t tn htn] at h
  obtain ⟨a, ha, h⟩ := Option.bind_eq_some.1 h
  cases ha1 : a.1 with
  | null => rw [ha1] at h; cases h
  | waiting m => rw [ha1] at h; cases h
  | lock m =>
    rw [ha1] at h
    simp only at h
    unfold TrxManager.FindWith at h
    obtain ⟨v', -, h⟩ := Option.map_eq_some'.1 h
    simp only [Prod.mk.injEq] at h
    obtain ⟨-, hs1⟩ := h
    subst hs1
    obtain ⟨n, st, hcase, hinv2, hc, hnode, hdq, hnot, hst, hmode, hrec, hdiff, hold, hval, -⟩ :=
      LockManager.AcquireLock_run hrun lock_t.Mode.SHARED r a ha
        (fun n e => by rw [ha1] at e; cases e)
    rcases hcase with ⟨he, hs⟩ | ⟨he, -⟩
    swap
    · rw [ha1] at he; cases he
    subst hs
    have hundo : ∀ rec, a.2.undo rec (s.trx_lock_deque t ++ [n]) =
        s.undo rec (s.trx_lock_deque t) := by
      intro rec
      rw [Managers.undo_append, Managers.undo_congr rec _ hold,
        if_neg (fun hx => by
          have := hx.1.1
          rw [hmode] at this
          cases this), add_zero]
    refine ⟨hinv2, hc, hnode, ?_, ?_, ?_, ?_⟩
    · rw [hdq]
      exact List.nodup_append.2 ⟨hrun.nodup, List.nodup_singleton n, by
        intro x hx hx'
        rw [List.mem_singleton] at hx'
        exact hnot (hx' ▸ hx)⟩
    · intro l hl
      rw [hdq, List.mem_append, List.mem_singleton] at hl
      rcases hl with hl | hl
      · rw [(hold l hl).1]; exact hrun.active l hl
      · rw [hl]; exact hst
    · intro rec
      rw [hval, hdq, hundo, hrun.values]
    · intro l hl hnr
      rw [hdq, List.mem_append, List.mem_singleton] at hl
      rcases hl with hl | hl
      · rw [(hold l hl).2.2.2]
        apply hrun.negs l hl
        unfold TrxManager.needsRollback at hnr ⊢
        rw [(hold l hl).1, (hold l hl).2.1] at hnr
        exact hnr
      · rw [hl] at hnr
        have := hnr.1
        rw [hmode] at this
        cases this

set_option maxHeartbeats 800000 in
/-- An `Update` that returns SUCCESS, with a `diff` that can be negated, keeps the state of
the transaction in order. -/
theorem TrxManager.RunInv.update {begin_value : Nat → Option Int} {t : Nat} {s : Managers}
    (hrun : TrxManager.RunInv begin_value t s) (r : Nat) (d v : Int) (s1 : Managers)
    (hd : isInt64 (-d))
    (h : TrxManager.Update s t r d = some (Response.SUCCESS v, s1)) :
    TrxManager.RunInv begin_value t s1 := by
  obtain ⟨tn, htn⟩ := Option.isSome_iff_exists.1 hrun.node
  unfold TrxManager.Update at h
  rw [TrxManager.GetTrxNode_of_some s t tn htn] at h
  obtain ⟨a, ha, h⟩ := Option.bind_eq_some.1 h
  cases ha1 : a.1 with
  | null => rw [ha1] at h; cases h
  | waiting m => rw [ha1] at h; cases h
  | lock m =>
    rw [ha1] at h
    simp only at h
    obtain ⟨n, st, hcase, hinv2, hc, hnode, hdq, hnot, hst, hmode, hrec, hdiff, hold, hval,
      htab⟩ := LockManager.AcquireLock_run hrun lock_t.Mode.EXCLUSIVE r a ha
        (fun n e => by rw [ha1] at e; cases e)
    rcases hcase with ⟨he, hs⟩ | ⟨he, -⟩
    swap
    · rw [ha1] at he; cases he
    subst hs
    rw [ha1] at he
    cases he
    obtain ⟨node, hnd⟩ := Option.isSome_iff_exists.1 htab
    unfold TrxManager.UpdateWith LockManager.ChangeRecord at h
    rw [if_pos ⟨hmode, by rw [hst]; exact fun e => by cases e⟩, hrec, hnd] at h
    simp only [Option.some_bind] at h
    split at h
    swap
    · cases h
    simp only [Option.map_some', Option.some.injEq, Prod.mk.injEq] at h
    obtain ⟨-, hs1⟩ := h
    subst hs1
    have hlocks : ∀ x, x ≠ m →
        (((a.2.setNode r { node with record_value := node.record_value + d }).setLock m
          (lock_t.withDiff d)).locks x) = a.2.locks x := by
      intro x hx
      rw [Managers.setLock_locks, Function.update_noteq hx]
      rfl
    have hlockm : (((a.2.setNode r { node with record_value := node.record_value + d }).setLock
        m (lock_t.withDiff d)).locks m) = lock_t.withDiff d (a.2.locks m) := by
      rw [Managers.setLock_locks, Function.update_same]
      rfl
    have hdq' : ((a.2.setNode r { node with record_value := node.record_value + d }).setLock m
        (lock_t.withDiff d)).trx_lock_deque t = s.trx_lock_deque t ++ [m] := by
      rw [← hdq]; rfl
    have hold' : ∀ x ∈ s.trx_lock_deque t,
        (((a.2.setNode r { node with record_value := node.record_value + d }).setLock m
          (lock_t.withDiff d)).locks x).state = (s.locks x).state ∧
        (((a.2.setNode r { node with record_value := node.record_value + d }).setLock m
          (lock_t.withDiff d)).locks x).mode = (s.locks x).mode ∧
        (((a.2.setNode r { node with record_value := node.record_value + d }).setLock m
          (lock_t.withDiff d)).locks x).record_id = (s.locks x).record_id ∧
        (((a.2.setNode r { node with record_value := node.record_value + d }).setLock m
          (lock_t.withDiff d)).locks x).diff = (s.locks x).diff := by
      intro x hx
      rw [hlocks x (fun e => hnot (e ▸ hx))]
      exact hold x hx
    have hneeds : TrxManager.needsRollback
        ((a.2.setNode r { node with record_value := node.record_value + d }).setLock m
          (lock_t.withDiff d)) m := by
      unfold TrxManager.needsRollback
      rw [hlockm]
      refine ⟨hmode, ?_⟩
      show (a.2.locks m).state ≠ lock_t.State.OBSOLETE
      rw [hst]
      exact fun e => by cases e
    have hundo : ∀ rec,
        ((a.2.setNode r { node with record_value := node.record_value + d }).setLock m
          (lock_t.withDiff d)).undo rec (s.trx_lock_deque t ++ [m]) =
        s.undo rec (s.trx_lock_deque t) + (if rec = r then d else 0) := by
      intro rec
      rw [Managers.undo_append, Managers.undo_congr rec _ hold']
      congr 1
      by_cases hr : rec = r
      · rw [if_pos hr, if_pos ⟨hneeds, by rw [hlockm, hr]; exact hrec⟩, hlockm]
        rfl
      · rw [if_neg hr, if_neg (fun hx => hr (by
          have := hx.2
          rw [hlockm] at this
          exact this.symm.trans hrec))]
    refine ⟨(hinv2.setValue r node hnd _).setDiff m d, hc, hnode, ?_, ?_, ?_, ?_⟩
    · rw [hdq']
      exact List.nodup_append.2 ⟨hrun.nodup, List.nodup_singleton m, by
        intro x hx hx'
        rw [List.mem_singleton] at hx'
        exact hnot (hx' ▸ hx)⟩
    · intro l hl
      rw [hdq', List.mem_append, List.mem_singleton] at hl
      rcases hl with hl | hl
      · rw [(hold' l hl).1]; exact hrun.active l hl
      · rw [hl, hlockm]; exact hst
    · intro rec
      rw [hdq', hundo, Managers.record_value_update _ _ _ _ _ _ hnd]
      by_cases hr : rec = r
      · rw [if_pos hr, if_pos hr]
        have h1 := hval r
        rw [hnd, hrun.values r] at h1
        rw [hr]
        cases hb : begin_value r with
        | none => rw [hb] at h1; cases h1
        | some b =>
          rw [hb] at h1
          simp only [Option.map_some', Option.some.injEq] at h1 ⊢
          rw [h1]
          ring
      · rw [if_neg hr, if_neg hr, hval, hrun.values, add_zero]
    · intro l hl hnr
      rw [hdq', List.mem_append, List.mem_singleton] at hl
      rcases hl with hl | hl
      · rw [(hold' l hl).2.2.2]
        apply hrun.negs l hl
        unfold TrxManager.needsRollback at hnr ⊢
        rw [(hold' l hl).1, (hold' l hl).2.1] at hnr
        exact hnr
      · rw [hl, hlockm]
        exact hd

/-- A call that returns MUST_ABORTED leaves the state of the transaction ready for `Abort`:
the new lock is in the deque, OBSOLETE, and no value has changed. -/
theorem TrxManager.RunInv.must_abort {begin_value : Nat → Option Int} {t : Nat}
    {s : Managers} (hrun : TrxManager.RunInv begin_value t s)
    (hfits : ∀ r v, begin_value r = some v → isInt64 v) (op : TrxOp) (s1 : Managers)
    (h : TrxManager.call s t op = some (Response.MUST_ABORTED, s1)) :
    TrxManager.AbortPre begin_value t s1 := by
  obtain ⟨tn, htn⟩ := Option.isSome_iff_exists.1 hrun.node
  have hacq : ∃ mode r a, LockManager.AcquireLock s mode r t = some a ∧
      a.1 = AcquireOutcome.null ∧ a.2 = s1 := by
    cases op with
    | find r =>
      unfold TrxManager.call TrxManager.Find at h
      rw [TrxManager.GetTrxNode_of_some s t tn htn] at h
      obtain ⟨a, ha, h⟩ := Option.bind_eq_some.1 h
      refine ⟨lock_t.Mode.SHARED, r, a, ha, ?_⟩
      cases ha1 : a.1 with
      | null =>
        rw [ha1] at h
        simp only [Option.some.injEq, Prod.mk.injEq, true_and] at h
        exact ⟨rfl, h⟩
      | waiting m => rw [ha1] at h; cases h
      | lock m =>
        rw [ha1] at h
        simp only at h
        unfold TrxManager.FindWith at h
        obtain ⟨v', -, h⟩ := Option.map_eq_some'.1 h
        cases h
    | update r d =>
      unfold TrxManager.call TrxManager.Update at h
      rw [TrxManager.GetTrxNode_of_some s t tn htn] at h
      obtain ⟨a, ha, h⟩ := Option.bind_eq_some.1 h
      refine ⟨lock_t.Mode.EXCLUSIVE, r, a, ha, ?_⟩
      cases ha1 : a.1 with
      | null =>
        rw [ha1] at h
        simp only [Option.some.injEq, Prod.mk.injEq, true_and] at h
        exact ⟨rfl, h⟩
      | waiting m => rw [ha1] at h; cases h
      | lock m =>
        rw [ha1] at h
        simp only at h
        unfold TrxManager.UpdateWith at h
        obtain ⟨v', -, h⟩ := Option.map_eq_some'.1 h
        cases h
  obtain ⟨mode, r, a, ha, ha1, hs1⟩ := hacq
  subst hs1
  obtain ⟨n, st, hcase, hinv2, hc, hnode, hdq, hnot, hst, hmode, hrec, hdiff, hold, hval, -⟩ :=
    LockManager.AcquireLock_run hrun mode r a ha (fun n e => by rw [ha1] at e; cases e)
  rcases hcase with ⟨he, -⟩ | ⟨-, hs⟩
  · rw [ha1] at he; cases he
  subst hs
  have hnotneeds : ¬ TrxManager.needsRollback a.2 n := fun hx => hx.2 hst
  have hundo : ∀ rec, a.2.undo rec (s.trx_lock_deque t ++ [n]) =
      s.undo rec (s.trx_lock_deque t) := by
    intro rec
    rw [Managers.undo_append, Managers.undo_congr rec _ hold,
      if_neg (fun hx => hnotneeds hx.1), add_zero]
  refine ⟨hinv2, hnode, ?_, ?_, ?_, ?_, hfits⟩
  · rw [hdq]
    exact List.nodup_append.2 ⟨hrun.nodup, List.nodup_singleton n, by
      intro x hx hx'
      rw [List.mem_singleton] at hx'
      exact hnot (hx' ▸ hx)⟩
  · intro l hl
    rw [hdq, List.mem_append, List.mem_singleton] at hl
    rcases hl with hl | hl
    · rw [(hold l hl).1, hrun.active l hl]; exact fun e => by cases e
    · rw [hl, hst]; exact fun e => by cases e
  · intro rec
    rw [hval, hdq, hundo, hrun.values]
  · intro l hl hnr
    rw [hdq, List.mem_append, List.mem_singleton] at hl
    rcases hl with hl | hl
    · rw [(hold l hl).2.2.2]
      apply hrun.negs l hl
      unfold TrxManager.needsRollback at hnr ⊢
      rw [(hold l hl).1, (hold l hl).2.1] at hnr
      exact hnr
    · rw [hl] at hnr
      exact absurd hnr hnotneeds

/-- A transaction between two calls is ready for `Abort`. -/
theorem TrxManager.RunInv.abortPre {begin_value : Nat → Option Int} {t : Nat} {s : Managers}
    (hrun : TrxManager.RunInv begin_value t s)
    (hfits : ∀ r v, begin_value r = some v → isInt64 v) :
    TrxManager.AbortPre begin_value t s :=
  ⟨hrun.inv, hrun.node, hrun.nodup,
    fun l hl => (by rw [hrun.active l hl]; exact fun e => (by cases e)),
    hrun.values, hrun.negs, hfits⟩

/-- The state after `Begin`, for a thread that is not asleep. -/
theorem TrxManager.Begin_spec (s : Managers) (t : Nat) (hc : s.conflict_lock t = none) :
    (TrxManager.Begin s t).locks = s.locks ∧
    (TrxManager.Begin s t).lock_count = s.lock_count ∧
    (TrxManager.Begin s t).lock_table = s.lock_table ∧
    (TrxManager.Begin s t).pools = s.pools ∧
    (TrxManager.Begin s t).files = s.files ∧
    (TrxManager.Begin s t).global_execution_count = s.global_execution_count ∧
    (TrxManager.Begin s t).last_global_execution_order = s.last_global_execution_order ∧
    (∀ u, ((TrxManager.Begin s t).trx_node_table u).isSome =
      ((TrxManager.GetTrxNode s t).trx_node_table u).isSome) ∧
    ((TrxManager.Begin s t).trx_node_table t).isSome = true ∧
    (∀ u, (TrxManager.Begin s t).conflict_lock u = s.conflict_lock u) ∧
    (∀ u, (TrxManager.Begin s t).trx_lock_deque u =
      if u = t then [] else s.trx_lock_deque u) := by
  obtain ⟨node, hnode⟩ := Option.isSome_iff_exists.1 (TrxManager.GetTrxNode_isSome s t)
  have hb : TrxManager.Begin s t = (TrxManager.GetTrxNode s t).setTrx t
      { node with conflict_lock := none, trx_lock_deque := [] } := by
    unfold TrxManager.Begin
    rw [hnode]
  rw [hb]
  refine ⟨by simp, by simp, by simp, by simp, by simp, by simp, by simp, ?_, ?_, ?_, ?_⟩
  · intro u
    rw [Managers.setTrx_trx_node_table]
    by_cases hu : u = t
    · subst hu; rw [Function.update_same, hnode]; rfl
    · rw [Function.update_noteq hu]
  · rw [Managers.setTrx_trx_node_table, Function.update_same]; rfl
  · intro u
    unfold Managers.conflict_lock
    rw [Managers.setTrx_trx_node_table]
    by_cases hu : u = t
    · subst hu
      rw [Function.update_same]
      exact hc.symm
    · rw [Function.update_noteq hu]
      exact TrxManager.GetTrxNode_conflict_lock s t u
  · intro u
    unfold Managers.trx_lock_deque
    rw [Managers.setTrx_trx_node_table]
    by_cases hu : u = t
    · subst hu
      rw [Function.update_same, if_pos rfl]
    · rw [Function.update_noteq hu, if_neg hu]
      exact TrxManager.GetTrxNode_trx_lock_deque s t u

/-- `Begin` of a thread that is not asleep keeps the invariant. -/
theorem Managers.Inv.begin {s : Managers} (hinv : s.Inv) (t : Nat)
    (hc : s.conflict_lock t = none) : (TrxManager.Begin s t).Inv := by
  obtain ⟨hlocks, hcount, htable, hpools, -, -, -, hsome, -, hconf, hdeq⟩ :=
    TrxManager.Begin_spec s t hc
  have hinv1 := hinv.getTrxNode_inv t
  refine ⟨?_, ?_, ?_, ?_, ?_, ?_, ?_⟩
  · intro r hr
    rw [htable] at hr
    obtain ⟨chain, hq, hg⟩ := hinv.queues r hr
    exact ⟨chain, hq.of_eq hlocks htable hcount,
      Managers.Granting.congr (fun l _ => by rw [hlocks]; exact ⟨rfl, rfl, rfl⟩) hg⟩
  · intro l hl
    rw [hcount] at hl
    rw [hlocks, htable]
    exact hinv.records l hl
  · intro l hl
    rw [hcount] at hl
    rw [hlocks, hsome]
    have := hinv1.owners l (by rw [TrxManager.GetTrxNode_lock_count]; exact hl)
    rw [TrxManager.GetTrxNode_locks] at this
    exact this
  · intro u r p hp
    rw [hpools] at hp
    rw [hcount, hlocks]
    exact hinv.pools u r p hp
  · intro u l hl
    rw [hdeq] at hl
    by_cases hu : u = t
    · rw [if_pos hu] at hl; cases hl
    · rw [if_neg hu] at hl
      rw [hcount, hlocks]
      exact hinv.deques u l hl
  · intro l hl hst
    rw [hcount] at hl
    rw [hlocks] at hst ⊢
    rw [hconf]
    exact hinv.waiting l hl hst
  · intro u c hu
    rw [hconf] at hu
    rw [hcount, hlocks]
    exact hinv.conflicts u c hu

/-- After `Begin` the transaction of a thread that is not asleep is in order, with respect
to the values the records have then. -/
theorem TrxManager.RunInv.of_begin {s : Managers} (hinv : s.Inv) (t : Nat)
    (hc : s.conflict_lock t = none) :
    TrxManager.RunInv (fun r => (s.lock_table r).map (fun node => node.record_value)) t
      (TrxManager.Begin s t) := by
  obtain ⟨-, -, htable, -, -, -, -, -, hnode, hconf, hdeq⟩ := TrxManager.Begin_spec s t hc
  have hd : (TrxManager.Begin s t).trx_lock_deque t = [] := by rw [hdeq, if_pos rfl]
  refine ⟨hinv.begin t hc, by rw [hconf]; exact hc, hnode, by rw [hd]; exact List.nodup_nil,
    ?_, ?_, ?_⟩
  · intro l hl; rw [hd] at hl; cases hl
  · intro r
    rw [hd, htable]
    cases s.lock_table r with
    | none => rfl
    | some node => simp [Managers.undo]
  · intro l hl; rw [hd] at hl; cases hl

/-- `Abort` of a transaction that is ready for it returns, keeps the invariant, gives every
record its value at `Begin` and leaves every lock of the deque OBSOLETE. -/
theorem TrxManager.Abort_spec {begin_value : Nat → Option Int} {t : Nat} {s : Managers}
    (hpre : TrxManager.AbortPre begin_value t s) :
    ∃ s', TrxManager.Abort s t = some s' ∧ s'.Inv ∧ s.RollbackFrame s' ∧
      (∀ r, (s'.lock_table r).map (fun node => node.record_value) = begin_value r) ∧
      ∀ x, (s'.locks x).state =
        (if x ∈ s.trx_lock_deque t then lock_t.State.OBSOLETE else (s.locks x).state) := by
  obtain ⟨tn, htn⟩ := Option.isSome_iff_exists.1 hpre.node
  have hdom : ∀ r, (begin_value r).isSome = (s.lock_table r).isSome := by
    intro r
    have := congrArg Option.isSome (hpre.values r)
    simpa using this.symm
  have hval : ∀ r node, s.lock_table r = some node →
      begin_value r = some (node.record_value - s.undo r (s.trx_lock_deque t)) := by
    intro r node hnode
    have h := hpre.values r
    rw [hnode] at h
    cases hb : begin_value r with
    | none => rw [hb] at h; cases h
    | some b =>
      rw [hb] at h
      simp only [Option.map_some', Option.some.injEq] at h
      rw [h]
      congr 1
      ring
  obtain ⟨s', hs', hinv', hfr, hvals, hst⟩ := TrxManager.rollback_spec (s.trx_lock_deque t) s
    hpre.inv hpre.nodup
    (fun l hl => ⟨(hpre.inv.deques t l hl).1, hpre.awake l hl⟩) hpre.negs
    (fun r node hnode => hpre.fits r _ (hval r node hnode))
  refine ⟨s', ?_, hinv', hfr, ?_, hst⟩
  · unfold TrxManager.Abort
    rw [TrxManager.GetTrxNode_of_some s t tn htn]
    exact hs'
  · intro r
    rw [hvals r]
    cases hn : s.lock_table r with
    | none =>
      have := hdom r
      rw [hn] at this
      cases hb : begin_value r with
      | none => rfl
      | some b => rw [hb] at this; cases this
    | some node =>
      rw [hval r node hn]
      rfl

/-- The values of the records after `InitManagers` fit `int64_t`. -/
theorem Managers.init_fits (record_count : Nat) (last_commit_id : Int) (r : Nat)
    (node : LockTableNode)
    (h : (Managers.init record_count last_commit_id).lock_table r = some node) :
    isInt64 node.record_value := by
  simp only [Managers.init] at h
  split at h
  · simp only [Option.some.injEq] at h
    subst h
    exact (by decide : isInt64 100)
  · cases h

/-- The transaction of `Managers.mustAbort`, evaluated: before `Abort` record 1 holds 105
and the deque holds the locks 0, 1, 2, the last one OBSOLETE; after `Abort` both records
hold 100 and the three locks are OBSOLETE. -/
theorem TrxManager.Abort_example :
    ((Managers.mustAbort.lock_table 1).map (fun node => node.record_value) = some 105 ∧
      Managers.mustAbort.trx_lock_deque 1 = [0, 1, 2] ∧
      (Managers.mustAbort.locks 2).state = lock_t.State.OBSOLETE) ∧
    (TrxManager.Abort Managers.mustAbort 1).map (fun s2 =>
        ((s2.lock_table 1).map (fun node => node.record_value),
          (s2.lock_table 2).map (fun node => node.record_value))) =
      some (some 100, some 100) ∧
    (TrxManager.Abort Managers.mustAbort 1).map (fun s2 =>
        ((s2.locks 0).state, (s2.locks 1).state, (s2.locks 2).state)) =
      some (lock_t.State.OBSOLETE, lock_t.State.OBSOLETE, lock_t.State.OBSOLETE) := by
  decide

/-! ## The count of the commits -/

@[simp] theorem Managers.setLock_log (s : Managers) (l : Nat) (f : lock_t → lock_t) :
    (s.setLock l f).log = s.log := rfl

@[simp] theorem Managers.setNode_log (s : Managers) (r : Nat) (n : LockTableNode) :
    (s.setNode r n).log = s.log := rfl

@[simp] theorem Managers.setTrx_log (s : Managers) (t : Nat) (n : TrxNode) :
    (s.setTrx t n).log = s.log := rfl

@[simp] theorem Managers.setConflict_log (s : Managers) (t : Nat) (c : Option Nat) :
    (s.setConflict t c).log = s.log := by
  unfold Managers.setConflict; split <;> rfl

@[simp] theorem TrxManager.GetTrxNode_log (s : Managers) (t : Nat) :
    (TrxManager.GetTrxNode s t).log = s.log := by
  unfold TrxManager.GetTrxNode; split <;> rfl

@[simp] theorem TrxManager.Begin_log (s : Managers) (t : Nat) :
    (TrxManager.Begin s t).log = s.log := by
  unfold TrxManager.Begin; split <;> simp

theorem Managers.ReleaseFrame.log {s s' : Managers} (h : s.ReleaseFrame s') :
    s'.log = s.log := by
  unfold Managers.log
  rw [h.files, h.count, h.last, h.created]

@[simp] theorem LockManager.takeLock_log (s : Managers) (mode : lock_t.Mode) (r t : Nat) :
    (LockManager.takeLock s mode r t).2.log = s.log := by
  unfold LockManager.takeLock; split <;> rfl

theorem LockManager.linkLock_log (s s' : Managers) (r t n : Nat)
    (h : LockManager.linkLock s r t n = some s') : s'.log = s.log := by
  unfold LockManager.linkLock at h
  obtain ⟨node, -, h⟩ := Option.bind_eq_some.1 h
  obtain ⟨tn, -, h⟩ := Option.bind_eq_some.1 h
  obtain ⟨s4, h4, h⟩ := Option.bind_eq_some.1 h
  split at h
  swap
  · cases h
  simp only [Option.some.injEq] at h
  subst h
  rw [Managers.setConflict_log]
  split at h4
  · simp only at h4
    split at h4
    · cases h4
    · split at h4
      · cases h4
      · simp only [Option.some.injEq] at h4
        subst h4
        simp
  · simp only [Option.some.injEq] at h4
    subst h4
    simp

theorem LockManager.deadlockVisit_log (s : Managers) (this_thread target : Nat)
    (queue pass : List Nat) (r : Option (List Nat × List Nat) × Managers)
    (h : LockManager.deadlockVisit s this_thread target queue pass = some r) :
    r.2.log = s.log := by
  unfold LockManager.deadlockVisit at h
  split at h
  · simp only [Option.some.injEq] at h
    subst h
    simp
  · obtain ⟨head, -, h⟩ := Option.bind_eq_some.1 h
    obtain ⟨w, -, h⟩ := Option.map_eq_some'.1 h
    subst h
    cases w <;> simp

theorem LockManager.deadlockSearch_log (this_thread : Nat) :
    ∀ (fuel : Nat) (queue pass : List Nat) (s : Managers) (r : Bool × Managers),
      LockManager.deadlockSearch this_thread fuel queue pass s = some r → r.2.log = s.log := by
  intro fuel
  induction fuel with
  | zero => intro queue pass s r h; simp [LockManager.deadlockSearch] at h
  | succ fuel ih =>
    intro queue pass s r h
    unfold LockManager.deadlockSearch at h
    split at h
    · simp only [Option.some.injEq] at h
      subst h
      rfl
    · obtain ⟨v, hv, h⟩ := Option.bind_eq_some.1 h
      have hvl := LockManager.deadlockVisit_log _ _ _ _ _ _ hv
      split at h
      · simp only [Option.some.injEq] at h
        subst h
        exact hvl
      · rw [ih _ _ _ _ h, hvl]

theorem LockManager.IsDeadlock_log (s : Managers) (this_thread : Nat) (W : List Nat)
    (r : Bool × Managers) (h : LockManager.IsDeadlock s this_thread W = some r) :
    r.2.log = s.log :=
  LockManager.deadlockSearch_log this_thread _ _ _ _ _ h

theorem LockManager.checkCompatible_log (W : List Nat) (t n : Nat) :
    ∀ (todo : List Nat) (s : Managers) (r : Bool × Managers),
      LockManager.checkCompatible W t n todo s = some r → r.2.log = s.log := by
  intro todo
  induction todo with
  | nil =>
    intro s r h
    simp only [LockManager.checkCompatible, Option.some.injEq] at h
    subst h
    rfl
  | cons target todo ih =>
    intro s r h
    unfold LockManager.checkCompatible at h
    split at h
    · exact ih _ _ h
    · split at h
      · split at h
        · rw [ih _ _ h]
          simp
        · obtain ⟨d, hd, h⟩ := Option.bind_eq_some.1 h
          have hdl := LockManager.IsDeadlock_log _ _ _ _ hd
          split at h
          · simp only [Option.some.injEq] at h
            subst h
            simp only [Managers.setConflict_log, Managers.setLock_log]
            rw [hdl]
            simp
          · simp only [Option.some.injEq] at h
            subst h
            rw [hdl]
            simp
      · exact ih _ _ h

@[simp] theorem LockManager.finishAcquire_log (s : Managers) (t n : Nat) :
    (LockManager.finishAcquire s t n).log = s.log := by
  unfold LockManager.finishAcquire
  split <;> simp

theorem LockManager.AcquireLock_log (s : Managers) (mode : lock_t.Mode) (r t : Nat)
    (x : AcquireOutcome × Managers) (h : LockManager.AcquireLock s mode r t = some x) :
    x.2.log = s.log := by
  unfold LockManager.AcquireLock at h
  obtain ⟨s1, h1, h⟩ := Option.bind_eq_some.1 h
  obtain ⟨head, -, h⟩ := Option.bind_eq_some.1 h
  obtain ⟨W, -, h⟩ := Option.bind_eq_some.1 h
  obtain ⟨c, hc, h⟩ := Option.bind_eq_some.1 h
  have hl1 := LockManager.linkLock_log _ _ _ _ _ h1
  have hlc := LockManager.checkCompatible_log _ _ _ _ _ _ hc
  rw [LockManager.takeLock_log] at hl1
  split at h
  · simp only [Option.some.injEq] at h
    subst h
    rw [hlc, hl1]
  · split at h
    · simp only [Option.some.injEq] at h
      subst h
      rw [hlc, hl1]
    · simp only [Option.some.injEq] at h
      subst h
      rw [LockManager.finishAcquire_log, hlc, hl1]

theorem TrxManager.FindWith_log (s : Managers) (lock : Nat) (x : Response × Managers)
    (h : TrxManager.FindWith s lock = some x) : x.2.log = s.log := by
  unfold TrxManager.FindWith at h
  obtain ⟨v, -, h⟩ := Option.map_eq_some'.1 h
  subst h
  rfl

theorem TrxManager.UpdateWith_log (s : Managers) (lock : Nat) (diff : Int)
    (x : Response × Managers) (h : TrxManager.UpdateWith s lock diff = some x) :
    x.2.log = s.log := by
  unfold TrxManager.UpdateWith LockManager.ChangeRecord at h
  obtain ⟨v, hv, h⟩ := Option.map_eq_some'.1 h
  subst h
  split at hv
  swap
  · cases hv
  obtain ⟨node, -, hv⟩ := Option.bind_eq_some.1 hv
  split at hv
  swap
  · cases hv
  simp only [Option.some.injEq] at hv
  subst hv
  simp

theorem TrxManager.call_log (s : Managers) (t : Nat) (op : TrxOp) (x : Response × Managers)
    (h : TrxManager.call s t op = some x) : x.2.log = s.log := by
  cases op with
  | find r =>
    unfold TrxManager.call TrxManager.Find at h
    obtain ⟨a, ha, h⟩ := Option.bind_eq_some.1 h
    have hal := LockManager.AcquireLock_log _ _ _ _ _ ha
    rw [TrxManager.GetTrxNode_log] at hal
    split at h
    · simp only [Option.some.injEq] at h
      subst h
      exact hal
    · rw [TrxManager.FindWith_log _ _ _ h, hal]
    · simp only [Option.some.injEq] at h
      subst h
      exact hal
  | update r d =>
    unfold TrxManager.call TrxManager.Update at h
    obtain ⟨a, ha, h⟩ := Option.bind_eq_some.1 h
    have hal := LockManager.AcquireLock_log _ _ _ _ _ ha
    rw [TrxManager.GetTrxNode_log] at hal
    split at h
    · simp only [Option.some.injEq] at h
      subst h
      exact hal
    · rw [TrxManager.UpdateWith_log _ _ _ _ h, hal]
    · simp only [Option.some.injEq] at h
      subst h
      exact hal

theorem TrxManager.rollbackOne_log (s s' : Managers) (l : Nat)
    (h : TrxManager.rollbackOne s l = some s') : s'.log = s.log := by
  unfold TrxManager.rollbackOne at h
  obtain ⟨s1, h1, h⟩ := Option.bind_eq_some.1 h
  rw [(LockManager.ReleaseLock_frame _ _ _ h).log]
  split at h1
  · split at h1
    swap
    · cases h1
    obtain ⟨v, hv, h1⟩ := Option.map_eq_some'.1 h1
    subst h1
    unfold LockManager.ChangeRecord at hv
    split at hv
    swap
    · cases hv
    obtain ⟨node, -, hv⟩ := Option.bind_eq_some.1 hv
    split at hv
    swap
    · cases hv
    simp only [Option.some.injEq] at hv
    subst hv
    simp
  · simp only [Option.some.injEq] at h1
    subst h1
    rfl

theorem TrxManager.rollback_log :
    ∀ (deque : List Nat) (s s' : Managers), TrxManager.rollback deque s = some s' →
      s'.log = s.log := by
  intro deque
  induction deque with
  | nil =>
    intro s s' h
    simp only [TrxManager.rollback, Option.some.injEq] at h
    subst h
    rfl
  | cons l rest ih =>
    intro s s' h
    unfold TrxManager.rollback at h
    obtain ⟨s1, h1, h⟩ := Option.bind_eq_some.1 h
    rw [ih _ _ h, TrxManager.rollbackOne_log _ _ _ h1]

theorem TrxManager.Abort_log (s s' : Managers) (t : Nat)
    (h : TrxManager.Abort s t = some s') : s'.log = s.log := by
  unfold TrxManager.Abort at h
  rw [TrxManager.rollback_log _ _ _ h, TrxManager.GetTrxNode_log]

/-- The loop of a commit within the cap under the invariant, over distinct allocated ACTIVE
locks: it returns. -/
theorem TrxManager.releaseAll_returns : ∀ (deque : List Nat) (s : Managers), s.Inv →
    deque.Nodup →
    (∀ l ∈ deque, l < s.lock_count ∧ (s.locks l).state = lock_t.State.ACTIVE) →
    ∃ r, TrxManager.releaseAll deque s = some r := by
  intro deque
  induction deque with
  | nil => intro s _ _ _; exact ⟨_, rfl⟩
  | cons l rest ih =>
    intro s hinv hnd hmem
    obtain ⟨hl, hact⟩ := hmem l (List.mem_cons_self _ _)
    obtain ⟨node, hnode⟩ := Option.isSome_iff_exists.1 (hinv.records l hl)
    obtain ⟨s1, hs1, hinv1, hfr, hst⟩ := LockManager.ReleaseLock_inv s hinv l hl
      (by rw [hact]; exact fun e => (by cases e))
    obtain ⟨r, hr⟩ := ih s1 hinv1 (List.nodup_cons.1 hnd).2 (by
      intro x hx
      obtain ⟨hxl, hxa⟩ := hmem x (List.mem_cons_of_mem _ hx)
      refine ⟨by rw [hfr.lock_count]; exact hxl, ?_⟩
      rw [hst x, if_neg (fun e : x = l => (List.nodup_cons.1 hnd).1 (e ▸ hx))]
      exact hxa)
    have hres : TrxManager.releaseAll (l :: rest) s =
        some (((s.locks l).record_id :: r.1.1, node.record_value :: r.1.2), r.2) := by
      unfold TrxManager.releaseAll LockManager.GetRecord
      rw [if_neg (by rw [hact]; exact fun e => (by cases e)), hnode]
      simp only [Option.map_some', Option.some_bind]
      rw [hs1]
      simp only [Option.some_bind]
      rw [hr]
      rfl
    exact ⟨_, hres⟩

@[simp] theorem Managers.setCount_undo (s : Managers) (c : Int) (r : Nat) (deque : List Nat) :
    (s.setCount c).undo r deque = s.undo r deque :=
  Managers.undo_congr r deque (fun _ _ => ⟨rfl, rfl, rfl, rfl⟩)

/-- The store of the count of the commits keeps the invariant. -/
theorem Managers.Inv.setCount {s : Managers} (hinv : s.Inv) (c : Int) : (s.setCount c).Inv :=
  hinv.of_same (fun _ => ⟨rfl, rfl, rfl, rfl, rfl, rfl, rfl, rfl, rfl⟩) rfl (fun _ => rfl)
    rfl rfl

theorem TrxManager.RunInv.withCount {begin_value : Nat → Option Int} {t : Nat} {s : Managers}
    (hrun : TrxManager.RunInv begin_value t s) (c : Int) :
    TrxManager.RunInv begin_value t (s.setCount c) :=
  ⟨hrun.inv.setCount c, hrun.awake, hrun.node, hrun.nodup, hrun.active,
    fun r => (by
      have h : (s.setCount c).trx_lock_deque t = s.trx_lock_deque t := rfl
      rw [h, Managers.setCount_undo]
      exact hrun.values r),
    hrun.negs⟩

@[simp] theorem Managers.create_undo (s : Managers) (N : Int) (r : Nat) (deque : List Nat) :
    (s.create N).undo r deque = s.undo r deque :=
  Managers.undo_congr r deque (fun _ _ => ⟨rfl, rfl, rfl, rfl⟩)

/-- The creation of a log file keeps the invariant. -/
theorem Managers.Inv.create {s : Managers} (hinv : s.Inv) (N : Int) : (s.create N).Inv :=
  hinv.of_same (fun _ => ⟨rfl, rfl, rfl, rfl, rfl, rfl, rfl, rfl, rfl⟩) rfl (fun _ => rfl)
    rfl rfl

theorem TrxManager.RunInv.create_run {begin_value : Nat → Option Int} {t : Nat} {s : Managers}
    (hrun : TrxManager.RunInv begin_value t s) (N : Int) :
    TrxManager.RunInv begin_value t (s.create N) :=
  ⟨hrun.inv.create N, hrun.awake, hrun.node, hrun.nodup, hrun.active,
    fun r => (by
      have h : (s.create N).trx_lock_deque t = s.trx_lock_deque t := rfl
      rw [h, Managers.create_undo]
      exact hrun.values r),
    hrun.negs⟩

/-- The first lines of `Commit` for a thread that has its node: the file of the thread is
created. -/
theorem TrxManager.openLog_of_some (s : Managers) (t : Nat) (node : TrxNode)
    (h : s.trx_node_table t = some node) :
    TrxManager.openLog s t = s.create (s.thread_number_of t) := by
  unfold TrxManager.openLog
  rw [TrxManager.GetTrxNode_of_some s t node h]

theorem TrxManager.GetTrxNode_openLog (s : Managers) (t : Nat) :
    TrxManager.GetTrxNode (TrxManager.openLog s t) t = TrxManager.openLog s t := by
  obtain ⟨node, hnode⟩ := Option.isSome_iff_exists.1 (TrxManager.GetTrxNode_isSome s t)
  exact TrxManager.GetTrxNode_of_some _ t node hnode

theorem TrxManager.GetTrxNode_setCount (s : Managers) (c : Int) (t : Nat) :
    TrxManager.GetTrxNode (s.setCount c) t = (TrxManager.GetTrxNode s t).setCount c := by
  unfold TrxManager.GetTrxNode
  cases h : s.trx_node_table t with
  | none =>
    have h' : (s.setCount c).trx_node_table t = none := h
    rw [h']
    rfl
  | some node =>
    have h' : (s.setCount c).trx_node_table t = some node := h
    rw [h']

/-- A `Commit` above the cap is an `Abort` in the state with the file of the thread created
and the new count, and returns `-1`. -/
theorem TrxManager.Commit_above (s : Managers) (t : Nat)
    (hfit : isInt32 (s.global_execution_count + 1))
    (h : s.global_execution_count + 1 > s.last_global_execution_order) :
    TrxManager.Commit s t =
      (TrxManager.Abort ((TrxManager.openLog s t).setCount (s.global_execution_count + 1))
        t).map (fun s2 => (-1, s2)) := by
  unfold TrxManager.Commit TrxManager.Abort
  rw [if_pos hfit, if_pos h, TrxManager.GetTrxNode_setCount, TrxManager.GetTrxNode_openLog]
  rfl

/-- What `Commit` returns, and the count and the cap it leaves. -/
theorem TrxManager.Commit_count (s : Managers) (t : Nat) (x : Int × Managers)
    (h : TrxManager.Commit s t = some x) :
    x.1 = (if s.global_execution_count + 1 ≤ s.last_global_execution_order then
      s.global_execution_count + 1 else -1) ∧
    x.2.global_execution_count = s.global_execution_count + 1 ∧
    x.2.last_global_execution_order = s.last_global_execution_order ∧
    (s.global_execution_count + 1 > s.last_global_execution_order → x.2.files = s.files) := by
  unfold TrxManager.Commit at h
  split at h
  swap
  · cases h
  split at h
  next hgt =>
    obtain ⟨s2, hs2, h⟩ := Option.map_eq_some'.1 h
    subst h
    have hl := TrxManager.rollback_log _ _ _ hs2
    unfold Managers.log at hl
    simp only [Prod.mk.injEq] at hl
    refine ⟨by rw [if_neg (not_le.2 hgt)], hl.2.1, ?_, fun _ => ?_⟩
    · rw [hl.2.2.1]
      exact congrArg (fun p => p.2.2.1) (TrxManager.GetTrxNode_log s t)
    · rw [hl.1]
      exact congrArg (fun p => p.1) (TrxManager.GetTrxNode_log s t)
  next hle =>
    obtain ⟨r, hr, h⟩ := Option.map_eq_some'.1 h
    subst h
    obtain ⟨-, -, hfr⟩ := TrxManager.releaseAll_spec _ _ _ hr
    refine ⟨by rw [if_pos (not_lt.1 hle)], ?_, ?_, fun hgt => absurd hgt hle⟩
    · show r.2.global_execution_count = _
      rw [hfr.count]
      rfl
    · show r.2.last_global_execution_order = _
      rw [hfr.last]
      exact congrArg (fun p => p.2.2.1) (TrxManager.GetTrxNode_log s t)

/-- After `n` commits the count is `n`, and the cap is the one of `InitManagers`. -/
theorem TrxManager.History.count {record_count : Nat} {cap : Int} {s : Managers} {n : Nat}
    (h : TrxManager.History record_count cap s n) :
    s.global_execution_count = n ∧ s.last_global_execution_order = cap := by
  have key : ∀ {s s' : Managers} {k : Int}, s'.log = s.log →
      s.global_execution_count = k ∧ s.last_global_execution_order = cap →
      s'.global_execution_count = k ∧ s'.last_global_execution_order = cap := by
    intro s s' k hl hs
    unfold Managers.log at hl
    simp only [Prod.mk.injEq] at hl
    exact ⟨hl.2.1.trans hs.1, hl.2.2.1.trans hs.2⟩
  induction h with
  | init => exact ⟨rfl, rfl⟩
  | begin s n t _ ih => exact key (TrxManager.Begin_log s t) ih
  | call s n t op x _ hc ih => exact key (TrxManager.call_log s t op x hc) ih
  | find_wake s n t lock x _ hc ih =>
    unfold TrxManager.FindWake at hc
    refine key ?_ ih
    rw [TrxManager.FindWith_log _ _ _ hc]
    exact LockManager.finishAcquire_log s t lock
  | update_wake s n t lock diff x _ hc ih =>
    unfold TrxManager.UpdateWake at hc
    refine key ?_ ih
    rw [TrxManager.UpdateWith_log _ _ _ _ hc]
    exact LockManager.finishAcquire_log s t lock
  | abort s n t s1 _ hc ih => exact key (TrxManager.Abort_log s s1 t hc) ih
  | commit s n t x _ hc ih =>
    obtain ⟨-, h2, h3, -⟩ := TrxManager.Commit_count s t x hc
    refine ⟨?_, h3.trans ih.2⟩
    rw [h2, ih.1]
    push_cast
    rfl

/-- `Commit` of a transaction between two of its calls returns when the new count fits an
`int`; above the cap every record then holds its value at `Begin` and every lock of the
deque is OBSOLETE. -/
theorem TrxManager.Commit_returns {begin_value : Nat → Option Int} {t : Nat} {s : Managers}
    (hrun : TrxManager.RunInv begin_value t s)
    (hfits : ∀ r v, begin_value r = some v → isInt64 v)
    (hfit : isInt32 (s.global_execution_count + 1)) :
    ∃ x, TrxManager.Commit s t = some x ∧
      (s.global_execution_count + 1 > s.last_global_execution_order →
        (∀ r, (x.2.lock_table r).map (fun node => node.record_value) = begin_value r) ∧
        ∀ l ∈ s.trx_lock_deque t, (x.2.locks l).state = lock_t.State.OBSOLETE) := by
  obtain ⟨tn, htn⟩ := Option.isSome_iff_exists.1 hrun.node
  by_cases hgt : s.global_execution_count + 1 > s.last_global_execution_order
  · obtain ⟨s2, hs2, -, -, hvals, hst⟩ := TrxManager.Abort_spec
      (((hrun.create_run (s.thread_number_of t)).withCount
        (s.global_execution_count + 1)).abortPre hfits)
    refine ⟨(-1, s2), ?_, fun _ => ⟨hvals, ?_⟩⟩
    · rw [TrxManager.Commit_above s t hfit hgt, TrxManager.openLog_of_some s t tn htn, hs2]
      rfl
    · intro l hl
      have hl' : l ∈ ((s.create (s.thread_number_of t)).setCount
          (s.global_execution_count + 1)).trx_lock_deque t := hl
      rw [hst l, if_pos hl']
  · obtain ⟨r, hr⟩ := TrxManager.releaseAll_returns (s.trx_lock_deque t)
      ((s.create (s.thread_number_of t)).setCount (s.global_execution_count + 1))
      ((hrun.inv.create _).setCount _) hrun.nodup
      (fun l hl => ⟨(hrun.inv.deques t l hl).1, hrun.active l hl⟩)
    have hres : TrxManager.Commit s t = some (s.global_execution_count + 1,
        Managers.append r.2 (s.thread_number_of t)
          (TrxManager.commitLog (s.global_execution_count + 1) r.1.1 r.1.2)) := by
      unfold TrxManager.Commit
      rw [if_pos hfit, if_neg hgt, TrxManager.openLog_of_some s t tn htn,
        TrxManager.GetTrxNode_of_some s t tn htn, hr]
      rfl
    exact ⟨_, hres, fun h => absurd h hgt⟩

/-- C18.  Let the state be reached from `InitManagers` with the cap `cap` by calls of the
transaction manager, `n` of them calls of `Commit`, with `n + 1` within `int`.  Then the
count of the commits is `n` and the cap is `cap`.  The next call of `Commit`, the
`(n+1)`-th, returns `n + 1` when `n + 1 <= cap` and `-1` when `n + 1 > cap`, and leaves the
count `n + 1`.  Above the cap it is `Abort` run in the state with the new count, in which the
stream on the log file of the thread was opened, and it leaves the text of every log file as
it was.  For a transaction between two of its calls, with values at `Begin` that fit
`int64_t`, the call returns; above the cap every record then holds its value at `Begin` and
every lock of the deque is OBSOLETE. -/
theorem TrxManager.Commit_cap (record_count : Nat) (cap : Int) (s : Managers) (n : Nat)
    (hist : TrxManager.History record_count cap s n) (hn : (n : Int) + 1 ≤ INT_MAX)
    (t : Nat) :
    s.global_execution_count = n ∧ s.last_global_execution_order = cap ∧
    (∀ x, TrxManager.Commit s t = some x →
      x.1 = (if (n : Int) + 1 ≤ cap then (n : Int) + 1 else -1) ∧
      x.2.global_execution_count = (n : Int) + 1 ∧
      TrxManager.History record_count cap x.2 (n + 1)) ∧
    ((n : Int) + 1 > cap →
      TrxManager.Commit s t =
        (TrxManager.Abort ((TrxManager.openLog s t).setCount ((n : Int) + 1)) t).map
          (fun s2 => (-1, s2)) ∧
      ∀ x, TrxManager.Commit s t = some x → x.1 = -1 ∧ x.2.files = s.files) ∧
    (∀ begin_value, TrxManager.RunInv begin_value t s →
      (∀ r v, begin_value r = some v → isInt64 v) →
      ∃ x, TrxManager.Commit s t = some x ∧
        ((n : Int) + 1 > cap →
          (∀ r, (x.2.lock_table r).map (fun node => node.record_value) = begin_value r) ∧
          ∀ l ∈ s.trx_lock_deque t, (x.2.locks l).state = lock_t.State.OBSOLETE)) := by
  obtain ⟨hc, hl⟩ := hist.count
  have hfit : isInt32 (s.global_execution_count + 1) := by
    rw [hc]
    refine ⟨?_, hn⟩
    have : (0 : Int) ≤ (n : Int) := Int.ofNat_nonneg n
    unfold INT_MIN
    omega
  refine ⟨hc, hl, ?_, ?_, ?_⟩
  · intro x hx
    obtain ⟨h1, h2, -, -⟩ := TrxManager.Commit_count s t x hx
    rw [hc, hl] at h1
    rw [hc] at h2
    exact ⟨h1, h2, TrxManager.History.commit s n t x hist hx⟩
  · intro hgt
    have hgt' : s.global_execution_count + 1 > s.last_global_execution_order := by
      rw [hc, hl]; exact hgt
    refine ⟨?_, ?_⟩
    · rw [TrxManager.Commit_above s t hfit hgt', hc]
    · intro x hx
      obtain ⟨h1, -, -, h4⟩ := TrxManager.Commit_count s t x hx
      rw [if_neg (not_le.2 hgt')] at h1
      exact ⟨h1, h4 hgt'⟩
  · intro begin_value hrun hfits
    obtain ⟨x, hx, hrest⟩ := TrxManager.Commit_returns hrun hfits hfit
    refine ⟨x, hx, fun hgt => hrest ?_⟩
    rw [hc, hl]
    exact hgt

/-- The state in which thread 1 has added 5 to record 1 is reached without a commit. -/
theorem Managers.updated_history : TrxManager.History 2 0 Managers.updated 0 :=
  TrxManager.History.call _ 0 1 (TrxOp.update 1 5) _
    (TrxManager.History.begin _ 0 1 TrxManager.History.init)
    (Option.some_get (by decide)).symm

/-- The first commit, with the cap 0, of the transaction that has added 5 to record 1. -/
theorem TrxManager.Commit_cap_witness :
    (TrxManager.History 2 0 Managers.updated 0 ∧ ((0 : Nat) : Int) + 1 ≤ INT_MAX) ∧
    Managers.updated.global_execution_count = ((0 : Nat) : Int) ∧
    Managers.updated.last_global_execution_order = 0 ∧
    (∀ x, TrxManager.Commit Managers.updated 1 = some x →
      x.1 = (if ((0 : Nat) : Int) + 1 ≤ 0 then ((0 : Nat) : Int) + 1 else -1) ∧
      x.2.global_execution_count = ((0 : Nat) : Int) + 1 ∧
      TrxManager.History 2 0 x.2 (0 + 1)) ∧
    (((0 : Nat) : Int) + 1 > 0 →
      TrxManager.Commit Managers.updated 1 =
        (TrxManager.Abort ((TrxManager.openLog Managers.updated 1).setCount
          (((0 : Nat) : Int) + 1)) 1).map (fun s2 => (-1, s2)) ∧
      ∀ x, TrxManager.Commit Managers.updated 1 = some x →
        x.1 = -1 ∧ x.2.files = Managers.updated.files) :=
  ⟨⟨Managers.updated_history, by decide⟩,
    (TrxManager.Commit_cap 2 0 Managers.updated 0 Managers.updated_history (by decide) 1).1,
    (TrxManager.Commit_cap 2 0 Managers.updated 0 Managers.updated_history (by decide) 1).2.1,
    (TrxManager.Commit_cap 2 0 Managers.updated 0 Managers.updated_history (by decide)
      1).2.2.1,
    (TrxManager.Commit_cap 2 0 Managers.updated 0 Managers.updated_history (by decide)
      1).2.2.2.1⟩

/-- The commit above the cap, evaluated: it returns `-1`, record 1 holds 100 again, the
count is 1 and the file of the thread is empty. -/
theorem TrxManager.Commit_above_example :
    (Managers.updated.lock_table 1).map (fun node => node.record_value) = some 105 ∧
    (TrxManager.Commit Managers.updated 1).map (fun x =>
      (x.1, (x.2.lock_table 1).map (fun node => node.record_value),
        x.2.global_execution_count, x.2.files 1)) = some (-1, some 100, 1, "") := by
  decide

/-! ## The log line of a commit -/

/-- The state after the `Find(2)` of thread 7 is the state of a transaction between two
calls. -/
theorem Managers.afterFind_run :
    TrxManager.RunInv
      (fun r => ((Managers.init 3 5).lock_table r).map (fun node => node.record_value)) 7
      Managers.afterFind :=
  (TrxManager.RunInv.of_begin (Managers.init_inv 3 5) 7 rfl).find 2 100 Managers.afterFind
    ((Option.some_get (by decide)).symm.trans (congrArg some (Prod.ext (by decide) rfl)))

/-- C19.  Let a transaction between two of its calls, whose deque holds `k` locks, call
`Commit` within the cap (`global_execution_count + 1 <= last_global_execution_order`, the sum
within `int`).  The call returns the new count and appends to the file of the thread one
line: the commit id, the `k` record ids of the deque in the order of acquisition, and `k`
values, the values the records of these locks have when `Commit` is called, in the same
order; the numbers are separated by single spaces and the line ends with one newline.  No
other file changes. -/
theorem TrxManager.Commit_writes_line (s : Managers) (thread_id : Nat)
    (begin_value : Nat → Option Int) (hrun : TrxManager.RunInv begin_value thread_id s)
    (hfits : ∀ r v, begin_value r = some v → isInt64 v)
    (hfit : isInt32 (s.global_execution_count + 1))
    (hcap : s.global_execution_count + 1 ≤ s.last_global_execution_order) :
    ∃ r, TrxManager.Commit s thread_id = some r ∧
      r.1 = s.global_execution_count + 1 ∧
      ∃ values : List Int,
        List.Forall₂ (fun lock v => (s.lock_table (s.locks lock).record_id).map
          (fun node => node.record_value) = some v) (s.trx_lock_deque thread_id) values ∧
        r.2.files ((TrxManager.GetTrxNode s thread_id).thread_number_of thread_id) =
          s.files ((TrxManager.GetTrxNode s thread_id).thread_number_of thread_id) ++
            (" ".intercalate (toString r.1 ::
              ((s.trx_lock_deque thread_id).map
                  (fun lock => toString (s.locks lock).record_id) ++
                values.map toString)) ++ "\n") ∧
        ∀ N, N ≠ (TrxManager.GetTrxNode s thread_id).thread_number_of thread_id →
          r.2.files N = s.files N := by
  obtain ⟨r, hr, -⟩ := TrxManager.Commit_returns hrun hfits hfit
  exact ⟨r, hr, TrxManager.Commit_line_spec s thread_id r hcap hr⟩

/-- The commit of thread 7 after its `Find(2)`, with the cap 5. -/
theorem TrxManager.Commit_writes_line_witness :
    (TrxManager.RunInv
        (fun r => ((Managers.init 3 5).lock_table r).map (fun node => node.record_value)) 7
        Managers.afterFind ∧
      (∀ r v, ((Managers.init 3 5).lock_table r).map (fun node => node.record_value) =
        some v → isInt64 v) ∧
      isInt32 (Managers.afterFind.global_execution_count + 1) ∧
      Managers.afterFind.global_execution_count + 1 ≤
        Managers.afterFind.last_global_execution_order) ∧
    ∃ r, TrxManager.Commit Managers.afterFind 7 = some r ∧
      r.1 = Managers.afterFind.global_execution_count + 1 ∧
      ∃ values : List Int,
        List.Forall₂ (fun lock v => (Managers.afterFind.lock_table
          (Managers.afterFind.locks lock).record_id).map
            (fun node => node.record_value) = some v)
          (Managers.afterFind.trx_lock_deque 7) values ∧
        r.2.files ((TrxManager.GetTrxNode Managers.afterFind 7).thread_number_of 7) =
          Managers.afterFind.files
              ((TrxManager.GetTrxNode Managers.afterFind 7).thread_number_of 7) ++
            (" ".intercalate (toString r.1 ::
              ((Managers.afterFind.trx_lock_deque 7).map
                  (fun lock => toString (Managers.afterFind.locks lock).record_id) ++
                values.map toString)) ++ "\n") ∧
        ∀ N, N ≠ (TrxManager.GetTrxNode Managers.afterFind 7).thread_number_of 7 →
          r.2.files N = Managers.afterFind.files N :=
  ⟨⟨Managers.afterFind_run,
      fun r v h => (by
        obtain ⟨node, hnode, hv⟩ := Option.map_eq_some'.1 h
        rw [← hv]
        exact Managers.init_fits 3 5 r node hnode),
      by decide, by decide⟩,
    TrxManager.Commit_writes_line Managers.afterFind 7 _ Managers.afterFind_run
      (fun r v h => (by
        obtain ⟨node, hnode, hv⟩ := Option.map_eq_some'.1 h
        rw [← hv]
        exact Managers.init_fits 3 5 r node hnode))
      (by decide) (by decide)⟩

/-! ## The recycling of locks -/

/-- The test of `AcquireLock` for a lock of the pool, spelled out. -/
theorem lock_t.recyclable_iff (l : lock_t) :
    l.recyclable = true ↔ l.state = lock_t.State.OBSOLETE ∧ l.id_pass_flag = true ∧
      l.head_pass_flag = true := by
  unfold lock_t.recyclable
  simp [and_assoc]

/-- C29.  Lines 45-88 of `AcquireLock(mode, r, trx)`.  When the pool of the thread for the
record is `pre ++ p :: post`, no lock of `pre` is OBSOLETE with both `id_pass_flag` and
`head_pass_flag` set, and `p` is, then `p` is the new lock: it is reset to a lock as the
constructor makes it (state ACTIVE, `diff` 0, the three flags false, the id `2^64 - 1`,
`next` null), with the mode of the request; no lock is allocated, and the pool and all other
locks stay as they are.  When no lock of the pool meets the three conditions, the new lock is
a newly allocated one, as the constructor makes it for the record and the thread, with the
mode of the request, and it is added at the end of the pool; all other locks stay as they
are. -/
theorem LockManager.takeLock_recycles (s : Managers) (mode : lock_t.Mode) (r t : Nat) :
    (∀ pre p post, s.pools t r = pre ++ p :: post →
      (∀ q ∈ pre, ¬ ((s.locks q).state = lock_t.State.OBSOLETE ∧
        (s.locks q).id_pass_flag = true ∧ (s.locks q).head_pass_flag = true)) →
      (s.locks p).state = lock_t.State.OBSOLETE → (s.locks p).id_pass_flag = true →
      (s.locks p).head_pass_flag = true →
      (LockManager.takeLock s mode r t).1 = p ∧
      (LockManager.takeLock s mode r t).2.locks p =
        lock_t.withMode mode (lock_t.create (s.locks p).record_id (s.locks p).thread_id) ∧
      (LockManager.takeLock s mode r t).2.lock_count = s.lock_count ∧
      (LockManager.takeLock s mode r t).2.pools = s.pools ∧
      ∀ l, l ≠ p → (LockManager.takeLock s mode r t).2.locks l = s.locks l) ∧
    ((∀ q ∈ s.pools t r, ¬ ((s.locks q).state = lock_t.State.OBSOLETE ∧
        (s.locks q).id_pass_flag = true ∧ (s.locks q).head_pass_flag = true)) →
      (LockManager.takeLock s mode r t).1 = s.lock_count ∧
      (LockManager.takeLock s mode r t).2.locks s.lock_count =
        lock_t.withMode mode (lock_t.create r t) ∧
      (LockManager.takeLock s mode r t).2.lock_count = s.lock_count + 1 ∧
      (LockManager.takeLock s mode r t).2.pools t r = s.pools t r ++ [s.lock_count] ∧
      (∀ t' r', (t', r') ≠ (t, r) →
        (LockManager.takeLock s mode r t).2.pools t' r' = s.pools t' r') ∧
      ∀ l, l ≠ s.lock_count → (LockManager.takeLock s mode r t).2.locks l = s.locks l) := by
  constructor
  · intro pre p post hpool hpre h1 h2 h3
    have hfind : (s.pools t r).find? (fun p => (s.locks p).recyclable) = some p := by
      rw [hpool, List.find?_append]
      have hnone : pre.find? (fun p => (s.locks p).recyclable) = none := by
        rw [List.find?_eq_none]
        intro q hq hrec
        exact hpre q hq ((lock_t.recyclable_iff _).1 hrec)
      rw [hnone]
      simp only [Option.none_or, List.find?_cons]
      rw [(lock_t.recyclable_iff _).2 ⟨h1, h2, h3⟩]
    have htake : LockManager.takeLock s mode r t =
        (p, (s.setLock p lock_t.recycle).setLock p (lock_t.withMode mode)) := by
      unfold LockManager.takeLock; rw [hfind]
    rw [htake]
    refine ⟨rfl, ?_, rfl, rfl, ?_⟩
    · simp only [Managers.setLock_locks, Function.update_same]
      rfl
    · intro l hl
      simp only [Managers.setLock_locks, Function.update_idem, Function.update_noteq hl]
  · intro hall
    have hfind : (s.pools t r).find? (fun p => (s.locks p).recyclable) = none := by
      rw [List.find?_eq_none]
      intro q hq hrec
      exact hall q hq ((lock_t.recyclable_iff _).1 hrec)
    unfold LockManager.takeLock
    rw [hfind]
    refine ⟨rfl, ?_, rfl, ?_, ?_, ?_⟩
    · simp only [Function.update_same]
    · simp only [Function.update_same]
    · intro t' r' hne
      simp only
      by_cases ht : t' = t
      · subst ht
        rw [Function.update_same, Function.update_noteq (fun e => hne (by rw [e]))]
      · rw [Function.update_noteq ht]
    · intro l hl
      simp only [Function.update_noteq hl]

/-- A third acquisition of the thread 1 on record 1 takes its first lock, the lock 0, which
is OBSOLETE and has both flags set. -/
theorem LockManager.takeLock_recycles_witness :
    (Managers.recycling.pools 1 1 = [] ++ 0 :: [1] ∧
      (∀ q ∈ ([] : List Nat), ¬ ((Managers.recycling.locks q).state = lock_t.State.OBSOLETE ∧
        (Managers.recycling.locks q).id_pass_flag = true ∧
        (Managers.recycling.locks q).head_pass_flag = true)) ∧
      (Managers.recycling.locks 0).state = lock_t.State.OBSOLETE ∧
      (Managers.recycling.locks 0).id_pass_flag = true ∧
      (Managers.recycling.locks 0).head_pass_flag = true) ∧
    ((LockManager.takeLock Managers.recycling lock_t.Mode.EXCLUSIVE 1 1).1 = 0 ∧
      (LockManager.takeLock Managers.recycling lock_t.Mode.EXCLUSIVE 1 1).2.locks 0 =
        lock_t.withMode lock_t.Mode.EXCLUSIVE
          (lock_t.create (Managers.recycling.locks 0).record_id
            (Managers.recycling.locks 0).thread_id) ∧
      (LockManager.takeLock Managers.recycling lock_t.Mode.EXCLUSIVE 1 1).2.lock_count =
        Managers.recycling.lock_count ∧
      (LockManager.takeLock Managers.recycling lock_t.Mode.EXCLUSIVE 1 1).2.pools =
        Managers.recycling.pools ∧
      ∀ l, l ≠ 0 →
        (LockManager.takeLock Managers.recycling lock_t.Mode.EXCLUSIVE 1 1).2.locks l =
          Managers.recycling.locks l) :=
  ⟨⟨by decide, fun q h => (by cases h), by decide, by decide, by decide⟩,
    (LockManager.takeLock_recycles Managers.recycling lock_t.Mode.EXCLUSIVE 1 1).1 [] 0 [1]
      (by decide) (fun q h => (by cases h)) (by decide) (by decide) (by decide)⟩

/-! ## The head and the signals of `ReleaseLock` -/

/-- C27.  Under the invariant, `ReleaseLock` of an allocated lock `rl` returns.  With `chain`
the list of the record of `rl` before the call, the list afterwards is a non-empty suffix
`chain'` of it, `chain = d ++ chain'`, whose first lock is the new head: the head is never
null.  Every lock of `d`, the locks the head has moved off, is OBSOLETE and has its
`head_pass_flag` set; no other `head_pass_flag` changes.  If the head is not OBSOLETE once
`rl` is marked, it does not move (`d` is empty).  Otherwise the new head is the first lock
behind the old head that is not OBSOLETE, or, when every lock of the list is OBSOLETE, the
last lock of the list. -/
theorem LockManager.ReleaseLock_head (s : Managers) (hinv : s.Inv) (rl : Nat)
    (hrl : rl < s.lock_count) :
    ∃ s' chain d chain', s.IsQueue (s.locks rl).record_id chain ∧
      LockManager.ReleaseLock s rl = some s' ∧ chain = d ++ chain' ∧ chain' ≠ [] ∧
      s'.IsQueue (s.locks rl).record_id chain' ∧
      (s'.lock_table (s.locks rl).record_id).bind (fun node => node.head) = chain'.head? ∧
      (∀ y ∈ d, (s'.locks y).state = lock_t.State.OBSOLETE ∧
        (s'.locks y).head_pass_flag = true) ∧
      (∀ l, l ∉ d → (s'.locks l).head_pass_flag = (s.locks l).head_pass_flag) ∧
      (∀ h, chain.head? = some h → (s'.locks h).state ≠ lock_t.State.OBSOLETE → d = []) ∧
      ((∃ g rest', chain' = g :: rest' ∧ (s'.locks g).state ≠ lock_t.State.OBSOLETE) ∨
        (∃ l, chain' = [l] ∧ (s'.locks l).state = lock_t.State.OBSOLETE ∧
          chain.getLast? = some l ∧
          ∀ y ∈ chain, (s'.locks y).state = lock_t.State.OBSOLETE)) := by
  obtain ⟨chain, hq, -⟩ := hinv.queues _ (hinv.records rl hrl)
  have hne : chain ≠ [] := hq.nonempty rl hrl rfl
  obtain ⟨s', d, chain', woken, hrel, hsplit, hne', hfr, hq', -, hd, hl, hcase⟩ :=
    LockManager.ReleaseLock_spec s rl chain hq hne
  have hdobs : ∀ y ∈ d, (s'.locks y).state = lock_t.State.OBSOLETE := by
    intro y hy
    rw [(hl y).1]
    by_cases hyr : y = rl
    · rw [if_pos hyr]
    · rw [if_neg hyr]
      rcases hd y hy with h | h
      · exact absurd h hyr
      · exact h
  refine ⟨s', chain, d, chain', hq, hrel, hsplit, hne', hq', ?_, ?_, ?_, ?_, ?_⟩
  · obtain ⟨node', hnode', hhead', -⟩ := hq'.ends
    rw [hnode']
    exact hhead'
  · intro y hy
    refine ⟨hdobs y hy, ?_⟩
    rw [(hl y).2.1, if_pos hy]
  · intro l hnot
    rw [(hl l).2.1, if_neg hnot]
  · intro h hh hst
    cases d with
    | nil => rfl
    | cons a d' =>
      rw [hsplit] at hh
      simp only [List.cons_append, List.head?_cons, Option.some.injEq] at hh
      subst hh
      exact absurd (hdobs a (List.mem_cons_self _ _)) hst
  · rcases hcase with ⟨hd0, -, h, hh, hhr, hst⟩ | ⟨-, l, hcl, hst⟩ | ⟨g, rest', hc, hst, -⟩
    · left
      subst hd0
      simp only [List.nil_append] at hsplit
      subst hsplit
      cases chain with
      | nil => exact absurd rfl hne
      | cons g rest' =>
        simp only [List.head?_cons, Option.some.injEq] at hh
        subst hh
        refine ⟨g, rest', rfl, ?_⟩
        rw [(hl g).1, if_neg hhr]
        exact hst
    · right
      refine ⟨l, hcl, hst, ?_, ?_⟩
      · rw [hsplit, hcl]
        simp
      · intro y hy
        rw [hsplit, hcl, List.mem_append, List.mem_singleton] at hy
        rcases hy with hy | hy
        · exact hdobs y hy
        · rw [hy]; exact hst
    · left
      exact ⟨g, rest', hc, hst⟩

/-- The second reader of a record with two readers releases its lock: the head stays. -/
theorem LockManager.ReleaseLock_head_witness :
    (Managers.twoReaders.Inv ∧ 1 < Managers.twoReaders.lock_count) ∧
    ∃ s' chain d chain', Managers.twoReaders.IsQueue (Managers.twoReaders.locks 1).record_id
        chain ∧
      LockManager.ReleaseLock Managers.twoReaders 1 = some s' ∧ chain = d ++ chain' ∧
      chain' ≠ [] ∧
      s'.IsQueue (Managers.twoReaders.locks 1).record_id chain' ∧
      (s'.lock_table (Managers.twoReaders.locks 1).record_id).bind (fun node => node.head) =
        chain'.head? ∧
      (∀ y ∈ d, (s'.locks y).state = lock_t.State.OBSOLETE ∧
        (s'.locks y).head_pass_flag = true) ∧
      (∀ l, l ∉ d →
        (s'.locks l).head_pass_flag = (Managers.twoReaders.locks l).head_pass_flag) ∧
      (∀ h, chain.head? = some h → (s'.locks h).state ≠ lock_t.State.OBSOLETE → d = []) ∧
      ((∃ g rest', chain' = g :: rest' ∧ (s'.locks g).state ≠ lock_t.State.OBSOLETE) ∨
        (∃ l, chain' = [l] ∧ (s'.locks l).state = lock_t.State.OBSOLETE ∧
          chain.getLast? = some l ∧
          ∀ y ∈ chain, (s'.locks y).state = lock_t.State.OBSOLETE)) :=
  ⟨⟨Managers.twoReaders_inv, by decide⟩,
    LockManager.ReleaseLock_head Managers.twoReaders Managers.twoReaders_inv 1
      (by decide)⟩

/-- The releases of the two readers, evaluated: after the release of the second reader the
head is still the lock 0; after the release of the first one too, the head is the lock 1, the
last lock of the list, and the lock 0 is marked as passed. -/
theorem LockManager.ReleaseLock_head_example :
    (LockManager.ReleaseLock Managers.twoReaders 1).map
        (fun s1 => (s1.lock_table 1).bind (fun node => node.head)) = some (some 0) ∧
    ((LockManager.ReleaseLock Managers.twoReaders 1).bind (fun s1 =>
      (LockManager.ReleaseLock s1 0).map (fun s2 =>
        ((s2.lock_table 1).bind (fun node => node.head), (s2.locks 0).head_pass_flag,
          (s2.locks 1).head_pass_flag)))) = some (some 1, true, false) := by
  decide

/-- The state with a refused EXCLUSIVE request between two sleeping readers is reachable. -/
theorem Managers.skipped_reachable : Managers.skipped.Reachable :=
  Managers.Reachable.acquire _ lock_t.Mode.SHARED 1 3 _
    (Managers.Reachable.acquire _ lock_t.Mode.EXCLUSIVE 1 1 _
      (Managers.Reachable.acquire _ lock_t.Mode.SHARED 1 2 _
        (Managers.Reachable.acquire _ lock_t.Mode.EXCLUSIVE 1 1 _ (Managers.Reachable.init 1 0)
          (Option.some_get (by decide)).symm)
        (Option.some_get (by decide)).symm)
      (Option.some_get (by decide)).symm)
    (Option.some_get (by decide)).symm

/-- The invariant holds in the state with the refused EXCLUSIVE request. -/
theorem Managers.skipped_inv : Managers.skipped.Inv :=
  LockManager.AcquireLock_inv _
    ((LockManager.AcquireLock_inv _
      ((LockManager.AcquireLock_inv _
        ((LockManager.AcquireLock_inv _ ((Managers.init_inv 1 0).getTrxNode_inv 1)
          lock_t.Mode.EXCLUSIVE 1 1 _ (Option.some_get (by decide)).symm).getTrxNode_inv 2)
        lock_t.Mode.SHARED 1 2 _ (Option.some_get (by decide)).symm).getTrxNode_inv 1)
      lock_t.Mode.EXCLUSIVE 1 1 _ (Option.some_get (by decide)).symm).getTrxNode_inv 3)
    lock_t.Mode.SHARED 1 3 _ (Option.some_get (by decide)).symm

/-- C28 (as stated, refuted).  In a reachable state the thread 1 releases its EXCLUSIVE lock
0 of record 1.  The head moves to the lock 1, which is SHARED; the lock 2 behind it is
EXCLUSIVE (and OBSOLETE), and the lock 3, which lies behind this first EXCLUSIVE lock, gets
its signal all the same: the walk steps over OBSOLETE locks whatever their mode. -/
theorem LockManager.ReleaseLock_signals_past_obsolete :
    Managers.skipped.Reachable ∧
    (Managers.skipped.lock_table 1).bind (fun node => node.head) = some 0 ∧
    (Managers.skipped.locks 0).next = some 1 ∧ (Managers.skipped.locks 1).next = some 2 ∧
    (Managers.skipped.locks 2).next = some 3 ∧ (Managers.skipped.locks 3).next = none ∧
    (Managers.skipped.locks 1).mode = lock_t.Mode.SHARED ∧
    (Managers.skipped.locks 2).mode = lock_t.Mode.EXCLUSIVE ∧
    (Managers.skipped.locks 3).signal_flag = false ∧
    (LockManager.ReleaseLock Managers.skipped 0).map (fun s =>
      ((s.lock_table 1).bind (fun node => node.head), (s.locks 1).signal_flag,
        (s.locks 2).signal_flag, (s.locks 3).signal_flag)) =
      some (some 1, true, false, true) :=
  ⟨Managers.skipped_reachable, by decide, by decide, by decide, by decide, by decide,
    by decide, by decide, by decide, by decide⟩

/-- C28 (amended).  Under the invariant, `ReleaseLock` of an allocated lock `rl` returns and
sets the signal of the locks `woken`, and of no other lock.  When the head does not move
(`d` is empty) no lock is signalled.  When the head moves to a new head `h`: if `h` is
OBSOLETE (the last lock of the list) no lock is signalled; else `h` is signalled, whether
it is in state WAIT or not.  If `h` is EXCLUSIVE only `h` is signalled.  If `h` is SHARED,
a lock `x` behind `h` is signalled exactly when it is SHARED and not OBSOLETE and every
lock between `h` and `x` that is not OBSOLETE is SHARED: the walk steps over OBSOLETE locks
of either mode and stops at the first EXCLUSIVE lock that is not OBSOLETE. -/
theorem LockManager.ReleaseLock_signals (s : Managers) (hinv : s.Inv) (rl : Nat)
    (hrl : rl < s.lock_count) :
    ∃ s' chain d chain' woken, s.IsQueue (s.locks rl).record_id chain ∧
      LockManager.ReleaseLock s rl = some s' ∧ chain = d ++ chain' ∧
      s'.IsQueue (s.locks rl).record_id chain' ∧
      (∀ l, (s'.locks l).signal_flag =
        (if l ∈ woken then true else (s.locks l).signal_flag)) ∧
      (d = [] → woken = []) ∧
      ∀ h rest', d ≠ [] → chain' = h :: rest' →
        ((s'.locks h).state = lock_t.State.OBSOLETE → woken = []) ∧
        ((s'.locks h).state ≠ lock_t.State.OBSOLETE →
          h ∈ woken ∧
          ((s'.locks h).mode = lock_t.Mode.EXCLUSIVE → woken = [h]) ∧
          ((s'.locks h).mode = lock_t.Mode.SHARED →
            ∀ pre x post, rest' = pre ++ x :: post →
              (x ∈ woken ↔ (s'.locks x).state ≠ lock_t.State.OBSOLETE ∧
                (s'.locks x).mode = lock_t.Mode.SHARED ∧
                ∀ p ∈ pre, (s'.locks p).state ≠ lock_t.State.OBSOLETE →
                  (s'.locks p).mode = lock_t.Mode.SHARED))) := by
  obtain ⟨chain, hq, -⟩ := hinv.queues _ (hinv.records rl hrl)
  have hne : chain ≠ [] := hq.nonempty rl hrl rfl
  obtain ⟨s', d, chain', woken, hrel, hsplit, hne', hfr, hq', -, hd, hl, hcase⟩ :=
    LockManager.ReleaseLock_spec s rl chain hq hne
  refine ⟨s', chain, d, chain', woken, hq, hrel, hsplit, hq', fun l => (hl l).2.2, ?_, ?_⟩
  · intro hd0
    rcases hcase with ⟨-, hw, -⟩ | ⟨hw, -⟩ | ⟨g, rest', -, -, -, hdne⟩
    · exact hw
    · exact hw
    · exact absurd hd0 hdne
  · intro h rest' hdne hch
    rcases hcase with ⟨hd0, -⟩ | ⟨hw, l, hcl, hst⟩ | ⟨g, rest0, hc0, hst, hw, -⟩
    · exact absurd hd0 hdne
    · rw [hch] at hcl
      simp only [List.cons.injEq] at hcl
      obtain ⟨e1, -⟩ := hcl
      subst e1
      exact ⟨fun _ => hw, fun hn => absurd hst hn⟩
    · rw [hch] at hc0
      simp only [List.cons.injEq] at hc0
      obtain ⟨e1, e2⟩ := hc0
      subst e1
      subst e2
      refine ⟨fun ho => absurd ho hst, fun _ => ⟨by rw [hw]; exact List.mem_cons_self _ _,
        ?_, ?_⟩⟩
      · intro hm
        rw [hfr.mode h] at hm
        rw [hw, if_neg (by rw [hm]; exact fun e => (by cases e))]
      · intro hm pre x post hrest
        rw [hfr.mode h] at hm
        rw [hw, if_pos hm]
        have hnd : (h :: rest').Nodup := hch ▸ hq'.nodup
        have hxh : x ≠ h := by
          intro e
          subst e
          exact (List.nodup_cons.1 hnd).1 (by rw [hrest]; simp)
        have hnd' : (pre ++ x :: post).Nodup := hrest ▸ (List.nodup_cons.1 hnd).2
        have hxpre : x ∉ pre := fun hx =>
          (List.nodup_append.1 hnd').2.2 hx (List.mem_cons_self _ _)
        have hxpost : x ∉ post :=
          (List.nodup_cons.1 (List.nodup_append.1 hnd').2.1).1
        rw [List.mem_cons, hrest, Managers.mem_sharedRun s' x post hxpost pre hxpre]
        constructor
        · rintro (e | ⟨h1, h2, h3⟩)
          · exact absurd e hxh
          · exact ⟨h1, lock_t.Mode.shared_of_ne h2,
              fun p hp hps => lock_t.Mode.shared_of_ne (h3 p hp hps)⟩
        · rintro ⟨h1, h2, h3⟩
          refine Or.inr ⟨h1, by rw [h2]; exact fun e => (by cases e), fun p hp hps => ?_⟩
          rw [h3 p hp hps]
          exact fun e => (by cases e)

/-- The release of the EXCLUSIVE lock 0 in the state with a refused request between two
sleeping readers. -/
theorem LockManager.ReleaseLock_signals_witness :
    (Managers.skipped.Inv ∧ 0 < Managers.skipped.lock_count) ∧
    ∃ s' chain d chain' woken, Managers.skipped.IsQueue (Managers.skipped.locks 0).record_id
        chain ∧
      LockManager.ReleaseLock Managers.skipped 0 = some s' ∧ chain = d ++ chain' ∧
      s'.IsQueue (Managers.skipped.locks 0).record_id chain' ∧
      (∀ l, (s'.locks l).signal_flag =
        (if l ∈ woken then true else (Managers.skipped.locks l).signal_flag)) ∧
      (d = [] → woken = []) ∧
      ∀ h rest', d ≠ [] → chain' = h :: rest' →
        ((s'.locks h).state = lock_t.State.OBSOLETE → woken = []) ∧
        ((s'.locks h).state ≠ lock_t.State.OBSOLETE →
          h ∈ woken ∧
          ((s'.locks h).mode = lock_t.Mode.EXCLUSIVE → woken = [h]) ∧
          ((s'.locks h).mode = lock_t.Mode.SHARED →
            ∀ pre x post, rest' = pre ++ x :: post →
              (x ∈ woken ↔ (s'.locks x).state ≠ lock_t.State.OBSOLETE ∧
                (s'.locks x).mode = lock_t.Mode.SHARED ∧
                ∀ p ∈ pre, (s'.locks p).state ≠ lock_t.State.OBSOLETE →
                  (s'.locks p).mode = lock_t.Mode.SHARED))) :=
  ⟨⟨Managers.skipped_inv, by decide⟩,
    LockManager.ReleaseLock_signals Managers.skipped Managers.skipped_inv 0
      (by decide)⟩

/-! ## A transaction in conflict with itself -/

/-- C30.  Under the invariant, let a thread that has its node and is not asleep call
`AcquireLock(mode, r, trx)` on a record whose list is `chain` (the tail, if any, with an id
below the maximum).  If a lock of the list is a lock of the same thread, not OBSOLETE, and
its mode or `mode` is EXCLUSIVE, the call returns `nullptr`, whatever the other locks of the
list are: `IsDeadlock` meets the lock of the caller on its way to the new lock.  `Find` (for
`mode` SHARED) and `Update` (for `mode` EXCLUSIVE) then return MUST_ABORTED.  If `mode` is
SHARED and every lock of the list that is not OBSOLETE is SHARED, as when the thread is the
only one and holds SHARED locks, the new lock is returned ACTIVE. -/
theorem LockManager.AcquireLock_self_conflict (s : Managers) (hinv : s.Inv)
    (mode : lock_t.Mode) (r t : Nat) (chain : List Nat) (tn : TrxNode)
    (hq : s.IsQueue r chain)
    (htrx : s.trx_node_table t = some tn) (hconf : tn.conflict_lock = none)
    (hid : ∀ tl, chain.getLast? = some tl → (s.locks tl).lock_id_on_record ≠ LOCK_ID_MAX) :
    (∀ p ∈ chain, (s.locks p).thread_id = t → (s.locks p).state ≠ lock_t.State.OBSOLETE →
      (mode = lock_t.Mode.EXCLUSIVE ∨ (s.locks p).mode = lock_t.Mode.EXCLUSIVE) →
      (∃ s', LockManager.AcquireLock s mode r t = some (AcquireOutcome.null, s')) ∧
      (mode = lock_t.Mode.SHARED →
        ∃ s', TrxManager.Find s t r = some (Response.MUST_ABORTED, s')) ∧
      (mode = lock_t.Mode.EXCLUSIVE →
        ∀ diff, ∃ s', TrxManager.Update s t r diff = some (Response.MUST_ABORTED, s'))) ∧
    (mode = lock_t.Mode.SHARED →
      (∀ p ∈ chain, (s.locks p).state = lock_t.State.OBSOLETE ∨
        (s.locks p).mode = lock_t.Mode.SHARED) →
      ∃ s', LockManager.AcquireLock s mode r t =
          some (AcquireOutcome.lock (LockManager.takeLock s mode r t).1, s') ∧
        (s'.locks (LockManager.takeLock s mode r t).1).state = lock_t.State.ACTIVE) := by
  have hg := hinv.granting_of hq
  have hconf' : s.conflict_lock t = none := by
    rw [Managers.conflict_lock_of_some s t tn htrx]; exact hconf
  have hget : TrxManager.GetTrxNode s t = s := TrxManager.GetTrxNode_of_some s t tn htrx
  obtain ⟨s1, id, -, hins, hres⟩ := LockManager.AcquireLock_spec s hinv mode r t chain tn hq hg
    htrx hconf hid
  generalize (LockManager.takeLock s mode r t).1 = n at hins hres ⊢
  constructor
  · intro p hp hpt hps hpc
    have hca : s.conflictAhead mode chain := ⟨p, hp, hps, hpc⟩
    have hnull : ∃ s', LockManager.AcquireLock s mode r t = some (AcquireOutcome.null, s') := by
      rcases hres with ⟨hno, -⟩ | ⟨-, b, hb, hacq⟩
      · exact absurd hca hno
      · have hinvW : (s1.decided t n lock_t.State.WAIT (some n)).Inv :=
          hins.inv hinv hq hg hconf' _ _ (Or.inr (Or.inl ⟨rfl, rfl, hca⟩))
        obtain ⟨b', hb', hiff⟩ := LockManager.IsDeadlock_spec _ hinvW t chain (by
          intro x hx
          rw [Managers.decided_lock_count]
          exact lt_of_lt_of_le (hq.members x hx).1 hins.count_le)
        rw [hb] at hb'
        simp only [Option.some.injEq, Prod.mk.injEq, and_true] at hb'
        subst hb'
        have hpn : p ≠ n := fun e => hins.fresh.not_mem hq (e ▸ hp)
        have hpst := (hins.decided_old lock_t.State.WAIT (some n) p hpn).1
        have hpth : ((s1.decided t n lock_t.State.WAIT (some n)).locks p).thread_id = t := by
          rw [(Managers.decided_fields s1 t n _ _ p).2.2.2.2.2.1, (hins.old p hpn).2.2.2.1]
          exact hpt
        have hnrec : ((s1.decided t n lock_t.State.WAIT (some n)).locks n).record_id = r :=
          ((Managers.decided_fields s1 t n _ _ n).2.2.2.2.1).trans hins.new.2.2.2.2.1
        have hwf : (s1.decided t n lock_t.State.WAIT (some n)).waitsFor t t := by
          refine ⟨n, p, ?_, ⟨chain, [], ?_, hp⟩, by rw [hpst]; exact hps, hpth⟩
          · rw [Managers.decided_conflict_lock _ _ _ _ _ _ hins.isSome_self, if_pos rfl]
          · rw [hnrec]
            exact hins.decided_queue hq _ _
        have hbt : b = true := hiff.2 ⟨p, hp, by rw [hpst]; exact hps, t,
          by rw [hpth], hwf⟩
        subst hbt
        exact ⟨_, hacq⟩
    obtain ⟨s', hs'⟩ := hnull
    refine ⟨⟨s', hs'⟩, ?_, ?_⟩
    · intro hm
      subst hm
      refine ⟨s', ?_⟩
      unfold TrxManager.Find
      rw [hget, hs']
      rfl
    · intro hm diff
      subst hm
      refine ⟨s', ?_⟩
      unfold TrxManager.Update
      rw [hget, hs']
      rfl
  · intro hm hall
    have hno : ¬ s.conflictAhead mode chain := by
      rintro ⟨p, hp, hps, hpc⟩
      rcases hall p hp with e | e
      · exact hps e
      · rcases hpc with e' | e'
        · rw [hm] at e'; cases e'
        · rw [e] at e'; cases e'
    rcases hres with ⟨-, hacq⟩ | ⟨hca, -⟩
    · exact ⟨_, hacq, (hins.decided_new _ _).1⟩
    · exact absurd hca hno

/-- The invariant holds in the state with one reader. -/
theorem Managers.oneReader_inv : Managers.oneReader.Inv :=
  LockManager.AcquireLock_inv _ ((Managers.init_inv 1 0).getTrxNode_inv 1)
    lock_t.Mode.SHARED 1 1 _ (Option.some_get (by decide)).symm

/-- The list of the record with one reader. -/
theorem Managers.oneReader_queue : Managers.oneReader.IsQueue 1 [0] := by
  refine ⟨⟨(Managers.oneReader.lock_table 1).get (by decide), by simp, by decide, by decide⟩,
    ?_, by decide, ?_, ?_, ?_, ?_⟩
  · simp
  · intro l hl
    simp only [List.getLast?_singleton, Option.some.injEq] at hl
    subst hl
    decide
  · intro l hl
    simp only [List.mem_singleton] at hl
    subst hl
    decide
  · intro l hlt _ hnot
    have h1 : l < 1 := hlt
    simp only [List.mem_singleton] at hnot
    omega
  · intro l _ _
    simp

theorem Managers.oneReader_tail (tl : Nat) (h : [0].getLast? = some tl) :
    (Managers.oneReader.locks tl).lock_id_on_record ≠ LOCK_ID_MAX := by
  simp only [List.getLast?_singleton, Option.some.injEq] at h
  subst h
  decide

/-- The only thread holds a SHARED lock on record 1 and asks for an EXCLUSIVE one. -/
theorem LockManager.AcquireLock_self_conflict_witness :
    (Managers.oneReader.Inv ∧ Managers.oneReader.IsQueue 1 [0] ∧
      Managers.oneReader.trx_node_table 1 = some ⟨[0], none, 1⟩ ∧
      (⟨[0], none, 1⟩ : TrxNode).conflict_lock = none ∧
      (∀ tl, [0].getLast? = some tl →
        (Managers.oneReader.locks tl).lock_id_on_record ≠ LOCK_ID_MAX) ∧
      0 ∈ [0] ∧ (Managers.oneReader.locks 0).thread_id = 1 ∧
      (Managers.oneReader.locks 0).state ≠ lock_t.State.OBSOLETE ∧
      (lock_t.Mode.EXCLUSIVE = lock_t.Mode.EXCLUSIVE ∨
        (Managers.oneReader.locks 0).mode = lock_t.Mode.EXCLUSIVE)) ∧
    ((∃ s', LockManager.AcquireLock Managers.oneReader lock_t.Mode.EXCLUSIVE 1 1 =
        some (AcquireOutcome.null, s')) ∧
      (lock_t.Mode.EXCLUSIVE = lock_t.Mode.SHARED →
        ∃ s', TrxManager.Find Managers.oneReader 1 1 = some (Response.MUST_ABORTED, s')) ∧
      (lock_t.Mode.EXCLUSIVE = lock_t.Mode.EXCLUSIVE →
        ∀ diff, ∃ s', TrxManager.Update Managers.oneReader 1 1 diff =
          some (Response.MUST_ABORTED, s'))) :=
  ⟨⟨Managers.oneReader_inv, Managers.oneReader_queue, by decide, rfl,
      Managers.oneReader_tail, by decide, by decide, by decide, Or.inl rfl⟩,
    (LockManager.AcquireLock_self_conflict Managers.oneReader
      Managers.oneReader_inv lock_t.Mode.EXCLUSIVE 1 1 [0] ⟨[0], none, 1⟩
      Managers.oneReader_queue (by decide) rfl Managers.oneReader_tail).1 0 (by decide)
      (by decide) (by decide) (Or.inl rfl)⟩

/-- The requests of the only thread behind its own SHARED lock, evaluated: an `Update`
returns MUST_ABORTED, a second `Find` returns SUCCESS with the value 100. -/
theorem LockManager.AcquireLock_self_example :
    (TrxManager.Update Managers.oneReader 1 1 5).map (fun x => x.1) =
      some Response.MUST_ABORTED ∧
    (TrxManager.Find Managers.oneReader 1 1).map (fun x => x.1) =
      some (Response.SUCCESS 100) := by
  decide

/-! ## The ids of the locks of a record -/

theorem Managers.Inserts.is_reachable {r : Nat} {s : Managers} {k : Nat}
    (h : s.Inserts r k) : s.Reachable := by
  induction h with
  | init record_count last_commit_id => exact Managers.Reachable.init _ _
  | acquire_here s k mode t x _ hacq ih => exact Managers.Reachable.acquire s mode r t x ih hacq
  | acquire_other s k mode r' t x _ _ hacq ih =>
    exact Managers.Reachable.acquire s mode r' t x ih hacq
  | wake s k t l _ hc ih => exact Managers.Reachable.wake s t l ih hc
  | release s k l s' _ hl hc hrel ih => exact Managers.Reachable.release s l s' ih hl hc hrel

/-- Along a list the ids grow. -/
theorem Managers.linked_pairwise (s : Managers) :
    ∀ l : List Nat, List.Chain' s.linked l →
      l.Pairwise (fun a b => (s.locks a).lock_id_on_record < (s.locks b).lock_id_on_record) := by
  intro l
  induction l with
  | nil => intro _; exact List.Pairwise.nil
  | cons a l ih =>
    intro h
    exact List.Pairwise.cons (Managers.linked_id_lt s l a h) (ih h.tail)

theorem List.mem_of_getLast?_some {α : Type} {l : List α} {a : α}
    (h : l.getLast? = some a) : a ∈ l := by
  obtain ⟨ys, rfl⟩ := List.getLast?_eq_some_iff.1 h
  simp

theorem TrxManager.GetTrxNode_next_id (s : Managers) (t r : Nat) :
    (TrxManager.GetTrxNode s t).next_id r = s.next_id r := by
  unfold Managers.next_id
  rw [TrxManager.GetTrxNode_lock_table, TrxManager.GetTrxNode_locks]

theorem Managers.next_id_congr {s s' : Managers} (r : Nat)
    (htab : (s'.lock_table r).bind (fun node => node.tail) =
      (s.lock_table r).bind (fun node => node.tail))
    (hid : ∀ tl, (s.lock_table r).bind (fun node => node.tail) = some tl →
      (s'.locks tl).lock_id_on_record = (s.locks tl).lock_id_on_record) :
    s'.next_id r = s.next_id r := by
  unfold Managers.next_id
  rw [htab]
  cases h : (s.lock_table r).bind (fun node => node.tail) with
  | none => rfl
  | some tl => simp only; rw [hid tl h]

/-! ## The lists of the records, whatever the grants -/

theorem Managers.Inv.to_shape {s : Managers} (hinv : s.Inv) : s.Shape :=
  ⟨fun r hr => (hinv.queues r hr).imp (fun _ h => h.1), hinv.records, hinv.pools⟩

/-- The shape depends on the locks, the lock table, the allocation and the pools only. -/
theorem Managers.Shape.of_store {s s' : Managers} (hs : s.Shape) (hlocks : s'.locks = s.locks)
    (htable : s'.lock_table = s.lock_table) (hcount : s'.lock_count = s.lock_count)
    (hpools : s'.pools = s.pools) : s'.Shape := by
  refine ⟨?_, ?_, ?_⟩
  · intro r hr
    rw [htable] at hr
    obtain ⟨chain, hq⟩ := hs.queues r hr
    exact ⟨chain, hq.of_eq hlocks htable hcount⟩
  · intro l hl
    rw [hcount] at hl
    rw [htable, hlocks]
    exact hs.records l hl
  · intro t r p hp
    rw [hpools] at hp
    rw [hcount, hlocks]
    exact hs.pools t r p hp

theorem Managers.init_shape (record_count : Nat) (last_commit_id : Int) :
    (Managers.init record_count last_commit_id).Shape :=
  (Managers.init_inv record_count last_commit_id).to_shape

theorem Managers.Shape.getTrxNode_shape {s : Managers} (hs : s.Shape) (t : Nat) :
    (TrxManager.GetTrxNode s t).Shape :=
  hs.of_store (by simp) (by simp) (by simp) (by simp)

theorem lock_t.withState_state (x : lock_t) : lock_t.withState x.state x = x := by
  cases x
  rfl

theorem LockManager.deadlockVisit_store (s : Managers) (this_thread target : Nat)
    (queue pass : List Nat) (r : Option (List Nat × List Nat) × Managers)
    (h : LockManager.deadlockVisit s this_thread target queue pass = some r) :
    r.2.locks = s.locks ∧ r.2.lock_table = s.lock_table ∧ r.2.lock_count = s.lock_count ∧
      r.2.pools = s.pools := by
  unfold LockManager.deadlockVisit at h
  split at h
  · simp only [Option.some.injEq] at h
    subst h
    simp
  · obtain ⟨head, -, h⟩ := Option.bind_eq_some.1 h
    obtain ⟨w, -, h⟩ := Option.map_eq_some'.1 h
    subst h
    cases w <;> simp

theorem LockManager.deadlockSearch_store (this_thread : Nat) :
    ∀ (fuel : Nat) (queue pass : List Nat) (s : Managers) (r : Bool × Managers),
      LockManager.deadlockSearch this_thread fuel queue pass s = some r →
      r.2.locks = s.locks ∧ r.2.lock_table = s.lock_table ∧ r.2.lock_count = s.lock_count ∧
        r.2.pools = s.pools := by
  intro fuel
  induction fuel with
  | zero => intro queue pass s r h; simp [LockManager.deadlockSearch] at h
  | succ fuel ih =>
    intro queue pass s r h
    unfold LockManager.deadlockSearch at h
    split at h
    · simp only [Option.some.injEq] at h
      subst h
      exact ⟨rfl, rfl, rfl, rfl⟩
    · obtain ⟨v, hv, h⟩ := Option.bind_eq_some.1 h
      obtain ⟨v1, v2, v3, v4⟩ := LockManager.deadlockVisit_store _ _ _ _ _ _ hv
      split at h
      · simp only [Option.some.injEq] at h
        subst h
        exact ⟨v1, v2, v3, v4⟩
      · obtain ⟨g1, g2, g3, g4⟩ := ih _ _ _ _ h
        exact ⟨g1.trans v1, g2.trans v2, g3.trans v3, g4.trans v4⟩

/-- The deadlock check leaves the locks, the lock table, the allocation and the pools as
they are, whatever it returns. -/
theorem LockManager.IsDeadlock_store (s : Managers) (this_thread : Nat) (W : List Nat)
    (r : Bool × Managers) (h : LockManager.IsDeadlock s this_thread W = some r) :
    r.2.locks = s.locks ∧ r.2.lock_table = s.lock_table ∧ r.2.lock_count = s.lock_count ∧
      r.2.pools = s.pools :=
  LockManager.deadlockSearch_store this_thread _ _ _ _ _ h

/-- The compatibility check changes the state of the new lock and nothing else of the locks,
the lock table, the allocation and the pools. -/
theorem LockManager.checkCompatible_store (W : List Nat) (t n : Nat) :
    ∀ (todo : List Nat) (s : Managers) (r : Bool × Managers),
      LockManager.checkCompatible W t n todo s = some r →
      (∃ st, r.2.locks = Function.update s.locks n (lock_t.withState st (s.locks n))) ∧
      r.2.lock_table = s.lock_table ∧ r.2.lock_count = s.lock_count ∧
        r.2.pools = s.pools := by
  intro todo
  induction todo with
  | nil =>
    intro s r h
    simp only [LockManager.checkCompatible, Option.some.injEq] at h
    subst h
    exact ⟨⟨(s.locks n).state, by rw [lock_t.withState_state, Function.update_eq_self]⟩,
      rfl, rfl, rfl⟩
  | cons target todo ih =>
    intro s r h
    unfold LockManager.checkCompatible at h
    split at h
    · exact ih _ _ h
    · split at h
      · split at h
        · obtain ⟨⟨st, h1⟩, h2, h3, h4⟩ := ih _ _ h
          refine ⟨⟨st, ?_⟩, by rw [h2]; simp, by rw [h3]; simp, by rw [h4]; simp⟩
          rw [h1]
          simp only [Managers.setLock_locks, Function.update_same, Function.update_idem]
          rfl
        · obtain ⟨d, hd, h⟩ := Option.bind_eq_some.1 h
          obtain ⟨d1, d2, d3, d4⟩ := LockManager.IsDeadlock_store _ _ _ _ hd
          split at h
          · simp only [Option.some.injEq] at h
            subst h
            refine ⟨⟨lock_t.State.OBSOLETE, ?_⟩, by simp [d2], by simp [d3], by simp [d4]⟩
            simp only [Managers.setConflict_locks, Managers.setLock_locks, d1,
              Function.update_same, Function.update_idem]
            rfl
          · simp only [Option.some.injEq] at h
            subst h
            refine ⟨⟨lock_t.State.WAIT, ?_⟩, by simp [d2], by simp [d3], by simp [d4]⟩
            simp only [d1, Managers.setLock_locks]
      · exact ih _ _ h

theorem LockManager.finishAcquire_store (s : Managers) (t n : Nat) :
    (∃ st, (LockManager.finishAcquire s t n).locks =
      Function.update s.locks n (lock_t.withState st (s.locks n))) ∧
    (LockManager.finishAcquire s t n).lock_table = s.lock_table ∧
    (LockManager.finishAcquire s t n).lock_count = s.lock_count ∧
    (LockManager.finishAcquire s t n).pools = s.pools := by
  unfold LockManager.finishAcquire
  split
  · exact ⟨⟨lock_t.State.ACTIVE, by simp⟩, by simp, by simp, by simp⟩
  · exact ⟨⟨(s.locks n).state, by
      simp only [Managers.setConflict_locks]
      rw [lock_t.withState_state, Function.update_eq_self]⟩, by simp, by simp, by simp⟩

/-- A call of `AcquireLock` that comes to an outcome has linked its lock, and what follows
the linking has changed the state of this lock and nothing else of the locks, the lock table,
the allocation and the pools. -/
theorem LockManager.AcquireLock_store (s : Managers) (mode : lock_t.Mode) (r t : Nat)
    (x : AcquireOutcome × Managers) (h : LockManager.AcquireLock s mode r t = some x) :
    ∃ s1, LockManager.linkLock (LockManager.takeLock s mode r t).2 r t
        (LockManager.takeLock s mode r t).1 = some s1 ∧
      (∃ st, x.2.locks = Function.update s1.locks (LockManager.takeLock s mode r t).1
        (lock_t.withState st (s1.locks (LockManager.takeLock s mode r t).1))) ∧
      x.2.lock_table = s1.lock_table ∧ x.2.lock_count = s1.lock_count ∧
      x.2.pools = s1.pools := by
  unfold LockManager.AcquireLock at h
  obtain ⟨s1, h1, h⟩ := Option.bind_eq_some.1 h
  obtain ⟨head, -, h⟩ := Option.bind_eq_some.1 h
  obtain ⟨W, -, h⟩ := Option.bind_eq_some.1 h
  obtain ⟨c, hc, h⟩ := Option.bind_eq_some.1 h
  obtain ⟨⟨st, c1⟩, c2, c3, c4⟩ := LockManager.checkCompatible_store _ _ _ _ _ _ hc
  refine ⟨s1, h1, ?_⟩
  split at h
  · simp only [Option.some.injEq] at h
    subst h
    exact ⟨⟨st, c1⟩, c2, c3, c4⟩
  · split at h
    · simp only [Option.some.injEq] at h
      subst h
      exact ⟨⟨st, c1⟩, c2, c3, c4⟩
    · simp only [Option.some.injEq] at h
      subst h
      obtain ⟨⟨st', f1⟩, f2, f3, f4⟩ := LockManager.finishAcquire_store c.2 t
        (LockManager.takeLock s mode r t).1
      refine ⟨⟨st', ?_⟩, f2.trans c2, f3.trans c3, f4.trans c4⟩
      rw [f1, c1]
      simp only [Function.update_same, Function.update_idem]
      rfl

set_option maxHeartbeats 400000 in
/-- A call of `AcquireLock` on a well-formed list that comes to an outcome was made by a
thread that has its node and no conflict lock, and the tail of the list has an id below the
maximum. -/
theorem LockManager.AcquireLock_called (s : Managers) (mode : lock_t.Mode)
    (r t : Nat) (chain : List Nat) (hq : s.IsQueue r chain) (x : AcquireOutcome × Managers)
    (h : LockManager.AcquireLock s mode r t = some x) :
    ∃ tn, s.trx_node_table t = some tn ∧ tn.conflict_lock = none ∧
      ∀ tl, chain.getLast? = some tl → (s.locks tl).lock_id_on_record ≠ LOCK_ID_MAX := by
  unfold LockManager.AcquireLock at h
  obtain ⟨s1, hlink, -⟩ := Option.bind_eq_some.1 h
  obtain ⟨hfresh, htab, htrx, hlocks⟩ := LockManager.takeLock_props s mode r t
  generalize (LockManager.takeLock s mode r t).1 = n at hlink hfresh hlocks
  generalize (LockManager.takeLock s mode r t).2 = sa at hlink htab htrx hlocks
  unfold LockManager.linkLock at hlink
  rw [htab, htrx] at hlink
  obtain ⟨node, hnode, hlink⟩ := Option.bind_eq_some.1 hlink
  obtain ⟨tn, htn, hlink⟩ := Option.bind_eq_some.1 hlink
  obtain ⟨s4, hs4, hlink⟩ := Option.bind_eq_some.1 hlink
  obtain ⟨node', hnode', hhead, htail⟩ := hq.ends
  rw [hnode] at hnode'
  cases hnode'
  refine ⟨tn, htn, ?_, ?_⟩
  · -- the assert on the conflict lock
    split at hlink
    · rename_i hc
      have htab4 : s4.trx_node_table t =
          some { tn with trx_lock_deque := tn.trx_lock_deque ++ [n] } := by
        cases htl : node.tail with
        | none =>
          rw [htl] at hs4
          simp only [Option.some.injEq] at hs4
          subst hs4
          simp
        | some tl =>
          rw [htl] at hs4
          simp only at hs4
          split at hs4
          · cases hs4
          · split at hs4
            · cases hs4
            · simp only [Option.some.injEq] at hs4
              subst hs4
              simp
      rw [Managers.conflict_lock_of_some s4 t _ htab4] at hc
      exact hc
    · cases hlink
  · intro tl htl
    rw [← htail] at htl
    rw [htl] at hs4
    simp only at hs4
    split at hs4
    · cases hs4
    · rename_i hno
      rw [not_or] at hno
      intro hmax
      apply hno.1
      have htlmem : tl ∈ chain := by
        rw [htail] at htl
        obtain ⟨ys, hys⟩ := List.getLast?_eq_some_iff.1 htl
        rw [hys]; simp
      have htln : tl ≠ n := fun e => hfresh.not_mem hq (e ▸ htlmem)
      simp only [Managers.setLock_locks, Managers.setNode_locks, Managers.setTrx_locks,
        Function.update_same]
      rw [hlocks tl htln]
      exact hmax

/-- A call of `AcquireLock` that comes to an outcome was made for an existing record. -/
theorem LockManager.AcquireLock_record (s : Managers) (mode : lock_t.Mode) (r t : Nat)
    (x : AcquireOutcome × Managers) (h : LockManager.AcquireLock s mode r t = some x) :
    (s.lock_table r).isSome = true := by
  unfold LockManager.AcquireLock at h
  obtain ⟨s1, hlink, -⟩ := Option.bind_eq_some.1 h
  obtain ⟨-, htab, -, -⟩ := LockManager.takeLock_props s mode r t
  unfold LockManager.linkLock at hlink
  rw [htab] at hlink
  obtain ⟨node, hnode, -⟩ := Option.bind_eq_some.1 hlink
  rw [hnode]
  rfl

/-- In a state with the lists of its records, whatever the grants, a call of `AcquireLock`
that comes to an outcome has put its lock at the end of the list of the record; what it then
decided shows in the state of this lock only. -/
theorem LockManager.AcquireLock_shape (s : Managers) (hs : s.Shape) (mode : lock_t.Mode)
    (r t : Nat) (x : AcquireOutcome × Managers)
    (h : LockManager.AcquireLock s mode r t = some x) :
    ∃ chain s1 id st, s.IsQueue r chain ∧
      s.Inserted s1 mode r t (LockManager.takeLock s mode r t).1 id chain ∧
      x.2.locks = (s1.decided t (LockManager.takeLock s mode r t).1 st none).locks ∧
      x.2.lock_table = s1.lock_table ∧ x.2.lock_count = s1.lock_count ∧
      x.2.pools = s1.pools := by
  obtain ⟨chain, hq⟩ := hs.queues r (LockManager.AcquireLock_record s mode r t x h)
  obtain ⟨tn, htn, hconf, hid⟩ := LockManager.AcquireLock_called s mode r t chain hq x h
  obtain ⟨s1, id, hlink, hins⟩ := LockManager.insert_spec s mode r t chain tn hs.pools hq
    htn hconf hid
  obtain ⟨s1', hlink', ⟨st, h1⟩, h2, h3, h4⟩ := LockManager.AcquireLock_store s mode r t x h
  rw [hlink] at hlink'
  cases hlink'
  refine ⟨chain, s1, id, st, hq, hins, ?_, h2, h3, h4⟩
  rw [h1]
  funext l
  rw [Managers.decided_locks, Function.update_apply]

set_option maxHeartbeats 400000 in
/-- `AcquireLock` keeps the lists of the records, whatever its outcome and whatever the
grants. -/
theorem Managers.Shape.acquire_shape {s : Managers} (hs : s.Shape) (mode : lock_t.Mode)
    (r t : Nat) (x : AcquireOutcome × Managers)
    (h : LockManager.AcquireLock s mode r t = some x) : x.2.Shape := by
  obtain ⟨chain, s1, id, st, hq, hins, h1, h2, h3, h4⟩ :=
    LockManager.AcquireLock_shape s hs mode r t x h
  generalize (LockManager.takeLock s mode r t).1 = n at hins h1
  have hnew := hins.new
  have hids : ∀ l, l < s.lock_count →
      ((s1.decided t n st none).locks l).thread_id = (s.locks l).thread_id ∧
      ((s1.decided t n st none).locks l).record_id = (s.locks l).record_id := by
    intro l hl
    have hf := Managers.decided_fields s1 t n st none l
    rw [hf.2.2.2.2.1, hf.2.2.2.2.2.1]
    exact ⟨(hins.ids l hl).1, (hins.ids l hl).2⟩
  have hidn : ((s1.decided t n st none).locks n).thread_id = t ∧
      ((s1.decided t n st none).locks n).record_id = r := by
    have hf := Managers.decided_fields s1 t n st none n
    rw [hf.2.2.2.2.1, hf.2.2.2.2.2.1]
    exact ⟨hnew.2.2.2.1, hnew.2.2.2.2.1⟩
  have key : (s1.decided t n st none).Shape := by
    refine ⟨?_, ?_, ?_⟩
    · intro r' hr'
      rw [Managers.decided_lock_table, hins.table_isSome] at hr'
      by_cases hrr : r' = r
      · subst hrr
        exact ⟨chain ++ [n], hins.decided_queue hq st none⟩
      · obtain ⟨chain', hq'⟩ := hs.queues r' hr'
        refine ⟨chain', (hins.other_queue hq hrr hq').1.congr_locks (by simp) (by simp) ?_ ?_⟩
        · intro l
          have hf := Managers.decided_fields s1 t n st none l
          exact ⟨hf.1, hf.2.1, hf.2.2.1, hf.2.2.2.1, hf.2.2.2.2.1⟩
        · intro l hl hst
          by_cases hln : l = n
          · subst hln
            rw [hnew.1] at hst
            cases hst
          · rw [Managers.decided_locks_ne _ _ _ _ _ _ hln]; exact hst
    · intro l hl
      rw [Managers.decided_lock_count] at hl
      rw [Managers.decided_lock_table, hins.table_isSome]
      rcases hins.count_new l hl with h1 | h1
      · rw [(hids l h1).2]; exact hs.records l h1
      · subst h1
        rw [hidn.2]
        obtain ⟨node, hnode, -⟩ := hins.node
        rw [hnode]; rfl
    · intro t' r' p hp
      rw [Managers.decided_pools] at hp
      rw [Managers.decided_lock_count]
      rcases hins.pools t' r' p hp with h1 | ⟨h1, h2, h3⟩
      · obtain ⟨g1, g2, g3⟩ := hs.pools t' r' p h1
        exact ⟨lt_of_lt_of_le g1 hins.count_le, by rw [(hids p g1).1]; exact g2,
          by rw [(hids p g1).2]; exact g3⟩
      · subst h1; subst h2; subst h3
        exact ⟨hins.count_lt, hidn.1, hidn.2⟩
  exact key.of_store h1 (by rw [h2]; simp) (by rw [h3]; simp) (by rw [h4]; simp)

/-- The shape is kept when the locks keep all but their state, mode, diff and signal, no
lock leaves the state OBSOLETE, and the lock table, the allocation and the pools stay. -/
theorem Managers.Shape.of_states {s s' : Managers} (hs : s.Shape)
    (hlocks : ∀ l, (s'.locks l).next = (s.locks l).next ∧
      (s'.locks l).lock_id_on_record = (s.locks l).lock_id_on_record ∧
      (s'.locks l).id_pass_flag = (s.locks l).id_pass_flag ∧
      (s'.locks l).head_pass_flag = (s.locks l).head_pass_flag ∧
      (s'.locks l).record_id = (s.locks l).record_id ∧
      (s'.locks l).thread_id = (s.locks l).thread_id)
    (hstate : ∀ l, (s.locks l).state = lock_t.State.OBSOLETE →
      (s'.locks l).state = lock_t.State.OBSOLETE)
    (htable : s'.lock_table = s.lock_table) (hcount : s'.lock_count = s.lock_count)
    (hpools : s'.pools = s.pools) : s'.Shape := by
  refine ⟨?_, ?_, ?_⟩
  · intro r hr
    rw [htable] at hr
    obtain ⟨chain, hq⟩ := hs.queues r hr
    refine ⟨chain, hq.congr_locks (by rw [htable]) hcount ?_ (fun l _ h => hstate l h)⟩
    intro l
    obtain ⟨h1, h2, h3, h4, h5, -⟩ := hlocks l
    exact ⟨h1, h2, h3, h4, h5⟩
  · intro l hl
    rw [hcount] at hl
    rw [htable, (hlocks l).2.2.2.2.1]
    exact hs.records l hl
  · intro t r p hp
    rw [hpools] at hp
    rw [hcount, (hlocks p).2.2.2.2.1, (hlocks p).2.2.2.2.2]
    exact hs.pools t r p hp

/-- A thread that returns from `cond.wait`, with its signal or without, keeps the lists of
the records. -/
theorem Managers.Shape.wake_shape {s : Managers} (hs : s.Shape) (t l : Nat) :
    (LockManager.AcquireWake s t l).Shape := by
  unfold LockManager.AcquireWake LockManager.finishAcquire
  split
  · rename_i hst
    refine hs.of_states ?_ ?_ (by simp) (by simp) (by simp)
    · intro k
      simp only [Managers.setConflict_locks, Managers.setLock_locks, Function.update_apply]
      split
      · rename_i e; subst e; exact ⟨rfl, rfl, rfl, rfl, rfl, rfl⟩
      · exact ⟨rfl, rfl, rfl, rfl, rfl, rfl⟩
    · intro k hk
      simp only [Managers.setConflict_locks, Managers.setLock_locks, Function.update_apply]
      split
      · rename_i e
        subst e
        rw [hst] at hk
        cases hk
      · exact hk
  · exact hs.of_store (by simp) (by simp) (by simp) (by simp)

set_option maxHeartbeats 800000 in
/-- `ReleaseLock` of an allocated lock keeps the lists of the records, whatever the
grants. -/
theorem Managers.Shape.release_shape {s : Managers} (hs : s.Shape) (rl : Nat)
    (hrl : rl < s.lock_count) (s' : Managers)
    (h : LockManager.ReleaseLock s rl = some s') : s'.Shape := by
  obtain ⟨chain, hq⟩ := hs.queues _ (hs.records rl hrl)
  have hne : chain ≠ [] := hq.nonempty rl hrl rfl
  obtain ⟨s'', d, chain', woken, hrel, hsplit, hne', hfr, hq', hother, hd, hl, hcases⟩ :=
    LockManager.ReleaseLock_spec s rl chain hq hne
  rw [h] at hrel
  cases hrel
  have hdsub : ∀ x ∈ d, x ∈ chain := by
    intro x hx; rw [hsplit]; exact List.mem_append_left _ hx
  have hsome : ∀ r', (s'.lock_table r').isSome = (s.lock_table r').isSome := by
    intro r'
    have := congrArg Option.isSome (hfr.tail r')
    simpa using this
  refine ⟨?_, ?_, ?_⟩
  · intro r' hr'
    rw [hsome] at hr'
    by_cases hrr : r' = (s.locks rl).record_id
    · subst hrr
      exact ⟨chain', hq'⟩
    · obtain ⟨c', hqc⟩ := hs.queues r' hr'
      refine ⟨c', hqc.of_frame hfr (hother r' hrr) ?_ ?_⟩
      · intro l hlm
        have hrec := (hqc.members l hlm).2.1
        have hnd : l ∉ d := by
          intro hx
          exact hrr (hrec.symm.trans (hq.members l (hdsub l hx)).2.1)
        rw [(hl l).2.1, if_neg hnd]
      · intro l _ hst
        rw [(hl l).1]
        split
        · rfl
        · exact hst
  · intro l hlt
    rw [hfr.lock_count] at hlt
    rw [hsome, hfr.record_id]
    exact hs.records l hlt
  · intro t r' p hp
    rw [hfr.pools] at hp
    rw [hfr.lock_count, hfr.thread_id, hfr.record_id]
    exact hs.pools t r' p hp

set_option maxHeartbeats 800000 in
/-- What `AcquireLock` does to the ids, whatever the grants: the new lock gets the next id
of its record, which then grows by one; the next ids of the other records stay.  An empty
list gets its head; else the old tail has passed its id to the new lock. -/
theorem LockManager.AcquireLock_ids (s : Managers) (hs : s.Shape) (mode : lock_t.Mode)
    (r t : Nat) (x : AcquireOutcome × Managers)
    (h : LockManager.AcquireLock s mode r t = some x) :
    (x.2.locks (LockManager.takeLock s mode r t).1).lock_id_on_record = s.next_id r ∧
    x.2.next_id r = s.next_id r + 1 ∧
    (∀ r', r' ≠ r → x.2.next_id r' = s.next_id r') ∧
    (s.next_id r = 0 → (s.lock_table r).bind (fun node => node.tail) = none ∧
      (x.2.lock_table r).bind (fun node => node.head) =
        some (LockManager.takeLock s mode r t).1) ∧
    (∀ prev, (s.lock_table r).bind (fun node => node.tail) = some prev →
      (s.locks prev).lock_id_on_record + 1 = s.next_id r ∧
      (x.2.locks prev).lock_id_on_record = (s.locks prev).lock_id_on_record ∧
      (x.2.locks prev).id_pass_flag = true ∧
      (x.2.locks prev).next = some (LockManager.takeLock s mode r t).1) ∧
    ∃ chain, x.2.IsQueue r (chain ++ [(LockManager.takeLock s mode r t).1]) ∧
      (chain ++ [(LockManager.takeLock s mode r t).1]).Pairwise
        (fun a b => (x.2.locks a).lock_id_on_record < (x.2.locks b).lock_id_on_record) := by
  obtain ⟨chain, s1, id, st, hq, hins, e1, e2, e3, e4⟩ :=
    LockManager.AcquireLock_shape s hs mode r t x h
  generalize (LockManager.takeLock s mode r t).1 = n at hins e1 ⊢
  have e2' : x.2.lock_table = (s1.decided t n st none).lock_table := by
    rw [e2, Managers.decided_lock_table]
  have e3' : x.2.lock_count = (s1.decided t n st none).lock_count := by
    rw [e3, Managers.decided_lock_count]
  have hnext_eq : ∀ r', x.2.next_id r' = (s1.decided t n st none).next_id r' := by
    intro r'
    unfold Managers.next_id
    rw [e1, e2']
  rw [e1, e2, hnext_eq]
  obtain ⟨node, hnode, hnode1⟩ := hins.node
  obtain ⟨node0, hnode0, -, htail0⟩ := hq.ends
  rw [hnode] at hnode0
  cases hnode0
  have hnid : ((s1.decided t n st none).locks n).lock_id_on_record = id :=
    ((Managers.decided_fields s1 t n st none n).2.1).trans hins.new.2.2.2.2.2.2.1
  have hstail : (s.lock_table r).bind (fun node => node.tail) = chain.getLast? := by
    rw [hnode]; exact htail0
  have hnext : s.next_id r = id := by
    unfold Managers.next_id
    rw [hstail]
    cases hl : chain.getLast? with
    | none =>
      have : chain = [] := List.getLast?_eq_none_iff.1 hl
      exact (hins.id_first this).symm
    | some tl => exact (hins.id_next tl hl).symm
  have hq1 := hins.decided_queue hq st none
  refine ⟨hnid.trans hnext.symm, ?_, ?_, ?_, ?_, chain, hq1.of_eq e1 e2' e3', ?_⟩
  · unfold Managers.next_id
    rw [Managers.decided_lock_table, hnode1]
    simp only [Option.some_bind]
    rw [hnid]
    unfold Managers.next_id at hnext
    rw [hnext]
  · intro r' hr'
    rw [hnext_eq]
    apply Managers.next_id_congr
    · rw [Managers.decided_lock_table, hins.other_nodes r' hr']
    · intro tl htl
      cases hn' : s.lock_table r' with
      | none => rw [hn'] at htl; cases htl
      | some node' =>
        obtain ⟨chain', hq'⟩ := hs.queues r' (by rw [hn']; rfl)
        obtain ⟨node'', hnode'', -, htail''⟩ := hq'.ends
        rw [hn'] at hnode''
        cases hnode''
        rw [hn'] at htl
        simp only [Option.some_bind] at htl
        rw [htail''] at htl
        have hmem : tl ∈ chain' := List.mem_of_getLast?_some htl
        have hne : tl ≠ n := fun e => hins.fresh.not_mem hq' (e ▸ hmem)
        rw [(Managers.decided_fields s1 t n st none tl).2.1]
        exact (hins.old tl hne).2.2.2.2.2.2.1
  · intro h0
    rw [hnext] at h0
    have hnil : chain = [] := by
      cases hl : chain.getLast? with
      | none => exact List.getLast?_eq_none_iff.1 hl
      | some tl =>
        have := hins.id_next tl hl
        omega
    refine ⟨by rw [hstail, hnil]; rfl, ?_⟩
    rw [hnode1]
    simp only [Option.some_bind]
    rw [if_pos hnil]
  · intro prev hprev
    rw [hstail] at hprev
    have hpn : prev ≠ n := fun e => hins.fresh.not_mem hq (e ▸ List.mem_of_getLast?_some hprev)
    have hpt := hins.prev_tail prev hprev
    have hf := Managers.decided_fields s1 t n st none prev
    refine ⟨?_, ?_, ?_, ?_⟩
    · rw [hnext]; exact (hins.id_next prev hprev).symm
    · rw [hf.2.1, hpt]; rfl
    · rw [hf.2.2.1, hpt]; rfl
    · rw [hf.1, hpt]; rfl
  · exact Managers.linked_pairwise _ _ hq1.links

/-- Every reachable state has the lists of its records, whatever the grants. -/
theorem Managers.Reachable.shape {s : Managers} (h : s.Reachable) : s.Shape := by
  induction h with
  | init record_count last_commit_id => exact Managers.init_shape _ _
  | acquire s mode r t x _ hacq ih => exact (ih.getTrxNode_shape t).acquire_shape mode r t x hacq
  | wake s t l _ _ ih => exact ih.wake_shape t l
  | release s l s' _ hl _ hrel ih => exact ih.release_shape l hl s' hrel

/-- A return from `cond.wait` keeps the next id of every record. -/
theorem LockManager.AcquireWake_next_id (s : Managers) (t l r : Nat) :
    (LockManager.AcquireWake s t l).next_id r = s.next_id r := by
  obtain ⟨⟨st, f1⟩, f2, -, -⟩ := LockManager.finishAcquire_store s t l
  apply Managers.next_id_congr
  · unfold LockManager.AcquireWake
    rw [f2]
  · intro tl _
    unfold LockManager.AcquireWake
    rw [f1, Function.update_apply]
    split
    · rename_i e; subst e; rfl
    · rfl

/-- The next id of a record is the number of the locks inserted into its list. -/
theorem Managers.Inserts.next_id_eq {r : Nat} {s : Managers} {k : Nat}
    (h : s.Inserts r k) : s.next_id r = k := by
  induction h with
  | init record_count last_commit_id =>
    have hnone : ((Managers.init record_count last_commit_id).lock_table r).bind
        (fun node => node.tail) = none := by
      simp only [Managers.init]
      split
      · rfl
      · rfl
    unfold Managers.next_id
    rw [hnone]
  | acquire_here s k mode t x hs hacq ih =>
    have hinv := hs.is_reachable.shape.getTrxNode_shape t
    have := (LockManager.AcquireLock_ids _ hinv mode r t x hacq).2.1
    rw [this, ← ih, TrxManager.GetTrxNode_next_id]
  | acquire_other s k mode r' t x hs hne hacq ih =>
    have hinv := hs.is_reachable.shape.getTrxNode_shape t
    have := (LockManager.AcquireLock_ids _ hinv mode r' t x hacq).2.2.1 r hne.symm
    rw [this, ← ih, TrxManager.GetTrxNode_next_id]
  | wake s k t l hs hc ih =>
    rw [← ih, LockManager.AcquireWake_next_id]
  | release s k l s' hs hl hc hrel ih =>
    rw [← ih]
    have hfr := LockManager.ReleaseLock_frame s s' l hrel
    apply Managers.next_id_congr
    · have := hfr.tail r
      cases h1 : s'.lock_table r with
      | none =>
        rw [h1] at this
        cases h2 : s.lock_table r with
        | none => rfl
        | some n2 => rw [h2] at this; cases this
      | some n1 =>
        rw [h1] at this
        cases h2 : s.lock_table r with
        | none => rw [h2] at this; cases this
        | some n2 =>
          rw [h2] at this
          simp only [Option.map_some', Option.some.injEq] at this
          simp only [Option.some_bind]
          exact this
    · intro tl _
      exact hfr.lock_id tl

/-- C26.  Let the state be reachable with `k` locks inserted so far into the list of the
record `r`, and let a call of `AcquireLock` on `r` insert its lock `n` (freshly allocated or
recycled; whatever the call then returns).  Then `n` gets the id `k`.  For `k = 0` the record
had no tail, and `n` becomes its head.  Else the record had a tail `prev` with the id
`k - 1`, which keeps its id, has its `id_pass_flag` set and `n` as its `next`.  Afterwards
`n` is the last lock of the list, and the ids strictly increase along the list from the
head to the tail. -/
theorem LockManager.AcquireLock_lock_id (r : Nat) (s : Managers) (k : Nat)
    (hk : s.Inserts r k) (mode : lock_t.Mode) (t : Nat) (x : AcquireOutcome × Managers)
    (hacq : LockManager.AcquireLock (TrxManager.GetTrxNode s t) mode r t = some x) :
    (x.2.locks (LockManager.takeLock (TrxManager.GetTrxNode s t) mode r t).1).lock_id_on_record
      = k ∧
    x.2.Inserts r (k + 1) ∧
    (k = 0 → (s.lock_table r).bind (fun node => node.tail) = none ∧
      (x.2.lock_table r).bind (fun node => node.head) =
        some (LockManager.takeLock (TrxManager.GetTrxNode s t) mode r t).1) ∧
    (k ≠ 0 → ∃ prev, (s.lock_table r).bind (fun node => node.tail) = some prev ∧
      (s.locks prev).lock_id_on_record + 1 = k ∧
      (x.2.locks prev).lock_id_on_record = (s.locks prev).lock_id_on_record ∧
      (x.2.locks prev).id_pass_flag = true ∧
      (x.2.locks prev).next =
        some (LockManager.takeLock (TrxManager.GetTrxNode s t) mode r t).1) ∧
    ∃ chain,
      x.2.IsQueue r (chain ++ [(LockManager.takeLock (TrxManager.GetTrxNode s t) mode r t).1]) ∧
      (chain ++ [(LockManager.takeLock (TrxManager.GetTrxNode s t) mode r t).1]).Pairwise
        (fun a b => (x.2.locks a).lock_id_on_record < (x.2.locks b).lock_id_on_record) := by
  have hinv := hk.is_reachable.shape.getTrxNode_shape t
  obtain ⟨h1, -, -, h4, h5, h6⟩ := LockManager.AcquireLock_ids _ hinv mode r t x hacq
  have hnext : (TrxManager.GetTrxNode s t).next_id r = k := by
    rw [TrxManager.GetTrxNode_next_id]; exact hk.next_id_eq
  rw [hnext] at h1 h4
  rw [TrxManager.GetTrxNode_lock_table] at h4 h5
  refine ⟨h1, Managers.Inserts.acquire_here s k mode t x hk hacq, h4, ?_, h6⟩
  intro hk0
  cases htl : (s.lock_table r).bind (fun node => node.tail) with
  | none =>
    have := hk.next_id_eq
    unfold Managers.next_id at this
    rw [htl] at this
    exact absurd this.symm hk0
  | some prev =>
    obtain ⟨g1, g2, g3, g4⟩ := h5 prev htl
    rw [hnext, TrxManager.GetTrxNode_locks] at g1
    rw [TrxManager.GetTrxNode_locks] at g2
    exact ⟨prev, rfl, g1, g2, g3, g4⟩

/-- The state with one reader has one lock inserted into the list of record 1. -/
theorem Managers.oneReader_inserts : Managers.oneReader.Inserts 1 1 :=
  Managers.Inserts.acquire_here _ 0 lock_t.Mode.SHARED 1 _ (Managers.Inserts.init 1 0)
    (Option.some_get (by decide)).symm

/-- A second thread asks for an EXCLUSIVE lock behind the reader: its lock gets the id 1. -/
theorem LockManager.AcquireLock_lock_id_witness :
    (Managers.oneReader.Inserts 1 1 ∧
      LockManager.AcquireLock (TrxManager.GetTrxNode Managers.oneReader 2)
        lock_t.Mode.EXCLUSIVE 1 2 =
        some ((LockManager.AcquireLock (TrxManager.GetTrxNode Managers.oneReader 2)
          lock_t.Mode.EXCLUSIVE 1 2).get (by decide))) ∧
    (((LockManager.AcquireLock (TrxManager.GetTrxNode Managers.oneReader 2)
        lock_t.Mode.EXCLUSIVE 1 2).get (by decide)).2.locks
      (LockManager.takeLock (TrxManager.GetTrxNode Managers.oneReader 2)
        lock_t.Mode.EXCLUSIVE 1 2).1).lock_id_on_record = 1 :=
  ⟨⟨Managers.oneReader_inserts, (Option.some_get _).symm⟩,
    (LockManager.AcquireLock_lock_id 1 Managers.oneReader 1 Managers.oneReader_inserts
      lock_t.Mode.EXCLUSIVE 2 _ (Option.some_get (by decide)).symm).1⟩

/-- The ids in the state with a refused request between two sleeping readers, evaluated:
the four locks inserted into the list of record 1 have the ids 0, 1, 2, 3. -/
theorem LockManager.AcquireLock_lock_id_example :
    (Managers.skipped.locks 0).lock_id_on_record = 0 ∧
    (Managers.skipped.locks 1).lock_id_on_record = 1 ∧
    (Managers.skipped.locks 2).lock_id_on_record = 2 ∧
    (Managers.skipped.locks 3).lock_id_on_record = 3 := by
  decide
/-! ## The search of `exchange` (claim C24) -/

theorem HolderState.reachable_version_count (M : Nat) (hM : M < 2 ^ 31) (st : HolderState)
    (hr : HolderState.Reachable M HolderState.noWrap st) : st.holder.version_count = M := by
  induction hr with
  | init => rfl
  | @step st st1 a hr0 hg hstep ih =>
    have hinv := HolderState.reachable_inv M hM st hr0
    cases a with
    | acquire =>
      simp only [HolderState.step] at hstep
      split at hstep
      · rename_i index h1 ha
        obtain ⟨_, _, h1eq⟩ := acquire_some _ _ _ ha
        rw [← Option.some.inj hstep]
        simp only [h1eq]
        exact ih
      · exact Option.noConfusion hstep
    | release index =>
      simp only [HolderState.step] at hstep
      split_ifs at hstep
      split at hstep
      · rename_i h1 hrel
        obtain ⟨b, _, _, h1eq⟩ := releaseAt_some _ _ _ hrel
        rw [← Option.some.inj hstep]
        simp only [h1eq]
        exact ih
      · exact Option.noConfusion hstep
    | exchange s =>
      simp only [HolderState.step] at hstep
      split at hstep
      · rename_i h1 hex
        rw [← Option.some.inj hstep]
        simp only
        rw [exchange_version_count _ _ s hinv.1 hex]
        exact ih
      · exact Option.noConfusion hstep

theorem findEmptyIndex_full (h : shared_snapshot)
    (hfull : ¬ h.findEmptyIndex < h.snapshot_ptr_vector.length) (j : Nat)
    (hj : j < h.snapshot_ptr_vector.length) :
    ∃ b, h.snapshot_ptr_vector[j]? = some (some b) ∧ b.recycle_flag = false := by
  have hle := findEmptyIndex_le h
  unfold shared_snapshot.findEmptyIndex at hfull hle
  have heq : h.snapshot_ptr_vector.findIdx shared_snapshot.isEmptySlot
      = h.snapshot_ptr_vector.length := by omega
  have hall := List.findIdx_eq_length.mp heq
  have hmem : h.snapshot_ptr_vector[j] ∈ h.snapshot_ptr_vector := List.getElem_mem hj
  have hp := hall _ hmem
  rw [List.getElem?_eq_getElem hj]
  generalize h.snapshot_ptr_vector[j] = p at hp
  cases p with
  | none => simp [shared_snapshot.isEmptySlot] at hp
  | some b =>
    refine ⟨b, rfl, ?_⟩
    simpa [shared_snapshot.isEmptySlot, Snapshot.get_recycle_flag] using hp

theorem countP_cover (M c : Nat) (p : Nat → Bool)
    (hcover : ∀ j, j < M → j = c ∨ p j = true) : M ≤ (List.range M).countP p + 1 := by
  have hlen := List.length_eq_countP_add_countP p (List.range M)
  rw [List.length_range] at hlen
  have hmono : (List.range M).countP (fun a => ¬ p a = true)
      ≤ (List.range M).countP (fun a => a == c) := by
    apply List.countP_mono_left
    intro j hj hnp
    have hjM := List.mem_range.mp hj
    rcases hcover j hjM with h | h
    · simp [h]
    · simp [h] at hnp
  have hone : (List.range M).countP (fun a => a == c) ≤ 1 := by
    have := List.nodup_iff_count_le_one.mp (List.nodup_range M) c
    rw [List.count] at this
    have heq : (List.range M).countP (fun a => a == c) = (List.range M).countP (fun a => c == a) := by
      congr 1
      funext a
      simp [eq_comm]
    omega
  omega

/-- C24 (as amended): for a snapshot holder with `M >= 2` buffers (`M` an `int`), in every
state reachable from the initial state by atomic steps acquire, release and exchange in which
no acquire wraps the 32-bit outer reference count, if at most `M - 2` non-current buffers
have an outstanding acquirer then the search of `exchange` stops below `version_count` (the
assertion `i != version_count` does not fire) at a slot that is null or recyclable; and
every non-current installed buffer with no outstanding acquirer is flagged recyclable. -/
theorem HolderState.exchange_search_succeeds (M : Nat) (hM2 : 2 ≤ M) (hM : M < 2 ^ 31)
    (st : HolderState) (hr : HolderState.Reachable M HolderState.noWrap st)
    (hfew : (List.range M).countP
      (fun j => decide (j ≠ st.holder.current_index ∧ 0 < st.outstanding j)) ≤ M - 2) :
    st.holder.findEmptyIndex ≠ st.holder.version_count ∧
    (∃ p, st.holder.snapshot_ptr_vector[st.holder.findEmptyIndex]? = some p ∧
      shared_snapshot.isEmptySlot p = true) ∧
    ∀ j b, j ≠ st.holder.current_index →
      st.holder.snapshot_ptr_vector[j]? = some (some b) → st.outstanding j = 0 →
      b.recycle_flag = true := by
  have hinv := HolderState.reachable_inv M hM st hr
  have hvc := HolderState.reachable_version_count M hM st hr
  have hlen : st.holder.snapshot_ptr_vector.length = M := by rw [hinv.1.2.2, hvc]
  have hflag : ∀ j b, j ≠ st.holder.current_index →
      st.holder.snapshot_ptr_vector[j]? = some (some b) → st.outstanding j = 0 →
      b.recycle_flag = true := by
    intro j b hjc hb h0
    have hj := hinv.2.1 j
    simp only [HolderState.SlotInv, hb] at hj
    rw [if_neg hjc] at hj
    exact hj.2.mpr h0
  have hlt : st.holder.findEmptyIndex < st.holder.snapshot_ptr_vector.length := by
    by_contra hfull
    have hcover : ∀ j, j < M → j = st.holder.current_index ∨
        decide (j ≠ st.holder.current_index ∧ 0 < st.outstanding j) = true := by
      intro j hjM
      by_cases hjc : j = st.holder.current_index
      · exact Or.inl hjc
      · right
        obtain ⟨b, hb, hbf⟩ := findEmptyIndex_full st.holder hfull j (by omega)
        have hpos : 0 < st.outstanding j := by
          rcases Nat.eq_zero_or_pos (st.outstanding j) with h0 | h0
          · have := hflag j b hjc hb h0
            rw [hbf] at this
            exact Bool.noConfusion this
          · exact h0
        exact decide_eq_true ⟨hjc, hpos⟩
    have := countP_cover M st.holder.current_index _ hcover
    omega
  refine ⟨?_, findEmptyIndex_spec st.holder hlt, hflag⟩
  rw [hvc]
  omega
theorem HolderState.exchange_search_succeeds_witness :
    (List.range 2).countP (fun j => decide (j ≠
        (HolderState.mk ⟨1, [some ⟨0, [⟨0⟩], true⟩, some ⟨0, [⟨0⟩], false⟩], 2⟩
          []).holder.current_index ∧
        0 < (HolderState.mk ⟨1, [some ⟨0, [⟨0⟩], true⟩, some ⟨0, [⟨0⟩], false⟩], 2⟩
          []).outstanding j)) ≤ 2 - 2 ∧
    (shared_snapshot.mk 1 [some ⟨0, [⟨0⟩], true⟩, some ⟨0, [⟨0⟩], false⟩] 2).findEmptyIndex = 0 ∧
    (HolderState.mk ⟨1, [some ⟨0, [⟨0⟩], true⟩, some ⟨0, [⟨0⟩], false⟩], 2⟩
      []).holder.findEmptyIndex ≠
      (HolderState.mk ⟨1, [some ⟨0, [⟨0⟩], true⟩, some ⟨0, [⟨0⟩], false⟩], 2⟩
        []).holder.version_count :=
  ⟨by decide, by decide,
    (HolderState.exchange_search_succeeds 2 (by decide) (by decide)
      ⟨⟨1, [some ⟨0, [⟨0⟩], true⟩, some ⟨0, [⟨0⟩], false⟩], 2⟩, []⟩
      HolderState.reachable_after_swap_and_release (by decide)).1⟩

theorem HolderState.step_release_of (st : HolderState) (index : Nat) (h1 : shared_snapshot)
    (hmem : index ∈ st.acquired) (hr : st.holder.releaseAt index = some h1) :
    st.step (HolderStep.release index) = some ⟨h1, st.acquired.erase index⟩ := by
  simp only [HolderState.step, if_pos hmem, hr]

theorem releaseAt_zero (w : Nat) (c : Int) (regs : List AtomicRegister) (f : Bool)
    (p1 : Option Snapshot) (M : Nat) (h0 : 0 ≤ c) (hc : c + 1 < 2 ^ 31) :
    (shared_snapshot.mk w [some ⟨c, regs, f⟩, p1] M).releaseAt 0
      = some ⟨w, [some ⟨c + 1, regs, f⟩, p1], M⟩ := by
  have hint : isInt32 (c + 1) := by
    unfold isInt32 INT_MIN INT_MAX
    constructor <;> omega
  have hne : ¬ c + 1 = 0 := by omega
  simp only [shared_snapshot.releaseAt, List.getElem?_cons_zero, Snapshot.release, if_pos hint,
    if_neg hne, List.set_cons_zero]

theorem HolderState.run_releases (n : Nat) :
    ∀ (w : Nat) (c : Int) (regs : List AtomicRegister) (f : Bool) (p1 : Option Snapshot)
      (M : Nat) (acq : List Nat), 0 ≤ c → c + (n : Int) < 2 ^ 31 →
      HolderState.run ⟨⟨w, [some ⟨c, regs, f⟩, p1], M⟩, List.replicate n 0 ++ acq⟩
          (List.replicate n (HolderStep.release 0))
        = some ⟨⟨w, [some ⟨c + (n : Int), regs, f⟩, p1], M⟩, acq⟩ := by
  induction n with
  | zero =>
    intro w c regs f p1 M acq _ _
    simp [HolderState.run]
  | succ n ih =>
    intro w c regs f p1 M acq h0 hc
    have hrel := releaseAt_zero w c regs f p1 M h0 (by push_cast at hc; omega)
    have hstep := HolderState.step_release_of
      ⟨⟨w, [some ⟨c, regs, f⟩, p1], M⟩, List.replicate (n + 1) 0 ++ acq⟩ 0 _
      (by simp [List.replicate_succ]) hrel
    rw [List.replicate_succ (HolderStep.release 0),
      HolderState.run_cons_of_step _ _ _ _ hstep]
    have herase : (List.replicate (n + 1) 0 ++ acq).erase 0 = List.replicate n 0 ++ acq := by
      simp [List.replicate_succ]
    simp only [herase]
    have hrec := ih w (c + 1) regs f p1 M acq (by omega) (by push_cast at hc; omega)
    rw [hrec]
    have hsum : c + 1 + (n : Int) = c + ((n + 1 : Nat) : Int) := by push_cast; omega
    rw [hsum]
theorem HolderState.step_exchange_of (h h1 : shared_snapshot) (s : Snapshot) (acq : List Nat)
    (hex : h.exchange s = some h1) :
    (HolderState.mk h acq).step (HolderStep.exchange s) = some ⟨h1, acq⟩ := by
  simp only [HolderState.step, hex]

theorem HolderState.reachable_exchange (M : Nat) (h h1 : shared_snapshot) (s : Snapshot)
    (acq : List Nat) (hr : HolderState.Reachable M HolderState.anyStep ⟨h, acq⟩)
    (hex : h.exchange s = some h1) : HolderState.Reachable M HolderState.anyStep ⟨h1, acq⟩ :=
  HolderState.Reachable.step hr trivial (HolderState.step_exchange_of h h1 s acq hex)

/-- C24, as stated, fails: a holder of two versions after `exchange`, `2^32` calls of
`acquire`, `exchange`, `2^31 - 1` releases of buffer 0, two calls of `exchange`, `2^31 - 1`
more releases, `exchange`, the last two releases and `exchange`. The outer count wrapped to 0,
so buffer 0 was recycled and installed again while acquirers of its earlier content were
outstanding; their releases leave its inner count at 2 with nobody holding it. No buffer has
an outstanding acquirer, no slot is null or recyclable, and the search of `exchange` ends at
`version_count`. -/
theorem HolderState.exchange_search_fails :
    HolderState.Reachable 2 HolderState.anyStep
      ⟨⟨1, [some ⟨2, [⟨0⟩], false⟩, some ⟨0, [⟨0⟩], false⟩], 2⟩, []⟩ ∧
    (List.range 2).countP (fun j => decide (j ≠
        (HolderState.mk ⟨1, [some ⟨2, [⟨0⟩], false⟩, some ⟨0, [⟨0⟩], false⟩], 2⟩
          []).holder.current_index ∧
        0 < (HolderState.mk ⟨1, [some ⟨2, [⟨0⟩], false⟩, some ⟨0, [⟨0⟩], false⟩], 2⟩
          []).outstanding j)) ≤ 2 - 2 ∧
    (shared_snapshot.mk 1 [some ⟨2, [⟨0⟩], false⟩, some ⟨0, [⟨0⟩], false⟩] 2).findEmptyIndex
      = (shared_snapshot.mk 1 [some ⟨2, [⟨0⟩], false⟩, some ⟨0, [⟨0⟩], false⟩] 2).version_count ∧
    ∀ s, (shared_snapshot.mk 1 [some ⟨2, [⟨0⟩], false⟩, some ⟨0, [⟨0⟩], false⟩] 2).exchange s
      = none := by
  refine ⟨?_, by decide, by decide, fun s => ?_⟩
  · have h1 : (HolderState.init 2).step (HolderStep.exchange (Snapshot.ofCount 1))
        = some ⟨⟨0, [some ⟨0, [⟨0⟩], false⟩, none], 2⟩, []⟩ := by decide
    have r1 : HolderState.Reachable 2 HolderState.anyStep
        ⟨⟨0, [some ⟨0, [⟨0⟩], false⟩, none], 2⟩, []⟩ :=
      HolderState.Reachable.step (HolderState.Reachable.init) trivial h1
    have h2 := HolderState.run_acquires (2 ^ 32) 0 [some ⟨0, [⟨0⟩], false⟩, none] 2 []
      ⟨0, [⟨0⟩], false⟩ (by norm_num) rfl
    have hw : (0 + 2 ^ 32 * 2 ^ 32) % 2 ^ 64 = 0 := by norm_num
    have hsplit : List.replicate (2 ^ 32) (0 % 2 ^ 32) ++ ([] : List Nat)
        = List.replicate (2 ^ 31 - 1) 0 ++ (List.replicate (2 ^ 31 - 1) 0 ++ [0, 0]) := by
      have e : (2 ^ 32 : Nat) = (2 ^ 31 - 1) + ((2 ^ 31 - 1) + 2) := by norm_num
      rw [List.append_nil, Nat.zero_mod, e, List.replicate_add, List.replicate_add]
      rfl
    rw [hw, hsplit] at h2
    have r2 := HolderState.reachable_run 2 _ _ _ r1 h2
    have r3 := HolderState.reachable_exchange 2 _
      ⟨1, [some ⟨0, [⟨0⟩], true⟩, some ⟨0, [⟨0⟩], false⟩], 2⟩ (Snapshot.ofCount 1) _ r2
      (by decide)
    have h4 := HolderState.run_releases (2 ^ 31 - 1) 1 0 [⟨0⟩] true (some ⟨0, [⟨0⟩], false⟩) 2
      (List.replicate (2 ^ 31 - 1) 0 ++ [0, 0]) (le_refl _) (by norm_num)
    have hc : (0 : Int) + ((2 ^ 31 - 1 : Nat) : Int) = 2147483647 := by norm_num
    rw [hc] at h4
    have r4 := HolderState.reachable_run 2 _ _ _ r3 h4
    have r5 := HolderState.reachable_exchange 2 _
      ⟨0, [some ⟨0, [⟨0⟩], false⟩, some ⟨0, [⟨0⟩], true⟩], 2⟩ (Snapshot.ofCount 1) _ r4
      (by decide)
    have r6 := HolderState.reachable_exchange 2 _
      ⟨1, [some ⟨0, [⟨0⟩], true⟩, some ⟨0, [⟨0⟩], false⟩], 2⟩ (Snapshot.ofCount 1) _ r5
      (by decide)
    have h7 := HolderState.run_releases (2 ^ 31 - 1) 1 0 [⟨0⟩] true (some ⟨0, [⟨0⟩], false⟩) 2
      [0, 0] (le_refl _) (by norm_num)
    rw [hc] at h7
    have r7 := HolderState.reachable_run 2 _ _ _ r6 h7
    have r8 := HolderState.reachable_exchange 2 _
      ⟨0, [some ⟨0, [⟨0⟩], false⟩, some ⟨0, [⟨0⟩], true⟩], 2⟩ (Snapshot.ofCount 1) _ r7
      (by decide)
    have r9 : HolderState.Reachable 2 HolderState.anyStep
        ⟨⟨0, [some ⟨1, [⟨0⟩], false⟩, some ⟨0, [⟨0⟩], true⟩], 2⟩, [0]⟩ :=
      HolderState.Reachable.step r8 trivial (a := HolderStep.release 0) (by decide)
    have r10 : HolderState.Reachable 2 HolderState.anyStep
        ⟨⟨0, [some ⟨2, [⟨0⟩], false⟩, some ⟨0, [⟨0⟩], true⟩], 2⟩, []⟩ :=
      HolderState.Reachable.step r9 trivial (a := HolderStep.release 0) (by decide)
    exact HolderState.reachable_exchange 2 _ _ (Snapshot.ofCount 1) _ r10 (by decide)
  · have hfind : (shared_snapshot.mk 1 [some ⟨2, [⟨0⟩], false⟩, some ⟨0, [⟨0⟩], false⟩]
        2).findEmptyIndex = 2 := by decide
    simp only [shared_snapshot.exchange, hfind, if_true]
/-! ## The two ways `scan` returns (claim C25) -/

theorem getD_set_int (counts : List Int) (i j : Nat) (v : Int) (hi : i < counts.length) :
    (counts.set i v).getD j 0 = if j = i then v else counts.getD j 0 := by
  rw [List.getD_eq_getElem?_getD, List.getD_eq_getElem?_getD, List.getElem?_set]
  by_cases h : i = j
  · subst h
    simp [hi]
  · rw [if_neg h, if_neg (fun e => h e.symm)]

theorem getD_set_register (l : List AtomicRegister) (i j : Nat) (v : AtomicRegister)
    (hi : i < l.length) :
    (l.set i v).getD j AtomicRegister.default
      = if j = i then v else l.getD j AtomicRegister.default := by
  rw [List.getD_eq_getElem?_getD, List.getD_eq_getElem?_getD, List.getElem?_set]
  by_cases h : i = j
  · subst h
    simp [hi]
  · rw [if_neg h, if_neg (fun e => h e.symm)]

/-- A pass of the `for` loop in which no register changes for the second time runs to its
end: it reads every register, counts every change and keeps `same_flag` only when nothing
changed. -/
theorem collect_finishes (read : Nat → AtomicRegister) (first : List AtomicRegister) (N : Nat) :
    ∀ (rem i : Nat) (second : List AtomicRegister) (counts : List Int) (same : Bool),
      i + rem = N → second.length = N → counts.length = N →
      (∀ j, i ≤ j → j < N →
        ¬ ((first.getD j AtomicRegister.default).ne (read j) = true ∧ counts.getD j 0 = 1)) →
      ∃ second1 counts1 same1,
        WaitfreeAtomicSnapshot.collect read first rem i second counts same
          = Collect.finished second1 counts1 same1 ∧
        second1.length = N ∧ counts1.length = N ∧
        (∀ j, j < N → second1.getD j AtomicRegister.default
            = if i ≤ j then read j else second.getD j AtomicRegister.default) ∧
        (∀ j, j < N → counts1.getD j 0 = counts.getD j 0 +
            if i ≤ j ∧ (first.getD j AtomicRegister.default).ne (read j) = true then 1 else 0) ∧
        (same1 = true ↔ same = true ∧
          ∀ j, i ≤ j → j < N → (first.getD j AtomicRegister.default).ne (read j) = false) := by
  intro rem
  induction rem with
  | zero =>
    intro i second counts same hi hs hc _
    refine ⟨second, counts, same, rfl, hs, hc, ?_, ?_, ?_⟩
    · intro j hj
      rw [if_neg (by omega)]
    · intro j hj
      rw [if_neg (fun h => absurd h.1 (by omega))]
      omega
    · constructor
      · intro h
        exact ⟨h, fun j h1 h2 => absurd h1 (by omega)⟩
      · exact fun h => h.1
  | succ n ih =>
    intro i second counts same hi hs hc hno
    have hiN : i < N := by omega
    have hsec : (second.set i (read i)).getD i AtomicRegister.default = read i := by
      rw [getD_set_register _ _ _ _ (by omega), if_pos rfl]
    rw [WaitfreeAtomicSnapshot.collect]
    simp only
    rw [hsec]
    by_cases hne : (first.getD i AtomicRegister.default).ne (read i) = true
    · rw [if_pos hne]
      have hget : (counts.set i (counts.getD i 0 + 1)).getD i 0 = counts.getD i 0 + 1 := by
        rw [getD_set_int _ _ _ _ (by omega), if_pos rfl]
      have h1 : ¬ counts.getD i 0 = 1 := fun h => hno i (le_refl _) hiN ⟨hne, h⟩
      rw [hget, if_neg (by omega)]
      obtain ⟨s1, c1, f1, hcol, hl1, hl2, hp1, hp2, hf⟩ :=
        ih (i + 1) (second.set i (read i)) (counts.set i (counts.getD i 0 + 1)) false
          (by omega) (by rw [List.length_set]; exact hs) (by rw [List.length_set]; exact hc)
          (by
            intro j hj hjN
            rw [getD_set_int _ _ _ _ (by omega), if_neg (by omega)]
            exact hno j (by omega) hjN)
      refine ⟨s1, c1, f1, hcol, hl1, hl2, ?_, ?_, ?_⟩
      · intro j hj
        rw [hp1 j hj, getD_set_register _ _ _ _ (by omega)]
        by_cases hji : j = i
        · subst hji
          simp
        · rw [if_neg hji]
          by_cases hle : i ≤ j
          · rw [if_pos hle, if_pos (by omega)]
          · rw [if_neg hle, if_neg (by omega)]
      · intro j hj
        rw [hp2 j hj, getD_set_int _ _ _ _ (by omega)]
        by_cases hji : j = i
        · subst hji
          rw [if_pos rfl, if_neg (fun h => absurd h.1 (by omega)), if_pos ⟨le_refl _, hne⟩]
          omega
        · rw [if_neg hji]
          by_cases hd : (first.getD j AtomicRegister.default).ne (read j) = true
          · by_cases hle : i ≤ j
            · rw [if_pos ⟨by omega, hd⟩, if_pos ⟨hle, hd⟩]
            · rw [if_neg (fun h => absurd h.1 (by omega)), if_neg (fun h => hle h.1)]
          · rw [if_neg (fun h => hd h.2), if_neg (fun h => hd h.2)]
      · constructor
        · intro h
          exact absurd (hf.mp h).1 (by simp)
        · intro h
          have := h.2 i (le_refl _) hiN
          rw [hne] at this
          exact Bool.noConfusion this
    · rw [if_neg hne]
      obtain ⟨s1, c1, f1, hcol, hl1, hl2, hp1, hp2, hf⟩ :=
        ih (i + 1) (second.set i (read i)) counts same
          (by omega) (by rw [List.length_set]; exact hs) hc
          (fun j hj hjN => hno j (by omega) hjN)
      refine ⟨s1, c1, f1, hcol, hl1, hl2, ?_, ?_, ?_⟩
      · intro j hj
        rw [hp1 j hj, getD_set_register _ _ _ _ (by omega)]
        by_cases hji : j = i
        · subst hji
          simp
        · rw [if_neg hji]
          by_cases hle : i ≤ j
          · rw [if_pos hle, if_pos (by omega)]
          · rw [if_neg hle, if_neg (by omega)]
      · intro j hj
        rw [hp2 j hj]
        by_cases hji : j = i
        · subst hji
          rw [if_neg (fun h => absurd h.1 (by omega)), if_neg (fun h => hne h.2)]
        · by_cases hd : (first.getD j AtomicRegister.default).ne (read j) = true
          · by_cases hle : i ≤ j
            · rw [if_pos ⟨by omega, hd⟩, if_pos ⟨hle, hd⟩]
            · rw [if_neg (fun h => absurd h.1 (by omega)), if_neg (fun h => hle h.1)]
          · rw [if_neg (fun h => hd h.2), if_neg (fun h => hd h.2)]
      · rw [hf]
        constructor
        · rintro ⟨hs1, hall⟩
          refine ⟨hs1, fun j hj hjN => ?_⟩
          by_cases hji : j = i
          · subst hji
            simpa using hne
          · exact hall j (by omega) hjN
        · rintro ⟨hs1, hall⟩
          exact ⟨hs1, fun j hj hjN => hall j (by omega) hjN⟩

/-- A pass of the `for` loop stops at the first register that changes for the second time. -/
theorem collect_borrows (read : Nat → AtomicRegister) (first : List AtomicRegister) (N t : Nat) :
    ∀ (rem i : Nat) (second : List AtomicRegister) (counts : List Int) (same : Bool),
      i + rem = N → second.length = N → counts.length = N → i ≤ t → t < N →
      (first.getD t AtomicRegister.default).ne (read t) = true → counts.getD t 0 = 1 →
      (∀ j, i ≤ j → j < t →
        ¬ ((first.getD j AtomicRegister.default).ne (read j) = true ∧ counts.getD j 0 = 1)) →
      WaitfreeAtomicSnapshot.collect read first rem i second counts same
        = Collect.borrowed t := by
  intro rem
  induction rem with
  | zero =>
    intro i second counts same hi _ _ hit htN
    omega
  | succ n ih =>
    intro i second counts same hi hs hc hit htN hdt hct hno
    have hiN : i < N := by omega
    have hsec : (second.set i (read i)).getD i AtomicRegister.default = read i := by
      rw [getD_set_register _ _ _ _ (by omega), if_pos rfl]
    have hget : (counts.set i (counts.getD i 0 + 1)).getD i 0 = counts.getD i 0 + 1 := by
      rw [getD_set_int _ _ _ _ (by omega), if_pos rfl]
    rw [WaitfreeAtomicSnapshot.collect]
    simp only
    rw [hsec]
    by_cases hti : t = i
    · subst hti
      rw [if_pos hdt, hget, hct, if_pos (by norm_num)]
    · by_cases hne : (first.getD i AtomicRegister.default).ne (read i) = true
      · rw [if_pos hne, hget]
        have h1 : ¬ counts.getD i 0 = 1 := fun h => hno i (le_refl _) (by omega) ⟨hne, h⟩
        rw [if_neg (by omega)]
        exact ih (i + 1) _ _ false (by omega) (by rw [List.length_set]; exact hs)
          (by rw [List.length_set]; exact hc) (by omega) htN hdt
          (by rw [getD_set_int _ _ _ _ (by omega), if_neg hti]; exact hct)
          (by
            intro j hj hjt
            rw [getD_set_int _ _ _ _ (by omega), if_neg (by omega)]
            exact hno j (by omega) hjt)
      · rw [if_neg hne]
        exact ih (i + 1) _ _ same (by omega) (by rw [List.length_set]; exact hs) hc (by omega)
          htN hdt hct (fun j hj hjt => hno j (by omega) hjt)
theorem list_eq_map_range (l : List AtomicRegister) (N : Nat) (f : Nat → AtomicRegister)
    (hlen : l.length = N) (h : ∀ j, j < N → l.getD j AtomicRegister.default = f j) :
    l = (List.range N).map f := by
  apply List.ext_getElem
  · simp [hlen]
  · intro j h1 h2
    have hj : j < N := by omega
    have := h j hj
    rw [List.getD_eq_getElem?_getD, List.getElem?_eq_getElem h1] at this
    simp only [Option.getD_some] at this
    rw [this]
    simp

theorem collectAt_length (N : Nat) (first : Nat → AtomicRegister)
    (reads : Nat → Nat → AtomicRegister) (k : Nat) :
    (WaitfreeAtomicSnapshot.collectAt N first reads k).length = N := by
  cases k <;> simp [WaitfreeAtomicSnapshot.collectAt]

theorem changesBefore_succ (N : Nat) (first : Nat → AtomicRegister)
    (reads : Nat → Nat → AtomicRegister) (k i : Nat) :
    WaitfreeAtomicSnapshot.changesBefore N first reads (k + 1) i
      = WaitfreeAtomicSnapshot.changesBefore N first reads k i
        + if WaitfreeAtomicSnapshot.differsAt N first reads k i then 1 else 0 := rfl

/-- What the loop of `scan` holds at the start of pass `k`: `first_snapshot` is collect `k`
and the change counts are the numbers of changes seen in the passes before. -/
theorem scanLoop_passes (reads : Nat → Nat → AtomicRegister) (first : Nat → AtomicRegister)
    (N : Nat) (holders : List shared_snapshot) :
    ∀ (d k fuel : Nat) (firstS secondS : Snapshot) (counts : List Int),
      firstS.atomic_register_vector = WaitfreeAtomicSnapshot.collectAt N first reads k →
      secondS.atomic_register_vector.length = N → counts.length = N →
      (∀ j, j < N → counts.getD j 0 = (WaitfreeAtomicSnapshot.changesBefore N first reads k j : Int)) →
      (∀ k1, k ≤ k1 → k1 < k + d → WaitfreeAtomicSnapshot.passesOn N first reads k1) →
      ∃ (firstS1 secondS1 : Snapshot) (counts1 : List Int),
        firstS1.atomic_register_vector = WaitfreeAtomicSnapshot.collectAt N first reads (k + d) ∧
        secondS1.atomic_register_vector.length = N ∧ counts1.length = N ∧
        (∀ j, j < N → counts1.getD j 0
          = (WaitfreeAtomicSnapshot.changesBefore N first reads (k + d) j : Int)) ∧
        WaitfreeAtomicSnapshot.scanLoop reads N holders (fuel + d) k firstS secondS counts
          = WaitfreeAtomicSnapshot.scanLoop reads N holders fuel (k + d) firstS1 secondS1
              counts1 := by
  intro d
  induction d with
  | zero =>
    intro k fuel firstS secondS counts h1 h2 h3 h4 _
    exact ⟨firstS, secondS, counts, h1, h2, h3, h4, rfl⟩
  | succ d ih =>
    intro k fuel firstS secondS counts h1 h2 h3 h4 hpass
    obtain ⟨⟨jd, hjd, hdiff⟩, hno⟩ := hpass k (le_refl _) (by omega)
    have hno1 : ∀ j, 0 ≤ j → j < N →
        ¬ ((firstS.atomic_register_vector.getD j AtomicRegister.default).ne (reads k j) = true ∧
          counts.getD j 0 = 1) := by
      intro j _ hj hboth
      apply hno j hj
      refine ⟨?_, ?_⟩
      · unfold WaitfreeAtomicSnapshot.differsAt
        rw [← h1]
        exact hboth.1
      · have := h4 j hj
        rw [hboth.2] at this
        exact_mod_cast this.symm
    obtain ⟨s1, c1, f1, hcol, hl1, hl2, hp1, hp2, hf⟩ :=
      collect_finishes (reads k) firstS.atomic_register_vector N N 0
        secondS.atomic_register_vector counts true (by omega) h2 h3 hno1
    have hf1 : f1 = false := by
      cases f1 with
      | false => rfl
      | true =>
        have := (hf.mp rfl).2 jd (Nat.zero_le _) hjd
        unfold WaitfreeAtomicSnapshot.differsAt at hdiff
        rw [← h1, this] at hdiff
        exact Bool.noConfusion hdiff
    have hs1 : s1 = WaitfreeAtomicSnapshot.collectAt N first reads (k + 1) := by
      unfold WaitfreeAtomicSnapshot.collectAt
      apply list_eq_map_range _ _ _ hl1
      intro j hj
      rw [hp1 j hj, if_pos (Nat.zero_le _)]
    have hc1 : ∀ j, j < N → c1.getD j 0
        = (WaitfreeAtomicSnapshot.changesBefore N first reads (k + 1) j : Int) := by
      intro j hj
      rw [hp2 j hj, h4 j hj, changesBefore_succ]
      unfold WaitfreeAtomicSnapshot.differsAt
      rw [← h1]
      by_cases hd : (firstS.atomic_register_vector.getD j AtomicRegister.default).ne
          (reads k j) = true
      · rw [if_pos ⟨Nat.zero_le _, hd⟩, if_pos hd]
        push_cast
        rfl
      · rw [if_neg (fun h => hd h.2), if_neg hd]
        push_cast
        rfl
    obtain ⟨fS, sS, cs, g1, g2, g3, g4, g5⟩ :=
      ih (k + 1) fuel (firstS.assign { secondS with atomic_register_vector := s1 })
        { secondS with atomic_register_vector := s1 } c1 hs1 hl1 hl2 hc1
        (fun k1 hk1 hk2 => hpass k1 (by omega) (by omega))
    have hk : k + 1 + d = k + (d + 1) := by omega
    rw [hk] at g1 g4 g5
    refine ⟨fS, sS, cs, g1, g2, g3, g4, ?_⟩
    rw [← g5]
    have hfuel : fuel + (d + 1) = (fuel + d) + 1 := by omega
    rw [hfuel, WaitfreeAtomicSnapshot.scanLoop, hcol, hf1]
    simp only [Bool.false_eq_true, if_false]
theorem AtomicRegister.eq_of_ne_false (a b : AtomicRegister) (h : a.ne b = false) : a = b := by
  cases a with
  | mk x =>
    cases b with
    | mk y =>
      simp only [AtomicRegister.ne, bne_eq_false_iff_eq] at h
      rw [h]

theorem borrow_eq (holders : List shared_snapshot) (first : Snapshot) (i : Nat)
    (h : shared_snapshot) (b : Snapshot) (hh : holders[i]? = some h)
    (hb : h.snapshot_ptr_vector[h.current_index]? = some (some b))
    (hint : isInt32 (b.inner_cnt + 1)) :
    WaitfreeAtomicSnapshot.borrow holders first i
      = some (Snapshot.copy b, holders.set i
          ⟨(h.outer_cnt_with_index + 2 ^ 32) % 2 ^ 64,
            h.snapshot_ptr_vector.set h.current_index
              (some ⟨b.inner_cnt + 1, b.atomic_register_vector,
                if b.inner_cnt + 1 = 0 then true else b.recycle_flag⟩),
            h.version_count⟩) := by
  have hacq := acquire_eq h b hb
  have hrel : (shared_snapshot.mk ((h.outer_cnt_with_index + 2 ^ 32) % 2 ^ 64)
      h.snapshot_ptr_vector h.version_count).releaseAt h.current_index
      = some ⟨(h.outer_cnt_with_index + 2 ^ 32) % 2 ^ 64,
          h.snapshot_ptr_vector.set h.current_index
            (some ⟨b.inner_cnt + 1, b.atomic_register_vector,
              if b.inner_cnt + 1 = 0 then true else b.recycle_flag⟩),
          h.version_count⟩ := by
    unfold shared_snapshot.releaseAt
    simp only
    rw [hb]
    unfold Snapshot.release
    simp only
    rw [if_pos hint]
  unfold WaitfreeAtomicSnapshot.borrow
  rw [hh]
  simp only
  rw [hacq]
  simp only
  rw [hb]
  simp only
  rw [hrel]
  rfl

/-- C25: a call of `scan` over `N = thread_count` registers whose passes before pass `K` all
saw a change but no second change of a register (so the loop reaches pass `K`), given fuel
for more than `K` passes. (1) If in pass `K` register `i` is the first to differ between two
consecutive collects for the second time, and holder `i` publishes a buffer `b` whose inner
count can take the increment and whose outer count is below `2^32 - 1`, then `scan` returns
in that pass a copy of `b` (the registers of `b`, whatever `scan` collected), leaving holder
`i` with its outer count raised by 1, the same current index, and the inner count of that
buffer raised by 1; the other holders are untouched. (2) If in pass `K` no register differs,
`scan` returns in that pass collect `K`, which equals collect `K + 1`, and touches no
holder. -/
theorem WaitfreeAtomicSnapshot.scan_second_change (s : WaitfreeAtomicSnapshot)
    (first : Nat → AtomicRegister) (reads : Nat → Nat → AtomicRegister) (fuel K : Nat)
    (hfuel : K < fuel)
    (hrun : ∀ k, k < K → WaitfreeAtomicSnapshot.passesOn s.thread_count first reads k) :
    (∀ (i : Nat) (h : shared_snapshot) (b : Snapshot), i < s.thread_count →
      WaitfreeAtomicSnapshot.secondChange s.thread_count first reads K i →
      (∀ j, j < i → ¬ WaitfreeAtomicSnapshot.secondChange s.thread_count first reads K j) →
      s.shared_snapshot_vector[i]? = some h →
      h.snapshot_ptr_vector[h.current_index]? = some (some b) →
      isInt32 (b.inner_cnt + 1) → h.outer_cnt < 2 ^ 32 - 1 →
      ∃ h2, s.scanWith first reads fuel
          = ScanResult.returned (Snapshot.copy b) (s.shared_snapshot_vector.set i h2) (K + 1) ∧
        (Snapshot.copy b).atomic_register_vector = b.atomic_register_vector ∧
        h2.outer_cnt = h.outer_cnt + 1 ∧ h2.current_index = h.current_index ∧
        h2.snapshot_ptr_vector = h.snapshot_ptr_vector.set h.current_index
          (some ⟨b.inner_cnt + 1, b.atomic_register_vector,
            if b.inner_cnt + 1 = 0 then true else b.recycle_flag⟩) ∧
        h2.version_count = h.version_count) ∧
    ((∀ j, j < s.thread_count →
        WaitfreeAtomicSnapshot.differsAt s.thread_count first reads K j = false) →
      s.scanWith first reads fuel
          = ScanResult.returned
              ⟨0, WaitfreeAtomicSnapshot.collectAt s.thread_count first reads K, false⟩
              s.shared_snapshot_vector (K + 1) ∧
        WaitfreeAtomicSnapshot.collectAt s.thread_count first reads (K + 1)
          = WaitfreeAtomicSnapshot.collectAt s.thread_count first reads K) := by
  obtain ⟨f, hf⟩ : ∃ f, fuel = (f + 1) + K := ⟨fuel - K - 1, by omega⟩
  obtain ⟨fS, sS, cs, g1, g2, g3, g4, g5⟩ :=
    scanLoop_passes reads first s.thread_count s.shared_snapshot_vector K 0 (f + 1)
      (Snapshot.ofRegisters ((List.range s.thread_count).map first))
      (Snapshot.ofCount s.thread_count) (List.replicate s.thread_count 0) rfl
      (by simp [Snapshot.ofCount]) (by simp)
      (by
        intro j hj
        rw [List.getD_eq_getElem?_getD, List.getElem?_replicate, if_pos hj]
        rfl)
      (fun k1 _ hk1 => hrun k1 (by omega))
  rw [Nat.zero_add] at g1 g4 g5
  have hscan : s.scanWith first reads fuel
      = WaitfreeAtomicSnapshot.scanLoop reads s.thread_count s.shared_snapshot_vector (f + 1) K
          fS sS cs := by
    rw [← g5, hf]
    rfl
  constructor
  · intro i h b hi hsc hfirst hh hb hint houter
    have hcol := collect_borrows (reads K) fS.atomic_register_vector s.thread_count i
      s.thread_count 0 sS.atomic_register_vector cs true (by omega) g2 g3 (Nat.zero_le _) hi
      (by
        have := hsc.1
        unfold WaitfreeAtomicSnapshot.differsAt at this
        rw [← g1] at this
        exact this)
      (by rw [g4 i hi, hsc.2]; rfl)
      (by
        intro j _ hji hboth
        apply hfirst j hji
        refine ⟨?_, ?_⟩
        · unfold WaitfreeAtomicSnapshot.differsAt
          rw [← g1]
          exact hboth.1
        · have := g4 j (by omega)
          rw [hboth.2] at this
          exact_mod_cast this.symm)
    obtain ⟨w1, w2, w3⟩ := word_add_inc h.outer_cnt_with_index houter
    refine ⟨⟨(h.outer_cnt_with_index + 2 ^ 32) % 2 ^ 64,
      h.snapshot_ptr_vector.set h.current_index
        (some ⟨b.inner_cnt + 1, b.atomic_register_vector,
          if b.inner_cnt + 1 = 0 then true else b.recycle_flag⟩),
      h.version_count⟩, ?_, rfl, ?_, ?_, rfl, rfl⟩
    · rw [hscan, WaitfreeAtomicSnapshot.scanLoop, hcol]
      simp only
      rw [borrow_eq _ fS i h b hh hb hint]
    · simp only [shared_snapshot.outer_cnt]
      rw [w1, w3]
    · simp only [shared_snapshot.current_index]
      rw [w1, w2]
  · intro hquiet
    have hno : ∀ j, 0 ≤ j → j < s.thread_count →
        ¬ ((fS.atomic_register_vector.getD j AtomicRegister.default).ne (reads K j) = true ∧
          cs.getD j 0 = 1) := by
      intro j _ hj hboth
      have := hquiet j hj
      unfold WaitfreeAtomicSnapshot.differsAt at this
      rw [← g1, hboth.1] at this
      exact Bool.noConfusion this
    obtain ⟨s1, c1, f1, hcol, hl1, hl2, hp1, hp2, hfl⟩ :=
      collect_finishes (reads K) fS.atomic_register_vector s.thread_count s.thread_count 0
        sS.atomic_register_vector cs true (by omega) g2 g3 hno
    have hf1 : f1 = true := by
      rw [hfl]
      refine ⟨rfl, fun j _ hj => ?_⟩
      have := hquiet j hj
      unfold WaitfreeAtomicSnapshot.differsAt at this
      rw [← g1] at this
      exact this
    constructor
    · rw [hscan, WaitfreeAtomicSnapshot.scanLoop, hcol, hf1]
      simp only [if_true, Snapshot.copy, g1]
    · have hk : WaitfreeAtomicSnapshot.collectAt s.thread_count first reads (K + 1)
          = (List.range s.thread_count).map (reads K) := rfl
      rw [hk]
      symm
      apply list_eq_map_range _ _ _ (collectAt_length _ _ _ _)
      intro j hj
      exact AtomicRegister.eq_of_ne_false _ _ (hquiet j hj)
/-- One register that differs at every load: pass 0 sees its first change, pass 1 the second,
and `scan` borrows the snapshot published in holder 0, whose outer count goes from 0 to 1 and
whose buffer 0 gets inner count 1. With a register that never differs, pass 0 returns the
first collect. -/
theorem WaitfreeAtomicSnapshot.scan_second_change_witness :
    (WaitfreeAtomicSnapshot.passesOn 1 (fun _ => ⟨0⟩) (fun k _ => ⟨(k + 1) * 2 ^ 32⟩) 0 ∧
      WaitfreeAtomicSnapshot.secondChange 1 (fun _ => ⟨0⟩) (fun k _ => ⟨(k + 1) * 2 ^ 32⟩) 1 0 ∧
      ∃ h2, (WaitfreeAtomicSnapshot.mk [⟨2 ^ 32 + 7⟩]
            [⟨0, [some ⟨0, [⟨0⟩], false⟩, none], 2⟩] [] 0 1).scanWith
            (fun _ => ⟨0⟩) (fun k _ => ⟨(k + 1) * 2 ^ 32⟩) 2
          = ScanResult.returned (Snapshot.copy ⟨0, [⟨0⟩], false⟩)
              ((WaitfreeAtomicSnapshot.mk [⟨2 ^ 32 + 7⟩]
                [⟨0, [some ⟨0, [⟨0⟩], false⟩, none], 2⟩] [] 0 1).shared_snapshot_vector.set 0 h2)
              (1 + 1) ∧
        (Snapshot.copy ⟨0, [⟨0⟩], false⟩).atomic_register_vector = [⟨0⟩] ∧
        h2.outer_cnt = (shared_snapshot.mk 0 [some ⟨0, [⟨0⟩], false⟩, none] 2).outer_cnt + 1 ∧
        h2.current_index = (shared_snapshot.mk 0 [some ⟨0, [⟨0⟩], false⟩, none] 2).current_index ∧
        h2.snapshot_ptr_vector = [some ⟨1, [⟨0⟩], false⟩, none] ∧
        h2.version_count = 2) ∧
    ((WaitfreeAtomicSnapshot.mk [⟨0⟩] [⟨0, [some ⟨0, [⟨0⟩], false⟩, none], 2⟩] [] 0 1).scanWith
          (fun _ => ⟨0⟩) (fun _ _ => ⟨0⟩) 1
        = ScanResult.returned ⟨0, [⟨0⟩], false⟩ [⟨0, [some ⟨0, [⟨0⟩], false⟩, none], 2⟩] 1 ∧
      WaitfreeAtomicSnapshot.collectAt 1 (fun _ => ⟨0⟩) (fun _ _ => ⟨0⟩) 1
        = WaitfreeAtomicSnapshot.collectAt 1 (fun _ => ⟨0⟩) (fun _ _ => ⟨0⟩) 0) :=
  have hpass : WaitfreeAtomicSnapshot.passesOn 1 (fun _ => ⟨0⟩)
      (fun k _ => ⟨(k + 1) * 2 ^ 32⟩) 0 :=
    ⟨⟨0, by decide, by decide⟩, fun _ _ h => Nat.zero_ne_one h.2⟩
  ⟨⟨hpass, by decide,
    (WaitfreeAtomicSnapshot.scan_second_change
      (WaitfreeAtomicSnapshot.mk [⟨2 ^ 32 + 7⟩] [⟨0, [some ⟨0, [⟨0⟩], false⟩, none], 2⟩] [] 0 1)
      (fun _ => ⟨0⟩) (fun k _ => ⟨(k + 1) * 2 ^ 32⟩) 2 1 (by decide)
      (fun k hk => by have hk0 := Nat.lt_one_iff.mp hk; subst hk0; exact hpass)).1 0
      ⟨0, [some ⟨0, [⟨0⟩], false⟩, none], 2⟩ ⟨0, [⟨0⟩], false⟩ (by decide) (by decide)
      (fun j hj => absurd hj (Nat.not_lt_zero j)) (by decide) (by decide) (by decide)
      (by decide)⟩,
    (WaitfreeAtomicSnapshot.scan_second_change
      (WaitfreeAtomicSnapshot.mk [⟨0⟩] [⟨0, [some ⟨0, [⟨0⟩], false⟩, none], 2⟩] [] 0 1)
      (fun _ => ⟨0⟩) (fun _ _ => ⟨0⟩) 1 0 (by decide)
      (fun k hk => absurd hk (Nat.not_lt_zero k))).2
      (fun j hj => by have hj0 := Nat.lt_one_iff.mp hj; subst hj0; decide)⟩
/-! ## Serial runs of the workers (claim C21) -/

/-- The loop of a `Commit` within the cap over distinct ACTIVE locks keeps the invariant and
makes these locks, and no other, OBSOLETE. -/
theorem TrxManager.releaseAll_states : ∀ (deque : List Nat) (s : Managers), s.Inv →
    deque.Nodup →
    (∀ l ∈ deque, l < s.lock_count ∧ (s.locks l).state = lock_t.State.ACTIVE) →
    ∃ r, TrxManager.releaseAll deque s = some r ∧ r.2.Inv ∧ s.ReleaseFrame r.2 ∧
      ∀ x, (r.2.locks x).state =
        (if x ∈ deque then lock_t.State.OBSOLETE else (s.locks x).state) := by
  intro deque
  induction deque with
  | nil =>
    intro s hinv _ _
    exact ⟨_, rfl, hinv, Managers.ReleaseFrame.refl s, fun x => by simp⟩
  | cons l rest ih =>
    intro s hinv hnd hmem
    obtain ⟨hl, hact⟩ := hmem l (List.mem_cons_self _ _)
    obtain ⟨node, hnode⟩ := Option.isSome_iff_exists.1 (hinv.records l hl)
    obtain ⟨s1, hs1, hinv1, hfr, hst⟩ := LockManager.ReleaseLock_inv s hinv l hl
      (by rw [hact]; exact fun e => (by cases e))
    obtain ⟨r, hr, hinvr, hfrr, hstr⟩ := ih s1 hinv1 (List.nodup_cons.1 hnd).2 (by
      intro x hx
      obtain ⟨hxl, hxa⟩ := hmem x (List.mem_cons_of_mem _ hx)
      refine ⟨by rw [hfr.lock_count]; exact hxl, ?_⟩
      rw [hst x, if_neg (fun e : x = l => (List.nodup_cons.1 hnd).1 (e ▸ hx))]
      exact hxa)
    have hres : TrxManager.releaseAll (l :: rest) s =
        some (((s.locks l).record_id :: r.1.1, node.record_value :: r.1.2), r.2) := by
      unfold TrxManager.releaseAll LockManager.GetRecord
      rw [if_neg (by rw [hact]; exact fun e => (by cases e)), hnode]
      simp only [Option.map_some', Option.some_bind]
      rw [hs1]
      simp only [Option.some_bind]
      rw [hr]
      rfl
    refine ⟨_, hres, hinvr, hfr.trans hfrr, ?_⟩
    intro x
    show (r.2.locks x).state = _
    rw [hstr x, hst x]
    by_cases hxl : x = l
    · subst hxl
      simp
    · by_cases hxr : x ∈ rest
      · simp [hxr]
      · simp [hxl, hxr]

/-- The write of a log line keeps the invariant. -/
theorem Managers.Inv.append_line {s : Managers} (hinv : s.Inv) (N : Int) (out : String) :
    (s.append N out).Inv :=
  hinv.of_same (fun _ => ⟨rfl, rfl, rfl, rfl, rfl, rfl, rfl, rfl, rfl⟩) rfl (fun _ => rfl)
    rfl rfl

/-- A `Commit` within the cap of a transaction between two of its calls: it returns the next
commit id, keeps the invariant and every record value, and makes the locks of the deque,
and no other, OBSOLETE. -/
theorem TrxManager.Commit_within {begin_value : Nat → Option Int} {t : Nat} {s : Managers}
    (hrun : TrxManager.RunInv begin_value t s)
    (hfit : isInt32 (s.global_execution_count + 1))
    (hcap : s.global_execution_count + 1 ≤ s.last_global_execution_order) :
    ∃ s2, TrxManager.Commit s t = some (s.global_execution_count + 1, s2) ∧ s2.Inv ∧
      (∀ r, (s2.lock_table r).map (fun node => node.record_value) =
        (s.lock_table r).map (fun node => node.record_value)) ∧
      (∀ x, (s2.locks x).state =
        (if x ∈ s.trx_lock_deque t then lock_t.State.OBSOLETE else (s.locks x).state)) ∧
      s2.lock_count = s.lock_count ∧
      s2.global_execution_count = s.global_execution_count + 1 ∧
      s2.last_global_execution_order = s.last_global_execution_order := by
  obtain ⟨tn, htn⟩ := Option.isSome_iff_exists.1 hrun.node
  obtain ⟨r, hr, hinvr, hfr, hst⟩ := TrxManager.releaseAll_states (s.trx_lock_deque t)
    ((s.create (s.thread_number_of t)).setCount (s.global_execution_count + 1))
    ((hrun.inv.create _).setCount _) hrun.nodup
    (fun l hl => ⟨(hrun.inv.deques t l hl).1, hrun.active l hl⟩)
  have hres : TrxManager.Commit s t = some (s.global_execution_count + 1,
      Managers.append r.2 (s.thread_number_of t)
        (TrxManager.commitLog (s.global_execution_count + 1) r.1.1 r.1.2)) := by
    unfold TrxManager.Commit
    rw [if_pos hfit, if_neg (by omega), TrxManager.openLog_of_some s t tn htn,
      TrxManager.GetTrxNode_of_some s t tn htn, hr]
    rfl
  refine ⟨_, hres, hinvr.append_line _ _, ?_, ?_, ?_, ?_, ?_⟩
  · intro rec
    exact hfr.record_value rec
  · intro x
    exact hst x
  · exact hfr.lock_count
  · exact hfr.count
  · exact hfr.last

/-- A `Commit` above the cap of a transaction between two of its calls: it returns `-1`,
keeps the invariant, gives every record its value at `Begin` and makes the locks of the
deque, and no other, OBSOLETE. -/
theorem TrxManager.Commit_beyond {begin_value : Nat → Option Int} {t : Nat} {s : Managers}
    (hrun : TrxManager.RunInv begin_value t s)
    (hfits : ∀ r v, begin_value r = some v → isInt64 v)
    (hfit : isInt32 (s.global_execution_count + 1))
    (hcap : s.global_execution_count + 1 > s.last_global_execution_order) :
    ∃ s2, TrxManager.Commit s t = some (-1, s2) ∧ s2.Inv ∧
      (∀ r, (s2.lock_table r).map (fun node => node.record_value) = begin_value r) ∧
      (∀ x, (s2.locks x).state =
        (if x ∈ s.trx_lock_deque t then lock_t.State.OBSOLETE else (s.locks x).state)) ∧
      s2.lock_count = s.lock_count ∧
      s2.global_execution_count = s.global_execution_count + 1 ∧
      s2.last_global_execution_order = s.last_global_execution_order := by
  obtain ⟨tn, htn⟩ := Option.isSome_iff_exists.1 hrun.node
  obtain ⟨s2, hs2, hinv2, hfr, hvals, hst⟩ := TrxManager.Abort_spec
    (((hrun.create_run (s.thread_number_of t)).withCount
      (s.global_execution_count + 1)).abortPre hfits)
  refine ⟨s2, ?_, hinv2, hvals, ?_, hfr.lock_count, hfr.count, hfr.last⟩
  · rw [TrxManager.Commit_above s t hfit hcap, TrxManager.openLog_of_some s t tn htn, hs2]
    rfl
  · intro x
    exact hst x
/-- An acquisition by the only open transaction that does not end asleep: every allocated
lock outside the deque of the thread is still OBSOLETE. -/
theorem LockManager.AcquireLock_alone {begin_value : Nat → Option Int} {t : Nat}
    {s : Managers} (halone : TrxManager.Alone begin_value t s) (mode : lock_t.Mode) (r : Nat)
    (a : AcquireOutcome × Managers) (h : LockManager.AcquireLock s mode r t = some a) :
    ∀ l, l < a.2.lock_count → l ∉ a.2.trx_lock_deque t →
      (a.2.locks l).state = lock_t.State.OBSOLETE := by
  have hinv := halone.run.inv
  obtain ⟨chain, tn, hq, hg, htrx, hconf, hid⟩ := LockManager.AcquireLock_pre s hinv mode r t a h
  obtain ⟨s1, id, -, hins, hres⟩ := LockManager.AcquireLock_spec s hinv mode r t chain tn hq hg
    htrx hconf hid
  generalize (LockManager.takeLock s mode r t).1 = n at hins hres
  have hform : ∃ st c, a.2 = s1.decided t n st c := by
    rcases hres with ⟨-, hacq⟩ | ⟨-, b, -, hacq⟩
    · rw [h] at hacq
      simp only [Option.some.injEq] at hacq
      exact ⟨_, _, by rw [hacq]⟩
    · cases b with
      | true =>
        rw [h] at hacq
        simp only [if_true, Option.some.injEq] at hacq
        exact ⟨_, _, by rw [hacq]⟩
      | false =>
        rw [h] at hacq
        simp only [Bool.false_eq_true, if_false, Option.some.injEq] at hacq
        exact ⟨_, _, by rw [hacq]⟩
  obtain ⟨st, c, ha⟩ := hform
  intro l hl hnot
  rw [ha] at hl hnot ⊢
  rw [Managers.decided_lock_count] at hl
  rw [Managers.decided_trx_lock_deque, hins.deque, if_pos rfl, List.mem_append,
    List.mem_singleton] at hnot
  have hln : l ≠ n := fun e => hnot (Or.inr e)
  have hls : l < s.lock_count := by
    rcases hins.count_new l hl with h1 | h1
    · exact h1
    · exact absurd h1 hln
  rw [Managers.decided_locks_ne _ _ _ _ _ _ hln, (hins.old l hln).1]
  exact halone.others l hls (fun hmem => hnot (Or.inl hmem))

/-- A `Find` of the only open transaction that returns SUCCESS changes no value. -/
theorem TrxManager.Alone.find_alone {begin_value : Nat → Option Int} {t : Nat} {s : Managers}
    (halone : TrxManager.Alone begin_value t s) (r : Nat) (v : Int) (s1 : Managers)
    (h : TrxManager.Find s t r = some (Response.SUCCESS v, s1)) :
    TrxManager.Alone begin_value t s1 ∧
    (∀ rec, (s1.lock_table rec).map (fun node => node.record_value) =
      (s.lock_table rec).map (fun node => node.record_value)) ∧
    (s.lock_table r).map (fun node => node.record_value) = some v := by
  have hrun1 := halone.run.find r v s1 h
  obtain ⟨tn, htn⟩ := Option.isSome_iff_exists.1 halone.run.node
  unfold TrxManager.Find at h
  rw [TrxManager.GetTrxNode_of_some s t tn htn] at h
  obtain ⟨a, ha, h⟩ := Option.bind_eq_some.1 h
  cases ha1 : a.1 with
  | null => rw [ha1] at h; cases h
  | waiting m => rw [ha1] at h; cases h
  | lock m =>
    rw [ha1] at h
    simp only at h
    unfold TrxManager.FindWith at h
    obtain ⟨v', hv', h⟩ := Option.map_eq_some'.1 h
    simp only [Prod.mk.injEq, Response.SUCCESS.injEq] at h
    obtain ⟨hvv, hs1⟩ := h
    subst hs1
    subst hvv
    obtain ⟨n, st, hcase, hinv2, hc, hnode, hdq, hnot, hst, hmode, hrec, hdiff, hold, hval, -⟩ :=
      LockManager.AcquireLock_run halone.run lock_t.Mode.SHARED r a ha
        (fun n e => by rw [ha1] at e; cases e)
    rcases hcase with ⟨he, hs⟩ | ⟨he, -⟩
    swap
    · rw [ha1] at he; cases he
    subst hs
    rw [ha1] at he
    cases he
    refine ⟨⟨hrun1, LockManager.AcquireLock_alone halone _ r a ha⟩, hval, ?_⟩
    rw [← hval r]
    unfold LockManager.GetRecord at hv'
    rw [if_neg (by rw [hst]; exact fun e => (by cases e)), hrec] at hv'
    exact hv'

set_option maxHeartbeats 800000 in
/-- An `Update` of the only open transaction that returns SUCCESS adds `diff` to the record
and changes no other value. -/
theorem TrxManager.Alone.update_alone {begin_value : Nat → Option Int} {t : Nat} {s : Managers}
    (halone : TrxManager.Alone begin_value t s) (r : Nat) (d v : Int) (s1 : Managers)
    (hd : isInt64 (-d))
    (h : TrxManager.Update s t r d = some (Response.SUCCESS v, s1)) :
    TrxManager.Alone begin_value t s1 ∧
    ∃ old, (s.lock_table r).map (fun node => node.record_value) = some old ∧
      isInt64 (old + d) ∧ v = old + d ∧
      ∀ rec, (s1.lock_table rec).map (fun node => node.record_value) =
        if rec = r then some (old + d)
        else (s.lock_table rec).map (fun node => node.record_value) := by
  have hrun1 := halone.run.update r d v s1 hd h
  obtain ⟨tn, htn⟩ := Option.isSome_iff_exists.1 halone.run.node
  unfold TrxManager.Update at h
  rw [TrxManager.GetTrxNode_of_some s t tn htn] at h
  obtain ⟨a, ha, h⟩ := Option.bind_eq_some.1 h
  cases ha1 : a.1 with
  | null => rw [ha1] at h; cases h
  | waiting m => rw [ha1] at h; cases h
  | lock m =>
    rw [ha1] at h
    simp only at h
    have hothers := LockManager.AcquireLock_alone halone _ r a ha
    obtain ⟨n, st, hcase, hinv2, hc, hnode, hdq, hnot, hst, hmode, hrec, hdiff, hold, hval,
      htab⟩ := LockManager.AcquireLock_run halone.run lock_t.Mode.EXCLUSIVE r a ha
        (fun n e => by rw [ha1] at e; cases e)
    rcases hcase with ⟨he, hs⟩ | ⟨he, -⟩
    swap
    · rw [ha1] at he; cases he
    subst hs
    rw [ha1] at he
    cases he
    obtain ⟨node, hnd⟩ := Option.isSome_iff_exists.1 htab
    unfold TrxManager.UpdateWith LockManager.ChangeRecord at h
    rw [if_pos ⟨hmode, by rw [hst]; exact fun e => by cases e⟩, hrec, hnd] at h
    simp only [Option.some_bind] at h
    split at h
    swap
    · cases h
    rename_i hfit
    simp only [Option.map_some', Option.some.injEq, Prod.mk.injEq,
      Response.SUCCESS.injEq] at h
    obtain ⟨hv, hs1⟩ := h
    subst hs1
    have hold0 : (s.lock_table r).map (fun node => node.record_value)
        = some node.record_value := by
      rw [← hval r, hnd]
      rfl
    refine ⟨⟨hrun1, ?_⟩, node.record_value, hold0, hfit, hv.symm, ?_⟩
    · intro l hl hnotl
      have hl' : l < a.2.lock_count := hl
      have hnotl' : l ∉ a.2.trx_lock_deque t := hnotl
      have hlm : l ≠ m := by
        intro e
        apply hnotl'
        rw [hdq, e]
        simp
      rw [Managers.setLock_locks, Function.update_noteq hlm]
      exact hothers l hl' hnotl'
    · intro rec
      rw [Managers.record_value_update _ _ _ _ _ _ hnd]
      by_cases hr : rec = r
      · rw [if_pos hr, if_pos hr]
      · rw [if_neg hr, if_neg hr, hval]
theorem sum_range_congr (f g : Nat → Int) (R : Nat) (h : ∀ x, x < R → g x = f x) :
    ((List.range R).map g).sum = ((List.range R).map f).sum := by
  congr 1
  apply List.map_congr_left
  intro x hx
  exact h x (List.mem_range.mp hx)

theorem sum_range_update (f g : Nat → Int) (d : Int) (r0 : Nat) :
    ∀ R, r0 < R → (∀ x, x ≠ r0 → g x = f x) → g r0 = f r0 + d →
      ((List.range R).map g).sum = ((List.range R).map f).sum + d := by
  intro R
  induction R with
  | zero => intro h; omega
  | succ R ih =>
    intro hr hne heq
    rw [List.range_succ, List.map_append, List.map_append, List.sum_append, List.sum_append]
    simp only [List.map_cons, List.map_nil, List.sum_cons, List.sum_nil, add_zero]
    by_cases hR : r0 = R
    · subst hR
      rw [sum_range_congr f g r0 (fun x hx => hne x (by omega)), heq]
      ring
    · rw [ih (by omega) hne heq, hne R (fun e => hR e.symm)]
      ring

/-- Equal values give equal sums. -/
theorem Managers.total_congr (s s' : Managers) (R : Nat)
    (h : ∀ rec, (s'.lock_table rec).map (fun node => node.record_value) =
      (s.lock_table rec).map (fun node => node.record_value)) :
    s'.total R = s.total R := by
  unfold Managers.total
  apply sum_range_congr
  intro x _
  show ((s'.lock_table (x + 1)).map (fun node => node.record_value)).getD 0 = _
  rw [h]

/-- Adding `d` to one of the records `1 .. R` adds `d` to the sum. -/
theorem Managers.total_update (s s' : Managers) (R r : Nat) (old d : Int)
    (hr : 1 ≤ r ∧ r ≤ R)
    (hold : (s.lock_table r).map (fun node => node.record_value) = some old)
    (h : ∀ rec, (s'.lock_table rec).map (fun node => node.record_value) =
      if rec = r then some (old + d)
      else (s.lock_table rec).map (fun node => node.record_value)) :
    s'.total R = s.total R + d := by
  unfold Managers.total
  apply sum_range_update _ _ d (r - 1) R (by omega)
  · intro x hx
    show ((s'.lock_table (x + 1)).map (fun node => node.record_value)).getD 0 = _
    rw [h, if_neg (by omega)]
  · show ((s'.lock_table (r - 1 + 1)).map (fun node => node.record_value)).getD 0 = _
    have e : r - 1 + 1 = r := by omega
    rw [e, h, if_pos rfl, hold]
    rfl

/-- The sum of the records after `InitManagers`. -/
theorem Managers.total_init (R : Nat) (cap : Int) : (Managers.init R cap).total R = 100 * R := by
  unfold Managers.total
  have h : ∀ x, x < R → ((fun r => (((Managers.init R cap).lock_table (r + 1)).map
      (fun node => node.record_value)).getD 0) x) = (fun _ => (100 : Int)) x := by
    intro x hx
    show (((Managers.init R cap).lock_table (x + 1)).map
      (fun node => node.record_value)).getD 0 = 100
    unfold Managers.init
    simp only
    rw [if_pos ⟨by omega, by omega⟩]
    rfl
  rw [sum_range_congr _ _ R h]
  simp
  ring

/-- The state after `InitManagers` is a state between two transactions. -/
theorem Managers.init_quiet (R : Nat) (cap : Int) : (Managers.init R cap).Quiet R := by
  refine ⟨Managers.init_inv R cap, ?_, ?_, Managers.init_fits R cap, le_refl _⟩
  · intro l hl
    exact absurd hl (Nat.not_lt_zero l)
  · intro r
    unfold Managers.init
    simp only
    by_cases h : 1 ≤ r ∧ r ≤ R
    · rw [if_pos h]
      simp [h]
    · rw [if_neg h]
      simp [h]

/-- In a state between two transactions no thread sleeps. -/
theorem Managers.Quiet.awake {R : Nat} {s : Managers} (hq : s.Quiet R) (t : Nat) :
    s.conflict_lock t = none := by
  cases hc : s.conflict_lock t with
  | none => rfl
  | some c =>
    obtain ⟨hlt, -, hw⟩ := hq.inv.conflicts t c hc
    rw [hq.obsolete c hlt] at hw
    cases hw

/-- A state with the invariant, every lock OBSOLETE and the values of a state between two
transactions is such a state as well. -/
theorem Managers.Quiet.of_values {R : Nat} {s s' : Managers} (hq : s.Quiet R) (hinv : s'.Inv)
    (hobs : ∀ l, l < s'.lock_count → (s'.locks l).state = lock_t.State.OBSOLETE)
    (hcount : 0 ≤ s'.global_execution_count)
    (h : ∀ rec, (s'.lock_table rec).map (fun node => node.record_value) =
      (s.lock_table rec).map (fun node => node.record_value)) : s'.Quiet R := by
  refine ⟨hinv, hobs, ?_, ?_, hcount⟩
  · intro r
    rw [← hq.records r]
    have := congrArg Option.isSome (h r)
    simp only [Option.isSome_map'] at this
    rw [this]
  · intro r node hnode
    have := h r
    rw [hnode] at this
    cases hs : s.lock_table r with
    | none => rw [hs] at this; cases this
    | some node0 =>
      rw [hs] at this
      simp only [Option.map_some', Option.some.injEq] at this
      rw [this]
      exact hq.fits r node0 hs

/-- After `Begin` in a state between two transactions the thread is the only one with an open
transaction. -/
theorem TrxManager.Alone.after_begin {R : Nat} {s : Managers} (hq : s.Quiet R) (t : Nat) :
    TrxManager.Alone (fun r => (s.lock_table r).map (fun node => node.record_value)) t
      (TrxManager.Begin s t) := by
  obtain ⟨h1, h2, -⟩ := TrxManager.Begin_spec s t (hq.awake t)
  refine ⟨TrxManager.RunInv.of_begin hq.inv t (hq.awake t), ?_⟩
  intro l hl _
  rw [h1]
  rw [h2] at hl
  exact hq.obsolete l hl
/-- A call that returns MUST_ABORTED is an `AcquireLock` that returned `nullptr`. -/
theorem TrxManager.call_must_abort {s s1 : Managers} {t : Nat} {tn : TrxNode}
    (htn : s.trx_node_table t = some tn) (op : TrxOp)
    (h : TrxManager.call s t op = some (Response.MUST_ABORTED, s1)) :
    ∃ mode r a, LockManager.AcquireLock s mode r t = some a ∧
      a.1 = AcquireOutcome.null ∧ a.2 = s1 := by
  cases op with
  | find r =>
    unfold TrxManager.call TrxManager.Find at h
    rw [TrxManager.GetTrxNode_of_some s t tn htn] at h
    obtain ⟨a, ha, h⟩ := Option.bind_eq_some.1 h
    refine ⟨lock_t.Mode.SHARED, r, a, ha, ?_⟩
    cases ha1 : a.1 with
    | null =>
      rw [ha1] at h
      simp only [Option.some.injEq, Prod.mk.injEq, true_and] at h
      exact ⟨rfl, h⟩
    | waiting m => rw [ha1] at h; cases h
    | lock m =>
      rw [ha1] at h
      simp only at h
      unfold TrxManager.FindWith at h
      obtain ⟨v', -, h⟩ := Option.map_eq_some'.1 h
      cases h
  | update r d =>
    unfold TrxManager.call TrxManager.Update at h
    rw [TrxManager.GetTrxNode_of_some s t tn htn] at h
    obtain ⟨a, ha, h⟩ := Option.bind_eq_some.1 h
    refine ⟨lock_t.Mode.EXCLUSIVE, r, a, ha, ?_⟩
    cases ha1 : a.1 with
    | null =>
      rw [ha1] at h
      simp only [Option.some.injEq, Prod.mk.injEq, true_and] at h
      exact ⟨rfl, h⟩
    | waiting m => rw [ha1] at h; cases h
    | lock m =>
      rw [ha1] at h
      simp only at h
      unfold TrxManager.UpdateWith at h
      obtain ⟨v', -, h⟩ := Option.map_eq_some'.1 h
      cases h

/-- The values at `Begin` in a state between two transactions fit `int64_t`. -/
theorem Managers.Quiet.begin_fits {R : Nat} {s : Managers} (hq : s.Quiet R) :
    ∀ r v, (s.lock_table r).map (fun node => node.record_value) = some v → isInt64 v := by
  intro r v h
  cases hs : s.lock_table r with
  | none => rw [hs] at h; cases h
  | some node =>
    rw [hs] at h
    simp only [Option.map_some', Option.some.injEq] at h
    rw [← h]
    exact hq.fits r node hs

/-- A round of a serial run that ends with `Abort` after a call returned MUST_ABORTED: every
record has its value at `Begin` again and every lock is OBSOLETE. -/
theorem RepeatTrx.abort_quiet {R : Nat} {s0 s s1 : Managers} {t : Nat} (hq : s0.Quiet R)
    (halone : TrxManager.Alone
      (fun r => (s0.lock_table r).map (fun node => node.record_value)) t s)
    (hcnt : 0 ≤ s.global_execution_count)
    (op : TrxOp) (h : TrxManager.call s t op = some (Response.MUST_ABORTED, s1))
    (x : Round × Managers) (hx : RepeatTrx.abort s1 t = some x) :
    x.1 = Round.aborted ∧ x.2.Quiet R ∧
      ∀ rec, (x.2.lock_table rec).map (fun node => node.record_value) =
        (s0.lock_table rec).map (fun node => node.record_value) := by
  obtain ⟨tn, htn⟩ := Option.isSome_iff_exists.1 halone.run.node
  have hpre := halone.run.must_abort hq.begin_fits op s1 h
  obtain ⟨mode, r, a, ha, -, hs1⟩ := TrxManager.call_must_abort htn op h
  have hothers := LockManager.AcquireLock_alone halone mode r a ha
  rw [hs1] at hothers
  obtain ⟨s2, hs2, hinv2, hfr, hvals, hst⟩ := TrxManager.Abort_spec hpre
  unfold RepeatTrx.abort at hx
  rw [hs2] at hx
  simp only [Option.map_some', Option.some.injEq] at hx
  subst hx
  have hlog := TrxManager.call_log s t op _ h
  have hc1 : s1.global_execution_count = s.global_execution_count :=
    congrArg (fun x => x.2.1) hlog
  refine ⟨rfl, hq.of_values hinv2 ?_ (by rw [hfr.count, hc1]; exact hcnt) hvals, hvals⟩
  intro l hl
  show (s2.locks l).state = _
  rw [hst l]
  by_cases hmem : l ∈ s1.trx_lock_deque t
  · rw [if_pos hmem]
  · rw [if_neg hmem]
    have hl' : l < s2.lock_count := hl
    rw [hfr.lock_count] at hl'
    exact hothers l hl' hmem
theorem isInt64_neg_succ (v : Int) (hv : isInt64 v) (h : isInt64 (v + 1)) :
    isInt64 (-(v + 1)) := by
  unfold isInt64 INT64_MIN INT64_MAX at *
  constructor <;> omega

/-- The records and the fit of their values across equal values. -/
theorem Managers.table_congr (R : Nat) (s s' : Managers)
    (hrec : ∀ r, (s.lock_table r).isSome = true ↔ 1 ≤ r ∧ r ≤ R)
    (hfits : ∀ r v, (s.lock_table r).map (fun node => node.record_value) = some v → isInt64 v)
    (h : ∀ rec, (s'.lock_table rec).map (fun node => node.record_value) =
      (s.lock_table rec).map (fun node => node.record_value)) :
    (∀ r, (s'.lock_table r).isSome = true ↔ 1 ≤ r ∧ r ≤ R) ∧
    ∀ r v, (s'.lock_table r).map (fun node => node.record_value) = some v → isInt64 v := by
  constructor
  · intro r
    rw [← hrec r]
    have := congrArg Option.isSome (h r)
    simp only [Option.isSome_map'] at this
    rw [this]
  · intro r v hv
    rw [h r] at hv
    exact hfits r v hv

/-- The records and the fit of their values across the change of one value. -/
theorem Managers.table_update (R : Nat) (s s' : Managers) (r0 : Nat) (old d : Int)
    (hrec : ∀ r, (s.lock_table r).isSome = true ↔ 1 ≤ r ∧ r ≤ R)
    (hfits : ∀ r v, (s.lock_table r).map (fun node => node.record_value) = some v → isInt64 v)
    (hold : (s.lock_table r0).map (fun node => node.record_value) = some old)
    (hnew : isInt64 (old + d))
    (h : ∀ rec, (s'.lock_table rec).map (fun node => node.record_value) =
      if rec = r0 then some (old + d)
      else (s.lock_table rec).map (fun node => node.record_value)) :
    (∀ r, (s'.lock_table r).isSome = true ↔ 1 ≤ r ∧ r ≤ R) ∧
    (∀ r v, (s'.lock_table r).map (fun node => node.record_value) = some v → isInt64 v) ∧
    (1 ≤ r0 ∧ r0 ≤ R) := by
  have hr0 : 1 ≤ r0 ∧ r0 ≤ R := by
    rw [← hrec r0]
    have := congrArg Option.isSome hold
    simp only [Option.isSome_map', Option.isSome_some] at this
    exact this
  refine ⟨?_, ?_, hr0⟩
  · intro r
    have := congrArg Option.isSome (h r)
    simp only [Option.isSome_map'] at this
    rw [this]
    by_cases hr : r = r0
    · rw [if_pos hr, hr]
      simp [hr0]
    · rw [if_neg hr, Option.isSome_map']
      exact hrec r
  · intro r v hv
    rw [h r] at hv
    by_cases hr : r = r0
    · rw [if_pos hr] at hv
      simp only [Option.some.injEq] at hv
      rw [← hv]
      exact hnew
    · rw [if_neg hr] at hv
      exact hfits r v hv

/-- A call keeps the count of the commits. -/
theorem TrxManager.call_count (s : Managers) (t : Nat) (op : TrxOp) (x : Response × Managers)
    (h : TrxManager.call s t op = some x) :
    x.2.global_execution_count = s.global_execution_count :=
  congrArg (fun y => y.2.1) (TrxManager.call_log s t op x h)

set_option maxHeartbeats 1600000 in
/-- A round of `RepeatTrx` that starts between two transactions and does not end asleep ends
between two transactions, and it adds 1 to the sum of the records when it committed and
nothing otherwise. -/
theorem RepeatTrx.round_quiet {R : Nat} {s : Managers} (hq : s.Quiet R) (t i j k : Nat)
    (x : Round × Managers) (h : RepeatTrx.round s t i j k = some x)
    (hnb : ∀ l, x.1 ≠ Round.blocked l) :
    x.2.Quiet R ∧ x.2.total R = s.total R + x.1.gain := by
  unfold RepeatTrx.round at h
  by_cases hd : i = j ∨ i = k ∨ j = k
  · rw [if_pos hd] at h
    cases h
    exact ⟨hq, by simp [Round.gain]⟩
  rw [if_neg hd] at h
  obtain ⟨-, -, hB3, -, -, hB6, -, -⟩ := TrxManager.Begin_spec s t (hq.awake t)
  have halone0 := TrxManager.Alone.after_begin hq t
  have hcnt0 : (TrxManager.Begin s t).global_execution_count = s.global_execution_count := hB6
  have hval0 : ∀ rec, ((TrxManager.Begin s t).lock_table rec).map
      (fun node => node.record_value) =
      (s.lock_table rec).map (fun node => node.record_value) := by
    intro rec
    rw [hB3]
  obtain ⟨r1, hr1, h⟩ := Option.bind_eq_some.1 h
  obtain ⟨resp1, s1⟩ := r1
  have hcnt1 : s1.global_execution_count = s.global_execution_count :=
    (TrxManager.call_count _ t (TrxOp.find i) _ hr1).trans hcnt0
  cases resp1 with
  | MUST_ABORTED =>
    simp only at h
    obtain ⟨hx1, hq', hv'⟩ := RepeatTrx.abort_quiet hq halone0 (by rw [hcnt0]; exact hq.count)
      (TrxOp.find i) hr1 x h
    refine ⟨hq', ?_⟩
    rw [Managers.total_congr _ _ R hv', hx1]
    simp [Round.gain]
  | BLOCKED l =>
    simp only [Option.some.injEq] at h
    subst h
    exact absurd rfl (hnb l)
  | SUCCESS vi =>
    simp only at h
    by_cases hf1 : isInt64 (vi + 1)
    swap
    · rw [if_neg hf1] at h
      cases h
    rw [if_pos hf1] at h
    obtain ⟨halone1, hval1, hvi⟩ := halone0.find_alone i vi s1 hr1
    have hvifit : isInt64 vi := hq.begin_fits i vi (by rw [← hval0 i]; exact hvi)
    have hval1' : ∀ rec, (s1.lock_table rec).map (fun node => node.record_value) =
        (s.lock_table rec).map (fun node => node.record_value) := by
      intro rec
      rw [hval1 rec, hval0 rec]
    obtain ⟨hrec1, hfits1⟩ := Managers.table_congr R s s1 hq.records hq.begin_fits hval1'
    obtain ⟨r2, hr2, h⟩ := Option.bind_eq_some.1 h
    obtain ⟨resp2, s2⟩ := r2
    have hcnt2 : s2.global_execution_count = s.global_execution_count :=
      (TrxManager.call_count _ t (TrxOp.update j (vi + 1)) _ hr2).trans hcnt1
    cases resp2 with
    | MUST_ABORTED =>
      simp only at h
      obtain ⟨hx1, hq', hv'⟩ := RepeatTrx.abort_quiet hq halone1
        (by rw [hcnt1]; exact hq.count) (TrxOp.update j (vi + 1)) hr2 x h
      refine ⟨hq', ?_⟩
      rw [Managers.total_congr _ _ R hv', hx1]
      simp [Round.gain]
    | BLOCKED l =>
      simp only [Option.some.injEq] at h
      subst h
      exact absurd rfl (hnb l)
    | SUCCESS v2 =>
      simp only at h
      by_cases hf2 : isInt64 (-vi)
      swap
      · rw [if_neg hf2] at h
        cases h
      rw [if_pos hf2] at h
      obtain ⟨halone2, oldj, hoj, hfj, -, hval2⟩ := halone1.update_alone j (vi + 1) v2 s2
        (isInt64_neg_succ vi hvifit hf1) hr2
      obtain ⟨hrec2, hfits2, hjR⟩ := Managers.table_update R s1 s2 j oldj (vi + 1) hrec1 hfits1
        hoj hfj hval2
      have htot2 : s2.total R = s1.total R + (vi + 1) :=
        Managers.total_update s1 s2 R j oldj (vi + 1) hjR hoj hval2
      obtain ⟨r3, hr3, h⟩ := Option.bind_eq_some.1 h
      obtain ⟨resp3, s3⟩ := r3
      have hcnt3 : s3.global_execution_count = s.global_execution_count :=
        (TrxManager.call_count _ t (TrxOp.update k (-vi)) _ hr3).trans hcnt2
      cases resp3 with
      | MUST_ABORTED =>
        simp only at h
        obtain ⟨hx1, hq', hv'⟩ := RepeatTrx.abort_quiet hq halone2
          (by rw [hcnt2]; exact hq.count) (TrxOp.update k (-vi)) hr3 x h
        refine ⟨hq', ?_⟩
        rw [Managers.total_congr _ _ R hv', hx1]
        simp [Round.gain]
      | BLOCKED l =>
        simp only [Option.some.injEq] at h
        subst h
        exact absurd rfl (hnb l)
      | SUCCESS v3 =>
        simp only at h
        obtain ⟨halone3, oldk, hok, hfk, -, hval3⟩ := halone2.update_alone k (-vi) v3 s3
          (by rw [neg_neg]; exact hvifit) hr3
        obtain ⟨hrec3, hfits3, hkR⟩ := Managers.table_update R s2 s3 k oldk (-vi) hrec2 hfits2
          hok hfk hval3
        have htot3 : s3.total R = s2.total R + (-vi) :=
          Managers.total_update s2 s3 R k oldk (-vi) hkR hok hval3
        have htot : s3.total R = s.total R + 1 := by
          rw [htot3, htot2, Managers.total_congr _ _ R hval1']
          ring
        unfold RepeatTrx.commit at h
        obtain ⟨y, hy, hxy⟩ := Option.map_eq_some'.1 h
        have hfit : isInt32 (s3.global_execution_count + 1) := by
          by_contra hno
          unfold TrxManager.Commit at hy
          rw [if_neg hno] at hy
          cases hy
        by_cases hcap : s3.global_execution_count + 1 ≤ s3.last_global_execution_order
        · obtain ⟨s4, hs4, hinv4, hval4, hst4, hlc4, hcount4, -⟩ :=
            TrxManager.Commit_within halone3.run hfit hcap
          rw [hs4] at hy
          cases hy
          have hne : ¬ s3.global_execution_count + 1 = -1 := by
            have := hq.count
            rw [hcnt3]
            omega
          simp only at hxy
          rw [if_neg hne] at hxy
          subst hxy
          obtain ⟨hrec4, hfits4⟩ := Managers.table_congr R s3 s4 hrec3 hfits3 hval4
          refine ⟨⟨hinv4, ?_, hrec4, ?_, ?_⟩, ?_⟩
          · intro l hl
            show (s4.locks l).state = _
            rw [hst4 l]
            by_cases hmem : l ∈ s3.trx_lock_deque t
            · rw [if_pos hmem]
            · rw [if_neg hmem]
              have hl' : l < s4.lock_count := hl
              rw [hlc4] at hl'
              exact halone3.others l hl' hmem
          · intro r node hnode
            apply hfits4 r
            show (s4.lock_table r).map (fun node => node.record_value) = _
            rw [hnode]
            rfl
          · show 0 ≤ s4.global_execution_count
            rw [hcount4, hcnt3]
            have := hq.count
            omega
          · show s4.total R = _
            rw [Managers.total_congr _ _ R hval4, htot]
            simp [Round.gain]
        · obtain ⟨s4, hs4, hinv4, hval4, hst4, hlc4, hcount4, -⟩ :=
            TrxManager.Commit_beyond halone3.run hq.begin_fits hfit (by omega)
          rw [hs4] at hy
          cases hy
          have hxy' : (Round.done, s4) = x := by simpa using hxy
          subst hxy'
          refine ⟨hq.of_values hinv4 ?_ ?_ hval4, ?_⟩
          · intro l hl
            rw [hst4 l]
            by_cases hmem : l ∈ s3.trx_lock_deque t
            · rw [if_pos hmem]
            · rw [if_neg hmem]
              rw [hlc4] at hl
              exact halone3.others l hl hmem
          · rw [hcount4, hcnt3]
            have := hq.count
            omega
          · show s4.total R = _
            rw [Managers.total_congr _ _ R hval4]
            simp [Round.gain]
/-- A serial run that starts between two transactions ends between two transactions with the
sum of the records raised by the number of its commits. -/
theorem RepeatTrx.serial_quiet {R : Nat} :
    ∀ (picks : List RepeatTrx.Pick) (s : Managers) (y : Nat × Managers), s.Quiet R →
      RepeatTrx.serial picks s = some y →
      y.2.Quiet R ∧ y.2.total R = s.total R + (y.1 : Int) := by
  intro picks
  induction picks with
  | nil =>
    intro s y hq h
    simp only [RepeatTrx.serial, Option.some.injEq] at h
    subst h
    exact ⟨hq, by simp⟩
  | cons p rest ih =>
    intro s y hq h
    rw [RepeatTrx.serial] at h
    obtain ⟨x, hx, h⟩ := Option.bind_eq_some.1 h
    cases hx1 : x.1 with
    | blocked l =>
      rw [hx1] at h
      cases h
    | committed c0 =>
      rw [hx1] at h
      simp only at h
      obtain ⟨z, hz, hzy⟩ := Option.map_eq_some'.1 h
      obtain ⟨hq1, ht1⟩ := RepeatTrx.round_quiet hq _ _ _ _ x hx
        (fun l e => by rw [hx1] at e; cases e)
      obtain ⟨hq2, ht2⟩ := ih x.2 z hq1 hz
      subst hzy
      refine ⟨hq2, ?_⟩
      show z.2.total R = _
      rw [ht2, ht1, hx1]
      simp only [Round.gain]
      push_cast
      ring
    | again =>
      rw [hx1] at h
      simp only at h
      obtain ⟨hq1, ht1⟩ := RepeatTrx.round_quiet hq _ _ _ _ x hx
        (fun l e => by rw [hx1] at e; cases e)
      obtain ⟨hq2, ht2⟩ := ih x.2 y hq1 h
      refine ⟨hq2, ?_⟩
      rw [ht2, ht1, hx1]
      simp [Round.gain]
    | aborted =>
      rw [hx1] at h
      simp only at h
      obtain ⟨hq1, ht1⟩ := RepeatTrx.round_quiet hq _ _ _ _ x hx
        (fun l e => by rw [hx1] at e; cases e)
      obtain ⟨hq2, ht2⟩ := ih x.2 y hq1 h
      refine ⟨hq2, ?_⟩
      rw [ht2, ht1, hx1]
      simp [Round.gain]
    | done =>
      rw [hx1] at h
      simp only at h
      obtain ⟨hq1, ht1⟩ := RepeatTrx.round_quiet hq _ _ _ _ x hx
        (fun l e => by rw [hx1] at e; cases e)
      obtain ⟨hq2, ht2⟩ := ih x.2 y hq1 h
      refine ⟨hq2, ?_⟩
      rw [ht2, ht1, hx1]
      simp [Round.gain]
/-- An acquisition by the only open transaction on a record it holds no lock on, with the ids
of the record below the sentinel, returns the new lock. -/
theorem LockManager.AcquireLock_free {begin_value : Nat → Option Int} {t : Nat}
    {s : Managers} (halone : TrxManager.Alone begin_value t s) (mode : lock_t.Mode) (r : Nat)
    (hrec : (s.lock_table r).isSome = true)
    (hfree : ∀ l ∈ s.trx_lock_deque t, (s.locks l).record_id ≠ r)
    (hid : s.next_id r ≤ LOCK_ID_MAX) :
    ∃ n a, LockManager.AcquireLock s mode r t = some (AcquireOutcome.lock n, a) := by
  have hinv := halone.run.inv
  obtain ⟨chain, hq, hg⟩ := hinv.queues r hrec
  obtain ⟨tn, htn⟩ := Option.isSome_iff_exists.1 halone.run.node
  have hconf : tn.conflict_lock = none := by
    have := halone.run.awake
    unfold Managers.conflict_lock at this
    rw [htn] at this
    exact this
  have hid' : ∀ tl, chain.getLast? = some tl →
      (s.locks tl).lock_id_on_record ≠ LOCK_ID_MAX := by
    intro tl htl
    obtain ⟨node, hnode, -, htail⟩ := hq.ends
    unfold Managers.next_id at hid
    rw [hnode] at hid
    simp only [Option.some_bind] at hid
    rw [htail, htl] at hid
    simp only at hid
    omega
  obtain ⟨s1, id, -, -, hres⟩ := LockManager.AcquireLock_spec s hinv mode r t chain tn hq hg
    htn hconf hid'
  rcases hres with ⟨-, hacq⟩ | ⟨hca, -⟩
  · exact ⟨_, _, hacq⟩
  · obtain ⟨p, hp, hst, -⟩ := hca
    obtain ⟨hlt, hrid, -⟩ := hq.members p hp
    exact absurd (halone.others p hlt (fun hmem => hfree p hmem hrid)) hst

/-- A `Find` by the only open transaction on a record it holds no lock on returns
SUCCESS. -/
theorem TrxManager.Alone.find_returns {begin_value : Nat → Option Int} {t : Nat}
    {s : Managers} (halone : TrxManager.Alone begin_value t s) (r : Nat)
    (hrec : (s.lock_table r).isSome = true)
    (hfree : ∀ l ∈ s.trx_lock_deque t, (s.locks l).record_id ≠ r)
    (hid : s.next_id r ≤ LOCK_ID_MAX) :
    ∃ v s1, TrxManager.Find s t r = some (Response.SUCCESS v, s1) ∧
      (∀ r', r' ≠ r → (∀ l ∈ s.trx_lock_deque t, (s.locks l).record_id ≠ r') →
        ∀ l ∈ s1.trx_lock_deque t, (s1.locks l).record_id ≠ r') ∧
      (∀ r', r' ≠ r → s1.next_id r' = s.next_id r') := by
  obtain ⟨n, a, hacq⟩ := LockManager.AcquireLock_free halone lock_t.Mode.SHARED r hrec hfree hid
  obtain ⟨tn, htn⟩ := Option.isSome_iff_exists.1 halone.run.node
  obtain ⟨n', st, hcase, -, -, -, hdq, -, hst, -, hrid, -, hold, -, htab⟩ :=
    LockManager.AcquireLock_run halone.run lock_t.Mode.SHARED r _ hacq
      (fun m e => by cases e)
  simp only at hdq hst hrid hold htab
  rcases hcase with ⟨he, hs⟩ | ⟨he, -⟩
  swap
  · cases he
  simp only [AcquireOutcome.lock.injEq] at he
  subst he
  subst hs
  obtain ⟨node, hnode⟩ := Option.isSome_iff_exists.1 htab
  have hids := (LockManager.AcquireLock_ids s halone.run.inv.to_shape lock_t.Mode.SHARED r t _ hacq).2.2.1
  refine ⟨node.record_value, a, ?_, ?_, hids⟩
  · unfold TrxManager.Find
    rw [TrxManager.GetTrxNode_of_some s t tn htn, hacq]
    simp only [Option.some_bind]
    unfold TrxManager.FindWith LockManager.GetRecord
    rw [if_neg (by rw [hst]; exact fun e => (by cases e)), hrid, hnode]
    rfl
  · intro r' hr' hfree' l hl
    rw [hdq, List.mem_append, List.mem_singleton] at hl
    rcases hl with hl | hl
    · rw [(hold l hl).2.2.1]
      exact hfree' l hl
    · rw [hl, hrid]
      exact fun e => hr' e.symm

set_option maxHeartbeats 800000 in
/-- An `Update` by the only open transaction on a record it holds no lock on, with a sum
that fits, returns SUCCESS. -/
theorem TrxManager.Alone.update_returns {begin_value : Nat → Option Int} {t : Nat}
    {s : Managers} (halone : TrxManager.Alone begin_value t s) (r : Nat) (d : Int)
    (hrec : (s.lock_table r).isSome = true)
    (hfree : ∀ l ∈ s.trx_lock_deque t, (s.locks l).record_id ≠ r)
    (hid : s.next_id r ≤ LOCK_ID_MAX)
    (hfit : ∀ old, (s.lock_table r).map (fun node => node.record_value) = some old →
      isInt64 (old + d)) :
    ∃ v s1, TrxManager.Update s t r d = some (Response.SUCCESS v, s1) ∧
      (∀ r', r' ≠ r → (∀ l ∈ s.trx_lock_deque t, (s.locks l).record_id ≠ r') →
        ∀ l ∈ s1.trx_lock_deque t, (s1.locks l).record_id ≠ r') ∧
      (∀ r', r' ≠ r → s1.next_id r' = s.next_id r') := by
  obtain ⟨n, a, hacq⟩ := LockManager.AcquireLock_free halone lock_t.Mode.EXCLUSIVE r hrec hfree
    hid
  obtain ⟨tn, htn⟩ := Option.isSome_iff_exists.1 halone.run.node
  obtain ⟨n', st, hcase, -, -, -, hdq, -, hst, hmode, hrid, -, hold, hval, htab⟩ :=
    LockManager.AcquireLock_run halone.run lock_t.Mode.EXCLUSIVE r _ hacq
      (fun m e => by cases e)
  simp only at hdq hst hrid hold htab hmode hval
  rcases hcase with ⟨he, hs⟩ | ⟨he, -⟩
  swap
  · cases he
  simp only [AcquireOutcome.lock.injEq] at he
  subst he
  subst hs
  obtain ⟨node, hnode⟩ := Option.isSome_iff_exists.1 htab
  have hids := (LockManager.AcquireLock_ids s halone.run.inv.to_shape lock_t.Mode.EXCLUSIVE r t _
    hacq).2.2.1
  have hfit' : isInt64 (node.record_value + d) := by
    apply hfit
    rw [← hval r, hnode]
    rfl
  have hupd := TrxManager.UpdateWith_spec a n r d node hmode
    (by rw [hst]; exact fun e => (by cases e)) hrid hnode hfit'
  refine ⟨node.record_value + d,
    (a.setNode r { node with record_value := node.record_value + d }).setLock n
      (lock_t.withDiff d), ?_, ?_, ?_⟩
  · unfold TrxManager.Update
    rw [TrxManager.GetTrxNode_of_some s t tn htn, hacq]
    simp only [Option.some_bind]
    exact hupd
  · intro r' hr' hfree' l hl
    have hl' : l ∈ a.trx_lock_deque t := hl
    have hrid' : (((a.setNode r { node with record_value := node.record_value + d }).setLock n
        (lock_t.withDiff d)).locks l).record_id = (a.locks l).record_id := by
      rw [Managers.setLock_locks]
      by_cases hln : l = n
      · rw [hln, Function.update_same]
        rfl
      · rw [Function.update_noteq hln]
        rfl
    rw [hrid']
    rw [hdq, List.mem_append, List.mem_singleton] at hl'
    rcases hl' with hl' | hl'
    · rw [(hold l hl').2.2.1]
      exact hfree' l hl'
    · rw [hl', hrid]
      exact fun e => hr' e.symm
  · intro r' hr'
    rw [← hids r' hr']
    apply Managers.next_id_congr
    · rw [Managers.setLock_lock_table, Managers.setNode_lock_table,
        Function.update_noteq hr']
    · intro tl _
      rw [Managers.setLock_locks]
      by_cases hln : tl = n
      · rw [hln, Function.update_same]
        rfl
      · rw [Function.update_noteq hln]
        rfl
/-- A call keeps the cap of the commits. -/
theorem TrxManager.call_cap (s : Managers) (t : Nat) (op : TrxOp) (x : Response × Managers)
    (h : TrxManager.call s t op = some x) :
    x.2.last_global_execution_order = s.last_global_execution_order :=
  congrArg (fun y => y.2.2.1) (TrxManager.call_log s t op x h)

theorem Option.map_value_isSome (o : Option LockTableNode) (v : Int)
    (h : o.map (fun node => node.record_value) = some v) : o.isSome = true := by
  cases o with
  | none => cases h
  | some _ => rfl

/-! ## The lock ids along a transaction -/

/-- A `Find` that comes to an outcome takes the next lock id of its record. -/
theorem TrxManager.Find_next_id (s : Managers) (hinv : s.Inv) (t r : Nat)
    (x : Response × Managers) (h : TrxManager.Find s t r = some x) :
    x.2.next_id r = s.next_id r + 1 := by
  unfold TrxManager.Find at h
  obtain ⟨a, ha, h⟩ := Option.bind_eq_some.1 h
  have hids := (LockManager.AcquireLock_ids _ (hinv.getTrxNode_inv t).to_shape _ r t a ha).2.1
  rw [TrxManager.GetTrxNode_next_id] at hids
  cases ha1 : a.1 with
  | null =>
    rw [ha1] at h
    simp only [Option.some.injEq] at h
    subst h
    exact hids
  | lock l =>
    rw [ha1] at h
    unfold TrxManager.FindWith at h
    obtain ⟨v, -, h⟩ := Option.map_eq_some'.1 h
    subst h
    exact hids
  | waiting l =>
    rw [ha1] at h
    simp only [Option.some.injEq] at h
    subst h
    exact hids

theorem LockManager.ReleaseLock_next_id (s s' : Managers) (l : Nat)
    (h : LockManager.ReleaseLock s l = some s') (r : Nat) : s'.next_id r = s.next_id r := by
  have hfr := LockManager.ReleaseLock_frame s s' l h
  apply Managers.next_id_congr
  · have := hfr.tail r
    cases h1 : s'.lock_table r with
    | none =>
      rw [h1] at this
      cases h2 : s.lock_table r with
      | none => rfl
      | some n2 => rw [h2] at this; cases this
    | some n1 =>
      rw [h1] at this
      cases h2 : s.lock_table r with
      | none => rw [h2] at this; cases this
      | some n2 =>
        rw [h2] at this
        simp only [Option.map_some', Option.some.injEq] at this
        simp only [Option.some_bind]
        exact this
  · intro tl _
    exact hfr.lock_id tl

theorem LockManager.ChangeRecord_next_id (s : Managers) (l : Nat) (d : Int)
    (x : Int × Managers) (h : LockManager.ChangeRecord s l d = some x) (r : Nat) :
    x.2.next_id r = s.next_id r := by
  unfold LockManager.ChangeRecord at h
  split at h
  swap
  · cases h
  obtain ⟨node, hnode, h⟩ := Option.bind_eq_some.1 h
  split at h
  swap
  · cases h
  simp only [Option.some.injEq] at h
  subst h
  apply Managers.next_id_congr
  · simp only [Managers.setNode_lock_table]
    by_cases hr : r = (s.locks l).record_id
    · subst hr
      rw [Function.update_same, hnode]
      rfl
    · rw [Function.update_noteq hr]
  · intro tl _
    rfl

theorem TrxManager.rollback_next_id :
    ∀ (deque : List Nat) (s s' : Managers), TrxManager.rollback deque s = some s' →
      ∀ r, s'.next_id r = s.next_id r := by
  intro deque
  induction deque with
  | nil =>
    intro s s' h r
    simp only [TrxManager.rollback, Option.some.injEq] at h
    subst h
    rfl
  | cons l rest ih =>
    intro s s' h r
    unfold TrxManager.rollback at h
    obtain ⟨s1, h1, h⟩ := Option.bind_eq_some.1 h
    rw [ih s1 s' h r]
    unfold TrxManager.rollbackOne at h1
    obtain ⟨s0, h0, h1⟩ := Option.bind_eq_some.1 h1
    rw [LockManager.ReleaseLock_next_id s0 s1 l h1 r]
    split at h0
    · split at h0
      swap
      · cases h0
      obtain ⟨x, hx, h0⟩ := Option.map_eq_some'.1 h0
      subst h0
      exact LockManager.ChangeRecord_next_id s l _ x hx r
    · simp only [Option.some.injEq] at h0
      subst h0
      rfl

theorem TrxManager.Abort_next_id (s s' : Managers) (t : Nat)
    (h : TrxManager.Abort s t = some s') (r : Nat) : s'.next_id r = s.next_id r := by
  unfold TrxManager.Abort at h
  rw [TrxManager.rollback_next_id _ _ _ h r, TrxManager.GetTrxNode_next_id]

/-- An `Update` that comes to an outcome takes the next lock id of its record. -/
theorem TrxManager.Update_next_id (s : Managers) (hinv : s.Inv) (t r : Nat) (d : Int)
    (x : Response × Managers) (h : TrxManager.Update s t r d = some x) :
    x.2.next_id r = s.next_id r + 1 := by
  unfold TrxManager.Update at h
  obtain ⟨a, ha, h⟩ := Option.bind_eq_some.1 h
  have hids := (LockManager.AcquireLock_ids _ (hinv.getTrxNode_inv t).to_shape _ r t a ha).2.1
  rw [TrxManager.GetTrxNode_next_id] at hids
  cases ha1 : a.1 with
  | null =>
    rw [ha1] at h
    simp only [Option.some.injEq] at h
    subst h
    exact hids
  | lock l =>
    rw [ha1] at h
    unfold TrxManager.UpdateWith at h
    obtain ⟨v, hv, h⟩ := Option.map_eq_some'.1 h
    subst h
    rw [← hids, ← LockManager.ChangeRecord_next_id a.2 l d v hv r]
    apply Managers.next_id_congr
    · rw [Managers.setLock_lock_table]
    · intro tl _
      rw [Managers.setLock_locks, Function.update_apply]
      split
      · rename_i e; subst e; rfl
      · rfl
  | waiting l =>
    rw [ha1] at h
    simp only [Option.some.injEq] at h
    subst h
    exact hids

theorem TrxManager.releaseAll_next_id :
    ∀ (deque : List Nat) (s : Managers) (x : (List Nat × List Int) × Managers),
      TrxManager.releaseAll deque s = some x → ∀ r, x.2.next_id r = s.next_id r := by
  intro deque
  induction deque with
  | nil =>
    intro s x h r
    simp only [TrxManager.releaseAll, Option.some.injEq] at h
    subst h
    rfl
  | cons l rest ih =>
    intro s x h r
    unfold TrxManager.releaseAll at h
    obtain ⟨v, -, h⟩ := Option.bind_eq_some.1 h
    obtain ⟨s1, h1, h⟩ := Option.bind_eq_some.1 h
    obtain ⟨y, hy, h⟩ := Option.map_eq_some'.1 h
    subst h
    show y.2.next_id r = _
    rw [ih s1 y hy r, LockManager.ReleaseLock_next_id s s1 l h1 r]

/-- A `Commit` keeps the next lock id of every record. -/
theorem TrxManager.Commit_next_id (s : Managers) (t : Nat) (x : Int × Managers)
    (h : TrxManager.Commit s t = some x) (r : Nat) : x.2.next_id r = s.next_id r := by
  have h0 : ((TrxManager.openLog s t).setCount (s.global_execution_count + 1)).next_id r =
      s.next_id r := TrxManager.GetTrxNode_next_id s t r
  unfold TrxManager.Commit at h
  split at h
  swap
  · cases h
  split at h
  · obtain ⟨s2, hs2, h⟩ := Option.map_eq_some'.1 h
    subst h
    rw [← h0]
    exact TrxManager.rollback_next_id _ _ _ hs2 r
  · obtain ⟨y, hy, h⟩ := Option.map_eq_some'.1 h
    subst h
    rw [← h0, ← TrxManager.releaseAll_next_id _ _ _ hy r]
    rfl

set_option maxHeartbeats 1600000 in
/-- A round of `RepeatTrx` that starts between two transactions, on three distinct records,
returns when its four sums fit `int64_t`, the next commit id fits `int` and the ids of the
three records are below the sentinel: it neither sleeps nor aborts, and it commits with the
next commit id when that is within the cap and ends with `-1` otherwise.  The count of the
commits has grown by one, the cap is as it was, and the next lock id of a record has grown
by one at most. -/
theorem RepeatTrx.round_runs {R : Nat} {s : Managers} (hq : s.Quiet R) (t i j k : Nat)
    (vi vj vk : Int) (hd : ¬ (i = j ∨ i = k ∨ j = k))
    (hi : (s.lock_table i).map (fun node => node.record_value) = some vi)
    (hj : (s.lock_table j).map (fun node => node.record_value) = some vj)
    (hk : (s.lock_table k).map (fun node => node.record_value) = some vk)
    (hf1 : isInt64 (vi + 1)) (hf2 : isInt64 (vj + (vi + 1))) (hf3 : isInt64 (-vi))
    (hf4 : isInt64 (vk + -vi)) (hc : isInt32 (s.global_execution_count + 1))
    (hid : s.next_id i ≤ LOCK_ID_MAX ∧ s.next_id j ≤ LOCK_ID_MAX ∧
      s.next_id k ≤ LOCK_ID_MAX) :
    ∃ s', ((s.global_execution_count + 1 ≤ s.last_global_execution_order ∧
        RepeatTrx.round s t i j k =
          some (Round.committed (s.global_execution_count + 1), s')) ∨
      (s.global_execution_count + 1 > s.last_global_execution_order ∧
        RepeatTrx.round s t i j k = some (Round.done, s'))) ∧
      s'.global_execution_count = s.global_execution_count + 1 ∧
      s'.last_global_execution_order = s.last_global_execution_order ∧
      ∀ r, s'.next_id r ≤ s.next_id r + 1 := by
  have hij : i ≠ j := fun e => hd (Or.inl e)
  have hik : i ≠ k := fun e => hd (Or.inr (Or.inl e))
  have hjk : j ≠ k := fun e => hd (Or.inr (Or.inr e))
  obtain ⟨hB1, -, hB3, -, -, hB6, hB7, -, -, -, hB11⟩ :=
    TrxManager.Begin_spec s t (hq.awake t)
  have halone0 := TrxManager.Alone.after_begin hq t
  have hdq0 : (TrxManager.Begin s t).trx_lock_deque t = [] := by
    rw [hB11 t, if_pos rfl]
  have hnid0 : ∀ r, (TrxManager.Begin s t).next_id r = s.next_id r := by
    intro r
    apply Managers.next_id_congr
    · rw [hB3]
    · intro tl _
      rw [hB1]
  have hfree0 : ∀ r, ∀ l ∈ (TrxManager.Begin s t).trx_lock_deque t,
      ((TrxManager.Begin s t).locks l).record_id ≠ r := by
    intro r l hl
    rw [hdq0] at hl
    cases hl
  -- Find(i)
  obtain ⟨v1, s1, hfind, hfr1, hnid1⟩ := halone0.find_returns i
    (by rw [hB3]; exact Option.map_value_isSome _ _ hi) (hfree0 i)
    (by rw [hnid0]; exact hid.1)
  obtain ⟨halone1, hval1, hv1⟩ := halone0.find_alone i v1 s1 hfind
  rw [hB3, hi] at hv1
  simp only [Option.some.injEq] at hv1
  subst hv1
  have hval1' : ∀ rec, (s1.lock_table rec).map (fun node => node.record_value) =
      (s.lock_table rec).map (fun node => node.record_value) := by
    intro rec
    rw [hval1 rec, hB3]
  have hvifit : isInt64 vi := hq.begin_fits i vi hi
  -- Update(j, vi + 1)
  obtain ⟨v2, s2, hupd1, hfr2, hnid2⟩ := halone1.update_returns j (vi + 1)
    (by
      apply Option.map_value_isSome _ vj
      rw [hval1' j]
      exact hj)
    (hfr1 j (fun e => hij e.symm) (hfree0 j))
    (by rw [hnid1 j (fun e => hij e.symm), hnid0]; exact hid.2.1)
    (by
      intro old hold
      rw [hval1' j, hj] at hold
      simp only [Option.some.injEq] at hold
      rw [← hold]
      exact hf2)
  obtain ⟨halone2, oldj, hoj, -, -, hval2⟩ := halone1.update_alone j (vi + 1) v2 s2
    (isInt64_neg_succ vi hvifit hf1) hupd1
  have hk2 : (s2.lock_table k).map (fun node => node.record_value) = some vk := by
    rw [hval2 k, if_neg (fun e => hjk e.symm), hval1' k]
    exact hk
  -- Update(k, -vi)
  obtain ⟨v3, s3, hupd2, -, hnid3⟩ := halone2.update_returns k (-vi)
    (Option.map_value_isSome _ vk hk2)
    (hfr2 k (fun e => hjk e.symm) (hfr1 k (fun e => hik e.symm) (hfree0 k)))
    (by
      rw [hnid2 k (fun e => hjk e.symm), hnid1 k (fun e => hik e.symm), hnid0]
      exact hid.2.2)
    (by
      intro old hold
      rw [hk2] at hold
      simp only [Option.some.injEq] at hold
      rw [← hold]
      exact hf4)
  obtain ⟨halone3, -, -, -, -, -⟩ := halone2.update_alone k (-vi) v3 s3
    (by rw [neg_neg]; exact hvifit) hupd2
  have hcnt3 : s3.global_execution_count = s.global_execution_count :=
    (TrxManager.call_count _ t (TrxOp.update k (-vi)) _ hupd2).trans
      ((TrxManager.call_count _ t (TrxOp.update j (vi + 1)) _ hupd1).trans
        ((TrxManager.call_count _ t (TrxOp.find i) _ hfind).trans hB6))
  have hcap3 : s3.last_global_execution_order = s.last_global_execution_order :=
    (TrxManager.call_cap _ t (TrxOp.update k (-vi)) _ hupd2).trans
      ((TrxManager.call_cap _ t (TrxOp.update j (vi + 1)) _ hupd1).trans
        ((TrxManager.call_cap _ t (TrxOp.find i) _ hfind).trans hB7))
  have hround : RepeatTrx.round s t i j k = RepeatTrx.commit s3 t := by
    unfold RepeatTrx.round
    rw [if_neg hd, hfind]
    simp only [Option.some_bind]
    rw [if_pos hf1, hupd1]
    simp only [Option.some_bind]
    rw [if_pos hf3, hupd2]
    simp only [Option.some_bind]
  have hfit3 : isInt32 (s3.global_execution_count + 1) := by rw [hcnt3]; exact hc
  have hids3 : ∀ r, s3.next_id r ≤ s.next_id r + 1 := by
    intro r
    have e1 := TrxManager.Find_next_id _ halone0.run.inv t i _ hfind
    have e2 := TrxManager.Update_next_id _ halone1.run.inv t j (vi + 1) _ hupd1
    have e3 := TrxManager.Update_next_id _ halone2.run.inv t k (-vi) _ hupd2
    simp only at e1 e2 e3
    by_cases hrk : r = k
    · subst hrk
      rw [e3, hnid2 r (fun e => hjk e.symm), hnid1 r (fun e => hik e.symm), hnid0]
    · rw [hnid3 r hrk]
      by_cases hrj : r = j
      · subst hrj
        rw [e2, hnid1 r (fun e => hij e.symm), hnid0]
      · rw [hnid2 r hrj]
        by_cases hri : r = i
        · subst hri
          rw [e1, hnid0]
        · rw [hnid1 r hri, hnid0]
          omega
  have hfinal : ∀ (c : Int) (s4 : Managers), TrxManager.Commit s3 t = some (c, s4) →
      s4.global_execution_count = s.global_execution_count + 1 ∧
      s4.last_global_execution_order = s.last_global_execution_order ∧
      ∀ r, s4.next_id r ≤ s.next_id r + 1 := by
    intro c s4 hs4
    refine ⟨?_, ?_, fun r => ?_⟩
    · rw [(TrxManager.Commit_count s3 t _ hs4).2.1, hcnt3]
    · rw [(TrxManager.Commit_count s3 t _ hs4).2.2.1, hcap3]
    · rw [TrxManager.Commit_next_id s3 t _ hs4 r]
      exact hids3 r
  by_cases hcap : s.global_execution_count + 1 ≤ s.last_global_execution_order
  · obtain ⟨s4, hs4, -⟩ := TrxManager.Commit_within halone3.run hfit3
      (by rw [hcnt3, hcap3]; exact hcap)
    refine ⟨s4, Or.inl ⟨hcap, ?_⟩, hfinal _ s4 hs4⟩
    have hne : ¬ s.global_execution_count + 1 = -1 := by
      have := hq.count
      omega
    rw [hround]
    unfold RepeatTrx.commit
    rw [hs4, hcnt3]
    simp only [Option.map_some']
    rw [if_neg hne]
  · obtain ⟨s4, hs4, -⟩ := TrxManager.Commit_beyond halone3.run hq.begin_fits hfit3
      (by rw [hcnt3, hcap3]; omega)
    refine ⟨s4, Or.inr ⟨by omega, ?_⟩, hfinal _ s4 hs4⟩
    rw [hround]
    unfold RepeatTrx.commit
    rw [hs4]
    simp

/-- A round of `RepeatTrx` that starts between two transactions, on three distinct records,
returns when its four sums fit `int64_t`, the next commit id fits `int` and the ids of the
three records are below the sentinel: it neither sleeps nor aborts, and it commits with the
next commit id when that is within the cap and ends with `-1` otherwise. -/
theorem RepeatTrx.round_returns {R : Nat} {s : Managers} (hq : s.Quiet R) (t i j k : Nat)
    (vi vj vk : Int) (hd : ¬ (i = j ∨ i = k ∨ j = k))
    (hi : (s.lock_table i).map (fun node => node.record_value) = some vi)
    (hj : (s.lock_table j).map (fun node => node.record_value) = some vj)
    (hk : (s.lock_table k).map (fun node => node.record_value) = some vk)
    (hf1 : isInt64 (vi + 1)) (hf2 : isInt64 (vj + (vi + 1))) (hf3 : isInt64 (-vi))
    (hf4 : isInt64 (vk + -vi)) (hc : isInt32 (s.global_execution_count + 1))
    (hid : s.next_id i ≤ LOCK_ID_MAX ∧ s.next_id j ≤ LOCK_ID_MAX ∧
      s.next_id k ≤ LOCK_ID_MAX) :
    ∃ s', (s.global_execution_count + 1 ≤ s.last_global_execution_order ∧
        RepeatTrx.round s t i j k =
          some (Round.committed (s.global_execution_count + 1), s')) ∨
      (s.global_execution_count + 1 > s.last_global_execution_order ∧
        RepeatTrx.round s t i j k = some (Round.done, s')) := by
  obtain ⟨s', h, -⟩ := RepeatTrx.round_runs hq t i j k vi vj vk hd hi hj hk hf1 hf2 hf3 hf4
    hc hid
  exact ⟨s', h⟩

set_option maxHeartbeats 800000 in
/-- An `Update` by the only open transaction on a record it holds no lock on, with a sum
that does not fit `int64_t`: the addition `record_value += diff` overflows, and the call has
no defined outcome. -/
theorem TrxManager.Alone.update_overflows {begin_value : Nat → Option Int} {t : Nat}
    {s : Managers} (halone : TrxManager.Alone begin_value t s) (r : Nat) (d : Int) (old : Int)
    (hold : (s.lock_table r).map (fun node => node.record_value) = some old)
    (hfree : ∀ l ∈ s.trx_lock_deque t, (s.locks l).record_id ≠ r)
    (hid : s.next_id r ≤ LOCK_ID_MAX)
    (hover : ¬ isInt64 (old + d)) :
    TrxManager.Update s t r d = none := by
  have hrec : (s.lock_table r).isSome = true := Option.map_value_isSome _ old hold
  obtain ⟨n, a, hacq⟩ := LockManager.AcquireLock_free halone lock_t.Mode.EXCLUSIVE r hrec hfree
    hid
  obtain ⟨tn, htn⟩ := Option.isSome_iff_exists.1 halone.run.node
  obtain ⟨n', st, hcase, -, -, -, hdq, -, hst, hmode, hrid, -, -, hval, htab⟩ :=
    LockManager.AcquireLock_run halone.run lock_t.Mode.EXCLUSIVE r _ hacq
      (fun m e => by cases e)
  simp only at hdq hst hrid htab hmode hval
  rcases hcase with ⟨he, hs⟩ | ⟨he, -⟩
  swap
  · cases he
  simp only [AcquireOutcome.lock.injEq] at he
  subst he
  subst hs
  obtain ⟨node, hnode⟩ := Option.isSome_iff_exists.1 htab
  have hov : ¬ isInt64 (node.record_value + d) := by
    have e : node.record_value = old := by
      have := hval r
      rw [hnode, hold] at this
      simpa using this
    rw [e]
    exact hover
  unfold TrxManager.Update
  rw [TrxManager.GetTrxNode_of_some s t tn htn, hacq]
  simp only [Option.some_bind]
  unfold TrxManager.UpdateWith LockManager.ChangeRecord
  rw [if_pos ⟨hmode, by rw [hst]; exact fun e => (by cases e)⟩, hrid, hnode]
  simp only [Option.some_bind]
  rw [if_neg hov]
  rfl

set_option maxHeartbeats 1600000 in
/-- A round of `RepeatTrx` that starts between two transactions, on three distinct records,
one of whose four sums `Ri + 1`, `Rj + (Ri + 1)`, `-Ri`, `Rk + -Ri` does not fit `int64_t`:
the sum overflows, and the round has no defined outcome. -/
theorem RepeatTrx.round_overflows {R : Nat} {s : Managers} (hq : s.Quiet R) (t i j k : Nat)
    (vi vj vk : Int) (hd : ¬ (i = j ∨ i = k ∨ j = k))
    (hi : (s.lock_table i).map (fun node => node.record_value) = some vi)
    (hj : (s.lock_table j).map (fun node => node.record_value) = some vj)
    (hk : (s.lock_table k).map (fun node => node.record_value) = some vk)
    (hid : s.next_id i ≤ LOCK_ID_MAX ∧ s.next_id j ≤ LOCK_ID_MAX ∧
      s.next_id k ≤ LOCK_ID_MAX)
    (hover : ¬ (isInt64 (vi + 1) ∧ isInt64 (vj + (vi + 1)) ∧ isInt64 (-vi) ∧
      isInt64 (vk + -vi))) :
    RepeatTrx.round s t i j k = none := by
  have hij : i ≠ j := fun e => hd (Or.inl e)
  have hik : i ≠ k := fun e => hd (Or.inr (Or.inl e))
  have hjk : j ≠ k := fun e => hd (Or.inr (Or.inr e))
  obtain ⟨hB1, -, hB3, -, -, hB6, hB7, -, -, -, hB11⟩ :=
    TrxManager.Begin_spec s t (hq.awake t)
  have halone0 := TrxManager.Alone.after_begin hq t
  have hdq0 : (TrxManager.Begin s t).trx_lock_deque t = [] := by
    rw [hB11 t, if_pos rfl]
  have hnid0 : ∀ r, (TrxManager.Begin s t).next_id r = s.next_id r := by
    intro r
    apply Managers.next_id_congr
    · rw [hB3]
    · intro tl _
      rw [hB1]
  have hfree0 : ∀ r, ∀ l ∈ (TrxManager.Begin s t).trx_lock_deque t,
      ((TrxManager.Begin s t).locks l).record_id ≠ r := by
    intro r l hl
    rw [hdq0] at hl
    cases hl
  -- Find(i)
  obtain ⟨v1, s1, hfind, hfr1, hnid1⟩ := halone0.find_returns i
    (by rw [hB3]; exact Option.map_value_isSome _ _ hi) (hfree0 i)
    (by rw [hnid0]; exact hid.1)
  obtain ⟨halone1, hval1, hv1⟩ := halone0.find_alone i v1 s1 hfind
  rw [hB3, hi] at hv1
  simp only [Option.some.injEq] at hv1
  subst hv1
  have hval1' : ∀ rec, (s1.lock_table rec).map (fun node => node.record_value) =
      (s.lock_table rec).map (fun node => node.record_value) := by
    intro rec
    rw [hval1 rec, hB3]
  have hvifit : isInt64 vi := hq.begin_fits i vi hi
  by_cases hf1 : isInt64 (vi + 1)
  swap
  · unfold RepeatTrx.round
    rw [if_neg hd, hfind]
    simp only [Option.some_bind]
    rw [if_neg hf1]
  by_cases hf2 : isInt64 (vj + (vi + 1))
  swap
  · have hnone := halone1.update_overflows j (vi + 1) vj
      (by rw [hval1' j]; exact hj)
      (hfr1 j (fun e => hij e.symm) (hfree0 j))
      (by rw [hnid1 j (fun e => hij e.symm), hnid0]; exact hid.2.1) hf2
    unfold RepeatTrx.round
    rw [if_neg hd, hfind]
    simp only [Option.some_bind]
    rw [if_pos hf1, hnone]
    rfl
  -- Update(j, vi + 1)
  obtain ⟨v2, s2, hupd1, hfr2, hnid2⟩ := halone1.update_returns j (vi + 1)
    (by
      apply Option.map_value_isSome _ vj
      rw [hval1' j]
      exact hj)
    (hfr1 j (fun e => hij e.symm) (hfree0 j))
    (by rw [hnid1 j (fun e => hij e.symm), hnid0]; exact hid.2.1)
    (by
      intro old hold
      rw [hval1' j, hj] at hold
      simp only [Option.some.injEq] at hold
      rw [← hold]
      exact hf2)
  obtain ⟨halone2, oldj, hoj, -, -, hval2⟩ := halone1.update_alone j (vi + 1) v2 s2
    (isInt64_neg_succ vi hvifit hf1) hupd1
  have hk2 : (s2.lock_table k).map (fun node => node.record_value) = some vk := by
    rw [hval2 k, if_neg (fun e => hjk e.symm), hval1' k]
    exact hk
  by_cases hf3 : isInt64 (-vi)
  swap
  · unfold RepeatTrx.round
    rw [if_neg hd, hfind]
    simp only [Option.some_bind]
    rw [if_pos hf1, hupd1]
    simp only [Option.some_bind]
    rw [if_neg hf3]
  have hf4 : ¬ isInt64 (vk + -vi) := fun h4 => hover ⟨hf1, hf2, hf3, h4⟩
  have hnone := halone2.update_overflows k (-vi) vk hk2
    (hfr2 k (fun e => hjk e.symm) (hfr1 k (fun e => hik e.symm) (hfree0 k)))
    (by
      rw [hnid2 k (fun e => hjk e.symm), hnid1 k (fun e => hik e.symm), hnid0]
      exact hid.2.2) hf4
  unfold RepeatTrx.round
  rw [if_neg hd, hfind]
  simp only [Option.some_bind]
  rw [if_pos hf1, hupd1]
  simp only [Option.some_bind]
  rw [if_pos hf3, hnone]
  rfl

/-- The loop over the files does not end when one of the files does not exist. -/
theorem IsCorrect.readFiles_missing (files : Int → Option String) (N : Nat)
    (hN : files ((N : Nat) : Int) = none) :
    ∀ (tids : List Nat) (log_vector : List Log), N ∈ tids →
      IsCorrect.readFiles files tids log_vector = none := by
  intro tids
  induction tids with
  | nil => intro _ h; cases h
  | cons tid tids ih =>
    intro log_vector hmem
    rw [IsCorrect.readFiles]
    by_cases e : N = tid
    · subst e
      rw [hN]
      rfl
    · have hin : N ∈ tids := by
        rcases List.mem_cons.1 hmem with h | h
        · exact absurd h e
        · exact h
      cases files ((tid : Nat) : Int) with
      | none => rfl
      | some text =>
        simp only [Option.some_bind]
        cases readLogs (text.data.length + 1) (IFStream.open_ text) Log.default log_vector with
        | none => rfl
        | some lv => exact ih lv hin

/-- The checker does not return when one of the files `thread1.txt` up to
`thread<thread_count>.txt` does not exist. -/
theorem IsCorrect.missing_file (R thread_count : Nat) (cap : Int)
    (files : Int → Option String) (N : Nat) (h1 : 1 ≤ N) (h2 : N ≤ thread_count)
    (hN : files ((N : Nat) : Int) = none) : IsCorrect R thread_count cap files = none := by
  unfold IsCorrect
  rw [IsCorrect.readFiles_missing files N hN _ _ (by
    rw [List.mem_map]
    exact ⟨N - 1, List.mem_range.2 (by omega), by omega⟩)]
  rfl

/-! ## The thread numbers of the nodes -/

theorem Managers.Numbered.unchanged (s : Managers) : s.Numbered s :=
  fun _ node h => ⟨node, h, rfl⟩

theorem Managers.Numbered.then {s s1 s2 : Managers} (h1 : s.Numbered s1)
    (h2 : s1.Numbered s2) : s.Numbered s2 := by
  intro u node h
  obtain ⟨node1, hn1, e1⟩ := h1 u node h
  obtain ⟨node2, hn2, e2⟩ := h2 u node1 hn1
  exact ⟨node2, hn2, e2.trans e1⟩

theorem Managers.Numbered.of_table {s s' : Managers}
    (h : s'.trx_node_table = s.trx_node_table) : s.Numbered s' :=
  fun _ node hn => ⟨node, by rw [h]; exact hn, rfl⟩

theorem Managers.Numbered.of_release {s s' : Managers} (h : s.ReleaseFrame s') :
    s.Numbered s' :=
  fun u node hn => ⟨node, h.trx u node hn, rfl⟩

theorem Managers.setConflict_numbered (s : Managers) (t : Nat) (c : Option Nat) :
    s.Numbered (s.setConflict t c) := by
  intro u node hn
  cases ht : s.trx_node_table t with
  | none =>
    unfold Managers.setConflict
    rw [ht]
    exact ⟨node, hn, rfl⟩
  | some tn =>
    rw [Managers.setConflict_of_some s t c tn ht]
    by_cases hu : u = t
    · subst hu
      rw [ht] at hn
      cases hn
      exact ⟨{ node with conflict_lock := c }, by simp [Managers.setTrx], rfl⟩
    · exact ⟨node, by simp [Managers.setTrx, Function.update_noteq hu, hn], rfl⟩

theorem TrxManager.GetTrxNode_numbered (s : Managers) (t : Nat) :
    s.Numbered (TrxManager.GetTrxNode s t) := by
  intro u node hn
  cases ht : s.trx_node_table t with
  | some tn =>
    rw [TrxManager.GetTrxNode_of_some s t tn ht]
    exact ⟨node, hn, rfl⟩
  | none =>
    have hu : u ≠ t := fun e => by rw [e, ht] at hn; cases hn
    refine ⟨node, ?_, rfl⟩
    unfold TrxManager.GetTrxNode
    rw [ht]
    simp only
    rw [Function.update_noteq hu]
    exact hn

theorem TrxManager.Begin_numbered (s : Managers) (t : Nat) :
    s.Numbered (TrxManager.Begin s t) := by
  refine (TrxManager.GetTrxNode_numbered s t).then ?_
  unfold TrxManager.Begin
  cases ht : (TrxManager.GetTrxNode s t).trx_node_table t with
  | none => exact Managers.Numbered.unchanged _
  | some tn =>
    simp only
    intro u node hn
    by_cases hu : u = t
    · subst hu
      rw [ht] at hn
      cases hn
      exact ⟨{ tn with conflict_lock := none, trx_lock_deque := [] },
        by simp [Managers.setTrx], rfl⟩
    · exact ⟨node, by simp [Managers.setTrx, Function.update_noteq hu, hn], rfl⟩

/-- An acquisition keeps the nodes of the threads and their numbers. -/
theorem LockManager.AcquireLock_numbered (s : Managers) (hinv : s.Inv) (mode : lock_t.Mode)
    (r t : Nat) (a : AcquireOutcome × Managers)
    (h : LockManager.AcquireLock s mode r t = some a) : s.Numbered a.2 := by
  obtain ⟨chain, tn, hq, hg, htrx, hconf, hid⟩ := LockManager.AcquireLock_pre s hinv mode r t a h
  obtain ⟨s1, id, -, hins, hres⟩ := LockManager.AcquireLock_spec s hinv mode r t chain tn hq hg
    htrx hconf hid
  generalize (LockManager.takeLock s mode r t).1 = n at hins hres
  have hform : ∃ st c, a.2 = s1.decided t n st c := by
    rcases hres with ⟨-, hacq⟩ | ⟨-, b, -, hacq⟩
    · rw [h] at hacq
      simp only [Option.some.injEq] at hacq
      exact ⟨_, _, by rw [hacq]⟩
    · cases b with
      | true =>
        rw [h] at hacq
        simp only [if_true, Option.some.injEq] at hacq
        exact ⟨_, _, by rw [hacq]⟩
      | false =>
        rw [h] at hacq
        simp only [Bool.false_eq_true, if_false, Option.some.injEq] at hacq
        exact ⟨_, _, by rw [hacq]⟩
  obtain ⟨st, c, ha⟩ := hform
  rw [ha]
  have h1 : s.Numbered s1 := by
    intro u node hn
    by_cases hu : u = t
    · subst hu
      obtain ⟨trx_node, ht0, ht1⟩ := hins.trx
      rw [ht0] at hn
      cases hn
      exact ⟨_, ht1, rfl⟩
    · exact ⟨node, by rw [hins.other_trx u hu]; exact hn, rfl⟩
  refine h1.then ?_
  unfold Managers.decided
  exact (@Managers.Numbered.of_table s1 (s1.setLock n (lock_t.withState st)) rfl).then
    (Managers.setConflict_numbered _ t c)

/-- A call keeps the nodes of the threads and their numbers. -/
theorem TrxManager.call_numbered (s : Managers) (hinv : s.Inv) (t : Nat) (tn : TrxNode)
    (htn : s.trx_node_table t = some tn) (op : TrxOp) (x : Response × Managers)
    (h : TrxManager.call s t op = some x) : s.Numbered x.2 := by
  cases op with
  | find r =>
    unfold TrxManager.call TrxManager.Find at h
    rw [TrxManager.GetTrxNode_of_some s t tn htn] at h
    obtain ⟨a, ha, h⟩ := Option.bind_eq_some.1 h
    have hnum := LockManager.AcquireLock_numbered s hinv _ r t a ha
    split at h
    · simp only [Option.some.injEq] at h
      subst h
      exact hnum
    · unfold TrxManager.FindWith at h
      obtain ⟨v, -, h⟩ := Option.map_eq_some'.1 h
      subst h
      exact hnum
    · simp only [Option.some.injEq] at h
      subst h
      exact hnum
  | update r d =>
    unfold TrxManager.call TrxManager.Update at h
    rw [TrxManager.GetTrxNode_of_some s t tn htn] at h
    obtain ⟨a, ha, h⟩ := Option.bind_eq_some.1 h
    have hnum := LockManager.AcquireLock_numbered s hinv _ r t a ha
    split at h
    · simp only [Option.some.injEq] at h
      subst h
      exact hnum
    · unfold TrxManager.UpdateWith LockManager.ChangeRecord at h
      obtain ⟨v, hv, h⟩ := Option.map_eq_some'.1 h
      subst h
      split at hv
      swap
      · cases hv
      obtain ⟨node, -, hv⟩ := Option.bind_eq_some.1 hv
      split at hv
      swap
      · cases hv
      simp only [Option.some.injEq] at hv
      subst hv
      exact hnum.then (Managers.Numbered.of_table rfl)
    · simp only [Option.some.injEq] at h
      subst h
      exact hnum

theorem TrxManager.rollbackOne_numbered (s s' : Managers) (l : Nat)
    (h : TrxManager.rollbackOne s l = some s') : s.Numbered s' := by
  unfold TrxManager.rollbackOne at h
  obtain ⟨s1, h1, h⟩ := Option.bind_eq_some.1 h
  refine Managers.Numbered.then ?_
    (Managers.Numbered.of_release (LockManager.ReleaseLock_frame _ _ _ h))
  split at h1
  · split at h1
    swap
    · cases h1
    obtain ⟨v, hv, h1⟩ := Option.map_eq_some'.1 h1
    subst h1
    unfold LockManager.ChangeRecord at hv
    split at hv
    swap
    · cases hv
    obtain ⟨node, -, hv⟩ := Option.bind_eq_some.1 hv
    split at hv
    swap
    · cases hv
    simp only [Option.some.injEq] at hv
    subst hv
    exact Managers.Numbered.of_table rfl
  · simp only [Option.some.injEq] at h1
    subst h1
    exact Managers.Numbered.unchanged _

theorem TrxManager.rollback_numbered :
    ∀ (deque : List Nat) (s s' : Managers), TrxManager.rollback deque s = some s' →
      s.Numbered s' := by
  intro deque
  induction deque with
  | nil =>
    intro s s' h
    simp only [TrxManager.rollback, Option.some.injEq] at h
    subst h
    exact Managers.Numbered.unchanged _
  | cons l rest ih =>
    intro s s' h
    unfold TrxManager.rollback at h
    obtain ⟨s1, h1, h⟩ := Option.bind_eq_some.1 h
    exact (TrxManager.rollbackOne_numbered _ _ _ h1).then (ih _ _ h)

theorem TrxManager.Abort_numbered (s s' : Managers) (t : Nat)
    (h : TrxManager.Abort s t = some s') : s.Numbered s' := by
  unfold TrxManager.Abort at h
  exact (TrxManager.GetTrxNode_numbered s t).then (TrxManager.rollback_numbered _ _ _ h)

theorem TrxManager.Commit_numbered (s : Managers) (t : Nat) (x : Int × Managers)
    (h : TrxManager.Commit s t = some x) : s.Numbered x.2 := by
  unfold TrxManager.Commit at h
  split at h
  swap
  · cases h
  split at h
  · obtain ⟨s2, hs2, h⟩ := Option.map_eq_some'.1 h
    subst h
    exact (TrxManager.GetTrxNode_numbered s t).then
      ((@Managers.Numbered.of_table (TrxManager.GetTrxNode s t)
        ((TrxManager.openLog s t).setCount (s.global_execution_count + 1)) rfl).then
        (TrxManager.rollback_numbered _ _ _ hs2))
  · obtain ⟨r, hr, h⟩ := Option.map_eq_some'.1 h
    subst h
    obtain ⟨-, -, hfr⟩ := TrxManager.releaseAll_spec _ _ _ hr
    exact (TrxManager.GetTrxNode_numbered s t).then
      ((@Managers.Numbered.of_table (TrxManager.GetTrxNode s t)
        ((TrxManager.openLog s t).setCount (s.global_execution_count + 1)) rfl).then
        ((Managers.Numbered.of_release hfr).then (Managers.Numbered.of_table rfl)))
/-! ## The log line of a round -/

theorem TrxManager.commitLog_line (c : Int) (i j k : Nat) (vi vj vk : Int) :
    TrxManager.commitLog c [i, j, k] [vi, vj, vk] = Log.line ⟨c, i, j, k, vi, vj, vk⟩ := by
  have cast : ∀ n : Nat, toString ((n : Nat) : Int) = toString n := fun _ => rfl
  unfold TrxManager.commitLog Log.line
  simp only [List.foldl_cons, List.foldl_nil, cast]
  apply String.ext
  simp only [String.data_append, List.append_assoc]
  rfl

/-- A `Find` that returns SUCCESS puts one lock, of its record, at the end of the deque. -/
theorem TrxManager.Alone.find_deque {begin_value : Nat → Option Int} {t : Nat} {s : Managers}
    (halone : TrxManager.Alone begin_value t s) (r : Nat) (v : Int) (s1 : Managers)
    (h : TrxManager.Find s t r = some (Response.SUCCESS v, s1)) :
    ∃ n, s1.trx_lock_deque t = s.trx_lock_deque t ++ [n] ∧ (s1.locks n).record_id = r ∧
      ∀ x ∈ s.trx_lock_deque t, (s1.locks x).record_id = (s.locks x).record_id := by
  obtain ⟨tn, htn⟩ := Option.isSome_iff_exists.1 halone.run.node
  unfold TrxManager.Find at h
  rw [TrxManager.GetTrxNode_of_some s t tn htn] at h
  obtain ⟨a, ha, h⟩ := Option.bind_eq_some.1 h
  cases ha1 : a.1 with
  | null => rw [ha1] at h; cases h
  | waiting m => rw [ha1] at h; cases h
  | lock m =>
    rw [ha1] at h
    simp only at h
    unfold TrxManager.FindWith at h
    obtain ⟨v', -, h⟩ := Option.map_eq_some'.1 h
    simp only [Prod.mk.injEq] at h
    obtain ⟨-, hs1⟩ := h
    subst hs1
    obtain ⟨n, st, -, -, -, -, hdq, -, -, -, hrec, -, hold, -, -⟩ :=
      LockManager.AcquireLock_run halone.run lock_t.Mode.SHARED r a ha
        (fun n e => by rw [ha1] at e; cases e)
    exact ⟨n, hdq, hrec, fun x hx => (hold x hx).2.2.1⟩

/-- An `Update` that returns SUCCESS puts one lock, of its record, at the end of the
deque. -/
theorem TrxManager.Alone.update_deque {begin_value : Nat → Option Int} {t : Nat}
    {s : Managers} (halone : TrxManager.Alone begin_value t s) (r : Nat) (d v : Int)
    (s1 : Managers) (h : TrxManager.Update s t r d = some (Response.SUCCESS v, s1)) :
    ∃ n, s1.trx_lock_deque t = s.trx_lock_deque t ++ [n] ∧ (s1.locks n).record_id = r ∧
      ∀ x ∈ s.trx_lock_deque t, (s1.locks x).record_id = (s.locks x).record_id := by
  obtain ⟨tn, htn⟩ := Option.isSome_iff_exists.1 halone.run.node
  unfold TrxManager.Update at h
  rw [TrxManager.GetTrxNode_of_some s t tn htn] at h
  obtain ⟨a, ha, h⟩ := Option.bind_eq_some.1 h
  cases ha1 : a.1 with
  | null => rw [ha1] at h; cases h
  | waiting m => rw [ha1] at h; cases h
  | lock m =>
    rw [ha1] at h
    simp only at h
    obtain ⟨n, st, hcase, -, -, -, hdq, -, hst, hmode, hrec, -, hold, -, htab⟩ :=
      LockManager.AcquireLock_run halone.run lock_t.Mode.EXCLUSIVE r a ha
        (fun n e => by rw [ha1] at e; cases e)
    rcases hcase with ⟨he, hs⟩ | ⟨he, -⟩
    swap
    · rw [ha1] at he; cases he
    subst hs
    rw [ha1] at he
    cases he
    obtain ⟨node, hnd⟩ := Option.isSome_iff_exists.1 htab
    unfold TrxManager.UpdateWith LockManager.ChangeRecord at h
    rw [if_pos ⟨hmode, by rw [hst]; exact fun e => by cases e⟩, hrec, hnd] at h
    simp only [Option.some_bind] at h
    split at h
    swap
    · cases h
    simp only [Option.map_some', Option.some.injEq, Prod.mk.injEq] at h
    obtain ⟨-, hs1⟩ := h
    subst hs1
    have hrid : ∀ x, (((a.2.setNode r { node with record_value := node.record_value + d }).setLock
        m (lock_t.withDiff d)).locks x).record_id = (a.2.locks x).record_id := by
      intro x
      rw [Managers.setLock_locks]
      by_cases hx : x = m
      · rw [hx, Function.update_same]
        rfl
      · rw [Function.update_noteq hx]
        rfl
    refine ⟨m, hdq, ?_, ?_⟩
    · rw [hrid]
      exact hrec
    · intro x hx
      rw [hrid]
      exact (hold x hx).2.2.1

/-- A `Commit` within the cap writes the line of its deque at the end of the file of the
thread and no other file: the record ids of the locks, then the values of their records. -/
theorem TrxManager.Commit_within_files {begin_value : Nat → Option Int} {t : Nat}
    {s : Managers} (hrun : TrxManager.RunInv begin_value t s)
    (hfit : isInt32 (s.global_execution_count + 1))
    (hcap : s.global_execution_count + 1 ≤ s.last_global_execution_order) :
    ∃ s2 values, TrxManager.Commit s t = some (s.global_execution_count + 1, s2) ∧
      List.Forall₂ (fun lock v => (s.lock_table (s.locks lock).record_id).map
        (fun node => node.record_value) = some v) (s.trx_lock_deque t) values ∧
      s2.files = Function.update s.files (s.thread_number_of t)
        (s.files (s.thread_number_of t) ++
          TrxManager.commitLog (s.global_execution_count + 1)
            ((s.trx_lock_deque t).map (fun lock => (s.locks lock).record_id)) values) := by
  obtain ⟨tn, htn⟩ := Option.isSome_iff_exists.1 hrun.node
  obtain ⟨r, hr, -, -, -⟩ := TrxManager.releaseAll_states (s.trx_lock_deque t)
    ((s.create (s.thread_number_of t)).setCount (s.global_execution_count + 1))
    ((hrun.inv.create _).setCount _) hrun.nodup
    (fun l hl => ⟨(hrun.inv.deques t l hl).1, hrun.active l hl⟩)
  obtain ⟨hids, hvals, hfr⟩ := TrxManager.releaseAll_spec _ _ _ hr
  have hres : TrxManager.Commit s t = some (s.global_execution_count + 1,
      Managers.append r.2 (s.thread_number_of t)
        (TrxManager.commitLog (s.global_execution_count + 1) r.1.1 r.1.2)) := by
    unfold TrxManager.Commit
    rw [if_pos hfit, if_neg (by omega), TrxManager.openLog_of_some s t tn htn,
      TrxManager.GetTrxNode_of_some s t tn htn, hr]
    rfl
  refine ⟨_, r.1.2, hres, hvals, ?_⟩
  show Function.update r.2.files _ _ = _
  rw [hfr.files, hids]
  rfl
theorem Managers.log_files {s s' : Managers} (h : s'.log = s.log) :
    s'.files = s.files ∧ s'.global_execution_count = s.global_execution_count ∧
      s'.last_global_execution_order = s.last_global_execution_order :=
  ⟨congrArg (fun y => y.1) h, congrArg (fun y => y.2.1) h, congrArg (fun y => y.2.2.1) h⟩

theorem Managers.log_created {s s' : Managers} (h : s'.log = s.log) :
    s'.created = s.created :=
  congrArg (fun y => y.2.2.2) h

/-- A round of a serial run that ended with `Abort`: files, count and thread numbers. -/
theorem RepeatTrx.abort_effect {s s1 : Managers} {t : Nat} (hinv : s.Inv) (tn : TrxNode)
    (htn : s.trx_node_table t = some tn)
    (op : TrxOp) (h : TrxManager.call s t op = some (Response.MUST_ABORTED, s1))
    (x : Round × Managers) (hx : RepeatTrx.abort s1 t = some x) :
    s.Numbered x.2 ∧ x.2.log = s.log := by
  unfold RepeatTrx.abort at hx
  obtain ⟨s2, hs2, hx⟩ := Option.map_eq_some'.1 hx
  subst hx
  refine ⟨(TrxManager.call_numbered s hinv t tn htn op _ h).then
    (TrxManager.Abort_numbered _ _ _ hs2), ?_⟩
  show s2.log = _
  rw [TrxManager.Abort_log _ _ _ hs2]
  exact TrxManager.call_log s t op _ h

set_option maxHeartbeats 3200000 in
/-- What a round of `RepeatTrx` that starts between two transactions and does not end asleep
leaves: either no value and no file has changed and the round did not commit, or it
committed with the next commit id, added `Ri + 1` to `Rj` and `-Ri` to `Rk`, and wrote the
line of its log at the end of the file of its thread. -/
theorem RepeatTrx.round_effect {R : Nat} {s : Managers} (hq : s.Quiet R) (t i j k : Nat)
    (x : Round × Managers) (h : RepeatTrx.round s t i j k = some x)
    (hnb : ∀ l, x.1 ≠ Round.blocked l) :
    s.Numbered x.2 ∧ s.global_execution_count ≤ x.2.global_execution_count ∧
    (((∀ rec, (x.2.lock_table rec).map (fun node => node.record_value) =
          (s.lock_table rec).map (fun node => node.record_value)) ∧
        x.2.files = s.files ∧ ∀ c, x.1 ≠ Round.committed c) ∨
      ∃ (vi vj vk N : Int) (node : TrxNode),
        x.1 = Round.committed (s.global_execution_count + 1) ∧
        x.2.global_execution_count = s.global_execution_count + 1 ∧
        isInt32 (s.global_execution_count + 1) ∧ ¬ (i = j ∨ i = k ∨ j = k) ∧
        (s.lock_table i).map (fun node => node.record_value) = some vi ∧
        (s.lock_table j).map (fun node => node.record_value) = some vj ∧
        (s.lock_table k).map (fun node => node.record_value) = some vk ∧
        isInt64 (vi + 1) ∧ isInt64 (vj + (vi + 1)) ∧ isInt64 (vk + -vi) ∧
        (∀ rec, (x.2.lock_table rec).map (fun node => node.record_value) =
          if rec = k then some (vk + -vi) else if rec = j then some (vj + (vi + 1))
          else (s.lock_table rec).map (fun node => node.record_value)) ∧
        x.2.trx_node_table t = some node ∧ node.thread_number = N ∧
        x.2.files = Function.update s.files N
          (s.files N ++
            Log.line ⟨s.global_execution_count + 1, i, j, k, vi, vj + (vi + 1), vk + -vi⟩)) := by
  unfold RepeatTrx.round at h
  by_cases hd : i = j ∨ i = k ∨ j = k
  · rw [if_pos hd] at h
    cases h
    exact ⟨Managers.Numbered.unchanged s, le_refl _, Or.inl ⟨fun _ => rfl, rfl,
      fun c e => by cases e⟩⟩
  rw [if_neg hd] at h
  have hij : i ≠ j := fun e => hd (Or.inl e)
  have hik : i ≠ k := fun e => hd (Or.inr (Or.inl e))
  have hjk : j ≠ k := fun e => hd (Or.inr (Or.inr e))
  obtain ⟨-, -, hB3, -, -, hB6, -, -, -, -, hB11⟩ := TrxManager.Begin_spec s t (hq.awake t)
  have halone0 := TrxManager.Alone.after_begin hq t
  have hnum0 := TrxManager.Begin_numbered s t
  have hlog0 := Managers.log_files (TrxManager.Begin_log s t)
  have hdq0 : (TrxManager.Begin s t).trx_lock_deque t = [] := by
    rw [hB11 t, if_pos rfl]
  obtain ⟨tn0, htn0⟩ := Option.isSome_iff_exists.1 halone0.run.node
  obtain ⟨r1, hr1, h⟩ := Option.bind_eq_some.1 h
  obtain ⟨resp1, s1⟩ := r1
  have hlog1 := Managers.log_files
    ((TrxManager.call_log _ t (TrxOp.find i) _ hr1).trans (TrxManager.Begin_log s t))
  have hnum1 := hnum0.then
    (TrxManager.call_numbered _ halone0.run.inv t tn0 htn0 (TrxOp.find i) _ hr1)
  cases resp1 with
  | MUST_ABORTED =>
    simp only at h
    obtain ⟨hx1, -, hv'⟩ := RepeatTrx.abort_quiet hq halone0 (by rw [hB6]; exact hq.count)
      (TrxOp.find i) hr1 x h
    obtain ⟨hnum, hlog⟩ := RepeatTrx.abort_effect halone0.run.inv tn0 htn0 (TrxOp.find i)
      hr1 x h
    have hl := Managers.log_files (hlog.trans (TrxManager.Begin_log s t))
    exact ⟨hnum0.then hnum, le_of_eq hl.2.1.symm, Or.inl ⟨hv', hl.1,
      fun c e => by rw [hx1] at e; cases e⟩⟩
  | BLOCKED l =>
    simp only [Option.some.injEq] at h
    subst h
    exact absurd rfl (hnb l)
  | SUCCESS vi =>
    simp only at h
    by_cases hf1 : isInt64 (vi + 1)
    swap
    · rw [if_neg hf1] at h
      cases h
    rw [if_pos hf1] at h
    obtain ⟨halone1, hval1, hvi⟩ := halone0.find_alone i vi s1 hr1
    obtain ⟨n1, hdq1, hrid1, -⟩ := halone0.find_deque i vi s1 hr1
    rw [hdq0, List.nil_append] at hdq1
    rw [hB3] at hvi
    have hvifit : isInt64 vi := hq.begin_fits i vi hvi
    have hval1' : ∀ rec, (s1.lock_table rec).map (fun node => node.record_value) =
        (s.lock_table rec).map (fun node => node.record_value) := by
      intro rec
      rw [hval1 rec, hB3]
    obtain ⟨tn1, htn1⟩ := Option.isSome_iff_exists.1 halone1.run.node
    obtain ⟨r2, hr2, h⟩ := Option.bind_eq_some.1 h
    obtain ⟨resp2, s2⟩ := r2
    have hlog2 := Managers.log_files (TrxManager.call_log _ t (TrxOp.update j (vi + 1)) _ hr2)
    have hnum2 := hnum1.then
      (TrxManager.call_numbered _ halone1.run.inv t tn1 htn1 (TrxOp.update j (vi + 1)) _ hr2)
    cases resp2 with
    | MUST_ABORTED =>
      simp only at h
      obtain ⟨hx1, -, hv'⟩ := RepeatTrx.abort_quiet hq halone1
        (by rw [hlog1.2.1]; exact hq.count) (TrxOp.update j (vi + 1)) hr2 x h
      obtain ⟨hnum, hlog⟩ := RepeatTrx.abort_effect halone1.run.inv tn1 htn1
        (TrxOp.update j (vi + 1)) hr2 x h
      have hl := Managers.log_files hlog
      exact ⟨hnum1.then hnum, le_of_eq (hl.2.1.trans hlog1.2.1).symm,
        Or.inl ⟨hv', hl.1.trans hlog1.1, fun c e => by rw [hx1] at e; cases e⟩⟩
    | BLOCKED l =>
      simp only [Option.some.injEq] at h
      subst h
      exact absurd rfl (hnb l)
    | SUCCESS v2 =>
      simp only at h
      by_cases hf2 : isInt64 (-vi)
      swap
      · rw [if_neg hf2] at h
        cases h
      rw [if_pos hf2] at h
      obtain ⟨halone2, oldj, hoj, hfj, -, hval2⟩ := halone1.update_alone j (vi + 1) v2 s2
        (isInt64_neg_succ vi hvifit hf1) hr2
      obtain ⟨n2, hdq2, hrid2, hold2⟩ := halone1.update_deque j (vi + 1) v2 s2 hr2
      obtain ⟨tn2, htn2⟩ := Option.isSome_iff_exists.1 halone2.run.node
      obtain ⟨r3, hr3, h⟩ := Option.bind_eq_some.1 h
      obtain ⟨resp3, s3⟩ := r3
      have hlog3 := Managers.log_files (TrxManager.call_log _ t (TrxOp.update k (-vi)) _ hr3)
      have hnum3 := hnum2.then
        (TrxManager.call_numbered _ halone2.run.inv t tn2 htn2 (TrxOp.update k (-vi)) _ hr3)
      cases resp3 with
      | MUST_ABORTED =>
        simp only at h
        obtain ⟨hx1, -, hv'⟩ := RepeatTrx.abort_quiet hq halone2
          (by rw [hlog2.2.1, hlog1.2.1]; exact hq.count) (TrxOp.update k (-vi)) hr3 x h
        obtain ⟨hnum, hlog⟩ := RepeatTrx.abort_effect halone2.run.inv tn2 htn2
          (TrxOp.update k (-vi)) hr3 x h
        have hl := Managers.log_files hlog
        exact ⟨hnum2.then hnum, le_of_eq ((hl.2.1.trans hlog2.2.1).trans hlog1.2.1).symm,
          Or.inl ⟨hv', (hl.1.trans hlog2.1).trans hlog1.1,
            fun c e => by rw [hx1] at e; cases e⟩⟩
      | BLOCKED l =>
        simp only [Option.some.injEq] at h
        subst h
        exact absurd rfl (hnb l)
      | SUCCESS v3 =>
        simp only at h
        obtain ⟨halone3, oldk, hok, hfk, -, hval3⟩ := halone2.update_alone k (-vi) v3 s3
          (by rw [neg_neg]; exact hvifit) hr3
        obtain ⟨n3, hdq3, hrid3, hold3⟩ := halone2.update_deque k (-vi) v3 s3 hr3
        obtain ⟨tn3, htn3⟩ := Option.isSome_iff_exists.1 halone3.run.node
        have hcnt3 : s3.global_execution_count = s.global_execution_count :=
          (hlog3.2.1.trans hlog2.2.1).trans hlog1.2.1
        have hfiles3 : s3.files = s.files := (hlog3.1.trans hlog2.1).trans hlog1.1
        have hvj : (s.lock_table j).map (fun node => node.record_value) = some oldj := by
          rw [← hval1' j]
          exact hoj
        have hvk : (s.lock_table k).map (fun node => node.record_value) = some oldk := by
          rw [← hval1' k, ← hok, hval2 k, if_neg (fun e => hjk e.symm)]
        have hvals3 : ∀ rec, (s3.lock_table rec).map (fun node => node.record_value) =
            if rec = k then some (oldk + -vi) else if rec = j then some (oldj + (vi + 1))
            else (s.lock_table rec).map (fun node => node.record_value) := by
          intro rec
          rw [hval3 rec]
          by_cases hrk : rec = k
          · rw [if_pos hrk, if_pos hrk]
          · rw [if_neg hrk, if_neg hrk, hval2 rec]
            by_cases hrj : rec = j
            · rw [if_pos hrj, if_pos hrj]
            · rw [if_neg hrj, if_neg hrj, hval1' rec]
        unfold RepeatTrx.commit at h
        obtain ⟨y, hy, hxy⟩ := Option.map_eq_some'.1 h
        have hnum4 := hnum3.then (TrxManager.Commit_numbered s3 t y hy)
        have hfit : isInt32 (s3.global_execution_count + 1) := by
          by_contra hno
          unfold TrxManager.Commit at hy
          rw [if_neg hno] at hy
          cases hy
        by_cases hcap : s3.global_execution_count + 1 ≤ s3.last_global_execution_order
        · obtain ⟨s4, values, hs4, hF2, hfiles4⟩ :=
            TrxManager.Commit_within_files halone3.run hfit hcap
          obtain ⟨s4', hs4', -, hval4, -, -, hcount4, -⟩ :=
            TrxManager.Commit_within halone3.run hfit hcap
          rw [hs4] at hs4'
          cases hs4'
          rw [hs4] at hy
          have hye : (s3.global_execution_count + 1, s4) = y := Option.some.inj hy
          subst hye
          have hne : ¬ s3.global_execution_count + 1 = -1 := by
            have := hq.count
            rw [hcnt3]
            omega
          simp only at hxy
          rw [if_neg hne] at hxy
          subst hxy
          obtain ⟨node4, hnode4, hnum44⟩ :=
            TrxManager.Commit_numbered s3 t _ hs4 t tn3 htn3
          have hdeq : s3.trx_lock_deque t = [n1, n2, n3] := by
            rw [hdq3, hdq2, hdq1]
            rfl
          have hm1 : n1 ∈ s1.trx_lock_deque t := by rw [hdq1]; simp
          have hm12 : n1 ∈ s2.trx_lock_deque t := by rw [hdq2]; simp [hm1]
          have hm22 : n2 ∈ s2.trx_lock_deque t := by rw [hdq2]; simp
          have hr1' : (s3.locks n1).record_id = i := by
            rw [hold3 n1 hm12, hold2 n1 hm1]
            exact hrid1
          have hr2' : (s3.locks n2).record_id = j := by
            rw [hold3 n2 hm22]
            exact hrid2
          rw [hdeq] at hF2 hfiles4
          obtain ⟨a, rest1, ha, hrest1, rfl⟩ := List.forall₂_cons_left_iff.1 hF2
          obtain ⟨b, rest2, hb, hrest2, rfl⟩ := List.forall₂_cons_left_iff.1 hrest1
          obtain ⟨d, rest3, hd3, hrest3, rfl⟩ := List.forall₂_cons_left_iff.1 hrest2
          have hnil := List.forall₂_nil_left_iff.1 hrest3
          subst hnil
          rw [hr1', hvals3 i, if_neg hik, if_neg hij, hvi] at ha
          rw [hr2', hvals3 j, if_neg hjk, if_pos rfl] at hb
          rw [hrid3, hvals3 k, if_pos rfl] at hd3
          have ha' : vi = a := Option.some.inj ha
          have hb' : oldj + (vi + 1) = b := Option.some.inj hb
          have hd' : oldk + -vi = d := Option.some.inj hd3
          subst ha' hb' hd'
          refine ⟨hnum4, ?_, Or.inr ⟨vi, oldj, oldk, s3.thread_number_of t, node4, ?_, ?_, ?_,
            hd, hvi, hvj, hvk, hf1, hfj, hfk, ?_, hnode4, ?_, ?_⟩⟩
          · show s.global_execution_count ≤ s4.global_execution_count
            rw [hcount4, hcnt3]
            omega
          · show Round.committed _ = _
            rw [hcnt3]
          · show s4.global_execution_count = _
            rw [hcount4, hcnt3]
          · rw [← hcnt3]
            exact hfit
          · intro rec
            show (s4.lock_table rec).map (fun node => node.record_value) = _
            rw [hval4 rec]
            exact hvals3 rec
          · rw [hnum44]
            unfold Managers.thread_number_of
            rw [htn3]
          · show s4.files = _
            rw [hfiles4, hfiles3, hcnt3]
            simp only [List.map_cons, List.map_nil, hr1', hr2', hrid3]
            rw [TrxManager.commitLog_line]
        · obtain ⟨s4, hs4, hinv4, hval4, hst4, hlc4, hcount4, -⟩ :=
            TrxManager.Commit_beyond halone3.run hq.begin_fits hfit (by omega)
          rw [hs4] at hy
          cases hy
          have hxy' : (Round.done, s4) = x := by simpa using hxy
          subst hxy'
          obtain ⟨-, -, -, hfiles4⟩ := TrxManager.Commit_count s3 t _ hs4
          refine ⟨hnum4, ?_, Or.inl ⟨hval4, ?_, fun c e => by cases e⟩⟩
          · show s.global_execution_count ≤ s4.global_execution_count
            rw [hcount4, hcnt3]
            omega
          · show s4.files = _
            rw [hfiles4 (by omega), hfiles3]
/-! ## The replay of a journal -/

theorem RepeatTrx.serial_cons (p : RepeatTrx.Pick) (rest : List RepeatTrx.Pick)
    (s : Managers) :
    RepeatTrx.serial (p :: rest) s =
      (RepeatTrx.round s p.thread_id p.i p.j p.k).bind (fun x =>
        match x.1 with
        | Round.blocked _ => none
        | Round.committed _ => (RepeatTrx.serial rest x.2).map (fun y => (y.1 + 1, y.2))
        | Round.again => RepeatTrx.serial rest x.2
        | Round.aborted => RepeatTrx.serial rest x.2
        | Round.done => RepeatTrx.serial rest x.2) := rfl

theorem RepeatTrx.ledger_cons (cap : Int) (p : RepeatTrx.Pick) (rest : List RepeatTrx.Pick)
    (count : Int) (value : Nat → Int) :
    RepeatTrx.ledger cap (p :: rest) count value =
      if p.i = p.j ∨ p.i = p.k ∨ p.j = p.k then RepeatTrx.ledger cap rest count value
      else if isInt64 (value p.i + 1) ∧ isInt64 (value p.j + (value p.i + 1)) ∧
          isInt64 (-value p.i) ∧ isInt64 (value p.k + -value p.i) then
        if count + 1 ≤ cap then
          (RepeatTrx.ledger cap rest (count + 1)
            (Function.update (Function.update value p.j (value p.j + (value p.i + 1))) p.k
              (value p.k + -value p.i))).map (fun y => (y.1 + 1, y.2))
        else RepeatTrx.ledger cap rest (count + 1) value
      else none := rfl

set_option maxHeartbeats 1600000 in
/-- A serial run of rounds on records of the table, from a state between two transactions,
does what the arithmetic of the specification says, as long as the count of the commits
fits `int` and the lock ids stay below the sentinel: it has no defined outcome exactly when
a sum of a round overflows `int64_t`; else it returns with the commits, the count and the
values of the arithmetic, between two transactions. -/
theorem RepeatTrx.serial_ledger {R : Nat} (cap : Int) :
    ∀ (picks : List RepeatTrx.Pick) (s : Managers) (value : Nat → Int), s.Quiet R →
      s.last_global_execution_order = cap →
      (∀ r, 1 ≤ r → r ≤ R →
        (s.lock_table r).map (fun node => node.record_value) = some (value r)) →
      (∀ p ∈ picks, (1 ≤ p.i ∧ p.i ≤ R) ∧ (1 ≤ p.j ∧ p.j ≤ R) ∧ 1 ≤ p.k ∧ p.k ≤ R) →
      s.global_execution_count + (picks.length : Int) ≤ INT_MAX →
      (∀ r, s.next_id r + picks.length ≤ LOCK_ID_MAX) →
      (RepeatTrx.ledger cap picks s.global_execution_count value = none →
        RepeatTrx.serial picks s = none) ∧
      ∀ z, RepeatTrx.ledger cap picks s.global_execution_count value = some z →
        ∃ y, RepeatTrx.serial picks s = some y ∧ y.1 = z.1 ∧
          y.2.global_execution_count = z.2.1 ∧ y.2.Quiet R ∧
          y.2.last_global_execution_order = cap ∧
          ∀ r, 1 ≤ r → r ≤ R →
            (y.2.lock_table r).map (fun node => node.record_value) = some (z.2.2 r) := by
  intro picks
  induction picks with
  | nil =>
    intro s value hq hcap hv _ _ _
    refine ⟨fun h => by simp [RepeatTrx.ledger] at h, ?_⟩
    intro z hz
    simp only [RepeatTrx.ledger, Option.some.injEq] at hz
    subst hz
    exact ⟨(0, s), rfl, rfl, rfl, hq, hcap, hv⟩
  | cons p rest ih =>
    intro s value hq hcap hv hp hc hid
    have hpr := hp p (List.mem_cons_self _ _)
    have hrest : ∀ q ∈ rest, (1 ≤ q.i ∧ q.i ≤ R) ∧ (1 ≤ q.j ∧ q.j ≤ R) ∧ 1 ≤ q.k ∧ q.k ≤ R :=
      fun q hq' => hp q (List.mem_cons_of_mem _ hq')
    have hlen : (((p :: rest).length : Nat) : Int) = (rest.length : Int) + 1 := by
      rw [List.length_cons]
      push_cast
      rfl
    have hlenN : (p :: rest).length = rest.length + 1 := List.length_cons _ _
    rw [hlen] at hc
    rw [RepeatTrx.serial_cons, RepeatTrx.ledger_cons]
    by_cases hd : p.i = p.j ∨ p.i = p.k ∨ p.j = p.k
    · have hround : RepeatTrx.round s p.thread_id p.i p.j p.k = some (Round.again, s) := by
        unfold RepeatTrx.round
        rw [if_pos hd]
      rw [hround, if_pos hd]
      simp only [Option.some_bind]
      refine ih s value hq hcap hv hrest (by omega) (fun r => ?_)
      have := hid r
      rw [hlenN] at this
      omega
    · rw [if_neg hd]
      have hi := hv p.i hpr.1.1 hpr.1.2
      have hj := hv p.j hpr.2.1.1 hpr.2.1.2
      have hk := hv p.k hpr.2.2.1 hpr.2.2.2
      have hidp : s.next_id p.i ≤ LOCK_ID_MAX ∧ s.next_id p.j ≤ LOCK_ID_MAX ∧
          s.next_id p.k ≤ LOCK_ID_MAX := by
        have h1 := hid p.i
        have h2 := hid p.j
        have h3 := hid p.k
        rw [hlenN] at h1 h2 h3
        exact ⟨by omega, by omega, by omega⟩
      by_cases hfit : isInt64 (value p.i + 1) ∧ isInt64 (value p.j + (value p.i + 1)) ∧
          isInt64 (-value p.i) ∧ isInt64 (value p.k + -value p.i)
      · rw [if_pos hfit]
        have hc32 : isInt32 (s.global_execution_count + 1) := by
          have h0 := hq.count
          have h1 : (0 : Int) ≤ (rest.length : Int) := Int.ofNat_nonneg _
          constructor
          · unfold INT_MIN
            omega
          · omega
        obtain ⟨s', hres, hcnt, hcap', hnid⟩ := RepeatTrx.round_runs hq p.thread_id p.i p.j p.k
          _ _ _ hd hi hj hk hfit.1 hfit.2.1 hfit.2.2.1 hfit.2.2.2 hc32 hidp
        have hnext : ∀ r, s'.next_id r + rest.length ≤ LOCK_ID_MAX := by
          intro r
          have h1 := hnid r
          have h2 := hid r
          rw [hlenN] at h2
          omega
        rcases hres with ⟨hle, hround⟩ | ⟨hgt, hround⟩
        · have hquiet := (RepeatTrx.round_quiet hq _ _ _ _ _ hround
            (fun l e => by cases e)).1
          obtain ⟨-, -, heff⟩ := RepeatTrx.round_effect hq _ _ _ _ _ hround
            (fun l e => by cases e)
          simp only at hquiet heff
          have hvals : ∀ r, 1 ≤ r → r ≤ R →
              (s'.lock_table r).map (fun node => node.record_value) =
                some (Function.update (Function.update value p.j
                  (value p.j + (value p.i + 1))) p.k (value p.k + -value p.i) r) := by
            rcases heff with ⟨-, -, hno⟩ | ⟨vi, vj, vk, N, node, -, -, -, -, hi', hj', hk', -, -,
              -, hval, -⟩
            · exact absurd rfl (hno _)
            · rw [hi] at hi'
              rw [hj] at hj'
              rw [hk] at hk'
              simp only [Option.some.injEq] at hi' hj' hk'
              subst hi' hj' hk'
              intro r h1 h2
              rw [hval r]
              by_cases hrk : r = p.k
              · rw [if_pos hrk, hrk, Function.update_same]
              · rw [if_neg hrk, Function.update_noteq hrk]
                by_cases hrj : r = p.j
                · rw [if_pos hrj, hrj, Function.update_same]
                · rw [if_neg hrj, Function.update_noteq hrj]
                  exact hv r h1 h2
          rw [hround, if_pos (by rw [← hcap]; exact hle)]
          simp only [Option.some_bind]
          have IH := ih s' _ hquiet (hcap'.trans hcap) hvals hrest (by rw [hcnt]; omega) hnext
          rw [hcnt] at IH
          constructor
          · intro hnone
            rw [Option.map_eq_none'] at hnone
            rw [IH.1 hnone]
            rfl
          · intro z hz
            obtain ⟨w, hw, hz⟩ := Option.map_eq_some'.1 hz
            subst hz
            obtain ⟨y, hy, h1, h2, h3, h4, h5⟩ := IH.2 w hw
            refine ⟨(y.1 + 1, y.2), ?_, ?_, h2, h3, h4, h5⟩
            · rw [hy]
              rfl
            · show y.1 + 1 = w.1 + 1
              rw [h1]
        · have hquiet := (RepeatTrx.round_quiet hq _ _ _ _ _ hround
            (fun l e => by cases e)).1
          obtain ⟨-, -, heff⟩ := RepeatTrx.round_effect hq _ _ _ _ _ hround
            (fun l e => by cases e)
          simp only at hquiet heff
          have hvals : ∀ r, 1 ≤ r → r ≤ R →
              (s'.lock_table r).map (fun node => node.record_value) = some (value r) := by
            rcases heff with ⟨hsame, -, -⟩ | ⟨vi, vj, vk, N, node, hc', -⟩
            · intro r h1 h2
              rw [hsame r]
              exact hv r h1 h2
            · cases hc'
          rw [hround, if_neg (by rw [← hcap]; omega)]
          simp only [Option.some_bind]
          have IH := ih s' value hquiet (hcap'.trans hcap) hvals hrest (by rw [hcnt]; omega)
            hnext
          rw [hcnt] at IH
          exact IH
      · rw [if_neg hfit]
        have hnone := RepeatTrx.round_overflows hq p.thread_id p.i p.j p.k _ _ _ hd hi hj hk
          hidp hfit
        rw [hnone]
        exact ⟨fun _ => rfl, fun z hz => by cases hz⟩

/-- The initial state: no record has a tail yet, so the next lock id of every record is 0. -/
theorem Managers.init_next_id (R : Nat) (cap : Int) (r : Nat) :
    (Managers.init R cap).next_id r = 0 := by
  by_cases h : 1 ≤ r ∧ r ≤ R
  · simp [Managers.next_id, Managers.init, h, LockTableNode.create]
  · simp [Managers.next_id, Managers.init, h]

/-- The initial state: every record of the table holds 100. -/
theorem Managers.init_value (R : Nat) (cap : Int) (r : Nat) (h1 : 1 ≤ r) (h2 : r ≤ R) :
    ((Managers.init R cap).lock_table r).map (fun node => node.record_value) = some 100 := by
  simp only [Managers.init, if_pos (And.intro h1 h2)]
  rfl

/-- A serial run of fewer than `2 ^ 31` rounds on records of the table, from the initial
state: it has no defined outcome exactly when a sum of a round overflows `int64_t` in the
arithmetic of the specification; else it returns with the commits and the values of that
arithmetic, and the sum of the records is `100 * R` plus the number of the commits. -/
theorem RepeatTrx.serial_init_ledger (R : Nat) (cap : Int) (picks : List RepeatTrx.Pick)
    (hp : ∀ p ∈ picks, (1 ≤ p.i ∧ p.i ≤ R) ∧ (1 ≤ p.j ∧ p.j ≤ R) ∧ 1 ≤ p.k ∧ p.k ≤ R)
    (hlen : (picks.length : Int) ≤ INT_MAX) :
    (RepeatTrx.ledger cap picks 0 (fun _ => 100) = none →
      RepeatTrx.serial picks (Managers.init R cap) = none) ∧
    ∀ z, RepeatTrx.ledger cap picks 0 (fun _ => 100) = some z →
      ∃ y, RepeatTrx.serial picks (Managers.init R cap) = some y ∧ y.1 = z.1 ∧
        y.2.global_execution_count = z.2.1 ∧ y.2.Quiet R ∧
        y.2.total R = 100 * (R : Int) + (y.1 : Int) ∧
        ∀ r, 1 ≤ r → r ≤ R →
          (y.2.lock_table r).map (fun node => node.record_value) = some (z.2.2 r) := by
  have hlenN : picks.length ≤ LOCK_ID_MAX := by
    unfold INT_MAX at hlen
    unfold LOCK_ID_MAX
    omega
  have h : (RepeatTrx.ledger cap picks 0 (fun _ => 100) = none →
      RepeatTrx.serial picks (Managers.init R cap) = none) ∧
      ∀ z, RepeatTrx.ledger cap picks 0 (fun _ => 100) = some z →
        ∃ y, RepeatTrx.serial picks (Managers.init R cap) = some y ∧ y.1 = z.1 ∧
          y.2.global_execution_count = z.2.1 ∧ y.2.Quiet R ∧
          y.2.last_global_execution_order = cap ∧
          ∀ r, 1 ≤ r → r ≤ R →
            (y.2.lock_table r).map (fun node => node.record_value) = some (z.2.2 r) :=
    RepeatTrx.serial_ledger cap picks (Managers.init R cap) (fun _ => 100)
      (Managers.init_quiet R cap) rfl (Managers.init_value R cap) hp
      (by
        show (0 : Int) + (picks.length : Int) ≤ INT_MAX
        rw [Int.zero_add]
        exact hlen)
      (by
        intro r
        rw [Managers.init_next_id, Nat.zero_add]
        exact hlenN)
  refine ⟨h.1, ?_⟩
  intro z hz
  obtain ⟨y, hy, h1, h2, h3, -, h5⟩ := h.2 z hz
  have ht := (RepeatTrx.serial_quiet picks _ y (Managers.init_quiet R cap) hy).2
  rw [Managers.total_init] at ht
  exact ⟨y, hy, h1, h2, h3, ht, h5⟩

/-- A round of the arithmetic on distinct ids whose sums fit, within the cap. -/
theorem RepeatTrx.ledger_commit (cap : Int) (p : RepeatTrx.Pick) (rest : List RepeatTrx.Pick)
    (count : Int) (value : Nat → Int) (hd : ¬ (p.i = p.j ∨ p.i = p.k ∨ p.j = p.k))
    (hfit : isInt64 (value p.i + 1) ∧ isInt64 (value p.j + (value p.i + 1)) ∧
      isInt64 (-value p.i) ∧ isInt64 (value p.k + -value p.i))
    (hle : count + 1 ≤ cap) :
    RepeatTrx.ledger cap (p :: rest) count value =
      (RepeatTrx.ledger cap rest (count + 1)
        (Function.update (Function.update value p.j (value p.j + (value p.i + 1))) p.k
          (value p.k + -value p.i))).map (fun y => (y.1 + 1, y.2)) := by
  rw [RepeatTrx.ledger_cons, if_neg hd, if_pos hfit, if_pos hle]

/-- The arithmetic of `n` rounds on the records `(1, 2, 3)` within the cap, while record 1
holds 100: record 2 gains 101 and record 3 loses 100 in each round, and all `n` rounds
commit. -/
theorem RepeatTrx.ledger_steady (cap : Int) (t : Nat) :
    ∀ (n : Nat) (count : Int) (value : Nat → Int), value 1 = 100 →
      0 ≤ value 2 → value 2 + 101 * (n : Int) ≤ 1000000 →
      value 3 ≤ 100 → -1000000 ≤ value 3 - 100 * (n : Int) →
      count + (n : Int) ≤ cap →
      ∃ z, RepeatTrx.ledger cap (List.replicate n ⟨t, 1, 2, 3⟩) count value = some z ∧
        z.1 = n ∧ z.2.1 = count + (n : Int) := by
  intro n
  induction n with
  | zero =>
    intro count value _ _ _ _ _ _
    exact ⟨(0, count, value), rfl, rfl, by simp⟩
  | succ n ih =>
    intro count value h1 h2 h2' h3 h3' hc
    have hfit : isInt64 (value 1 + 1) ∧ isInt64 (value 2 + (value 1 + 1)) ∧
        isInt64 (-value 1) ∧ isInt64 (value 3 + -value 1) := by
      rw [h1]
      unfold isInt64 INT64_MIN INT64_MAX
      push_cast at h2' h3'
      refine ⟨⟨by omega, by omega⟩, ⟨by omega, by omega⟩, ⟨by omega, by omega⟩,
        ⟨by omega, by omega⟩⟩
    rw [List.replicate_succ, RepeatTrx.ledger_commit cap ⟨t, 1, 2, 3⟩ _ count value
      (show ¬ ((1 : Nat) = 2 ∨ (1 : Nat) = 3 ∨ (2 : Nat) = 3) by decide) hfit
      (by push_cast at hc; omega)]
    obtain ⟨w, hw, hw1, hw2⟩ := ih (count + 1)
      (Function.update (Function.update value 2 (value 2 + (value 1 + 1))) 3
        (value 3 + -value 1))
      (by simp [Function.update, h1])
      (by simp [Function.update, h1]; omega)
      (by simp [Function.update, h1]; push_cast at h2'; omega)
      (by simp [Function.update, h1]; omega)
      (by simp [Function.update, h1]; push_cast at h3'; omega)
      (by push_cast at hc; omega)
    refine ⟨(w.1 + 1, w.2), ?_, ?_, ?_⟩
    · show Option.map _ _ = _
      rw [hw]
      rfl
    · show w.1 + 1 = n + 1
      rw [hw1]
    · show w.2.1 = count + ((n + 1 : Nat) : Int)
      rw [hw2]
      push_cast
      omega

set_option maxRecDepth 100000 in
/-- The arithmetic of the rounds of `RepeatTrx.swing`: the first 79 rounds commit and leave
3826795299687534505 in record 2 and -6191884862882770310 in record 3; the 80th round has
no result. -/
theorem RepeatTrx.ledger_swing :
    (RepeatTrx.ledger 79 (RepeatTrx.swing.take 79) 0 (fun _ => 100)).map
        (fun z => (z.1, z.2.1, z.2.2 2, z.2.2 3)) =
      some (79, 79, 3826795299687534505, -6191884862882770310) ∧
    (RepeatTrx.ledger 1000 (RepeatTrx.swing.take 79) 0 (fun _ => 100)).map
        (fun z => (z.1, z.2.1, z.2.2 2, z.2.2 3)) =
      some (79, 79, 3826795299687534505, -6191884862882770310) ∧
    (RepeatTrx.ledger 79 RepeatTrx.swing 0 (fun _ => 100)).isNone = true ∧
    (RepeatTrx.ledger 1000 RepeatTrx.swing 0 (fun _ => 100)).isNone = true := by
  refine ⟨?_, ?_, ?_, ?_⟩ <;> decide!

/-- C21 (the claim as stated fails): the rounds `RepeatTrx.swing` over 10 records with the
cap 1000, all on distinct records of the table.  The first 79 rounds commit: the run of
these returns with 79 commits, the sum 1079, 3826795299687534505 in record 2 and
-6191884862882770310 in record 3.  The 80th round is `(2, 1, 3)`; its last sum
`R3 + -R2` is below the least `int64_t`, a signed overflow in `Update`, so the run of the 80
rounds has no defined outcome, and no sum of the records `100 * 10 + c`.  Hence not every
serial run of worker transactions ends with the sum `100 * R + c`. -/
theorem RepeatTrx.serial_overflows :
    (∀ p ∈ RepeatTrx.swing, ¬ (p.i = p.j ∨ p.i = p.k ∨ p.j = p.k) ∧
      (1 ≤ p.i ∧ p.i ≤ 10) ∧ (1 ≤ p.j ∧ p.j ≤ 10) ∧ 1 ≤ p.k ∧ p.k ≤ 10) ∧
    RepeatTrx.swing.length = 80 ∧ RepeatTrx.swing.get? 79 = some ⟨1, 2, 1, 3⟩ ∧
    (∃ y, RepeatTrx.serial (RepeatTrx.swing.take 79) (Managers.init 10 1000) = some y ∧
      y.1 = 79 ∧ y.2.total 10 = 1079 ∧
      (y.2.lock_table 2).map (fun node => node.record_value) = some 3826795299687534505 ∧
      (y.2.lock_table 3).map (fun node => node.record_value) =
        some (-6191884862882770310)) ∧
    ¬ isInt64 (-6191884862882770310 + -3826795299687534505) ∧
    RepeatTrx.serial RepeatTrx.swing (Managers.init 10 1000) = none ∧
    ¬ ∀ picks : List RepeatTrx.Pick,
      (∀ p ∈ picks, ¬ (p.i = p.j ∨ p.i = p.k ∨ p.j = p.k) ∧
        (1 ≤ p.i ∧ p.i ≤ 10) ∧ (1 ≤ p.j ∧ p.j ≤ 10) ∧ 1 ≤ p.k ∧ p.k ≤ 10) →
      ∃ y, RepeatTrx.serial picks (Managers.init 10 1000) = some y ∧
        y.2.total 10 = 100 * ((10 : Nat) : Int) + (y.1 : Int) := by
  have hvalid : ∀ p ∈ RepeatTrx.swing, ¬ (p.i = p.j ∨ p.i = p.k ∨ p.j = p.k) ∧
      (1 ≤ p.i ∧ p.i ≤ 10) ∧ (1 ≤ p.j ∧ p.j ≤ 10) ∧ 1 ≤ p.k ∧ p.k ≤ 10 := by decide
  have hnone : RepeatTrx.serial RepeatTrx.swing (Managers.init 10 1000) = none :=
    (RepeatTrx.serial_init_ledger 10 1000 RepeatTrx.swing (fun p hp => (hvalid p hp).2)
      (by decide)).1 (Option.isNone_iff_eq_none.1 RepeatTrx.ledger_swing.2.2.2)
  refine ⟨hvalid, by decide, by decide, ?_, by decide, hnone, ?_⟩
  · obtain ⟨z, hz, hz'⟩ := Option.map_eq_some'.1 RepeatTrx.ledger_swing.2.1
    obtain ⟨y, hy, h1, -, -, h4, h5⟩ :=
      (RepeatTrx.serial_init_ledger 10 1000 (RepeatTrx.swing.take 79)
        (fun p hp => (hvalid p (List.mem_of_mem_take hp)).2) (by decide)).2 z hz
    simp only [Prod.mk.injEq] at hz'
    refine ⟨y, hy, h1.trans hz'.1, ?_, ?_, ?_⟩
    · rw [h4, h1, hz'.1]
      norm_num
    · rw [h5 2 (by decide) (by decide), hz'.2.2.1]
    · rw [h5 3 (by decide) (by decide), hz'.2.2.2]
  · intro hall
    obtain ⟨y, hy, -⟩ := hall RepeatTrx.swing hvalid
    rw [hnone] at hy
    cases hy

/-- C21 (amended): serial runs of worker transactions over `R` records that start at 100
after `InitManagers`, in which no signed sum overflows.  (0) A serial run of fewer than
`2 ^ 31` rounds of `RepeatTrx` (find `Ri`, update `Rj` by `Ri + 1`, update `Rk` by `-Ri`,
commit; by any threads, one round after the other) on records of the table, in which the four
sums of every round on distinct records fit `int64_t` (`RepeatTrx.ledger` has a result),
returns, with the commits of that arithmetic, and the sum of the record values is
`100 * R + c` for its `c` commits, 2000 for `R = 10` and `c = 1000`; when a sum of a round
does not fit, the run has no defined outcome.  (1) Whenever a serial run from the initial
state returns with `c` committed rounds, the sum of the record values is `100 * R + c`.
(2) Each round that starts between two transactions and does not end asleep ends between two
transactions and adds to the sum exactly 1 when it committed and 0 when it was aborted,
rejected by the cap, or skipped because the ids were not distinct.  (3) Such a round on three
distinct records returns, committed within the cap and rejected above it, whenever its four
sums fit `int64_t`, the next commit id fits `int` and the lock ids of the three records are
below the sentinel. -/
theorem RepeatTrx.serial_total (R : Nat) (cap : Int) :
    (∀ (picks : List RepeatTrx.Pick),
      (∀ p ∈ picks, (1 ≤ p.i ∧ p.i ≤ R) ∧ (1 ≤ p.j ∧ p.j ≤ R) ∧ 1 ≤ p.k ∧ p.k ≤ R) →
      (picks.length : Int) ≤ INT_MAX →
      (RepeatTrx.ledger cap picks 0 (fun _ => 100) = none →
        RepeatTrx.serial picks (Managers.init R cap) = none) ∧
      ∀ z, RepeatTrx.ledger cap picks 0 (fun _ => 100) = some z →
        ∃ y, RepeatTrx.serial picks (Managers.init R cap) = some y ∧ y.1 = z.1 ∧
          y.2.total R = 100 * (R : Int) + (y.1 : Int) ∧
          (R = 10 → y.1 = 1000 → y.2.total R = 2000) ∧ y.2.Quiet R) ∧
    (∀ (picks : List RepeatTrx.Pick) (y : Nat × Managers),
      RepeatTrx.serial picks (Managers.init R cap) = some y →
      y.2.total R = 100 * (R : Int) + (y.1 : Int) ∧
      (R = 10 → y.1 = 1000 → y.2.total R = 2000) ∧ y.2.Quiet R) ∧
    (∀ (s : Managers), s.Quiet R → ∀ (t i j k : Nat) (x : Round × Managers),
      RepeatTrx.round s t i j k = some x → (∀ l, x.1 ≠ Round.blocked l) →
      x.2.Quiet R ∧ x.2.total R = s.total R + x.1.gain) ∧
    (∀ (s : Managers), s.Quiet R → ∀ (t i j k : Nat) (vi vj vk : Int),
      ¬ (i = j ∨ i = k ∨ j = k) →
      (s.lock_table i).map (fun node => node.record_value) = some vi →
      (s.lock_table j).map (fun node => node.record_value) = some vj →
      (s.lock_table k).map (fun node => node.record_value) = some vk →
      isInt64 (vi + 1) → isInt64 (vj + (vi + 1)) → isInt64 (-vi) → isInt64 (vk + -vi) →
      isInt32 (s.global_execution_count + 1) →
      s.next_id i ≤ LOCK_ID_MAX ∧ s.next_id j ≤ LOCK_ID_MAX ∧ s.next_id k ≤ LOCK_ID_MAX →
      ∃ s', (s.global_execution_count + 1 ≤ s.last_global_execution_order ∧
          RepeatTrx.round s t i j k =
            some (Round.committed (s.global_execution_count + 1), s')) ∨
        (s.global_execution_count + 1 > s.last_global_execution_order ∧
          RepeatTrx.round s t i j k = some (Round.done, s'))) := by
  refine ⟨?_, ?_, ?_, ?_⟩
  · intro picks hp hlen
    obtain ⟨h1, h2⟩ := RepeatTrx.serial_init_ledger R cap picks hp hlen
    refine ⟨h1, ?_⟩
    intro z hz
    obtain ⟨y, hy, e1, -, hq, ht, -⟩ := h2 z hz
    refine ⟨y, hy, e1, ht, ?_, hq⟩
    intro hR hc
    rw [ht, hR, hc]
    norm_num
  · intro picks y h
    obtain ⟨hq, ht⟩ := RepeatTrx.serial_quiet picks _ y (Managers.init_quiet R cap) h
    rw [Managers.total_init] at ht
    refine ⟨ht, ?_, hq⟩
    intro hR hc
    rw [ht, hR, hc]
    norm_num
  · intro s hq t i j k x h hnb
    exact RepeatTrx.round_quiet hq t i j k x h hnb
  · intro s hq t i j k vi vj vk hd hi hj hk hf1 hf2 hf3 hf4 hc hid
    exact RepeatTrx.round_returns hq t i j k vi vj vk hd hi hj hk hf1 hf2 hf3 hf4 hc hid

set_option maxRecDepth 100000 in
/-- Ten records, cap 1000, a thousand rounds of the thread 1 on the records `(1, 2, 3)`:
record 1 keeps 100, so no sum overflows; the run returns with 1000 commits and the sum 2000.
Three records: with cap 1 the round of the thread 1 on `(1, 2, 3)` commits and the sum is
301; with cap 0 it is rejected and the sum stays 300.  In the initial state the round
returns. -/
theorem RepeatTrx.serial_total_witness :
    ((∀ p ∈ List.replicate 1000 (RepeatTrx.Pick.mk 1 1 2 3),
        (1 ≤ p.i ∧ p.i ≤ 10) ∧ (1 ≤ p.j ∧ p.j ≤ 10) ∧ 1 ≤ p.k ∧ p.k ≤ 10) ∧
      (((List.replicate 1000 (RepeatTrx.Pick.mk 1 1 2 3)).length : Nat) : Int) ≤ INT_MAX ∧
      (RepeatTrx.ledger 1000 (List.replicate 1000 (RepeatTrx.Pick.mk 1 1 2 3)) 0
        (fun _ => 100)).isSome = true ∧
      ∃ y, RepeatTrx.serial (List.replicate 1000 (RepeatTrx.Pick.mk 1 1 2 3))
          (Managers.init 10 1000) = some y ∧ y.1 = 1000 ∧ y.2.total 10 = 2000) ∧
    (RepeatTrx.serial [⟨1, 1, 2, 3⟩] (Managers.init 3 1) = some RepeatTrx.oneCommit ∧
      RepeatTrx.oneCommit.1 = 1 ∧
      RepeatTrx.oneCommit.2.total 3 = 100 * ((3 : Nat) : Int) + (RepeatTrx.oneCommit.1 : Int)) ∧
    (RepeatTrx.serial [⟨1, 1, 2, 3⟩] (Managers.init 3 0) = some RepeatTrx.oneRejected ∧
      RepeatTrx.oneRejected.1 = 0 ∧
      RepeatTrx.oneRejected.2.total 3
        = 100 * ((3 : Nat) : Int) + (RepeatTrx.oneRejected.1 : Int)) ∧
    ∃ s', ((Managers.init 3 1).global_execution_count + 1
          ≤ (Managers.init 3 1).last_global_execution_order ∧
        RepeatTrx.round (Managers.init 3 1) 1 1 2 3 =
          some (Round.committed ((Managers.init 3 1).global_execution_count + 1), s')) ∨
      ((Managers.init 3 1).global_execution_count + 1
          > (Managers.init 3 1).last_global_execution_order ∧
        RepeatTrx.round (Managers.init 3 1) 1 1 2 3 = some (Round.done, s')) := by
  have hvalid : ∀ p ∈ List.replicate 1000 (RepeatTrx.Pick.mk 1 1 2 3),
      (1 ≤ p.i ∧ p.i ≤ 10) ∧ (1 ≤ p.j ∧ p.j ≤ 10) ∧ 1 ≤ p.k ∧ p.k ≤ 10 := by
    intro p hp
    rw [List.eq_of_mem_replicate hp]
    decide
  have hlen : (((List.replicate 1000 (RepeatTrx.Pick.mk 1 1 2 3)).length : Nat) : Int)
      ≤ INT_MAX := by
    rw [List.length_replicate]
    decide
  obtain ⟨z, hz, hz1, -⟩ := RepeatTrx.ledger_steady 1000 1 1000 0 (fun _ => 100) rfl
    (by decide) (by decide) (by decide) (by decide) (by decide)
  refine ⟨⟨hvalid, hlen, by rw [hz]; rfl, ?_⟩, ?_, ?_, ?_⟩
  · obtain ⟨y, hy, h1, -, h3, -⟩ :=
      ((RepeatTrx.serial_total 10 1000).1 _ hvalid hlen).2 z hz
    exact ⟨y, hy, h1.trans hz1, h3 rfl (h1.trans hz1)⟩
  · exact ⟨(Option.some_get _).symm, by decide,
      ((RepeatTrx.serial_total 3 1).2.1 [⟨1, 1, 2, 3⟩] RepeatTrx.oneCommit
        (Option.some_get _).symm).1⟩
  · exact ⟨(Option.some_get _).symm, by decide,
      ((RepeatTrx.serial_total 3 0).2.1 [⟨1, 1, 2, 3⟩] RepeatTrx.oneRejected
        (Option.some_get _).symm).1⟩
  · exact (RepeatTrx.serial_total 3 1).2.2.2 (Managers.init 3 1) (Managers.init_quiet 3 1)
      1 1 2 3 100 100 100 (by decide) rfl rfl rfl (by decide) (by decide) (by decide)
      (by decide) (by decide) (by decide)

@[simp] theorem Managers.forget_locks (s : Managers) (l : Nat) :
    s.forget.locks l = (s.locks l).forget := rfl

@[simp] theorem Managers.forget_lock_count (s : Managers) :
    s.forget.lock_count = s.lock_count := rfl

@[simp] theorem Managers.forget_lock_table (s : Managers) :
    s.forget.lock_table = s.lock_table := rfl

@[simp] theorem Managers.forget_pools (s : Managers) : s.forget.pools = s.pools := rfl

@[simp] theorem Managers.forget_trx_node_table (s : Managers) :
    s.forget.trx_node_table = s.trx_node_table := rfl

@[simp] theorem Managers.forget_files (s : Managers) : s.forget.files = s.files := rfl

@[simp] theorem Managers.forget_conflict_lock (s : Managers) (t : Nat) :
    s.forget.conflict_lock t = s.conflict_lock t := rfl

@[simp] theorem Managers.forget_trx_lock_deque (s : Managers) (t : Nat) :
    s.forget.trx_lock_deque t = s.trx_lock_deque t := rfl

@[simp] theorem Managers.forget_thread_number_of (s : Managers) (t : Nat) :
    s.forget.thread_number_of t = s.thread_number_of t := rfl

@[simp] theorem lock_t.forget_state (l : lock_t) : l.forget.state = l.state := rfl

@[simp] theorem lock_t.forget_mode (l : lock_t) : l.forget.mode = l.mode := rfl

@[simp] theorem lock_t.forget_next (l : lock_t) : l.forget.next = l.next := rfl

@[simp] theorem lock_t.forget_thread_id (l : lock_t) : l.forget.thread_id = l.thread_id := rfl

@[simp] theorem lock_t.forget_record_id (l : lock_t) : l.forget.record_id = l.record_id := rfl

@[simp] theorem lock_t.forget_diff (l : lock_t) : l.forget.diff = l.diff := rfl

@[simp] theorem lock_t.forget_signal_flag (l : lock_t) :
    l.forget.signal_flag = l.signal_flag := rfl

@[simp] theorem lock_t.forget_head_pass_flag (l : lock_t) :
    l.forget.head_pass_flag = l.head_pass_flag := rfl

/-- A store to a member of a lock other than the id and `id_pass_flag` is the same store on
the state without them. -/
theorem Managers.forget_setLock (s : Managers) (l : Nat) (f g : lock_t → lock_t)
    (h : (f (s.locks l)).forget = g (s.locks l).forget) :
    (s.setLock l f).forget = s.forget.setLock l g := by
  unfold Managers.forget Managers.setLock
  simp only [Managers.mk.injEq, and_true, true_and]
  funext x
  by_cases hx : x = l
  · subst hx
    simp only [Function.update_same]
    exact h
  · simp only [Function.update_noteq hx]

theorem Managers.forget_withState (s : Managers) (l : Nat) (st : lock_t.State) :
    (s.setLock l (lock_t.withState st)).forget = s.forget.setLock l (lock_t.withState st) :=
  Managers.forget_setLock s l _ _ rfl

theorem Managers.forget_setNode (s : Managers) (r : Nat) (n : LockTableNode) :
    (s.setNode r n).forget = s.forget.setNode r n := rfl

theorem Managers.forget_setTrx (s : Managers) (t : Nat) (n : TrxNode) :
    (s.setTrx t n).forget = s.forget.setTrx t n := rfl

theorem Managers.forget_setConflict (s : Managers) (t : Nat) (c : Option Nat) :
    (s.setConflict t c).forget = s.forget.setConflict t c := by
  unfold Managers.setConflict
  simp only [Managers.forget_trx_node_table]
  split <;> rfl

theorem Managers.forget_setCount (s : Managers) (c : Int) :
    (s.setCount c).forget = s.forget.setCount c := rfl

theorem Managers.forget_append (s : Managers) (N : Int) (out : String) :
    (s.append N out).forget = s.forget.append N out := rfl

theorem TrxManager.GetTrxNode_forget (s : Managers) (t : Nat) :
    TrxManager.GetTrxNode s.forget t = (TrxManager.GetTrxNode s t).forget := by
  unfold TrxManager.GetTrxNode
  simp only [Managers.forget_trx_node_table]
  split <;> rfl

theorem TrxManager.openLog_forget (s : Managers) (t : Nat) :
    TrxManager.openLog s.forget t = (TrxManager.openLog s t).forget := by
  unfold TrxManager.openLog
  rw [TrxManager.GetTrxNode_forget, Managers.forget_thread_number_of]
  rfl

theorem TrxManager.Begin_forget (s : Managers) (t : Nat) :
    TrxManager.Begin s.forget t = (TrxManager.Begin s t).forget := by
  unfold TrxManager.Begin
  rw [TrxManager.GetTrxNode_forget]
  simp only [Managers.forget_trx_node_table]
  split <;> rfl

theorem LockManager.GetRecord_forget (s : Managers) (l : Nat) :
    LockManager.GetRecord s.forget l = LockManager.GetRecord s l := rfl

theorem LockManager.ChangeRecord_forget (s : Managers) (l : Nat) (d : Int) :
    LockManager.ChangeRecord s.forget l d =
      (LockManager.ChangeRecord s l d).map (fun x => (x.1, x.2.forget)) := by
  unfold LockManager.ChangeRecord
  simp only [Managers.forget_locks, lock_t.forget_state, lock_t.forget_mode,
    lock_t.forget_record_id, Managers.forget_lock_table]
  split
  · cases s.lock_table (s.locks l).record_id with
    | none => rfl
    | some node =>
      simp only [Option.some_bind]
      split <;> rfl
  · rfl

theorem LockManager.moveHead_forget (r : Nat) :
    ∀ (fuel prev : Nat) (s : Managers),
      LockManager.moveHead r fuel prev s.forget =
        (LockManager.moveHead r fuel prev s).map (fun x => (x.1, x.2.forget)) := by
  intro fuel
  induction fuel with
  | zero => intro prev s; rfl
  | succ fuel ih =>
    intro prev s
    unfold LockManager.moveHead
    simp only [Managers.forget_locks, lock_t.forget_next, Managers.forget_lock_table]
    cases (s.locks prev).next with
    | none => rfl
    | some target =>
      simp only
      cases s.lock_table r with
      | none => rfl
      | some node =>
        simp only [Option.some_bind]
        have e : (s.forget.setNode r { node with head := some target }).setLock prev
            lock_t.passHead =
            ((s.setNode r { node with head := some target }).setLock prev
              lock_t.passHead).forget := by
          rw [Managers.forget_setLock _ prev lock_t.passHead lock_t.passHead rfl]
          rfl
        rw [e]
        simp only [Managers.forget_locks, lock_t.forget_state]
        split
        · exact ih _ _
        · rfl

theorem LockManager.wakeShared_forget :
    ∀ (fuel : Nat) (target : Option Nat) (s : Managers),
      LockManager.wakeShared fuel target s.forget =
        (LockManager.wakeShared fuel target s).map Managers.forget := by
  intro fuel
  induction fuel with
  | zero => intro target s; rfl
  | succ fuel ih =>
    intro target s
    cases target with
    | none => rfl
    | some target =>
      unfold LockManager.wakeShared
      simp only [Managers.forget_locks, lock_t.forget_state, lock_t.forget_mode,
        lock_t.forget_next, lock_t.forget_thread_id]
      split
      · exact ih _ _
      · split
        · rfl
        · have e : (TrxManager.GetTrxNode s.forget (s.locks target).thread_id).setLock target
              lock_t.signal =
              ((TrxManager.GetTrxNode s (s.locks target).thread_id).setLock target
                lock_t.signal).forget := by
            rw [Managers.forget_setLock _ target lock_t.signal lock_t.signal rfl,
              TrxManager.GetTrxNode_forget]
          simp only [e, Managers.forget_locks, lock_t.forget_next]
          exact ih _ _

theorem LockManager.wakeHead_forget (s : Managers) (new_head : Nat) :
    LockManager.wakeHead s.forget new_head =
      (LockManager.wakeHead s new_head).map Managers.forget := by
  unfold LockManager.wakeHead
  have e : (TrxManager.GetTrxNode s.forget (s.locks new_head).thread_id).setLock new_head
      lock_t.signal =
      ((TrxManager.GetTrxNode s (s.locks new_head).thread_id).setLock new_head
        lock_t.signal).forget := by
    rw [Managers.forget_setLock _ new_head lock_t.signal lock_t.signal rfl,
      TrxManager.GetTrxNode_forget]
  simp only [Managers.forget_locks, lock_t.forget_mode, lock_t.forget_next,
    lock_t.forget_thread_id, Managers.forget_lock_count, e]
  split
  · exact LockManager.wakeShared_forget _ _ _
  · rfl

theorem LockManager.advance_forget (s : Managers) (r : Nat) :
    LockManager.advance s.forget r = (LockManager.advance s r).map Managers.forget := by
  unfold LockManager.advance
  simp only [Managers.forget_lock_table, Managers.forget_lock_count]
  cases (s.lock_table r).bind (fun node => node.head) with
  | none => rfl
  | some head =>
    simp only [Option.some_bind, Managers.forget_locks, lock_t.forget_state]
    split
    · rfl
    · rw [LockManager.moveHead_forget]
      cases LockManager.moveHead r (s.lock_count + 1) head s with
      | none => rfl
      | some x =>
        simp only [Option.map_some', Option.some_bind]
        cases x.1 with
        | none => rfl
        | some new_head => exact LockManager.wakeHead_forget _ _

/-- `ReleaseLock` never reads a lock id or an `id_pass_flag`; the version with the global
mutex does what the default version does. -/
theorem LockManager.ReleaseLock_forget (s : Managers) (l : Nat) :
    LockManager.ReleaseLock_mutex s.forget l =
      (LockManager.ReleaseLock s l).map Managers.forget := by
  unfold LockManager.ReleaseLock_mutex LockManager.ReleaseLock
  rw [← Managers.forget_withState]
  exact LockManager.advance_forget _ _
theorem LockManager.deadlockWalk2_forget (s : Managers) (this_thread c : Nat) :
    ∀ (fuel target : Nat) (tmp : List Nat),
      LockManager.deadlockWalk2 s.forget this_thread c fuel target tmp =
        LockManager.deadlockWalk2 s this_thread c fuel target tmp := by
  intro fuel
  induction fuel with
  | zero => intro target tmp; rfl
  | succ fuel ih =>
    intro target tmp
    unfold LockManager.deadlockWalk2
    simp only [Managers.forget_locks, lock_t.forget_state, lock_t.forget_next,
      lock_t.forget_thread_id]
    split
    · rfl
    · split
      · rfl
      · cases (s.locks target).next with
        | none => rfl
        | some t => exact ih _ _

theorem LockManager.deadlockSkip_forget (s : Managers) (pass_id_set : List Nat) :
    LockManager.deadlockSkip s.forget pass_id_set = LockManager.deadlockSkip s pass_id_set :=
  rfl

theorem LockManager.deadlockVisit2_forget (s : Managers) (this_thread target : Nat)
    (queue pass_id_set : List Nat) :
    LockManager.deadlockVisit2 s.forget this_thread target queue pass_id_set =
      (LockManager.deadlockVisit2 s this_thread target queue pass_id_set).map
        (fun x => (x.1, x.2.forget)) := by
  unfold LockManager.deadlockVisit2
  simp only [Managers.forget_locks, lock_t.forget_thread_id, TrxManager.GetTrxNode_forget,
    Managers.forget_conflict_lock, Managers.forget_lock_table, lock_t.forget_record_id,
    Managers.forget_lock_count, LockManager.deadlockWalk2_forget]
  cases (TrxManager.GetTrxNode s (s.locks target).thread_id).conflict_lock
      (s.locks target).thread_id with
  | none => rfl
  | some c =>
    simp only
    cases (s.lock_table (s.locks c).record_id).bind (fun node => node.head) with
    | none => rfl
    | some head =>
      simp only [Option.some_bind]
      cases LockManager.deadlockWalk2 (TrxManager.GetTrxNode s (s.locks target).thread_id)
          this_thread c (s.lock_count + 1) head [] with
      | none => rfl
      | some w =>
        cases w <;> rfl

theorem LockManager.deadlockSearch2_forget (this_thread : Nat) :
    ∀ (fuel : Nat) (queue pass_id_set : List Nat) (s : Managers),
      LockManager.deadlockSearch2 this_thread fuel queue pass_id_set s.forget =
        (LockManager.deadlockSearch2 this_thread fuel queue pass_id_set s).map
          (fun x => (x.1, x.2.forget)) := by
  intro fuel
  induction fuel with
  | zero => intro queue pass_id_set s; rfl
  | succ fuel ih =>
    intro queue pass_id_set s
    unfold LockManager.deadlockSearch2
    rw [LockManager.deadlockSkip_forget]
    cases queue.dropWhile (LockManager.deadlockSkip s pass_id_set) with
    | nil => rfl
    | cons target rest =>
      simp only
      rw [LockManager.deadlockVisit2_forget]
      cases LockManager.deadlockVisit2 s this_thread target rest pass_id_set with
      | none => rfl
      | some r =>
        simp only [Option.map_some', Option.some_bind]
        cases r.1 with
        | none => rfl
        | some next => exact ih _ _ _

/-- `IsDeadlock2` never reads a lock id or an `id_pass_flag`. -/
theorem LockManager.IsDeadlock2_forget (s : Managers) (this_thread : Nat) (W : List Nat) :
    LockManager.IsDeadlock2 s.forget this_thread W =
      (LockManager.IsDeadlock2 s this_thread W).map (fun x => (x.1, x.2.forget)) := by
  unfold LockManager.IsDeadlock2
  exact LockManager.deadlockSearch2_forget _ _ _ _ _

theorem LockManager.finishAcquire_forget (s : Managers) (t n : Nat) :
    LockManager.finishAcquire s.forget t n = (LockManager.finishAcquire s t n).forget := by
  unfold LockManager.finishAcquire
  simp only [Managers.forget_locks, lock_t.forget_state]
  split
  · rw [Managers.forget_setConflict, Managers.forget_withState]
  · rw [Managers.forget_setConflict]

theorem TrxManager.FindWith_forget (s : Managers) (l : Nat) :
    TrxManager.FindWith s.forget l =
      (TrxManager.FindWith s l).map (fun x => (x.1, x.2.forget)) := by
  unfold TrxManager.FindWith
  rw [LockManager.GetRecord_forget]
  cases LockManager.GetRecord s l <;> rfl

theorem TrxManager.UpdateWith_forget (s : Managers) (l : Nat) (d : Int) :
    TrxManager.UpdateWith s.forget l d =
      (TrxManager.UpdateWith s l d).map (fun x => (x.1, x.2.forget)) := by
  unfold TrxManager.UpdateWith
  rw [LockManager.ChangeRecord_forget]
  cases LockManager.ChangeRecord s l d with
  | none => rfl
  | some r =>
    simp only [Option.map_some']
    rw [Managers.forget_setLock r.2 l (lock_t.withDiff d) (lock_t.withDiff d) rfl]

theorem TrxManager.rollbackOne_forget (s : Managers) (l : Nat) :
    TrxManager.rollbackOne_mutex s.forget l =
      (TrxManager.rollbackOne s l).map Managers.forget := by
  unfold TrxManager.rollbackOne_mutex TrxManager.rollbackOne TrxManager.needsRollback
  simp only [Managers.forget_locks, lock_t.forget_state, lock_t.forget_mode,
    lock_t.forget_diff]
  split
  · split
    · rw [LockManager.ChangeRecord_forget]
      cases LockManager.ChangeRecord s l (-(s.locks l).diff) with
      | none => rfl
      | some r =>
        simp only [Option.map_some', Option.some_bind]
        exact LockManager.ReleaseLock_forget _ _
    · rfl
  · simp only [Option.some_bind]
    exact LockManager.ReleaseLock_forget _ _

theorem TrxManager.rollback_forget :
    ∀ (deque : List Nat) (s : Managers),
      TrxManager.rollback_mutex deque s.forget =
        (TrxManager.rollback deque s).map Managers.forget := by
  intro deque
  induction deque with
  | nil => intro s; rfl
  | cons l rest ih =>
    intro s
    unfold TrxManager.rollback_mutex TrxManager.rollback
    rw [TrxManager.rollbackOne_forget]
    cases TrxManager.rollbackOne s l with
    | none => rfl
    | some s1 =>
      simp only [Option.map_some', Option.some_bind]
      exact ih s1

theorem TrxManager.releaseAll_forget :
    ∀ (deque : List Nat) (s : Managers),
      TrxManager.releaseAll_mutex deque s.forget =
        (TrxManager.releaseAll deque s).map (fun x => (x.1, x.2.forget)) := by
  intro deque
  induction deque with
  | nil => intro s; rfl
  | cons l rest ih =>
    intro s
    unfold TrxManager.releaseAll_mutex TrxManager.releaseAll
    rw [LockManager.GetRecord_forget, LockManager.ReleaseLock_forget]
    cases LockManager.GetRecord s l with
    | none => rfl
    | some v =>
      simp only [Option.some_bind]
      cases LockManager.ReleaseLock s l with
      | none => rfl
      | some s1 =>
        simp only [Option.map_some', Option.some_bind]
        rw [ih s1]
        cases TrxManager.releaseAll rest s1 <;> rfl

/-- `Abort(global_mutex)` does what `Abort()` does. -/
theorem TrxManager.Abort_forget (s : Managers) (t : Nat) :
    TrxManager.Abort_mutex s.forget t = (TrxManager.Abort s t).map Managers.forget := by
  unfold TrxManager.Abort_mutex TrxManager.Abort
  rw [TrxManager.GetTrxNode_forget, Managers.forget_trx_lock_deque]
  exact TrxManager.rollback_forget _ _

/-- `Commit(global_mutex)` does what `Commit()` does. -/
theorem TrxManager.Commit_forget (s : Managers) (t : Nat) :
    TrxManager.Commit_mutex s.forget t =
      (TrxManager.Commit s t).map (fun x => (x.1, x.2.forget)) := by
  unfold TrxManager.Commit_mutex TrxManager.Commit
  rw [TrxManager.GetTrxNode_forget, Managers.forget_trx_lock_deque,
    Managers.forget_thread_number_of, TrxManager.openLog_forget, ← Managers.forget_setCount]
  have e1 : s.forget.global_execution_count = s.global_execution_count := rfl
  have e2 : s.forget.last_global_execution_order = s.last_global_execution_order := rfl
  rw [e1, e2]
  split
  · split
    · rw [TrxManager.rollback_forget]
      cases TrxManager.rollback _ _ <;> rfl
    · rw [TrxManager.releaseAll_forget]
      cases TrxManager.releaseAll _ _ <;> rfl
  · rfl
theorem List.find?_congr_mem {α : Type} (p q : α → Bool) :
    ∀ (l : List α), (∀ x ∈ l, p x = q x) → l.find? p = l.find? q := by
  intro l
  induction l with
  | nil => intro _; rfl
  | cons a l ih =>
    intro h
    rw [List.find?_cons, List.find?_cons, h a (List.mem_cons_self _ _),
      ih (fun x hx => h x (List.mem_cons_of_mem _ hx))]

/-- On a state where a lock the head has passed has passed its id on, the two versions of
`AcquireLock` take the same lock from the pool. -/
theorem LockManager.takeLock_forget (s : Managers) (mode : lock_t.Mode) (r t : Nat)
    (hpass : ∀ p ∈ s.pools t r, (s.locks p).head_pass_flag = true →
      (s.locks p).id_pass_flag = true) :
    LockManager.takeLock_mutex s.forget mode r t =
      ((LockManager.takeLock s mode r t).1, (LockManager.takeLock s mode r t).2.forget) := by
  have hfind : (s.forget.pools t r).find? (fun p => (s.forget.locks p).recyclable_mutex) =
      (s.pools t r).find? (fun p => (s.locks p).recyclable) := by
    apply List.find?_congr_mem
    intro p hp
    have h := hpass p hp
    show (decide ((s.locks p).state = lock_t.State.OBSOLETE) && (s.locks p).head_pass_flag) =
      (decide ((s.locks p).state = lock_t.State.OBSOLETE) && (s.locks p).id_pass_flag &&
        (s.locks p).head_pass_flag)
    cases hh : (s.locks p).head_pass_flag with
    | false => simp
    | true => simp [h hh]
  unfold LockManager.takeLock_mutex LockManager.takeLock
  rw [hfind]
  cases (s.pools t r).find? (fun p => (s.locks p).recyclable) with
  | some p =>
    simp only
    rw [Managers.forget_setLock _ p (lock_t.withMode mode) (lock_t.withMode mode) rfl,
      Managers.forget_setLock s p lock_t.recycle lock_t.recycle_mutex rfl]
  | none =>
    simp only [Managers.forget_lock_count, Managers.forget_pools, Prod.mk.injEq, true_and]
    unfold Managers.forget
    simp only [Managers.mk.injEq, and_true, true_and]
    funext x
    by_cases hx : x = s.lock_count
    · subst hx
      simp only [Function.update_same]
      rfl
    · simp only [Function.update_noteq hx]

/-- When the default version links the new lock, the version with the global mutex links it
in the same way. -/
theorem LockManager.linkLock_forget (s s1 : Managers) (r t n : Nat)
    (h : LockManager.linkLock s r t n = some s1) :
    LockManager.linkLock_mutex s.forget r t n = some s1.forget := by
  unfold LockManager.linkLock at h
  obtain ⟨node, hnode, h⟩ := Option.bind_eq_some.1 h
  obtain ⟨tn, htn, h⟩ := Option.bind_eq_some.1 h
  obtain ⟨s4, hs4, h⟩ := Option.bind_eq_some.1 h
  split at h
  swap
  · cases h
  rename_i hc
  simp only [Option.some.injEq] at h
  subst h
  unfold LockManager.linkLock_mutex
  simp only [Managers.forget_lock_table, Managers.forget_trx_node_table, hnode, htn,
    Option.some_bind]
  have key : LockManager.appendLock_mutex s.forget r t n node tn = s4.forget := by
    unfold LockManager.appendLock_mutex
    cases htl : node.tail with
    | none =>
      rw [htl] at hs4
      simp only [Option.some.injEq] at hs4
      subst hs4
      unfold Managers.forget Managers.setNode Managers.setLock Managers.setTrx
      simp only [Managers.mk.injEq, and_true, true_and, Function.update_idem]
      funext x
      by_cases hx : x = n
      · subst hx
        simp only [Function.update_same]
        rfl
      · simp only [Function.update_noteq hx]
    | some p =>
      rw [htl] at hs4
      simp only at hs4
      split at hs4
      · cases hs4
      split at hs4
      · cases hs4
      simp only [Option.some.injEq] at hs4
      subst hs4
      unfold Managers.forget Managers.setNode Managers.setLock Managers.setTrx
      simp only [Managers.mk.injEq, and_true, true_and]
      funext x
      by_cases hxp : x = p
      · subst hxp
        simp only [Function.update_same]
        by_cases hxn : x = n
        · subst hxn
          simp only [Function.update_same]
          rfl
        · simp only [Function.update_noteq hxn, Function.update_same]
          rfl
      · simp only [Function.update_noteq hxp]
        by_cases hxn : x = n
        · subst hxn
          simp only [Function.update_same, Function.update_noteq hxp]
          rfl
        · simp only [Function.update_noteq hxn, Function.update_noteq hxp]
  rw [key]
  simp only [Managers.forget_conflict_lock, hc, if_true, Managers.forget_setConflict]

/-- The walk of the version with the global mutex from a lock of the list to the new lock
at its end collects the locks between them. -/
theorem LockManager.collectWaiting_mutex_spec (locks : Nat → lock_t) (n : Nat) :
    ∀ (todo : List Nat) (target fuel : Nat) (acc : List Nat),
      (todo ++ [n]).head? = some target → todo.length < fuel →
      (∀ x ∈ todo, x ≠ n) →
      List.Chain' (fun a b => (locks a).next = some b) (todo ++ [n]) →
      LockManager.collectWaiting_mutex locks n fuel target acc = some (acc ++ todo) := by
  intro todo
  induction todo with
  | nil =>
    intro target fuel acc ht hf _ _
    simp only [List.nil_append, List.head?_cons, Option.some.injEq] at ht
    subst ht
    cases fuel with
    | zero => simp at hf
    | succ fuel => simp [LockManager.collectWaiting_mutex]
  | cons x rest ih =>
    intro target fuel acc ht hf hx hc
    simp only [List.cons_append, List.head?_cons, Option.some.injEq] at ht
    subst ht
    cases fuel with
    | zero => simp at hf
    | succ fuel =>
      have hxn := hx x (List.mem_cons_self _ _)
      have hc' : List.Chain' (fun a b => (locks a).next = some b) (x :: (rest ++ [n])) := hc
      rw [List.chain'_cons'] at hc'
      obtain ⟨y, hy⟩ : ∃ y, (rest ++ [n]).head? = some y := by
        cases rest <;> simp
      have hnext : (locks x).next = some y := hc'.1 y hy
      unfold LockManager.collectWaiting_mutex
      rw [if_neg hxn, hnext]
      simp only
      rw [ih y fuel (acc ++ [x]) hy (by simpa using hf)
        (fun z hz => hx z (List.mem_cons_of_mem _ hz)) hc'.2]
      simp

/-- The compatibility check of the version with the global mutex passes when no lock to
check conflicts. -/
theorem LockManager.checkCompatible_mutex_pass (W : List Nat) (t n : Nat) :
    ∀ (todo : List Nat) (s : Managers),
      (∀ p ∈ todo, (s.locks p).state ≠ lock_t.State.OBSOLETE →
        ¬ (s.locks n).conflicts (s.locks p)) →
      LockManager.checkCompatible_mutex W t n todo s = some (false, s) := by
  intro todo
  induction todo with
  | nil => intro s _; rfl
  | cons p rest ih =>
    intro s h
    have hrest := ih s (fun q hq => h q (List.mem_cons_of_mem _ hq))
    unfold LockManager.checkCompatible_mutex
    by_cases hst : (s.locks p).state = lock_t.State.OBSOLETE
    · rw [if_pos hst]; exact hrest
    · rw [if_neg hst]
      have hc : ¬ ((s.locks n).mode = lock_t.Mode.EXCLUSIVE ∨
          (s.locks p).mode = lock_t.Mode.EXCLUSIVE) := h p (List.mem_cons_self _ _) hst
      rw [if_neg hc]; exact hrest

/-- The compatibility check of the version with the global mutex runs `IsDeadlock2`, with
the new lock in state WAIT, when some lock to check conflicts. -/
theorem LockManager.checkCompatible_mutex_conflict (W : List Nat) (t n : Nat) :
    ∀ (todo : List Nat) (s : Managers),
      (∃ p ∈ todo, (s.locks p).state ≠ lock_t.State.OBSOLETE ∧
        (s.locks n).conflicts (s.locks p)) →
      LockManager.checkCompatible_mutex W t n todo s =
        (LockManager.IsDeadlock2 (s.setLock n (lock_t.withState lock_t.State.WAIT)) t W).bind
          (fun q =>
            if q.1 = true then
              some (true, (q.2.setLock n
                (lock_t.withState lock_t.State.OBSOLETE)).setConflict t none)
            else some (false, q.2)) := by
  intro todo
  induction todo with
  | nil => intro s h; obtain ⟨p, hp, -⟩ := h; cases hp
  | cons p rest ih =>
    intro s h
    unfold LockManager.checkCompatible_mutex
    by_cases hst : (s.locks p).state = lock_t.State.OBSOLETE
    · rw [if_pos hst]
      refine ih s ?_
      obtain ⟨q, hq, hq1, hq2⟩ := h
      rcases List.mem_cons.1 hq with e | e
      · subst e; exact absurd hst hq1
      · exact ⟨q, e, hq1, hq2⟩
    · rw [if_neg hst]
      by_cases hc : (s.locks n).mode = lock_t.Mode.EXCLUSIVE ∨
          (s.locks p).mode = lock_t.Mode.EXCLUSIVE
      · rw [if_pos hc]
      · rw [if_neg hc]
        refine ih s ?_
        obtain ⟨q, hq, hq1, hq2⟩ := h
        rcases List.mem_cons.1 hq with e | e
        · subst e; exact absurd hq2 hc
        · exact ⟨q, e, hq1, hq2⟩
set_option maxHeartbeats 1600000 in
/-- `AcquireLock(mode, r, t, global_mutex)` and `AcquireLock(mode, r, t)` between two calls
of a sequence in which no thread sleeps, for a thread that has its node and a record whose
next lock id is not above the sentinel: both crash, or both
come to the same outcome, in states that differ by the lock ids and `id_pass_flag`s
only. -/
theorem LockManager.AcquireLock_forget {N : Nat} {s : Managers} (hs : s.Serial N)
    (mode : lock_t.Mode) (r t : Nat) (hnext : s.next_id r ≤ LOCK_ID_MAX) (tn : TrxNode)
    (htn : s.trx_node_table t = some tn) :
    LockManager.AcquireLock_mutex s.forget mode r t =
      (LockManager.AcquireLock s mode r t).map (fun x => (x.1, x.2.forget)) := by
  have htake := LockManager.takeLock_forget s mode r t
    (fun p hp => hs.passed p (hs.inv.pools t r p hp).1)
  obtain ⟨-, htab, -, -⟩ := LockManager.takeLock_props s mode r t
  cases hr : s.lock_table r with
  | none =>
    have h1 : LockManager.AcquireLock s mode r t = none := by
      unfold LockManager.AcquireLock LockManager.linkLock
      rw [htab, hr]
      rfl
    have h2 : LockManager.AcquireLock_mutex s.forget mode r t = none := by
      unfold LockManager.AcquireLock_mutex LockManager.linkLock_mutex
      rw [htake]
      simp only [Managers.forget_lock_table]
      rw [htab, hr]
      rfl
    rw [h1, h2]
    rfl
  | some node =>
    obtain ⟨chain, hq, hg⟩ := hs.inv.queues r (by rw [hr]; rfl)
    have hconf : tn.conflict_lock = none := by
      have := hs.awake t
      rwa [Managers.conflict_lock_of_some s t tn htn] at this
    have hconf' : s.conflict_lock t = none := hs.awake t
    have hid : ∀ tl, chain.getLast? = some tl →
        (s.locks tl).lock_id_on_record ≠ LOCK_ID_MAX := by
      intro tl htl
      obtain ⟨node0, hnode0, -, htail0⟩ := hq.ends
      unfold Managers.next_id at hnext
      rw [hnode0] at hnext
      simp only [Option.some_bind] at hnext
      rw [htail0, htl] at hnext
      simp only at hnext
      omega
    obtain ⟨s1, id, hlink, hins, hres⟩ := LockManager.AcquireLock_spec s hs.inv mode r t chain
      tn hq hg htn hconf hid
    generalize hn : (LockManager.takeLock s mode r t).1 = n at hlink hins hres htake
    generalize (LockManager.takeLock s mode r t).2 = sa at hlink htake
    have hq1 := hins.queue hq
    have hnew := hins.new
    have hnmem : n ∉ chain := hins.fresh.not_mem hq
    obtain ⟨tn', htn', htn1⟩ := hins.trx
    obtain ⟨node1, hnode1, hhead1, -⟩ := hq1.ends
    obtain ⟨head, hh⟩ : ∃ head, (chain ++ [n]).head? = some head := by
      cases chain <;> simp
    have hcollect : LockManager.collectWaiting_mutex s1.forget.locks n
        (s1.lock_count + 1) head [] = some chain := by
      have := LockManager.collectWaiting_mutex_spec s1.forget.locks n chain head
        (s1.lock_count + 1) [] hh (by have := hq1.length_le; simp at this; omega)
        (fun x hx e => hnmem (e ▸ hx))
        (hq1.links.imp (fun a b hab => hab.1))
      simpa using this
    have hstart : LockManager.AcquireLock_mutex s.forget mode r t =
        (LockManager.checkCompatible_mutex chain t n chain.reverse s1.forget).bind (fun q =>
          if q.1 = true then some (AcquireOutcome.null, q.2)
          else if (q.2.locks n).state = lock_t.State.WAIT ∧
              (q.2.locks n).signal_flag = false then
            some (AcquireOutcome.waiting n, q.2)
          else some (AcquireOutcome.lock n, LockManager.finishAcquire q.2 t n)) := by
      unfold LockManager.AcquireLock_mutex
      rw [htake]
      simp only
      rw [LockManager.linkLock_forget sa s1 r t n hlink]
      simp only [Option.some_bind, Managers.forget_lock_table, Managers.forget_lock_count]
      rw [hnode1]
      simp only [Option.some_bind]
      rw [hhead1, hh]
      simp only [Option.some_bind]
      rw [hcollect]
      simp only [Option.some_bind]
    have hcf : ∀ p ∈ chain, ((s1.forget.locks p).state ≠ lock_t.State.OBSOLETE ∧
        (s1.forget.locks n).conflicts (s1.forget.locks p)) ↔
        ((s.locks p).state ≠ lock_t.State.OBSOLETE ∧
          (mode = lock_t.Mode.EXCLUSIVE ∨ (s.locks p).mode = lock_t.Mode.EXCLUSIVE)) := by
      intro p hp
      have ho := hins.old p (fun e => hnmem (e ▸ hp))
      unfold lock_t.conflicts
      simp only [Managers.forget_locks, lock_t.forget_state, lock_t.forget_mode]
      rw [ho.1, ho.2.1, hnew.2.1]
    rw [hstart]
    rcases hres with ⟨hca, hacq⟩ | ⟨hca, b, hb, hacq⟩
    · rw [hacq, LockManager.checkCompatible_mutex_pass chain t n chain.reverse s1.forget (by
        intro p hp hst hc
        have hp' := List.mem_reverse.1 hp
        exact hca ⟨p, hp', ((hcf p hp').1 ⟨hst, hc⟩).1, ((hcf p hp').1 ⟨hst, hc⟩).2⟩)]
      simp only [Option.some_bind, Option.map_some']
      have hst : (s1.locks n).state = lock_t.State.ACTIVE := hnew.1
      have hfin : LockManager.finishAcquire s1 t n =
          s1.decided t n lock_t.State.ACTIVE none := by
        unfold LockManager.finishAcquire Managers.decided
        rw [if_neg (by rw [hst]; decide)]
        rw [Managers.setLock_eq_self s1 n _ (by
          unfold lock_t.withState; rw [← hst])]
      simp [hst, LockManager.finishAcquire_forget, hfin]
    · have hsW : s1.setLock n (lock_t.withState lock_t.State.WAIT) =
          s1.decided t n lock_t.State.WAIT (some n) := by
        unfold Managers.decided
        rw [Managers.setConflict_eq_self _ t (some n) _ (by simpa using htn1) rfl]
      have hinvW : (s1.decided t n lock_t.State.WAIT (some n)).Inv :=
        hins.inv hs.inv hq hg hconf' _ _ (Or.inr (Or.inl ⟨rfl, rfl, hca⟩))
      have hW : ∀ x ∈ chain, x < (s1.decided t n lock_t.State.WAIT (some n)).lock_count := by
        intro x hx
        rw [Managers.decided_lock_count]
        exact lt_of_lt_of_le (hq.members x hx).1 hins.count_le
      rw [hacq, LockManager.checkCompatible_mutex_conflict chain t n chain.reverse s1.forget
        (by
          obtain ⟨p, hp, h1, h2⟩ := hca
          exact ⟨p, List.mem_reverse.2 hp, (hcf p hp).2 ⟨h1, h2⟩⟩),
        ← Managers.forget_withState, hsW, LockManager.IsDeadlock2_forget,
        LockManager.IsDeadlock2_eq _ hinvW t chain hW, hb]
      simp only [Option.map_some', Option.some_bind]
      cases b with
      | true =>
        simp only [if_true, Option.some.injEq, Prod.mk.injEq, true_and]
        rw [← Managers.forget_withState, ← Managers.forget_setConflict, ← hsW,
          Managers.setLock_withState_twice]
        rfl
      | false =>
        have h1 : ((s1.decided t n lock_t.State.WAIT (some n)).locks n).state =
            lock_t.State.WAIT := (hins.decided_new _ _).1
        have h2 : ((s1.decided t n lock_t.State.WAIT (some n)).locks n).signal_flag =
            false := (hins.decided_new _ _).2.2
        simp [h1, h2]
theorem Managers.Serial.mono {N M : Nat} {s : Managers} (hs : s.Serial N) (h : N ≤ M) :
    s.Serial M :=
  ⟨hs.inv, hs.awake, hs.passed, fun l hl => lt_of_lt_of_le (hs.ids l hl) h⟩

/-- The next lock id of a record is at most the bound of the lock ids. -/
theorem Managers.Serial.next_id_le {N : Nat} {s : Managers} (hs : s.Serial N) (r : Nat) :
    s.next_id r ≤ N := by
  unfold Managers.next_id
  cases h : (s.lock_table r).bind (fun node => node.tail) with
  | none => exact Nat.zero_le N
  | some tl =>
    simp only
    obtain ⟨node, hnode, htl⟩ := Option.bind_eq_some.1 h
    obtain ⟨chain, hq, -⟩ := hs.inv.queues r (by rw [hnode]; rfl)
    obtain ⟨node0, hnode0, -, htail⟩ := hq.ends
    rw [hnode] at hnode0
    cases hnode0
    have hmem : tl ∈ chain := List.mem_of_getLast?_some (by rw [← htail]; exact htl)
    have := hs.ids tl (hq.members tl hmem).1
    omega

/-- A step that keeps the invariant, the conflict locks, the allocation, the flags and the
ids keeps the state of a sequence. -/
theorem Managers.Serial.of_flags {N : Nat} {s s' : Managers} (hs : s.Serial N)
    (hinv : s'.Inv) (hconf : ∀ t, s'.conflict_lock t = s.conflict_lock t)
    (hcount : s'.lock_count = s.lock_count)
    (hl : ∀ l, (s'.locks l).head_pass_flag = (s.locks l).head_pass_flag ∧
      (s'.locks l).id_pass_flag = (s.locks l).id_pass_flag ∧
      (s'.locks l).lock_id_on_record = (s.locks l).lock_id_on_record) :
    s'.Serial N := by
  refine ⟨hinv, fun t => by rw [hconf]; exact hs.awake t, ?_, ?_⟩
  · intro l hlt hp
    rw [hcount] at hlt
    rw [(hl l).1] at hp
    rw [(hl l).2.1]
    exact hs.passed l hlt hp
  · intro l hlt
    rw [hcount] at hlt
    rw [(hl l).2.2]
    exact hs.ids l hlt

theorem Managers.Serial.init (R : Nat) (cap : Int) : (Managers.init R cap).Serial 0 :=
  ⟨Managers.init_inv R cap, fun _ => rfl, fun l hl => absurd hl (Nat.not_lt_zero l),
    fun l hl => absurd hl (Nat.not_lt_zero l)⟩

theorem Managers.Serial.getTrxNode_serial {N : Nat} {s : Managers} (hs : s.Serial N) (t : Nat) :
    (TrxManager.GetTrxNode s t).Serial N :=
  hs.of_flags (hs.inv.getTrxNode_inv t) (TrxManager.GetTrxNode_conflict_lock s t)
    (TrxManager.GetTrxNode_lock_count s t)
    (fun l => by rw [TrxManager.GetTrxNode_locks]; exact ⟨rfl, rfl, rfl⟩)

theorem Managers.Serial.begin_call {N : Nat} {s : Managers} (hs : s.Serial N) (t : Nat) :
    (TrxManager.Begin s t).Serial N := by
  obtain ⟨hlocks, hcount, -, -, -, -, -, -, -, hconf, -⟩ :=
    TrxManager.Begin_spec s t (hs.awake t)
  exact hs.of_flags (hs.inv.begin t (hs.awake t)) hconf hcount
    (fun l => by rw [hlocks]; exact ⟨rfl, rfl, rfl⟩)

theorem Managers.Serial.setCount_serial {N : Nat} {s : Managers} (hs : s.Serial N) (c : Int) :
    (s.setCount c).Serial N :=
  hs.of_flags (hs.inv.setCount c) (fun _ => rfl) rfl (fun _ => ⟨rfl, rfl, rfl⟩)

theorem Managers.Serial.create_serial {N : Nat} {s : Managers} (hs : s.Serial N) (M : Int) :
    (s.create M).Serial N :=
  hs.of_flags (hs.inv.create M) (fun _ => rfl) rfl (fun _ => ⟨rfl, rfl, rfl⟩)

theorem Managers.Serial.append_out {N : Nat} {s : Managers} (hs : s.Serial N) (M : Int)
    (out : String) : (s.append M out).Serial N :=
  hs.of_flags (hs.inv.append_line M out) (fun _ => rfl) rfl (fun _ => ⟨rfl, rfl, rfl⟩)

/-- No lock is in state WAIT while no thread sleeps. -/
theorem Managers.Serial.no_wait {N : Nat} {s : Managers} (hs : s.Serial N) (l : Nat)
    (hl : l < s.lock_count) : (s.locks l).state ≠ lock_t.State.WAIT := by
  intro h
  have := hs.inv.waiting l hl h
  rw [hs.awake] at this
  cases this

theorem Managers.Serial.changeRecord {N : Nat} {s : Managers} (hs : s.Serial N) (l : Nat)
    (d : Int) (x : Int × Managers) (h : LockManager.ChangeRecord s l d = some x) :
    x.2.Serial N ∧ x.2.lock_count = s.lock_count ∧ x.2.locks = s.locks := by
  unfold LockManager.ChangeRecord at h
  split at h
  swap
  · cases h
  obtain ⟨node, hnode, h⟩ := Option.bind_eq_some.1 h
  split at h
  swap
  · cases h
  simp only [Option.some.injEq] at h
  subst h
  exact ⟨hs.of_flags (hs.inv.setValue _ node hnode _) (fun _ => rfl) rfl
    (fun _ => ⟨rfl, rfl, rfl⟩), rfl, rfl⟩

theorem List.Chain'.successor_of_mem {α : Type} {R : α → α → Prop} :
    ∀ (d c : List α) (x : α), List.Chain' R (d ++ c) → c ≠ [] → x ∈ d → ∃ y, R x y := by
  intro d
  induction d with
  | nil => intro c x _ _ hx; cases hx
  | cons a d ih =>
    intro c x h hc hx
    have h' : List.Chain' R (a :: (d ++ c)) := h
    rw [List.chain'_cons'] at h'
    rcases List.mem_cons.1 hx with e | e
    · subst e
      obtain ⟨y, hy⟩ : ∃ y, (d ++ c).head? = some y := by
        cases d with
        | nil =>
          cases c with
          | nil => exact absurd rfl hc
          | cons b c => exact ⟨b, rfl⟩
        | cons b d => exact ⟨b, rfl⟩
      exact ⟨y, h'.1 y hy⟩
    · exact ih c x h'.2 hc e

/-- `ReleaseLock` for an allocated lock keeps the state of a sequence. -/
theorem Managers.Serial.release {N : Nat} {s : Managers} (hs : s.Serial N) (l : Nat)
    (hl : l < s.lock_count) (s' : Managers) (h : LockManager.ReleaseLock s l = some s') :
    s'.Serial N ∧ s'.lock_count = s.lock_count := by
  obtain ⟨s2, h2, hinv2, hfr, -⟩ := LockManager.ReleaseLock_inv s hs.inv l hl
    (hs.no_wait l hl)
  rw [h] at h2
  cases h2
  obtain ⟨chain, hq, -⟩ := hs.inv.queues _ (hs.inv.records l hl)
  have hne : chain ≠ [] := hq.nonempty l hl rfl
  obtain ⟨s3, d, chain', woken, h3, hsplit, hne', -, -, -, -, hflags, -⟩ :=
    LockManager.ReleaseLock_spec s l chain hq hne
  rw [h] at h3
  cases h3
  refine ⟨⟨hinv2, fun t => by rw [hfr.conflict]; exact hs.awake t, ?_, ?_⟩, hfr.lock_count⟩
  · intro x hx hp
    rw [hfr.lock_count] at hx
    rw [hfr.id_pass]
    rw [(hflags x).2.1] at hp
    by_cases hxd : x ∈ d
    · have hlinks := hq.links
      rw [hsplit] at hlinks
      obtain ⟨y, hy⟩ := List.Chain'.successor_of_mem d chain' x hlinks hne' hxd
      exact hy.2.2
    · rw [if_neg hxd] at hp
      exact hs.passed x hx hp
  · intro x hx
    rw [hfr.lock_count] at hx
    rw [hfr.lock_id]
    exact hs.ids x hx

set_option maxHeartbeats 800000 in
/-- A call of `AcquireLock` that returns keeps the state of a sequence, with one more lock
id. -/
theorem Managers.Serial.acquire {N : Nat} {s : Managers} (hs : s.Serial N)
    (mode : lock_t.Mode) (r t : Nat) (x : AcquireOutcome × Managers)
    (h : LockManager.AcquireLock s mode r t = some x)
    (hx : ∀ l, x.1 ≠ AcquireOutcome.waiting l) : x.2.Serial (N + 1) := by
  obtain ⟨chain, tn, hq, hg, htn, hconf, hid⟩ :=
    LockManager.AcquireLock_pre s hs.inv mode r t x h
  obtain ⟨s1, id, -, hins, hres⟩ := LockManager.AcquireLock_spec s hs.inv mode r t chain tn
    hq hg htn hconf hid
  generalize (LockManager.takeLock s mode r t).1 = n at hins hres
  have hform : ∃ st, x.2 = s1.decided t n st none := by
    rcases hres with ⟨-, hacq⟩ | ⟨-, b, -, hacq⟩
    · rw [h] at hacq
      simp only [Option.some.injEq] at hacq
      exact ⟨_, by rw [hacq]⟩
    · cases b with
      | true =>
        rw [h] at hacq
        simp only [if_true, Option.some.injEq] at hacq
        exact ⟨_, by rw [hacq]⟩
      | false =>
        rw [h] at hacq
        simp only [Bool.false_eq_true, if_false, Option.some.injEq] at hacq
        exact absurd (by rw [hacq]) (hx n)
  obtain ⟨st, hst⟩ := hform
  have hinv := LockManager.AcquireLock_inv s hs.inv mode r t x h
  rw [hst] at hinv ⊢
  obtain ⟨tn0, -, htn1⟩ := hins.trx
  have hidn : id < N + 1 := by
    cases hlast : chain.getLast? with
    | none =>
      have : chain = [] := List.getLast?_eq_none_iff.1 hlast
      rw [hins.id_first this]
      omega
    | some tl =>
      rw [hins.id_next tl hlast]
      have := hs.ids tl (hq.members tl (List.mem_of_getLast?_some hlast)).1
      omega
  refine ⟨hinv, ?_, ?_, ?_⟩
  · intro u
    rw [Managers.decided_conflict_lock _ _ _ _ _ _ (by rw [htn1]; rfl), hins.conflict_lock]
    by_cases hu : u = t
    · rw [if_pos hu]
    · rw [if_neg hu, if_neg hu]
      exact hs.awake u
  · intro l hl hp
    rw [Managers.decided_lock_count] at hl
    obtain ⟨-, -, hidp, hhp, -⟩ := Managers.decided_fields s1 t n st none l
    rw [hhp] at hp
    rw [hidp]
    by_cases hln : l = n
    · subst hln
      rw [hins.new.2.2.2.2.2.1] at hp
      cases hp
    · have ho := hins.old l hln
      rw [ho.2.2.2.2.2.1] at hp
      have hls : l < s.lock_count := (hins.count_new l hl).resolve_right hln
      have hps := hs.passed l hls hp
      by_cases hlast : chain.getLast? = some l
      · rw [hins.prev_tail l hlast]
        rfl
      · rw [hins.other_locks l hln hlast]
        exact hps
  · intro l hl
    rw [Managers.decided_lock_count] at hl
    rw [(Managers.decided_fields s1 t n st none l).2.1]
    by_cases hln : l = n
    · subst hln
      rw [hins.new.2.2.2.2.2.2.1]
      exact hidn
    · rw [(hins.old l hln).2.2.2.2.2.2.1]
      have hls : l < s.lock_count := (hins.count_new l hl).resolve_right hln
      have := hs.ids l hls
      omega
theorem Managers.Serial.rollbackOne {N : Nat} {s : Managers} (hs : s.Serial N) (l : Nat)
    (hl : l < s.lock_count) (s' : Managers) (h : TrxManager.rollbackOne s l = some s') :
    s'.Serial N ∧ s'.lock_count = s.lock_count := by
  unfold TrxManager.rollbackOne at h
  obtain ⟨s1, h1, h⟩ := Option.bind_eq_some.1 h
  have hs1 : s1.Serial N ∧ s1.lock_count = s.lock_count := by
    split at h1
    · split at h1
      swap
      · cases h1
      obtain ⟨x, hx, h1⟩ := Option.map_eq_some'.1 h1
      subst h1
      obtain ⟨hsx, hcx, -⟩ := hs.changeRecord l _ x hx
      exact ⟨hsx, hcx⟩
    · simp only [Option.some.injEq] at h1
      subst h1
      exact ⟨hs, rfl⟩
  obtain ⟨h2, h3⟩ := hs1.1.release l (by rw [hs1.2]; exact hl) s' h
  exact ⟨h2, h3.trans hs1.2⟩

theorem Managers.Serial.rollback_serial {N : Nat} :
    ∀ (deque : List Nat) (s s' : Managers), s.Serial N →
      (∀ l ∈ deque, l < s.lock_count) → TrxManager.rollback deque s = some s' →
      s'.Serial N := by
  intro deque
  induction deque with
  | nil =>
    intro s s' hs _ h
    simp only [TrxManager.rollback, Option.some.injEq] at h
    subst h
    exact hs
  | cons l rest ih =>
    intro s s' hs hl h
    unfold TrxManager.rollback at h
    obtain ⟨s1, h1, h⟩ := Option.bind_eq_some.1 h
    obtain ⟨hs1, hc1⟩ := hs.rollbackOne l (hl l (List.mem_cons_self _ _)) s1 h1
    exact ih s1 s' hs1 (fun x hx => by rw [hc1]; exact hl x (List.mem_cons_of_mem _ hx)) h

theorem Managers.Serial.releaseAll {N : Nat} :
    ∀ (deque : List Nat) (s : Managers) (x : (List Nat × List Int) × Managers), s.Serial N →
      (∀ l ∈ deque, l < s.lock_count) → TrxManager.releaseAll deque s = some x →
      x.2.Serial N := by
  intro deque
  induction deque with
  | nil =>
    intro s x hs _ h
    simp only [TrxManager.releaseAll, Option.some.injEq] at h
    subst h
    exact hs
  | cons l rest ih =>
    intro s x hs hl h
    unfold TrxManager.releaseAll at h
    obtain ⟨v, -, h⟩ := Option.bind_eq_some.1 h
    obtain ⟨s1, h1, h⟩ := Option.bind_eq_some.1 h
    obtain ⟨y, hy, h⟩ := Option.map_eq_some'.1 h
    subst h
    obtain ⟨hs1, hc1⟩ := hs.release l (hl l (List.mem_cons_self _ _)) s1 h1
    exact ih s1 y hs1 (fun z hz => by rw [hc1]; exact hl z (List.mem_cons_of_mem _ hz)) hy

/-- The locks of the deque of a thread are allocated. -/
theorem Managers.Serial.deque_allocated {N : Nat} {s : Managers} (hs : s.Serial N) (t : Nat) :
    ∀ l ∈ s.trx_lock_deque t, l < s.lock_count :=
  fun l hl => (hs.inv.deques t l hl).1

theorem Managers.Serial.abort_call {N : Nat} {s : Managers} (hs : s.Serial N) (t : Nat)
    (s' : Managers) (h : TrxManager.Abort s t = some s') : s'.Serial N := by
  unfold TrxManager.Abort at h
  exact Managers.Serial.rollback_serial _ _ _ (hs.getTrxNode_serial t)
    ((hs.getTrxNode_serial t).deque_allocated t) h

theorem Managers.Serial.commit_call {N : Nat} {s : Managers} (hs : s.Serial N) (t : Nat)
    (x : Int × Managers) (h : TrxManager.Commit s t = some x) : x.2.Serial N := by
  unfold TrxManager.Commit at h
  split at h
  swap
  · cases h
  have hsc := ((hs.getTrxNode_serial t).create_serial
    ((TrxManager.GetTrxNode s t).thread_number_of t)).setCount_serial
      (s.global_execution_count + 1)
  have hdq : ∀ l ∈ (TrxManager.GetTrxNode s t).trx_lock_deque t,
      l < ((TrxManager.openLog s t).setCount (s.global_execution_count + 1)).lock_count :=
    (hs.getTrxNode_serial t).deque_allocated t
  split at h
  · obtain ⟨s2, hs2, h⟩ := Option.map_eq_some'.1 h
    subst h
    exact Managers.Serial.rollback_serial _ _ _ hsc hdq hs2
  · obtain ⟨r, hr, h⟩ := Option.map_eq_some'.1 h
    subst h
    exact (Managers.Serial.releaseAll _ _ _ hsc hdq hr).append_out _ _

/-- `Find(r, ret, global_mutex)` and `Find(r, ret)` between two calls of a sequence. -/
theorem TrxManager.Find_forget {N : Nat} {s : Managers} (hs : s.Serial N)
    (t r : Nat) (hnext : s.next_id r ≤ LOCK_ID_MAX) :
    TrxManager.Find_mutex s.forget t r =
        (TrxManager.Find s t r).map (fun x => (x.1, x.2.forget)) ∧
      ∀ x, TrxManager.Find s t r = some x → (∀ l, x.1 ≠ Response.BLOCKED l) →
        x.2.Serial (N + 1) := by
  obtain ⟨tn, htn⟩ := Option.isSome_iff_exists.1 (TrxManager.GetTrxNode_isSome s t)
  constructor
  · unfold TrxManager.Find_mutex TrxManager.Find
    rw [TrxManager.GetTrxNode_forget,
      LockManager.AcquireLock_forget (hs.getTrxNode_serial t) _ r t
        (by rw [TrxManager.GetTrxNode_next_id]; exact hnext) tn htn]
    cases LockManager.AcquireLock (TrxManager.GetTrxNode s t) lock_t.Mode.SHARED r t with
    | none => rfl
    | some a =>
      simp only [Option.map_some', Option.some_bind]
      cases a.1 with
      | null => rfl
      | lock l => exact TrxManager.FindWith_forget _ _
      | waiting l => rfl
  · intro x h hx
    unfold TrxManager.Find at h
    obtain ⟨a, ha, h⟩ := Option.bind_eq_some.1 h
    cases ha1 : a.1 with
    | null =>
      rw [ha1] at h
      simp only [Option.some.injEq] at h
      subst h
      exact (hs.getTrxNode_serial t).acquire _ r t a ha (fun l e => by rw [ha1] at e; cases e)
    | lock l =>
      rw [ha1] at h
      unfold TrxManager.FindWith at h
      obtain ⟨v, -, h⟩ := Option.map_eq_some'.1 h
      subst h
      exact (hs.getTrxNode_serial t).acquire _ r t a ha (fun l e => by rw [ha1] at e; cases e)
    | waiting l =>
      rw [ha1] at h
      simp only [Option.some.injEq] at h
      subst h
      exact absurd rfl (hx l)

/-- `Update(r, diff, ret, global_mutex)` and `Update(r, diff, ret)` between two calls of a
sequence. -/
theorem TrxManager.Update_forget {N : Nat} {s : Managers} (hs : s.Serial N)
    (t r : Nat) (d : Int) (hnext : s.next_id r ≤ LOCK_ID_MAX) :
    TrxManager.Update_mutex s.forget t r d =
        (TrxManager.Update s t r d).map (fun x => (x.1, x.2.forget)) ∧
      ∀ x, TrxManager.Update s t r d = some x → (∀ l, x.1 ≠ Response.BLOCKED l) →
        x.2.Serial (N + 1) := by
  obtain ⟨tn, htn⟩ := Option.isSome_iff_exists.1 (TrxManager.GetTrxNode_isSome s t)
  constructor
  · unfold TrxManager.Update_mutex TrxManager.Update
    rw [TrxManager.GetTrxNode_forget,
      LockManager.AcquireLock_forget (hs.getTrxNode_serial t) _ r t
        (by rw [TrxManager.GetTrxNode_next_id]; exact hnext) tn htn]
    cases LockManager.AcquireLock (TrxManager.GetTrxNode s t) lock_t.Mode.EXCLUSIVE r t with
    | none => rfl
    | some a =>
      simp only [Option.map_some', Option.some_bind]
      cases a.1 with
      | null => rfl
      | lock l => exact TrxManager.UpdateWith_forget _ _ _
      | waiting l => rfl
  · intro x h hx
    unfold TrxManager.Update at h
    obtain ⟨a, ha, h⟩ := Option.bind_eq_some.1 h
    cases ha1 : a.1 with
    | null =>
      rw [ha1] at h
      simp only [Option.some.injEq] at h
      subst h
      exact (hs.getTrxNode_serial t).acquire _ r t a ha (fun l e => by rw [ha1] at e; cases e)
    | lock l =>
      rw [ha1] at h
      unfold TrxManager.UpdateWith at h
      obtain ⟨v, hv, h⟩ := Option.map_eq_some'.1 h
      subst h
      have hsa := (hs.getTrxNode_serial t).acquire _ r t a ha (fun l e => by rw [ha1] at e; cases e)
      obtain ⟨hsv, -, -⟩ := hsa.changeRecord l d v hv
      refine hsv.of_flags (hsv.inv.setDiff l d) (fun _ => rfl) rfl ?_
      intro x
      dsimp only [Managers.setLock_locks]
      by_cases hxl : x = l
      · subst hxl
        rw [Function.update_same]
        exact ⟨rfl, rfl, rfl⟩
      · rw [Function.update_noteq hxl]
        exact ⟨rfl, rfl, rfl⟩
    | waiting l =>
      rw [ha1] at h
      simp only [Option.some.injEq] at h
      subst h
      exact absurd rfl (hx l)

/-- A call with the versions that take the global mutex and the same call with the default
versions, between two calls of a sequence: both crash, or both give the same reply, in
states that differ by the lock ids and `id_pass_flag`s only. -/
theorem TrxManager.serve_forget {N : Nat} {s : Managers} (hs : s.Serial N) (t : Nat)
    (c : TrxCall) (hN : c.acquires = true → N ≤ LOCK_ID_MAX) :
    TrxManager.serve_mutex s.forget t c =
        (TrxManager.serve s t c).map (fun x => (x.1, x.2.forget)) ∧
      ∀ x, TrxManager.serve s t c = some x → x.1.asleep = false →
        x.2.Serial (N + c.acquires.toNat) := by
  cases c with
  | Begin =>
    refine ⟨?_, ?_⟩
    · simp only [TrxManager.serve, TrxManager.serve_mutex]
      rw [TrxManager.Begin_forget]
      rfl
    · intro x h _
      simp only [TrxManager.serve, Option.some.injEq] at h
      subst h
      exact hs.begin_call t
  | Find r =>
    obtain ⟨h1, h2⟩ := TrxManager.Find_forget hs t r
      (le_trans (hs.next_id_le r) (hN rfl))
    refine ⟨?_, ?_⟩
    · simp only [TrxManager.serve, TrxManager.serve_mutex]
      rw [h1]
      cases TrxManager.Find s t r <;> rfl
    · intro x h hx
      obtain ⟨y, hy, h⟩ := Option.map_eq_some'.1 h
      subst h
      refine h2 y hy ?_
      intro l e
      rw [show (TrxReply.response y.1, y.2).1 = TrxReply.response y.1 from rfl, e] at hx
      cases hx
  | Update r d =>
    obtain ⟨h1, h2⟩ := TrxManager.Update_forget hs t r d
      (le_trans (hs.next_id_le r) (hN rfl))
    refine ⟨?_, ?_⟩
    · simp only [TrxManager.serve, TrxManager.serve_mutex]
      rw [h1]
      cases TrxManager.Update s t r d <;> rfl
    · intro x h hx
      obtain ⟨y, hy, h⟩ := Option.map_eq_some'.1 h
      subst h
      refine h2 y hy ?_
      intro l e
      rw [show (TrxReply.response y.1, y.2).1 = TrxReply.response y.1 from rfl, e] at hx
      cases hx
  | Abort =>
    refine ⟨?_, ?_⟩
    · simp only [TrxManager.serve, TrxManager.serve_mutex]
      rw [TrxManager.Abort_forget]
      cases TrxManager.Abort s t <;> rfl
    · intro x h _
      obtain ⟨y, hy, h⟩ := Option.map_eq_some'.1 h
      subst h
      exact hs.abort_call t y hy
  | Commit =>
    refine ⟨?_, ?_⟩
    · simp only [TrxManager.serve, TrxManager.serve_mutex]
      rw [TrxManager.Commit_forget]
      cases TrxManager.Commit s t <;> rfl
    · intro x h _
      obtain ⟨y, hy, h⟩ := Option.map_eq_some'.1 h
      subst h
      exact hs.commit_call t y hy

theorem TrxManager.countP_acquires (call : Nat × TrxCall) (rest : List (Nat × TrxCall)) :
    (call :: rest).countP (fun c => c.2.acquires) =
      call.2.acquires.toNat + rest.countP (fun c => c.2.acquires) := by
  rw [List.countP_cons]
  cases call.2.acquires with
  | true => simp [Nat.add_comm]
  | false => simp

/-- A sequence of calls with the versions that take the global mutex and the same sequence
with the default versions, with at most `2 ^ 64` lock ids in all: both crash, or both give
the same replies, in states that differ by the lock ids and `id_pass_flag`s only; and when
no thread went to sleep the last state is again a state between two calls. -/
theorem TrxManager.sequence_forget :
    ∀ (calls : List (Nat × TrxCall)) (N : Nat) (s : Managers), s.Serial N →
      N + calls.countP (fun c => c.2.acquires) ≤ LOCK_ID_MAX + 1 →
      TrxManager.sequence TrxManager.serve_mutex calls s.forget =
          (TrxManager.sequence TrxManager.serve calls s).map (fun y => (y.1, y.2.forget)) ∧
        ∀ y, TrxManager.sequence TrxManager.serve calls s = some y →
          (∀ x ∈ y.1, x.asleep = false) →
          y.2.Serial (N + calls.countP (fun c => c.2.acquires)) := by
  intro calls
  induction calls with
  | nil =>
    intro N s hs _
    refine ⟨rfl, ?_⟩
    intro y hy _
    simp only [TrxManager.sequence, Option.some.injEq] at hy
    subst hy
    exact hs
  | cons call rest ih =>
    intro N s hs hN
    rw [TrxManager.countP_acquires] at hN ⊢
    obtain ⟨h1, h2⟩ := TrxManager.serve_forget hs call.1 call.2 (fun ha => by
      rw [ha] at hN
      simp only [Bool.toNat_true] at hN
      omega)
    refine ⟨?_, ?_⟩
    · unfold TrxManager.sequence
      rw [h1]
      cases hx : TrxManager.serve s call.1 call.2 with
      | none => rfl
      | some x =>
        simp only [Option.map_some', Option.some_bind]
        cases ha : x.1.asleep with
        | true => simp
        | false =>
          simp only [Bool.false_eq_true, if_false]
          rw [(ih (N + call.2.acquires.toNat) x.2 (h2 x hx ha) (by omega)).1]
          cases TrxManager.sequence TrxManager.serve rest x.2 <;> rfl
    · intro y hy hall
      unfold TrxManager.sequence at hy
      obtain ⟨x, hx, hy⟩ := Option.bind_eq_some.1 hy
      cases ha : x.1.asleep with
      | true =>
        rw [ha] at hy
        simp only [if_true, Option.some.injEq] at hy
        subst hy
        have := hall x.1 (List.mem_singleton.2 rfl)
        rw [ha] at this
        cases this
      | false =>
        rw [ha] at hy
        simp only [Bool.false_eq_true, if_false] at hy
        obtain ⟨z, hz, hy⟩ := Option.map_eq_some'.1 hy
        subst hy
        have := (ih (N + call.2.acquires.toNat) x.2 (h2 x hx ha) (by omega)).2 z hz
          (fun w hw => hall w (List.mem_cons_of_mem _ hw))
        rw [Nat.add_assoc] at this
        exact this

theorem Managers.init_forget (R : Nat) (cap : Int) :
    (Managers.init R cap).forget = Managers.init R cap := rfl
/-- **C23.** Identical external behaviour of the two versions.  For every sequence of calls
of `Begin`, `Find`, `Update`, `Abort` and `Commit` with at most `2 ^ 64` calls of `Find` and
`Update`, made one after the other (by one thread or by several) from the state after
`InitManagers`, the versions that take the global mutex and the default versions either both
crash or do not return, or both give the same replies (responses, values and commit ids),
leave the same value in every record, and leave the same content in every file. -/
theorem TrxManager.sequence_mutex_same (R : Nat) (cap : Int) (calls : List (Nat × TrxCall))
    (hcalls : calls.countP (fun c => c.2.acquires) ≤ LOCK_ID_MAX + 1) :
    (TrxManager.sequence TrxManager.serve_mutex calls (Managers.init R cap)).map
        TrxManager.observed =
      (TrxManager.sequence TrxManager.serve calls (Managers.init R cap)).map
        TrxManager.observed := by
  have h := (TrxManager.sequence_forget calls 0 (Managers.init R cap)
    (Managers.Serial.init R cap) (by omega)).1
  rw [Managers.init_forget] at h
  rw [h]
  cases TrxManager.sequence TrxManager.serve calls (Managers.init R cap) <;> rfl

set_option maxRecDepth 100000 in
set_option maxHeartbeats 4000000 in
/-- Three records, cap 1, one thread: `Begin`, `Find(1)`, `Update(1, 5)` (refused, the thread
holds the SHARED lock), `Abort`, `Begin`, `Update(2, 7)`, `Commit`.  The default versions
return these replies, and the versions with the global mutex show the same. -/
theorem TrxManager.sequence_mutex_same_witness :
    (TrxManager.sequence TrxManager.serve
        [(1, TrxCall.Begin), (1, TrxCall.Find 1), (1, TrxCall.Update 1 5), (1, TrxCall.Abort),
          (1, TrxCall.Begin), (1, TrxCall.Update 2 7), (1, TrxCall.Commit)]
        (Managers.init 3 1)).map (fun y => y.1) =
      some [TrxReply.returned, TrxReply.response (Response.SUCCESS 100),
        TrxReply.response Response.MUST_ABORTED, TrxReply.returned, TrxReply.returned,
        TrxReply.response (Response.SUCCESS 107), TrxReply.commit_id 1] ∧
    (TrxManager.sequence TrxManager.serve_mutex
        [(1, TrxCall.Begin), (1, TrxCall.Find 1), (1, TrxCall.Update 1 5), (1, TrxCall.Abort),
          (1, TrxCall.Begin), (1, TrxCall.Update 2 7), (1, TrxCall.Commit)]
        (Managers.init 3 1)).map TrxManager.observed =
      (TrxManager.sequence TrxManager.serve
        [(1, TrxCall.Begin), (1, TrxCall.Find 1), (1, TrxCall.Update 1 5), (1, TrxCall.Abort),
          (1, TrxCall.Begin), (1, TrxCall.Update 2 7), (1, TrxCall.Commit)]
        (Managers.init 3 1)).map TrxManager.observed :=
  ⟨by decide, TrxManager.sequence_mutex_same 3 1 _ (by decide)⟩
